import Mathlib

/-!
# Negative-cycle canceling for wind-farm cabling: a verification development

Shallow embedding of the data structures and of the negative-cycle-canceling
driver of the repository, followed by theorems about them.

Conventions of the embedding.

* A C++ `int` is a mathematical integer (`Int`); indices into vectors are
  natural numbers.  Signed overflow is undefined behaviour in the source and is
  not modelled: all statements are about runs in which no `int` overflows.
* A `std::vector` is a `List`.  A read outside the vector is undefined
  behaviour in the source; reads use `List.getD` with the default `0`, and the
  theorems state or prove that the indices they rely on are in range.
* A failed `assert`, an out-of-range read in a constructor's initialiser list
  and an impossible allocation make a constructor return `none`.
* A `double` is a rational number and `Auxiliary::DINFTY` is the top element of
  `WithTop ℚ`; sums and products of doubles are exact.  The one exception is the
  section on sums of doubles with rounding (namespaces `Binary64` and `Doubles`),
  where the detection strategy and `CostOfWalk` take the addition of doubles as an
  argument and are run with the rounded addition of the binary64 format.
-/

set_option autoImplicit false

namespace wcp

/-! ## Cable types (`DataStructures/Cabletypes.h`, `Cabletypes.cpp`) -/

/-- Class `Cabletypes`: the members of the C++ class. -/
structure Cabletypes where
  numberOfCables : Nat
  vectorOfCapacities : List Int
  vectorOfCosts : List Int
  maximumCableCapacity : Int
  vectorOfCostsExpanded : List Int
  isGivenByRealCables : Bool
deriving Repr, DecidableEq

namespace Cabletypes

/-- Constant `INFINITE_COST = std::numeric_limits<int>::max() / 2`. -/
def INFINITE_COST : Int := (2 ^ 31 - 1) / 2

/-- Function `IsStrictlyIncreasing`: the loop over `i = 1 .. size-1` returns false at the
first `i` with `v[i-1] >= v[i]`. -/
def IsStrictlyIncreasing (v : List Int) : Bool :=
  (List.range' 1 (v.length - 1)).all fun i => !(decide (v.getD (i - 1) 0 ≥ v.getD i 0))

/-- Function `IsIncreasingFromMidpoint`: the loop over `k = 0 .. mid-1` returns false at
the first `k` where the vector decreases one step further from the midpoint, on either
side. -/
def IsIncreasingFromMidpoint (expandedCosts : List Int) : Bool :=
  let mid := expandedCosts.length / 2
  (List.range mid).all fun k =>
    !(decide (expandedCosts.getD (mid + k) 0 > expandedCosts.getD (mid + k + 1) 0))
      && !(decide (expandedCosts.getD (mid - k) 0 > expandedCosts.getD (mid - k - 1) 0))

/-- Function `IsSymmetric`: the loop over `k = 1 .. mid` returns false at the first `k`
with `expandedCosts[mid + k] != expandedCosts[mid - k]`. -/
def IsSymmetric (expandedCosts : List Int) : Bool :=
  let mid := expandedCosts.length / 2
  (List.range' 1 mid).all fun k =>
    !(decide (expandedCosts.getD (mid + k) 0 ≠ expandedCosts.getD (mid - k) 0))

/-- One iteration of the loop of `FillExpandedCosts`; the loop state is
`(currentStep, vectorOfCostsExpanded_)`. -/
def FillExpandedCostsStep (caps costs : List Int) (mid : Nat) (st : Nat × List Int) (i : Nat) :
    Nat × List Int :=
  let currentStep := if (i : Int) > caps.getD st.1 0 then st.1 + 1 else st.1
  (currentStep,
    ((st.2.set (mid + i) (costs.getD currentStep 0)).set (mid - i) (costs.getD currentStep 0)))

/-- Function `FillExpandedCosts`: writes `0` at the midpoint and runs the loop over
`i = 1 .. mid`.  The argument `expanded` is `vectorOfCostsExpanded_` on entry. -/
def FillExpandedCosts (caps costs expanded : List Int) : List Int :=
  let mid := expanded.length / 2
  ((List.range' 1 mid).foldl (FillExpandedCostsStep caps costs mid) (0, expanded.set mid 0)).2

/-- One iteration of the loop of `ExtractCableCosts`; the loop state is
`(previousCosts, vectorOfCapacities_, vectorOfCosts_)`. -/
def ExtractCableCostsStep (expanded : List Int) (mid : Nat) (st : Int × List Int × List Int)
    (k : Nat) : Int × List Int × List Int :=
  let currentCosts := expanded.getD (mid + k) 0
  if currentCosts ≠ st.1 then (currentCosts, st.2.1 ++ [(k : Int)], st.2.2 ++ [currentCosts])
  else st

/-- Function `ExtractCableCosts`: the pair `(vectorOfCapacities_, vectorOfCosts_)` after
the loop over `k = 1 .. mid`, started from two empty vectors. -/
def ExtractCableCosts (expanded : List Int) : List Int × List Int :=
  let mid := expanded.length / 2
  ((List.range' 1 mid).foldl (ExtractCableCostsStep expanded mid) (0, [], [])).2

/-- Constructor `Cabletypes(vectorOfCapacities, vectorOfCosts)`.  The initialiser list
reads `vectorOfCapacities_[numberOfCables_ - 1]` and allocates `2 * max + 1` entries
before the body asserts anything. -/
def ofBreakpoints (vectorOfCapacities vectorOfCosts : List Int) : Option Cabletypes :=
  let numberOfCables := vectorOfCosts.length
  if numberOfCables = 0 then none
  else
    match vectorOfCapacities[numberOfCables - 1]? with
    | none => none
    | some maximumCableCapacity =>
      if 2 * maximumCableCapacity + 1 < 0 then none
      else if vectorOfCosts.length ≠ vectorOfCapacities.length then none
      else if !IsStrictlyIncreasing vectorOfCosts then none
      else if !IsStrictlyIncreasing vectorOfCapacities then none
      else
        some
          { numberOfCables := numberOfCables
            vectorOfCapacities := vectorOfCapacities
            vectorOfCosts := vectorOfCosts
            maximumCableCapacity := maximumCableCapacity
            vectorOfCostsExpanded :=
              FillExpandedCosts vectorOfCapacities vectorOfCosts
                (List.replicate (2 * maximumCableCapacity + 1).toNat 0)
            isGivenByRealCables := true }

/-- Constructor `Cabletypes(expandedVector)`. -/
def ofExpanded (expandedVector : List Int) : Option Cabletypes :=
  let maximumCableCapacity : Int := ((expandedVector.length / 2 : Nat) : Int)
  if expandedVector.length % 2 ≠ 1 then none
  else if expandedVector.length ≠ 2 * maximumCableCapacity.toNat + 1 then none
  else if !IsIncreasingFromMidpoint expandedVector then none
  else
    let mid := expandedVector.length / 2
    let isGivenByRealCables :=
      decide (maximumCableCapacity > 0) && decide (expandedVector.getD mid 0 = 0)
        && IsSymmetric expandedVector
    let extracted : List Int × List Int :=
      if isGivenByRealCables then ExtractCableCosts expandedVector else ([], [])
    some
      { numberOfCables := extracted.2.length
        vectorOfCapacities := extracted.1
        vectorOfCosts := extracted.2
        maximumCableCapacity := maximumCableCapacity
        vectorOfCostsExpanded := expandedVector
        isGivenByRealCables := isGivenByRealCables }

/-- Accessor `NumberOfCables`. -/
def NumberOfCables (c : Cabletypes) : Nat := c.numberOfCables

/-- Accessor `MaximumCapacity`. -/
def MaximumCapacity (c : Cabletypes) : Int := c.maximumCableCapacity

/-- Accessor `ExpandedCosts`. -/
def ExpandedCosts (c : Cabletypes) : List Int := c.vectorOfCostsExpanded

/-- Accessor `CapacityBreakpoints`; it asserts `isGivenByRealCables_`. -/
def CapacityBreakpoints (c : Cabletypes) : Option (List Int) :=
  if c.isGivenByRealCables then some c.vectorOfCapacities else none

/-- Accessor `CostBreakpoints`; it asserts `isGivenByRealCables_`. -/
def CostBreakpoints (c : Cabletypes) : Option (List Int) :=
  if c.isGivenByRealCables then some c.vectorOfCosts else none

/-- Function `CostOfFlow`. -/
def CostOfFlow (c : Cabletypes) (flow : Int) : Int :=
  if flow < -c.MaximumCapacity ∨ flow > c.MaximumCapacity then INFINITE_COST
  else c.vectorOfCostsExpanded.getD ((c.vectorOfCostsExpanded.length / 2 : Nat) + flow).toNat 0

end Cabletypes

/-! ## Instance, vertices and edges (`Instance.h`, `Vertex.h`, `Edge.h`) -/

/-- Enumeration `VertexType`. -/
inductive VertexType where
  | turbine
  | substation
  | supersubstation
deriving Repr, DecidableEq

/-- Shape of a node of the input graph: `Instance::IsTurbine` holds for a rectangle,
`Instance::IsSubstation` for an ellipse, neither for any other shape. -/
inductive NodeShape where
  | rect
  | ellipse
  | other
deriving Repr, DecidableEq

/-- A node of the input graph: its shape and the capacity read from its label
(`Instance::SubstationCapacity`).  The node's index is its position. -/
structure InstanceNode where
  shape : NodeShape
  capacity : Int
deriving Repr, DecidableEq

/-- An edge of the input graph: indices of source and target and the value that
`Windfarm::Length(e, graphAttributes)` computes for it.  The edge's index is its
position. -/
structure InstanceEdge where
  source : Nat
  target : Nat
  length : ℚ
deriving Repr, DecidableEq

/-- Class `Instance`: the graph with its attributes and the cable types. -/
structure Instance where
  nodes : List InstanceNode
  edges : List InstanceEdge
  cabletypes : Cabletypes
deriving Repr, DecidableEq

/-- Struct `Vertex`: capacity, type and outgoing edges (identifier, coordinates and the
incident-edge list are not read by the modelled code).  The defaults are those of the
constructor `Vertex()`. -/
structure Vertex where
  capacity : Int := -1
  type : VertexType := VertexType.turbine
  outgoingEdges : List Nat := []
deriving Repr, DecidableEq

instance : Inhabited Vertex := ⟨{}⟩

/-- Struct `Edge`; `Edge()` value-initialises every member. -/
structure Edge where
  identifier : Nat := 0
  length : ℚ := 0
  capacity : Int := 0
  startVertex : Nat := 0
  endVertex : Nat := 0
deriving Repr, DecidableEq

instance : Inhabited Edge := ⟨{}⟩

instance : Inhabited InstanceNode := ⟨⟨NodeShape.other, 0⟩⟩

instance : Inhabited InstanceEdge := ⟨⟨0, 0, 0⟩⟩

/-! ## The residual graph (`Windfarm.h`, `Windfarm.cpp`, `WindfarmResidual.h`,
`WindfarmResidual.cpp`) -/

/-- Class `WindfarmResidual` with the members of its base class `Windfarm`. -/
structure WindfarmResidual where
  numberOfOriginalVertices : Nat
  numberOfOriginalEdges : Nat
  numberOfTurbines : Nat
  numberOfSubstations : Nat
  listOfVertices : List Vertex
  listOfEdges : List Edge
  turbineIdentifiers : List Nat
  substationIdentifiers : List Nat
  cabletypes : Cabletypes
  flowValues : List Int
  residualCosts : List (WithTop ℚ)

namespace WindfarmResidual

/-- Accessor `NumberOfOriginalVertices`. -/
def NumberOfOriginalVertices (w : WindfarmResidual) : Nat := w.numberOfOriginalVertices

/-- Accessor `NumberOfVertices`. -/
def NumberOfVertices (w : WindfarmResidual) : Nat := w.listOfVertices.length

/-- Accessor `NumberOfTurbines`. -/
def NumberOfTurbines (w : WindfarmResidual) : Nat := w.numberOfTurbines

/-- Accessor `NumberOfSubstations`. -/
def NumberOfSubstations (w : WindfarmResidual) : Nat := w.numberOfSubstations

/-- Accessor `NumberOfOriginalEdges`. -/
def NumberOfOriginalEdges (w : WindfarmResidual) : Nat := w.numberOfOriginalEdges

/-- Accessor `NumberOfEdges`. -/
def NumberOfEdges (w : WindfarmResidual) : Nat := w.listOfEdges.length

/-- Accessor `SuperSubstationIdentifier`. -/
def SuperSubstationIdentifier (w : WindfarmResidual) : Nat := w.NumberOfVertices - 1

/-- Accessor `Turbines`. -/
def Turbines (w : WindfarmResidual) : List Nat := w.turbineIdentifiers

/-- Accessor `Substations`. -/
def Substations (w : WindfarmResidual) : List Nat := w.substationIdentifiers

/-- Accessor `VertexAt`. -/
def VertexAt (w : WindfarmResidual) (index : Nat) : Vertex := w.listOfVertices.getD index default

/-- Accessor `EdgeAt`. -/
def EdgeAt (w : WindfarmResidual) (index : Nat) : Edge := w.listOfEdges.getD index default

/-- Accessor `SubstationAt`. -/
def SubstationAt (w : WindfarmResidual) (index : Nat) : Nat := w.Substations.getD index 0

/-- Accessor `VertexCapacity`. -/
def VertexCapacity (w : WindfarmResidual) (index : Nat) : Int := (w.VertexAt index).capacity

/-- Accessor `StartVertex`. -/
def StartVertex (w : WindfarmResidual) (index : Nat) : Nat := (w.EdgeAt index).startVertex

/-- Accessor `EndVertex`. -/
def EndVertex (w : WindfarmResidual) (index : Nat) : Nat := (w.EdgeAt index).endVertex

/-- Accessor `Length(edgeID)`. -/
def Length (w : WindfarmResidual) (index : Nat) : ℚ := (w.EdgeAt index).length

/-- Accessor `EdgeCapacity`. -/
def EdgeCapacity (w : WindfarmResidual) (index : Nat) : Int := (w.EdgeAt index).capacity

/-- Accessor `IsTurbine`. -/
def IsTurbine (w : WindfarmResidual) (index : Nat) : Bool :=
  decide ((w.VertexAt index).type = VertexType.turbine)

/-- Accessor `IsSubstation`. -/
def IsSubstation (w : WindfarmResidual) (index : Nat) : Bool :=
  decide ((w.VertexAt index).type = VertexType.substation)

/-- Accessor `IsSuperSubstation`. -/
def IsSuperSubstation (w : WindfarmResidual) (index : Nat) : Bool :=
  decide ((w.VertexAt index).type = VertexType.supersubstation)

/-- Accessor `OutgoingEdges`. -/
def OutgoingEdges (w : WindfarmResidual) (index : Nat) : List Nat :=
  (w.VertexAt index).outgoingEdges

/-- Write access through `VertexAt(index)`. -/
def setVertex (w : WindfarmResidual) (index : Nat) (v : Vertex) : WindfarmResidual :=
  { w with listOfVertices := w.listOfVertices.set index v }

/-- Write access through `EdgeAt(index)`. -/
def setEdge (w : WindfarmResidual) (index : Nat) (e : Edge) : WindfarmResidual :=
  { w with listOfEdges := w.listOfEdges.set index e }

/-- Function `AddTurbine`. -/
def AddTurbine (w : WindfarmResidual) (index : Nat) : WindfarmResidual :=
  { w with turbineIdentifiers := w.turbineIdentifiers ++ [index]
           numberOfTurbines := w.numberOfTurbines + 1 }

/-- Function `AddSubstation`. -/
def AddSubstation (w : WindfarmResidual) (index : Nat) : WindfarmResidual :=
  { w with substationIdentifiers := w.substationIdentifiers ++ [index]
           numberOfSubstations := w.numberOfSubstations + 1 }

/-- Function `AddOutgoingEdge`. -/
def AddOutgoingEdge (w : WindfarmResidual) (vertexIndex edgeIndex : Nat) : WindfarmResidual :=
  w.setVertex vertexIndex
    { w.VertexAt vertexIndex with
      outgoingEdges := (w.VertexAt vertexIndex).outgoingEdges ++ [edgeIndex] }

/-- Body of the loop over the nodes in the constructor `Windfarm(instance)`. -/
def windfarmNodeStep (inst : Instance) (w : WindfarmResidual) (vIndex : Nat) : WindfarmResidual :=
  let node := inst.nodes.getD vIndex default
  match node.shape with
  | NodeShape.rect =>
    (w.setVertex vIndex { w.VertexAt vIndex with type := VertexType.turbine }).AddTurbine vIndex
  | NodeShape.ellipse =>
    (w.setVertex vIndex
      { w.VertexAt vIndex with type := VertexType.substation, capacity := node.capacity }).AddSubstation
      vIndex
  | NodeShape.other => w

/-- Constructor `Windfarm(instance)` of the base class: `n + 1` default vertices, the loop
over the nodes, the assertion that every node was recognised, and the super substation at
index `n`. -/
def windfarmOfInstance (inst : Instance) : Option WindfarmResidual :=
  let n := inst.nodes.length
  let w0 : WindfarmResidual :=
    { numberOfOriginalVertices := n
      numberOfOriginalEdges := inst.edges.length
      numberOfTurbines := 0
      numberOfSubstations := 0
      listOfVertices := List.replicate (n + 1) default
      listOfEdges := []
      turbineIdentifiers := []
      substationIdentifiers := []
      cabletypes := inst.cabletypes
      flowValues := []
      residualCosts := [] }
  let w1 := (List.range n).foldl (windfarmNodeStep inst) w0
  if w1.NumberOfSubstations + w1.NumberOfTurbines ≠ w1.NumberOfOriginalVertices then none
  else
    some (w1.setVertex w1.NumberOfOriginalVertices
      { w1.VertexAt w1.NumberOfOriginalVertices with type := VertexType.supersubstation })

/-- Body of the loop over the edges of the instance in the constructor
`WindfarmResidual(instance)`. -/
def originalEdgeStep (inst : Instance) (w : WindfarmResidual) (edgeIndex : Nat) :
    WindfarmResidual :=
  let e := inst.edges.getD edgeIndex default
  let sourceIndex := e.source
  let targetIndex := e.target
  let w := w.setEdge edgeIndex
    { identifier := edgeIndex, startVertex := sourceIndex, endVertex := targetIndex,
      length := e.length, capacity := w.cabletypes.MaximumCapacity }
  let w := w.AddOutgoingEdge sourceIndex edgeIndex
  let reverseEdgeIndex := edgeIndex + w.NumberOfOriginalEdges
  let w := w.setEdge reverseEdgeIndex
    { identifier := edgeIndex, startVertex := targetIndex, endVertex := sourceIndex,
      length := e.length, capacity := w.cabletypes.MaximumCapacity }
  w.AddOutgoingEdge targetIndex reverseEdgeIndex

/-- Body of the loop over the substations in the constructor
`WindfarmResidual(instance)`. -/
def substationEdgeStep (w : WindfarmResidual) (i : Nat) : WindfarmResidual :=
  let substation := w.SubstationAt i
  let towardsEdgeIndex := 2 * w.NumberOfOriginalEdges + i
  let w := w.setEdge towardsEdgeIndex
    { w.EdgeAt towardsEdgeIndex with
      identifier := towardsEdgeIndex, startVertex := substation,
      endVertex := w.SuperSubstationIdentifier, capacity := w.VertexCapacity substation }
  let w := w.AddOutgoingEdge substation towardsEdgeIndex
  let fromEdgeIndex := towardsEdgeIndex + w.NumberOfSubstations
  let w := w.setEdge fromEdgeIndex
    { w.EdgeAt fromEdgeIndex with
      identifier := fromEdgeIndex, startVertex := w.SuperSubstationIdentifier,
      endVertex := substation, capacity := w.VertexCapacity substation }
  w.AddOutgoingEdge w.SuperSubstationIdentifier fromEdgeIndex

/-- Constructor `WindfarmResidual(instance)`.  The end points of every edge of the
instance must be nodes of the instance (`AddOutgoingEdge` asserts it). -/
def ofInstance (inst : Instance) : Option WindfarmResidual :=
  match windfarmOfInstance inst with
  | none => none
  | some w =>
    if !(inst.edges.all fun e => decide (e.source < inst.nodes.length)
          && decide (e.target < inst.nodes.length)) then none
    else
      let w := { w with
        listOfEdges :=
          List.replicate (2 * w.NumberOfOriginalEdges + 2 * w.NumberOfSubstations) default }
      let w := (List.range inst.edges.length).foldl (originalEdgeStep inst) w
      let w := (List.range w.NumberOfSubstations).foldl substationEdgeStep w
      some { w with
        flowValues := List.replicate (w.NumberOfOriginalEdges + w.NumberOfSubstations) 0
        residualCosts := List.replicate w.NumberOfEdges 0 }

/-- Function `ReverseEdgeIndex`. -/
def ReverseEdgeIndex (w : WindfarmResidual) (index : Nat) : Nat :=
  if index < w.NumberOfOriginalEdges then index + w.NumberOfOriginalEdges
  else if index < 2 * w.NumberOfOriginalEdges then index - w.NumberOfOriginalEdges
  else if index < 2 * w.NumberOfOriginalEdges + w.NumberOfSubstations then
    index + w.NumberOfSubstations
  else index - w.NumberOfSubstations

/-- Function `FlowOnEdge`. -/
def FlowOnEdge (w : WindfarmResidual) (index : Nat) : Int :=
  if index < w.NumberOfOriginalEdges then w.flowValues.getD index 0
  else if index < 2 * w.NumberOfOriginalEdges then
    -w.flowValues.getD (index - w.NumberOfOriginalEdges) 0
  else if index < 2 * w.NumberOfOriginalEdges + w.NumberOfSubstations then
    w.flowValues.getD (index - w.NumberOfOriginalEdges) 0
  else -w.flowValues.getD (index - w.NumberOfOriginalEdges - w.NumberOfSubstations) 0

/-- Function `SetFlowOnEdge`. -/
def SetFlowOnEdge (w : WindfarmResidual) (index : Nat) (newFlow : Int) : WindfarmResidual :=
  if index < w.NumberOfOriginalEdges then
    { w with flowValues := w.flowValues.set index newFlow }
  else if index < 2 * w.NumberOfOriginalEdges then
    { w with flowValues := w.flowValues.set (index - w.NumberOfOriginalEdges) (-newFlow) }
  else if index < 2 * w.NumberOfOriginalEdges + w.NumberOfSubstations then
    { w with flowValues := w.flowValues.set (index - w.NumberOfOriginalEdges) newFlow }
  else
    { w with flowValues :=
        w.flowValues.set (index - w.NumberOfOriginalEdges - w.NumberOfSubstations) (-newFlow) }

/-- Function `AddFlowOnEdge`. -/
def AddFlowOnEdge (w : WindfarmResidual) (index : Nat) (delta : Int) : WindfarmResidual :=
  w.SetFlowOnEdge index (w.FlowOnEdge index + delta)

/-- Function `AddFlowOnMultipleEdges`. -/
def AddFlowOnMultipleEdges (w : WindfarmResidual) (edges : List Nat) (delta : Int) :
    WindfarmResidual :=
  edges.foldl (fun w edge => w.AddFlowOnEdge edge delta) w

/-- Accessor `ResidualCostOnEdge` (read). -/
def ResidualCostOnEdge (w : WindfarmResidual) (index : Nat) : WithTop ℚ :=
  w.residualCosts.getD index 0

/-- Accessor `ResidualCostOnEdge` (write through the returned reference). -/
def setResidualCostOnEdge (w : WindfarmResidual) (index : Nat) (c : WithTop ℚ) :
    WindfarmResidual :=
  { w with residualCosts := w.residualCosts.set index c }

/-- Function `EdgeToSupersubstation`: the last outgoing edge of the substation. -/
def EdgeToSupersubstation (w : WindfarmResidual) (substation : Nat) : Nat :=
  (w.OutgoingEdges substation).getLastD 0

/-- Function `FlowToSubstation`. -/
def FlowToSubstation (w : WindfarmResidual) (substation : Nat) : Int :=
  w.FlowOnEdge (w.EdgeToSupersubstation substation)

/-- Function `FreeSubstationCapacity`. -/
def FreeSubstationCapacity (w : WindfarmResidual) (substation : Nat) : Int :=
  w.VertexCapacity substation - w.FlowToSubstation substation

/-- Function `FreeEdgeCapacity`. -/
def FreeEdgeCapacity (w : WindfarmResidual) (edge : Nat) : Int :=
  w.cabletypes.MaximumCapacity - w.FlowOnEdge edge

/-- Function `ComputeCostOfFlowOnEdge`. -/
def ComputeCostOfFlowOnEdge (w : WindfarmResidual) (index : Nat) : ℚ :=
  (w.cabletypes.CostOfFlow (w.FlowOnEdge index) : ℚ) * w.Length index

/-- Function `ComputeTotalCostOfFlow`: the loop over the original edges. -/
def ComputeTotalCostOfFlow (w : WindfarmResidual) : ℚ :=
  (List.range w.NumberOfOriginalEdges).foldl
    (fun cost i => cost + w.ComputeCostOfFlowOnEdge i) 0

end WindfarmResidual

/-- Function `AssertFeasibleFlow`: true iff none of its assertions fails. -/
def AssertFeasibleFlow (w : WindfarmResidual) : Bool :=
  ((List.range w.NumberOfEdges).all fun edge =>
      decide (w.FlowOnEdge edge = -w.FlowOnEdge (w.ReverseEdgeIndex edge))
      && (if !w.IsSuperSubstation (w.StartVertex edge) && !w.IsSuperSubstation (w.EndVertex edge)
          then decide (w.FlowOnEdge edge ≤ w.cabletypes.MaximumCapacity) else true))
  && (w.Turbines.all fun turbine =>
      decide (((w.OutgoingEdges turbine).map w.FlowOnEdge).sum = 1))
  && (w.Substations.all fun substation =>
      ((w.OutgoingEdges substation).all fun edge =>
        let endVertex := w.EndVertex edge
        if w.IsTurbine endVertex then decide (w.FlowOnEdge edge ≤ 0)
        else if w.IsSuperSubstation endVertex then
          decide (w.FlowOnEdge edge ≥ 0)
            && decide (w.FlowToSubstation substation = w.FlowOnEdge edge)
        else decide (w.FlowOnEdge edge = 0))
      && decide (((w.OutgoingEdges substation).map w.FlowOnEdge).sum = 0)
      && decide (w.FlowToSubstation substation ≥ 0)
      && decide (w.FlowToSubstation substation ≤ w.VertexCapacity substation))

/-! ## Standard residual costs (`StandardResidualCostComputer.h`) -/

namespace StandardResidualCostComputer

/-- Function `ResidualCostForNonSupersubstationEdge` (four-argument overload). -/
def ResidualCostForNonSupersubstationEdge (w : WindfarmResidual) (edge start : Nat)
    (changeOfFlow : Int) (cabletypes : Cabletypes) : WithTop ℚ :=
  let remainingCapacity : Int :=
    if w.IsSubstation start then -w.FlowOnEdge edge else w.FreeEdgeCapacity edge
  if changeOfFlow ≤ remainingCapacity then
    let flow := w.FlowOnEdge edge
    ((((cabletypes.CostOfFlow (flow + changeOfFlow) - cabletypes.CostOfFlow flow : Int) : ℚ)
      * w.Length edge : ℚ) : WithTop ℚ)
  else ⊤

/-- Function `ResidualCosts`. -/
def ResidualCosts (w : WindfarmResidual) (edge : Nat) (changeOfFlow : Int) : WithTop ℚ :=
  let start := w.StartVertex edge
  let «end» := w.EndVertex edge
  if w.IsSuperSubstation start then
    let flowToSubstation := -w.FlowOnEdge edge
    if changeOfFlow ≤ flowToSubstation then 0 else ⊤
  else if w.IsSuperSubstation «end» then
    let freeCapacity := w.FreeSubstationCapacity start
    if changeOfFlow ≤ freeCapacity then 0 else ⊤
  else ResidualCostForNonSupersubstationEdge w edge start changeOfFlow w.cabletypes

/-- Function `ComputeStandardResidualCosts`: the loop over all edges. -/
def ComputeStandardResidualCosts (w : WindfarmResidual) (changeOfFlow : Int) :
    WindfarmResidual :=
  (List.range w.NumberOfEdges).foldl
    (fun w edge => w.setResidualCostOnEdge edge (ResidualCosts w edge changeOfFlow)) w

/-- Function `ComputeResidualCosts` of the standard computer. -/
def ComputeResidualCosts (w : WindfarmResidual) (changeOfFlow : Int) : WindfarmResidual :=
  ComputeStandardResidualCosts w changeOfFlow

end StandardResidualCostComputer

/-! ## The negative-cycle-canceling driver (`NegativeCycleCanceling.h`,
`NegativeCycleCanceling.cpp`) -/

/-- Enumeration `ReturnCode`. -/
inductive ReturnCode where
  | SUCCESS
  | INFEASIBLE
  | ITERATION_LIMIT
  | TIME_LIMIT
  | IN_PROGRESS
  | NO_FEASIBLE_SOLUTION_FOUND
  | EARLY_TERMINATION
  | BOUND_TO_TERMINATE
  | NOTHING_CHANGED
deriving Repr, DecidableEq

/-- What a `NegativeCycleDetection` strategy delivers for fixed residual costs: the code
returned by `Run()` and the walks returned by the successive calls of
`ExtractNegativeClosedWalk()` up to, and without, the first empty one.  Between two such
calls the driver changes neither flow nor residual costs. -/
structure DetectionResult where
  code : ReturnCode
  walks : List (List Nat)
deriving Repr, DecidableEq

/-- The members of `NegativeCycleCanceling` that a cancellation pass reads or writes. -/
structure NCCState where
  windfarm : WindfarmResidual
  visitedVertex : List Bool
  walkID : Nat
  solutionCosts : WithTop ℚ

namespace NegativeCycleCanceling

/-- Function `CostOfWalk`, with exact sums; `Doubles.CostOfWalk` is the same function with
the addition of doubles as an argument. -/
def CostOfWalk (w : WindfarmResidual) (walk : List Nat) : WithTop ℚ :=
  walk.foldl (fun cost e => cost + w.ResidualCostOnEdge e) 0

/-- Function `IsEndVertexVisited`. -/
def IsEndVertexVisited (w : WindfarmResidual) (visited : List Bool) (edge : Nat) : Bool :=
  visited.getD (w.EndVertex edge) false

/-- Function `SetEndVertexVisited`. -/
def SetEndVertexVisited (w : WindfarmResidual) (visited : List Bool) (edge : Nat) (b : Bool) :
    List Bool :=
  visited.set (w.EndVertex edge) b

/-- The loop of `FindClosingEdge` on the part of the walk from `index` on; `none` when the
loop reads past the end of the walk. -/
def FindClosingEdgeLoop (w : WindfarmResidual) :
    List Nat → List Bool → Nat → Option (Nat × List Bool)
  | [], _, _ => none
  | e :: rest, visited, index =>
    if IsEndVertexVisited w visited e then some (index, visited)
    else FindClosingEdgeLoop w rest (SetEndVertexVisited w visited e true) (index + 1)

/-- Function `FindClosingEdge`: the index found and `visitedVertex_` afterwards. -/
def FindClosingEdge (w : WindfarmResidual) (walk : List Nat) (visited : List Bool)
    (startIndex : Nat) : Option (Nat × List Bool) :=
  FindClosingEdgeLoop w (walk.drop startIndex) visited startIndex

/-- Function `CancelCycle` with the standard residual-cost computer (whose
`CreateNewCableTypeWhileCanceling` does nothing); the calls of the logger are left out. -/
def CancelCycle (st : NCCState) (cycle : List Nat) (changeOfFlow : Int) : NCCState × Bool :=
  let length := cycle.length
  let costChange := CostOfWalk st.windfarm cycle
  let cycleWillBeCanceled := decide (length > 2) && decide (costChange < 0)
  if cycleWillBeCanceled then
    ({ st with
        solutionCosts := st.solutionCosts + costChange
        windfarm := st.windfarm.AddFlowOnMultipleEdges cycle changeOfFlow }, true)
  else (st, false)

/-- The state of the loop in `CancelNegativeWalk`. -/
structure WalkLoopState where
  st : NCCState
  walk : List Nat
  currentIndex : Nat
  canceledAnyCycle : Bool

/-- The simple cycle that one iteration of the loop in `CancelNegativeWalk` hands to
`CancelCycle`: the positions `cycleBegin` and `cycleEnd` and `visitedVertex_` after
`FindClosingEdge`. -/
def FindCycle (w : WindfarmResidual) (walk : List Nat) (visited : List Bool)
    (currentIndex : Nat) : Option (Nat × Nat × List Bool) :=
  let visited := visited.set (w.StartVertex (walk.getD currentIndex 0)) true
  match FindClosingEdge w walk visited currentIndex with
  | none => none
  | some (closing, visited) =>
    let indexAfterCycle := closing + 1
    let duplicateVertex := w.EndVertex (walk.getD (indexAfterCycle - 1) 0)
    let cycleEnd := indexAfterCycle
    let cycleBegin :=
      (walk.take cycleEnd).findIdx fun edge => decide (w.StartVertex edge = duplicateVertex)
    some (cycleBegin, cycleEnd, visited)

/-- One iteration of the loop in `CancelNegativeWalk`. -/
def CancelNegativeWalkStep (s : WalkLoopState) (changeOfFlow : Int) : Option WalkLoopState :=
  match FindCycle s.st.windfarm s.walk s.st.visitedVertex s.currentIndex with
  | none => none
  | some (cycleBegin, cycleEnd, visited) =>
    let cycle := (s.walk.take cycleEnd).drop cycleBegin
    let r := CancelCycle { s.st with visitedVertex := visited } cycle changeOfFlow
    let st := r.1
    let visited := cycle.foldl (fun vis e => SetEndVertexVisited st.windfarm vis e false)
      st.visitedVertex
    some
      { st := { st with visitedVertex := visited }
        walk := s.walk.take cycleBegin ++ s.walk.drop cycleEnd
        currentIndex := cycleBegin
        canceledAnyCycle := s.canceledAnyCycle || r.2 }

/-- The loop `while (!walk.empty())` of `CancelNegativeWalk`, cut after `fuel`
iterations. -/
def CancelNegativeWalkLoop : Nat → WalkLoopState → Int → Option WalkLoopState
  | 0, s, _ => if s.walk.isEmpty then some s else none
  | fuel + 1, s, changeOfFlow =>
    if s.walk.isEmpty then some s
    else
      match CancelNegativeWalkStep s changeOfFlow with
      | none => none
      | some s' => CancelNegativeWalkLoop fuel s' changeOfFlow

/-- Function `CancelNegativeWalk` of the base class, whose `dealWithBonbons` does nothing.
The result is `none` when the loop reads outside the walk or does not end within
`walk.length` iterations. -/
def CancelNegativeWalk (st : NCCState) (walk : List Nat) (changeOfFlow : Int)
    (isRegularNCCrun : Bool) : Option (NCCState × Bool) :=
  match CancelNegativeWalkLoop walk.length
      { st := st, walk := walk, currentIndex := 0, canceledAnyCycle := false } changeOfFlow with
  | none => none
  | some s =>
    some ({ s.st with walkID := if isRegularNCCrun then s.st.walkID + 1 else s.st.walkID },
      s.canceledAnyCycle)

/-- The slices of the walk that the successive iterations of the loop in
`CancelNegativeWalk` hand to `CancelCycle` (the ranges `[cycleBegin, cycleEnd)`), in the
order of the calls. -/
def CancelNegativeWalkSlices : Nat → WalkLoopState → Int → List (List Nat)
  | 0, _, _ => []
  | fuel + 1, s, changeOfFlow =>
    if s.walk.isEmpty then []
    else
      match FindCycle s.st.windfarm s.walk s.st.visitedVertex s.currentIndex with
      | none => []
      | some (cycleBegin, cycleEnd, _) =>
        ((s.walk.take cycleEnd).drop cycleBegin) ::
          match CancelNegativeWalkStep s changeOfFlow with
          | none => []
          | some s' => CancelNegativeWalkSlices fuel s' changeOfFlow

/-- The value of `cycleWillBeCanceled` in `CancelCycle`: the cycle has more than two edges
and a negative sum of residual costs. -/
def CycleWillBeCanceled (w : WindfarmResidual) (cycle : List Nat) : Bool :=
  decide (cycle.length > 2) && decide (CostOfWalk w cycle < 0)

/-- Function `IsTimeLimitExceeded()`: the answers of the successive readings of the clock
are given by `clock`; a reading beyond the list is not over the limit. -/
def IsTimeLimitExceeded (clock : List Bool) : Bool × List Bool :=
  (clock.headD false, clock.tail)

/-- Function `ExtractWalkAndCancelCycle`: the loop over the walks that the detection
strategy returns. -/
def ExtractWalkAndCancelCycle (changeOfFlow : Int) (isRegularNCCrun : Bool) :
    List (List Nat) → NCCState → List Bool → Option (NCCState × Bool)
  | [], st, _ => some (st, false)
  | negativeWalk :: rest, st, clock =>
    if negativeWalk.isEmpty then some (st, false)
    else if (IsTimeLimitExceeded clock).1 then some (st, false)
    else
      match CancelNegativeWalk st negativeWalk changeOfFlow isRegularNCCrun with
      | none => none
      | some (st', true) => some (st', true)
      | some (st', false) =>
        ExtractWalkAndCancelCycle changeOfFlow isRegularNCCrun rest st'
          (IsTimeLimitExceeded clock).2

/-- Function `PerformNegativeCycleCancelingForSingleDelta` with the standard
residual-cost computer; `detection` is `detectionStrategy_`. -/
def PerformNegativeCycleCancelingForSingleDelta (detection : WindfarmResidual → DetectionResult)
    (st : NCCState) (delta : Int) (isRegularNCCrun : Bool) (clock : List Bool) :
    Option (ReturnCode × NCCState) :=
  let st : NCCState :=
    { st with windfarm := StandardResidualCostComputer.ComputeResidualCosts st.windfarm delta }
  let detected := detection st.windfarm
  if (IsTimeLimitExceeded clock).1 then some (ReturnCode.TIME_LIMIT, st)
  else if detected.code = ReturnCode.SUCCESS then
    match ExtractWalkAndCancelCycle delta isRegularNCCrun detected.walks st
        (IsTimeLimitExceeded clock).2 with
    | none => none
    | some (st', hasANegativeCycleBeenCanceled) =>
      some (if hasANegativeCycleBeenCanceled then ReturnCode.SUCCESS
        else ReturnCode.NOTHING_CHANGED, st')
  else some (ReturnCode.NOTHING_CHANGED, st)

end NegativeCycleCanceling

/-! ## Distance labels (`OneDistanceLabel.h`, `TwoDistancesLabel.h`)

The identifiers `INVALID_VERTEX` and `INVALID_EDGE` (`-1`) are `none`. -/

/-- Class `OneDistanceLabel`, with the values of its default constructor. -/
structure OneDistanceLabel where
  dist : WithTop ℚ := ⊤
  parent : Option Nat := none

namespace OneDistanceLabel

/-- Function `WouldUpdate`. -/
def WouldUpdate (l : OneDistanceLabel) (distance : WithTop ℚ) (_parent : Nat) : Bool :=
  decide (distance < l.dist)

/-- Function `Update`: the label afterwards and the value returned. -/
def Update (l : OneDistanceLabel) (distance : WithTop ℚ) (parent : Nat) :
    OneDistanceLabel × Bool :=
  if distance < l.dist then ({ parent := some parent, dist := distance }, true)
  else (l, false)

/-- Function `Distance`. -/
def Distance (l : OneDistanceLabel) (_windfarm : WindfarmResidual) (_outgoingEdge : Nat) :
    WithTop ℚ := l.dist

/-- Function `Parent`. -/
def Parent (l : OneDistanceLabel) (_windfarm : WindfarmResidual) (_outgoingEdge : Nat) :
    Option Nat := l.parent

/-- The parent edges that the label holds. -/
def stored (l : OneDistanceLabel) : List Nat := l.parent.toList

end OneDistanceLabel

/-- Class `TwoDistancesLabel`, with the values of its default constructor. -/
structure TwoDistancesLabel where
  dist : WithTop ℚ := ⊤
  parent : Option Nat := none
  distSecond : WithTop ℚ := ⊤
  parentSecond : Option Nat := none

namespace TwoDistancesLabel

/-- Function `DistanceForbidding`. -/
def DistanceForbidding (l : TwoDistancesLabel) (forbiddenParent : Nat) : WithTop ℚ :=
  if l.parent = some forbiddenParent then l.distSecond else l.dist

/-- Function `ParentForbidding`. -/
def ParentForbidding (l : TwoDistancesLabel) (forbiddenParent : Nat) : Option Nat :=
  if l.parent = some forbiddenParent then l.parentSecond else l.parent

/-- Function `WouldUpdate`. -/
def WouldUpdate (l : TwoDistancesLabel) (distance : WithTop ℚ) (parent : Nat) : Bool :=
  decide (distance < l.dist)
    || (decide (distance < l.distSecond) && decide (some parent ≠ l.parent))

/-- Function `Update`: the label afterwards and the value returned. -/
def Update (l : TwoDistancesLabel) (distance : WithTop ℚ) (parent : Nat) :
    TwoDistancesLabel × Bool :=
  if distance < l.dist then
    if l.parent = some parent then ({ l with dist := distance }, true)
    else
      ({ distSecond := l.dist, parentSecond := l.parent, dist := distance,
         parent := some parent }, true)
  else if distance < l.distSecond ∧ l.parent ≠ some parent then
    ({ l with distSecond := distance, parentSecond := some parent }, true)
  else (l, false)

/-- Function `Distance`. -/
def Distance (l : TwoDistancesLabel) (windfarm : WindfarmResidual) (outgoingEdge : Nat) :
    WithTop ℚ :=
  l.DistanceForbidding (windfarm.ReverseEdgeIndex outgoingEdge)

/-- Function `Parent`. -/
def Parent (l : TwoDistancesLabel) (windfarm : WindfarmResidual) (outgoingEdge : Nat) :
    Option Nat :=
  l.ParentForbidding (windfarm.ReverseEdgeIndex outgoingEdge)

/-- The parent edges that the label holds. -/
def stored (l : TwoDistancesLabel) : List Nat := l.parent.toList ++ l.parentSecond.toList

end TwoDistancesLabel

/-- What the template `BellmanFord<LabelType>` uses of its parameter: the default
constructor, the four methods, and the specialisation of `NumberOfIterations`. -/
structure LabelType (L : Type) where
  init : L
  WouldUpdate : L → WithTop ℚ → Nat → Bool
  Update : L → WithTop ℚ → Nat → L × Bool
  Distance : L → WindfarmResidual → Nat → WithTop ℚ
  Parent : L → WindfarmResidual → Nat → Option Nat
  NumberOfIterations : WindfarmResidual → Int

/-- The label type of `StandardBellmanFord`. -/
def oneDistanceLabel : LabelType OneDistanceLabel :=
  { init := {}
    WouldUpdate := OneDistanceLabel.WouldUpdate
    Update := OneDistanceLabel.Update
    Distance := OneDistanceLabel.Distance
    Parent := OneDistanceLabel.Parent
    NumberOfIterations := fun windfarm => (windfarm.NumberOfVertices : Int) - 1 }

/-- The label type of `SideTripFreeBellmanFord`. -/
def twoDistancesLabel : LabelType TwoDistancesLabel :=
  { init := {}
    WouldUpdate := TwoDistancesLabel.WouldUpdate
    Update := TwoDistancesLabel.Update
    Distance := TwoDistancesLabel.Distance
    Parent := TwoDistancesLabel.Parent
    NumberOfIterations := fun windfarm => 2 * (windfarm.NumberOfVertices : Int) - 1 }

/-! ## The Bellman-Ford detection strategy (`BellmanFord.h`) -/

/-- The members of `BellmanFord<LabelType>` other than the reference to the residual
graph, which the functions below take as the argument `w`. -/
structure BellmanFord (L : Type) where
  labels : List L
  indexOfWalkIncluded : List Nat
  currentWalkIndex : Nat
  updatedSinceLastTime : List Bool
  vertexOfLastUpdate : Int
  earlyTermination : Bool
  numberOfRelaxedEdgesInLastRun : Nat

namespace BellmanFord

variable {L : Type}

/-- Constructor `BellmanFord(windfarm)`. -/
def create (ops : LabelType L) (w : WindfarmResidual) : BellmanFord L :=
  { labels := List.replicate w.NumberOfVertices ops.init
    indexOfWalkIncluded := List.replicate w.NumberOfEdges 0
    currentWalkIndex := 0
    updatedSinceLastTime := List.replicate w.NumberOfVertices true
    vertexOfLastUpdate := (w.NumberOfVertices : Int) - 1
    earlyTermination := false
    numberOfRelaxedEdgesInLastRun := 0 }

/-- Accessor `LabelAt`. -/
def LabelAt (ops : LabelType L) (s : BellmanFord L) (vertex : Nat) : L :=
  s.labels.getD vertex ops.init

/-- Function `Reset`. -/
def Reset (ops : LabelType L) (w : WindfarmResidual) (s : BellmanFord L) : BellmanFord L :=
  { labels := s.labels.map fun _ => ops.init
    indexOfWalkIncluded := s.indexOfWalkIncluded.map fun _ => 0
    currentWalkIndex := 0
    updatedSinceLastTime := s.updatedSinceLastTime.map fun _ => true
    vertexOfLastUpdate := (w.NumberOfVertices : Int) - 1
    earlyTermination := false
    numberOfRelaxedEdgesInLastRun := 0 }

/-- The call `MutableLabelAt(vertex).Update(distance, edge)`: the state afterwards and the
value returned. -/
def UpdateLabelAt (ops : LabelType L) (s : BellmanFord L) (vertex : Nat)
    (distance : WithTop ℚ) (edge : Nat) : BellmanFord L × Bool :=
  ({ s with labels := s.labels.set vertex (ops.Update (LabelAt ops s vertex) distance edge).1 },
    (ops.Update (LabelAt ops s vertex) distance edge).2)

/-- Function `InitializeLabels`. -/
def InitializeLabels (ops : LabelType L) (w : WindfarmResidual) (s : BellmanFord L) :
    BellmanFord L :=
  (List.range w.NumberOfEdges).foldl
    (fun s edge =>
      (UpdateLabelAt ops s (w.EndVertex edge) (w.ResidualCostOnEdge edge) edge).1) s

/-- Body of the loop of `RelaxOutgoingEdges`; the loop state is the object and
`atLeastOneUpdate`.  The sum of the distance and the residual cost is exact here;
`Doubles.BellmanFord.RelaxEdgeStep` is the same function with the addition of doubles as an
argument. -/
def RelaxEdgeStep (ops : LabelType L) (w : WindfarmResidual) (vertex : Nat)
    (st : BellmanFord L × Bool) (edge : Nat) : BellmanFord L × Bool :=
  let endVertex := w.EndVertex edge
  let distance := ops.Distance (LabelAt ops st.1 vertex) w edge + w.ResidualCostOnEdge edge
  let r := UpdateLabelAt ops st.1 endVertex distance edge
  ({ r.1 with
      updatedSinceLastTime :=
        r.1.updatedSinceLastTime.set endVertex
          (r.1.updatedSinceLastTime.getD endVertex false || r.2)
      numberOfRelaxedEdgesInLastRun :=
        r.1.numberOfRelaxedEdgesInLastRun + (if r.2 then 1 else 0) },
    st.2 || r.2)

/-- Function `RelaxOutgoingEdges`. -/
def RelaxOutgoingEdges (ops : LabelType L) (w : WindfarmResidual) (s : BellmanFord L)
    (vertex : Nat) : BellmanFord L :=
  let r := (w.OutgoingEdges vertex).foldl (RelaxEdgeStep ops w vertex) (s, false)
  if r.2 then { r.1 with vertexOfLastUpdate := (vertex : Int) } else r.1

/-- Body of the inner loop of `Run` for a vertex other than `vertexOfLastUpdate_`. -/
def RunStep (ops : LabelType L) (w : WindfarmResidual) (s : BellmanFord L) (vertex : Nat) :
    BellmanFord L :=
  if s.updatedSinceLastTime.getD vertex false then
    { RelaxOutgoingEdges ops w s vertex with
        updatedSinceLastTime :=
          (RelaxOutgoingEdges ops w s vertex).updatedSinceLastTime.set vertex false }
  else s

/-- The two nested loops of `Run`, over the vertices in the order in which the loops
visit them. -/
def RunLoop (ops : LabelType L) (w : WindfarmResidual) :
    List Nat → BellmanFord L → ReturnCode × BellmanFord L
  | [], s => (ReturnCode.SUCCESS, s)
  | vertex :: rest, s =>
    if (vertex : Int) = s.vertexOfLastUpdate then
      (ReturnCode.EARLY_TERMINATION, { s with earlyTermination := true })
    else RunLoop ops w rest (RunStep ops w s vertex)

/-- Function `Run`: the code returned and the object afterwards. -/
def Run (ops : LabelType L) (w : WindfarmResidual) (s : BellmanFord L) :
    ReturnCode × BellmanFord L :=
  RunLoop ops w
    ((List.range (ops.NumberOfIterations w).toNat).flatMap fun _ =>
      List.range w.NumberOfVertices)
    (InitializeLabels ops w (Reset ops w s))

/-- Function `OnAnyWalk`. -/
def OnAnyWalk (s : BellmanFord L) (edge : Nat) : Bool :=
  decide (s.indexOfWalkIncluded.getD edge 0 ≠ 0)

/-- Function `OnCurrentWalk`. -/
def OnCurrentWalk (s : BellmanFord L) (edge : Nat) : Bool :=
  decide (s.indexOfWalkIncluded.getD edge 0 = s.currentWalkIndex)

/-- Function `SetToCurrentWalk`. -/
def SetToCurrentWalk (s : BellmanFord L) (edge : Nat) : BellmanFord L :=
  { s with indexOfWalkIncluded := s.indexOfWalkIncluded.set edge s.currentWalkIndex }

/-- The test of `FindRelaxableOutgoingEdge` and of the claim on early termination: whether
the edge `edge` out of `vertex` can still be relaxed. -/
def IsRelaxable (ops : LabelType L) (w : WindfarmResidual) (s : BellmanFord L)
    (vertex edge : Nat) : Bool :=
  ops.WouldUpdate (LabelAt ops s (w.EndVertex edge))
    (ops.Distance (LabelAt ops s vertex) w edge + w.ResidualCostOnEdge edge) edge

/-- Function `FindRelaxableOutgoingEdge`; `INVALID_EDGE` is `none`. -/
def FindRelaxableOutgoingEdge (ops : LabelType L) (w : WindfarmResidual) (s : BellmanFord L)
    (vertex : Nat) : Option Nat :=
  (w.OutgoingEdges vertex).find? fun edge =>
    !OnAnyWalk s edge && IsRelaxable ops w s vertex edge

/-- The loop `while (!OnAnyWalk(currentEdge))` of `ExtractWalk`, cut after `fuel`
iterations: the object, `walk` and `currentEdge` when the loop ends.  The result is `none`
when the loop reads `indexOfWalkIncluded_[INVALID_EDGE]` or does not end within `fuel`
iterations. -/
def ExtractWalkLoop (ops : LabelType L) (w : WindfarmResidual) :
    Nat → BellmanFord L → List Nat → Option Nat → Option (BellmanFord L × List Nat × Nat)
  | _, _, _, none => none
  | 0, s, walk, some currentEdge =>
    if OnAnyWalk s currentEdge then some (s, walk, currentEdge) else none
  | fuel + 1, s, walk, some currentEdge =>
    if OnAnyWalk s currentEdge then some (s, walk, currentEdge)
    else
      ExtractWalkLoop ops w fuel (SetToCurrentWalk s currentEdge) (walk ++ [currentEdge])
        (ops.Parent (LabelAt ops (SetToCurrentWalk s currentEdge) (w.StartVertex currentEdge))
          w currentEdge)

/-- Function `ExtractWalk`: the object afterwards and the vector returned.  Every
iteration of the loop marks an edge that was not marked, so `NumberOfEdges()` iterations
are enough. -/
def ExtractWalk (ops : LabelType L) (w : WindfarmResidual) (s : BellmanFord L)
    (lastEdge : Nat) : Option (BellmanFord L × List Nat) :=
  match ExtractWalkLoop ops w w.NumberOfEdges s [] (some lastEdge) with
  | none => none
  | some (s, walk, currentEdge) =>
    if OnCurrentWalk s currentEdge then
      some (s, (walk.drop (walk.indexOf currentEdge)).reverse)
    else some (s, [])

/-- The loop over the vertices in `ExtractNegativeClosedWalk`. -/
def ExtractNegativeClosedWalkLoop (ops : LabelType L) (w : WindfarmResidual) :
    List Nat → BellmanFord L → Option (BellmanFord L × List Nat)
  | [], s => some (s, [])
  | vertex :: rest, s =>
    match FindRelaxableOutgoingEdge ops w s vertex with
    | none => ExtractNegativeClosedWalkLoop ops w rest s
    | some relaxableEdge =>
      match ExtractWalk ops w s relaxableEdge with
      | none => none
      | some (s, walk) =>
        if !walk.isEmpty then some (s, walk)
        else
          ExtractNegativeClosedWalkLoop ops w rest
            { s with currentWalkIndex := s.currentWalkIndex + 1 }

/-- Function `ExtractNegativeClosedWalk`: the object afterwards and the vector
returned. -/
def ExtractNegativeClosedWalk (ops : LabelType L) (w : WindfarmResidual)
    (s : BellmanFord L) : Option (BellmanFord L × List Nat) :=
  if s.earlyTermination then some (s, [])
  else
    ExtractNegativeClosedWalkLoop ops w (List.range w.NumberOfVertices)
      { s with currentWalkIndex := s.currentWalkIndex + 1 }

/-- The first `n` calls of `ExtractNegativeClosedWalk` in a row: the object afterwards and the
vectors returned, in the order of the calls. -/
def ExtractNegativeClosedWalks (ops : LabelType L) (w : WindfarmResidual) :
    Nat → BellmanFord L → Option (BellmanFord L × List (List Nat))
  | 0, s => some (s, [])
  | n + 1, s =>
    match ExtractNegativeClosedWalk ops w s with
    | none => none
    | some (s, walk) =>
      match ExtractNegativeClosedWalks ops w n s with
      | none => none
      | some (s, walks) => some (s, walk :: walks)

end BellmanFord

/-! ## Shortest paths for the initialization (`Dijkstra.h`, `Dijkstra.cpp`, `EdgeLength.h`,
`EuclideanLength.h`, `UnitLength.h`)

A `double` is a rational number and `DINFTY` is `⊤`; `INVALID_VERTEX` and an `INVALID_VERTEX`
in `parent_` are `none`.  The `std::priority_queue` is the list of its entries together with
a function `pop` that takes an entry of least distance out of the list; which one of several
entries of the same distance the queue of the standard library returns is not specified, so
`pop` is an argument of `Run`. -/

/-- Struct `EuclideanLength`: function `ReturnEdgeLength`. -/
def EuclideanLength (windfarm : WindfarmResidual) (index : Nat) : ℚ := windfarm.Length index

/-- Struct `UnitLength`: function `ReturnEdgeLength`. -/
def UnitLength (_windfarm : WindfarmResidual) (_index : Nat) : ℚ := 1

/-- Function `HasFreeSubstationCapacity`. -/
def WindfarmResidual.HasFreeSubstationCapacity (w : WindfarmResidual) (substation : Nat) :
    Bool :=
  decide (w.FreeSubstationCapacity substation > 0)

/-- Function `HasFreeEdgeCapacity`. -/
def WindfarmResidual.HasFreeEdgeCapacity (w : WindfarmResidual) (edge : Nat) : Bool :=
  decide (w.FreeEdgeCapacity edge > 0)

/-- Struct `Dijkstra::Entry`. -/
structure DijkstraEntry where
  vertex : Nat
  distance : WithTop ℚ
deriving DecidableEq

/-- The members of `Dijkstra` other than the reference to the residual graph and the edge
lengths, which the functions below take as the arguments `w` and `len`. -/
structure Dijkstra where
  startVertex : Nat
  targetVertex : Nat
  numberOfSettledSubstations : Int
  lastFreeSubstationSettled : Option Nat
  dist : List (WithTop ℚ)
  parent : List (Option Nat)
  queue : List DijkstraEntry

namespace Dijkstra

/-- Constant `ANY_FREE_SUBSTATION`, the largest `int`. -/
def ANY_FREE_SUBSTATION : Nat := 2147483647

/-- Constant `LAST_FREE_SUBSTATION`. -/
def LAST_FREE_SUBSTATION : Nat := 2147483646

/-- Constructor `Dijkstra(windfarm, edgeLength)`. -/
def create (w : WindfarmResidual) : Dijkstra :=
  { startVertex := 0
    targetVertex := 0
    numberOfSettledSubstations := 0
    lastFreeSubstationSettled := none
    dist := List.replicate w.NumberOfVertices ⊤
    parent := List.replicate w.NumberOfVertices none
    queue := [] }

/-- Function `Reset`. -/
def Reset (s : Dijkstra) : Dijkstra :=
  { s with
    dist := s.dist.map fun _ => ⊤
    queue := []
    numberOfSettledSubstations := 0
    lastFreeSubstationSettled := none }

/-- Function `IsTarget`. -/
def IsTarget (w : WindfarmResidual) (s : Dijkstra) (vertex : Nat) : Bool :=
  if s.targetVertex = ANY_FREE_SUBSTATION then
    w.IsSubstation vertex && w.HasFreeSubstationCapacity vertex
  else if s.targetVertex = LAST_FREE_SUBSTATION then
    w.IsSubstation vertex && w.HasFreeSubstationCapacity vertex
      && decide (s.numberOfSettledSubstations = (w.NumberOfSubstations : Int) - 1)
  else decide (vertex = s.targetVertex)

/-- Function `RelaxEdge`. -/
def RelaxEdge (len : WindfarmResidual → Nat → ℚ) (w : WindfarmResidual) (s : Dijkstra)
    (edge : Nat) : Dijkstra :=
  if !w.HasFreeEdgeCapacity edge then s
  else
    let current := w.StartVertex edge
    let endVertex := w.EndVertex edge
    let distance := s.dist.getD current ⊤ + ((len w edge : ℚ) : WithTop ℚ)
    if s.dist.getD endVertex ⊤ > distance then
      { s with
        dist := s.dist.set endVertex distance
        queue := s.queue ++ [⟨endVertex, distance⟩]
        parent := s.parent.set endVertex (some edge) }
    else s

/-- Function `RelaxAllNeighbors`. -/
def RelaxAllNeighbors (len : WindfarmResidual → Nat → ℚ) (w : WindfarmResidual) (s : Dijkstra)
    (vertex : Nat) : Dijkstra :=
  (w.OutgoingEdges vertex).foldl (RelaxEdge len w) s

/-- Function `IsBestEntryForVertex`. -/
def IsBestEntryForVertex (s : Dijkstra) (current : DijkstraEntry) : Bool :=
  decide (current.distance = s.dist.getD current.vertex ⊤)

/-- What `Run` does when the queue is empty. -/
def RunEnd (s : Dijkstra) : ReturnCode × Dijkstra :=
  if s.targetVertex = LAST_FREE_SUBSTATION then
    match s.lastFreeSubstationSettled with
    | some v => (ReturnCode.SUCCESS, { s with targetVertex := v })
    | none => (ReturnCode.INFEASIBLE, s)
  else (ReturnCode.INFEASIBLE, s)

/-- The loop of `Run` and what follows it, cut after `fuel` iterations; `none` when the loop
does not end within `fuel` iterations. -/
def RunLoop (pop : List DijkstraEntry → Option (DijkstraEntry × List DijkstraEntry))
    (len : WindfarmResidual → Nat → ℚ) (w : WindfarmResidual) :
    Nat → Dijkstra → Option (ReturnCode × Dijkstra)
  | 0, _ => none
  | fuel + 1, s =>
    match pop s.queue with
    | none => some (RunEnd s)
    | some (current, rest) =>
      if s.dist.getD current.vertex ⊤ < current.distance then
        RunLoop pop len w fuel { s with queue := rest }
      else if IsTarget w s current.vertex then
        some (ReturnCode.SUCCESS, { s with queue := rest, targetVertex := current.vertex })
      else if w.IsSubstation current.vertex then
        RunLoop pop len w fuel
          { s with
            queue := rest
            numberOfSettledSubstations := s.numberOfSettledSubstations + 1
            lastFreeSubstationSettled :=
              if w.HasFreeSubstationCapacity current.vertex then some current.vertex
              else s.lastFreeSubstationSettled }
      else if IsBestEntryForVertex s current then
        RunLoop pop len w fuel (RelaxAllNeighbors len w { s with queue := rest } current.vertex)
      else RunLoop pop len w fuel { s with queue := rest }

/-- A number of iterations that the loop of `Run` does not exceed when no edge length is
negative: one for every outgoing edge of every vertex, and two more. -/
def RunFuel (w : WindfarmResidual) : Nat :=
  ((List.range w.NumberOfVertices).map fun v => (w.OutgoingEdges v).length).sum + 2

/-- Function `Run`: the code returned and the object afterwards. -/
def Run (pop : List DijkstraEntry → Option (DijkstraEntry × List DijkstraEntry))
    (len : WindfarmResidual → Nat → ℚ) (w : WindfarmResidual) (s : Dijkstra) :
    Option (ReturnCode × Dijkstra) :=
  RunLoop pop len w (RunFuel w)
    { Reset s with
      dist := (Reset s).dist.set s.startVertex 0
      queue := [⟨s.startVertex, 0⟩] }

/-- The loop of `ExtractWalk`, cut after `fuel` iterations; `none` when it reads an
`INVALID_VERTEX` in `parent_` or does not end within `fuel` iterations. -/
def ExtractWalkLoop (w : WindfarmResidual) (s : Dijkstra) : Nat → Nat → List Nat → Option (List Nat)
  | 0, current, walk => if current = s.startVertex then some walk else none
  | fuel + 1, current, walk =>
    if current = s.startVertex then some walk
    else
      match s.parent.getD current none with
      | none => none
      | some edgeFromParent =>
        ExtractWalkLoop w s fuel (w.StartVertex edgeFromParent) (walk ++ [edgeFromParent])

/-- Function `ExtractWalk`.  A walk without a repeated vertex has fewer edges than the graph
has vertices. -/
def ExtractWalk (w : WindfarmResidual) (s : Dijkstra) : Option (List Nat) :=
  (ExtractWalkLoop w s w.NumberOfVertices s.targetVertex []).map List.reverse

/-- The least entry of a list, the first one of several of the same distance. -/
def minEntry : List DijkstraEntry → Option DijkstraEntry
  | [] => none
  | x :: xs =>
    match minEntry xs with
    | none => some x
    | some y => if y.distance < x.distance then some y else some x

/-- A priority queue: `top()` and `pop()` take the first entry of least distance. -/
def popMinimum (queue : List DijkstraEntry) : Option (DijkstraEntry × List DijkstraEntry) :=
  match minEntry queue with
  | none => none
  | some x => some (x, queue.erase x)

end Dijkstra

/-! ## Initialization of the flow (`InitializationStrategy.h`, `NonCollecting.h`) -/

namespace NonCollecting

/-- Function `UpdateFlowOnWalk`. -/
def UpdateFlowOnWalk (w : WindfarmResidual) (walk : List Nat) (substationID : Nat) :
    WindfarmResidual :=
  (w.AddFlowOnMultipleEdges walk 1).AddFlowOnEdge
    ((w.AddFlowOnMultipleEdges walk 1).EdgeToSupersubstation substationID) 1

/-- The loop of `InitializeFlow` over the turbines, for the strategy `NonCollecting`, whose
function `HasTurbineProductionBeenCollected` returns `false`: the code returned, the residual
graph and the `Dijkstra` object afterwards.  The result is `none` when `Run` does not end,
when one of the two assertions on the substation found fails, or when `ExtractWalk` reads an
`INVALID_VERTEX` or returns a walk that does not end at the substation. -/
def InitializeFlowLoop (pop : List DijkstraEntry → Option (DijkstraEntry × List DijkstraEntry))
    (len : WindfarmResidual → Nat → ℚ) (targetSubstation : Nat) :
    List Nat → WindfarmResidual → Dijkstra → Option (ReturnCode × WindfarmResidual × Dijkstra)
  | [], w, dijkstra => some (ReturnCode.SUCCESS, w, dijkstra)
  | turbine :: rest, w, dijkstra =>
    match Dijkstra.Run pop len w
        { dijkstra with startVertex := turbine, targetVertex := targetSubstation } with
    | none => none
    | some (returnCode, dijkstra) =>
      if returnCode = ReturnCode.INFEASIBLE then
        some (ReturnCode.NO_FEASIBLE_SOLUTION_FOUND, w, dijkstra)
      else if !(w.IsSubstation dijkstra.targetVertex
          && w.HasFreeSubstationCapacity dijkstra.targetVertex) then none
      else
        match Dijkstra.ExtractWalk w dijkstra with
        | none => none
        | some walk =>
          if walk.getLast?.map w.EndVertex ≠ some dijkstra.targetVertex then none
          else
            InitializeFlowLoop pop len targetSubstation rest
              (UpdateFlowOnWalk w walk dijkstra.targetVertex) dijkstra

/-- Function `InitializeFlow`. -/
def InitializeFlow (pop : List DijkstraEntry → Option (DijkstraEntry × List DijkstraEntry))
    (len : WindfarmResidual → Nat → ℚ) (targetSubstation : Nat) (w : WindfarmResidual)
    (dijkstra : Dijkstra) : Option (ReturnCode × WindfarmResidual × Dijkstra) :=
  InitializeFlowLoop pop len targetSubstation w.Turbines w dijkstra

end NonCollecting

/-! ## Auxiliary definitions used to state the theorems -/

namespace WindfarmResidual

/-- Position in `flowValues_` that holds the flow of edge `e` (the index used by
`FlowOnEdge` and `SetFlowOnEdge`). -/
def flowSlot (w : WindfarmResidual) (e : Nat) : Nat :=
  if e < w.NumberOfOriginalEdges then e
  else if e < 2 * w.NumberOfOriginalEdges then e - w.NumberOfOriginalEdges
  else if e < 2 * w.NumberOfOriginalEdges + w.NumberOfSubstations then
    e - w.NumberOfOriginalEdges
  else e - w.NumberOfOriginalEdges - w.NumberOfSubstations

/-- Sign with which `flowValues_` holds the flow of edge `e`. -/
def flowSign (w : WindfarmResidual) (e : Nat) : Int :=
  if e < w.NumberOfOriginalEdges then 1
  else if e < 2 * w.NumberOfOriginalEdges then -1
  else if e < 2 * w.NumberOfOriginalEdges + w.NumberOfSubstations then 1
  else -1

/-- The residual graph `w` is the graph `w0` in another state: only the flow values and
the residual costs may differ, and both vectors keep their sizes. -/
def IsStateOf (w w0 : WindfarmResidual) : Prop :=
  w.numberOfOriginalVertices = w0.numberOfOriginalVertices
  ∧ w.numberOfOriginalEdges = w0.numberOfOriginalEdges
  ∧ w.numberOfTurbines = w0.numberOfTurbines
  ∧ w.numberOfSubstations = w0.numberOfSubstations
  ∧ w.listOfVertices = w0.listOfVertices
  ∧ w.listOfEdges = w0.listOfEdges
  ∧ w.turbineIdentifiers = w0.turbineIdentifiers
  ∧ w.substationIdentifiers = w0.substationIdentifiers
  ∧ w.cabletypes = w0.cabletypes
  ∧ w.flowValues.length = w0.flowValues.length
  ∧ w.residualCosts.length = w0.residualCosts.length

end WindfarmResidual

/-- A call of `SetFlowOnEdge` or of `AddFlowOnEdge`. -/
inductive FlowOp where
  | set (edge : Nat) (newFlow : Int)
  | add (edge : Nat) (delta : Int)
deriving Repr, DecidableEq

namespace FlowOp

/-- The edge a call acts on. -/
def edge : FlowOp → Nat
  | set e _ => e
  | add e _ => e

/-- Effect of a call on the residual graph. -/
def apply (w : WindfarmResidual) : FlowOp → WindfarmResidual
  | set e f => w.SetFlowOnEdge e f
  | add e d => w.AddFlowOnEdge e d

end FlowOp

/-- Constructor `Instance(...)`: the cable types are built from the two vectors of
breakpoints; nodes and edges are what `ReadFromGMLFile` stores. -/
def Instance.create (nodes : List InstanceNode) (edges : List InstanceEdge)
    (vectorOfCapacities vectorOfCosts : List Int) : Option Instance :=
  match Cabletypes.ofBreakpoints vectorOfCapacities vectorOfCosts with
  | none => none
  | some c => some { nodes := nodes, edges := edges, cabletypes := c }

/-- The vertex that the constructor `Windfarm(instance)` makes of a node. -/
def nodeVertex (node : InstanceNode) : Vertex :=
  match node.shape with
  | NodeShape.rect => { type := VertexType.turbine }
  | NodeShape.ellipse => { type := VertexType.substation, capacity := node.capacity }
  | NodeShape.other => {}

/-- Indices of the nodes of the instance that are substations, in increasing order. -/
def Instance.substations (inst : Instance) : List Nat :=
  (List.range inst.nodes.length).filter fun v =>
    decide ((inst.nodes.getD v default).shape = NodeShape.ellipse)

/-- Indices of the nodes of the instance that are turbines, in increasing order. -/
def Instance.turbines (inst : Instance) : List Nat :=
  (List.range inst.nodes.length).filter fun v =>
    decide ((inst.nodes.getD v default).shape = NodeShape.rect)

/-- Closed form of the vertex with index `v` after the constructor `Windfarm(instance)`,
without its outgoing edges. -/
def builtVertex (inst : Instance) (v : Nat) : Vertex :=
  if v < inst.nodes.length then nodeVertex (inst.nodes.getD v default)
  else if v = inst.nodes.length then { type := VertexType.supersubstation }
  else default

/-- Closed form of the edge with index `e` after the constructor
`WindfarmResidual(instance)`. -/
def builtEdge (inst : Instance) (e : Nat) : Edge :=
  let m := inst.edges.length
  let s := inst.substations.length
  if e < m then
    { identifier := e, startVertex := (inst.edges.getD e default).source,
      endVertex := (inst.edges.getD e default).target,
      length := (inst.edges.getD e default).length,
      capacity := inst.cabletypes.MaximumCapacity }
  else if e < 2 * m then
    { identifier := e - m, startVertex := (inst.edges.getD (e - m) default).target,
      endVertex := (inst.edges.getD (e - m) default).source,
      length := (inst.edges.getD (e - m) default).length,
      capacity := inst.cabletypes.MaximumCapacity }
  else if e < 2 * m + s then
    { identifier := e, startVertex := inst.substations.getD (e - 2 * m) 0,
      endVertex := inst.nodes.length,
      capacity := (builtVertex inst (inst.substations.getD (e - 2 * m) 0)).capacity }
  else if e < 2 * m + 2 * s then
    { identifier := e, startVertex := inst.nodes.length,
      endVertex := inst.substations.getD (e - 2 * m - s) 0,
      capacity := (builtVertex inst (inst.substations.getD (e - 2 * m - s) 0)).capacity }
  else default

/-- Outgoing edges that the loop over the first `k` edges of the instance gives to
vertex `v`. -/
def builtOutOriginal (inst : Instance) (k v : Nat) : List Nat :=
  (List.range k).flatMap fun i =>
    (if (inst.edges.getD i default).source = v then [i] else [])
      ++ (if (inst.edges.getD i default).target = v then [i + inst.edges.length] else [])

/-- Outgoing edges that the loop over the first `k` substations gives to vertex `v`. -/
def builtOutSuper (inst : Instance) (k v : Nat) : List Nat :=
  (List.range k).flatMap fun i =>
    (if inst.substations.getD i 0 = v then [2 * inst.edges.length + i] else [])
      ++ (if inst.nodes.length = v then
            [2 * inst.edges.length + i + inst.substations.length] else [])

/-- Closed form of `OutgoingEdges(v)` after the constructor `WindfarmResidual(instance)`. -/
def builtOut (inst : Instance) (v : Nat) : List Nat :=
  builtOutOriginal inst inst.edges.length v ++ builtOutSuper inst inst.substations.length v

/-- State of the residual graph after the loop over the first `k` nodes in the
constructor `Windfarm(instance)`. -/
structure NodeLoopInv (inst : Instance) (k : Nat) (w : WindfarmResidual) : Prop where
  lenV : w.listOfVertices.length = inst.nodes.length + 1
  vert : ∀ v, w.VertexAt v = if v < k then nodeVertex (inst.nodes.getD v default) else default
  turb : w.turbineIdentifiers = (List.range k).filter fun v =>
    decide ((inst.nodes.getD v default).shape = NodeShape.rect)
  subs : w.substationIdentifiers = (List.range k).filter fun v =>
    decide ((inst.nodes.getD v default).shape = NodeShape.ellipse)
  nT : w.numberOfTurbines = w.turbineIdentifiers.length
  nS : w.numberOfSubstations = w.substationIdentifiers.length
  nV : w.numberOfOriginalVertices = inst.nodes.length
  nE : w.numberOfOriginalEdges = inst.edges.length
  edges : w.listOfEdges = []
  ct : w.cabletypes = inst.cabletypes

/-- Members of the residual graph that the loops over the edges in the constructor
`WindfarmResidual(instance)` leave as the base-class constructor set them. -/
structure BuiltBase (inst : Instance) (w : WindfarmResidual) : Prop where
  lenV : w.listOfVertices.length = inst.nodes.length + 1
  lenE : w.listOfEdges.length = 2 * inst.edges.length + 2 * inst.substations.length
  turb : w.turbineIdentifiers = inst.turbines
  subs : w.substationIdentifiers = inst.substations
  nT : w.numberOfTurbines = inst.turbines.length
  nS : w.numberOfSubstations = inst.substations.length
  nV : w.numberOfOriginalVertices = inst.nodes.length
  nE : w.numberOfOriginalEdges = inst.edges.length
  ct : w.cabletypes = inst.cabletypes

/-- State of the residual graph after the loop over the first `k` edges of the instance
in the constructor `WindfarmResidual(instance)`. -/
structure EdgeLoopInv (inst : Instance) (k : Nat) (w : WindfarmResidual) : Prop where
  base : BuiltBase inst w
  vert : ∀ v, w.VertexAt v =
    { builtVertex inst v with outgoingEdges := builtOutOriginal inst k v }
  edge : ∀ e, w.EdgeAt e =
    if e < k ∨ (inst.edges.length ≤ e ∧ e < inst.edges.length + k) then builtEdge inst e
    else default

/-- State of the residual graph after the loop over the first `k` substations in the
constructor `WindfarmResidual(instance)`. -/
structure SuperLoopInv (inst : Instance) (k : Nat) (w : WindfarmResidual) : Prop where
  base : BuiltBase inst w
  vert : ∀ v, w.VertexAt v =
    { builtVertex inst v with
      outgoingEdges := builtOutOriginal inst inst.edges.length v ++ builtOutSuper inst k v }
  edge : ∀ e, w.EdgeAt e =
    if e < 2 * inst.edges.length + k
        ∨ (2 * inst.edges.length + inst.substations.length ≤ e
          ∧ e < 2 * inst.edges.length + inst.substations.length + k) then builtEdge inst e
    else default

/-- The residual graph `w` has the vertices and edges that the constructor
`WindfarmResidual(instance)` builds for `inst`, and flow values and residual costs of the
right sizes. -/
structure Built (inst : Instance) (w : WindfarmResidual) : Prop where
  base : BuiltBase inst w
  vert : ∀ v, w.VertexAt v = { builtVertex inst v with outgoingEdges := builtOut inst v }
  edge : ∀ e, w.EdgeAt e = builtEdge inst e
  ends : ∀ i, i < inst.edges.length →
    (inst.edges.getD i default).source < inst.nodes.length
      ∧ (inst.edges.getD i default).target < inst.nodes.length
  lenF : w.flowValues.length = inst.edges.length + inst.substations.length
  lenR : w.residualCosts.length = 2 * inst.edges.length + 2 * inst.substations.length

/-! ## Properties of cost vectors, as the specification words them -/

/-- The vector is strictly increasing. -/
def StrictlyIncreasing (v : List Int) : Prop := List.Pairwise (fun a b => a < b) v

/-- The expanded vector is non-decreasing from its midpoint outward, in both
directions. -/
def NonDecreasingFromMidpoint (E : List Int) : Prop :=
  ∀ i j, i ≤ j → j < E.length →
    (E.length / 2 ≤ i → E.getD i 0 ≤ E.getD j 0) ∧ (j ≤ E.length / 2 → E.getD j 0 ≤ E.getD i 0)

/-- The expanded vector is symmetric about its midpoint. -/
def SymmetricAboutMidpoint (E : List Int) : Prop :=
  ∀ k, k ≤ E.length / 2 → E.getD (E.length / 2 + k) 0 = E.getD (E.length / 2 - k) 0

/-- The index `min {i : c_i ≥ k}` of the smallest cable type that can carry `k` units. -/
def minCableIndex (caps : List Int) (k : Int) : Nat :=
  caps.findIdx fun c => decide (k ≤ c)

/-- The vector `E` is the expansion of the breakpoints `caps = [c_1 .. c_K]` and
`costs = [p_1 .. p_K]`: it has `2 c_K + 1` entries, `0` in the middle, and
`E[mid + k] = E[mid - k] = p_j` with `j = min {i : c_i ≥ k}` for `k` in `[1, c_K]`. -/
def IsExpansionOf (E caps costs : List Int) : Prop :=
  (E.length : Int) = 2 * caps.getLastD 0 + 1
    ∧ E.getD (caps.getLastD 0).toNat 0 = 0
    ∧ ∀ k : Nat, 1 ≤ k → (k : Int) ≤ caps.getLastD 0 →
        E.getD ((caps.getLastD 0).toNat + k) 0 = costs.getD (minCableIndex caps k) 0
          ∧ E.getD ((caps.getLastD 0).toNat - k) 0 = costs.getD (minCableIndex caps k) 0

/-! ## The reference definition of the residual costs, as the specification words it -/

/-- Entry `E[i]` of the expanded cost vector for an integer position `i`; positions outside
the vector have no entry and are read as `0`. -/
def expandedEntry (E : List Int) (i : Int) : Int :=
  if 0 ≤ i ∧ i < E.length then E.getD i.toNat 0 else 0

/-- The remaining capacity `R` of an edge that is not incident to the super substation:
`-flow(e)` when the edge starts at a substation, `max_cap - flow(e)` when it starts at a
turbine. -/
def remainingCapacity (w : WindfarmResidual) (e : Nat) : Int :=
  if w.IsSubstation (w.StartVertex e) then -w.FlowOnEdge e
  else w.cabletypes.MaximumCapacity - w.FlowOnEdge e

/-- The residual cost `r(e, Δ)` of the specification: for an edge out of the super
substation `0` when `Δ ≤ -flow(e)`, for an edge into the super substation `0` when
`Δ ≤ free_substation_capacity(s)`, otherwise
`(E[mid + flow(e) + Δ] - E[mid + flow(e)]) * length(e)` when `Δ ≤ R`; `+∞` in all other
cases. -/
def referenceResidualCost (w : WindfarmResidual) (e : Nat) (delta : Int) : WithTop ℚ :=
  let E := w.cabletypes.ExpandedCosts
  let mid : Int := ((E.length / 2 : Nat) : Int)
  if w.IsSuperSubstation (w.StartVertex e) then
    if delta ≤ -w.FlowOnEdge e then 0 else ⊤
  else if w.IsSuperSubstation (w.EndVertex e) then
    if delta ≤ w.FreeSubstationCapacity (w.StartVertex e) then 0 else ⊤
  else if delta ≤ remainingCapacity w e then
    ((((expandedEntry E (mid + w.FlowOnEdge e + delta)
        - expandedEntry E (mid + w.FlowOnEdge e) : Int) : ℚ) * w.Length e : ℚ) : WithTop ℚ)
  else ⊤

/-- In the state `w` the flow on edge `e` violates a capacity bound: a flow above the
maximum cable capacity on an original or reverse edge, a positive flow on an edge from a
substation to a turbine, a drain flow above the capacity of the substation, or, seen from
the edge out of the super substation, a drain flow below zero. -/
def ViolatesCapacityBound (w : WindfarmResidual) (e : Nat) : Prop :=
  (w.IsSuperSubstation (w.StartVertex e) = false ∧ w.IsSuperSubstation (w.EndVertex e) = false
      ∧ w.FlowOnEdge e > w.cabletypes.MaximumCapacity)
    ∨ (w.IsSubstation (w.StartVertex e) = true ∧ w.IsTurbine (w.EndVertex e) = true
      ∧ w.FlowOnEdge e > 0)
    ∨ (w.IsSubstation (w.StartVertex e) = true ∧ w.IsSuperSubstation (w.EndVertex e) = true
      ∧ w.FlowToSubstation (w.StartVertex e) > w.VertexCapacity (w.StartVertex e))
    ∨ (w.IsSuperSubstation (w.StartVertex e) = true ∧ w.IsSubstation (w.EndVertex e) = true
      ∧ w.FlowToSubstation (w.EndVertex e) < 0)

/-! ## Walks, visited flags and feasibility, as the specification words them -/

/-- The edges of `walk` are edges of the residual graph and form a closed walk in forward
order: the end vertex of every edge is the start vertex of the next one, and the last edge
ends where the first edge starts. -/
def IsClosedWalk (w : WindfarmResidual) (walk : List Nat) : Prop :=
  walk ≠ []
    ∧ (∀ e ∈ walk, e < w.NumberOfEdges)
    ∧ List.Chain' (fun a b => w.EndVertex a = w.StartVertex b) walk
    ∧ w.EndVertex (walk.getLastD 0) = w.StartVertex (walk.headD 0)

/-- A closed trail: a closed walk that uses no edge twice. -/
def IsClosedTrail (w : WindfarmResidual) (walk : List Nat) : Prop :=
  IsClosedWalk w walk ∧ walk.Nodup

/-- The flags `visited` are set exactly for the vertices in `l`. -/
def MarksExactly (visited : List Bool) (l : List Nat) : Prop :=
  ∀ v, visited.getD v false = true ↔ v ∈ l

/-- The bounds that `AssertFeasibleFlow` puts on the flow `x` of the edge `e`: at most the
maximum cable capacity on an edge that is not incident to the super substation, and on an
edge out of a substation at most `0` towards a turbine, between `0` and the capacity of
the substation towards the super substation, and `0` towards another substation. -/
def EdgeBound (w : WindfarmResidual) (e : Nat) (x : Int) : Prop :=
  (w.IsSuperSubstation (w.StartVertex e) = false →
      w.IsSuperSubstation (w.EndVertex e) = false → x ≤ w.cabletypes.MaximumCapacity)
    ∧ (w.IsSubstation (w.StartVertex e) = true →
        if w.IsTurbine (w.EndVertex e) then x ≤ 0
        else if w.IsSuperSubstation (w.EndVertex e) then 0 ≤ x ∧ x ≤ w.VertexCapacity (w.StartVertex e)
        else x = 0)

/-- Sum of the flow over the outgoing edges of a vertex, as `AssertFeasibleFlow`
accumulates it. -/
def outSum (w : WindfarmResidual) (v : Nat) : Int :=
  ((w.OutgoingEdges v).map w.FlowOnEdge).sum

/-- The conditions of `AssertFeasibleFlow` other than the antisymmetry of the flow: the
bounds on every edge and the sums of the outgoing flow at the turbines and the
substations. -/
def FeasibleFlow (w : WindfarmResidual) : Prop :=
  (∀ e, e < w.NumberOfEdges → EdgeBound w e (w.FlowOnEdge e))
    ∧ (∀ t ∈ w.Turbines, outSum w t = 1)
    ∧ (∀ s ∈ w.Substations, outSum w s = 0)

/-- Sending `delta` more units along the edge `e` keeps the bounds of `AssertFeasibleFlow`
on `e` and on its reverse edge. -/
def Augmentable (w : WindfarmResidual) (delta : Int) (e : Nat) : Prop :=
  EdgeBound w e (w.FlowOnEdge e + delta)
    ∧ EdgeBound w (w.ReverseEdgeIndex e) (w.FlowOnEdge (w.ReverseEdgeIndex e) - delta)

/-- The laws of a distance label that the early termination of `Run` rests on: an update
that reports no change leaves the label as it was; after an update with a distance and a
parent, the same distance and parent would not update the label again; and a distance and a
parent that would not update a label would not update it after any further update. -/
structure LabelLaws {L : Type} (ops : LabelType L) : Prop where
  unchanged : ∀ l d p, (ops.Update l d p).2 = false → (ops.Update l d p).1 = l
  settled : ∀ l d p, ops.WouldUpdate (ops.Update l d p).1 d p = false
  monotone : ∀ l d p d' p', ops.WouldUpdate l d p = false →
    ops.WouldUpdate (ops.Update l d' p').1 d p = false

/-- The vectors of the object have the sizes that the constructor `BellmanFord(windfarm)`
gives them. -/
def BellmanFord.SizedFor {L : Type} (s : BellmanFord L) (w : WindfarmResidual) : Prop :=
  s.labels.length = w.NumberOfVertices
    ∧ s.indexOfWalkIncluded.length = w.NumberOfEdges
    ∧ s.updatedSinceLastTime.length = w.NumberOfVertices

/-- Every outgoing edge of a vertex is an edge of the graph that starts at this vertex and
ends at another vertex of the graph. -/
def ProperOutgoingEdges (w : WindfarmResidual) : Prop :=
  ∀ v, v < w.NumberOfVertices → ∀ e ∈ w.OutgoingEdges v,
    e < w.NumberOfEdges ∧ w.StartVertex e = v ∧ w.EndVertex e < w.NumberOfVertices
      ∧ w.EndVertex e ≠ v

/-- No outgoing edge of the vertex can be relaxed. -/
def BellmanFord.Settled {L : Type} (ops : LabelType L) (w : WindfarmResidual)
    (s : BellmanFord L) (vertex : Nat) : Prop :=
  ∀ e ∈ w.OutgoingEdges vertex, BellmanFord.IsRelaxable ops w s vertex e = false

/-- Invariant of the loops of `Run` before the visit of `vertex`: the vertex `l` of the
last update has not been updated since its outgoing edges were relaxed, unless it still is
the last vertex with which the run began and no label has been updated; no vertex visited
after `l` has been updated since; and no outgoing edge of a vertex that has not been
updated since its last visit can be relaxed. -/
structure BellmanFord.RunInv {L : Type} (ops : LabelType L) (w : WindfarmResidual)
    (s : BellmanFord L) (vertex : Nat) : Prop where
  sized : s.SizedFor w
  last : ∃ l : Nat, s.vertexOfLastUpdate = (l : Int) ∧ l < w.NumberOfVertices
    ∧ (s.updatedSinceLastTime.getD l false = false
        ∨ (l + 1 = w.NumberOfVertices ∧ s.numberOfRelaxedEdgesInLastRun = 0))
    ∧ ∀ u, u < w.NumberOfVertices →
        (if l < vertex then l < u ∧ u < vertex else l < u ∨ u < vertex) →
        s.updatedSinceLastTime.getD u false = false
  settled : ∀ u, u < w.NumberOfVertices → s.updatedSinceLastTime.getD u false = false →
    BellmanFord.Settled ops w s u

/-- No edge can be relaxed, except possibly the outgoing edges of the last vertex when no
label has been updated by the run. -/
def BellmanFord.SettledExceptLast {L : Type} (ops : LabelType L) (w : WindfarmResidual)
    (s : BellmanFord L) : Prop :=
  ∀ v, v < w.NumberOfVertices →
    (v + 1 < w.NumberOfVertices ∨ 0 < s.numberOfRelaxedEdgesInLastRun) →
    BellmanFord.Settled ops w s v

/-- The laws of the parent edges `stored` in a label: a new label holds none, `Parent`
returns one of them, and an update adds at most the parent edge it is called with. -/
structure ParentLaws {L : Type} (ops : LabelType L) (stored : L → List Nat) : Prop where
  init : stored ops.init = []
  parent : ∀ l w e p, ops.Parent l w e = some p → p ∈ stored l
  update : ∀ l d p q, q ∈ stored (ops.Update l d p).1 → q = p ∨ q ∈ stored l

/-- Every parent edge held by the label of a vertex is an edge of the graph that ends at
this vertex. -/
def BellmanFord.ParentsValid {L : Type} (ops : LabelType L) (stored : L → List Nat)
    (w : WindfarmResidual) (s : BellmanFord L) : Prop :=
  ∀ v, ∀ p ∈ stored (BellmanFord.LabelAt ops s v), p < w.NumberOfEdges ∧ w.EndVertex p = v

/-- State of the object between two calls of `ExtractNegativeClosedWalk`: the parent edges
are valid and no edge is marked with a walk index above the current one. -/
structure BellmanFord.ExtractInv {L : Type} (ops : LabelType L) (stored : L → List Nat)
    (w : WindfarmResidual) (s : BellmanFord L) : Prop where
  parents : BellmanFord.ParentsValid ops stored w s
  sized : s.indexOfWalkIncluded.length = w.NumberOfEdges
  marks : ∀ e, s.indexOfWalkIncluded.getD e 0 ≤ s.currentWalkIndex

/-- Invariant of the loop of `ExtractWalk`, with `walk` the edges pushed so far and `current`
the edge to look at next: the edges of `walk` are pairwise distinct and exactly the edges
marked with the current walk index, every edge of `walk` ends where the edge pushed before
it starts, and `current` ends where the last edge pushed starts. -/
structure BellmanFord.ExtractWalkInv {L : Type} (ops : LabelType L) (stored : L → List Nat)
    (w : WindfarmResidual) (s : BellmanFord L) (walk : List Nat) (current : Option Nat) :
    Prop where
  parents : BellmanFord.ParentsValid ops stored w s
  sized : s.indexOfWalkIncluded.length = w.NumberOfEdges
  index : 0 < s.currentWalkIndex
  nodup : walk.Nodup
  marks : ∀ e, s.indexOfWalkIncluded.getD e 0 = s.currentWalkIndex ↔ e ∈ walk
  older : ∀ e, s.indexOfWalkIncluded.getD e 0 ≤ s.currentWalkIndex
  edges : ∀ e ∈ walk, e < w.NumberOfEdges
  chain : List.Chain' (fun a b => w.EndVertex b = w.StartVertex a) walk
  current : ∀ e, current = some e →
    e < w.NumberOfEdges ∧ ∀ x ∈ walk.getLast?, w.EndVertex e = w.StartVertex x

/-- The priority queue: from an empty queue nothing is taken, and from any other queue an
entry of least distance is taken and the other entries stay. -/
def Dijkstra.PopsMinimum
    (pop : List DijkstraEntry → Option (DijkstraEntry × List DijkstraEntry)) : Prop :=
  pop [] = none
    ∧ ∀ q, q ≠ [] → ∃ x rest, pop q = some (x, rest) ∧ List.Perm q (x :: rest)
        ∧ ∀ y ∈ q, x.distance ≤ y.distance

/-- The edges `P` lead from `a` to `b`, each of them has free capacity, and none of them
starts at a substation: the paths along which `Dijkstra::Run` searches. -/
def IsFreePath (w : WindfarmResidual) : Nat → Nat → List Nat → Prop
  | a, b, [] => a = b
  | a, b, e :: P =>
    e < w.NumberOfEdges ∧ w.StartVertex e = a ∧ w.HasFreeEdgeCapacity e = true
      ∧ w.IsSubstation a = false ∧ IsFreePath w (w.EndVertex e) b P

/-- The edges `P` form a path from `a` to `b` that uses only edges with free capacity and
whose inner vertices are turbines. -/
def IsTurbinePath (w : WindfarmResidual) : Nat → Nat → List Nat → Prop
  | a, b, [] => a = b
  | a, b, [e] =>
    e < w.NumberOfEdges ∧ w.StartVertex e = a ∧ w.HasFreeEdgeCapacity e = true
      ∧ w.EndVertex e = b
  | a, b, e :: e' :: P =>
    e < w.NumberOfEdges ∧ w.StartVertex e = a ∧ w.HasFreeEdgeCapacity e = true
      ∧ w.IsTurbine (w.EndVertex e) = true ∧ IsTurbinePath w (w.EndVertex e) b (e' :: P)

/-- The length of a path: the sum of the lengths of its edges. -/
def pathLength (len : WindfarmResidual → Nat → ℚ) (w : WindfarmResidual) (P : List Nat) : ℚ :=
  (P.map (len w)).sum

/-- The number of outgoing edges of the vertices that are not in `S`. -/
def Dijkstra.openDegree (w : WindfarmResidual) (S : List Nat) : Nat :=
  (((List.range w.NumberOfVertices).filter fun v => decide (v ∉ S)).map fun v =>
    (w.OutgoingEdges v).length).sum

/-- The position of a vertex in the order `S` in which the vertices are settled; a
vertex that is not settled comes after all of them. -/
def Dijkstra.settleRank (S : List Nat) (v : Nat) : Nat :=
  if v ∈ S then S.indexOf v else S.length

/-- Invariant of the loop of `Run`, with `S` the vertices that have been taken out of the
queue and settled so far, in this order, and `pending` the outgoing edges that
`RelaxAllNeighbors` has still to relax for the vertex settled last. -/
structure Dijkstra.Inv (len : WindfarmResidual → Nat → ℚ) (w : WindfarmResidual)
    (s : Dijkstra) (S pending : List Nat) : Prop where
  sizeDist : s.dist.length = w.NumberOfVertices
  sizeParent : s.parent.length = w.NumberOfVertices
  startLt : s.startVertex < w.NumberOfVertices
  distStart : s.dist.getD s.startVertex ⊤ = 0
  entries : ∀ x ∈ s.queue, x.vertex < w.NumberOfVertices ∧ x.distance ≠ ⊤
    ∧ s.dist.getD x.vertex ⊤ ≤ x.distance
  queued : ∀ v, s.dist.getD v ⊤ ≠ ⊤ → v ∈ S ∨ ⟨v, s.dist.getD v ⊤⟩ ∈ s.queue
  nodupQueue : s.queue.Nodup
  nodupSettled : S.Nodup
  settledLt : ∀ u ∈ S, u < w.NumberOfVertices
  settledStart : S ≠ [] → s.startVertex ∈ S
  parents : ∀ v, v ≠ s.startVertex → s.dist.getD v ⊤ ≠ ⊤ →
    ∃ e, s.parent.getD v none = some e ∧ e < w.NumberOfEdges ∧ w.EndVertex e = v
      ∧ w.StartVertex e ∈ S ∧ w.IsSubstation (w.StartVertex e) = false
      ∧ w.HasFreeEdgeCapacity e = true
      ∧ s.dist.getD v ⊤ = s.dist.getD (w.StartVertex e) ⊤ + ((len w e : ℚ) : WithTop ℚ)
      ∧ (v ∈ S → S.indexOf (w.StartVertex e) < S.indexOf v)
  relaxed : ∀ u ∈ S, w.IsSubstation u = false → ∀ e ∈ w.OutgoingEdges u,
    w.HasFreeEdgeCapacity e = true →
    e ∈ pending
      ∨ s.dist.getD (w.EndVertex e) ⊤ ≤ s.dist.getD u ⊤ + ((len w e : ℚ) : WithTop ℚ)
  settledLe : ∀ u ∈ S, ∀ x ∈ s.queue, s.dist.getD u ⊤ ≤ x.distance
  settledStale : ∀ u ∈ S, ∀ x ∈ s.queue, x.vertex = u → s.dist.getD u ⊤ < x.distance
  settledSorted : S.Pairwise fun a b => s.dist.getD a ⊤ ≤ s.dist.getD b ⊤
  shortest : ∀ u ∈ S, ∀ P, IsFreePath w s.startVertex u P →
    s.dist.getD u ⊤ ≤ ((pathLength len w P : ℚ) : WithTop ℚ)
  reached : ∀ v, s.dist.getD v ⊤ ≠ ⊤ →
    ∃ P, IsFreePath w s.startVertex v P
      ∧ s.dist.getD v ⊤ = ((pathLength len w P : ℚ) : WithTop ℚ)
  count : s.numberOfSettledSubstations = ((S.filter w.IsSubstation).length : Int)
  lastFree : s.lastFreeSubstationSettled
    = (S.filter fun u => w.IsSubstation u && w.HasFreeSubstationCapacity u).getLast?
  anyTarget : s.targetVertex = Dijkstra.ANY_FREE_SUBSTATION →
    ∀ u ∈ S, ¬ (w.IsSubstation u = true ∧ w.HasFreeSubstationCapacity u = true)
  settledFinite : ∀ u ∈ S, s.dist.getD u ⊤ ≠ ⊤

/-- The residual costs admit no closed walk of negative cost. -/
def NoNegativeClosedWalk (w : WindfarmResidual) : Prop :=
  ∀ walk, IsClosedWalk w walk → 0 ≤ NegativeCycleCanceling.CostOfWalk w walk

/-- A simple cycle: a closed walk that starts at no vertex twice. -/
def IsSimpleCycle (w : WindfarmResidual) (cycle : List Nat) : Prop :=
  IsClosedWalk w cycle ∧ (cycle.map w.StartVertex).Nodup

/-- The change of `ComputeTotalCostOfFlow` when the flow on the edge `e` is raised by
`delta`: nothing on the edges at the super substation, and the difference of the costs of
the two flows times the length on every other edge. -/
def edgeCostChange (w : WindfarmResidual) (e : Nat) (delta : Int) : ℚ :=
  if e < 2 * w.NumberOfOriginalEdges then
    ((w.cabletypes.CostOfFlow (w.FlowOnEdge e + delta)
      - w.cabletypes.CostOfFlow (w.FlowOnEdge e) : Int) : ℚ) * w.Length e
  else 0

/-- No edge of the walk is the reverse edge of an edge of the walk. -/
def NoReversePair (w : WindfarmResidual) (walk : List Nat) : Prop :=
  ∀ e ∈ walk, w.ReverseEdgeIndex e ∉ walk

/-- Invariant of the loop in `CancelNegativeWalk`, at the head of the loop: the walk is
empty or a closed walk, the visited vertices are exactly the start vertices of the edges
before `currentIndex`, and the start vertices up to `currentIndex` are pairwise
distinct. -/
structure WalkInv (w : WindfarmResidual) (walk : List Nat) (currentIndex : Nat)
    (visited : List Bool) : Prop where
  lenV : visited.length = w.NumberOfVertices
  marks : MarksExactly visited ((walk.take currentIndex).map w.StartVertex)
  idx : walk = [] → currentIndex = 0
  closed : walk ≠ [] →
    IsClosedWalk w walk ∧ currentIndex < walk.length
      ∧ ((walk.take (currentIndex + 1)).map w.StartVertex).Nodup

/-- Invariant of the loop in `CancelNegativeWalk` for a change of flow `delta`, with
`initial` the residual graph at the call: the rest of the walk uses no edge twice, the flow
is feasible, every edge of the rest of the walk with a finite residual cost can take
`delta` more units, and the residual graph is as at the call while no cycle has been
cancelled. -/
structure CancelLoopInv (inst : Instance) (delta : Int) (initial : WindfarmResidual)
    (s : NegativeCycleCanceling.WalkLoopState) : Prop where
  built : Built inst s.st.windfarm
  walk : WalkInv s.st.windfarm s.walk s.currentIndex s.st.visitedVertex
  trail : s.walk.Nodup
  feasible : FeasibleFlow s.st.windfarm
  augmentable : ∀ e ∈ s.walk, s.st.windfarm.ResidualCostOnEdge e ≠ ⊤ →
    Augmentable s.st.windfarm delta e
  unchanged : s.canceledAnyCycle = false → s.st.windfarm = initial

/-- Invariant of the loop in `CancelNegativeWalk` for the recorded solution costs, with
`initial` the residual graph at the call: no two edges of the rest of the walk are equal or
reverse to each other, the recorded solution costs are the total cost of the flow, every
finite residual cost of an edge of the rest of the walk is the change of the total cost
when the flow on that edge is raised by `delta`, and the residual graph is as at the call
while no cycle has been cancelled. -/
structure CostLoopInv (delta : Int) (initial : WindfarmResidual)
    (s : NegativeCycleCanceling.WalkLoopState) : Prop where
  trail : s.walk.Nodup
  noReverse : NoReversePair s.st.windfarm s.walk
  symmetric : ∀ x, s.st.windfarm.cabletypes.CostOfFlow (-x) = s.st.windfarm.cabletypes.CostOfFlow x
  recorded : s.st.solutionCosts = ((s.st.windfarm.ComputeTotalCostOfFlow : ℚ) : WithTop ℚ)
  costs : ∀ e ∈ s.walk, s.st.windfarm.ResidualCostOnEdge e ≠ ⊤ →
    s.st.windfarm.ResidualCostOnEdge e
      = ((edgeCostChange s.st.windfarm e delta : ℚ) : WithTop ℚ)
  unchanged : s.canceledAnyCycle = false → s.st.windfarm = initial

/-! ## A concrete wind farm (scenario S2 of the specification) -/

/-- The cable types of the default breakpoints `{5, 8, 12, 15}` and `{20, 25, 27, 41}`. -/
def defaultCabletypes : Cabletypes :=
  { numberOfCables := 4
    vectorOfCapacities := [5, 8, 12, 15]
    vectorOfCosts := [20, 25, 27, 41]
    maximumCableCapacity := 15
    vectorOfCostsExpanded :=
      [41, 41, 41, 27, 27, 27, 27, 25, 25, 25, 20, 20, 20, 20, 20, 0,
        20, 20, 20, 20, 20, 25, 25, 25, 27, 27, 27, 27, 41, 41, 41]
    isGivenByRealCables := true }

/-- Two turbines `0`, `1` and a substation `2` of capacity 5; edges `0 - 2` and `1 - 2` of
length 10 and `0 - 1` of length 1. -/
def triangleInstance : Instance :=
  { nodes := [⟨NodeShape.rect, 0⟩, ⟨NodeShape.rect, 0⟩, ⟨NodeShape.ellipse, 5⟩]
    edges := [⟨0, 2, 10⟩, ⟨1, 2, 10⟩, ⟨0, 1, 1⟩]
    cabletypes := defaultCabletypes }

/-- The residual graph of `triangleInstance` with the flow values `flow` and the residual
costs `costs`. -/
def triangleGraph (flow : List Int) (costs : List (WithTop ℚ)) : WindfarmResidual :=
  { numberOfOriginalVertices := 3
    numberOfOriginalEdges := 3
    numberOfTurbines := 2
    numberOfSubstations := 1
    listOfVertices :=
      [{ capacity := -1, type := VertexType.turbine, outgoingEdges := [0, 2] },
        { capacity := -1, type := VertexType.turbine, outgoingEdges := [1, 5] },
        { capacity := 5, type := VertexType.substation, outgoingEdges := [3, 4, 6] },
        { capacity := -1, type := VertexType.supersubstation, outgoingEdges := [7] }]
    listOfEdges :=
      [{ identifier := 0, length := 10, capacity := 15, startVertex := 0, endVertex := 2 },
        { identifier := 1, length := 10, capacity := 15, startVertex := 1, endVertex := 2 },
        { identifier := 2, length := 1, capacity := 15, startVertex := 0, endVertex := 1 },
        { identifier := 0, length := 10, capacity := 15, startVertex := 2, endVertex := 0 },
        { identifier := 1, length := 10, capacity := 15, startVertex := 2, endVertex := 1 },
        { identifier := 2, length := 1, capacity := 15, startVertex := 1, endVertex := 0 },
        { identifier := 6, length := 0, capacity := 5, startVertex := 2, endVertex := 3 },
        { identifier := 7, length := 0, capacity := 5, startVertex := 3, endVertex := 2 }]
    turbineIdentifiers := [0, 1]
    substationIdentifiers := [2]
    cabletypes := defaultCabletypes
    flowValues := flow
    residualCosts := costs }

/-! ## The chain of parent edges that `ExtractWalk` follows -/

/-- The distance that `RelaxOutgoingEdges` and `FindRelaxableOutgoingEdge` read for the edge
`e` from the label at its start vertex. -/
def BellmanFord.chainDistance {L : Type} (ops : LabelType L) (w : WindfarmResidual)
    (s : BellmanFord L) (e : Nat) : WithTop ℚ :=
  ops.Distance (BellmanFord.LabelAt ops s (w.StartVertex e)) w e

/-- The edge with which `ExtractWalk` goes on after the edge `e`. -/
def BellmanFord.chainParent {L : Type} (ops : LabelType L) (w : WindfarmResidual)
    (s : BellmanFord L) (e : Nat) : Option Nat :=
  ops.Parent (BellmanFord.LabelAt ops s (w.StartVertex e)) w e

/-- The laws of a distance label that the cost of the extracted walks rests on, for the
labels that satisfy `ok`: `Update` returns what `WouldUpdate` tells; an update either
leaves the distance and the parent that the label offers for an outgoing edge as they
were, or it makes them the distance and the parent of the update, and the distance has
become smaller; a distance that would update a label is smaller than one that would not,
for the same parent; and a new label has no parent. -/
structure ChainLaws {L : Type} (ops : LabelType L) (ok : L → Prop) : Prop where
  okInit : ok ops.init
  okUpdate : ∀ l d p, ok l → ok (ops.Update l d p).1
  would : ∀ l d p, (ops.Update l d p).2 = ops.WouldUpdate l d p
  select : ∀ l d p w e, ok l →
    (ops.Distance (ops.Update l d p).1 w e = ops.Distance l w e
        ∧ ops.Parent (ops.Update l d p).1 w e = ops.Parent l w e)
      ∨ ((ops.Update l d p).2 = true ∧ ops.Distance (ops.Update l d p).1 w e = d
        ∧ ops.Parent (ops.Update l d p).1 w e = some p ∧ d < ops.Distance l w e)
  antitone : ∀ l d d' p, ops.WouldUpdate l d p = true → ops.WouldUpdate l d' p = false → d < d'
  initParent : ∀ w e, ops.Parent ops.init w e = none

/-- The label of `TwoDistancesLabel` keeps its first distance below its second one. -/
def TwoDistancesLabel.ordered (l : TwoDistancesLabel) : Prop := l.dist ≤ l.distSecond

/-- What is known of an edge `e` whose distance was last lowered by the visit number `c e`
of `Run` (visits are counted from `1`, and `0` stands for `InitializeLabels`): its parent
`q` ends where `e` starts and starts at the vertex of that visit, the distance of `e` is
finite and at least the distance of `q` plus the cost of `q`, with a strict inequality when
the distance of `q` was lowered later than the one of `e`; after the first round of `Run`
the distance of `q` was lowered less than a round before the one of `e`; and the distance
of `q` is negative. -/
def BellmanFord.ChainLink {L : Type} (ops : LabelType L) (w : WindfarmResidual)
    (s : BellmanFord L) (c : Nat → Nat) (e : Nat) : Prop :=
  ∃ q, BellmanFord.chainParent ops w s e = some q
    ∧ w.EndVertex q = w.StartVertex e
    ∧ w.StartVertex q = (c e - 1) % w.NumberOfVertices
    ∧ w.StartVertex q ≠ w.StartVertex e
    ∧ BellmanFord.chainDistance ops w s e ≠ ⊤
    ∧ BellmanFord.chainDistance ops w s q + w.ResidualCostOnEdge q
        ≤ BellmanFord.chainDistance ops w s e
    ∧ (c e < c q → BellmanFord.chainDistance ops w s q + w.ResidualCostOnEdge q
        < BellmanFord.chainDistance ops w s e)
    ∧ (w.NumberOfVertices < c e → c e + 1 ≤ c q + w.NumberOfVertices)
    ∧ BellmanFord.chainDistance ops w s q < 0

/-- The part of the invariant of `Run` on the labels: they satisfy `ok`; the cost of an
edge would not update the label at its end vertex; `ChainLink` holds for the edges whose
distance was lowered by a visit; and the distance of an edge whose distance was last set by
`InitializeLabels` is at least the cost of its parent. -/
structure BellmanFord.ChainCore {L : Type} (ops : LabelType L) (ok : L → Prop)
    (w : WindfarmResidual) (s : BellmanFord L) (c : Nat → Nat) : Prop where
  sized : s.SizedFor w
  ok : ∀ v, ok (BellmanFord.LabelAt ops s v)
  initial : ∀ p, p < w.NumberOfEdges →
    ops.WouldUpdate (BellmanFord.LabelAt ops s (w.EndVertex p)) (w.ResidualCostOnEdge p) p
      = false
  flagged : ∀ e, 1 ≤ c e → BellmanFord.ChainLink ops w s c e
  unflagged : ∀ e q, c e = 0 → BellmanFord.chainParent ops w s e = some q →
    w.ResidualCostOnEdge q ≤ BellmanFord.chainDistance ops w s e

/-- Invariant of `Run` during visit number `n + 1`, of the vertex `u`, when the outgoing
edges `done` of `u` have been relaxed: an edge that can still be relaxed starts at a vertex
that is marked as updated, its distance was lowered after the last visit of its start
vertex, and it is not one of the edges `done`. -/
structure BellmanFord.ChainMid {L : Type} (ops : LabelType L) (ok : L → Prop)
    (w : WindfarmResidual) (n u : Nat) (done : List Nat) (s : BellmanFord L) (c : Nat → Nat) :
    Prop where
  core : BellmanFord.ChainCore ops ok w s c
  stampLe : ∀ e, c e ≤ n + 1
  dirty : ∀ x, x < w.NumberOfVertices → ∀ e ∈ w.OutgoingEdges x,
    BellmanFord.IsRelaxable ops w s x e = true →
      s.updatedSinceLastTime.getD x false = true
        ∧ (∀ k, k < n → k % w.NumberOfVertices = x → k + 2 ≤ c e)
        ∧ (x = u → e ∉ done)

/-- Invariant of `Run` after `n` visits: an edge that can still be relaxed starts at a vertex
that is marked as updated, and its distance was lowered after the last visit of its start
vertex. -/
structure BellmanFord.ChainInv {L : Type} (ops : LabelType L) (ok : L → Prop)
    (w : WindfarmResidual) (n : Nat) (s : BellmanFord L) (c : Nat → Nat) : Prop where
  core : BellmanFord.ChainCore ops ok w s c
  stampLe : ∀ e, c e ≤ n
  dirty : ∀ x, x < w.NumberOfVertices → ∀ e ∈ w.OutgoingEdges x,
    BellmanFord.IsRelaxable ops w s x e = true →
      s.updatedSinceLastTime.getD x false = true
        ∧ ∀ k, k < n → k % w.NumberOfVertices = x → k + 2 ≤ c e

/-! ## Routes of the initial flow, as the specification words them -/

/-- The edges `walk` form a path from the turbine `turbine` to the substation `substation`,
which has free capacity: consecutive edges are connected, every edge has free capacity and
starts at a turbine, and no vertex is repeated. -/
def NonCollecting.IsRoute (w : WindfarmResidual) (turbine substation : Nat) (walk : List Nat) :
    Prop :=
  walk ≠ []
    ∧ w.StartVertex (walk.headD 0) = turbine
    ∧ w.EndVertex (walk.getLastD 0) = substation
    ∧ w.IsSubstation substation = true
    ∧ w.HasFreeSubstationCapacity substation = true
    ∧ List.Chain' (fun a b => w.EndVertex a = w.StartVertex b) walk
    ∧ (∀ e ∈ walk, e < w.NumberOfEdges ∧ w.FreeEdgeCapacity e > 0
        ∧ w.IsTurbine (w.StartVertex e) = true)
    ∧ (walk.map w.StartVertex ++ [substation]).Nodup

/-- The residual graph `w'` arises from `w` by routing the turbines of the list one after the
other: for each turbine a path to a substation with free capacity is chosen in the residual
graph reached so far, `UpdateFlowOnWalk` raises the flow by exactly `1` on every edge of the
path and on the edge from the substation to the super substation, and leaves the flow as it
was on every edge that is neither one of these edges nor the reverse of one. -/
def NonCollecting.Routed : List Nat → WindfarmResidual → WindfarmResidual → Prop
  | [], w, w' => w' = w
  | turbine :: rest, w, w' =>
    ∃ walk substation, NonCollecting.IsRoute w turbine substation walk
      ∧ (∀ e ∈ walk, (NonCollecting.UpdateFlowOnWalk w walk substation).FlowOnEdge e
          = w.FlowOnEdge e + 1)
      ∧ (NonCollecting.UpdateFlowOnWalk w walk substation).FlowToSubstation substation
          = w.FlowToSubstation substation + 1
      ∧ (∀ e, e < w.NumberOfEdges →
          e ∉ walk ++ [w.EdgeToSupersubstation substation] →
          w.ReverseEdgeIndex e ∉ walk ++ [w.EdgeToSupersubstation substation] →
          (NonCollecting.UpdateFlowOnWalk w walk substation).FlowOnEdge e = w.FlowOnEdge e)
      ∧ NonCollecting.Routed rest (NonCollecting.UpdateFlowOnWalk w walk substation) w'

/-! ## Two smaller wind farms -/

/-- One substation `0` of capacity 5 and nothing else. -/
def substationInstance : Instance :=
  { nodes := [⟨NodeShape.ellipse, 5⟩]
    edges := []
    cabletypes := defaultCabletypes }

/-- The residual graph of `substationInstance` with the flow values `flow` and the residual
costs `costs`: edge `0` from the substation `0` to the super substation `1`, and edge `1`
back. -/
def substationGraph (flow : List Int) (costs : List (WithTop ℚ)) : WindfarmResidual :=
  { numberOfOriginalVertices := 1
    numberOfOriginalEdges := 0
    numberOfTurbines := 0
    numberOfSubstations := 1
    listOfVertices :=
      [{ capacity := 5, type := VertexType.substation, outgoingEdges := [0] },
        { capacity := -1, type := VertexType.supersubstation, outgoingEdges := [1] }]
    listOfEdges :=
      [{ identifier := 0, length := 0, capacity := 5, startVertex := 0, endVertex := 1 },
        { identifier := 1, length := 0, capacity := 5, startVertex := 1, endVertex := 0 }]
    turbineIdentifiers := []
    substationIdentifiers := [0]
    cabletypes := defaultCabletypes
    flowValues := flow
    residualCosts := costs }

/-- Scenario S1 of the specification: a turbine `0`, a substation `1` of capacity 5 and one
edge `0 - 1` of length 10. -/
def pairInstance : Instance :=
  { nodes := [⟨NodeShape.rect, 0⟩, ⟨NodeShape.ellipse, 5⟩]
    edges := [⟨0, 1, 10⟩]
    cabletypes := defaultCabletypes }

/-- The residual graph of `pairInstance` with the flow values `flow` and the residual costs
`costs`: edges `0: 0 → 1`, `1: 1 → 0`, `2: 1 → 2` and `3: 2 → 1`, with `2` the super
substation. -/
def pairGraph (flow : List Int) (costs : List (WithTop ℚ)) : WindfarmResidual :=
  { numberOfOriginalVertices := 2
    numberOfOriginalEdges := 1
    numberOfTurbines := 1
    numberOfSubstations := 1
    listOfVertices :=
      [{ capacity := -1, type := VertexType.turbine, outgoingEdges := [0] },
        { capacity := 5, type := VertexType.substation, outgoingEdges := [1, 2] },
        { capacity := -1, type := VertexType.supersubstation, outgoingEdges := [3] }]
    listOfEdges :=
      [{ identifier := 0, length := 10, capacity := 15, startVertex := 0, endVertex := 1 },
        { identifier := 0, length := 10, capacity := 15, startVertex := 1, endVertex := 0 },
        { identifier := 2, length := 0, capacity := 5, startVertex := 1, endVertex := 2 },
        { identifier := 3, length := 0, capacity := 5, startVertex := 2, endVertex := 1 }]
    turbineIdentifiers := [0]
    substationIdentifiers := [1]
    cabletypes := defaultCabletypes
    flowValues := flow
    residualCosts := costs }

/-- Scenario S1 with a second substation `2` of capacity `-1` that no edge leads to. -/
def spareInstance : Instance :=
  { nodes := [⟨NodeShape.rect, 0⟩, ⟨NodeShape.ellipse, 5⟩, ⟨NodeShape.ellipse, -1⟩]
    edges := [⟨0, 1, 10⟩]
    cabletypes := defaultCabletypes }

end wcp

namespace wcp

/-! ## Sequences of label updates -/

/-- The label after the calls `Update(d, p)` of the list `calls`, in their order. -/
def TwoDistancesLabel.UpdateAll (l : TwoDistancesLabel) (calls : List (WithTop ℚ × Nat)) :
    TwoDistancesLabel :=
  calls.foldl (fun l c => (l.Update c.1 c.2).1) l

/-- The three pairs of a distance and the parent edge over which it was reached that are at
hand in a call `Update(d, p)`: the two pairs stored in the label and the pair of the
call. -/
def TwoDistancesLabel.candidates (l : TwoDistancesLabel) (d : WithTop ℚ) (p : Nat) :
    List (WithTop ℚ × Option Nat) :=
  [(l.dist, l.parent), (l.distSecond, l.parentSecond), (d, some p)]

/-- Modelled from the spec: the label `new` holds the two smallest distances among the
two stored in `old` and `d` that were reached via two different parent edges.  Its first pair
is one of the three pairs and has the least distance of them; its second distance is the
least one among the pairs whose parent is not the first parent, and its second pair is such
a pair, or still the one of a new label. -/
def TwoDistancesLabel.HoldsTwoSmallest (old : TwoDistancesLabel) (d : WithTop ℚ) (p : Nat)
    (new : TwoDistancesLabel) : Prop :=
  (new.dist, new.parent) ∈ old.candidates d p
    ∧ (∀ c ∈ old.candidates d p, new.dist ≤ c.1)
    ∧ (∀ c ∈ old.candidates d p, c.2 ≠ new.parent → new.distSecond ≤ c.1)
    ∧ (((new.distSecond, new.parentSecond) ∈ old.candidates d p
          ∧ new.parentSecond ≠ new.parent)
        ∨ (new.distSecond = ⊤ ∧ new.parentSecond = none))

/-- What the calls of `Update` keep of a `TwoDistancesLabel` that starts as a new label:
the first distance is at most the second one, the two parents differ when there is a
second one, and a label without a first parent is a new label. -/
structure TwoDistancesLabel.Consistent (l : TwoDistancesLabel) : Prop where
  ordered : l.dist ≤ l.distSecond
  distinct : l.parentSecond ≠ none → l.parent ≠ l.parentSecond
  fresh : l.parent = none → l.dist = ⊤ ∧ l.distSecond = ⊤ ∧ l.parentSecond = none

end wcp

namespace wcp

/-! ## Delta strategies (`DeltaStrategy.h`, `IncreasingDeltaStrategy.h`,
`DecreasingDeltaStrategy.h`) and the loop over the deltas (`NegativeCycleCanceling.cpp`) -/

/-- The three virtual functions of the class `DeltaStrategy`, for a strategy without a
state of its own. -/
structure DeltaStrategy where
  FirstDelta : Int
  NextDelta : Int → Bool → Int
  Continue : Int → Bool

/-- Class `IncreasingDeltaStrategy`. -/
def IncreasingDeltaStrategy (maximumFlowChange : Int) : DeltaStrategy :=
  { FirstDelta := 1
    NextDelta := fun currentDelta canceledNegativeCycle =>
      if canceledNegativeCycle then 1 else currentDelta + 1
    Continue := fun upcomingDelta => decide (upcomingDelta ≤ maximumFlowChange) }

/-- Class `DecreasingDeltaStrategy`. -/
def DecreasingDeltaStrategy (maximumFlowChange : Int) : DeltaStrategy :=
  { FirstDelta := maximumFlowChange
    NextDelta := fun currentDelta canceledNegativeCycle =>
      if canceledNegativeCycle then maximumFlowChange else currentDelta - 1
    Continue := fun upcomingDelta => decide (upcomingDelta > 0) }

/-- A record of one call of `PerformNegativeCycleCancelingForSingleDelta` in
`RunNCCforAllDeltas`: the delta passed, the code returned, and the residual graph before
and after the call. -/
structure DeltaPass where
  delta : Int
  code : ReturnCode
  before : WindfarmResidual
  after : WindfarmResidual

namespace NegativeCycleCanceling

/-- The loop of `RunNCCforAllDeltas`, cut after `fuel` iterations: the members of the driver
when the loop ends, and the records of the calls made, which are appended to `passes`.
For every iteration `clocks` gives the answer of `IsTimeLimitExceeded()` in the condition of
the loop and the answers of the readings of the clock during the call; an iteration beyond
the list reads a clock that is not over the limit.  The result is `none` when a call
fails or the loop does not end within `fuel` iterations. -/
def RunNCCforAllDeltasLoop (strategy : DeltaStrategy)
    (detection : WindfarmResidual → DetectionResult) :
    Nat → Int → NCCState → List (Bool × List Bool) → List DeltaPass →
      Option (NCCState × List DeltaPass)
  | 0, changeOfFlow, st, clocks, passes =>
    if (clocks.headD (false, [])).1 || !strategy.Continue changeOfFlow then some (st, passes)
    else none
  | fuel + 1, changeOfFlow, st, clocks, passes =>
    if (clocks.headD (false, [])).1 || !strategy.Continue changeOfFlow then some (st, passes)
    else
      match PerformNegativeCycleCancelingForSingleDelta detection st changeOfFlow true
          (clocks.headD (false, [])).2 with
      | none => none
      | some (valueForReturn, st') =>
        if valueForReturn = ReturnCode.TIME_LIMIT then
          some (st', passes ++ [⟨changeOfFlow, valueForReturn, st.windfarm, st'.windfarm⟩])
        else
          RunNCCforAllDeltasLoop strategy detection fuel
            (strategy.NextDelta changeOfFlow (decide (valueForReturn = ReturnCode.SUCCESS)))
            st' clocks.tail
            (passes ++ [⟨changeOfFlow, valueForReturn, st.windfarm, st'.windfarm⟩])

/-- Function `RunNCCforAllDeltas`: the code returned, the members of the driver afterwards
and the records of the calls of `PerformNegativeCycleCancelingForSingleDelta`;
`atCompletion` is the answer of `IsTimeLimitExceeded(millisecondsAtCompletion)`. -/
def RunNCCforAllDeltas (strategy : DeltaStrategy)
    (detection : WindfarmResidual → DetectionResult) (fuel : Nat) (st : NCCState)
    (clocks : List (Bool × List Bool)) (atCompletion : Bool) :
    Option (ReturnCode × NCCState × List DeltaPass) :=
  match RunNCCforAllDeltasLoop strategy detection fuel strategy.FirstDelta st clocks [] with
  | none => none
  | some (st', passes) =>
    some (if atCompletion then ReturnCode.TIME_LIMIT else ReturnCode.SUCCESS, st', passes)

end NegativeCycleCanceling

end wcp

namespace wcp

/-! ## Initialization strategies in general (`InitializationStrategy.h`) and the strategy
`Collecting` (`Collecting.h`) -/

/-- The three virtual functions of the class `InitializationStrategy`, for a strategy whose
members other than the residual graph and the `Dijkstra` object are of type `σ`.  The
function `UpdateFlowOnWalk` returns the residual graph and these members afterwards. -/
structure InitializationStrategy (σ : Type) where
  HasTurbineProductionBeenCollected : σ → Nat → Bool
  SetTurbineProductionCollected : σ → Nat → Bool → σ
  UpdateFlowOnWalk : WindfarmResidual → σ → List Nat → Nat → WindfarmResidual × σ

namespace InitializationStrategy

variable {σ : Type}

/-- The loop of `InitializeFlow` over the turbines: the code returned, the residual graph,
the members of the strategy and the `Dijkstra` object afterwards.  The result is `none`
when `Run` does not end, when one of the two assertions on the substation found fails, or
when `ExtractWalk` reads an `INVALID_VERTEX` or returns a walk that does not end at the
substation. -/
def InitializeFlowLoop (strategy : InitializationStrategy σ)
    (pop : List DijkstraEntry → Option (DijkstraEntry × List DijkstraEntry))
    (len : WindfarmResidual → Nat → ℚ) (targetSubstation : Nat) :
    List Nat → WindfarmResidual → σ → Dijkstra →
      Option (ReturnCode × WindfarmResidual × σ × Dijkstra)
  | [], w, members, dijkstra => some (ReturnCode.SUCCESS, w, members, dijkstra)
  | turbine :: rest, w, members, dijkstra =>
    if strategy.HasTurbineProductionBeenCollected members turbine then
      InitializeFlowLoop strategy pop len targetSubstation rest w members dijkstra
    else
      match Dijkstra.Run pop len w
          { dijkstra with startVertex := turbine, targetVertex := targetSubstation } with
      | none => none
      | some (returnCode, dijkstra) =>
        if returnCode = ReturnCode.INFEASIBLE then
          some (ReturnCode.NO_FEASIBLE_SOLUTION_FOUND, w, members, dijkstra)
        else if !(w.IsSubstation dijkstra.targetVertex
            && w.HasFreeSubstationCapacity dijkstra.targetVertex) then none
        else
          match Dijkstra.ExtractWalk w dijkstra with
          | none => none
          | some walk =>
            if walk.getLast?.map w.EndVertex ≠ some dijkstra.targetVertex then none
            else
              InitializeFlowLoop strategy pop len targetSubstation rest
                (strategy.UpdateFlowOnWalk w members walk dijkstra.targetVertex).1
                (strategy.UpdateFlowOnWalk w members walk dijkstra.targetVertex).2 dijkstra

/-- Function `InitializeFlow`. -/
def InitializeFlow (strategy : InitializationStrategy σ)
    (pop : List DijkstraEntry → Option (DijkstraEntry × List DijkstraEntry))
    (len : WindfarmResidual → Nat → ℚ) (targetSubstation : Nat) (w : WindfarmResidual)
    (members : σ) (dijkstra : Dijkstra) :
    Option (ReturnCode × WindfarmResidual × σ × Dijkstra) :=
  InitializeFlowLoop strategy pop len targetSubstation w.Turbines w members dijkstra

/-- The turbines for which `InitializeFlow` calls `Run`, in the order of the calls, each
with the code that `Run` returned: the turbines of the list that are not yet collected when
their turn comes.  The list ends with the first call that returns `INFEASIBLE` or after
which the loop fails. -/
def InitializeFlowRuns (strategy : InitializationStrategy σ)
    (pop : List DijkstraEntry → Option (DijkstraEntry × List DijkstraEntry))
    (len : WindfarmResidual → Nat → ℚ) (targetSubstation : Nat) :
    List Nat → WindfarmResidual → σ → Dijkstra → List (Nat × ReturnCode)
  | [], _, _, _ => []
  | turbine :: rest, w, members, dijkstra =>
    if strategy.HasTurbineProductionBeenCollected members turbine then
      InitializeFlowRuns strategy pop len targetSubstation rest w members dijkstra
    else
      match Dijkstra.Run pop len w
          { dijkstra with startVertex := turbine, targetVertex := targetSubstation } with
      | none => []
      | some (returnCode, dijkstra) =>
        (turbine, returnCode) ::
          if returnCode = ReturnCode.INFEASIBLE then []
          else if !(w.IsSubstation dijkstra.targetVertex
              && w.HasFreeSubstationCapacity dijkstra.targetVertex) then []
          else
            match Dijkstra.ExtractWalk w dijkstra with
            | none => []
            | some walk =>
              if walk.getLast?.map w.EndVertex ≠ some dijkstra.targetVertex then []
              else
                InitializeFlowRuns strategy pop len targetSubstation rest
                  (strategy.UpdateFlowOnWalk w members walk dijkstra.targetVertex).1
                  (strategy.UpdateFlowOnWalk w members walk dijkstra.targetVertex).2 dijkstra

end InitializationStrategy

/-- The strategy `NonCollecting`, which has no members of its own. -/
def nonCollecting : InitializationStrategy Unit :=
  { HasTurbineProductionBeenCollected := fun _ _ => false
    SetTurbineProductionCollected := fun members _ _ => members
    UpdateFlowOnWalk := fun w members walk substationID =>
      (NonCollecting.UpdateFlowOnWalk w walk substationID, members) }

namespace Collecting

/-- Constructor `Collecting(windfarm, dijkstra, targetSubstation)`: the vector
`haveTurbineProductionsBeenCollected`. -/
def create (w : WindfarmResidual) : List Bool :=
  List.replicate w.NumberOfOriginalVertices false

/-- Function `HasTurbineProductionBeenCollected`. -/
def HasTurbineProductionBeenCollected (haveTurbineProductionsBeenCollected : List Bool)
    (turbineID : Nat) : Bool :=
  haveTurbineProductionsBeenCollected.getD turbineID false

/-- Function `SetTurbineProductionCollected`. -/
def SetTurbineProductionCollected (haveTurbineProductionsBeenCollected : List Bool)
    (turbineID : Nat) (isCollected : Bool) : List Bool :=
  haveTurbineProductionsBeenCollected.set turbineID isCollected

/-- Function `ComputeFreeCapacities`: the vector `freeCapacities`, which has one entry
for every edge of the walk and a last one for the substation. -/
def ComputeFreeCapacities (w : WindfarmResidual) (substation : Nat) : List Nat → List Int
  | [] => [w.FreeSubstationCapacity substation]
  | edge :: rest =>
    (if w.FreeEdgeCapacity edge < (ComputeFreeCapacities w substation rest).headD 0 then
        w.FreeEdgeCapacity edge
      else (ComputeFreeCapacities w substation rest).headD 0)
      :: ComputeFreeCapacities w substation rest

/-- The loop of `UpdateFlowOnWalk` over the edges of the walk that are still to come, with
the entries of `freeCapacities` for them: the residual graph, the vector
`haveTurbineProductionsBeenCollected` and `currentFlowValue` afterwards. -/
def UpdateFlowOnWalkLoop :
    List Nat → List Int → WindfarmResidual → List Bool → Int → WindfarmResidual × List Bool × Int
  | [], _, w, collected, currentFlowValue => (w, collected, currentFlowValue)
  | edge :: rest, freeCapacities, w, collected, currentFlowValue =>
    if !HasTurbineProductionBeenCollected collected (w.StartVertex edge)
        && decide (currentFlowValue < freeCapacities.headD 0) then
      UpdateFlowOnWalkLoop rest freeCapacities.tail
        (w.AddFlowOnEdge edge (currentFlowValue + 1))
        (collected.set (w.StartVertex edge) true) (currentFlowValue + 1)
    else
      UpdateFlowOnWalkLoop rest freeCapacities.tail (w.AddFlowOnEdge edge currentFlowValue)
        collected currentFlowValue

/-- Function `UpdateFlowOnWalk`: the residual graph and the vector
`haveTurbineProductionsBeenCollected` afterwards. -/
def UpdateFlowOnWalk (w : WindfarmResidual) (collected : List Bool) (walk : List Nat)
    (substationID : Nat) : WindfarmResidual × List Bool :=
  let r := UpdateFlowOnWalkLoop walk (ComputeFreeCapacities w substationID walk) w collected 0
  (r.1.AddFlowOnEdge (r.1.EdgeToSupersubstation substationID) r.2.2, r.2.1)

/-- Modelled from the spec: the number of turbines newly collected among the start vertices
of the edges `edges`, that is, the number of these edges whose start vertex is not collected
in the vector `before` and is collected in the vector `after`. -/
def newlyCollected (w : WindfarmResidual) (before after : List Bool) (edges : List Nat) : Nat :=
  edges.countP fun edge =>
    !before.getD (w.StartVertex edge) false && after.getD (w.StartVertex edge) false

end Collecting

/-- The strategy `Collecting`, whose member is the vector
`haveTurbineProductionsBeenCollected`. -/
def collecting : InitializationStrategy (List Bool) :=
  { HasTurbineProductionBeenCollected := Collecting.HasTurbineProductionBeenCollected
    SetTurbineProductionCollected := Collecting.SetTurbineProductionCollected
    UpdateFlowOnWalk := Collecting.UpdateFlowOnWalk }

/-! ## The escaping strategy `EscapingNewInitialization`
(`EscapingNewInitialization.h`) -/

/-- Function `EscapingNewInitialization::apply` in a build without assertions:
`numberOfCalls_` afterwards, the code returned, and the residual graph, the members of the
initialization strategy and the `Dijkstra` object afterwards. -/
def EscapingNewInitialization.apply {σ : Type} (initializationStrategy : InitializationStrategy σ)
    (pop : List DijkstraEntry → Option (DijkstraEntry × List DijkstraEntry))
    (len : WindfarmResidual → Nat → ℚ) (targetSubstation : Nat) (numberOfCalls : Nat)
    (w : WindfarmResidual) (members : σ) (dijkstra : Dijkstra) :
    Option (Nat × ReturnCode × WindfarmResidual × σ × Dijkstra) :=
  let numberOfCalls := numberOfCalls + 1
  let w := (List.range w.NumberOfEdges).foldl (fun w i => w.SetFlowOnEdge i 0) w
  let members :=
    if numberOfCalls > 2 then
      w.Turbines.foldl
        (fun members turbine =>
          initializationStrategy.SetTurbineProductionCollected members turbine false) members
    else members
  (initializationStrategy.InitializeFlow pop len targetSubstation w members dijkstra).map
    fun r => (numberOfCalls, r)

/-! ## More small wind farms -/

/-- Two turbines `0` and `1` and a substation `2` of capacity 5 in a row: edges `0 - 1` and
`1 - 2` of length 1. -/
def lineInstance : Instance :=
  { nodes := [⟨NodeShape.rect, 0⟩, ⟨NodeShape.rect, 0⟩, ⟨NodeShape.ellipse, 5⟩]
    edges := [⟨0, 1, 1⟩, ⟨1, 2, 1⟩]
    cabletypes := defaultCabletypes }

/-- The residual graph of `lineInstance` with the flow values `flow` and the residual costs
`costs`: edges `0: 0 → 1`, `1: 1 → 2`, `2: 1 → 0`, `3: 2 → 1`, `4: 2 → 3` and `5: 3 → 2`,
with `3` the super substation. -/
def lineGraph (flow : List Int) (costs : List (WithTop ℚ)) : WindfarmResidual :=
  { numberOfOriginalVertices := 3
    numberOfOriginalEdges := 2
    numberOfTurbines := 2
    numberOfSubstations := 1
    listOfVertices :=
      [{ capacity := -1, type := VertexType.turbine, outgoingEdges := [0] },
        { capacity := -1, type := VertexType.turbine, outgoingEdges := [2, 1] },
        { capacity := 5, type := VertexType.substation, outgoingEdges := [3, 4] },
        { capacity := -1, type := VertexType.supersubstation, outgoingEdges := [5] }]
    listOfEdges :=
      [{ identifier := 0, length := 1, capacity := 15, startVertex := 0, endVertex := 1 },
        { identifier := 1, length := 1, capacity := 15, startVertex := 1, endVertex := 2 },
        { identifier := 0, length := 1, capacity := 15, startVertex := 1, endVertex := 0 },
        { identifier := 1, length := 1, capacity := 15, startVertex := 2, endVertex := 1 },
        { identifier := 4, length := 0, capacity := 5, startVertex := 2, endVertex := 3 },
        { identifier := 5, length := 0, capacity := 5, startVertex := 3, endVertex := 2 }]
    turbineIdentifiers := [0, 1]
    substationIdentifiers := [2]
    cabletypes := defaultCabletypes
    flowValues := flow
    residualCosts := costs }

/-- The turbines `0` and `1` and the substation `2` in a row as in `lineInstance`, with the
capacity 1 of the substation: fewer than there are turbines. -/
def tightInstance : Instance :=
  { nodes := [⟨NodeShape.rect, 0⟩, ⟨NodeShape.rect, 0⟩, ⟨NodeShape.ellipse, 1⟩]
    edges := [⟨0, 1, 1⟩, ⟨1, 2, 1⟩]
    cabletypes := defaultCabletypes }

/-- The residual graph of `tightInstance` with the flow values `flow` and the residual costs
`costs`; the edges are the ones of `lineGraph`. -/
def tightGraph (flow : List Int) (costs : List (WithTop ℚ)) : WindfarmResidual :=
  { numberOfOriginalVertices := 3
    numberOfOriginalEdges := 2
    numberOfTurbines := 2
    numberOfSubstations := 1
    listOfVertices :=
      [{ capacity := -1, type := VertexType.turbine, outgoingEdges := [0] },
        { capacity := -1, type := VertexType.turbine, outgoingEdges := [2, 1] },
        { capacity := 1, type := VertexType.substation, outgoingEdges := [3, 4] },
        { capacity := -1, type := VertexType.supersubstation, outgoingEdges := [5] }]
    listOfEdges :=
      [{ identifier := 0, length := 1, capacity := 15, startVertex := 0, endVertex := 1 },
        { identifier := 1, length := 1, capacity := 15, startVertex := 1, endVertex := 2 },
        { identifier := 0, length := 1, capacity := 15, startVertex := 1, endVertex := 0 },
        { identifier := 1, length := 1, capacity := 15, startVertex := 2, endVertex := 1 },
        { identifier := 4, length := 0, capacity := 1, startVertex := 2, endVertex := 3 },
        { identifier := 5, length := 0, capacity := 1, startVertex := 3, endVertex := 2 }]
    turbineIdentifiers := [0, 1]
    substationIdentifiers := [2]
    cabletypes := defaultCabletypes
    flowValues := flow
    residualCosts := costs }

/-- Scenario S1 with the capacity 5 of the substation `1` and a second substation `2` of
capacity `-10` that no edge leads to: the capacities of the substations sum up to `-5`. -/
def deficitInstance : Instance :=
  { nodes := [⟨NodeShape.rect, 0⟩, ⟨NodeShape.ellipse, 5⟩, ⟨NodeShape.ellipse, -10⟩]
    edges := [⟨0, 1, 10⟩]
    cabletypes := defaultCabletypes }

end wcp

namespace wcp

/-! ## The keeper of the escaping strategies (`KeeperOfEscapingStrategies.h`) -/

/-- The members of `KeeperOfEscapingStrategies` that the bookkeeping of `EscapingNCC` reads
or writes; `numberOfStrategies` is the size of `vectorOfEscapingStrategiesWithWeights`.
The strategies themselves, their weights and the random number generator belong to the
environment of `EscapingNCC` below, and `*currentIteration_` is the member `runs_` of
`EscapingNCC`, which the functions below take as an argument. -/
structure KeeperOfEscapingStrategies where
  numberOfStrategies : Nat
  iterationOfLastUse : List Nat
  numberOfStrategiesUsedUnsuccessfully : Nat
  iterationOfLastChange : Nat
  indexOfCurrentEscapingStrategy : Nat

namespace KeeperOfEscapingStrategies

/-- A keeper with `numberOfStrategies` strategies before `InitializeRNGandTracking`;
`indexOfCurrentEscapingStrategy_` is the largest `unsigned int`. -/
def create (numberOfStrategies : Nat) : KeeperOfEscapingStrategies :=
  { numberOfStrategies := numberOfStrategies
    iterationOfLastUse := []
    numberOfStrategiesUsedUnsuccessfully := 0
    iterationOfLastChange := 0
    indexOfCurrentEscapingStrategy := 4294967295 }

/-- Function `AtLeastOneEscapingStrategy`. -/
def AtLeastOneEscapingStrategy (k : KeeperOfEscapingStrategies) : Bool :=
  decide (k.numberOfStrategies ≠ 0)

/-- Function `InitializeRNGandTracking`, as far as the members above go. -/
def InitializeRNGandTracking (k : KeeperOfEscapingStrategies) : KeeperOfEscapingStrategies :=
  { k with iterationOfLastUse := List.replicate k.numberOfStrategies 0 }

/-- Function `CheckConsistency`. -/
def CheckConsistency (k : KeeperOfEscapingStrategies) : Bool :=
  decide (k.iterationOfLastUse.countP (fun iteration => decide (iteration > k.iterationOfLastChange))
    = k.numberOfStrategiesUsedUnsuccessfully)

/-- Function `DrawNextEscapingStrategy`, with the index that the distribution hands out. -/
def DrawNextEscapingStrategy (k : KeeperOfEscapingStrategies) (drawn : Nat) :
    KeeperOfEscapingStrategies :=
  { k with indexOfCurrentEscapingStrategy := drawn }

/-- Function `HasCurrentStrategyBeenUsedInCurrentIteration`. -/
def HasCurrentStrategyBeenUsedInCurrentIteration (k : KeeperOfEscapingStrategies) : Bool :=
  decide (k.iterationOfLastUse.getD k.indexOfCurrentEscapingStrategy 0 > k.iterationOfLastChange)

/-- Function `SetCurrentStrategyAsUsedSuccessfully`. -/
def SetCurrentStrategyAsUsedSuccessfully (k : KeeperOfEscapingStrategies)
    (currentIteration : Nat) : KeeperOfEscapingStrategies :=
  { k with
    iterationOfLastUse := k.iterationOfLastUse.set k.indexOfCurrentEscapingStrategy currentIteration
    iterationOfLastChange := currentIteration
    numberOfStrategiesUsedUnsuccessfully := 0 }

/-- Function `SetCurrentStrategyAsUsedUnsuccessfully`. -/
def SetCurrentStrategyAsUsedUnsuccessfully (k : KeeperOfEscapingStrategies)
    (currentIteration : Nat) : KeeperOfEscapingStrategies :=
  { k with
    iterationOfLastUse := k.iterationOfLastUse.set k.indexOfCurrentEscapingStrategy currentIteration
    numberOfStrategiesUsedUnsuccessfully := k.numberOfStrategiesUsedUnsuccessfully + 1 }

/-- Function `HaveAllStrategiesBeenUsedInCurrentIteration`. -/
def HaveAllStrategiesBeenUsedInCurrentIteration (k : KeeperOfEscapingStrategies) : Bool :=
  decide (k.numberOfStrategiesUsedUnsuccessfully = k.iterationOfLastUse.length)

end KeeperOfEscapingStrategies

/-! ## The outer loop of `EscapingNCC` (`EscapingNCC.h`) -/

/-- What a run of negative cycle canceling, the initialization and an escaping strategy can
change: the residual graph, the recorded solution costs, and `rest`, which stands for
everything else that the bookkeeping of `EscapingNCC` does not read (the clock, the random
number generator, the members of the strategies, of the detection strategy and of the
residual cost computer, the bonbon, the logger). -/
structure NCCMembers (E : Type) where
  windfarm : WindfarmResidual
  solutionCosts : WithTop ℚ
  rest : E

/-- The parts of the program that the outer loop of `EscapingNCC` calls: the functions
`ComputeInitialFlow` and `RunNCCforAllDeltas` of the base class, the reading of the clock in
`IsTimeLimitExceeded`, the draw of an index from the distribution in
`DrawNextEscapingStrategy`, and `apply` of the escaping strategy of a given index. -/
structure EscapingCalls (E : Type) where
  ComputeInitialFlow : NCCMembers E → ReturnCode × NCCMembers E
  RunNCCforAllDeltas : NCCMembers E → ReturnCode × NCCMembers E
  IsTimeLimitExceeded : E → Bool × E
  Draw : E → Nat × E
  Apply : Nat → NCCMembers E → ReturnCode × NCCMembers E

/-- What the outer loop does, in the order in which it does it: a run of
`RunNCCforAllDeltas` with the code returned and the residual graph afterwards; a call of
`SaveBestFlowIfNecessary` with the cost passed and `bestSolutionValue_` and `bestFlow_`
after the call; a draw of a strategy with the value that `runs_` has then; the skip of the
strategy drawn; the application of the strategy drawn with the code returned and the
residual graph afterwards. -/
inductive EscapingEvent where
  | ncc (code : ReturnCode) (windfarm : WindfarmResidual)
  | save (cost : ℚ) (bestSolutionValue : WithTop ℚ) (bestFlow : List Int)
  | draw (runs : Nat) (index : Nat)
  | skip (index : Nat)
  | apply (index : Nat) (code : ReturnCode) (windfarm : WindfarmResidual)

/-- The members of `EscapingNCC`; `events` records what the outer loop has done so far, for
the statements of the theorems. -/
structure EscapingNCC (E : Type) where
  members : NCCMembers E
  keeperOfEscapingStrategies : KeeperOfEscapingStrategies
  iterationLimit : Nat
  bestFlow : List Int
  bestSolutionValue : WithTop ℚ
  runs : Nat
  events : List EscapingEvent

namespace EscapingNCC

variable {E : Type}

/-- Constant `INFINITE_CAPACITY`, half of the largest `int`. -/
def INFINITE_CAPACITY : Int := 1073741823

/-- The constructor of `EscapingNCC` up to the call of `RunCompleteAlgorithm`:
`bestFlow_` is filled with `INFINITE_CAPACITY`, `bestSolutionValue_` is `INFINITE_COST`,
and `InferSettingsFromEscapingStrategies` and `InitializeKeeperOfEscapingStrategies` have
run. -/
def create (windfarm : WindfarmResidual) (rest : E) (numberOfStrategies iterationLimit : Nat) :
    EscapingNCC E :=
  { members := { windfarm := windfarm, solutionCosts := ⊤, rest := rest }
    keeperOfEscapingStrategies :=
      (KeeperOfEscapingStrategies.create numberOfStrategies).InitializeRNGandTracking
    iterationLimit :=
      if !(KeeperOfEscapingStrategies.create numberOfStrategies).AtLeastOneEscapingStrategy
      then 1 else iterationLimit
    bestFlow := List.replicate windfarm.NumberOfEdges INFINITE_CAPACITY
    bestSolutionValue := ⊤
    runs := 0
    events := [] }

/-- Function `IsIterationLimitExceeded`. -/
def IsIterationLimitExceeded (s : EscapingNCC E) : Bool :=
  decide (s.runs > s.iterationLimit)

/-- Function `CopyBestFlowFromWindfarm`. -/
def CopyBestFlowFromWindfarm (s : EscapingNCC E) : EscapingNCC E :=
  { s with
    bestFlow :=
      (List.range s.members.windfarm.NumberOfEdges).foldl
        (fun bestFlow edge => bestFlow.set edge (s.members.windfarm.FlowOnEdge edge)) s.bestFlow }

/-- Function `CopyBestFlowToWindfarm`. -/
def CopyBestFlowToWindfarm (s : EscapingNCC E) : EscapingNCC E :=
  { s with
    members :=
      { s.members with
        windfarm :=
          (List.range s.members.windfarm.NumberOfEdges).foldl
            (fun windfarm edge => windfarm.SetFlowOnEdge edge (s.bestFlow.getD edge 0))
            s.members.windfarm } }

/-- Function `UpdateBestFlow`. -/
def UpdateBestFlow (s : EscapingNCC E) (newBestCost : ℚ) : EscapingNCC E :=
  CopyBestFlowFromWindfarm { s with bestSolutionValue := ((newBestCost : ℚ) : WithTop ℚ) }

/-- Function `SaveBestFlowIfNecessary`. -/
def SaveBestFlowIfNecessary (s : EscapingNCC E) (costOfFlowInWindfarm : ℚ) : EscapingNCC E :=
  let s' :=
    if ((costOfFlowInWindfarm : ℚ) : WithTop ℚ) < s.bestSolutionValue then
      UpdateBestFlow s costOfFlowInWindfarm
    else s
  { s' with
    events :=
      s'.events ++ [EscapingEvent.save costOfFlowInWindfarm s'.bestSolutionValue s'.bestFlow] }

/-- Function `DoBookkeepingAfterSuccessfulEscaping`. -/
def DoBookkeepingAfterSuccessfulEscaping (s : EscapingNCC E) : EscapingNCC E :=
  let s1 : EscapingNCC E :=
    { s with
      members :=
        { s.members with
          solutionCosts := ((s.members.windfarm.ComputeTotalCostOfFlow : ℚ) : WithTop ℚ) } }
  let s2 := SaveBestFlowIfNecessary s1 s.members.windfarm.ComputeTotalCostOfFlow
  { s2 with
    keeperOfEscapingStrategies :=
      s2.keeperOfEscapingStrategies.SetCurrentStrategyAsUsedSuccessfully s2.runs }

/-- Function `DoBookkeepingAfterUnsuccessfulEscaping`. -/
def DoBookkeepingAfterUnsuccessfulEscaping (s : EscapingNCC E) : EscapingNCC E :=
  { s with
    keeperOfEscapingStrategies :=
      s.keeperOfEscapingStrategies.SetCurrentStrategyAsUsedUnsuccessfully s.runs }

/-- Function `CanEscapingContinueAfterUnsuccessfulTry`. -/
def CanEscapingContinueAfterUnsuccessfulTry (s : EscapingNCC E) : ReturnCode :=
  if s.keeperOfEscapingStrategies.HaveAllStrategiesBeenUsedInCurrentIteration then
    ReturnCode.EARLY_TERMINATION
  else ReturnCode.IN_PROGRESS

/-- The statement `runs_++` at the beginning of the loop of
`TryToChangeFlowByApplyingEscapingStrategies`. -/
def countIteration (s : EscapingNCC E) : EscapingNCC E :=
  { s with runs := s.runs + 1 }

/-- The call `IsTimeLimitExceeded()` in the outer loop: its answer and the members
afterwards. -/
def readClock (calls : EscapingCalls E) (s : EscapingNCC E) : Bool × EscapingNCC E :=
  ((calls.IsTimeLimitExceeded s.members.rest).1,
    { s with
      members := { s.members with rest := (calls.IsTimeLimitExceeded s.members.rest).2 } })

/-- The call `keeperOfEscapingStrategies_->DrawNextEscapingStrategy()`. -/
def drawStrategy (calls : EscapingCalls E) (s : EscapingNCC E) : EscapingNCC E :=
  { s with
    members := { s.members with rest := (calls.Draw s.members.rest).2 }
    keeperOfEscapingStrategies :=
      s.keeperOfEscapingStrategies.DrawNextEscapingStrategy (calls.Draw s.members.rest).1
    events := s.events ++ [EscapingEvent.draw s.runs (calls.Draw s.members.rest).1] }

/-- The branch of the loop that ignores the strategy drawn. -/
def skipStrategy (s : EscapingNCC E) : EscapingNCC E :=
  { s with
    events :=
      s.events ++ [EscapingEvent.skip s.keeperOfEscapingStrategies.indexOfCurrentEscapingStrategy] }

/-- The call `keeperOfEscapingStrategies_->ApplyCurrentStrategy(*this)`: the code returned
and the members afterwards. -/
def applyStrategy (calls : EscapingCalls E) (s : EscapingNCC E) : ReturnCode × EscapingNCC E :=
  ((calls.Apply s.keeperOfEscapingStrategies.indexOfCurrentEscapingStrategy s.members).1,
    { s with
      members :=
        (calls.Apply s.keeperOfEscapingStrategies.indexOfCurrentEscapingStrategy s.members).2
      events :=
        s.events ++
          [EscapingEvent.apply s.keeperOfEscapingStrategies.indexOfCurrentEscapingStrategy
            (calls.Apply s.keeperOfEscapingStrategies.indexOfCurrentEscapingStrategy s.members).1
            (calls.Apply s.keeperOfEscapingStrategies.indexOfCurrentEscapingStrategy
              s.members).2.windfarm] })

/-- Function `TryToChangeFlowByApplyingEscapingStrategies`, its loop cut after `fuel`
iterations: the code returned and the members afterwards.  The result is `none` when the
assertion on the consistency of the keeper fails, when a strategy returns a code other than
`SUCCESS` and `NOTHING_CHANGED`, or when the loop does not end within `fuel` iterations. -/
def TryToChangeFlowByApplyingEscapingStrategies (calls : EscapingCalls E) :
    Nat → EscapingNCC E → Option (ReturnCode × EscapingNCC E)
  | 0, _ => none
  | fuel + 1, s =>
    if !(countIteration s).keeperOfEscapingStrategies.CheckConsistency then none
    else if (readClock calls (countIteration s)).1 then
      some (ReturnCode.TIME_LIMIT, (readClock calls (countIteration s)).2)
    else if IsIterationLimitExceeded (readClock calls (countIteration s)).2 then
      some (ReturnCode.ITERATION_LIMIT, (readClock calls (countIteration s)).2)
    else if (drawStrategy calls (readClock calls (countIteration s)).2).keeperOfEscapingStrategies
        |>.HasCurrentStrategyBeenUsedInCurrentIteration then
      TryToChangeFlowByApplyingEscapingStrategies calls fuel
        (skipStrategy (drawStrategy calls (readClock calls (countIteration s)).2))
    else if (applyStrategy calls (drawStrategy calls (readClock calls (countIteration s)).2)).1
        = ReturnCode.SUCCESS then
      some (ReturnCode.IN_PROGRESS,
        DoBookkeepingAfterSuccessfulEscaping
          (applyStrategy calls (drawStrategy calls (readClock calls (countIteration s)).2)).2)
    else if (applyStrategy calls (drawStrategy calls (readClock calls (countIteration s)).2)).1
        ≠ ReturnCode.NOTHING_CHANGED then none
    else if CanEscapingContinueAfterUnsuccessfulTry
        (DoBookkeepingAfterUnsuccessfulEscaping
          (applyStrategy calls (drawStrategy calls (readClock calls (countIteration s)).2)).2)
        = ReturnCode.IN_PROGRESS then
      TryToChangeFlowByApplyingEscapingStrategies calls fuel
        (DoBookkeepingAfterUnsuccessfulEscaping
          (applyStrategy calls (drawStrategy calls (readClock calls (countIteration s)).2)).2)
    else
      some (CanEscapingContinueAfterUnsuccessfulTry
          (DoBookkeepingAfterUnsuccessfulEscaping
            (applyStrategy calls (drawStrategy calls (readClock calls (countIteration s)).2)).2),
        DoBookkeepingAfterUnsuccessfulEscaping
          (applyStrategy calls (drawStrategy calls (readClock calls (countIteration s)).2)).2)

/-- The call `RunNCCforAllDeltas()` in `AlternateNCCandEscaping`: the code returned and the
members afterwards. -/
def runNCC (calls : EscapingCalls E) (s : EscapingNCC E) : ReturnCode × EscapingNCC E :=
  ((calls.RunNCCforAllDeltas s.members).1,
    { s with
      members := (calls.RunNCCforAllDeltas s.members).2
      events :=
        s.events ++
          [EscapingEvent.ncc (calls.RunNCCforAllDeltas s.members).1
            (calls.RunNCCforAllDeltas s.members).2.windfarm] })

/-- Function `AlternateNCCandEscaping`, its loop cut after `fuel` iterations, each of which
gives `fuel'` iterations to the loop of `TryToChangeFlowByApplyingEscapingStrategies`. -/
def AlternateNCCandEscaping (calls : EscapingCalls E) (fuel' : Nat) :
    Nat → EscapingNCC E → Option (ReturnCode × EscapingNCC E)
  | 0, _ => none
  | fuel + 1, s =>
    if (runNCC calls s).1 ≠ ReturnCode.SUCCESS then
      some ((runNCC calls s).1,
        SaveBestFlowIfNecessary (runNCC calls s).2
          (runNCC calls s).2.members.windfarm.ComputeTotalCostOfFlow)
    else
      match TryToChangeFlowByApplyingEscapingStrategies calls fuel'
          (SaveBestFlowIfNecessary (runNCC calls s).2
            (runNCC calls s).2.members.windfarm.ComputeTotalCostOfFlow) with
      | none => none
      | some (valueForReturn, s) =>
        if valueForReturn = ReturnCode.IN_PROGRESS then
          AlternateNCCandEscaping calls fuel' fuel s
        else some (valueForReturn, s)

/-- Function `RunCompleteAlgorithm`. -/
def RunCompleteAlgorithm (calls : EscapingCalls E) (fuel fuel' : Nat) (s : EscapingNCC E) :
    Option (ReturnCode × EscapingNCC E) :=
  let initial := calls.ComputeInitialFlow s.members
  let valueForReturn :=
    if initial.1 = ReturnCode.SUCCESS ∧ s.iterationLimit = 0 then ReturnCode.ITERATION_LIMIT
    else initial.1
  let s : EscapingNCC E := { s with members := initial.2, runs := 1 }
  if valueForReturn = ReturnCode.SUCCESS then
    match AlternateNCCandEscaping calls fuel' fuel s with
    | none => none
    | some (valueForReturn, s) => some (valueForReturn, CopyBestFlowToWindfarm s)
  else some (valueForReturn, s)

/-! ### What the theorems on the outer loop read off the record of events -/

/-- The indices of the strategies that were applied without success after the last
successful application, in the order of their application. -/
def appliedSinceLastSuccess (events : List EscapingEvent) : List Nat :=
  events.foldl
    (fun applied event =>
      match event with
      | EscapingEvent.apply index code _ =>
        if code = ReturnCode.SUCCESS then [] else applied ++ [index]
      | _ => applied) []

/-- What the keeper allows after the events `before`: the application of a strategy that
was not applied without success after the last successful application, and the skip of a
strategy that was. -/
def eventAllowed (before : List EscapingEvent) : EscapingEvent → Prop
  | EscapingEvent.apply index _ _ => index ∉ appliedSinceLastSuccess before
  | EscapingEvent.skip index => index ∈ appliedSinceLastSuccess before
  | _ => True

/-- The values of `runs_` at the draws of a strategy, in the order of the draws. -/
def drawRuns : List EscapingEvent → List Nat
  | [] => []
  | EscapingEvent.draw runs _ :: rest => runs :: drawRuns rest
  | _ :: rest => drawRuns rest

/-- The runs of `RunNCCforAllDeltas`: the residual graphs at their ends, in the order of the
runs. -/
def nccRuns : List EscapingEvent → List WindfarmResidual
  | [] => []
  | EscapingEvent.ncc _ windfarm :: rest => windfarm :: nccRuns rest
  | _ :: rest => nccRuns rest

/-- The values of `bestSolutionValue_` after the calls of `SaveBestFlowIfNecessary`, in the
order of the calls. -/
def savedValues : List EscapingEvent → List (WithTop ℚ)
  | [] => []
  | EscapingEvent.save _ bestSolutionValue _ :: rest => bestSolutionValue :: savedValues rest
  | _ :: rest => savedValues rest

/-- The residual graphs at the end of a run of `RunNCCforAllDeltas` and after a successful
application of an escaping strategy. -/
def seenFlows : List EscapingEvent → List WindfarmResidual
  | [] => []
  | EscapingEvent.ncc _ windfarm :: rest => windfarm :: seenFlows rest
  | EscapingEvent.apply _ code windfarm :: rest =>
    if code = ReturnCode.SUCCESS then windfarm :: seenFlows rest else seenFlows rest
  | _ :: rest => seenFlows rest

/-- The state of the keeper between two iterations of the loop of
`TryToChangeFlowByApplyingEscapingStrategies`: the strategies whose last use is after the
last change are the ones that were applied without success after the last successful
application, `numberOfStrategiesUsedUnsuccessfully_` is their number, and neither the last change
nor a last use is after the current iteration. -/
structure KeeperInv (s : EscapingNCC E) : Prop where
  size : s.keeperOfEscapingStrategies.iterationOfLastUse.length
    = s.keeperOfEscapingStrategies.numberOfStrategies
  nodup : (appliedSinceLastSuccess s.events).Nodup
  used : ∀ i, i ∈ appliedSinceLastSuccess s.events ↔
    i < s.keeperOfEscapingStrategies.numberOfStrategies
      ∧ s.keeperOfEscapingStrategies.iterationOfLastUse.getD i 0
        > s.keeperOfEscapingStrategies.iterationOfLastChange
  count : s.keeperOfEscapingStrategies.numberOfStrategiesUsedUnsuccessfully
    = (appliedSinceLastSuccess s.events).length
  change : s.keeperOfEscapingStrategies.iterationOfLastChange ≤ s.runs
  le : ∀ x ∈ s.keeperOfEscapingStrategies.iterationOfLastUse, x ≤ s.runs

/-- The vector that `CopyBestFlowFromWindfarm` reads off a residual graph: the flow on
every edge. -/
def flowOf (windfarm : WindfarmResidual) : List Int :=
  (List.range windfarm.NumberOfEdges).map windfarm.FlowOnEdge

/-- The state of the best flow between two steps of the outer loop, for a residual graph
that is a state of `w0`: `bestSolutionValue_` is the value after the last call of
`SaveBestFlowIfNecessary`, no value after a call is larger than an earlier one, every call
has left the flow and the cost of a residual graph seen before it in `bestFlow_` and
`bestSolutionValue_`, and `bestSolutionValue_` is at most the cost of every flow seen. -/
structure BestInv (w0 windfarm : WindfarmResidual) (bestFlow : List Int)
    (bestSolutionValue : WithTop ℚ) (events : List EscapingEvent) : Prop where
  state : windfarm.IsStateOf w0
  size : bestFlow.length = w0.NumberOfEdges
  seen : ∀ w ∈ seenFlows events, w.IsStateOf w0
  mono : (savedValues events).Pairwise (fun earlier later => later ≤ earlier)
  below : ∀ v ∈ savedValues events, bestSolutionValue ≤ v
  last : (savedValues events).getLast? = some bestSolutionValue
    ∨ (savedValues events = [] ∧ bestSolutionValue = ⊤)
  count : (savedValues events).length = (seenFlows events).length
  saved : ∀ c v f, EscapingEvent.save c v f ∈ events →
    ∃ wb ∈ seenFlows events, f = flowOf wb
      ∧ v = ((wb.ComputeTotalCostOfFlow : ℚ) : WithTop ℚ)
  best : bestSolutionValue = ⊤ ∨ ∃ wb ∈ seenFlows events, bestFlow = flowOf wb
      ∧ bestSolutionValue = ((wb.ComputeTotalCostOfFlow : ℚ) : WithTop ℚ)
  least : ∀ w ∈ seenFlows events,
    bestSolutionValue ≤ ((w.ComputeTotalCostOfFlow : ℚ) : WithTop ℚ)

end EscapingNCC

end wcp

namespace wcp

/-- A run of `EscapingNCC` on the triangle instance with one escaping strategy: the first
run of `RunNCCforAllDeltas` reroutes the turbine `0` over the turbine `1`, the later ones
change nothing, and the escaping strategy puts both turbines back on their own edges to the
substation.  `rest` counts the runs of `RunNCCforAllDeltas` that have changed the flow. -/
def reroutingCalls : EscapingCalls Nat :=
  { ComputeInitialFlow := fun m => (ReturnCode.SUCCESS, m)
    RunNCCforAllDeltas := fun m =>
      (ReturnCode.SUCCESS,
        if m.rest = 0 then
          { m with windfarm := triangleGraph [0, 2, 1, 2] [0, 0, 0, 0, 0, 0, 0, 0], rest := 1 }
        else m)
    IsTimeLimitExceeded := fun rest => (false, rest)
    Draw := fun rest => (0, rest)
    Apply := fun _ m =>
      (ReturnCode.SUCCESS,
        { m with windfarm := triangleGraph [1, 1, 0, 2] [0, 0, 0, 0, 0, 0, 0, 0] }) }

end wcp

namespace wcp

/-! ## Delta strategies with members of their own (`IncreasingDecreasingStrategy.h`,
`RandomDeltaStrategy.h`, `SameNextDeltaStrategy.h`)

A strategy object is a value, and a member function returns its result together with the
object afterwards.  A failed `assert` and a read outside a `std::vector` are `none`. -/

/-- Class `IncreasingDecreasingStrategy`: `maximumFlowChange_` of the base class and the
two members of the class. -/
structure IncreasingDecreasingStrategy where
  maximumFlowChange : Int
  lastDeltaWithChange : Int
  increasing : Bool
deriving Repr, DecidableEq

namespace IncreasingDecreasingStrategy

/-- Constructor `IncreasingDecreasingStrategy(maximumFlowChange)`. -/
def create (maximumFlowChange : Int) : IncreasingDecreasingStrategy :=
  { maximumFlowChange := maximumFlowChange, lastDeltaWithChange := 1, increasing := true }

/-- Function `FirstDelta`. -/
def FirstDelta (s : IncreasingDecreasingStrategy) : Int × IncreasingDecreasingStrategy :=
  (1, s)

/-- Function `NextDelta`: the value returned and the object afterwards. -/
def NextDelta (s : IncreasingDecreasingStrategy) (currentDelta : Int)
    (canceledNegativeCycle : Bool) : Int × IncreasingDecreasingStrategy :=
  let s1 : IncreasingDecreasingStrategy :=
    if canceledNegativeCycle then
      { s with lastDeltaWithChange := currentDelta, increasing := false }
    else s
  if currentDelta = 1 ∧ s1.increasing = false then
    (s1.lastDeltaWithChange, { s1 with increasing := true })
  else (if s1.increasing then currentDelta + 1 else currentDelta - 1, s1)

/-- Function `Continue`. -/
def Continue (s : IncreasingDecreasingStrategy) (upcomingDelta : Int) : Bool :=
  decide (upcomingDelta ≤ s.maximumFlowChange)

/-- The values of `changeOfFlow` when the strategy is driven as in `RunNCCforAllDeltas`,
from the value `currentDelta`, by passes with the outcomes `outcomes` (whether a negative
cycle was canceled): `currentDelta` and the values that the successive calls of `NextDelta`
return. -/
def deltas : IncreasingDecreasingStrategy → Int → List Bool → List Int
  | _, currentDelta, [] => [currentDelta]
  | s, currentDelta, canceled :: outcomes =>
    currentDelta ::
      deltas (NextDelta s currentDelta canceled).2 (NextDelta s currentDelta canceled).1 outcomes

end IncreasingDecreasingStrategy

/-- Class `RandomDeltaStrategy`: `maximumFlowChange_` of the base class and the members of
the class, with `R` the type of the states of the random number generator. -/
structure RandomDeltaStrategy (R : Type) where
  maximumFlowChange : Int
  allDeltasRandomized : List Int
  numberOfDeltasSinceUpdate : Nat
  rng : R

namespace RandomDeltaStrategy

variable {R : Type}

/-- Constructor `RandomDeltaStrategy(maximumFlowChange, randomSeed)`, with `rng` the
generator made from the seed: the vector holds `1, ..., maximumFlowChange`. -/
def create (maximumFlowChange : Int) (rng : R) : RandomDeltaStrategy R :=
  { maximumFlowChange := maximumFlowChange
    allDeltasRandomized :=
      (List.range maximumFlowChange.toNat).map fun (i : Nat) => (i : Int) + 1
    numberOfDeltasSinceUpdate := 0
    rng := rng }

/-- Function `ShuffleVector`; `shuffle` is `std::shuffle` with the generator of the
object: it returns the vector in its new order and the generator afterwards. -/
def ShuffleVector (shuffle : R → List Int → List Int × R) (s : RandomDeltaStrategy R) :
    RandomDeltaStrategy R :=
  { s with
    allDeltasRandomized := (shuffle s.rng s.allDeltasRandomized).1
    rng := (shuffle s.rng s.allDeltasRandomized).2 }

/-- The private function `Continue()`. -/
def ContinuePrivate (s : RandomDeltaStrategy R) : Bool :=
  decide (s.numberOfDeltasSinceUpdate ≤ s.allDeltasRandomized.length)

/-- Function `Continue(upcomingDelta)`. -/
def Continue (s : RandomDeltaStrategy R) (_upcomingDelta : Int) : Bool :=
  ContinuePrivate s

/-- Function `FirstDelta`.  With `ndebug` the program is compiled with `NDEBUG`, which
removes the `assert`; `front()` of an empty vector is `none`. -/
def FirstDelta (shuffle : R → List Int → List Int × R) ( ndebug : Bool)
    (s : RandomDeltaStrategy R) : Option (Int × RandomDeltaStrategy R) :=
  if ndebug = false ∧ s.numberOfDeltasSinceUpdate ≠ 0 then none
  else
    match (ShuffleVector shuffle s).allDeltasRandomized.head? with
    | none => none
    | some front =>
      some (front,
        { ShuffleVector shuffle s with
          numberOfDeltasSinceUpdate := s.numberOfDeltasSinceUpdate + 1 })

/-- Function `NextDelta`. -/
def NextDelta (shuffle : R → List Int → List Int × R) (s : RandomDeltaStrategy R)
    (_currentDelta : Int) (canceledNegativeCycle : Bool) :
    Option (Int × RandomDeltaStrategy R) :=
  if canceledNegativeCycle then
    match (ShuffleVector shuffle s).allDeltasRandomized.head? with
    | none => none
    | some front => some (front, { ShuffleVector shuffle s with numberOfDeltasSinceUpdate := 1 })
  else if ContinuePrivate s then
    match s.allDeltasRandomized[s.numberOfDeltasSinceUpdate]? with
    | none => none
    | some delta =>
      some (delta, { s with numberOfDeltasSinceUpdate := s.numberOfDeltasSinceUpdate + 1 })
  else some (-1, s)

/-- The calls of `NextDelta` for `n` passes in a row that cancel no cycle, from the value
`currentDelta`: the values returned, and the object afterwards. -/
def nextDeltas (shuffle : R → List Int → List Int × R) :
    Nat → RandomDeltaStrategy R → Int → Option (List Int × RandomDeltaStrategy R)
  | 0, s, _ => some ([], s)
  | n + 1, s, currentDelta =>
    match NextDelta shuffle s currentDelta false with
    | none => none
    | some (delta, s1) =>
      match nextDeltas shuffle n s1 delta with
      | none => none
      | some (rest, s2) => some (delta :: rest, s2)

end RandomDeltaStrategy

/-- The virtual functions of the class `DeltaStrategy` for strategy objects of the type
`S`. -/
structure DeltaStrategyOps (S : Type) where
  FirstDelta : S → Option (Int × S)
  NextDelta : S → Int → Bool → Option (Int × S)
  Continue : S → Int → Bool
  MaximumFlowChange : S → Int

/-- The strategies `IncreasingDeltaStrategy` and `DecreasingDeltaStrategy`, which have no
members of their own, as strategy objects. -/
def DeltaStrategy.ops (strategy : Int → DeltaStrategy) : DeltaStrategyOps Int :=
  { FirstDelta := fun max => some ((strategy max).FirstDelta, max)
    NextDelta := fun max currentDelta canceled =>
      some ((strategy max).NextDelta currentDelta canceled, max)
    Continue := fun max upcomingDelta => (strategy max).Continue upcomingDelta
    MaximumFlowChange := fun max => max }

/-- The class `IncreasingDecreasingStrategy` as a strategy object. -/
def IncreasingDecreasingStrategy.ops : DeltaStrategyOps IncreasingDecreasingStrategy :=
  { FirstDelta := fun s => some s.FirstDelta
    NextDelta := fun s currentDelta canceled => some (s.NextDelta currentDelta canceled)
    Continue := fun s upcomingDelta => s.Continue upcomingDelta
    MaximumFlowChange := fun s => s.maximumFlowChange }

/-- The class `RandomDeltaStrategy` as a strategy object. -/
def RandomDeltaStrategy.ops {R : Type} (shuffle : R → List Int → List Int × R)
    ( ndebug : Bool) : DeltaStrategyOps (RandomDeltaStrategy R) :=
  { FirstDelta := fun s => RandomDeltaStrategy.FirstDelta shuffle ndebug s
    NextDelta := fun s currentDelta canceled =>
      RandomDeltaStrategy.NextDelta shuffle s currentDelta canceled
    Continue := fun s upcomingDelta => s.Continue upcomingDelta
    MaximumFlowChange := fun s => s.maximumFlowChange }

/-- Class `SameNextDeltaStrategy` around a strategy object of the type `S`. -/
structure SameNextDeltaStrategy (S : Type) where
  deltaStrategy : S
  lastCanceled : Bool
  lastCanceledDelta : Int

namespace SameNextDeltaStrategy

variable {S : Type}

/-- Constructor `SameNextDeltaStrategy(deltaStrategy)`.  Its initialiser list does not
name the member `lastCanceledDelta_`: the member holds whatever `indeterminate` the memory
of the object holds. -/
def create (deltaStrategy : S) (indeterminate : Int) : SameNextDeltaStrategy S :=
  { deltaStrategy := deltaStrategy, lastCanceled := false, lastCanceledDelta := indeterminate }

/-- Function `FirstDelta`. -/
def FirstDelta (ops : DeltaStrategyOps S) (s : SameNextDeltaStrategy S) :
    Option (Int × SameNextDeltaStrategy S) :=
  match ops.FirstDelta s.deltaStrategy with
  | none => none
  | some (delta, inner) => some (delta, { s with deltaStrategy := inner })

/-- Function `NextDelta`. -/
def NextDelta (ops : DeltaStrategyOps S) (s : SameNextDeltaStrategy S) (currentDelta : Int)
    (canceledNegativeCycle : Bool) : Option (Int × SameNextDeltaStrategy S) :=
  if canceledNegativeCycle then
    some (currentDelta, { s with lastCanceled := true, lastCanceledDelta := currentDelta })
  else
    match ops.NextDelta s.deltaStrategy currentDelta s.lastCanceled with
    | none => none
    | some (delta, inner) =>
      if delta = s.lastCanceledDelta then
        match ops.NextDelta inner delta false with
        | none => none
        | some (delta', inner') =>
          some (delta', { s with lastCanceled := false, deltaStrategy := inner' })
      else some (delta, { s with lastCanceled := false, deltaStrategy := inner })

/-- Function `Continue`. -/
def Continue (ops : DeltaStrategyOps S) (s : SameNextDeltaStrategy S) (upcomingDelta : Int) :
    Bool :=
  ops.Continue s.deltaStrategy upcomingDelta

/-- The class `SameNextDeltaStrategy` as a strategy object. -/
def ops (inner : DeltaStrategyOps S) : DeltaStrategyOps (SameNextDeltaStrategy S) :=
  { FirstDelta := fun s => FirstDelta inner s
    NextDelta := fun s currentDelta canceled => NextDelta inner s currentDelta canceled
    Continue := fun s upcomingDelta => Continue inner s upcomingDelta
    MaximumFlowChange := fun s => inner.MaximumFlowChange s.deltaStrategy }

end SameNextDeltaStrategy

/-- The objects that a strategy object can become by calls of `FirstDelta` and
`NextDelta`: an NCC sweep is a call of `FirstDelta` followed by calls of `NextDelta`. -/
inductive DeltaStrategyOps.Reaches {S : Type} (ops : DeltaStrategyOps S) : S → S → Prop
  | refl (s : S) : DeltaStrategyOps.Reaches ops s s
  | first (s s1 s2 : S) (delta : Int) :
    DeltaStrategyOps.Reaches ops s s1 → ops.FirstDelta s1 = some (delta, s2) →
    DeltaStrategyOps.Reaches ops s s2
  | next (s s1 s2 : S) (currentDelta delta : Int) (canceled : Bool) :
    DeltaStrategyOps.Reaches ops s s1 → ops.NextDelta s1 currentDelta canceled = some (delta, s2) →
    DeltaStrategyOps.Reaches ops s s2

/-- A generator of random numbers without a state whose `std::shuffle` reverses the
vector. -/
def reversingShuffle (rng : Unit) (vector : List Int) : List Int × Unit := (vector.reverse, rng)

/-! ## The residual cost computers of the escaping strategies
(`ResidualCostComputerFreeSatisfiedEdges.h`, `EscapingResidualCostComputer.h`,
`SpecializedResidualCosts.h`) -/

namespace ResidualCostComputerFreeSatisfiedEdges

/-- The member `isSaturatedEdge` after the constructor
`ResidualCostComputerFreeSatisfiedEdges(windfarm)`. -/
def create (windfarm : WindfarmResidual) : List Bool :=
  List.replicate windfarm.NumberOfEdges false

/-- Body of the loop of `ComputeResidualCosts` for the edge `id`; the loop state is the
residual graph and the member `isSaturatedEdge`. -/
def markSaturated (st : WindfarmResidual × List Bool) (id : Nat) :
    WindfarmResidual × List Bool :=
  if st.1.FlowOnEdge id ≠ 0 ∧ st.1.ResidualCostOnEdge id > 0 ∧ st.1.ResidualCostOnEdge id < ⊤
  then (st.1.setResidualCostOnEdge id 0, st.2.set id true)
  else (st.1, st.2.set id false)

/-- Function `ComputeResidualCosts`: the residual graph and `isSaturatedEdge`
afterwards. -/
def ComputeResidualCosts (windfarm : WindfarmResidual) (isSaturatedEdge : List Bool)
    (changeOfFlow : Int) : WindfarmResidual × List Bool :=
  (List.range (2 * windfarm.NumberOfOriginalEdges)).foldl markSaturated
    (StandardResidualCostComputer.ComputeStandardResidualCosts windfarm changeOfFlow,
      isSaturatedEdge)

/-- An edge is saturated for the flow of `windfarm` and `changeOfFlow`: it has flow and its
standard residual cost is positive and finite. -/
def IsSaturated (windfarm : WindfarmResidual) (changeOfFlow : Int) (edge : Nat) : Prop :=
  windfarm.FlowOnEdge edge ≠ 0
    ∧ 0 < StandardResidualCostComputer.ResidualCosts windfarm edge changeOfFlow
    ∧ StandardResidualCostComputer.ResidualCosts windfarm edge changeOfFlow < ⊤

end ResidualCostComputerFreeSatisfiedEdges

/-- Struct `SpecialResidualCost`, as the constructor
`SpecialResidualCost(edge, desiredCostVector)` makes it. -/
structure SpecialResidualCost where
  edgeWithSpecialCosts : Nat
  cables : Cabletypes

namespace ResidualCostComputerWithAdaptedEdges

/-- Function `ApplyContentOfSpecialResidualCostCollection`; `desiredResidualCosts` is the
vector of the member `desiredResidualCosts_`. -/
def ApplyContentOfSpecialResidualCostCollection (windfarm : WindfarmResidual)
    (desiredResidualCosts : List SpecialResidualCost) (changeOfFlow : Int) :
    WindfarmResidual :=
  desiredResidualCosts.foldl
    (fun windfarm desiredCostTuple =>
      windfarm.setResidualCostOnEdge desiredCostTuple.edgeWithSpecialCosts
        (StandardResidualCostComputer.ResidualCostForNonSupersubstationEdge windfarm
          desiredCostTuple.edgeWithSpecialCosts
          (windfarm.StartVertex desiredCostTuple.edgeWithSpecialCosts) changeOfFlow
          desiredCostTuple.cables))
    windfarm

/-- Function `ComputeResidualCosts`. -/
def ComputeResidualCosts (windfarm : WindfarmResidual)
    (desiredResidualCosts : List SpecialResidualCost) (changeOfFlow : Int) :
    WindfarmResidual :=
  ApplyContentOfSpecialResidualCostCollection
    (StandardResidualCostComputer.ComputeStandardResidualCosts windfarm changeOfFlow)
    desiredResidualCosts changeOfFlow

end ResidualCostComputerWithAdaptedEdges

/-! ## Bonbons (`EscapingNCC.h`) -/

/-- Struct `BonbonInformation`; `INVALID_EDGE` is `none`. -/
structure BonbonInformation where
  changeOfFlow : Int := -1
  edgeOnBonbon : Option Nat := none
deriving Repr, DecidableEq

/-- Function `Reset`. -/
def BonbonInformation.Reset (_bonbon : BonbonInformation) : BonbonInformation :=
  { changeOfFlow := -1, edgeOnBonbon := none }

namespace EscapingNCC

/-- Function `dealWithBonbons` of `EscapingNCC`: the member `bonbon_` afterwards. -/
def dealWithBonbons (_bonbon : BonbonInformation) (canceledAnyCycle : Bool) (edgeOnWalk : Nat)
    (changeOfFlow : Int) : BonbonInformation :=
  if canceledAnyCycle then { changeOfFlow := -1, edgeOnBonbon := none }
  else { changeOfFlow := changeOfFlow, edgeOnBonbon := some edgeOnWalk }

/-- Function `CancelNegativeWalk` as `EscapingNCC` runs it: the function of the base class
with the call of `dealWithBonbons` of `EscapingNCC` after the loop.  The members of the
driver, the member `bonbon_` and the value returned; `none` when the walk is empty, where
`walk.front()` has no value, and when the function of the base class is `none`. -/
def CancelNegativeWalk (st : NCCState) (bonbon : BonbonInformation) (walk : List Nat)
    (changeOfFlow : Int) (isRegularNCCrun : Bool) :
    Option (NCCState × BonbonInformation × Bool) :=
  match walk.head? with
  | none => none
  | some edgeOnWalk =>
    match NegativeCycleCanceling.CancelNegativeWalk st walk changeOfFlow isRegularNCCrun with
    | none => none
    | some (st', canceledAnyCycle) =>
      some (st', dealWithBonbons bonbon canceledAnyCycle edgeOnWalk changeOfFlow,
        canceledAnyCycle)

/-- The statements `bonbon_.Reset(); ReturnCode ncc_status = RunNCCforAllDeltas();` of
`AlternateNCCandEscaping`, for an environment whose first component is the member
`bonbon_`: the calls of the outer loop with the reset before every run of
`RunNCCforAllDeltas`. -/
def resetBonbon {E : Type} (calls : EscapingCalls (BonbonInformation × E)) :
    EscapingCalls (BonbonInformation × E) :=
  { calls with
    RunNCCforAllDeltas := fun members =>
      calls.RunNCCforAllDeltas { members with rest := (members.rest.1.Reset, members.rest.2) } }

end EscapingNCC

/-! ## Leaf turbines (`EscapingLeaves.h`, `EscapingLeaves.cpp`) -/

namespace EscapingLeaves

/-- Function `FindUniqueOutgoingEdgeWithFlowFromVertex`; `INVALID_EDGE` is `none`.  The
loop state is `uniqueEdgeWithFlow` and whether the function has returned `INVALID_EDGE`
from inside the loop. -/
def FindUniqueOutgoingEdgeWithFlowFromVertex (windfarm : WindfarmResidual) (vertex : Nat) :
    Option Nat :=
  ((windfarm.OutgoingEdges vertex).foldl
    (fun (st : Option Nat × Bool) outgoingEdge =>
      if st.2 then st
      else if windfarm.FlowOnEdge outgoingEdge ≠ 0 then
        if st.1 = none then (some outgoingEdge, false) else (none, true)
      else st)
    (none, false)).1

/-- Function `FindShortestOutgoingEdgeWithoutFlow`, without its assertions;
`INVALID_EDGE` is `none`. -/
def FindShortestOutgoingEdgeWithoutFlow (windfarm : WindfarmResidual) (vertex edgeWithFlow : Nat) :
    Option Nat :=
  let shortestEdgeLength := windfarm.Length edgeWithFlow
  (windfarm.OutgoingEdges vertex).foldl
    (fun shortestEdgeWithoutFlow outgoingEdge =>
      if outgoingEdge ≠ edgeWithFlow ∧ windfarm.Length outgoingEdge < shortestEdgeLength then
        some outgoingEdge
      else shortestEdgeWithoutFlow)
    none

/-- The assertions of `FindShortestOutgoingEdgeWithoutFlow`: the three on entry, and the
one on the edge found. -/
def FindShortestOutgoingEdgeWithoutFlowAsserts (windfarm : WindfarmResidual)
    (vertex edgeWithFlow : Nat) : Bool :=
  decide (windfarm.StartVertex edgeWithFlow = vertex)
    && decide (windfarm.FlowOnEdge edgeWithFlow = 1)
    && (match FindShortestOutgoingEdgeWithoutFlow windfarm vertex edgeWithFlow with
        | none => true
        | some shortest => decide (windfarm.FlowOnEdge shortest = 0))

end EscapingLeaves

/-- A turbine `0` and three substations `1`, `2`, `3` of capacity 5; edges `0 - 1` of
length 10, `0 - 2` of length 1 and `0 - 3` of length 5. -/
def forkInstance : Instance :=
  { nodes := [⟨NodeShape.rect, 0⟩, ⟨NodeShape.ellipse, 5⟩, ⟨NodeShape.ellipse, 5⟩,
      ⟨NodeShape.ellipse, 5⟩]
    edges := [⟨0, 1, 10⟩, ⟨0, 2, 1⟩, ⟨0, 3, 5⟩]
    cabletypes := defaultCabletypes }

/-- The residual graph of `forkInstance` with the flow values `flow` and the residual costs
`costs`: the edges `0: 0 → 1`, `1: 0 → 2`, `2: 0 → 3` out of the turbine, their reverse
edges `3`, `4`, `5`, and the edges `6`, `7`, `8` to and `9`, `10`, `11` from the super
substation `4`. -/
def forkGraph (flow : List Int) (costs : List (WithTop ℚ)) : WindfarmResidual :=
  { numberOfOriginalVertices := 4
    numberOfOriginalEdges := 3
    numberOfTurbines := 1
    numberOfSubstations := 3
    listOfVertices :=
      [{ capacity := -1, type := VertexType.turbine, outgoingEdges := [0, 1, 2] },
        { capacity := 5, type := VertexType.substation, outgoingEdges := [3, 6] },
        { capacity := 5, type := VertexType.substation, outgoingEdges := [4, 7] },
        { capacity := 5, type := VertexType.substation, outgoingEdges := [5, 8] },
        { capacity := -1, type := VertexType.supersubstation, outgoingEdges := [9, 10, 11] }]
    listOfEdges :=
      [{ identifier := 0, length := 10, capacity := 15, startVertex := 0, endVertex := 1 },
        { identifier := 1, length := 1, capacity := 15, startVertex := 0, endVertex := 2 },
        { identifier := 2, length := 5, capacity := 15, startVertex := 0, endVertex := 3 },
        { identifier := 0, length := 10, capacity := 15, startVertex := 1, endVertex := 0 },
        { identifier := 1, length := 1, capacity := 15, startVertex := 2, endVertex := 0 },
        { identifier := 2, length := 5, capacity := 15, startVertex := 3, endVertex := 0 },
        { identifier := 6, length := 0, capacity := 5, startVertex := 1, endVertex := 4 },
        { identifier := 7, length := 0, capacity := 5, startVertex := 2, endVertex := 4 },
        { identifier := 8, length := 0, capacity := 5, startVertex := 3, endVertex := 4 },
        { identifier := 9, length := 0, capacity := 5, startVertex := 4, endVertex := 1 },
        { identifier := 10, length := 0, capacity := 5, startVertex := 4, endVertex := 2 },
        { identifier := 11, length := 0, capacity := 5, startVertex := 4, endVertex := 3 }]
    turbineIdentifiers := [0]
    substationIdentifiers := [1, 2, 3]
    cabletypes := defaultCabletypes
    flowValues := flow
    residualCosts := costs }

/-- The cable types that the constructor `Cabletypes(expandedVector)` makes from the cost
vector with 31 entries `0`: every flow of at most 15 units is free. -/
def freeCabletypes : Cabletypes :=
  { numberOfCables := 0
    vectorOfCapacities := []
    vectorOfCosts := []
    maximumCableCapacity := 15
    vectorOfCostsExpanded := List.replicate 31 0
    isGivenByRealCables := true }

end wcp

/-! # The visited flags during a run, and the search for the previous substation of a leaf -/

namespace wcp

namespace NegativeCycleCanceling

/-- The third assertion on entry to `CancelNegativeWalk`:
`std::all_of(visitedVertex_.begin(), visitedVertex_.end(), std::logical_not<bool>())`. -/
def AssertNoVertexVisited (st : NCCState) : Bool :=
  st.visitedVertex.all fun visited => !visited

/-- The members of the driver on entry to the successive calls of `CancelNegativeWalk` that
`ExtractWalkAndCancelCycle` makes, in the order of the calls. -/
def ExtractWalkAndCancelCycleCalls (changeOfFlow : Int) (isRegularNCCrun : Bool) :
    List (List Nat) → NCCState → List Bool → List NCCState
  | [], _, _ => []
  | negativeWalk :: rest, st, clock =>
    if negativeWalk.isEmpty then []
    else if (IsTimeLimitExceeded clock).1 then []
    else
      st :: (match CancelNegativeWalk st negativeWalk changeOfFlow isRegularNCCrun with
        | none => []
        | some (_, true) => []
        | some (st', false) =>
          ExtractWalkAndCancelCycleCalls changeOfFlow isRegularNCCrun rest st'
            (IsTimeLimitExceeded clock).2)

/-- The members of the driver on entry to the successive calls of `CancelNegativeWalk` during
a call of `PerformNegativeCycleCancelingForSingleDelta`. -/
def PerformNegativeCycleCancelingForSingleDeltaCalls
    (detection : WindfarmResidual → DetectionResult) (st : NCCState) (delta : Int)
    (isRegularNCCrun : Bool) (clock : List Bool) : List NCCState :=
  let st : NCCState :=
    { st with windfarm := StandardResidualCostComputer.ComputeResidualCosts st.windfarm delta }
  let detected := detection st.windfarm
  if (IsTimeLimitExceeded clock).1 then []
  else if detected.code = ReturnCode.SUCCESS then
    ExtractWalkAndCancelCycleCalls delta isRegularNCCrun detected.walks st
      (IsTimeLimitExceeded clock).2
  else []

/-- The members of the driver on entry to the successive calls of `CancelNegativeWalk` during
the first `fuel` iterations of the loop of `RunNCCforAllDeltas`. -/
def RunNCCforAllDeltasLoopCalls (strategy : DeltaStrategy)
    (detection : WindfarmResidual → DetectionResult) :
    Nat → Int → NCCState → List (Bool × List Bool) → List NCCState
  | 0, _, _, _ => []
  | fuel + 1, changeOfFlow, st, clocks =>
    if (clocks.headD (false, [])).1 || !strategy.Continue changeOfFlow then []
    else
      PerformNegativeCycleCancelingForSingleDeltaCalls detection st changeOfFlow true
          (clocks.headD (false, [])).2
        ++ (match PerformNegativeCycleCancelingForSingleDelta detection st changeOfFlow true
            (clocks.headD (false, [])).2 with
          | none => []
          | some (valueForReturn, st') =>
            if valueForReturn = ReturnCode.TIME_LIMIT then []
            else
              RunNCCforAllDeltasLoopCalls strategy detection fuel
                (strategy.NextDelta changeOfFlow (decide (valueForReturn = ReturnCode.SUCCESS)))
                st' clocks.tail)

end NegativeCycleCanceling

/-- Function `FindMinimumFlowOnEdges`. -/
def WindfarmResidual.FindMinimumFlowOnEdges (w : WindfarmResidual) (edges : List Nat) : Int :=
  edges.foldl
    (fun minimumFlow edge => if w.FlowOnEdge edge < minimumFlow then w.FlowOnEdge edge
      else minimumFlow)
    EscapingNCC.INFINITE_CAPACITY

namespace EscapingLeaves

/-- Struct `LeafTurbine`. -/
structure LeafTurbine where
  turbine : Nat
  currentEdge : Nat
  shorterEdge : Nat
  hasBeenUsed : Bool := false
deriving Repr, DecidableEq

/-- The loop over the outgoing edges in `SingleDFSStepToFindPathToRepeatingEdge`; `step` is
the recursive call.  The value returned, `hasEdgeToRepeatAlreadyBeenSeen` and
`NextEdgeToASubstation` afterwards. -/
def singleDFSLoop (windfarm : WindfarmResidual)
    (step : Nat → Bool → List (Option Nat) → Option (Option Nat × Bool × List (Option Nat)))
    (edgeToExplore : Nat) :
    List Nat → Bool → List (Option Nat) → Option (Option Nat × Bool × List (Option Nat))
  | [], hasEdgeToRepeatAlreadyBeenSeen, NextEdgeToASubstation =>
    some (none, hasEdgeToRepeatAlreadyBeenSeen, NextEdgeToASubstation)
  | outgoingEdge :: rest, hasEdgeToRepeatAlreadyBeenSeen, NextEdgeToASubstation =>
    if outgoingEdge ≠ windfarm.ReverseEdgeIndex edgeToExplore
        ∧ windfarm.FlowOnEdge outgoingEdge > 0 then
      match step outgoingEdge hasEdgeToRepeatAlreadyBeenSeen NextEdgeToASubstation with
      | none => none
      | some (none, seen, next) => singleDFSLoop windfarm step edgeToExplore rest seen next
      | some (some _, seen, next) =>
        some (some edgeToExplore, seen, next.set edgeToExplore (some outgoingEdge))
    else
      singleDFSLoop windfarm step edgeToExplore rest hasEdgeToRepeatAlreadyBeenSeen
        NextEdgeToASubstation

/-- Function `SingleDFSStepToFindPathToRepeatingEdge`, its recursion cut at the depth `fuel`;
`INVALID_EDGE` is `none`.  The result is `none` when the recursion goes deeper. -/
def SingleDFSStepToFindPathToRepeatingEdge (windfarm : WindfarmResidual) (edgeToRepeat : Nat) :
    Nat → Nat → Bool → List (Option Nat) → Option (Option Nat × Bool × List (Option Nat))
  | 0, _, _, _ => none
  | fuel + 1, edgeToExplore, hasEdgeToRepeatAlreadyBeenSeen, NextEdgeToASubstation =>
    if windfarm.IsSubstation (windfarm.EndVertex edgeToExplore) then
      some (none, hasEdgeToRepeatAlreadyBeenSeen, NextEdgeToASubstation)
    else if edgeToExplore = edgeToRepeat ∧ hasEdgeToRepeatAlreadyBeenSeen = true then
      some (some edgeToExplore, hasEdgeToRepeatAlreadyBeenSeen, NextEdgeToASubstation)
    else
      singleDFSLoop windfarm
        (fun outgoingEdge seen next =>
          SingleDFSStepToFindPathToRepeatingEdge windfarm edgeToRepeat fuel outgoingEdge seen
            next)
        edgeToExplore (windfarm.OutgoingEdges (windfarm.EndVertex edgeToExplore))
        (if edgeToExplore = edgeToRepeat then true else hasEdgeToRepeatAlreadyBeenSeen)
        NextEdgeToASubstation

/-- Function `PopulateParentPointersUntilEdgeRepeats`, without its assertion. -/
def PopulateParentPointersUntilEdgeRepeats (windfarm : WindfarmResidual) (fuel : Nat)
    (edgeToRepeat edgeToStartSearchWith : Nat) : Option (List (Option Nat)) :=
  match SingleDFSStepToFindPathToRepeatingEdge windfarm edgeToRepeat fuel edgeToStartSearchWith
      false (List.replicate windfarm.NumberOfEdges none) with
  | none => none
  | some (_, _, NextEdgeToASubstation) => some NextEdgeToASubstation

/-- The loop `do ... while (edgeOnCycle != edgesOnCycle.front())` of
`CancelCycleWithAllPositiveFlow`, cut after `fuel` iterations: the vector `edgesOnCycle`
when the loop ends.  The result is `none` when `NextEdgeToASubstation` is read outside its
range, which a read at `INVALID_EDGE` is, or when the loop goes on. -/
def collectEdgesOnCycle (NextEdgeToASubstation : List (Option Nat)) (front : Nat) :
    Nat → Nat → List Nat → Option (List Nat)
  | 0, _, _ => none
  | fuel + 1, edgeOnCycle, edgesOnCycle =>
    match NextEdgeToASubstation[edgeOnCycle]? with
    | none => none
    | some none => none
    | some (some next) =>
      if next ≠ front then
        collectEdgesOnCycle NextEdgeToASubstation front fuel next (edgesOnCycle ++ [edgeOnCycle])
      else some (edgesOnCycle ++ [edgeOnCycle])

/-- Function `CancelCycleWithAllPositiveFlow`: the residual graph afterwards. -/
def CancelCycleWithAllPositiveFlow (windfarm : WindfarmResidual) (fuel : Nat)
    (edgeOnCycle firstEdgeInSearch : Nat) : Option WindfarmResidual :=
  match PopulateParentPointersUntilEdgeRepeats windfarm fuel edgeOnCycle firstEdgeInSearch with
  | none => none
  | some NextEdgeToASubstation =>
    match collectEdgesOnCycle NextEdgeToASubstation edgeOnCycle fuel edgeOnCycle [] with
    | none => none
    | some edgesOnCycle =>
      some (windfarm.AddFlowOnMultipleEdges edgesOnCycle
        (-windfarm.FindMinimumFlowOnEdges edgesOnCycle))

/-- The loop over the outgoing edges in `ExploreEdgeWhenFindingPreviousSubstation`; `step`
is the recursive call.  The residual graph and `invertedPathToPreviousSubstation`
afterwards, and the value returned. -/
def explorePreviousLoop
    (step : WindfarmResidual → List (Option Nat) → Nat →
      Option (WindfarmResidual × List (Option Nat) × Option Nat))
    (edgeToExplore : Nat) :
    List Nat → WindfarmResidual → List (Option Nat) →
      Option (WindfarmResidual × List (Option Nat) × Option Nat)
  | [], windfarm, invertedPathToPreviousSubstation =>
    some (windfarm, invertedPathToPreviousSubstation, none)
  | outgoingEdge :: rest, windfarm, invertedPathToPreviousSubstation =>
    if outgoingEdge ≠ windfarm.ReverseEdgeIndex edgeToExplore
        ∧ windfarm.FlowOnEdge outgoingEdge > 0 then
      match step windfarm invertedPathToPreviousSubstation outgoingEdge with
      | none => none
      | some (windfarm', path, none) => explorePreviousLoop step edgeToExplore rest windfarm' path
      | some (windfarm', path, some _) =>
        some (windfarm', path ++ [some edgeToExplore], some edgeToExplore)
    else explorePreviousLoop step edgeToExplore rest windfarm invertedPathToPreviousSubstation

/-- Function `ExploreEdgeWhenFindingPreviousSubstation`, its recursion cut at the depth
`fuel`; `INVALID_EDGE` is `none`.  The function reads `hasEdgeAlreadyBeenExplored` and has no
statement that writes it, so the vector is the same in every recursive call.  The result is
`none` when the recursion goes deeper than `fuel`, when `hasEdgeAlreadyBeenExplored` is read
outside its range, and when `CancelCycleWithAllPositiveFlow` is `none`. -/
def ExploreEdgeWhenFindingPreviousSubstation (hasEdgeAlreadyBeenExplored : List Bool)
    (firstEdgeInSearch : Nat) :
    Nat → WindfarmResidual → List (Option Nat) → Nat →
      Option (WindfarmResidual × List (Option Nat) × Option Nat)
  | 0, _, _, _ => none
  | fuel + 1, windfarm, invertedPathToPreviousSubstation, edgeToExplore =>
    match hasEdgeAlreadyBeenExplored[edgeToExplore]? with
    | none => none
    | some true =>
      match CancelCycleWithAllPositiveFlow windfarm fuel edgeToExplore firstEdgeInSearch with
      | none => none
      | some windfarm' => some (windfarm', invertedPathToPreviousSubstation ++ [none], none)
    | some false =>
      if windfarm.IsSubstation (windfarm.EndVertex edgeToExplore) then
        some (windfarm, invertedPathToPreviousSubstation ++ [some edgeToExplore],
          some edgeToExplore)
      else
        explorePreviousLoop
          (fun windfarm path outgoingEdge =>
            ExploreEdgeWhenFindingPreviousSubstation hasEdgeAlreadyBeenExplored
              firstEdgeInSearch fuel windfarm path outgoingEdge)
          edgeToExplore (windfarm.OutgoingEdges (windfarm.EndVertex edgeToExplore)) windfarm
          invertedPathToPreviousSubstation

/-- Function `IdentifyInvertedPathToPreviousSubstation`, without its assertion: its loop cut
after `fuel` iterations, the recursion of every search cut at the depth `depth`.  The
residual graph afterwards and the vector returned; `none` when a search is `none`, when
`front()` is read of an empty vector, and when the loop goes on. -/
def IdentifyInvertedPathToPreviousSubstation (depth : Nat) (leaf : LeafTurbine) :
    Nat → WindfarmResidual → Option (WindfarmResidual × List (Option Nat))
  | 0, _ => none
  | fuel + 1, windfarm =>
    match ExploreEdgeWhenFindingPreviousSubstation
        (List.replicate windfarm.NumberOfEdges false) leaf.currentEdge depth windfarm []
        leaf.currentEdge with
    | none => none
    | some (windfarm', invertedPathToPreviousSubstation, _) =>
      match invertedPathToPreviousSubstation.head? with
      | none => none
      | some none => IdentifyInvertedPathToPreviousSubstation depth leaf fuel windfarm'
      | some (some _) => some (windfarm', invertedPathToPreviousSubstation)

end EscapingLeaves

/-- Turbines `0`, `1`, `2`, `3` and a substation `4` of capacity 5; the edges `0 - 1` of
length 10 and `1 - 2`, `2 - 3`, `3 - 1`, `1 - 4`, `0 - 4` of length 1. -/
def cycleInstance : Instance :=
  { nodes := [⟨NodeShape.rect, 0⟩, ⟨NodeShape.rect, 0⟩, ⟨NodeShape.rect, 0⟩,
      ⟨NodeShape.rect, 0⟩, ⟨NodeShape.ellipse, 5⟩]
    edges := [⟨0, 1, 10⟩, ⟨1, 2, 1⟩, ⟨2, 3, 1⟩, ⟨3, 1, 1⟩, ⟨1, 4, 1⟩, ⟨0, 4, 1⟩]
    cabletypes := defaultCabletypes }

/-- The residual graph of `cycleInstance` with the flow values `flow` and the residual costs
`costs`: the edges `0: 0 → 1`, `1: 1 → 2`, `2: 2 → 3`, `3: 3 → 1`, `4: 1 → 4`, `5: 0 → 4`,
their reverse edges `6` to `11`, and the edges `12` to and `13` from the super substation
`5`. -/
def cycleGraph (flow : List Int) (costs : List (WithTop ℚ)) : WindfarmResidual :=
  { numberOfOriginalVertices := 5
    numberOfOriginalEdges := 6
    numberOfTurbines := 4
    numberOfSubstations := 1
    listOfVertices :=
      [{ capacity := -1, type := VertexType.turbine, outgoingEdges := [0, 5] },
        { capacity := -1, type := VertexType.turbine, outgoingEdges := [6, 1, 9, 4] },
        { capacity := -1, type := VertexType.turbine, outgoingEdges := [7, 2] },
        { capacity := -1, type := VertexType.turbine, outgoingEdges := [8, 3] },
        { capacity := 5, type := VertexType.substation, outgoingEdges := [10, 11, 12] },
        { capacity := -1, type := VertexType.supersubstation, outgoingEdges := [13] }]
    listOfEdges :=
      [{ identifier := 0, length := 10, capacity := 15, startVertex := 0, endVertex := 1 },
        { identifier := 1, length := 1, capacity := 15, startVertex := 1, endVertex := 2 },
        { identifier := 2, length := 1, capacity := 15, startVertex := 2, endVertex := 3 },
        { identifier := 3, length := 1, capacity := 15, startVertex := 3, endVertex := 1 },
        { identifier := 4, length := 1, capacity := 15, startVertex := 1, endVertex := 4 },
        { identifier := 5, length := 1, capacity := 15, startVertex := 0, endVertex := 4 },
        { identifier := 0, length := 10, capacity := 15, startVertex := 1, endVertex := 0 },
        { identifier := 1, length := 1, capacity := 15, startVertex := 2, endVertex := 1 },
        { identifier := 2, length := 1, capacity := 15, startVertex := 3, endVertex := 2 },
        { identifier := 3, length := 1, capacity := 15, startVertex := 1, endVertex := 3 },
        { identifier := 4, length := 1, capacity := 15, startVertex := 4, endVertex := 1 },
        { identifier := 5, length := 1, capacity := 15, startVertex := 4, endVertex := 0 },
        { identifier := 12, length := 0, capacity := 5, startVertex := 4, endVertex := 5 },
        { identifier := 13, length := 0, capacity := 5, startVertex := 5, endVertex := 4 }]
    turbineIdentifiers := [0, 1, 2, 3]
    substationIdentifiers := [4]
    cabletypes := defaultCabletypes
    flowValues := flow
    residualCosts := costs }

end wcp

/-! # Sums of doubles with rounding

The type `double` of the source is the binary64 format of IEEE 754: a finite double other
than zero is `m * 2 ^ e` with an integer `m` of at most 53 bits and `-1074 ≤ e`, and the sum
of two doubles is the double nearest to the sum of the two numbers, the one with the even
`m` when two doubles are equally near.  The definitions below take the addition of doubles
as an argument, so that the detection strategy can be run with sums that are rounded. -/

namespace wcp

namespace Binary64

/-- The number `2 ^ e` for an integer exponent. -/
def pow2 (e : Int) : ℚ :=
  if 0 ≤ e then ((2 ^ e.toNat : Nat) : ℚ) else 1 / ((2 ^ (-e).toNat : Nat) : ℚ)

/-- The absolute value. -/
def magnitude (q : ℚ) : ℚ := if q < 0 then -q else q

/-- The number of binary digits of `n`, found in at most `fuel` halvings. -/
def digits : Nat → Nat → Nat
  | 0, _ => 0
  | fuel + 1, n => if n = 0 then 0 else digits fuel (n / 2) + 1

/-- The exponent `e` with `2 ^ e ≤ |q| < 2 ^ (e + 1)` of a number `q` other than zero: the
quotient of a numerator of `a` digits and a denominator of `b` digits lies between
`2 ^ (a - b - 1)` and `2 ^ (a - b + 1)`. -/
def exponent (q : ℚ) : Int :=
  if pow2 ((digits q.num.natAbs q.num.natAbs : Int) - (digits q.den q.den : Int))
      ≤ magnitude q then
    (digits q.num.natAbs q.num.natAbs : Int) - (digits q.den q.den : Int)
  else (digits q.num.natAbs q.num.natAbs : Int) - (digits q.den q.den : Int) - 1

/-- The distance between neighbouring doubles at `q`: `2 ^ (e - 52)` for a number of the
exponent `e`, and `2 ^ (-1074)` for the subnormal numbers. -/
def spacing (q : ℚ) : ℚ :=
  if exponent q - 52 < -1074 then pow2 (-1074) else pow2 (exponent q - 52)

/-- Rounding to the nearest integer, to the even one of two that are equally near. -/
def roundToEven (q : ℚ) : Int :=
  if q - (Rat.floor q : ℚ) < 1 / 2 then Rat.floor q
  else if 1 / 2 < q - (Rat.floor q : ℚ) then Rat.floor q + 1
  else if Rat.floor q % 2 = 0 then Rat.floor q
  else Rat.floor q + 1

/-- The double nearest to the number `q`; a positive number that rounds to `2 ^ 1024` or
more gives `DINFTY`.  (A number that rounds to `-2 ^ 1024` or less gives `-DINFTY` in the
source, which the type of the distances here does not have; no sum below reaches that
range.) -/
def round (q : ℚ) : WithTop ℚ :=
  if q = 0 then ((0 : ℚ) : WithTop ℚ)
  else if (roundToEven (q / spacing q) : ℚ) * spacing q = 0 then ((0 : ℚ) : WithTop ℚ)
  else if 0 < q ∧ 1024 ≤ exponent ((roundToEven (q / spacing q) : ℚ) * spacing q) then ⊤
  else (((roundToEven (q / spacing q) : ℚ) * spacing q : ℚ) : WithTop ℚ)

/-- The sum `a + b` of two doubles, of which each may be `DINFTY`. -/
def add : WithTop ℚ → WithTop ℚ → WithTop ℚ
  | some a, some b => round (a + b)
  | _, _ => ⊤

end Binary64

namespace Doubles

/-- Function `CostOfWalk` of `NegativeCycleCanceling`, with the addition `add` of
doubles. -/
def CostOfWalk (add : WithTop ℚ → WithTop ℚ → WithTop ℚ) (w : WindfarmResidual)
    (walk : List Nat) : WithTop ℚ :=
  walk.foldl (fun cost e => add cost (w.ResidualCostOnEdge e)) 0

namespace BellmanFord

variable {L : Type}

/-- Body of the loop of `RelaxOutgoingEdges`, with the addition `add` of doubles; the loop
state is the object and `atLeastOneUpdate`. -/
def RelaxEdgeStep (add : WithTop ℚ → WithTop ℚ → WithTop ℚ) (ops : LabelType L)
    (w : WindfarmResidual) (vertex : Nat) (st : wcp.BellmanFord L × Bool) (edge : Nat) :
    wcp.BellmanFord L × Bool :=
  let endVertex := w.EndVertex edge
  let distance :=
    add (ops.Distance (wcp.BellmanFord.LabelAt ops st.1 vertex) w edge)
      (w.ResidualCostOnEdge edge)
  let r := wcp.BellmanFord.UpdateLabelAt ops st.1 endVertex distance edge
  ({ r.1 with
      updatedSinceLastTime :=
        r.1.updatedSinceLastTime.set endVertex
          (r.1.updatedSinceLastTime.getD endVertex false || r.2)
      numberOfRelaxedEdgesInLastRun :=
        r.1.numberOfRelaxedEdgesInLastRun + (if r.2 then 1 else 0) },
    st.2 || r.2)

/-- Function `RelaxOutgoingEdges`, with the addition `add` of doubles. -/
def RelaxOutgoingEdges (add : WithTop ℚ → WithTop ℚ → WithTop ℚ) (ops : LabelType L)
    (w : WindfarmResidual) (s : wcp.BellmanFord L) (vertex : Nat) : wcp.BellmanFord L :=
  let r := (w.OutgoingEdges vertex).foldl (RelaxEdgeStep add ops w vertex) (s, false)
  if r.2 then { r.1 with vertexOfLastUpdate := (vertex : Int) } else r.1

/-- Body of the inner loop of `Run` for a vertex other than `vertexOfLastUpdate_`, with the
addition `add` of doubles. -/
def RunStep (add : WithTop ℚ → WithTop ℚ → WithTop ℚ) (ops : LabelType L)
    (w : WindfarmResidual) (s : wcp.BellmanFord L) (vertex : Nat) : wcp.BellmanFord L :=
  if s.updatedSinceLastTime.getD vertex false then
    { RelaxOutgoingEdges add ops w s vertex with
        updatedSinceLastTime :=
          (RelaxOutgoingEdges add ops w s vertex).updatedSinceLastTime.set vertex false }
  else s

/-- The two nested loops of `Run`, over the vertices in the order in which the loops visit
them, with the addition `add` of doubles. -/
def RunLoop (add : WithTop ℚ → WithTop ℚ → WithTop ℚ) (ops : LabelType L)
    (w : WindfarmResidual) : List Nat → wcp.BellmanFord L → ReturnCode × wcp.BellmanFord L
  | [], s => (ReturnCode.SUCCESS, s)
  | vertex :: rest, s =>
    if (vertex : Int) = s.vertexOfLastUpdate then
      (ReturnCode.EARLY_TERMINATION, { s with earlyTermination := true })
    else RunLoop add ops w rest (RunStep add ops w s vertex)

/-- Function `Run`, with the addition `add` of doubles: the code returned and the object
afterwards. -/
def Run (add : WithTop ℚ → WithTop ℚ → WithTop ℚ) (ops : LabelType L) (w : WindfarmResidual)
    (s : wcp.BellmanFord L) : ReturnCode × wcp.BellmanFord L :=
  RunLoop add ops w
    ((List.range (ops.NumberOfIterations w).toNat).flatMap fun _ =>
      List.range w.NumberOfVertices)
    (wcp.BellmanFord.InitializeLabels ops w (wcp.BellmanFord.Reset ops w s))

/-- The test of `FindRelaxableOutgoingEdge`, with the addition `add` of doubles. -/
def IsRelaxable (add : WithTop ℚ → WithTop ℚ → WithTop ℚ) (ops : LabelType L)
    (w : WindfarmResidual) (s : wcp.BellmanFord L) (vertex edge : Nat) : Bool :=
  ops.WouldUpdate (wcp.BellmanFord.LabelAt ops s (w.EndVertex edge))
    (add (ops.Distance (wcp.BellmanFord.LabelAt ops s vertex) w edge)
      (w.ResidualCostOnEdge edge)) edge

/-- Function `FindRelaxableOutgoingEdge`, with the addition `add` of doubles;
`INVALID_EDGE` is `none`. -/
def FindRelaxableOutgoingEdge (add : WithTop ℚ → WithTop ℚ → WithTop ℚ) (ops : LabelType L)
    (w : WindfarmResidual) (s : wcp.BellmanFord L) (vertex : Nat) : Option Nat :=
  (w.OutgoingEdges vertex).find? fun edge =>
    !wcp.BellmanFord.OnAnyWalk s edge && IsRelaxable add ops w s vertex edge

/-- The loop over the vertices in `ExtractNegativeClosedWalk`, with the addition `add` of
doubles. -/
def ExtractNegativeClosedWalkLoop (add : WithTop ℚ → WithTop ℚ → WithTop ℚ)
    (ops : LabelType L) (w : WindfarmResidual) :
    List Nat → wcp.BellmanFord L → Option (wcp.BellmanFord L × List Nat)
  | [], s => some (s, [])
  | vertex :: rest, s =>
    match FindRelaxableOutgoingEdge add ops w s vertex with
    | none => ExtractNegativeClosedWalkLoop add ops w rest s
    | some relaxableEdge =>
      match wcp.BellmanFord.ExtractWalk ops w s relaxableEdge with
      | none => none
      | some (s, walk) =>
        if !walk.isEmpty then some (s, walk)
        else
          ExtractNegativeClosedWalkLoop add ops w rest
            { s with currentWalkIndex := s.currentWalkIndex + 1 }

/-- Function `ExtractNegativeClosedWalk`, with the addition `add` of doubles: the object
afterwards and the vector returned. -/
def ExtractNegativeClosedWalk (add : WithTop ℚ → WithTop ℚ → WithTop ℚ) (ops : LabelType L)
    (w : WindfarmResidual) (s : wcp.BellmanFord L) : Option (wcp.BellmanFord L × List Nat) :=
  if s.earlyTermination then some (s, [])
  else
    ExtractNegativeClosedWalkLoop add ops w (List.range w.NumberOfVertices)
      { s with currentWalkIndex := s.currentWalkIndex + 1 }

end BellmanFord

end Doubles

/-! ## A wind farm on which the rounding of the sums decides -/

/-- The cable types of the breakpoints `{1, 2, 3}` and `{1, 2, 3}`: a cable for `k` units
costs `k` per unit of length. -/
def linearCabletypes : Cabletypes :=
  { numberOfCables := 3
    vectorOfCapacities := [1, 2, 3]
    vectorOfCosts := [1, 2, 3]
    maximumCableCapacity := 3
    vectorOfCostsExpanded := [3, 2, 1, 0, 1, 2, 3]
    isGivenByRealCables := true }

/-- Three turbines `0`, `1`, `2` at the points `(0, 0)`, `(9/16, 0)` and `(9/32, 3/8)` and a
substation `3` of capacity 5 at the point `(6755399441055744, 0)`, which is `3 * 2 ^ 51`;
edges `0 - 3`, `1 - 0`, `2 - 0` and `1 - 2`, with the cable types `linearCabletypes`.  The
coordinates are doubles, and so are the squares of their differences, the sums of the
squares and the Euclidean lengths `3 * 2 ^ 51`, `9/16`, `15/32` and `15/32` of the edges:
`Windfarm::Length` computes them without rounding. -/
def roundingInstance : Instance :=
  { nodes := [⟨NodeShape.rect, 0⟩, ⟨NodeShape.rect, 0⟩, ⟨NodeShape.rect, 0⟩,
      ⟨NodeShape.ellipse, 5⟩]
    edges := [⟨0, 3, 6755399441055744⟩, ⟨1, 0, 9 / 16⟩, ⟨2, 0, 15 / 32⟩, ⟨1, 2, 15 / 32⟩]
    cabletypes := linearCabletypes }

/-- The residual graph of `roundingInstance` with the flow values `flow` and the residual
costs `costs`: the edges `0: 0 → 3`, `1: 1 → 0`, `2: 2 → 0`, `3: 1 → 2`, their reverse edges
`4: 3 → 0`, `5: 0 → 1`, `6: 0 → 2`, `7: 2 → 1`, and the edges `8` to and `9` from the super
substation `4`. -/
def roundingGraph (flow : List Int) (costs : List (WithTop ℚ)) : WindfarmResidual :=
  { numberOfOriginalVertices := 4
    numberOfOriginalEdges := 4
    numberOfTurbines := 3
    numberOfSubstations := 1
    listOfVertices :=
      [{ capacity := -1, type := VertexType.turbine, outgoingEdges := [0, 5, 6] },
        { capacity := -1, type := VertexType.turbine, outgoingEdges := [1, 3] },
        { capacity := -1, type := VertexType.turbine, outgoingEdges := [2, 7] },
        { capacity := 5, type := VertexType.substation, outgoingEdges := [4, 8] },
        { capacity := -1, type := VertexType.supersubstation, outgoingEdges := [9] }]
    listOfEdges :=
      [{ identifier := 0, length := 6755399441055744, capacity := 3, startVertex := 0,
          endVertex := 3 },
        { identifier := 1, length := 9 / 16, capacity := 3, startVertex := 1, endVertex := 0 },
        { identifier := 2, length := 15 / 32, capacity := 3, startVertex := 2, endVertex := 0 },
        { identifier := 3, length := 15 / 32, capacity := 3, startVertex := 1, endVertex := 2 },
        { identifier := 0, length := 6755399441055744, capacity := 3, startVertex := 3,
          endVertex := 0 },
        { identifier := 1, length := 9 / 16, capacity := 3, startVertex := 0, endVertex := 1 },
        { identifier := 2, length := 15 / 32, capacity := 3, startVertex := 0, endVertex := 2 },
        { identifier := 3, length := 15 / 32, capacity := 3, startVertex := 2, endVertex := 1 },
        { identifier := 8, length := 0, capacity := 5, startVertex := 3, endVertex := 4 },
        { identifier := 9, length := 0, capacity := 5, startVertex := 4, endVertex := 3 }]
    turbineIdentifiers := [0, 1, 2]
    substationIdentifiers := [3]
    cabletypes := linearCabletypes
    flowValues := flow
    residualCosts := costs }

/-- The residual costs of `roundingGraph` for the flow `3, 1, 1, 0` on the edges `0` to `3`
and the change of flow 1, all of them doubles: `DINFTY` on the full edge `0`, the length on
the edges `1`, `2`, `3`, `7`, on which a unit more needs the next cable, and minus the length
on the edges `4`, `5`, `6`, on which a unit less frees a cable. -/
def roundingCosts : List (WithTop ℚ) :=
  [⊤, ((9 / 16 : ℚ) : WithTop ℚ), ((15 / 32 : ℚ) : WithTop ℚ), ((15 / 32 : ℚ) : WithTop ℚ),
    ((-6755399441055744 : ℚ) : WithTop ℚ), ((-9 / 16 : ℚ) : WithTop ℚ),
    ((-15 / 32 : ℚ) : WithTop ℚ), ((15 / 32 : ℚ) : WithTop ℚ), 0, 0]

end wcp

/-! # Auxiliary definitions for runs of the initialization on a used `Dijkstra` object -/

namespace wcp

namespace Dijkstra

end Dijkstra

end wcp

namespace wcp

/-! ## Reading and writing vectors -/

theorem getD_set_eq {α : Type} (l : List α) (i j : Nat) (x d : α) :
    (l.set i x).getD j d =
      if i = j then (if i < l.length then x else l.getD j d) else l.getD j d := by
  simp only [List.getD_eq_getElem?_getD, List.getElem?_set]
  by_cases h : i = j
  · subst h
    by_cases h2 : i < l.length
    · simp [h2]
    · simp [h2, List.getElem?_eq_none (not_lt.mp h2)]
  · simp [h]

theorem getD_replicate_eq {α : Type} (n i : Nat) (x d : α) :
    (List.replicate n x).getD i d = if i < n then x else d := by
  simp only [List.getD_eq_getElem?_getD, List.getElem?_replicate]
  split_ifs <;> rfl

theorem getD_of_length_le {α : Type} (l : List α) (i : Nat) (d : α) (h : l.length ≤ i) :
    l.getD i d = d := by
  simp [List.getD_eq_getElem?_getD, List.getElem?_eq_none h]

theorem getD_eq_getElem_of_lt {α : Type} (l : List α) (i : Nat) (d : α) (h : i < l.length) :
    l.getD i d = l[i] := by
  simp [List.getD_eq_getElem?_getD, List.getElem?_eq_getElem h]

/-! ## Flow on edges and reverse edges -/

namespace WindfarmResidual

theorem FlowOnEdge_eq (w : WindfarmResidual) (e : Nat) :
    w.FlowOnEdge e = w.flowSign e * w.flowValues.getD (w.flowSlot e) 0 := by
  unfold FlowOnEdge flowSign flowSlot
  split_ifs <;> simp

theorem SetFlowOnEdge_eq (w : WindfarmResidual) (e : Nat) (f : Int) :
    w.SetFlowOnEdge e f =
      { w with flowValues := w.flowValues.set (w.flowSlot e) (w.flowSign e * f) } := by
  unfold SetFlowOnEdge flowSign flowSlot
  split_ifs <;> simp

theorem flowSign_mul_self (w : WindfarmResidual) (e : Nat) :
    w.flowSign e * w.flowSign e = 1 := by
  unfold flowSign; split_ifs <;> simp

theorem flowSlot_lt (w : WindfarmResidual) (e : Nat)
    (he : e < 2 * w.NumberOfOriginalEdges + 2 * w.NumberOfSubstations) :
    w.flowSlot e < w.NumberOfOriginalEdges + w.NumberOfSubstations := by
  unfold flowSlot; split_ifs <;> omega

theorem flowSlot_reverse (w : WindfarmResidual) (e : Nat)
    (he : e < 2 * w.NumberOfOriginalEdges + 2 * w.NumberOfSubstations) :
    w.flowSlot (w.ReverseEdgeIndex e) = w.flowSlot e := by
  unfold flowSlot ReverseEdgeIndex; split_ifs <;> omega

theorem flowSign_reverse (w : WindfarmResidual) (e : Nat)
    (he : e < 2 * w.NumberOfOriginalEdges + 2 * w.NumberOfSubstations) :
    w.flowSign (w.ReverseEdgeIndex e) = -w.flowSign e := by
  unfold flowSign ReverseEdgeIndex; split_ifs <;> omega

theorem flowSlot_eq_iff (w : WindfarmResidual) (e e' : Nat)
    (he : e < 2 * w.NumberOfOriginalEdges + 2 * w.NumberOfSubstations)
    (_he' : e' < 2 * w.NumberOfOriginalEdges + 2 * w.NumberOfSubstations) :
    w.flowSlot e' = w.flowSlot e ↔ e' = e ∨ e' = w.ReverseEdgeIndex e := by
  unfold flowSlot ReverseEdgeIndex; split_ifs <;> omega

theorem ReverseEdgeIndex_lt (w : WindfarmResidual) (e : Nat)
    (he : e < 2 * w.NumberOfOriginalEdges + 2 * w.NumberOfSubstations) :
    w.ReverseEdgeIndex e < 2 * w.NumberOfOriginalEdges + 2 * w.NumberOfSubstations := by
  unfold ReverseEdgeIndex; split_ifs <;> omega

theorem ReverseEdgeIndex_ne (w : WindfarmResidual) (e : Nat)
    (he : e < 2 * w.NumberOfOriginalEdges + 2 * w.NumberOfSubstations) :
    w.ReverseEdgeIndex e ≠ e := by
  unfold ReverseEdgeIndex; split_ifs <;> omega

theorem ReverseEdgeIndex_involutive (w : WindfarmResidual) (e : Nat)
    (he : e < 2 * w.NumberOfOriginalEdges + 2 * w.NumberOfSubstations) :
    w.ReverseEdgeIndex (w.ReverseEdgeIndex e) = e := by
  unfold ReverseEdgeIndex; split_ifs <;> omega

theorem FlowOnEdge_reverse (w : WindfarmResidual) (e : Nat)
    (he : e < 2 * w.NumberOfOriginalEdges + 2 * w.NumberOfSubstations) :
    w.FlowOnEdge e = -w.FlowOnEdge (w.ReverseEdgeIndex e) := by
  rw [FlowOnEdge_eq, FlowOnEdge_eq, flowSlot_reverse w e he, flowSign_reverse w e he]
  ring

theorem FlowOnEdge_SetFlowOnEdge (w : WindfarmResidual) (e e' : Nat) (f : Int)
    (hlen : w.flowValues.length = w.NumberOfOriginalEdges + w.NumberOfSubstations)
    (he : e < 2 * w.NumberOfOriginalEdges + 2 * w.NumberOfSubstations)
    (he' : e' < 2 * w.NumberOfOriginalEdges + 2 * w.NumberOfSubstations) :
    (w.SetFlowOnEdge e f).FlowOnEdge e' =
      if e' = e then f else if e' = w.ReverseEdgeIndex e then -f else w.FlowOnEdge e' := by
  have hs := flowSlot_lt w e he
  have hmul := flowSign_mul_self w e
  rw [SetFlowOnEdge_eq, FlowOnEdge_eq, FlowOnEdge_eq]
  show w.flowSign e' * (w.flowValues.set (w.flowSlot e) (w.flowSign e * f)).getD
    (w.flowSlot e') 0 = _
  rw [getD_set_eq]
  by_cases h1 : e' = e
  · subst h1
    rw [if_pos rfl, if_pos (by omega), if_pos rfl, ← mul_assoc, hmul, one_mul]
  · rw [if_neg h1]
    by_cases h2 : e' = w.ReverseEdgeIndex e
    · subst h2
      rw [if_pos (flowSlot_reverse w e he).symm, if_pos (by omega), if_pos rfl,
        flowSign_reverse w e he, neg_mul, ← mul_assoc, hmul, one_mul]
    · rw [if_neg h2, if_neg]
      intro h
      rcases (flowSlot_eq_iff w e e' he he').mp h.symm with h | h
      · exact h1 h
      · exact h2 h

theorem IsStateOf_refl (w : WindfarmResidual) : w.IsStateOf w :=
  ⟨rfl, rfl, rfl, rfl, rfl, rfl, rfl, rfl, rfl, rfl, rfl⟩

theorem IsStateOf_trans {w1 w2 w3 : WindfarmResidual} (h12 : w1.IsStateOf w2)
    (h23 : w2.IsStateOf w3) : w1.IsStateOf w3 := by
  obtain ⟨a1, a2, a3, a4, a5, a6, a7, a8, a9, a10, a11⟩ := h12
  obtain ⟨b1, b2, b3, b4, b5, b6, b7, b8, b9, b10, b11⟩ := h23
  exact ⟨a1.trans b1, a2.trans b2, a3.trans b3, a4.trans b4, a5.trans b5, a6.trans b6,
    a7.trans b7, a8.trans b8, a9.trans b9, a10.trans b10, a11.trans b11⟩

theorem SetFlowOnEdge_isStateOf (w : WindfarmResidual) (e : Nat) (f : Int) :
    (w.SetFlowOnEdge e f).IsStateOf w := by
  rw [SetFlowOnEdge_eq]
  exact ⟨rfl, rfl, rfl, rfl, rfl, rfl, rfl, rfl, rfl, by simp, rfl⟩

theorem AddFlowOnEdge_isStateOf (w : WindfarmResidual) (e : Nat) (d : Int) :
    (w.AddFlowOnEdge e d).IsStateOf w :=
  SetFlowOnEdge_isStateOf w e _

theorem setResidualCostOnEdge_isStateOf (w : WindfarmResidual) (e : Nat) (c : WithTop ℚ) :
    (w.setResidualCostOnEdge e c).IsStateOf w :=
  ⟨rfl, rfl, rfl, rfl, rfl, rfl, rfl, rfl, rfl, rfl, by simp [setResidualCostOnEdge]⟩

theorem IsStateOf_symm {w1 w2 : WindfarmResidual} (h : w1.IsStateOf w2) : w2.IsStateOf w1 := by
  obtain ⟨a1, a2, a3, a4, a5, a6, a7, a8, a9, a10, a11⟩ := h
  exact ⟨a1.symm, a2.symm, a3.symm, a4.symm, a5.symm, a6.symm, a7.symm, a8.symm, a9.symm,
    a10.symm, a11.symm⟩

/-- What two states of one residual graph have in common. -/
theorem IsStateOf_topology {w' w : WindfarmResidual} (h : w'.IsStateOf w) :
    (∀ e, w'.StartVertex e = w.StartVertex e)
      ∧ (∀ e, w'.EndVertex e = w.EndVertex e)
      ∧ (∀ e, w'.Length e = w.Length e)
      ∧ (∀ v, w'.IsSuperSubstation v = w.IsSuperSubstation v)
      ∧ (∀ v, w'.IsSubstation v = w.IsSubstation v)
      ∧ (∀ v, w'.IsTurbine v = w.IsTurbine v)
      ∧ (∀ v, w'.VertexCapacity v = w.VertexCapacity v)
      ∧ (∀ v, w'.OutgoingEdges v = w.OutgoingEdges v)
      ∧ (∀ v, w'.EdgeToSupersubstation v = w.EdgeToSupersubstation v)
      ∧ (∀ e, w'.ReverseEdgeIndex e = w.ReverseEdgeIndex e)
      ∧ w'.NumberOfEdges = w.NumberOfEdges
      ∧ w'.NumberOfVertices = w.NumberOfVertices
      ∧ w'.NumberOfOriginalEdges = w.NumberOfOriginalEdges
      ∧ w'.NumberOfSubstations = w.NumberOfSubstations
      ∧ w'.Turbines = w.Turbines
      ∧ w'.Substations = w.Substations
      ∧ w'.cabletypes = w.cabletypes := by
  obtain ⟨a1, a2, a3, a4, a5, a6, a7, a8, a9, a10, a11⟩ := h
  refine ⟨?_, ?_, ?_, ?_, ?_, ?_, ?_, ?_, ?_, ?_, ?_, ?_, a2, a4, a7, a8, a9⟩
  · intro e; simp only [StartVertex, EdgeAt, a6]
  · intro e; simp only [EndVertex, EdgeAt, a6]
  · intro e; simp only [Length, EdgeAt, a6]
  · intro v; simp only [IsSuperSubstation, VertexAt, a5]
  · intro v; simp only [IsSubstation, VertexAt, a5]
  · intro v; simp only [IsTurbine, VertexAt, a5]
  · intro v; simp only [VertexCapacity, VertexAt, a5]
  · intro v; simp only [OutgoingEdges, VertexAt, a5]
  · intro v; simp only [EdgeToSupersubstation, OutgoingEdges, VertexAt, a5]
  · intro e; simp only [ReverseEdgeIndex, NumberOfOriginalEdges, NumberOfSubstations, a2, a4]
  · simp only [NumberOfEdges, a6]
  · simp only [NumberOfVertices, a5]

end WindfarmResidual

end wcp

namespace wcp

/-! ## The constructors of the residual graph -/

namespace WindfarmResidual

theorem VertexAt_setVertex (w : WindfarmResidual) (i v : Nat) (x : Vertex) :
    (w.setVertex i x).VertexAt v =
      if i = v then (if i < w.listOfVertices.length then x else w.VertexAt v)
      else w.VertexAt v := by
  unfold VertexAt setVertex
  exact getD_set_eq _ _ _ _ _

theorem EdgeAt_setEdge (w : WindfarmResidual) (i e : Nat) (x : Edge) :
    (w.setEdge i x).EdgeAt e =
      if i = e then (if i < w.listOfEdges.length then x else w.EdgeAt e)
      else w.EdgeAt e := by
  unfold EdgeAt setEdge
  exact getD_set_eq _ _ _ _ _

theorem VertexAt_AddOutgoingEdge (w : WindfarmResidual) (i v e : Nat)
    (hi : i < w.listOfVertices.length) :
    (w.AddOutgoingEdge i e).VertexAt v =
      if i = v then
        { w.VertexAt v with outgoingEdges := (w.VertexAt v).outgoingEdges ++ [e] }
      else w.VertexAt v := by
  unfold AddOutgoingEdge
  rw [VertexAt_setVertex]
  by_cases h : i = v
  · subst h; simp [hi]
  · simp [h]

theorem nodeLoopInv_zero (inst : Instance) (w : WindfarmResidual)
    (hw : w =
      { numberOfOriginalVertices := inst.nodes.length
        numberOfOriginalEdges := inst.edges.length
        numberOfTurbines := 0
        numberOfSubstations := 0
        listOfVertices := List.replicate (inst.nodes.length + 1) default
        listOfEdges := []
        turbineIdentifiers := []
        substationIdentifiers := []
        cabletypes := inst.cabletypes
        flowValues := []
        residualCosts := [] }) : NodeLoopInv inst 0 w := by
  subst hw
  refine ⟨by simp, ?_, by simp, by simp, rfl, rfl, rfl, rfl, rfl, rfl⟩
  intro v
  simp only [VertexAt, getD_replicate_eq, Nat.not_lt_zero, if_false]
  split_ifs <;> rfl

theorem nodeLoopInv_step (inst : Instance) (k : Nat) (w : WindfarmResidual)
    (hk : k < inst.nodes.length) (h : NodeLoopInv inst k w) :
    NodeLoopInv inst (k + 1) (windfarmNodeStep inst w k) := by
  have hlen := h.lenV
  have hvert : ∀ (x : Vertex) (w' : WindfarmResidual),
      w'.listOfVertices = w.listOfVertices.set k x →
      x = nodeVertex (inst.nodes.getD k default) →
      ∀ v, w'.VertexAt v =
        if v < k + 1 then nodeVertex (inst.nodes.getD v default) else default := by
    intro x w' hw' hx v
    have : w'.VertexAt v = (w.setVertex k x).VertexAt v := by
      simp [VertexAt, setVertex, hw']
    rw [this, VertexAt_setVertex, h.vert]
    by_cases hv : k = v
    · subst hv
      simp [hx]
      omega
    · simp only [hv, if_false]
      by_cases hv2 : v < k
      · simp [hv2, Nat.lt_succ_of_lt hv2]
      · have : ¬ v < k + 1 := by omega
        simp [hv2, this]
  have hdef : w.VertexAt k = default := by
    rw [h.vert]; simp
  unfold windfarmNodeStep
  cases hs : (inst.nodes.getD k default).shape with
  | rect =>
    have hs' := hs
    simp only [List.getD_eq_getElem?_getD] at hs'
    simp only [hs]
    refine ⟨by simp [AddTurbine, setVertex, hlen], ?_, ?_, ?_, ?_, ?_, h.nV, h.nE, h.edges, h.ct⟩
    · apply hvert _ _ rfl
      rw [hdef]
      simp only [nodeVertex, hs]
      rfl
    · simp [AddTurbine, setVertex, List.range_succ, List.filter_append, h.turb, hs']
    · simp [AddTurbine, setVertex, List.range_succ, List.filter_append, h.subs, hs']
    · simp [AddTurbine, setVertex, h.nT]
    · simp [AddTurbine, setVertex, h.nS]
  | ellipse =>
    have hs' := hs
    simp only [List.getD_eq_getElem?_getD] at hs'
    simp only [hs]
    refine ⟨by simp [AddSubstation, setVertex, hlen], ?_, ?_, ?_, ?_, ?_, h.nV, h.nE, h.edges,
      h.ct⟩
    · apply hvert _ _ rfl
      rw [hdef]
      simp only [nodeVertex, hs]
      rfl
    · simp [AddSubstation, setVertex, List.range_succ, List.filter_append, h.turb, hs']
    · simp [AddSubstation, setVertex, List.range_succ, List.filter_append, h.subs, hs']
    · simp [AddSubstation, setVertex, h.nT]
    · simp [AddSubstation, setVertex, h.nS]
  | other =>
    have hs' := hs
    simp only [List.getD_eq_getElem?_getD] at hs'
    simp only [hs]
    refine ⟨hlen, ?_, ?_, ?_, h.nT, h.nS, h.nV, h.nE, h.edges, h.ct⟩
    · intro v
      rw [h.vert]
      by_cases hv : v = k
      · subst hv
        simp only [lt_self_iff_false, if_false, Nat.lt_succ_self, if_true, nodeVertex, hs]
        rfl
      · by_cases hv2 : v < k
        · simp [hv2, Nat.lt_succ_of_lt hv2]
        · have : ¬ v < k + 1 := by omega
          simp [hv2, this]
    · simp [List.range_succ, List.filter_append, h.turb, hs']
    · simp [List.range_succ, List.filter_append, h.subs, hs']

theorem foldl_range_inv {σ : Type} (P : Nat → σ → Prop) (f : σ → Nat → σ) (s0 : σ) (n : Nat)
    (h0 : P 0 s0) (hstep : ∀ k s, k < n → P k s → P (k + 1) (f s k)) :
    ∀ k, k ≤ n → P k ((List.range k).foldl f s0) := by
  intro k
  induction k with
  | zero => intro _; simpa using h0
  | succ k ih =>
    intro hk
    rw [List.range_succ, List.foldl_append]
    exact hstep k _ (by omega) (ih (by omega))

theorem builtVertex_outgoingEdges (inst : Instance) (v : Nat) :
    (builtVertex inst v).outgoingEdges = [] := by
  unfold builtVertex nodeVertex
  split_ifs
  · split <;> rfl
  · rfl
  · rfl

theorem windfarmOfInstance_spec (inst : Instance) (w : WindfarmResidual)
    (h : windfarmOfInstance inst = some w) :
    w.listOfVertices.length = inst.nodes.length + 1
      ∧ (∀ v, w.VertexAt v = builtVertex inst v)
      ∧ w.turbineIdentifiers = inst.turbines
      ∧ w.substationIdentifiers = inst.substations
      ∧ w.numberOfTurbines = inst.turbines.length
      ∧ w.numberOfSubstations = inst.substations.length
      ∧ w.numberOfOriginalVertices = inst.nodes.length
      ∧ w.numberOfOriginalEdges = inst.edges.length
      ∧ w.listOfEdges = []
      ∧ w.cabletypes = inst.cabletypes := by
  unfold windfarmOfInstance at h
  simp only at h
  have hinv := foldl_range_inv (NodeLoopInv inst) (windfarmNodeStep inst) _ inst.nodes.length
    (nodeLoopInv_zero inst _ rfl) (fun k s hk hs => nodeLoopInv_step inst k s hk hs)
    inst.nodes.length le_rfl
  split_ifs at h
  injection h with h
  subst h
  refine ⟨by simp [setVertex, hinv.lenV], ?_, hinv.turb, hinv.subs, ?_, ?_, hinv.nV, hinv.nE,
    hinv.edges, hinv.ct⟩
  · intro v
    rw [VertexAt_setVertex, hinv.vert, hinv.vert]
    simp only [NumberOfOriginalVertices, hinv.nV, hinv.lenV]
    unfold builtVertex
    by_cases hv : inst.nodes.length = v
    · subst hv
      simp only [lt_self_iff_false, if_false, if_true, Nat.lt_succ_self]
      rfl
    · simp only [hv, if_false]
      by_cases hv2 : v < inst.nodes.length
      · simp [hv2]
      · have : ¬ v = inst.nodes.length := fun h => hv h.symm
        simp [hv2, this]
  · have := hinv.nT
    rw [hinv.turb] at this
    exact this
  · have := hinv.nS
    rw [hinv.subs] at this
    exact this

theorem builtOutOriginal_succ (inst : Instance) (k v : Nat) :
    builtOutOriginal inst (k + 1) v =
      builtOutOriginal inst k v
        ++ ((if (inst.edges.getD k default).source = v then [k] else [])
          ++ (if (inst.edges.getD k default).target = v then [k + inst.edges.length] else [])) := by
  simp [builtOutOriginal, List.range_succ, List.flatMap_append]

theorem builtOutSuper_succ (inst : Instance) (k v : Nat) :
    builtOutSuper inst (k + 1) v =
      builtOutSuper inst k v
        ++ ((if inst.substations.getD k 0 = v then [2 * inst.edges.length + k] else [])
          ++ (if inst.nodes.length = v then
              [2 * inst.edges.length + k + inst.substations.length] else [])) := by
  simp [builtOutSuper, List.range_succ, List.flatMap_append]

theorem BuiltBase_setEdge (inst : Instance) (w : WindfarmResidual) (i : Nat) (x : Edge)
    (h : BuiltBase inst w) : BuiltBase inst (w.setEdge i x) :=
  ⟨h.lenV, by simp [setEdge, h.lenE], h.turb, h.subs, h.nT, h.nS, h.nV, h.nE, h.ct⟩

theorem BuiltBase_AddOutgoingEdge (inst : Instance) (w : WindfarmResidual) (i e : Nat)
    (h : BuiltBase inst w) : BuiltBase inst (w.AddOutgoingEdge i e) :=
  ⟨by simp [AddOutgoingEdge, setVertex, h.lenV], h.lenE, h.turb, h.subs, h.nT, h.nS, h.nV,
    h.nE, h.ct⟩

theorem edgeLoopInv_step (inst : Instance) (k : Nat) (w : WindfarmResidual)
    (hk : k < inst.edges.length)
    (hs : (inst.edges.getD k default).source < inst.nodes.length)
    (ht : (inst.edges.getD k default).target < inst.nodes.length)
    (h : EdgeLoopInv inst k w) : EdgeLoopInv inst (k + 1) (originalEdgeStep inst w k) := by
  have hb := h.base
  unfold originalEdgeStep
  refine ⟨?_, ?_, ?_⟩
  · exact BuiltBase_AddOutgoingEdge _ _ _ _ (BuiltBase_setEdge _ _ _ _
      (BuiltBase_AddOutgoingEdge _ _ _ _ (BuiltBase_setEdge _ _ _ _ hb)))
  · intro v
    simp only []
    rw [VertexAt_AddOutgoingEdge _ _ _ _ (by
      simp only [AddOutgoingEdge, setVertex, setEdge, hb.lenV, List.length_set]; omega)]
    have e1 : ∀ (w' : WindfarmResidual) (i : Nat) (x : Edge) (u : Nat),
        (w'.setEdge i x).VertexAt u = w'.VertexAt u := fun _ _ _ _ => rfl
    rw [e1, VertexAt_AddOutgoingEdge _ _ _ _ (by simp only [setEdge, hb.lenV]; omega), e1, h.vert,
      builtOutOriginal_succ]
    have e2 : ∀ (w' : WindfarmResidual) (i e : Nat),
        (w'.AddOutgoingEdge i e).NumberOfOriginalEdges = w'.NumberOfOriginalEdges :=
      fun _ _ _ => rfl
    have e3 : ∀ (w' : WindfarmResidual) (i : Nat) (x : Edge),
        (w'.setEdge i x).NumberOfOriginalEdges = w'.NumberOfOriginalEdges :=
      fun _ _ _ => rfl
    rw [e2, e3]
    have hM : w.NumberOfOriginalEdges = inst.edges.length := hb.nE
    rw [hM]
    by_cases h1 : (inst.edges.getD k default).source = v <;>
      by_cases h2 : (inst.edges.getD k default).target = v <;>
      simp [-List.getD_eq_getElem?_getD, h1, h2]
  · intro e
    simp only []
    have e1 : ∀ (w' : WindfarmResidual) (i e : Nat) (u : Nat),
        (w'.AddOutgoingEdge i e).EdgeAt u = w'.EdgeAt u := fun _ _ _ _ => rfl
    have e2 : ∀ (w' : WindfarmResidual) (i e : Nat),
        (w'.AddOutgoingEdge i e).NumberOfOriginalEdges = w'.NumberOfOriginalEdges :=
      fun _ _ _ => rfl
    have e3 : ∀ (w' : WindfarmResidual) (i : Nat) (x : Edge),
        (w'.setEdge i x).NumberOfOriginalEdges = w'.NumberOfOriginalEdges :=
      fun _ _ _ => rfl
    have e4 : ∀ (w' : WindfarmResidual) (i e : Nat),
        (w'.AddOutgoingEdge i e).listOfEdges = w'.listOfEdges := fun _ _ _ => rfl
    have e5 : ∀ (w' : WindfarmResidual) (i e : Nat),
        (w'.AddOutgoingEdge i e).cabletypes = w'.cabletypes := fun _ _ _ => rfl
    have e6 : ∀ (w' : WindfarmResidual) (i : Nat) (x : Edge),
        (w'.setEdge i x).cabletypes = w'.cabletypes := fun _ _ _ => rfl
    have hM : w.NumberOfOriginalEdges = inst.edges.length := hb.nE
    rw [e1, EdgeAt_setEdge, e1, EdgeAt_setEdge, e2, e3, e4, e5, e6, hM, h.edge, hb.ct]
    have hl1 : (w.setEdge k
        { identifier := k, length := (inst.edges.getD k default).length,
          capacity := inst.cabletypes.MaximumCapacity,
          startVertex := (inst.edges.getD k default).source,
          endVertex := (inst.edges.getD k default).target }).listOfEdges.length
          = 2 * inst.edges.length + 2 * inst.substations.length := by
      simp [setEdge, hb.lenE]
    rw [hl1, hb.lenE]
    by_cases c1 : k + inst.edges.length = e
    · subst c1
      rw [if_pos rfl, if_pos (by omega), if_pos (by omega)]
      unfold builtEdge
      simp only []
      rw [if_neg (by omega), if_pos (by omega), Nat.add_sub_cancel]
    · rw [if_neg c1]
      by_cases c2 : k = e
      · subst c2
        rw [if_pos rfl, if_pos (by omega), if_pos (by omega)]
        simp only [builtEdge]
        rw [if_pos hk]
      · rw [if_neg c2]
        by_cases c3 : e < k ∨ (inst.edges.length ≤ e ∧ e < inst.edges.length + k)
        · rw [if_pos c3, if_pos (by omega)]
        · rw [if_neg c3, if_neg (by omega)]

theorem substations_getD_lt (inst : Instance) (i : Nat) (hi : i < inst.substations.length) :
    inst.substations.getD i 0 < inst.nodes.length := by
  rw [getD_eq_getElem_of_lt _ _ _ hi]
  have hmem : inst.substations[i] ∈ inst.substations := List.getElem_mem _
  unfold Instance.substations at hmem
  rw [List.mem_filter, List.mem_range] at hmem
  exact hmem.1

theorem superLoopInv_step (inst : Instance) (k : Nat) (w : WindfarmResidual)
    (hk : k < inst.substations.length)
    (h : SuperLoopInv inst k w) : SuperLoopInv inst (k + 1) (substationEdgeStep w k) := by
  have hb := h.base
  have hsub := substations_getD_lt inst k hk
  have hM : w.NumberOfOriginalEdges = inst.edges.length := hb.nE
  have hS : w.NumberOfSubstations = inst.substations.length := hb.nS
  have hsubAt : w.SubstationAt k = inst.substations.getD k 0 := by
    simp only [SubstationAt, Substations, hb.subs]
  have hsuper : w.SuperSubstationIdentifier = inst.nodes.length := by
    simp only [SuperSubstationIdentifier, NumberOfVertices, hb.lenV, Nat.add_sub_cancel]
  have hcap : w.VertexCapacity (inst.substations.getD k 0)
      = (builtVertex inst (inst.substations.getD k 0)).capacity := by
    simp only [VertexCapacity, h.vert]
  have hE1 : w.EdgeAt (2 * inst.edges.length + k) = default := by
    rw [h.edge, if_neg (by omega)]
  -- first half of the step
  have step1 : ∀ w1, w1 = (w.setEdge (2 * inst.edges.length + k)
      { identifier := 2 * inst.edges.length + k,
        length := (default : Edge).length,
        startVertex := inst.substations.getD k 0,
        endVertex := inst.nodes.length,
        capacity := (builtVertex inst (inst.substations.getD k 0)).capacity }).AddOutgoingEdge
        (inst.substations.getD k 0) (2 * inst.edges.length + k) →
      BuiltBase inst w1
      ∧ (∀ v, w1.VertexAt v = { builtVertex inst v with
          outgoingEdges := builtOutOriginal inst inst.edges.length v ++ builtOutSuper inst k v
            ++ (if inst.substations.getD k 0 = v then [2 * inst.edges.length + k] else []) })
      ∧ (∀ e, w1.EdgeAt e =
          if e < 2 * inst.edges.length + (k + 1)
            ∨ (2 * inst.edges.length + inst.substations.length ≤ e
              ∧ e < 2 * inst.edges.length + inst.substations.length + k) then builtEdge inst e
          else default) := by
    intro w1 hw1
    subst hw1
    refine ⟨BuiltBase_AddOutgoingEdge _ _ _ _ (BuiltBase_setEdge _ _ _ _ hb), ?_, ?_⟩
    · intro v
      rw [VertexAt_AddOutgoingEdge _ _ _ _ (by simp only [setEdge, hb.lenV]; omega)]
      have e1 : ∀ (w' : WindfarmResidual) (i : Nat) (x : Edge) (u : Nat),
          (w'.setEdge i x).VertexAt u = w'.VertexAt u := fun _ _ _ _ => rfl
      rw [e1, h.vert]
      by_cases h1 : inst.substations.getD k 0 = v <;> simp [-List.getD_eq_getElem?_getD, h1]
    · intro e
      have e1 : ∀ (w' : WindfarmResidual) (i e : Nat) (u : Nat),
          (w'.AddOutgoingEdge i e).EdgeAt u = w'.EdgeAt u := fun _ _ _ _ => rfl
      rw [e1, EdgeAt_setEdge, h.edge, hb.lenE]
      by_cases c1 : 2 * inst.edges.length + k = e
      · subst c1
        rw [if_pos rfl, if_pos (by omega), if_pos (by omega)]
        unfold builtEdge
        simp only []
        rw [if_neg (by omega), if_neg (by omega), if_pos (by omega)]
        have : 2 * inst.edges.length + k - 2 * inst.edges.length = k := by omega
        rw [this]
        rfl
      · rw [if_neg c1]
        by_cases c3 : e < 2 * inst.edges.length + k
            ∨ (2 * inst.edges.length + inst.substations.length ≤ e
              ∧ e < 2 * inst.edges.length + inst.substations.length + k)
        · rw [if_pos c3, if_pos (by omega)]
        · rw [if_neg c3, if_neg (by omega)]
  unfold substationEdgeStep
  simp only []
  have e2 : ∀ (w' : WindfarmResidual) (i e : Nat),
      (w'.AddOutgoingEdge i e).NumberOfSubstations = w'.NumberOfSubstations :=
    fun _ _ _ => rfl
  have e3 : ∀ (w' : WindfarmResidual) (i : Nat) (x : Edge),
      (w'.setEdge i x).NumberOfSubstations = w'.NumberOfSubstations :=
    fun _ _ _ => rfl
  have e4 : ∀ (w' : WindfarmResidual) (i : Nat) (x : Edge),
      (w'.setEdge i x).SuperSubstationIdentifier = w'.SuperSubstationIdentifier :=
    fun _ _ _ => rfl
  have e5 : ∀ (w' : WindfarmResidual) (i : Nat) (x : Edge) (u : Nat),
      (w'.setEdge i x).VertexCapacity u = w'.VertexCapacity u := fun _ _ _ _ => rfl
  rw [hsubAt, hM, hsuper, hcap, hE1]
  obtain ⟨b1, v1, ed1⟩ := step1 _ rfl
  generalize hw1 : (w.setEdge (2 * inst.edges.length + k)
      { identifier := 2 * inst.edges.length + k,
        length := (default : Edge).length,
        startVertex := inst.substations.getD k 0,
        endVertex := inst.nodes.length,
        capacity := (builtVertex inst (inst.substations.getD k 0)).capacity }).AddOutgoingEdge
        (inst.substations.getD k 0) (2 * inst.edges.length + k) = w1 at b1 v1 ed1
  have hS1 : w1.NumberOfSubstations = inst.substations.length := b1.nS
  have hsuper1 : w1.SuperSubstationIdentifier = inst.nodes.length := by
    simp only [SuperSubstationIdentifier, NumberOfVertices, b1.lenV, Nat.add_sub_cancel]
  have hcap1 : w1.VertexCapacity (inst.substations.getD k 0)
      = (builtVertex inst (inst.substations.getD k 0)).capacity := by
    simp only [VertexCapacity, v1]
  have hE2 : w1.EdgeAt (2 * inst.edges.length + k + inst.substations.length) = default := by
    rw [ed1, if_neg (by omega)]
  rw [e4, hS1, hsuper1, hcap1, hE2]
  refine ⟨BuiltBase_AddOutgoingEdge _ _ _ _ (BuiltBase_setEdge _ _ _ _ b1), ?_, ?_⟩
  · intro v
    rw [VertexAt_AddOutgoingEdge _ _ _ _ (by simp only [setEdge, b1.lenV]; omega)]
    have e1 : ∀ (w' : WindfarmResidual) (i : Nat) (x : Edge) (u : Nat),
        (w'.setEdge i x).VertexAt u = w'.VertexAt u := fun _ _ _ _ => rfl
    rw [e1, v1, builtOutSuper_succ]
    by_cases h1 : inst.nodes.length = v <;>
      by_cases h2 : inst.substations.getD k 0 = v <;>
      simp [-List.getD_eq_getElem?_getD, h1, h2]
  · intro e
    have e1 : ∀ (w' : WindfarmResidual) (i e : Nat) (u : Nat),
        (w'.AddOutgoingEdge i e).EdgeAt u = w'.EdgeAt u := fun _ _ _ _ => rfl
    rw [e1, EdgeAt_setEdge, ed1, b1.lenE]
    by_cases c1 : 2 * inst.edges.length + k + inst.substations.length = e
    · subst c1
      rw [if_pos rfl, if_pos (by omega), if_pos (by omega)]
      unfold builtEdge
      simp only []
      rw [if_neg (by omega), if_neg (by omega), if_neg (by omega), if_pos (by omega)]
      have : 2 * inst.edges.length + k + inst.substations.length - 2 * inst.edges.length
          - inst.substations.length = k := by omega
      rw [this]
      rfl
    · rw [if_neg c1]
      by_cases c3 : e < 2 * inst.edges.length + (k + 1)
          ∨ (2 * inst.edges.length + inst.substations.length ≤ e
            ∧ e < 2 * inst.edges.length + inst.substations.length + k)
      · rw [if_pos c3, if_pos (by omega)]
      · rw [if_neg c3, if_neg (by omega)]

theorem edgeLoopInv_zero (inst : Instance) (w0 wA : WindfarmResidual)
    (hw0 : windfarmOfInstance inst = some w0)
    (hA : wA =
      { w0 with
        listOfEdges :=
          List.replicate (2 * inst.edges.length + 2 * inst.substations.length) default }) :
    EdgeLoopInv inst 0 wA := by
  obtain ⟨a1, a2, a3, a4, a5, a6, a7, a8, a9, a10⟩ := windfarmOfInstance_spec inst w0 hw0
  subst hA
  refine ⟨⟨a1, by simp, a3, a4, a5, a6, a7, a8, a10⟩, ?_, ?_⟩
  · intro v
    show w0.VertexAt v = _
    rw [a2]
    have hout := builtVertex_outgoingEdges inst v
    simp only [builtOutOriginal, List.range_zero, List.flatMap_nil]
    rw [← hout]
  · intro e
    simp only [EdgeAt, getD_replicate_eq]
    split_ifs <;> first | rfl | omega

theorem ofInstance_spec (inst : Instance) (w : WindfarmResidual)
    (h : ofInstance inst = some w) :
    Built inst w
      ∧ w.flowValues = List.replicate (inst.edges.length + inst.substations.length) 0
      ∧ w.residualCosts =
          List.replicate (2 * inst.edges.length + 2 * inst.substations.length) 0 := by
  unfold ofInstance at h
  cases hw0 : windfarmOfInstance inst with
  | none => rw [hw0] at h; exact absurd h (by simp)
  | some w0 =>
    rw [hw0] at h
    simp only at h
    obtain ⟨a1, a2, a3, a4, a5, a6, a7, a8, a9, a10⟩ := windfarmOfInstance_spec inst w0 hw0
    split_ifs at h with hall
    have hall' : (inst.edges.all fun e => decide (e.source < inst.nodes.length)
          && decide (e.target < inst.nodes.length)) = true := by
      simpa using hall
    have hends : ∀ i, i < inst.edges.length →
        (inst.edges.getD i default).source < inst.nodes.length
          ∧ (inst.edges.getD i default).target < inst.nodes.length := by
      intro i hi
      rw [List.all_eq_true] at hall'
      have := hall' (inst.edges.getD i default)
        (by rw [getD_eq_getElem_of_lt _ _ _ hi]; exact List.getElem_mem _)
      simpa [-List.getD_eq_getElem?_getD] using this
    have hM : w0.NumberOfOriginalEdges = inst.edges.length := a8
    have hS : w0.NumberOfSubstations = inst.substations.length := a6
    rw [hM, hS] at h
    -- the loop over the edges of the instance
    have inv0 := edgeLoopInv_zero inst w0 _ hw0 rfl
    have inv1 := foldl_range_inv (EdgeLoopInv inst) (originalEdgeStep inst) _ inst.edges.length
      inv0 (fun k s hk hs => edgeLoopInv_step inst k s hk (hends k hk).1 (hends k hk).2 hs)
      inst.edges.length le_rfl
    generalize hw1 : List.foldl (originalEdgeStep inst) _ (List.range inst.edges.length) = w1
      at h inv1
    have hS1 : w1.NumberOfSubstations = inst.substations.length := inv1.base.nS
    rw [hS1] at h
    -- the loop over the substations
    have inv2 : SuperLoopInv inst 0 w1 := by
      refine ⟨inv1.base, ?_, ?_⟩
      · intro v
        rw [inv1.vert]
        simp [builtOutSuper]
      · intro e
        rw [inv1.edge]
        by_cases c : e < inst.edges.length
            ∨ (inst.edges.length ≤ e ∧ e < inst.edges.length + inst.edges.length)
        · rw [if_pos c, if_pos (by omega)]
        · rw [if_neg c, if_neg (by omega)]
    have inv3 := foldl_range_inv (SuperLoopInv inst) substationEdgeStep w1
      inst.substations.length inv2
      (fun k s hk hs => superLoopInv_step inst k s hk hs) inst.substations.length le_rfl
    generalize hw2 : List.foldl substationEdgeStep w1 (List.range inst.substations.length) = w2
      at h inv3
    injection h with h
    subst h
    have hM2 : w2.NumberOfOriginalEdges = inst.edges.length := inv3.base.nE
    have hS2 : w2.NumberOfSubstations = inst.substations.length := inv3.base.nS
    have hE2 : w2.NumberOfEdges = 2 * inst.edges.length + 2 * inst.substations.length :=
      inv3.base.lenE
    refine ⟨⟨?_, ?_, ?_, hends, ?_, ?_⟩, ?_, ?_⟩
    · exact ⟨inv3.base.lenV, inv3.base.lenE, inv3.base.turb, inv3.base.subs, inv3.base.nT,
        inv3.base.nS, inv3.base.nV, inv3.base.nE, inv3.base.ct⟩
    · intro v
      exact inv3.vert v
    · intro e
      show w2.EdgeAt e = _
      rw [inv3.edge]
      by_cases c : e < 2 * inst.edges.length + inst.substations.length
          ∨ (2 * inst.edges.length + inst.substations.length ≤ e
            ∧ e < 2 * inst.edges.length + inst.substations.length + inst.substations.length)
      · rw [if_pos c]
      · rw [if_neg c]
        unfold builtEdge
        simp only []
        rw [if_neg (by omega), if_neg (by omega), if_neg (by omega), if_neg (by omega)]
    · simp [hM2, hS2]
    · simp [hE2]
    · simp [hM2, hS2]
    · simp [hE2]

theorem Built_of_isStateOf (inst : Instance) (w w0 : WindfarmResidual)
    (h0 : Built inst w0) (h : w.IsStateOf w0) : Built inst w := by
  obtain ⟨a1, a2, a3, a4, a5, a6, a7, a8, a9, a10, a11⟩ := h
  have hb := h0.base
  refine ⟨⟨?_, ?_, ?_, ?_, ?_, ?_, ?_, ?_, ?_⟩, ?_, ?_, h0.ends, ?_, ?_⟩
  · rw [a5]; exact hb.lenV
  · rw [a6]; exact hb.lenE
  · rw [a7]; exact hb.turb
  · rw [a8]; exact hb.subs
  · rw [a3]; exact hb.nT
  · rw [a4]; exact hb.nS
  · rw [a1]; exact hb.nV
  · rw [a2]; exact hb.nE
  · rw [a9]; exact hb.ct
  · intro v
    have : w.VertexAt v = w0.VertexAt v := by simp only [VertexAt, a5]
    rw [this]; exact h0.vert v
  · intro e
    have : w.EdgeAt e = w0.EdgeAt e := by simp only [EdgeAt, a6]
    rw [this]; exact h0.edge e
  · rw [a10]; exact h0.lenF
  · rw [a11]; exact h0.lenR

end WindfarmResidual

end wcp

namespace wcp

/-! ## Structure of a residual graph built by the constructor -/

namespace Built

variable {inst : Instance} {w : WindfarmResidual}

theorem numberOfOriginalEdges (h : Built inst w) :
    w.NumberOfOriginalEdges = inst.edges.length := h.base.nE

theorem numberOfSubstations (h : Built inst w) :
    w.NumberOfSubstations = inst.substations.length := h.base.nS

theorem numberOfEdges (h : Built inst w) :
    w.NumberOfEdges = 2 * inst.edges.length + 2 * inst.substations.length := h.base.lenE

theorem numberOfEdges_eq (h : Built inst w) :
    w.NumberOfEdges = 2 * w.NumberOfOriginalEdges + 2 * w.NumberOfSubstations := by
  rw [h.numberOfEdges, h.numberOfOriginalEdges, h.numberOfSubstations]

theorem numberOfVertices (h : Built inst w) :
    w.NumberOfVertices = inst.nodes.length + 1 := h.base.lenV

theorem flowValues_length (h : Built inst w) :
    w.flowValues.length = w.NumberOfOriginalEdges + w.NumberOfSubstations := by
  rw [h.lenF, h.numberOfOriginalEdges, h.numberOfSubstations]

theorem substations_eq (h : Built inst w) : w.Substations = inst.substations := h.base.subs

theorem turbines_eq (h : Built inst w) : w.Turbines = inst.turbines := h.base.turb

theorem outgoingEdges (h : Built inst w) (v : Nat) : w.OutgoingEdges v = builtOut inst v := by
  simp only [WindfarmResidual.OutgoingEdges, h.vert]

theorem type_eq (h : Built inst w) (v : Nat) :
    (w.VertexAt v).type = (builtVertex inst v).type := by
  simp only [h.vert]

theorem vertexCapacity (h : Built inst w) (v : Nat) :
    w.VertexCapacity v = (builtVertex inst v).capacity := by
  simp only [WindfarmResidual.VertexCapacity, h.vert]

theorem startVertex (h : Built inst w) (e : Nat) :
    w.StartVertex e = (builtEdge inst e).startVertex := by
  simp only [WindfarmResidual.StartVertex, h.edge]

theorem endVertex (h : Built inst w) (e : Nat) :
    w.EndVertex e = (builtEdge inst e).endVertex := by
  simp only [WindfarmResidual.EndVertex, h.edge]

theorem length_eq (h : Built inst w) (e : Nat) :
    w.Length e = (builtEdge inst e).length := by
  simp only [WindfarmResidual.Length, h.edge]

end Built

theorem builtVertex_type_ne_super (inst : Instance) (v : Nat) (hv : v ≠ inst.nodes.length) :
    (builtVertex inst v).type ≠ VertexType.supersubstation := by
  unfold builtVertex nodeVertex
  split_ifs with h1
  · split <;> simp
  · simp [default]

theorem builtVertex_type_super (inst : Instance) :
    (builtVertex inst inst.nodes.length).type = VertexType.supersubstation := by
  unfold builtVertex
  simp

theorem mem_substations_iff (inst : Instance) (v : Nat) :
    v ∈ inst.substations ↔
      v < inst.nodes.length ∧ (inst.nodes.getD v default).shape = NodeShape.ellipse := by
  unfold Instance.substations
  rw [List.mem_filter, List.mem_range]
  simp [-List.getD_eq_getElem?_getD]

theorem mem_turbines_iff (inst : Instance) (v : Nat) :
    v ∈ inst.turbines ↔
      v < inst.nodes.length ∧ (inst.nodes.getD v default).shape = NodeShape.rect := by
  unfold Instance.turbines
  rw [List.mem_filter, List.mem_range]
  simp [-List.getD_eq_getElem?_getD]

theorem builtVertex_type_substation_iff (inst : Instance) (v : Nat) :
    (builtVertex inst v).type = VertexType.substation ↔ v ∈ inst.substations := by
  rw [mem_substations_iff]
  unfold builtVertex nodeVertex
  split_ifs with h1 h2
  · cases hs : (inst.nodes.getD v default).shape <;> simp [h1]
  · simp [h1]
  · simp [h1, default]

theorem builtVertex_type_turbine_of_mem (inst : Instance) (v : Nat) (hv : v ∈ inst.turbines) :
    (builtVertex inst v).type = VertexType.turbine := by
  rw [mem_turbines_iff] at hv
  unfold builtVertex nodeVertex
  rw [if_pos hv.1, hv.2]

theorem substations_nodup (inst : Instance) : inst.substations.Nodup :=
  (List.nodup_range _).filter _

theorem turbines_nodup (inst : Instance) : inst.turbines.Nodup :=
  (List.nodup_range _).filter _

theorem substations_getD_mem (inst : Instance) (i : Nat) (hi : i < inst.substations.length) :
    inst.substations.getD i 0 ∈ inst.substations := by
  rw [getD_eq_getElem_of_lt _ _ _ hi]
  exact List.getElem_mem _

theorem substations_getD_inj (inst : Instance) (i j : Nat) (hi : i < inst.substations.length)
    (hj : j < inst.substations.length)
    (h : inst.substations.getD i 0 = inst.substations.getD j 0) : i = j := by
  rw [getD_eq_getElem_of_lt _ _ _ hi, getD_eq_getElem_of_lt _ _ _ hj] at h
  exact (List.Nodup.getElem_inj_iff (substations_nodup inst)).mp h

namespace Built

variable {inst : Instance} {w : WindfarmResidual}

theorem isSuperSubstation_iff (h : Built inst w) (v : Nat) :
    w.IsSuperSubstation v = true ↔ v = inst.nodes.length := by
  simp only [WindfarmResidual.IsSuperSubstation, decide_eq_true_eq, h.type_eq]
  constructor
  · intro hv
    by_contra hne
    exact builtVertex_type_ne_super inst v hne hv
  · intro hv
    subst hv
    exact builtVertex_type_super inst

theorem isSubstation_iff (h : Built inst w) (v : Nat) :
    w.IsSubstation v = true ↔ v ∈ inst.substations := by
  simp only [WindfarmResidual.IsSubstation, decide_eq_true_eq, h.type_eq]
  exact builtVertex_type_substation_iff inst v

theorem isTurbine_of_mem (h : Built inst w) (v : Nat) (hv : v ∈ inst.turbines) :
    w.IsTurbine v = true := by
  simp only [WindfarmResidual.IsTurbine, decide_eq_true_eq, h.type_eq]
  exact builtVertex_type_turbine_of_mem inst v hv

end Built

theorem flatMap_range_nil {α : Type} (n : Nat) (f : Nat → List α)
    (hf : ∀ j, j < n → f j = []) : (List.range n).flatMap f = [] := by
  induction n with
  | zero => simp
  | succ n ih =>
    rw [List.range_succ, List.flatMap_append, ih (fun j hj => hf j (by omega))]
    simp [hf n (by omega)]

theorem flatMap_range_single {α : Type} (n i : Nat) (hi : i < n) (f : Nat → List α)
    (hf : ∀ j, j < n → j ≠ i → f j = []) : (List.range n).flatMap f = f i := by
  induction n with
  | zero => omega
  | succ n ih =>
    rw [List.range_succ, List.flatMap_append]
    by_cases h : i = n
    · subst h
      rw [flatMap_range_nil i f (fun j hj => hf j (by omega) (by omega))]
      simp
    · rw [ih (by omega) (fun j hj hji => hf j (by omega) hji)]
      simp [hf n (by omega) (fun h' => h h'.symm)]

theorem builtOutSuper_substation (inst : Instance) (i : Nat) (hi : i < inst.substations.length) :
    builtOutSuper inst inst.substations.length (inst.substations.getD i 0)
      = [2 * inst.edges.length + i] := by
  have hlt := WindfarmResidual.substations_getD_lt inst i hi
  unfold builtOutSuper
  rw [flatMap_range_single _ i hi]
  · simp only [if_true]
    rw [if_neg (by omega)]
    rfl
  · intro j hj hji
    rw [if_neg, if_neg (by omega)]
    · rfl
    · intro heq
      exact hji (substations_getD_inj inst j i hj hi heq)

theorem mem_builtOutOriginal (inst : Instance) (k v e : Nat) :
    e ∈ builtOutOriginal inst k v ↔
      (e < k ∧ (inst.edges.getD e default).source = v)
        ∨ (inst.edges.length ≤ e ∧ e < inst.edges.length + k
          ∧ (inst.edges.getD (e - inst.edges.length) default).target = v) := by
  unfold builtOutOriginal
  rw [List.mem_flatMap]
  constructor
  · rintro ⟨i, hi, hmem⟩
    rw [List.mem_range] at hi
    rw [List.mem_append] at hmem
    rcases hmem with hmem | hmem
    · split_ifs at hmem with hc
      · simp only [List.mem_singleton] at hmem
        subst hmem
        exact Or.inl ⟨hi, hc⟩
      · simp at hmem
    · split_ifs at hmem with hc
      · simp only [List.mem_singleton] at hmem
        subst hmem
        refine Or.inr ⟨by omega, by omega, ?_⟩
        rw [Nat.add_sub_cancel]
        exact hc
      · simp at hmem
  · rintro (⟨h1, h2⟩ | ⟨h1, h2, h3⟩)
    · refine ⟨e, List.mem_range.mpr h1, ?_⟩
      rw [if_pos h2]
      simp
    · refine ⟨e - inst.edges.length, List.mem_range.mpr (by omega), ?_⟩
      rw [if_pos h3, List.mem_append]
      right
      simp only [List.mem_singleton]
      omega

theorem mem_builtOutSuper (inst : Instance) (k v e : Nat) :
    e ∈ builtOutSuper inst k v ↔
      (2 * inst.edges.length ≤ e ∧ e < 2 * inst.edges.length + k
          ∧ inst.substations.getD (e - 2 * inst.edges.length) 0 = v)
        ∨ (2 * inst.edges.length + inst.substations.length ≤ e
          ∧ e < 2 * inst.edges.length + inst.substations.length + k
          ∧ inst.nodes.length = v) := by
  unfold builtOutSuper
  rw [List.mem_flatMap]
  constructor
  · rintro ⟨i, hi, hmem⟩
    rw [List.mem_range] at hi
    rw [List.mem_append] at hmem
    rcases hmem with hmem | hmem
    · split_ifs at hmem with hc
      · simp only [List.mem_singleton] at hmem
        subst hmem
        refine Or.inl ⟨by omega, by omega, ?_⟩
        rw [Nat.add_sub_cancel_left]
        exact hc
      · simp at hmem
    · split_ifs at hmem with hc
      · simp only [List.mem_singleton] at hmem
        subst hmem
        exact Or.inr ⟨by omega, by omega, hc⟩
      · simp at hmem
  · rintro (⟨h1, h2, h3⟩ | ⟨h1, h2, h3⟩)
    · refine ⟨e - 2 * inst.edges.length, List.mem_range.mpr (by omega), ?_⟩
      rw [if_pos h3, List.mem_append]
      left
      simp only [List.mem_singleton]
      omega
    · refine ⟨e - 2 * inst.edges.length - inst.substations.length,
        List.mem_range.mpr (by omega), ?_⟩
      rw [if_pos h3, List.mem_append]
      right
      simp only [List.mem_singleton]
      omega

theorem builtOutOriginal_nodup (inst : Instance) (k v : Nat) (hk : k ≤ inst.edges.length) :
    (builtOutOriginal inst k v).Nodup := by
  unfold builtOutOriginal
  rw [List.nodup_flatMap]
  constructor
  · intro i hi
    rw [List.mem_range] at hi
    split_ifs <;>
      simp only [List.nil_append, List.append_nil, List.nodup_nil, List.nodup_cons,
        List.singleton_append, List.mem_singleton, List.not_mem_nil, not_false_iff, and_true,
        and_self] <;> omega
  · refine List.Pairwise.imp_of_mem ?_ (List.nodup_range k)
    intro a b ha hb hab
    rw [List.mem_range] at ha hb
    simp only [Function.onFun]
    intro x hx1 hx2
    rw [List.mem_append] at hx1 hx2
    have h1 : x = a ∨ x = a + inst.edges.length := by
      rcases hx1 with hx | hx <;> split_ifs at hx <;> simp at hx <;> omega
    have h2 : x = b ∨ x = b + inst.edges.length := by
      rcases hx2 with hx | hx <;> split_ifs at hx <;> simp at hx <;> omega
    omega

theorem builtOutSuper_nodup (inst : Instance) (k v : Nat) (hk : k ≤ inst.substations.length) :
    (builtOutSuper inst k v).Nodup := by
  unfold builtOutSuper
  rw [List.nodup_flatMap]
  constructor
  · intro i hi
    rw [List.mem_range] at hi
    split_ifs <;>
      simp only [List.nil_append, List.append_nil, List.nodup_nil, List.nodup_cons,
        List.singleton_append, List.mem_singleton, List.not_mem_nil, not_false_iff, and_true,
        and_self] <;> omega
  · refine List.Pairwise.imp_of_mem ?_ (List.nodup_range k)
    intro a b ha hb hab
    rw [List.mem_range] at ha hb
    simp only [Function.onFun]
    intro x hx1 hx2
    rw [List.mem_append] at hx1 hx2
    have h1 : x = 2 * inst.edges.length + a
        ∨ x = 2 * inst.edges.length + a + inst.substations.length := by
      rcases hx1 with hx | hx <;> split_ifs at hx <;> simp at hx <;> omega
    have h2 : x = 2 * inst.edges.length + b
        ∨ x = 2 * inst.edges.length + b + inst.substations.length := by
      rcases hx2 with hx | hx <;> split_ifs at hx <;> simp at hx <;> omega
    omega

theorem builtOut_nodup (inst : Instance) (v : Nat) : (builtOut inst v).Nodup := by
  unfold builtOut
  rw [List.nodup_append]
  refine ⟨builtOutOriginal_nodup inst _ v le_rfl, builtOutSuper_nodup inst _ v le_rfl, ?_⟩
  intro x hx1 hx2
  rw [mem_builtOutOriginal] at hx1
  rw [mem_builtOutSuper] at hx2
  omega

theorem builtEdge_startVertex (inst : Instance) (e : Nat) :
    (builtEdge inst e).startVertex =
      if e < inst.edges.length then (inst.edges.getD e default).source
      else if e < 2 * inst.edges.length then
        (inst.edges.getD (e - inst.edges.length) default).target
      else if e < 2 * inst.edges.length + inst.substations.length then
        inst.substations.getD (e - 2 * inst.edges.length) 0
      else if e < 2 * inst.edges.length + 2 * inst.substations.length then inst.nodes.length
      else 0 := by
  unfold builtEdge
  simp only []
  split_ifs <;> rfl

theorem builtEdge_endVertex (inst : Instance) (e : Nat) :
    (builtEdge inst e).endVertex =
      if e < inst.edges.length then (inst.edges.getD e default).target
      else if e < 2 * inst.edges.length then
        (inst.edges.getD (e - inst.edges.length) default).source
      else if e < 2 * inst.edges.length + inst.substations.length then inst.nodes.length
      else if e < 2 * inst.edges.length + 2 * inst.substations.length then
        inst.substations.getD (e - 2 * inst.edges.length - inst.substations.length) 0
      else 0 := by
  unfold builtEdge
  simp only []
  split_ifs <;> rfl

theorem mem_builtOut_iff (inst : Instance) (v e : Nat) :
    e ∈ builtOut inst v ↔
      e < 2 * inst.edges.length + 2 * inst.substations.length
        ∧ (builtEdge inst e).startVertex = v := by
  unfold builtOut
  rw [List.mem_append, mem_builtOutOriginal, mem_builtOutSuper, builtEdge_startVertex]
  constructor
  · rintro ((⟨h1, h2⟩ | ⟨h1, h2, h3⟩) | (⟨h1, h2, h3⟩ | ⟨h1, h2, h3⟩))
    · exact ⟨by omega, by rw [if_pos h1]; exact h2⟩
    · exact ⟨by omega, by rw [if_neg (by omega), if_pos (by omega)]; exact h3⟩
    · exact ⟨by omega, by
        rw [if_neg (by omega), if_neg (by omega), if_pos (by omega)]; exact h3⟩
    · exact ⟨by omega, by
        rw [if_neg (by omega), if_neg (by omega), if_neg (by omega), if_pos (by omega)]
        exact h3⟩
  · rintro ⟨h1, h2⟩
    split_ifs at h2 with c1 c2 c3
    · exact Or.inl (Or.inl ⟨c1, h2⟩)
    · exact Or.inl (Or.inr ⟨by omega, by omega, h2⟩)
    · exact Or.inr (Or.inl ⟨by omega, by omega, h2⟩)
    · exact Or.inr (Or.inr ⟨by omega, by omega, h2⟩)

namespace Built

variable {inst : Instance} {w : WindfarmResidual}

theorem edgeToSupersubstation (h : Built inst w) (i : Nat) (hi : i < inst.substations.length) :
    w.EdgeToSupersubstation (inst.substations.getD i 0) = 2 * inst.edges.length + i := by
  unfold WindfarmResidual.EdgeToSupersubstation
  rw [h.outgoingEdges]
  unfold builtOut
  rw [builtOutSuper_substation inst i hi]
  simp [List.getLastD_eq_getLast?]

theorem reverse_endpoints (h : Built inst w) (e : Nat) (he : e < w.NumberOfEdges) :
    w.StartVertex (w.ReverseEdgeIndex e) = w.EndVertex e
      ∧ w.EndVertex (w.ReverseEdgeIndex e) = w.StartVertex e := by
  rw [h.numberOfEdges] at he
  simp only [h.startVertex, h.endVertex, builtEdge_startVertex, builtEdge_endVertex]
  unfold WindfarmResidual.ReverseEdgeIndex
  rw [h.numberOfOriginalEdges, h.numberOfSubstations]
  constructor
  · split_ifs <;> first | omega | rfl | (congr 2; omega) | (congr 1; omega)
  · split_ifs <;> first | omega | rfl | (congr 2; omega) | (congr 1; omega)

theorem mem_outgoingEdges_iff (h : Built inst w) (v e : Nat) :
    e ∈ w.OutgoingEdges v ↔ e < w.NumberOfEdges ∧ w.StartVertex e = v := by
  rw [h.outgoingEdges, h.numberOfEdges, h.startVertex]
  exact mem_builtOut_iff inst v e

theorem outgoingEdges_nodup (h : Built inst w) (v : Nat) : (w.OutgoingEdges v).Nodup := by
  rw [h.outgoingEdges]
  exact builtOut_nodup inst v

theorem edge_cases (h : Built inst w) (e : Nat) (he : e < w.NumberOfEdges) :
    (e < 2 * inst.edges.length ∧ w.StartVertex e < inst.nodes.length
        ∧ w.EndVertex e < inst.nodes.length)
      ∨ (∃ i, i < inst.substations.length ∧ e = 2 * inst.edges.length + i
          ∧ w.StartVertex e = inst.substations.getD i 0 ∧ w.EndVertex e = inst.nodes.length)
      ∨ (∃ i, i < inst.substations.length
          ∧ e = 2 * inst.edges.length + inst.substations.length + i
          ∧ w.StartVertex e = inst.nodes.length
          ∧ w.EndVertex e = inst.substations.getD i 0) := by
  rw [h.numberOfEdges] at he
  rw [h.startVertex, h.endVertex, builtEdge_startVertex, builtEdge_endVertex]
  by_cases c1 : e < inst.edges.length
  · left
    rw [if_pos c1, if_pos c1]
    exact ⟨by omega, (h.ends e c1).1, (h.ends e c1).2⟩
  · by_cases c2 : e < 2 * inst.edges.length
    · left
      rw [if_neg c1, if_pos c2, if_neg c1, if_pos c2]
      have := h.ends (e - inst.edges.length) (by omega)
      exact ⟨c2, this.2, this.1⟩
    · by_cases c3 : e < 2 * inst.edges.length + inst.substations.length
      · right; left
        refine ⟨e - 2 * inst.edges.length, by omega, by omega, ?_, ?_⟩
        · rw [if_neg c1, if_neg c2, if_pos c3]
        · rw [if_neg c1, if_neg c2, if_pos c3]
      · right; right
        refine ⟨e - 2 * inst.edges.length - inst.substations.length, by omega, by omega, ?_, ?_⟩
        · rw [if_neg c1, if_neg c2, if_neg c3, if_pos he]
        · rw [if_neg c1, if_neg c2, if_neg c3, if_pos he]

theorem reverseEdgeIndex_drain (h : Built inst w) (i : Nat) (_hi : i < inst.substations.length) :
    w.ReverseEdgeIndex (2 * inst.edges.length + inst.substations.length + i)
      = 2 * inst.edges.length + i := by
  unfold WindfarmResidual.ReverseEdgeIndex
  rw [h.numberOfOriginalEdges, h.numberOfSubstations, if_neg (by omega), if_neg (by omega),
    if_neg (by omega)]
  omega

end Built

theorem isSuperSubstation_false_of_isSubstation (w : WindfarmResidual) (v : Nat)
    (h : w.IsSubstation v = true) : w.IsSuperSubstation v = false := by
  unfold WindfarmResidual.IsSubstation at h
  unfold WindfarmResidual.IsSuperSubstation
  simp only [decide_eq_true_eq] at h
  simp [h]

theorem isSuperSubstation_false_of_isTurbine (w : WindfarmResidual) (v : Nat)
    (h : w.IsTurbine v = true) : w.IsSuperSubstation v = false := by
  unfold WindfarmResidual.IsTurbine at h
  unfold WindfarmResidual.IsSuperSubstation
  simp only [decide_eq_true_eq] at h
  simp [h]

end wcp

namespace wcp

/-! ## Claims about the flow on edges and reverse edges -/

theorem foldl_apply_isStateOf (ops : List FlowOp) (w0 : WindfarmResidual) :
    (ops.foldl FlowOp.apply w0).IsStateOf w0 := by
  induction ops generalizing w0 with
  | nil => exact WindfarmResidual.IsStateOf_refl w0
  | cons op ops ih =>
    rw [List.foldl_cons]
    refine WindfarmResidual.IsStateOf_trans (ih _) ?_
    cases op with
    | set e f => exact WindfarmResidual.SetFlowOnEdge_isStateOf w0 e f
    | add e d => exact WindfarmResidual.AddFlowOnEdge_isStateOf w0 e d

theorem triangle_ofInstance :
    WindfarmResidual.ofInstance triangleInstance
      = some (triangleGraph [0, 0, 0, 0] [0, 0, 0, 0, 0, 0, 0, 0]) := by
  rfl

theorem triangle_create :
    Instance.create triangleInstance.nodes triangleInstance.edges [5, 8, 12, 15] [20, 25, 27, 41]
      = some triangleInstance := by
  decide

theorem triangle_isStateOf (flow : List Int) (costs : List (WithTop ℚ))
    (hf : flow.length = 4) (hc : costs.length = 8) :
    (triangleGraph flow costs).IsStateOf (triangleGraph [0, 0, 0, 0] [0, 0, 0, 0, 0, 0, 0, 0]) :=
  ⟨rfl, rfl, rfl, rfl, rfl, rfl, rfl, rfl, rfl, hf, hc⟩

/-- C1: in every residual graph with `M` original edges and `S` substations, and in every
flow state reached from the all-zero flow by calls of `SetFlowOnEdge` and `AddFlowOnEdge`
on edges in `[0, 2M + 2S)`, the flow on an edge is the negated flow on its reverse edge. -/
theorem flow_antisymmetric_of_reachable (w0 : WindfarmResidual)
    (_hzero : w0.flowValues
      = List.replicate (w0.NumberOfOriginalEdges + w0.NumberOfSubstations) 0)
    (ops : List FlowOp)
    (_hops : ∀ op ∈ ops,
      op.edge < 2 * w0.NumberOfOriginalEdges + 2 * w0.NumberOfSubstations)
    (e : Nat) (he : e < 2 * w0.NumberOfOriginalEdges + 2 * w0.NumberOfSubstations) :
    (ops.foldl FlowOp.apply w0).FlowOnEdge e
      = -(ops.foldl FlowOp.apply w0).FlowOnEdge
          ((ops.foldl FlowOp.apply w0).ReverseEdgeIndex e) := by
  obtain ⟨_, a2, _, a4, _⟩ := foldl_apply_isStateOf ops w0
  apply WindfarmResidual.FlowOnEdge_reverse
  show e < 2 * (ops.foldl FlowOp.apply w0).numberOfOriginalEdges
    + 2 * (ops.foldl FlowOp.apply w0).numberOfSubstations
  rw [a2, a4]
  exact he

/-- Witness of C1: after `SetFlowOnEdge(3, 1)` and `AddFlowOnEdge(6, 2)` on the triangle,
the flow on edge 0 is `-1`, the negated flow on its reverse edge 3. -/
theorem flow_antisymmetric_of_reachable_witness :
    ([FlowOp.set 3 1, FlowOp.add 6 2].foldl FlowOp.apply
        (triangleGraph [0, 0, 0, 0] [])).FlowOnEdge 0 = -1
      ∧ ([FlowOp.set 3 1, FlowOp.add 6 2].foldl FlowOp.apply
          (triangleGraph [0, 0, 0, 0] [])).FlowOnEdge 0
        = -([FlowOp.set 3 1, FlowOp.add 6 2].foldl FlowOp.apply
            (triangleGraph [0, 0, 0, 0] [])).FlowOnEdge
          (([FlowOp.set 3 1, FlowOp.add 6 2].foldl FlowOp.apply
            (triangleGraph [0, 0, 0, 0] [])).ReverseEdgeIndex 0) :=
  ⟨by decide,
    flow_antisymmetric_of_reachable (triangleGraph [0, 0, 0, 0] []) (by decide)
      [FlowOp.set 3 1, FlowOp.add 6 2] (by decide) 0 (by decide)⟩

/-- C2: `ReverseEdgeIndex` is an involution on `[0, 2M + 2S)`, it maps `[0, M)` onto
`[M, 2M)` and `[2M, 2M + S)` onto `[2M + S, 2M + 2S)`, and in the graph built by the
constructor it exchanges start vertex and end vertex. -/
theorem reverseEdgeIndex_involution_ranges_endpoints :
    (∀ (w : WindfarmResidual) (e : Nat),
        e < 2 * w.NumberOfOriginalEdges + 2 * w.NumberOfSubstations →
          w.ReverseEdgeIndex (w.ReverseEdgeIndex e) = e
          ∧ (e < w.NumberOfOriginalEdges →
              w.NumberOfOriginalEdges ≤ w.ReverseEdgeIndex e
                ∧ w.ReverseEdgeIndex e < 2 * w.NumberOfOriginalEdges)
          ∧ (w.NumberOfOriginalEdges ≤ e → e < 2 * w.NumberOfOriginalEdges →
              ∃ e', e' < w.NumberOfOriginalEdges ∧ w.ReverseEdgeIndex e' = e)
          ∧ (2 * w.NumberOfOriginalEdges ≤ e →
              e < 2 * w.NumberOfOriginalEdges + w.NumberOfSubstations →
              2 * w.NumberOfOriginalEdges + w.NumberOfSubstations ≤ w.ReverseEdgeIndex e
                ∧ w.ReverseEdgeIndex e
                  < 2 * w.NumberOfOriginalEdges + 2 * w.NumberOfSubstations)
          ∧ (2 * w.NumberOfOriginalEdges + w.NumberOfSubstations ≤ e →
              ∃ e', 2 * w.NumberOfOriginalEdges ≤ e'
                ∧ e' < 2 * w.NumberOfOriginalEdges + w.NumberOfSubstations
                ∧ w.ReverseEdgeIndex e' = e))
      ∧ (∀ (inst : Instance) (w : WindfarmResidual),
          WindfarmResidual.ofInstance inst = some w →
          w.NumberOfEdges = 2 * w.NumberOfOriginalEdges + 2 * w.NumberOfSubstations
            ∧ ∀ e, e < w.NumberOfEdges →
              w.StartVertex (w.ReverseEdgeIndex e) = w.EndVertex e
                ∧ w.EndVertex (w.ReverseEdgeIndex e) = w.StartVertex e) := by
  constructor
  · intro w e he
    refine ⟨WindfarmResidual.ReverseEdgeIndex_involutive w e he, ?_, ?_, ?_, ?_⟩
    · intro h
      unfold WindfarmResidual.ReverseEdgeIndex
      rw [if_pos h]
      omega
    · intro h1 h2
      refine ⟨e - w.NumberOfOriginalEdges, by omega, ?_⟩
      unfold WindfarmResidual.ReverseEdgeIndex
      rw [if_pos (by omega)]
      omega
    · intro h1 h2
      unfold WindfarmResidual.ReverseEdgeIndex
      rw [if_neg (by omega), if_neg (by omega), if_pos h2]
      omega
    · intro h1
      refine ⟨e - w.NumberOfSubstations, by omega, by omega, ?_⟩
      unfold WindfarmResidual.ReverseEdgeIndex
      rw [if_neg (by omega), if_neg (by omega), if_pos (by omega)]
      omega
  · intro inst w hw
    have hb := (WindfarmResidual.ofInstance_spec inst w hw).1
    exact ⟨hb.numberOfEdges_eq, fun e he => hb.reverse_endpoints e he⟩

/-- Witness of C2 on the triangle: edge 1 and its reverse edge 4, drain edge 6 and its
reverse edge 7. -/
theorem reverseEdgeIndex_involution_ranges_endpoints_witness :
    (triangleGraph [0, 0, 0, 0] [0, 0, 0, 0, 0, 0, 0, 0]).ReverseEdgeIndex 1 = 4
      ∧ (triangleGraph [0, 0, 0, 0] [0, 0, 0, 0, 0, 0, 0, 0]).ReverseEdgeIndex
          ((triangleGraph [0, 0, 0, 0] [0, 0, 0, 0, 0, 0, 0, 0]).ReverseEdgeIndex 1) = 1
      ∧ (triangleGraph [0, 0, 0, 0] [0, 0, 0, 0, 0, 0, 0, 0]).StartVertex
          ((triangleGraph [0, 0, 0, 0] [0, 0, 0, 0, 0, 0, 0, 0]).ReverseEdgeIndex 6)
        = (triangleGraph [0, 0, 0, 0] [0, 0, 0, 0, 0, 0, 0, 0]).EndVertex 6 :=
  ⟨by decide,
    (reverseEdgeIndex_involution_ranges_endpoints.1
      (triangleGraph [0, 0, 0, 0] [0, 0, 0, 0, 0, 0, 0, 0]) 1 (by decide)).1,
    ((reverseEdgeIndex_involution_ranges_endpoints.2 triangleInstance _
      triangle_ofInstance).2 6 (by decide)).1⟩

/-- C3: in any state of a residual graph built by the constructor, after
`SetFlowOnEdge(e, f)` on an edge `e` in `[0, 2M + 2S)` the flow on `e` is `f`, the flow on
every edge other than `e` and its reverse edge is unchanged, and setting the drain edge of
a substation `v` to `f`, or its reverse edge to `-f`, makes `FlowToSubstation(v)` equal
to `f`. -/
theorem setFlowOnEdge_effect (inst : Instance) (w0 w : WindfarmResidual)
    (h0 : WindfarmResidual.ofInstance inst = some w0) (hw : w.IsStateOf w0)
    (e : Nat) (he : e < w.NumberOfEdges) (f : Int) :
    (w.SetFlowOnEdge e f).FlowOnEdge e = f
      ∧ (∀ e', e' < w.NumberOfEdges → e' ≠ e → e' ≠ w.ReverseEdgeIndex e →
          (w.SetFlowOnEdge e f).FlowOnEdge e' = w.FlowOnEdge e')
      ∧ (∀ v, v ∈ w.Substations →
          (w.SetFlowOnEdge (w.EdgeToSupersubstation v) f).FlowToSubstation v = f
            ∧ (w.SetFlowOnEdge (w.ReverseEdgeIndex (w.EdgeToSupersubstation v))
                (-f)).FlowToSubstation v = f) := by
  have hb : Built inst w :=
    WindfarmResidual.Built_of_isStateOf inst w w0 (WindfarmResidual.ofInstance_spec inst w0 h0).1 hw
  have hlen := hb.flowValues_length
  have hE := hb.numberOfEdges_eq
  rw [hE] at he
  refine ⟨?_, ?_, ?_⟩
  · rw [WindfarmResidual.FlowOnEdge_SetFlowOnEdge w e e f hlen he he, if_pos rfl]
  · intro e' he' h1 h2
    rw [hE] at he'
    rw [WindfarmResidual.FlowOnEdge_SetFlowOnEdge w e e' f hlen he he', if_neg h1, if_neg h2]
  · intro v hv
    rw [hb.substations_eq] at hv
    obtain ⟨i, hi, hiv⟩ := List.getElem_of_mem hv
    have hv' : v = inst.substations.getD i 0 := by
      rw [getD_eq_getElem_of_lt _ _ _ hi, hiv]
    have hd : w.EdgeToSupersubstation v = 2 * inst.edges.length + i := by
      rw [hv']; exact hb.edgeToSupersubstation i hi
    have hdlt : w.EdgeToSupersubstation v
        < 2 * w.NumberOfOriginalEdges + 2 * w.NumberOfSubstations := by
      rw [hd, hb.numberOfOriginalEdges, hb.numberOfSubstations]; omega
    have hrlt := WindfarmResidual.ReverseEdgeIndex_lt w _ hdlt
    have key : ∀ (e1 : Nat) (g : Int),
        (w.SetFlowOnEdge e1 g).EdgeToSupersubstation v = w.EdgeToSupersubstation v := by
      intro e1 g
      rw [WindfarmResidual.SetFlowOnEdge_eq]
      rfl
    constructor
    · unfold WindfarmResidual.FlowToSubstation
      rw [key, WindfarmResidual.FlowOnEdge_SetFlowOnEdge w _ _ f hlen hdlt hdlt, if_pos rfl]
    · unfold WindfarmResidual.FlowToSubstation
      rw [key, WindfarmResidual.FlowOnEdge_SetFlowOnEdge w _ _ (-f) hlen hrlt hdlt,
        if_neg (WindfarmResidual.ReverseEdgeIndex_ne w _ hdlt).symm,
        if_pos (WindfarmResidual.ReverseEdgeIndex_involutive w _ hdlt).symm, neg_neg]

/-- Witness of C3 on the triangle with flow `[1, 1, 0, 2]`: setting the reverse drain
edge 7 to `-3` makes the flow to substation 2 equal to 3. -/
theorem setFlowOnEdge_effect_witness :
    (triangleGraph [1, 1, 0, 2] [0, 0, 0, 0, 0, 0, 0, 0]).EdgeToSupersubstation 2 = 6
      ∧ ((triangleGraph [1, 1, 0, 2] [0, 0, 0, 0, 0, 0, 0, 0]).SetFlowOnEdge
          ((triangleGraph [1, 1, 0, 2] [0, 0, 0, 0, 0, 0, 0, 0]).ReverseEdgeIndex
            ((triangleGraph [1, 1, 0, 2] [0, 0, 0, 0, 0, 0, 0, 0]).EdgeToSupersubstation 2))
          (-3)).FlowToSubstation 2 = 3 :=
  ⟨by decide,
    ((setFlowOnEdge_effect triangleInstance _ (triangleGraph [1, 1, 0, 2] [0, 0, 0, 0, 0, 0, 0, 0])
      triangle_ofInstance (triangle_isStateOf _ _ rfl rfl) 7 (by decide) 3).2.2 2
      (by decide)).2⟩

end wcp

namespace wcp

/-! ## Cable types: the checks of the constructors -/

namespace Cabletypes

theorem foldl_range'_inv {σ : Type} (P : Nat → σ → Prop) (f : σ → Nat → σ) (s0 : σ) (n : Nat)
    (h0 : P 0 s0) (hstep : ∀ k s, k < n → P k s → P (k + 1) (f s (k + 1))) :
    ∀ k, k ≤ n → P k ((List.range' 1 k).foldl f s0) := by
  intro k
  induction k with
  | zero => intro _; simpa using h0
  | succ k ih =>
    intro hk
    rw [List.range'_concat, List.foldl_append]
    simp only [one_mul, List.foldl_cons, List.foldl_nil]
    rw [Nat.add_comm 1 k]
    exact hstep k _ (by omega) (ih (by omega))

theorem IsStrictlyIncreasing_iff (v : List Int) :
    IsStrictlyIncreasing v = true ↔
      ∀ i, 1 ≤ i → i < v.length → v.getD (i - 1) 0 < v.getD i 0 := by
  unfold IsStrictlyIncreasing
  rw [List.all_eq_true]
  constructor
  · intro h i h1 h2
    have := h i (List.mem_range'_1.mpr ⟨h1, by omega⟩)
    simpa [-List.getD_eq_getElem?_getD] using this
  · intro h i hi
    rw [List.mem_range'_1] at hi
    have := h i hi.1 (by omega)
    simpa [-List.getD_eq_getElem?_getD] using this

theorem adjacent_lt_imp (v : List Int)
    (h : ∀ i, 1 ≤ i → i < v.length → v.getD (i - 1) 0 < v.getD i 0) :
    ∀ d i, i + d + 1 < v.length → v.getD i 0 < v.getD (i + d + 1) 0 := by
  intro d
  induction d with
  | zero =>
    intro i hi
    have := h (i + 1) (by omega) (by omega)
    simpa using this
  | succ d ih =>
    intro i hi
    have h1 := ih i (by omega)
    have h2 := h (i + d + 1 + 1) (by omega) (by omega)
    simp only [Nat.add_sub_cancel] at h2
    exact lt_trans h1 h2

theorem IsStrictlyIncreasing_iff_strictlyIncreasing (v : List Int) :
    IsStrictlyIncreasing v = true ↔ StrictlyIncreasing v := by
  rw [IsStrictlyIncreasing_iff]
  unfold StrictlyIncreasing
  rw [List.pairwise_iff_getElem]
  constructor
  · intro h i j hi hj hij
    have := adjacent_lt_imp v h (j - i - 1) i (by omega)
    have e : i + (j - i - 1) + 1 = j := by omega
    rw [e, getD_eq_getElem_of_lt _ _ _ hi, getD_eq_getElem_of_lt _ _ _ hj] at this
    exact this
  · intro h i h1 h2
    rw [getD_eq_getElem_of_lt _ _ _ (by omega : i - 1 < v.length),
      getD_eq_getElem_of_lt _ _ _ h2]
    exact h (i - 1) i (by omega) h2 (by omega)

theorem IsIncreasingFromMidpoint_iff (E : List Int) :
    IsIncreasingFromMidpoint E = true ↔
      ∀ k, k < E.length / 2 →
        E.getD (E.length / 2 + k) 0 ≤ E.getD (E.length / 2 + k + 1) 0
          ∧ E.getD (E.length / 2 - k) 0 ≤ E.getD (E.length / 2 - k - 1) 0 := by
  unfold IsIncreasingFromMidpoint
  simp only []
  rw [List.all_eq_true]
  constructor
  · intro h k hk
    have := h k (List.mem_range.mpr hk)
    simpa [-List.getD_eq_getElem?_getD] using this
  · intro h k hk
    rw [List.mem_range] at hk
    have := h k hk
    simpa [-List.getD_eq_getElem?_getD] using this

theorem nonDecreasingFromMidpoint_of_adjacent (E : List Int) (hodd : E.length % 2 = 1)
    (h : ∀ k, k < E.length / 2 →
        E.getD (E.length / 2 + k) 0 ≤ E.getD (E.length / 2 + k + 1) 0
          ∧ E.getD (E.length / 2 - k) 0 ≤ E.getD (E.length / 2 - k - 1) 0) :
    NonDecreasingFromMidpoint E := by
  have hr : ∀ d i, E.length / 2 ≤ i → i + d < E.length → E.getD i 0 ≤ E.getD (i + d) 0 := by
    intro d
    induction d with
    | zero => intro i _ _; exact le_rfl
    | succ d ih =>
      intro i h1 h2
      have h3 := ih i h1 (by omega)
      have h4 := (h (i + d - E.length / 2) (by omega)).1
      have e1 : E.length / 2 + (i + d - E.length / 2) = i + d := by omega
      rw [e1] at h4
      exact le_trans h3 h4
  have hl : ∀ d j, j + d ≤ E.length / 2 → E.getD (j + d) 0 ≤ E.getD j 0 := by
    intro d
    induction d with
    | zero => intro j _; exact le_rfl
    | succ d ih =>
      intro j h1
      have h3 := ih (j + 1) (by omega)
      have h4 := (h (E.length / 2 - (j + 1)) (by omega)).2
      have e1 : E.length / 2 - (E.length / 2 - (j + 1)) = j + 1 := by omega
      have e2 : j + 1 - 1 = j := by omega
      rw [e1, e2] at h4
      have e3 : j + 1 + d = j + (d + 1) := by omega
      rw [e3] at h3
      exact le_trans h3 h4
  intro i j hij hj
  constructor
  · intro hi
    have := hr (j - i) i hi (by omega)
    have e : i + (j - i) = j := by omega
    rw [e] at this
    exact this
  · intro hjm
    have := hl (j - i) i (by omega)
    have e : i + (j - i) = j := by omega
    rw [e] at this
    exact this

theorem IsIncreasingFromMidpoint_imp (E : List Int) (hodd : E.length % 2 = 1)
    (h : IsIncreasingFromMidpoint E = true) : NonDecreasingFromMidpoint E :=
  nonDecreasingFromMidpoint_of_adjacent E hodd ((IsIncreasingFromMidpoint_iff E).mp h)

/-- C7: the constructor from breakpoints fails whenever the capacities or the costs are
not strictly increasing, and the constructor from an expanded vector fails whenever the
vector has even length or is not non-decreasing from the midpoint outward. -/
theorem constructors_fail_on_invalid_input :
    (∀ caps costs : List Int, ¬ StrictlyIncreasing caps ∨ ¬ StrictlyIncreasing costs →
        ofBreakpoints caps costs = none)
      ∧ (∀ E : List Int, E.length % 2 = 0 ∨ ¬ NonDecreasingFromMidpoint E →
          ofExpanded E = none) := by
  constructor
  · intro caps costs h
    unfold ofBreakpoints
    simp only []
    cases hm : caps[costs.length - 1]? with
    | none => split_ifs <;> rfl
    | some m =>
      simp only []
      split_ifs with h1 h2 h3 h4 h5
      · rfl
      · rfl
      · rfl
      · rfl
      · rfl
      · exfalso
        have c1 : IsStrictlyIncreasing costs = true := by simpa using h4
        have c2 : IsStrictlyIncreasing caps = true := by simpa using h5
        rcases h with h | h
        · exact h ((IsStrictlyIncreasing_iff_strictlyIncreasing caps).mp c2)
        · exact h ((IsStrictlyIncreasing_iff_strictlyIncreasing costs).mp c1)
  · intro E h
    unfold ofExpanded
    simp only []
    split_ifs with h1 h2 h3
    · rfl
    · rfl
    · rfl
    · exfalso
      have c1 : IsIncreasingFromMidpoint E = true := by simpa using h3
      have hodd : E.length % 2 = 1 := by
        by_contra hc
        exact h1 hc
      rcases h with h | h
      · omega
      · exact h (IsIncreasingFromMidpoint_imp E hodd c1)

/-- Witness of C7: the capacities `[5, 5]` are not strictly increasing and the vector
`[1, 0, 2, 1, 3]` decreases on the way out, so both constructors fail. -/
theorem constructors_fail_on_invalid_input_witness :
    ofBreakpoints [5, 5] [20, 25] = none ∧ ofExpanded [1, 0, 2, 1, 3] = none :=
  ⟨constructors_fail_on_invalid_input.1 [5, 5] [20, 25] (Or.inl (by
      unfold StrictlyIncreasing; decide)),
    constructors_fail_on_invalid_input.2 [1, 0, 2, 1, 3] (Or.inr (by
      intro h
      have := (h 2 3 (by decide) (by decide)).1 (by decide)
      exact absurd this (by decide)))⟩

/-! ## Cable types: the expansion of breakpoints -/

theorem getD_fill_step (E : List Int) (m i j : Nat) (c : Int) (hlen : E.length = 2 * m + 1)
    (hi : i ≤ m) :
    ((E.set (m + i) c).set (m - i) c).getD j 0
      = if j = m - i ∨ j = m + i then c else E.getD j 0 := by
  rw [getD_set_eq, getD_set_eq, List.length_set, hlen]
  by_cases h1 : m - i = j
  · rw [if_pos h1, if_pos (by omega), if_pos (Or.inl h1.symm)]
  · rw [if_neg h1]
    by_cases h2 : m + i = j
    · rw [if_pos h2, if_pos (by omega), if_pos (Or.inr h2.symm)]
    · rw [if_neg h2, if_neg (by omega)]

theorem getLastD_eq_getD (caps : List Int) (_hne : caps ≠ []) :
    caps.getLastD 0 = caps.getD (caps.length - 1) 0 := by
  rw [List.getLastD_eq_getLast?, List.getLast?_eq_getElem?, List.getD_eq_getElem?_getD]

theorem strictlyIncreasing_getD_lt (v : List Int) (h : StrictlyIncreasing v) (i j : Nat)
    (hij : i < j) (hj : j < v.length) : v.getD i 0 < v.getD j 0 := by
  unfold StrictlyIncreasing at h
  rw [List.pairwise_iff_getElem] at h
  rw [getD_eq_getElem_of_lt _ _ _ (by omega : i < v.length), getD_eq_getElem_of_lt _ _ _ hj]
  exact h i j (by omega) hj hij

theorem strictlyIncreasing_getD_le (v : List Int) (h : StrictlyIncreasing v) (i j : Nat)
    (hij : i ≤ j) (hj : j < v.length) : v.getD i 0 ≤ v.getD j 0 := by
  rcases Nat.lt_or_eq_of_le hij with h1 | h1
  · exact le_of_lt (strictlyIncreasing_getD_lt v h i j h1 hj)
  · subst h1; exact le_rfl

theorem minCableIndex_spec (caps : List Int) (k : Int) (hne : caps ≠ [])
    (hk : k ≤ caps.getLastD 0) :
    minCableIndex caps k < caps.length
      ∧ k ≤ caps.getD (minCableIndex caps k) 0
      ∧ ∀ i, i < minCableIndex caps k → caps.getD i 0 < k := by
  have hpos : 0 < caps.length := List.length_pos.mpr hne
  have hlt : minCableIndex caps k < caps.length := by
    unfold minCableIndex
    rw [List.findIdx_lt_length]
    refine ⟨caps.getD (caps.length - 1) 0, ?_, ?_⟩
    · rw [getD_eq_getElem_of_lt _ _ _ (by omega)]
      exact List.getElem_mem _
    · rw [← getLastD_eq_getD caps hne]
      simpa using hk
  refine ⟨hlt, ?_, ?_⟩
  · rw [getD_eq_getElem_of_lt _ _ _ hlt]
    have := @List.findIdx_getElem _ (fun c => decide (k ≤ c)) caps hlt
    simpa using this
  · intro i hi
    rw [getD_eq_getElem_of_lt _ _ _ (by omega)]
    have := @List.not_of_lt_findIdx _ (fun c => decide (k ≤ c)) caps i hi
    simpa using this

theorem minCableIndex_eq (caps : List Int) (k : Int) (j : Nat) (hj : j < caps.length)
    (h1 : k ≤ caps.getD j 0) (h2 : ∀ i, i < j → caps.getD i 0 < k) :
    minCableIndex caps k = j := by
  unfold minCableIndex
  rw [List.findIdx_eq hj]
  constructor
  · rw [getD_eq_getElem_of_lt _ _ _ hj] at h1
    simpa using h1
  · intro i hi
    have := h2 i hi
    rw [getD_eq_getElem_of_lt _ _ _ (by omega)] at this
    simpa using this

/-- Loop invariant of `FillExpandedCosts` after the iterations `i = 1 .. n`, for
capacities that are not negative. -/
theorem fill_inv_expansion (caps costs : List Int) (m : Nat) (hne : caps ≠ [])
    (hcaps : StrictlyIncreasing caps) (hm : (m : Int) = caps.getLastD 0)
    (h0 : ∀ c ∈ caps, 0 ≤ c) :
    ∀ n, n ≤ m →
      let st := (List.range' 1 n).foldl (FillExpandedCostsStep caps costs m)
        (0, (List.replicate (2 * m + 1) (0 : Int)).set m 0)
      st.2.length = 2 * m + 1 ∧ st.1 = minCableIndex caps n ∧ st.2.getD m 0 = 0
        ∧ ∀ k, 1 ≤ k → k ≤ n →
            st.2.getD (m + k) 0 = costs.getD (minCableIndex caps k) 0
              ∧ st.2.getD (m - k) 0 = costs.getD (minCableIndex caps k) 0 := by
  have hpos : 0 < caps.length := List.length_pos.mpr hne
  refine foldl_range'_inv
    (fun n st => st.2.length = 2 * m + 1 ∧ st.1 = minCableIndex caps n ∧ st.2.getD m 0 = 0
        ∧ ∀ k, 1 ≤ k → k ≤ n →
            st.2.getD (m + k) 0 = costs.getD (minCableIndex caps k) 0
              ∧ st.2.getD (m - k) 0 = costs.getD (minCableIndex caps k) 0)
    (FillExpandedCostsStep caps costs m) _ m ?_ ?_
  · refine ⟨by simp, ?_, ?_, ?_⟩
    · symm
      apply minCableIndex_eq caps _ 0 hpos
      · rw [getD_eq_getElem_of_lt _ _ _ hpos]
        exact h0 _ (List.getElem_mem _)
      · intro i hi; omega
    · rw [getD_set_eq, getD_replicate_eq]
      split_ifs <;> rfl
    · intro k h1 h2; omega
  · rintro n ⟨s, E⟩ hn ⟨hlen, hs, hmid, hE⟩
    simp only at hlen hs hmid hE
    have hnK : ((n + 1 : Nat) : Int) ≤ caps.getLastD 0 := by rw [← hm]; exact_mod_cast hn
    have hnK' : (n : Int) ≤ caps.getLastD 0 := by push_cast at hnK; omega
    obtain ⟨b1, b2, b3⟩ := minCableIndex_spec caps n hne hnK'
    rw [← hs] at b1 b2 b3
    have hstep : (if ((n + 1 : Nat) : Int) > caps.getD s 0 then s + 1 else s)
        = minCableIndex caps ((n + 1 : Nat) : Int) := by
      symm
      split_ifs with hc
      · have hsK : s ≠ caps.length - 1 := by
          intro heq
          rw [getLastD_eq_getD caps hne, ← heq] at hnK
          omega
        apply minCableIndex_eq caps _ (s + 1) (by omega)
        · have := strictlyIncreasing_getD_lt caps hcaps s (s + 1) (by omega) (by omega)
          push_cast
          omega
        · intro i hi
          rcases Nat.lt_or_eq_of_le (Nat.lt_succ_iff.mp hi) with h1 | h1
          · have := b3 i h1
            push_cast
            omega
          · subst h1
            push_cast at hc ⊢
            omega
      · apply minCableIndex_eq caps _ s b1
        · omega
        · intro i hi
          have := b3 i hi
          push_cast
          omega
    unfold FillExpandedCostsStep
    simp only []
    refine ⟨by simp [hlen], hstep, ?_, ?_⟩
    · rw [getD_fill_step E m (n + 1) m _ hlen hn, if_neg (by omega)]
      exact hmid
    · intro k h1 h2
      rw [getD_fill_step E m (n + 1) (m + k) _ hlen hn,
        getD_fill_step E m (n + 1) (m - k) _ hlen hn]
      by_cases hk : k = n + 1
      · subst hk
        rw [if_pos (Or.inr rfl), if_pos (Or.inl rfl), hstep]
        exact ⟨rfl, rfl⟩
      · rw [if_neg (by omega), if_neg (by omega)]
        exact hE k h1 (by omega)

theorem ofBreakpoints_eq (caps costs : List Int) (hlen : caps.length = costs.length)
    (hne : caps ≠ []) (hcaps : StrictlyIncreasing caps) (hcosts : StrictlyIncreasing costs)
    (hK : 0 ≤ caps.getLastD 0) :
    ofBreakpoints caps costs = some
      { numberOfCables := costs.length
        vectorOfCapacities := caps
        vectorOfCosts := costs
        maximumCableCapacity := caps.getLastD 0
        vectorOfCostsExpanded :=
          FillExpandedCosts caps costs
            (List.replicate (2 * (caps.getLastD 0).toNat + 1) 0)
        isGivenByRealCables := true } := by
  have hpos : 0 < caps.length := List.length_pos.mpr hne
  have hget : caps[costs.length - 1]? = some (caps.getLastD 0) := by
    rw [getLastD_eq_getD caps hne, ← hlen, getD_eq_getElem_of_lt _ _ _ (by omega)]
    exact List.getElem?_eq_getElem (by omega)
  have h1 : IsStrictlyIncreasing costs = true :=
    (IsStrictlyIncreasing_iff_strictlyIncreasing costs).mpr hcosts
  have h2 : IsStrictlyIncreasing caps = true :=
    (IsStrictlyIncreasing_iff_strictlyIncreasing caps).mpr hcaps
  have h3 : (2 * caps.getLastD 0 + 1).toNat = 2 * (caps.getLastD 0).toNat + 1 := by omega
  unfold ofBreakpoints
  simp only [hget]
  rw [if_neg (by omega), if_neg (by omega), if_neg (by simp [hlen]), if_neg (by simp [h1]),
    if_neg (by simp [h2]), h3]

theorem FillExpandedCosts_replicate (caps costs : List Int) (m : Nat) :
    FillExpandedCosts caps costs (List.replicate (2 * m + 1) 0)
      = ((List.range' 1 m).foldl (FillExpandedCostsStep caps costs m)
          (0, (List.replicate (2 * m + 1) (0 : Int)).set m 0)).2 := by
  unfold FillExpandedCosts
  have : (List.replicate (2 * m + 1) (0 : Int)).length / 2 = m := by
    rw [List.length_replicate]; omega
  simp only [this]

/-- C4, amended: for equal-length, non-empty, strictly increasing vectors of breakpoints
whose capacities are not negative, the constructor succeeds and its expanded vector has
`2 c_K + 1` entries, `0` in the middle and `E[mid + k] = E[mid - k] = p_j` with
`j = min {i : c_i ≥ k}` for every `k` in `[1, c_K]`. -/
theorem expansion_of_nonnegative_breakpoints (caps costs : List Int)
    (hlen : caps.length = costs.length) (hne : caps ≠ [])
    (hcaps : StrictlyIncreasing caps) (hcosts : StrictlyIncreasing costs)
    (h0 : ∀ c ∈ caps, 0 ≤ c) :
    ∃ ct, ofBreakpoints caps costs = some ct ∧ IsExpansionOf ct.ExpandedCosts caps costs := by
  have hpos : 0 < caps.length := List.length_pos.mpr hne
  have hK : 0 ≤ caps.getLastD 0 := by
    rw [getLastD_eq_getD caps hne, getD_eq_getElem_of_lt _ _ _ (by omega)]
    exact h0 _ (List.getElem_mem _)
  refine ⟨_, ofBreakpoints_eq caps costs hlen hne hcaps hcosts hK, ?_⟩
  have hm : (((caps.getLastD 0).toNat : Nat) : Int) = caps.getLastD 0 := Int.toNat_of_nonneg hK
  obtain ⟨a1, _, a3, a4⟩ :=
    fill_inv_expansion caps costs (caps.getLastD 0).toNat hne hcaps hm h0 _ le_rfl
  unfold ExpandedCosts
  simp only []
  rw [FillExpandedCosts_replicate]
  refine ⟨?_, a3, ?_⟩
  · rw [a1]; push_cast; omega
  · intro k h1 h2
    exact a4 k h1 (by omega)

/-- Witness of C4 (amended): the default breakpoints. -/
theorem expansion_of_nonnegative_breakpoints_witness :
    ∃ ct, ofBreakpoints [5, 8, 12, 15] [20, 25, 27, 41] = some ct
      ∧ IsExpansionOf ct.ExpandedCosts [5, 8, 12, 15] [20, 25, 27, 41] :=
  expansion_of_nonnegative_breakpoints [5, 8, 12, 15] [20, 25, 27, 41] (by decide) (by decide)
    (by unfold StrictlyIncreasing; decide) (by unfold StrictlyIncreasing; decide) (by decide)

/-- Counterexample to C4 as stated: `caps = [-1, 0, 1]` and `costs = [1, 2, 3]` are
equal-length, non-empty and strictly increasing, the constructor succeeds with the
expanded vector `[2, 0, 2]`, but `min {i : c_i ≥ 1}` is the third cable, of cost 3. -/
theorem expansion_fails_for_negative_capacities :
    [(-1 : Int), 0, 1].length = [(1 : Int), 2, 3].length
      ∧ [(-1 : Int), 0, 1] ≠ []
      ∧ StrictlyIncreasing [-1, 0, 1] ∧ StrictlyIncreasing [1, 2, 3]
      ∧ ∃ ct, ofBreakpoints [-1, 0, 1] [1, 2, 3] = some ct
          ∧ ct.ExpandedCosts = [2, 0, 2]
          ∧ ¬ IsExpansionOf ct.ExpandedCosts [-1, 0, 1] [1, 2, 3] := by
  refine ⟨by decide, by decide, by unfold StrictlyIncreasing; decide,
    by unfold StrictlyIncreasing; decide,
    ⟨3, [-1, 0, 1], [1, 2, 3], 1, [2, 0, 2], true⟩, by decide, by decide, ?_⟩
  intro h
  have := (h.2.2 1 (by decide) (by decide)).1
  exact absurd this (by decide)

/-- Loop invariant of `FillExpandedCosts` after the iterations `i = 1 .. n`, for a
smallest cost that is not negative. -/
theorem fill_inv_shape (caps costs : List Int) (m : Nat) (hlen : caps.length = costs.length)
    (hne : caps ≠ []) (hcosts : StrictlyIncreasing costs) (hm : (m : Int) = caps.getLastD 0)
    (hp : 0 ≤ costs.getD 0 0) :
    ∀ n, n ≤ m →
      let st := (List.range' 1 n).foldl (FillExpandedCostsStep caps costs m)
        (0, (List.replicate (2 * m + 1) (0 : Int)).set m 0)
      st.2.length = 2 * m + 1 ∧ st.1 < caps.length ∧ st.2.getD m 0 = 0
        ∧ (∀ k, k ≤ n → st.2.getD (m + k) 0 = st.2.getD (m - k) 0)
        ∧ (∀ k, k < n → st.2.getD (m + k) 0 ≤ st.2.getD (m + k + 1) 0)
        ∧ st.2.getD (m + n) 0 ≤ costs.getD st.1 0 := by
  have hpos : 0 < caps.length := List.length_pos.mpr hne
  refine foldl_range'_inv
    (fun n st => st.2.length = 2 * m + 1 ∧ st.1 < caps.length ∧ st.2.getD m 0 = 0
        ∧ (∀ k, k ≤ n → st.2.getD (m + k) 0 = st.2.getD (m - k) 0)
        ∧ (∀ k, k < n → st.2.getD (m + k) 0 ≤ st.2.getD (m + k + 1) 0)
        ∧ st.2.getD (m + n) 0 ≤ costs.getD st.1 0)
    (FillExpandedCostsStep caps costs m) _ m ?_ ?_
  · have hz : ((List.replicate (2 * m + 1) (0 : Int)).set m 0).getD m 0 = 0 := by
      rw [getD_set_eq, getD_replicate_eq]
      split_ifs <;> rfl
    refine ⟨by simp, hpos, hz, ?_, ?_, ?_⟩
    · intro k hk
      have : k = 0 := by omega
      subst this
      rfl
    · intro k hk; omega
    · simp only [Nat.add_zero]
      rw [hz]
      exact hp
  · rintro n ⟨s, E⟩ hn ⟨hl, hs, hmid, hsym, hadj, hlast⟩
    simp only at hl hs hmid hsym hadj hlast
    have hs' : (if ((n + 1 : Nat) : Int) > caps.getD s 0 then s + 1 else s) < caps.length := by
      split_ifs with hc
      · have hsK : s ≠ caps.length - 1 := by
          intro heq
          rw [heq, ← getLastD_eq_getD caps hne, ← hm] at hc
          push_cast at hc
          omega
        omega
      · exact hs
    have hmono : costs.getD s 0
        ≤ costs.getD (if ((n + 1 : Nat) : Int) > caps.getD s 0 then s + 1 else s) 0 := by
      apply strictlyIncreasing_getD_le costs hcosts
      · split_ifs <;> omega
      · rw [← hlen]; exact hs'
    unfold FillExpandedCostsStep
    simp only []
    refine ⟨by simp [hl], hs', ?_, ?_, ?_, ?_⟩
    · rw [getD_fill_step E m (n + 1) m _ hl hn, if_neg (by omega)]
      exact hmid
    · intro k hk
      rw [getD_fill_step E m (n + 1) (m + k) _ hl hn,
        getD_fill_step E m (n + 1) (m - k) _ hl hn]
      by_cases hk' : k = n + 1
      · subst hk'
        rw [if_pos (Or.inr rfl), if_pos (Or.inl rfl)]
      · rw [if_neg (by omega), if_neg (by omega)]
        exact hsym k (by omega)
    · intro k hk
      rw [getD_fill_step E m (n + 1) (m + k) _ hl hn,
        getD_fill_step E m (n + 1) (m + k + 1) _ hl hn, if_neg (by omega)]
      by_cases hk' : k = n
      · subst hk'
        rw [if_pos (Or.inr (by omega))]
        exact le_trans hlast hmono
      · rw [if_neg (by omega)]
        exact hadj k (by omega)
    · rw [getD_fill_step E m (n + 1) (m + (n + 1)) _ hl hn, if_pos (Or.inr rfl)]

/-- C5, amended: for equal-length, non-empty, strictly increasing vectors of breakpoints
whose largest capacity and smallest cost are not negative, the constructor succeeds and
its expanded vector is symmetric about its midpoint, `0` at the midpoint and
non-decreasing from the midpoint outward in both directions. -/
theorem expanded_symmetric_zero_nondecreasing (caps costs : List Int)
    (hlen : caps.length = costs.length) (hne : caps ≠ [])
    (hcaps : StrictlyIncreasing caps) (hcosts : StrictlyIncreasing costs)
    (hK : 0 ≤ caps.getLastD 0) (hp : 0 ≤ costs.getD 0 0) :
    ∃ ct, ofBreakpoints caps costs = some ct
      ∧ SymmetricAboutMidpoint ct.ExpandedCosts
      ∧ ct.ExpandedCosts.getD (ct.ExpandedCosts.length / 2) 0 = 0
      ∧ NonDecreasingFromMidpoint ct.ExpandedCosts := by
  refine ⟨_, ofBreakpoints_eq caps costs hlen hne hcaps hcosts hK, ?_⟩
  have hm : (((caps.getLastD 0).toNat : Nat) : Int) = caps.getLastD 0 := Int.toNat_of_nonneg hK
  obtain ⟨a1, _, a3, a4, a5, _⟩ :=
    fill_inv_shape caps costs (caps.getLastD 0).toNat hlen hne hcosts hm hp _ le_rfl
  unfold ExpandedCosts
  simp only []
  rw [FillExpandedCosts_replicate]
  generalize ((List.range' 1 (caps.getLastD 0).toNat).foldl
    (FillExpandedCostsStep caps costs (caps.getLastD 0).toNat)
    (0, (List.replicate (2 * (caps.getLastD 0).toNat + 1) (0 : Int)).set
      (caps.getLastD 0).toNat 0)).2 = E at a1 a3 a4 a5
  have hmid : E.length / 2 = (caps.getLastD 0).toNat := by rw [a1]; omega
  refine ⟨?_, ?_, ?_⟩
  · intro k hk
    rw [hmid] at hk ⊢
    exact a4 k hk
  · rw [hmid]; exact a3
  · apply nonDecreasingFromMidpoint_of_adjacent E (by rw [a1]; omega)
    intro k hk
    rw [hmid] at hk ⊢
    refine ⟨a5 k hk, ?_⟩
    rw [← a4 k (by omega)]
    have := a4 (k + 1) (by omega)
    have e : (caps.getLastD 0).toNat - k - 1 = (caps.getLastD 0).toNat - (k + 1) := by omega
    rw [e, ← this]
    exact a5 k hk

/-- Witness of C5 (amended): the default breakpoints. -/
theorem expanded_symmetric_zero_nondecreasing_witness :
    ∃ ct, ofBreakpoints [5, 8, 12, 15] [20, 25, 27, 41] = some ct
      ∧ SymmetricAboutMidpoint ct.ExpandedCosts
      ∧ ct.ExpandedCosts.getD (ct.ExpandedCosts.length / 2) 0 = 0
      ∧ NonDecreasingFromMidpoint ct.ExpandedCosts :=
  expanded_symmetric_zero_nondecreasing [5, 8, 12, 15] [20, 25, 27, 41] (by decide)
    (by decide) (by unfold StrictlyIncreasing; decide) (by unfold StrictlyIncreasing; decide)
    (by decide) (by decide)

/-- Counterexample to C5 as stated: `caps = [1]` and `costs = [-1]` are equal-length,
non-empty and strictly increasing, the constructor succeeds with the expanded vector
`[-1, 0, -1]`, which decreases from the midpoint outward. -/
theorem expanded_decreases_for_negative_cost :
    [(1 : Int)].length = [(-1 : Int)].length
      ∧ [(1 : Int)] ≠ []
      ∧ StrictlyIncreasing [1] ∧ StrictlyIncreasing [-1]
      ∧ ∃ ct, ofBreakpoints [1] [-1] = some ct
          ∧ ct.ExpandedCosts = [-1, 0, -1]
          ∧ ¬ NonDecreasingFromMidpoint ct.ExpandedCosts := by
  refine ⟨by decide, by decide, by unfold StrictlyIncreasing; decide,
    by unfold StrictlyIncreasing; decide,
    ⟨1, [1], [-1], 1, [-1, 0, -1], true⟩, by decide, by decide, ?_⟩
  intro h
  have := (h 1 2 (by decide) (by decide)).1 (by decide)
  exact absurd this (by decide)

/-- C6, the code at the witness of the claim: the cable types rebuilt from the expanded
vector of the breakpoints `[5, 8, 12, 15]`, `[20, 25, 27, 41]` have four cables and the
cost breakpoints `[20, 25, 27, 41]`, but the capacity breakpoints `[1, 6, 9, 13]`. -/
theorem roundtrip_capacity_breakpoints_differ :
    ∃ ct ct', ofBreakpoints [5, 8, 12, 15] [20, 25, 27, 41] = some ct
      ∧ ofExpanded ct.ExpandedCosts = some ct'
      ∧ ct'.NumberOfCables = 4
      ∧ ct'.CostBreakpoints = some [20, 25, 27, 41]
      ∧ ct'.CapacityBreakpoints = some [1, 6, 9, 13]
      ∧ ct'.CapacityBreakpoints ≠ some [5, 8, 12, 15] :=
  ⟨defaultCabletypes,
    { defaultCabletypes with vectorOfCapacities := [1, 6, 9, 13] },
    by decide, by decide, by decide, by decide, by decide, by decide⟩

end Cabletypes

end wcp

namespace wcp

/-! ## Standard residual costs -/

namespace Cabletypes

theorem fill_length (caps costs : List Int) (m : Nat) :
    ∀ n, n ≤ m →
      ((List.range' 1 n).foldl (FillExpandedCostsStep caps costs m)
        (0, (List.replicate (2 * m + 1) (0 : Int)).set m 0)).2.length = 2 * m + 1 := by
  refine foldl_range'_inv (fun _ st => st.2.length = 2 * m + 1)
    (FillExpandedCostsStep caps costs m)
    (0, (List.replicate (2 * m + 1) (0 : Int)).set m 0) m (by simp) ?_
  rintro n ⟨s, E⟩ _ hl
  simp only at hl
  unfold FillExpandedCostsStep
  simp [hl]

theorem ofBreakpoints_shape (caps costs : List Int) (ct : Cabletypes)
    (h : ofBreakpoints caps costs = some ct) :
    0 ≤ ct.MaximumCapacity
      ∧ ct.ExpandedCosts.length = 2 * ct.MaximumCapacity.toNat + 1 := by
  unfold ofBreakpoints at h
  simp only [] at h
  cases hm : caps[costs.length - 1]? with
  | none =>
    rw [hm] at h
    split_ifs at h
  | some m =>
    rw [hm] at h
    simp only [] at h
    split_ifs at h with h1 h2 h3 h4 h5
    injection h with h
    subst h
    have hm0 : 0 ≤ m := by omega
    have e : (2 * m + 1).toNat = 2 * m.toNat + 1 := by omega
    refine ⟨hm0, ?_⟩
    show (FillExpandedCosts caps costs (List.replicate (2 * m + 1).toNat 0)).length = _
    rw [e, FillExpandedCosts_replicate]
    exact fill_length caps costs m.toNat _ le_rfl

theorem CostOfFlow_eq_entry (ct : Cabletypes) (h0 : 0 ≤ ct.MaximumCapacity)
    (hlen : ct.ExpandedCosts.length = 2 * ct.MaximumCapacity.toNat + 1) (x : Int)
    (h1 : -ct.MaximumCapacity ≤ x) (h2 : x ≤ ct.MaximumCapacity) :
    ct.CostOfFlow x
      = expandedEntry ct.ExpandedCosts (((ct.ExpandedCosts.length / 2 : Nat) : Int) + x) := by
  unfold CostOfFlow expandedEntry
  unfold ExpandedCosts at hlen ⊢
  rw [if_neg (by omega), if_pos]
  rw [hlen]
  have : (2 * ct.MaximumCapacity.toNat + 1) / 2 = ct.MaximumCapacity.toNat := by omega
  rw [this]
  push_cast
  omega

end Cabletypes

namespace StandardResidualCostComputer

open WindfarmResidual

theorem ResidualCosts_congr (w w' : WindfarmResidual) (e : Nat) (delta : Int)
    (h : w' = { w with residualCosts := w'.residualCosts }) :
    ResidualCosts w' e delta = ResidualCosts w e delta := by
  rw [h]
  rfl

theorem ComputeStandardResidualCosts_spec (w : WindfarmResidual) (delta : Int) :
    (ComputeStandardResidualCosts w delta)
        = { w with residualCosts := (ComputeStandardResidualCosts w delta).residualCosts }
      ∧ (ComputeStandardResidualCosts w delta).residualCosts.length = w.residualCosts.length
      ∧ ∀ e, e < w.NumberOfEdges → e < w.residualCosts.length →
          (ComputeStandardResidualCosts w delta).ResidualCostOnEdge e
            = ResidualCosts w e delta := by
  have key := WindfarmResidual.foldl_range_inv
    (fun k (w' : WindfarmResidual) =>
      w' = { w with residualCosts := w'.residualCosts }
        ∧ w'.residualCosts.length = w.residualCosts.length
        ∧ ∀ e, e < k → e < w.residualCosts.length →
            w'.ResidualCostOnEdge e = ResidualCosts w e delta)
    (fun w' edge => w'.setResidualCostOnEdge edge (ResidualCosts w' edge delta)) w
    w.NumberOfEdges ⟨rfl, rfl, fun e he => absurd he (Nat.not_lt_zero e)⟩ ?_
    w.NumberOfEdges le_rfl
  · have hN : ∀ w' : WindfarmResidual, w' = { w with residualCosts := w'.residualCosts } →
        w'.NumberOfEdges = w.NumberOfEdges := by
      intro w' hw'
      rw [hw']
      rfl
    unfold ComputeStandardResidualCosts
    exact key
  · rintro k w' hk ⟨h1, h2, h3⟩
    refine ⟨?_, ?_, ?_⟩
    · unfold setResidualCostOnEdge
      simp only []
      rw [h1]
    · simp [setResidualCostOnEdge, h2]
    · intro e he hlen
      unfold ResidualCostOnEdge setResidualCostOnEdge
      simp only []
      rw [getD_set_eq, h2]
      by_cases hek : k = e
      · subst hek
        rw [if_pos rfl, if_pos hlen]
        exact ResidualCosts_congr w w' k delta h1
      · rw [if_neg hek]
        exact h3 e (by omega) hlen

theorem ComputeStandardResidualCosts_isStateOf (w : WindfarmResidual) (delta : Int) :
    (ComputeStandardResidualCosts w delta).IsStateOf w := by
  obtain ⟨h1, h2, _⟩ := ComputeStandardResidualCosts_spec w delta
  rw [h1]
  exact ⟨rfl, rfl, rfl, rfl, rfl, rfl, rfl, rfl, rfl, rfl, h2⟩

theorem ComputeStandardResidualCosts_flowValues (w : WindfarmResidual) (delta : Int) :
    (ComputeStandardResidualCosts w delta).flowValues = w.flowValues := by
  obtain ⟨h1, _, _⟩ := ComputeStandardResidualCosts_spec w delta
  rw [h1]

end StandardResidualCostComputer

/-! ## Claims about the standard residual costs -/

theorem create_cabletypes_shape (nodes : List InstanceNode) (edges : List InstanceEdge)
    (caps costs : List Int) (inst : Instance)
    (h : Instance.create nodes edges caps costs = some inst) :
    0 ≤ inst.cabletypes.MaximumCapacity
      ∧ inst.cabletypes.ExpandedCosts.length = 2 * inst.cabletypes.MaximumCapacity.toNat + 1 := by
  unfold Instance.create at h
  cases hc : Cabletypes.ofBreakpoints caps costs with
  | none => rw [hc] at h; exact absurd h (by simp)
  | some c =>
    rw [hc] at h
    simp only [] at h
    injection h with h
    subst h
    exact Cabletypes.ofBreakpoints_shape caps costs c hc

theorem built_of_state (inst : Instance) (w0 w : WindfarmResidual)
    (h0 : WindfarmResidual.ofInstance inst = some w0) (hw : w.IsStateOf w0) : Built inst w :=
  WindfarmResidual.Built_of_isStateOf inst w w0
    (WindfarmResidual.ofInstance_spec inst w0 h0).1 hw

theorem residualCostOnEdge_computed (inst : Instance) (w : WindfarmResidual)
    (hb : Built inst w) (delta : Int) (e : Nat) (he : e < w.NumberOfEdges) :
    (StandardResidualCostComputer.ComputeStandardResidualCosts w delta).ResidualCostOnEdge e
      = StandardResidualCostComputer.ResidualCosts w e delta := by
  apply (StandardResidualCostComputer.ComputeStandardResidualCosts_spec w delta).2.2 e he
  rw [hb.lenR, ← hb.numberOfEdges]
  exact he

/-- C8, amended: in every state of a residual graph built by the constructors, for every
`Δ` and every edge `e`, `ComputeStandardResidualCosts(Δ)` stores the residual cost of the
reference definition, provided that on an edge not incident to the super substation with
`Δ ≤ R` the flows `flow(e)` and `flow(e) + Δ` lie in `[-max_cap, max_cap]`, the range of
the expanded cost vector. -/
theorem standard_residual_costs_match_reference (nodes : List InstanceNode)
    (edges : List InstanceEdge) (caps costs : List Int) (inst : Instance)
    (w0 w : WindfarmResidual)
    (hinst : Instance.create nodes edges caps costs = some inst)
    (h0 : WindfarmResidual.ofInstance inst = some w0) (hw : w.IsStateOf w0)
    (delta : Int) (e : Nat) (he : e < w.NumberOfEdges)
    (hrange : w.IsSuperSubstation (w.StartVertex e) = false →
      w.IsSuperSubstation (w.EndVertex e) = false → delta ≤ remainingCapacity w e →
        -w.cabletypes.MaximumCapacity ≤ w.FlowOnEdge e
          ∧ w.FlowOnEdge e ≤ w.cabletypes.MaximumCapacity
          ∧ -w.cabletypes.MaximumCapacity ≤ w.FlowOnEdge e + delta) :
    (StandardResidualCostComputer.ComputeStandardResidualCosts w delta).ResidualCostOnEdge e
      = referenceResidualCost w e delta := by
  have hb := built_of_state inst w0 w h0 hw
  obtain ⟨c1, c2⟩ := create_cabletypes_shape nodes edges caps costs inst hinst
  rw [← hb.base.ct] at c1 c2
  rw [residualCostOnEdge_computed inst w hb delta e he]
  unfold StandardResidualCostComputer.ResidualCosts referenceResidualCost
  simp only []
  by_cases hs : w.IsSuperSubstation (w.StartVertex e) = true
  · rw [if_pos hs, if_pos hs]
  · rw [if_neg hs, if_neg hs]
    by_cases ht : w.IsSuperSubstation (w.EndVertex e) = true
    · rw [if_pos ht, if_pos ht]
    · rw [if_neg ht, if_neg ht]
      unfold StandardResidualCostComputer.ResidualCostForNonSupersubstationEdge
      simp only []
      have hR : (if w.IsSubstation (w.StartVertex e) = true then -w.FlowOnEdge e
          else w.FreeEdgeCapacity e) = remainingCapacity w e := rfl
      rw [hR]
      by_cases hd : delta ≤ remainingCapacity w e
      · rw [if_pos hd, if_pos hd]
        obtain ⟨r1, r2, r3⟩ := hrange (by simpa using hs) (by simpa using ht) hd
        have r4 : w.FlowOnEdge e + delta ≤ w.cabletypes.MaximumCapacity := by
          unfold remainingCapacity at hd
          split_ifs at hd <;> omega
        rw [Cabletypes.CostOfFlow_eq_entry _ c1 c2 _ r3 r4,
          Cabletypes.CostOfFlow_eq_entry _ c1 c2 _ r1 r2, add_assoc]
      · rw [if_neg hd, if_neg hd]

/-- Witness of C8 (amended): edge 3 of the triangle, from the substation to turbine 0, at
`Δ = 1` with the flow `[1, 1, 0, 2]`. -/
theorem standard_residual_costs_match_reference_witness :
    (StandardResidualCostComputer.ComputeStandardResidualCosts
        (triangleGraph [1, 1, 0, 2] [0, 0, 0, 0, 0, 0, 0, 0]) 1).ResidualCostOnEdge 3
      = referenceResidualCost (triangleGraph [1, 1, 0, 2] [0, 0, 0, 0, 0, 0, 0, 0]) 3 1 :=
  standard_residual_costs_match_reference _ _ _ _ triangleInstance _
    (triangleGraph [1, 1, 0, 2] [0, 0, 0, 0, 0, 0, 0, 0]) triangle_create triangle_ofInstance
    (triangle_isStateOf _ _ rfl rfl) 1 3 (by decide) (by decide)

/-- Counterexample to C8 as stated: on the triangle with the feasible flow `[1, 1, 0, 2]`,
at `Δ = -17` the code stores `(INFINITE_COST - 20) * 10` on edge 0, whereas the position
`mid + flow(e) + Δ = -1` is outside the expanded vector `E`; the stored value is
`(x - E[mid + flow(e)]) * length(e)` for no entry `x` of `E`. -/
theorem standard_residual_costs_leave_reference :
    AssertFeasibleFlow (triangleGraph [1, 1, 0, 2] [0, 0, 0, 0, 0, 0, 0, 0]) = true
      ∧ (-17 : Int) ≤ remainingCapacity (triangleGraph [1, 1, 0, 2] [0, 0, 0, 0, 0, 0, 0, 0]) 0
      ∧ ((defaultCabletypes.ExpandedCosts.length / 2 : Nat) : Int)
          + (triangleGraph [1, 1, 0, 2] [0, 0, 0, 0, 0, 0, 0, 0]).FlowOnEdge 0 + (-17) = -1
      ∧ (StandardResidualCostComputer.ComputeStandardResidualCosts
          (triangleGraph [1, 1, 0, 2] [0, 0, 0, 0, 0, 0, 0, 0]) (-17)).ResidualCostOnEdge 0
        = ((10737418030 : ℚ) : WithTop ℚ)
      ∧ (StandardResidualCostComputer.ComputeStandardResidualCosts
          (triangleGraph [1, 1, 0, 2] [0, 0, 0, 0, 0, 0, 0, 0]) (-17)).ResidualCostOnEdge 0
        ≠ referenceResidualCost (triangleGraph [1, 1, 0, 2] [0, 0, 0, 0, 0, 0, 0, 0]) 0 (-17)
      ∧ ∀ x ∈ defaultCabletypes.ExpandedCosts,
          (StandardResidualCostComputer.ComputeStandardResidualCosts
            (triangleGraph [1, 1, 0, 2] [0, 0, 0, 0, 0, 0, 0, 0]) (-17)).ResidualCostOnEdge 0
          ≠ ((((x - 20 : Int) : ℚ) * 10 : ℚ) : WithTop ℚ) := by
  have h4 : (StandardResidualCostComputer.ComputeStandardResidualCosts
      (triangleGraph [1, 1, 0, 2] [0, 0, 0, 0, 0, 0, 0, 0]) (-17)).ResidualCostOnEdge 0
        = ((10737418030 : ℚ) : WithTop ℚ) := by
    with_unfolding_all rfl
  have h5 : referenceResidualCost (triangleGraph [1, 1, 0, 2] [0, 0, 0, 0, 0, 0, 0, 0]) 0 (-17)
      = ((-200 : ℚ) : WithTop ℚ) := by
    with_unfolding_all decide
  rw [h4, h5]
  refine ⟨by decide, by decide, by decide, rfl, by decide, ?_⟩
  have hbound : ∀ y ∈ defaultCabletypes.ExpandedCosts, y ≤ 41 := by decide
  intro x hx
  have hx' := hbound x hx
  rw [Ne, WithTop.coe_inj]
  intro h
  have h' : (10737418030 : ℚ) = (((x - 20) * 10 : Int) : ℚ) := by
    rw [h]; push_cast; ring
  have h'' : (10737418030 : Int) = (x - 20) * 10 := by exact_mod_cast h'
  omega

theorem flowOnEdge_addFlowOnEdge (inst : Instance) (w : WindfarmResidual) (hb : Built inst w)
    (e e' : Nat) (delta : Int) (he : e < w.NumberOfEdges) (he' : e' < w.NumberOfEdges) :
    (w.AddFlowOnEdge e delta).FlowOnEdge e' =
      if e' = e then w.FlowOnEdge e' + delta
      else if e' = w.ReverseEdgeIndex e then w.FlowOnEdge e' - delta
      else w.FlowOnEdge e' := by
  rw [hb.numberOfEdges_eq] at he he'
  unfold WindfarmResidual.AddFlowOnEdge
  rw [WindfarmResidual.FlowOnEdge_SetFlowOnEdge w e e' _ hb.flowValues_length he he']
  by_cases h1 : e' = e
  · subst h1; rw [if_pos rfl, if_pos rfl]
  · rw [if_neg h1, if_neg h1]
    by_cases h2 : e' = w.ReverseEdgeIndex e
    · rw [if_pos h2, if_pos h2, h2, WindfarmResidual.FlowOnEdge_reverse w e he]
      ring
    · rw [if_neg h2, if_neg h2]

/-- C9: for every feasible flow, every `Δ ≥ 1` and every edge `e`, if the flow on `e`
after adding `Δ` violates a capacity bound, then the residual cost computed for `e` at `Δ`
is `DINFTY`. -/
theorem capacity_violation_has_infinite_cost (nodes : List InstanceNode)
    (edges : List InstanceEdge) (caps costs : List Int) (inst : Instance)
    (w0 w : WindfarmResidual)
    (hinst : Instance.create nodes edges caps costs = some inst)
    (h0 : WindfarmResidual.ofInstance inst = some w0) (hw : w.IsStateOf w0)
    (_hfeas : AssertFeasibleFlow w = true) (delta : Int) (_hd : 1 ≤ delta)
    (e : Nat) (he : e < w.NumberOfEdges)
    (hv : ViolatesCapacityBound (w.AddFlowOnEdge e delta) e) :
    (StandardResidualCostComputer.ComputeStandardResidualCosts w delta).ResidualCostOnEdge e
      = ⊤ := by
  have hb := built_of_state inst w0 w h0 hw
  obtain ⟨c1, _⟩ := create_cabletypes_shape nodes edges caps costs inst hinst
  rw [← hb.base.ct] at c1
  rw [residualCostOnEdge_computed inst w hb delta e he]
  obtain ⟨t1, t2, _, t4, t5, t6, t7, _, t9, _, _, _, _, _, _, _, t17⟩ :=
    WindfarmResidual.IsStateOf_topology (WindfarmResidual.AddFlowOnEdge_isStateOf w e delta)
  have hflow : (w.AddFlowOnEdge e delta).FlowOnEdge e = w.FlowOnEdge e + delta := by
    rw [flowOnEdge_addFlowOnEdge inst w hb e e delta he he, if_pos rfl]
  unfold ViolatesCapacityBound at hv
  unfold WindfarmResidual.FlowToSubstation at hv
  simp only [t1, t2, t4, t5, t6, t7, t9, t17, hflow] at hv
  unfold StandardResidualCostComputer.ResidualCosts
  simp only []
  rcases hv with ⟨v1, v2, v3⟩ | ⟨v1, v2, v3⟩ | ⟨v1, v2, v3⟩ | ⟨v1, v2, v3⟩
  · rw [if_neg (by simp [v1]), if_neg (by simp [v2])]
    unfold StandardResidualCostComputer.ResidualCostForNonSupersubstationEdge
    simp only []
    rw [if_neg]
    unfold WindfarmResidual.FreeEdgeCapacity
    split_ifs <;> omega
  · have s1 := isSuperSubstation_false_of_isSubstation w _ v1
    have s2 := isSuperSubstation_false_of_isTurbine w _ v2
    rw [if_neg (by simp [s1]), if_neg (by simp [s2])]
    unfold StandardResidualCostComputer.ResidualCostForNonSupersubstationEdge
    simp only []
    rw [if_pos v1, if_neg (by omega)]
  · have s1 := isSuperSubstation_false_of_isSubstation w _ v1
    rw [if_neg (by simp [s1]), if_pos v2]
    rw [hb.isSuperSubstation_iff] at v2
    have hdrain : w.EdgeToSupersubstation (w.StartVertex e) = e := by
      rcases hb.edge_cases e he with ⟨_, _, k3⟩ | ⟨i, hi, k1, k2, _⟩ | ⟨i, hi, _, _, k3⟩
      · omega
      · rw [k2, hb.edgeToSupersubstation i hi, k1]
      · have := WindfarmResidual.substations_getD_lt inst i hi
        omega
    rw [hdrain, hflow] at v3
    unfold WindfarmResidual.FreeSubstationCapacity WindfarmResidual.FlowToSubstation
    rw [hdrain, if_neg (by omega)]
  · rw [if_pos v1]
    rw [hb.isSuperSubstation_iff] at v1
    have hdrain : w.EdgeToSupersubstation (w.EndVertex e) = w.ReverseEdgeIndex e := by
      rcases hb.edge_cases e he with ⟨_, k2, _⟩ | ⟨i, hi, _, k2, _⟩ | ⟨i, hi, k1, _, k3⟩
      · omega
      · have := WindfarmResidual.substations_getD_lt inst i hi
        omega
      · rw [k3, hb.edgeToSupersubstation i hi, k1, hb.reverseEdgeIndex_drain i hi]
    have he2 : e < 2 * w.NumberOfOriginalEdges + 2 * w.NumberOfSubstations := by
      rw [← hb.numberOfEdges_eq]; exact he
    have hrlt : w.ReverseEdgeIndex e < w.NumberOfEdges := by
      rw [hb.numberOfEdges_eq]; exact WindfarmResidual.ReverseEdgeIndex_lt w e he2
    rw [hdrain, flowOnEdge_addFlowOnEdge inst w hb e _ delta he hrlt,
      if_neg (WindfarmResidual.ReverseEdgeIndex_ne w e he2), if_pos rfl] at v3
    have := WindfarmResidual.FlowOnEdge_reverse w e he2
    rw [if_neg (by omega)]

/-- Witness of C9: on the triangle with the flow `[1, 1, 0, 2]`, adding `Δ = 4` to the
drain edge 6 would give the drain flow 6 above the capacity 5 of the substation. -/
theorem capacity_violation_has_infinite_cost_witness :
    ViolatesCapacityBound
        ((triangleGraph [1, 1, 0, 2] [0, 0, 0, 0, 0, 0, 0, 0]).AddFlowOnEdge 6 4) 6
      ∧ (StandardResidualCostComputer.ComputeStandardResidualCosts
          (triangleGraph [1, 1, 0, 2] [0, 0, 0, 0, 0, 0, 0, 0]) 4).ResidualCostOnEdge 6 = ⊤ :=
  ⟨Or.inr (Or.inr (Or.inl (by decide))),
    capacity_violation_has_infinite_cost _ _ _ _ triangleInstance _
      (triangleGraph [1, 1, 0, 2] [0, 0, 0, 0, 0, 0, 0, 0]) triangle_create triangle_ofInstance
      (triangle_isStateOf _ _ rfl rfl) (by decide) 4 (by decide) 6 (by decide)
      (Or.inr (Or.inr (Or.inl (by decide))))⟩

end wcp

namespace wcp

/-! ## Visited flags and the decomposition of a closed walk -/

namespace NegativeCycleCanceling

theorem marksExactly_set_true (V : List Bool) (l : List Nat) (v : Nat) (h : MarksExactly V l)
    (hv : v < V.length) : MarksExactly (V.set v true) (l ++ [v]) := by
  intro u
  rw [getD_set_eq, List.mem_append, List.mem_singleton]
  by_cases huv : v = u
  · subst huv
    rw [if_pos rfl, if_pos hv]
    simp
  · rw [if_neg huv, h u]
    constructor
    · intro hu; exact Or.inl hu
    · rintro (hu | hu)
      · exact hu
      · exact absurd hu.symm huv

theorem marksExactly_set_false (V : List Bool) (l : List Nat) (v : Nat)
    (h : MarksExactly V l) : MarksExactly (V.set v false) (l.filter fun u => decide (u ≠ v)) := by
  intro u
  rw [getD_set_eq, List.mem_filter]
  by_cases huv : v = u
  · subst huv
    rw [if_pos rfl]
    by_cases hv : v < V.length
    · rw [if_pos hv]; simp
    · rw [if_neg hv]
      have : V.getD v false = false := getD_of_length_le V v false (by omega)
      rw [this]
      simp
  · rw [if_neg huv, h u]
    have : u ≠ v := fun h' => huv h'.symm
    simp [this]

theorem findClosingEdgeLoop_spec (w : WindfarmResidual) :
    ∀ (post : List Nat) (V : List Bool) (l : List Nat) (idx : Nat),
      MarksExactly V l → (∀ e ∈ post, w.EndVertex e < V.length) →
      (∃ e ∈ post, w.EndVertex e ∈ l) →
      ∃ j V', FindClosingEdgeLoop w post V idx = some (idx + j, V')
        ∧ j < post.length ∧ V'.length = V.length
        ∧ MarksExactly V' (l ++ (post.take j).map w.EndVertex)
        ∧ (l.Nodup → (l ++ (post.take j).map w.EndVertex).Nodup)
        ∧ w.EndVertex (post.getD j 0) ∈ l ++ (post.take j).map w.EndVertex := by
  intro post
  induction post with
  | nil =>
    intro V l idx _ _ hex
    obtain ⟨e, he, _⟩ := hex
    simp at he
  | cons e rest ih =>
    intro V l idx hV hlt hex
    unfold FindClosingEdgeLoop
    by_cases hvis : IsEndVertexVisited w V e = true
    · rw [if_pos hvis]
      have hmem : w.EndVertex e ∈ l := (hV _).mp hvis
      refine ⟨0, V, rfl, by simp, rfl, by simpa using hV, ?_, ?_⟩
      · intro h; simpa using h
      · simpa using hmem
    · rw [if_neg hvis]
      have hnot : w.EndVertex e ∉ l := fun h => hvis ((hV _).mpr h)
      have hV1 := marksExactly_set_true V l (w.EndVertex e) hV (hlt e (by simp))
      have hex1 : ∃ e' ∈ rest, w.EndVertex e' ∈ l ++ [w.EndVertex e] := by
        obtain ⟨e', he', hl'⟩ := hex
        rcases List.mem_cons.mp he' with h | h
        · subst h; exact absurd hl' hnot
        · exact ⟨e', h, List.mem_append_left _ hl'⟩
      obtain ⟨j, V', h1, h2, h3, h4, h6, h7⟩ :=
        ih (SetEndVertexVisited w V e true) (l ++ [w.EndVertex e]) (idx + 1) hV1
          (by
            intro e' he'
            unfold SetEndVertexVisited
            rw [List.length_set]
            exact hlt e' (List.mem_cons_of_mem _ he'))
          hex1
      have hlist : l ++ (List.take (j + 1) (e :: rest)).map w.EndVertex
          = (l ++ [w.EndVertex e]) ++ (rest.take j).map w.EndVertex := by
        simp
      refine ⟨j + 1, V', ?_, by simp; omega, ?_, ?_, ?_, ?_⟩
      · rw [h1]; congr 2; omega
      · rw [h3]; unfold SetEndVertexVisited; simp
      · rw [hlist]; exact h4
      · intro hl
        rw [hlist]
        apply h6
        rw [List.nodup_append]
        refine ⟨hl, by simp, ?_⟩
        intro x hx1 hx2
        simp only [List.mem_singleton] at hx2
        subst hx2
        exact hnot hx1
      · rw [hlist]
        simpa using h7

theorem chain_map_end (w : WindfarmResidual) :
    ∀ (x : Nat) (xs : List Nat),
      List.Chain' (fun a b => w.EndVertex a = w.StartVertex b) (x :: xs) →
      (x :: xs).map w.EndVertex = xs.map w.StartVertex ++ [w.EndVertex ((x :: xs).getLastD 0)] := by
  intro x xs
  induction xs generalizing x with
  | nil => intro _; rfl
  | cons y ys ih =>
    intro h
    rw [List.chain'_cons] at h
    have := ih y h.2
    rw [List.map_cons, this, List.map_cons, h.1]
    rfl

theorem closed_chain_perm (w : WindfarmResidual) (C : List Nat)
    (hch : List.Chain' (fun a b => w.EndVertex a = w.StartVertex b) C)
    (hcl : w.EndVertex (C.getLastD 0) = w.StartVertex (C.headD 0)) :
    List.Perm (C.map w.EndVertex) (C.map w.StartVertex) := by
  cases C with
  | nil => exact List.Perm.refl _
  | cons x xs =>
    rw [chain_map_end w x xs hch, hcl]
    simp only [List.headD_cons, List.map_cons]
    exact List.perm_append_singleton _ _

theorem chain_take_map_end (w : WindfarmResidual) :
    ∀ (x : Nat) (xs : List Nat) (j : Nat),
      List.Chain' (fun a b => w.EndVertex a = w.StartVertex b) (x :: xs) → j ≤ xs.length →
      ((x :: xs).take j).map w.EndVertex = (xs.take j).map w.StartVertex := by
  intro x xs
  induction xs generalizing x with
  | nil =>
    intro j _ hj
    have : j = 0 := by simpa using hj
    subst this
    rfl
  | cons y ys ih =>
    intro j h hj
    cases j with
    | zero => rfl
    | succ j =>
      rw [List.chain'_cons] at h
      rw [List.take_succ_cons, List.map_cons, ih y j h.2 (by simpa using hj),
        List.take_succ_cons, List.map_cons, h.1]

theorem headD_drop_eq_getD (l : List Nat) (a : Nat) : (l.drop a).headD 0 = l.getD a 0 := by
  rw [List.headD_eq_head?_getD, List.head?_drop, List.getD_eq_getElem?_getD]

theorem getLastD_eq_getD_pred (l : List Nat) : l.getLastD 0 = l.getD (l.length - 1) 0 := by
  rw [List.getLastD_eq_getLast?, List.getLast?_eq_getElem?, List.getD_eq_getElem?_getD]

theorem getD_take_of_lt (l : List Nat) (i n : Nat) (h : i < n) :
    (l.take n).getD i 0 = l.getD i 0 := by
  rw [List.getD_eq_getElem?_getD, List.getD_eq_getElem?_getD, List.getElem?_take_of_lt h]

theorem getD_append_left' (l1 l2 : List Nat) (i : Nat) (h : i < l1.length) :
    (l1 ++ l2).getD i 0 = l1.getD i 0 := by
  rw [List.getD_eq_getElem?_getD, List.getD_eq_getElem?_getD, List.getElem?_append_left h]

theorem getD_append_right' (l1 l2 : List Nat) (i : Nat) :
    (l1 ++ l2).getD (l1.length + i) 0 = l2.getD i 0 := by
  rw [List.getD_eq_getElem?_getD, List.getD_eq_getElem?_getD,
    List.getElem?_append_right (by omega)]
  congr 2
  omega

theorem getD_mem_of_lt (l : List Nat) (i : Nat) (h : i < l.length) : l.getD i 0 ∈ l := by
  rw [getD_eq_getElem_of_lt _ _ _ h]
  exact List.getElem_mem _

/-- What `FindCycle` finds on a closed walk `pre ++ p :: ps` whose first `pre.length`
start vertices are exactly the visited vertices. -/
theorem findCycle_spec (w : WindfarmResidual) (pre : List Nat) (p : Nat) (ps : List Nat)
    (V : List Bool)
    (hch : List.Chain' (fun a b => w.EndVertex a = w.StartVertex b) (pre ++ p :: ps))
    (hcl : w.EndVertex ((pre ++ p :: ps).getLastD 0) = w.StartVertex ((pre ++ p :: ps).headD 0))
    (hV : MarksExactly V (pre.map w.StartVertex))
    (hlt : ∀ e ∈ pre ++ p :: ps, w.StartVertex e < V.length ∧ w.EndVertex e < V.length)
    (hnd : ((pre ++ [p]).map w.StartVertex).Nodup) :
    ∃ a j V2, FindCycle w (pre ++ p :: ps) V pre.length = some (a, pre.length + j + 1, V2)
      ∧ j ≤ ps.length ∧ a ≤ pre.length + j ∧ V2.length = V.length
      ∧ MarksExactly V2 (((pre ++ p :: ps).take (pre.length + j + 1)).map w.StartVertex)
      ∧ (((pre ++ p :: ps).take (pre.length + j + 1)).map w.StartVertex).Nodup
      ∧ w.StartVertex ((pre ++ p :: ps).getD a 0)
          = w.EndVertex ((pre ++ p :: ps).getD (pre.length + j) 0)
      ∧ (j = ps.length → a = 0) := by
  have hp : (pre ++ p :: ps).getD pre.length 0 = p := by
    have := getD_append_right' pre (p :: ps) 0
    simpa using this
  have hpS : w.StartVertex p < V.length := (hlt p (by simp)).1
  have hV1 := marksExactly_set_true V _ (w.StartVertex p) hV hpS
  have hchp : List.Chain' (fun a b => w.EndVertex a = w.StartVertex b) (p :: ps) :=
    hch.right_of_append
  have hlast : (pre ++ p :: ps).getLastD 0 = (p :: ps).getLastD 0 := by
    rw [List.getLastD_eq_getLast?, List.getLastD_eq_getLast?, List.getLast?_append]
    cases h : (p :: ps).getLast? with
    | none => simp at h
    | some x => simp
  have hex : ∃ e ∈ p :: ps, w.EndVertex e ∈ pre.map w.StartVertex ++ [w.StartVertex p] := by
    refine ⟨(p :: ps).getLastD 0, ?_, ?_⟩
    · rw [getLastD_eq_getD_pred]
      exact getD_mem_of_lt _ _ (by simp)
    · rw [← hlast, hcl]
      cases pre with
      | nil => simp
      | cons x xs => simp
  obtain ⟨j, V2, h1, h2, h3, h4, h5, h6⟩ :=
    findClosingEdgeLoop_spec w (p :: ps) (V.set (w.StartVertex p) true)
      (pre.map w.StartVertex ++ [w.StartVertex p]) pre.length hV1
      (by
        intro e he
        rw [List.length_set]
        exact (hlt e (List.mem_append_right _ he)).2)
      hex
  have hj : j ≤ ps.length := by simpa [Nat.lt_succ_iff] using h2
  have hlist : pre.map w.StartVertex ++ [w.StartVertex p]
      ++ ((p :: ps).take j).map w.EndVertex
      = ((pre ++ p :: ps).take (pre.length + j + 1)).map w.StartVertex := by
    rw [chain_take_map_end w p ps j hchp hj, Nat.add_assoc, List.take_append,
      List.take_succ_cons]
    simp
  rw [hlist] at h4 h6
  have hnd2 : (((pre ++ p :: ps).take (pre.length + j + 1)).map w.StartVertex).Nodup := by
    rw [← hlist]
    apply h5
    simpa using hnd
  have hd : (pre ++ p :: ps).getD (pre.length + j) 0 = (p :: ps).getD j 0 :=
    getD_append_right' pre (p :: ps) j
  rw [← hd] at h6
  -- the first edge that starts at the duplicate vertex
  have hfind : List.findIdx
      (fun edge => decide (w.StartVertex edge
        = w.EndVertex ((pre ++ p :: ps).getD (pre.length + j) 0)))
      ((pre ++ p :: ps).take (pre.length + j + 1))
        < ((pre ++ p :: ps).take (pre.length + j + 1)).length := by
    rw [List.findIdx_lt_length]
    obtain ⟨x, hx1, hx2⟩ := List.mem_map.mp h6
    exact ⟨x, hx1, by simpa using hx2⟩
  have hlenT : ((pre ++ p :: ps).take (pre.length + j + 1)).length = pre.length + j + 1 := by
    rw [List.length_take, List.length_append, List.length_cons]
    omega
  refine ⟨List.findIdx
      (fun edge => decide (w.StartVertex edge
        = w.EndVertex ((pre ++ p :: ps).getD (pre.length + j) 0)))
      ((pre ++ p :: ps).take (pre.length + j + 1)), j, V2, ?_, hj, ?_, ?_, h4, hnd2, ?_, ?_⟩
  · unfold FindCycle FindClosingEdge
    simp only [hp, List.drop_left, h1, Nat.add_sub_cancel]
  · rw [hlenT] at hfind
    omega
  · rw [h3, List.length_set]
  · have := @List.findIdx_getElem _ (fun edge => decide (w.StartVertex edge
        = w.EndVertex ((pre ++ p :: ps).getD (pre.length + j) 0)))
      ((pre ++ p :: ps).take (pre.length + j + 1)) hfind
    simp only [decide_eq_true_eq] at this
    have ha := hfind
    rw [hlenT] at ha
    rw [← getD_eq_getElem_of_lt _ _ 0 hfind, getD_take_of_lt _ _ _ ha] at this
    exact this
  · intro hjl
    have hpos : 0 < ((pre ++ p :: ps).take (pre.length + j + 1)).length := by
      rw [hlenT]; omega
    rw [List.findIdx_eq hpos]
    refine ⟨?_, fun i hi => absurd hi (Nat.not_lt_zero i)⟩
    simp only [decide_eq_true_eq]
    have e1 : ((pre ++ p :: ps).take (pre.length + j + 1))[0] = (pre ++ p :: ps).headD 0 := by
      rw [← getD_eq_getElem_of_lt _ _ 0 hpos, getD_take_of_lt _ _ _ (by omega)]
      cases pre <;> rfl
    have e2 : (pre ++ p :: ps).getD (pre.length + j) 0 = (pre ++ p :: ps).getLastD 0 := by
      rw [getLastD_eq_getD_pred]
      congr 1
      simp
      omega
    rw [e1, e2, hcl]

theorem chain'_iff_getD (R : Nat → Nat → Prop) (l : List Nat) :
    List.Chain' R l ↔ ∀ i, i + 1 < l.length → R (l.getD i 0) (l.getD (i + 1) 0) := by
  rw [List.chain'_iff_get]
  constructor
  · intro h i hi
    have := h i (by omega)
    rw [getD_eq_getElem_of_lt _ _ _ (by omega : i < l.length), getD_eq_getElem_of_lt _ _ _ hi]
    simpa using this
  · intro h i hi
    have := h i (by omega)
    rw [getD_eq_getElem_of_lt _ _ _ (by omega : i < l.length),
      getD_eq_getElem_of_lt _ _ _ (by omega : i + 1 < l.length)] at this
    simpa using this

theorem isClosedWalk_iff (w : WindfarmResidual) (W : List Nat) :
    IsClosedWalk w W ↔
      W ≠ [] ∧ (∀ e ∈ W, e < w.NumberOfEdges)
        ∧ (∀ i, i + 1 < W.length → w.EndVertex (W.getD i 0) = w.StartVertex (W.getD (i + 1) 0))
        ∧ w.EndVertex (W.getD (W.length - 1) 0) = w.StartVertex (W.getD 0 0) := by
  unfold IsClosedWalk
  rw [chain'_iff_getD, getLastD_eq_getD_pred]
  have : W.headD 0 = W.getD 0 0 := by cases W <;> rfl
  rw [this]

theorem getD_take_drop (W : List Nat) (n a i : Nat) (h : a + i < n) :
    ((W.take n).drop a).getD i 0 = W.getD (a + i) 0 := by
  rw [List.getD_eq_getElem?_getD, List.getElem?_drop, ← List.getD_eq_getElem?_getD,
    getD_take_of_lt _ _ _ h]

theorem getD_drop (W : List Nat) (n i : Nat) : (W.drop n).getD i 0 = W.getD (n + i) 0 := by
  rw [List.getD_eq_getElem?_getD, List.getElem?_drop, ← List.getD_eq_getElem?_getD]

theorem getD_take_append_drop (W : List Nat) (a n i : Nat) (ha : a ≤ W.length) :
    (W.take a ++ W.drop n).getD i 0
      = if i < a then W.getD i 0 else W.getD (n + (i - a)) 0 := by
  have hl : (W.take a).length = a := by rw [List.length_take]; omega
  by_cases h : i < a
  · rw [if_pos h, getD_append_left' _ _ _ (by omega), getD_take_of_lt _ _ _ h]
  · rw [if_neg h]
    have : i = (W.take a).length + (i - a) := by omega
    rw [this, getD_append_right', getD_drop, hl]
    congr 2
    omega

theorem reset_marks (w : WindfarmResidual) :
    ∀ (C : List Nat) (V : List Bool) (l : List Nat), MarksExactly V l →
      (C.foldl (fun vis e => SetEndVertexVisited w vis e false) V).length = V.length
        ∧ ∀ v, (C.foldl (fun vis e => SetEndVertexVisited w vis e false) V).getD v false = true
            ↔ v ∈ l ∧ v ∉ C.map w.EndVertex := by
  intro C
  induction C with
  | nil => intro V l h; exact ⟨rfl, fun v => by simpa using h v⟩
  | cons e rest ih =>
    intro V l h
    rw [List.foldl_cons]
    have h1 := marksExactly_set_false V l (w.EndVertex e) h
    obtain ⟨i1, i2⟩ := ih (SetEndVertexVisited w V e false) _ h1
    refine ⟨by rw [i1]; unfold SetEndVertexVisited; simp, ?_⟩
    intro v
    rw [i2 v, List.mem_filter]
    simp only [List.map_cons, List.mem_cons, ne_eq, decide_eq_true_eq, not_or]
    tauto

end NegativeCycleCanceling

end wcp

namespace wcp

/-! ## One iteration of the loop in `CancelNegativeWalk`: the walk and the visited flags -/

namespace NegativeCycleCanceling

theorem take_succ_eq_getD (l : List Nat) (n : Nat) (h : n < l.length) :
    l.take (n + 1) = l.take n ++ [l.getD n 0] := by
  rw [List.take_succ, List.getD_eq_getElem?_getD, List.getElem?_eq_getElem h]
  rfl

/-- On a walk that satisfies the loop invariant, `FindCycle` finds a closed walk
`walk[a .. c]`; resetting the flags of its end vertices and erasing it from the walk
re-establishes the invariant at index `a`. -/
theorem walk_step (w : WindfarmResidual) (W : List Nat) (b : Nat) (V : List Bool)
    (hinv : WalkInv w W b V) (hne : W ≠ [])
    (hlt : ∀ e ∈ W, w.StartVertex e < w.NumberOfVertices ∧ w.EndVertex e < w.NumberOfVertices) :
    ∃ a c V2, FindCycle w W V b = some (a, c + 1, V2) ∧ a ≤ c ∧ c < W.length
      ∧ IsSimpleCycle w ((W.take (c + 1)).drop a)
      ∧ WalkInv w (W.take a ++ W.drop (c + 1)) a
          (((W.take (c + 1)).drop a).foldl (fun vis e => SetEndVertexVisited w vis e false) V2) := by
  obtain ⟨hcw, hb, hnd⟩ := hinv.closed hne
  obtain ⟨_, hE, hchain, hclosed⟩ := (isClosedWalk_iff w W).1 hcw
  have hcw' := hcw
  obtain ⟨_, _, hch, hcl⟩ := hcw'
  have hpre : (W.take b).length = b := by rw [List.length_take]; omega
  cases hd : W.drop b with
  | nil =>
    have := congrArg List.length hd
    rw [List.length_drop, List.length_nil] at this
    omega
  | cons p ps =>
    have hW : W = W.take b ++ p :: ps := by rw [← hd, List.take_append_drop]
    have hlenW : W.length = b + (ps.length + 1) := by
      have := congrArg List.length hW
      rw [List.length_append, hpre, List.length_cons] at this
      exact this
    have hp : p = W.getD b 0 := by
      have := headD_drop_eq_getD W b
      rw [hd] at this
      exact this
    have hnd' : (((W.take b) ++ [p]).map w.StartVertex).Nodup := by
      rw [hp, ← take_succ_eq_getD W b hb]
      exact hnd
    have hV := hinv.marks
    have hlt' : ∀ e ∈ W.take b ++ p :: ps,
        w.StartVertex e < V.length ∧ w.EndVertex e < V.length := by
      rw [← hW, hinv.lenV]
      exact hlt
    have hch' : List.Chain' (fun a b => w.EndVertex a = w.StartVertex b) (W.take b ++ p :: ps) := by
      rw [← hW]; exact hch
    have hcl' : w.EndVertex ((W.take b ++ p :: ps).getLastD 0)
        = w.StartVertex ((W.take b ++ p :: ps).headD 0) := by
      rw [← hW]; exact hcl
    obtain ⟨a, j, V2, h1, h2, h3, h4, h5, h6, h7, h8⟩ :=
      findCycle_spec w (W.take b) p ps V hch' hcl' hV hlt' hnd'
    rw [← hW, hpre] at h1 h5 h6 h7
    rw [hpre] at h3
    have hc : b + j < W.length := by omega
    have hlenT : (W.take (b + j + 1)).length = b + j + 1 := by
      rw [List.length_take]; omega
    have hlenC : ((W.take (b + j + 1)).drop a).length = b + j + 1 - a := by
      rw [List.length_drop, hlenT]
    have hlenA : (W.take a).length = a := by rw [List.length_take]; omega
    have hTAC : W.take (b + j + 1) = W.take a ++ (W.take (b + j + 1)).drop a := by
      have := (List.take_append_drop a (W.take (b + j + 1))).symm
      rw [List.take_take, min_eq_left (by omega : a ≤ b + j + 1)] at this
      exact this
    -- the slice is a closed walk
    have hCw : IsClosedWalk w ((W.take (b + j + 1)).drop a) := by
      rw [isClosedWalk_iff]
      refine ⟨?_, ?_, ?_, ?_⟩
      · intro h0
        have := congrArg List.length h0
        rw [hlenC, List.length_nil] at this
        omega
      · intro e he
        exact hE e (List.mem_of_mem_take (List.mem_of_mem_drop he))
      · intro i hi
        rw [hlenC] at hi
        rw [getD_take_drop _ _ _ _ (by omega), getD_take_drop _ _ _ _ (by omega)]
        exact hchain (a + i) (by omega)
      · rw [hlenC, getD_take_drop _ _ _ _ (by omega), getD_take_drop _ _ _ _ (by omega)]
        have : a + (b + j + 1 - a - 1) = b + j := by omega
        rw [this, Nat.add_zero]
        exact h7.symm
    have hCs : IsSimpleCycle w ((W.take (b + j + 1)).drop a) :=
      ⟨hCw, ((List.drop_sublist a (W.take (b + j + 1))).map w.StartVertex).nodup h6⟩
    refine ⟨a, b + j, V2, h1, h3, hc, hCs, ?_⟩
    obtain ⟨_, _, hchC, hclC⟩ := hCw
    have hperm := closed_chain_perm w _ hchC hclC
    obtain ⟨r1, r2⟩ := reset_marks w ((W.take (b + j + 1)).drop a) V2 _ h5
    have hL : (W.take (b + j + 1)).map w.StartVertex
        = (W.take a).map w.StartVertex ++ ((W.take (b + j + 1)).drop a).map w.StartVertex := by
      rw [← List.map_append, ← hTAC]
    have hdisj := (List.nodup_append.1 (hL ▸ h6)).2.2
    have hlenW' : (W.take a ++ W.drop (b + j + 1)).length = a + (W.length - (b + j + 1)) := by
      rw [List.length_append, hlenA, List.length_drop]
    refine ⟨?_, ?_, ?_, ?_⟩
    · rw [r1, h4, hinv.lenV]
    · rw [List.take_left' hlenA]
      intro v
      rw [r2 v, hperm.mem_iff, hL, List.mem_append]
      constructor
      · rintro ⟨h | h, hn⟩
        · exact h
        · exact absurd h hn
      · intro h
        exact ⟨Or.inl h, fun hC => hdisj h hC⟩
    · intro h0
      have := congrArg List.length h0
      rw [hlenW', List.length_nil] at this
      omega
    · intro hne'
      have hB : b + j + 1 < W.length := by
        by_contra hcon
        have hj : j = ps.length := by omega
        have ha := h8 hj
        apply hne'
        apply List.eq_nil_of_length_eq_zero
        rw [hlenW']
        omega
      refine ⟨?_, ?_, ?_⟩
      · rw [isClosedWalk_iff]
        refine ⟨hne', ?_, ?_, ?_⟩
        · intro e he
          rcases List.mem_append.1 he with h | h
          · exact hE e (List.mem_of_mem_take h)
          · exact hE e (List.mem_of_mem_drop h)
        · intro i hi
          rw [hlenW'] at hi
          rw [getD_take_append_drop _ _ _ _ (by omega), getD_take_append_drop _ _ _ _ (by omega)]
          by_cases hia : i + 1 < a
          · rw [if_pos (by omega), if_pos hia]
            exact hchain i (by omega)
          · by_cases hia' : i + 1 = a
            · rw [if_pos (by omega), if_neg (by omega)]
              have e1 : b + j + 1 + (i + 1 - a) = b + j + 1 := by omega
              rw [e1, hchain i (by omega), hia', h7, hchain (b + j) (by omega)]
            · rw [if_neg (by omega), if_neg (by omega)]
              have e1 : b + j + 1 + (i + 1 - a) = b + j + 1 + (i - a) + 1 := by omega
              rw [e1]
              exact hchain _ (by omega)
        · rw [hlenW', getD_take_append_drop _ _ _ _ (by omega),
            getD_take_append_drop _ _ _ _ (by omega), if_neg (by omega)]
          have e1 : b + j + 1 + (a + (W.length - (b + j + 1)) - 1 - a) = W.length - 1 := by omega
          rw [e1, hclosed]
          by_cases ha0 : 0 < a
          · rw [if_pos ha0]
          · rw [if_neg ha0]
            have : a = 0 := by omega
            subst this
            rw [Nat.sub_zero, Nat.add_zero, ← hchain (b + j) (by omega), ← h7]
      · rw [hlenW']; omega
      · have hBne : (W.drop (b + j + 1)).length ≠ 0 := by rw [List.length_drop]; omega
        have e1 : (W.take a ++ W.drop (b + j + 1)).take (a + 1)
            = W.take a ++ [W.getD (b + j + 1) 0] := by
          have := @List.take_append Nat (W.take a) (W.drop (b + j + 1)) 1
          rw [hlenA] at this
          rw [this]
          congr 1
          have h2 := take_succ_eq_getD (W.drop (b + j + 1)) 0 (by omega)
          rw [Nat.zero_add] at h2
          rw [h2, List.take_zero, List.nil_append, getD_drop, Nat.add_zero]
        have e2 : ((W.take a ++ W.drop (b + j + 1)).take (a + 1)).map w.StartVertex
            = (W.take (a + 1)).map w.StartVertex := by
          rw [e1, take_succ_eq_getD W a (by omega), List.map_append, List.map_append,
            List.map_singleton, List.map_singleton, ← hchain (b + j) (by omega), ← h7]
        rw [e2]
        have hsub : List.Sublist (W.take (a + 1)) (W.take (b + j + 1)) := by
          have := List.take_sublist (a + 1) (W.take (b + j + 1))
          rw [List.take_take, min_eq_left (by omega : a + 1 ≤ b + j + 1)] at this
          exact this
        exact (hsub.map w.StartVertex).nodup h6

end NegativeCycleCanceling

end wcp

namespace wcp

/-! ## Feasible flows and the effect of cancelling a closed walk -/

open WindfarmResidual

theorem vertex_type_cases (w : WindfarmResidual) (v : Nat) :
    w.IsTurbine v = true ∨ w.IsSubstation v = true ∨ w.IsSuperSubstation v = true := by
  unfold IsTurbine IsSubstation IsSuperSubstation
  cases (w.VertexAt v).type <;> simp

theorem isTurbine_false_of_isSubstation (w : WindfarmResidual) (v : Nat)
    (h : w.IsSubstation v = true) : w.IsTurbine v = false := by
  unfold IsTurbine
  unfold IsSubstation at h
  have := of_decide_eq_true h
  rw [this]
  rfl

theorem isTurbine_false_of_isSuperSubstation (w : WindfarmResidual) (v : Nat)
    (h : w.IsSuperSubstation v = true) : w.IsTurbine v = false := by
  unfold IsTurbine
  unfold IsSuperSubstation at h
  have := of_decide_eq_true h
  rw [this]
  rfl

theorem isSubstation_false_of_isSuperSubstation (w : WindfarmResidual) (v : Nat)
    (h : w.IsSuperSubstation v = true) : w.IsSubstation v = false := by
  unfold IsSubstation
  unfold IsSuperSubstation at h
  have := of_decide_eq_true h
  rw [this]
  rfl

/-- The drain edge of a substation: its last outgoing edge, and its only outgoing edge to
the super substation. -/
theorem drain_edge {inst : Instance} {w : WindfarmResidual} (hb : Built inst w) (s : Nat)
    (hs : w.IsSubstation s = true) :
    w.EdgeToSupersubstation s < w.NumberOfEdges
      ∧ w.StartVertex (w.EdgeToSupersubstation s) = s
      ∧ w.IsSuperSubstation (w.EndVertex (w.EdgeToSupersubstation s)) = true
      ∧ ∀ e, e < w.NumberOfEdges → w.StartVertex e = s →
          w.IsSuperSubstation (w.EndVertex e) = true → e = w.EdgeToSupersubstation s := by
  have hmem := (hb.isSubstation_iff s).1 hs
  obtain ⟨i, hi, hget⟩ := List.mem_iff_getElem.1 hmem
  have hgetD : inst.substations.getD i 0 = s := by
    rw [getD_eq_getElem_of_lt _ _ _ hi]; exact hget
  have hd := hb.edgeToSupersubstation i hi
  rw [hgetD] at hd
  have hNE := hb.numberOfEdges
  have hdlt : 2 * inst.edges.length + i < w.NumberOfEdges := by omega
  have hsn : s < inst.nodes.length := ((mem_substations_iff inst s).1 hmem).1
  rw [hd]
  rcases hb.edge_cases _ hdlt with h | ⟨i', hi', he, h1, h2⟩ | ⟨i', hi', he, _, _⟩
  · omega
  · have : i' = i := by omega
    subst this
    refine ⟨hdlt, by rw [h1, hgetD], by rw [h2]; exact (hb.isSuperSubstation_iff _).2 rfl, ?_⟩
    intro e he' hst hsup
    rcases hb.edge_cases e he' with h | ⟨k, hk, hek, k1, k2⟩ | ⟨k, hk, hek, k1, k2⟩
    · have := (hb.isSuperSubstation_iff _).1 hsup
      omega
    · rw [hst, ← hgetD] at k1
      have := substations_getD_inj inst _ _ hi' hk k1
      omega
    · rw [hst] at k1
      omega
  · omega

theorem assertFeasibleFlow_iff {inst : Instance} {w : WindfarmResidual} (hb : Built inst w) :
    AssertFeasibleFlow w = true ↔ FeasibleFlow w := by
  unfold AssertFeasibleFlow FeasibleFlow outSum
  simp only [Bool.and_eq_true, List.all_eq_true, decide_eq_true_eq, List.mem_range]
  constructor
  · rintro ⟨⟨h1, h2⟩, h3⟩
    refine ⟨?_, h2, fun s hs => (h3 s hs).1.1.2⟩
    intro e he
    refine ⟨?_, ?_⟩
    · intro a1 a2
      have := (h1 e he).2
      rw [a1, a2] at this
      simpa using this
    · intro hsub
      have hs : w.StartVertex e ∈ w.Substations := by
        rw [hb.substations_eq]; exact (hb.isSubstation_iff _).1 hsub
      obtain ⟨⟨⟨hA, _⟩, hge⟩, hle⟩ := h3 _ hs
      have hA := hA e ((hb.mem_outgoingEdges_iff _ _).2 ⟨he, rfl⟩)
      by_cases c1 : w.IsTurbine (w.EndVertex e) = true
      · rw [if_pos c1] at hA ⊢
        exact of_decide_eq_true hA
      · rw [if_neg c1] at hA ⊢
        by_cases c2 : w.IsSuperSubstation (w.EndVertex e) = true
        · rw [if_pos c2] at hA ⊢
          rw [Bool.and_eq_true] at hA
          have e1 := of_decide_eq_true hA.1
          have e2 := of_decide_eq_true hA.2
          exact ⟨e1, by rw [← e2]; exact hle⟩
        · rw [if_neg c2] at hA ⊢
          exact of_decide_eq_true hA
  · rintro ⟨h1, h2, h3⟩
    refine ⟨⟨?_, h2⟩, ?_⟩
    · intro e he
      refine ⟨?_, ?_⟩
      · rw [FlowOnEdge_reverse w e (by rw [← hb.numberOfEdges_eq]; exact he)]
      · by_cases c : (!w.IsSuperSubstation (w.StartVertex e)) = true
            ∧ (!w.IsSuperSubstation (w.EndVertex e)) = true
        · rw [if_pos c]
          exact decide_eq_true ((h1 e he).1 (by simpa using c.1) (by simpa using c.2))
        · rw [if_neg c]
    · intro s hs
      have hsub : w.IsSubstation s = true := by
        rw [hb.substations_eq] at hs; exact (hb.isSubstation_iff _).2 hs
      obtain ⟨d1, d2, d3, d4⟩ := drain_edge hb s hsub
      have hd := (h1 _ d1).2 (by rw [d2]; exact hsub)
      rw [if_neg (by rw [isTurbine_false_of_isSuperSubstation _ _ d3]; simp), if_pos d3, d2] at hd
      refine ⟨⟨⟨?_, h3 s hs⟩, hd.1⟩, hd.2⟩
      intro e he
      obtain ⟨he1, he2⟩ := (hb.mem_outgoingEdges_iff _ _).1 he
      have hE := (h1 e he1).2 (by rw [he2]; exact hsub)
      by_cases c1 : w.IsTurbine (w.EndVertex e) = true
      · rw [if_pos c1] at hE ⊢
        exact decide_eq_true hE
      · rw [if_neg c1] at hE ⊢
        by_cases c2 : w.IsSuperSubstation (w.EndVertex e) = true
        · rw [if_pos c2] at hE ⊢
          rw [Bool.and_eq_true]
          refine ⟨decide_eq_true hE.1, decide_eq_true ?_⟩
          rw [d4 e he1 he2 c2]
          rfl
        · rw [if_neg c2] at hE ⊢
          exact decide_eq_true hE

theorem edgeBound_congr {w' w : WindfarmResidual} (h : w'.IsStateOf w) (e : Nat) (x : Int) :
    EdgeBound w' e x ↔ EdgeBound w e x := by
  obtain ⟨t1, t2, _, t4, t5, t6, t7, _, _, _, _, _, _, _, _, _, t17⟩ := IsStateOf_topology h
  unfold EdgeBound
  rw [t1, t2, t4, t4, t5, t6, t7, t17]

theorem addFlowOnEdge_residualCosts (w : WindfarmResidual) (e : Nat) (d : Int) :
    (w.AddFlowOnEdge e d).residualCosts = w.residualCosts := by
  unfold AddFlowOnEdge
  rw [SetFlowOnEdge_eq]

theorem addFlowOnMultipleEdges_state (C : List Nat) (d : Int) :
    ∀ w : WindfarmResidual, (w.AddFlowOnMultipleEdges C d).IsStateOf w
      ∧ (w.AddFlowOnMultipleEdges C d).residualCosts = w.residualCosts := by
  unfold AddFlowOnMultipleEdges
  induction C with
  | nil => intro w; exact ⟨IsStateOf_refl w, rfl⟩
  | cons e C ih =>
    intro w
    rw [List.foldl_cons]
    obtain ⟨i1, i2⟩ := ih (w.AddFlowOnEdge e d)
    exact ⟨IsStateOf_trans i1 (AddFlowOnEdge_isStateOf w e d),
      by rw [i2, addFlowOnEdge_residualCosts]⟩

/-- The flow after `AddFlowOnMultipleEdges`: every occurrence of an edge adds `d`, every
occurrence of its reverse edge takes `d` away. -/
theorem flowOnEdge_addFlowOnMultipleEdges {inst : Instance} (C : List Nat) (d : Int) :
    ∀ w : WindfarmResidual, Built inst w → (∀ e ∈ C, e < w.NumberOfEdges) →
      ∀ x, x < w.NumberOfEdges →
        (w.AddFlowOnMultipleEdges C d).FlowOnEdge x
          = w.FlowOnEdge x
            + d * ((C.count x : Int) - (C.count (w.ReverseEdgeIndex x) : Int)) := by
  induction C with
  | nil => intro w _ _ x _; simp [AddFlowOnMultipleEdges]
  | cons e C ih =>
    intro w hb hC x hx
    have he : e < w.NumberOfEdges := hC e (List.mem_cons_self _ _)
    have hst := AddFlowOnEdge_isStateOf w e d
    have hb1 := Built_of_isStateOf inst _ w hb hst
    obtain ⟨_, _, _, _, _, _, _, _, _, t10, t11, _⟩ := IsStateOf_topology hst
    have := ih (w.AddFlowOnEdge e d) hb1
      (fun e' he' => by rw [t11]; exact hC e' (List.mem_cons_of_mem _ he')) x
      (by rw [t11]; exact hx)
    unfold AddFlowOnMultipleEdges at this ⊢
    rw [List.foldl_cons, this, t10, flowOnEdge_addFlowOnEdge inst w hb e x d he hx,
      List.count_cons, List.count_cons]
    have hNE := hb.numberOfEdges_eq
    have hne := ReverseEdgeIndex_ne w e (by omega)
    have hinv := ReverseEdgeIndex_involutive w e (by omega)
    have hinvx := ReverseEdgeIndex_involutive w x (by omega)
    by_cases c1 : x = e
    · subst c1
      have c3 : ¬ (x = w.ReverseEdgeIndex x) := fun h => hne h.symm
      rw [if_pos rfl, if_pos (by simp), if_neg (by simpa using c3)]
      push_cast
      ring
    · by_cases c2 : x = w.ReverseEdgeIndex e
      · have c4 : e = w.ReverseEdgeIndex x := by rw [c2, hinv]
        rw [if_neg c1, if_pos c2, if_neg (by simpa using fun h : e = x => c1 h.symm),
          if_pos (by simpa using c4)]
        push_cast
        ring
      · have c4 : ¬ (e = w.ReverseEdgeIndex x) := by
          intro h
          apply c2
          rw [h, hinvx]
        rw [if_neg c1, if_neg c2, if_neg (by simpa using fun h : e = x => c1 h.symm),
          if_neg (by simpa using c4)]
        push_cast
        ring

theorem sum_indicator (L : List Nat) (a : Nat) :
    (L.map fun x => if x = a then (1 : Int) else 0).sum = (L.count a : Int) := by
  induction L with
  | nil => rfl
  | cons y L ih =>
    rw [List.map_cons, List.sum_cons, ih, List.count_cons]
    by_cases c : y = a
    · rw [if_pos c, if_pos (by simpa using c)]; push_cast; ring
    · rw [if_neg c, if_neg (by simpa using c)]; push_cast; ring

theorem outSum_addFlowOnEdge {inst : Instance} {w : WindfarmResidual} (hb : Built inst w)
    (e : Nat) (he : e < w.NumberOfEdges) (d : Int) (v : Nat) :
    outSum (w.AddFlowOnEdge e d) v
      = outSum w v + d * ((if w.StartVertex e = v then 1 else 0)
          - (if w.EndVertex e = v then 1 else 0)) := by
  have hst := AddFlowOnEdge_isStateOf w e d
  obtain ⟨_, _, _, _, _, _, _, t8, _⟩ := IsStateOf_topology hst
  have hNE := hb.numberOfEdges_eq
  unfold outSum
  rw [t8]
  have hmap : (w.OutgoingEdges v).map (w.AddFlowOnEdge e d).FlowOnEdge
      = (w.OutgoingEdges v).map fun x =>
          w.FlowOnEdge x + (d * (if x = e then (1 : Int) else 0)
            + (-d) * (if x = w.ReverseEdgeIndex e then (1 : Int) else 0)) := by
    apply List.map_congr_left
    intro x hx
    have hx' := ((hb.mem_outgoingEdges_iff _ _).1 hx).1
    rw [flowOnEdge_addFlowOnEdge inst w hb e x d he hx']
    have hne := ReverseEdgeIndex_ne w e (by omega)
    by_cases c1 : x = e
    · subst c1
      rw [if_pos rfl, if_pos rfl, if_neg (fun h => hne h.symm)]
      ring
    · by_cases c2 : x = w.ReverseEdgeIndex e
      · rw [if_neg c1, if_pos c2, if_neg c1, if_pos c2]; ring
      · rw [if_neg c1, if_neg c2, if_neg c1, if_neg c2]; ring
  rw [hmap, List.sum_map_add, List.sum_map_add, List.sum_map_mul_left, List.sum_map_mul_left,
    sum_indicator, sum_indicator]
  have hnd := hb.outgoingEdges_nodup v
  have hrev := hb.reverse_endpoints e he
  have hrlt := ReverseEdgeIndex_lt w e (by omega)
  have k1 : ((w.OutgoingEdges v).count e : Int) = if w.StartVertex e = v then 1 else 0 := by
    by_cases c : w.StartVertex e = v
    · rw [if_pos c, List.count_eq_one_of_mem hnd ((hb.mem_outgoingEdges_iff _ _).2 ⟨he, c⟩)]
      rfl
    · rw [if_neg c, List.count_eq_zero_of_not_mem
        (fun h => c ((hb.mem_outgoingEdges_iff _ _).1 h).2)]
      rfl
  have k2 : ((w.OutgoingEdges v).count (w.ReverseEdgeIndex e) : Int)
      = if w.EndVertex e = v then 1 else 0 := by
    by_cases c : w.EndVertex e = v
    · rw [if_pos c, List.count_eq_one_of_mem hnd
        ((hb.mem_outgoingEdges_iff _ _).2 ⟨by omega, by rw [hrev.1]; exact c⟩)]
      rfl
    · rw [if_neg c, List.count_eq_zero_of_not_mem
        (fun h => c (by rw [← hrev.1]; exact ((hb.mem_outgoingEdges_iff _ _).1 h).2))]
      rfl
  rw [k1, k2]
  ring

theorem outSum_addFlowOnMultipleEdges {inst : Instance} (C : List Nat) (d : Int) (v : Nat) :
    ∀ w : WindfarmResidual, Built inst w → (∀ e ∈ C, e < w.NumberOfEdges) →
      outSum (w.AddFlowOnMultipleEdges C d) v
        = outSum w v + d * (((C.map w.StartVertex).count v : Int)
            - ((C.map w.EndVertex).count v : Int)) := by
  induction C with
  | nil => intro w _ _; simp [AddFlowOnMultipleEdges]
  | cons e C ih =>
    intro w hb hC
    have he : e < w.NumberOfEdges := hC e (List.mem_cons_self _ _)
    have hst := AddFlowOnEdge_isStateOf w e d
    have hb1 := Built_of_isStateOf inst _ w hb hst
    obtain ⟨t1, t2, _, _, _, _, _, _, _, _, t11, _⟩ := IsStateOf_topology hst
    have := ih (w.AddFlowOnEdge e d) hb1
      (fun e' he' => by rw [t11]; exact hC e' (List.mem_cons_of_mem _ he'))
    have f1 : (w.AddFlowOnEdge e d).StartVertex = w.StartVertex := funext t1
    have f2 : (w.AddFlowOnEdge e d).EndVertex = w.EndVertex := funext t2
    unfold AddFlowOnMultipleEdges at this ⊢
    rw [List.foldl_cons, this, f1, f2, outSum_addFlowOnEdge hb e he, List.map_cons,
      List.map_cons, List.count_cons, List.count_cons]
    by_cases c1 : w.StartVertex e = v <;> by_cases c2 : w.EndVertex e = v
    · rw [if_pos c1, if_pos c2, if_pos (by simpa using c1), if_pos (by simpa using c2)]
      push_cast; ring
    · rw [if_pos c1, if_neg c2, if_pos (by simpa using c1), if_neg (by simpa using c2)]
      push_cast; ring
    · rw [if_neg c1, if_pos c2, if_neg (by simpa using c1), if_pos (by simpa using c2)]
      push_cast; ring
    · rw [if_neg c1, if_neg c2, if_neg (by simpa using c1), if_neg (by simpa using c2)]
      push_cast; ring

/-- Cancelling a closed walk leaves the sum of the outgoing flow of every vertex as it
was. -/
theorem outSum_cancel {inst : Instance} {w : WindfarmResidual} (hb : Built inst w)
    (C : List Nat) (hC : IsClosedWalk w C) (d : Int) (v : Nat) :
    outSum (w.AddFlowOnMultipleEdges C d) v = outSum w v := by
  obtain ⟨_, hE, hch, hcl⟩ := hC
  rw [outSum_addFlowOnMultipleEdges C d v w hb hE,
    (NegativeCycleCanceling.closed_chain_perm w C hch hcl).count_eq v]
  ring

theorem count_nodup (C : List Nat) (hnd : C.Nodup) (x : Nat) :
    (C.count x : Int) = if x ∈ C then 1 else 0 := by
  by_cases c : x ∈ C
  · rw [if_pos c, List.count_eq_one_of_mem hnd c]; rfl
  · rw [if_neg c, List.count_eq_zero_of_not_mem c]; rfl

/-- Cancelling a closed trail whose edges can all take `d` more units leads from a
feasible flow to a feasible flow. -/
theorem feasibleFlow_cancel {inst : Instance} {w : WindfarmResidual} (hb : Built inst w)
    (hf : FeasibleFlow w) (C : List Nat) (hC : IsClosedWalk w C) (hnd : C.Nodup) (d : Int)
    (haug : ∀ e ∈ C, Augmentable w d e) :
    FeasibleFlow (w.AddFlowOnMultipleEdges C d) := by
  obtain ⟨hst, _⟩ := addFlowOnMultipleEdges_state C d w
  obtain ⟨_, _, _, _, _, _, _, _, _, _, t11, _, _, _, t15, t16, _⟩ := IsStateOf_topology hst
  have hNE := hb.numberOfEdges_eq
  refine ⟨?_, ?_, ?_⟩
  · intro x hx
    rw [t11] at hx
    rw [edgeBound_congr hst, flowOnEdge_addFlowOnMultipleEdges C d w hb hC.2.1 x hx,
      count_nodup C hnd, count_nodup C hnd]
    have hinvx := ReverseEdgeIndex_involutive w x (by omega)
    by_cases c1 : x ∈ C <;> by_cases c2 : w.ReverseEdgeIndex x ∈ C
    · rw [if_pos c1, if_pos c2, sub_self, mul_zero, add_zero]; exact hf.1 x hx
    · rw [if_pos c1, if_neg c2, sub_zero, mul_one]; exact (haug x c1).1
    · rw [if_neg c1, if_pos c2]
      have := (haug _ c2).2
      rw [hinvx] at this
      have e1 : w.FlowOnEdge x + d * (0 - 1) = w.FlowOnEdge x - d := by ring
      rw [e1]; exact this
    · rw [if_neg c1, if_neg c2, sub_self, mul_zero, add_zero]; exact hf.1 x hx
  · intro t ht
    rw [t15] at ht
    rw [outSum_cancel hb C hC]
    exact hf.2.1 t ht
  · intro s hs
    rw [t16] at hs
    rw [outSum_cancel hb C hC]
    exact hf.2.2 s hs

/-- An edge outside a cancelled trail can still take `d` more units afterwards. -/
theorem augmentable_cancel {inst : Instance} {w : WindfarmResidual} (hb : Built inst w)
    (hf : FeasibleFlow w) (C : List Nat) (hCE : ∀ e ∈ C, e < w.NumberOfEdges) (hnd : C.Nodup)
    (d : Int) (e : Nat) (he : e < w.NumberOfEdges) (hnot : e ∉ C) (ha : Augmentable w d e) :
    Augmentable (w.AddFlowOnMultipleEdges C d) d e := by
  obtain ⟨hst, _⟩ := addFlowOnMultipleEdges_state C d w
  obtain ⟨_, _, _, _, _, _, _, _, _, t10, _⟩ := IsStateOf_topology hst
  have hNE := hb.numberOfEdges_eq
  have hinv := ReverseEdgeIndex_involutive w e (by omega)
  have hrlt := ReverseEdgeIndex_lt w e (by omega)
  unfold Augmentable
  rw [edgeBound_congr hst, edgeBound_congr hst, t10,
    flowOnEdge_addFlowOnMultipleEdges C d w hb hCE e he,
    flowOnEdge_addFlowOnMultipleEdges C d w hb hCE _ (by omega), hinv,
    count_nodup C hnd, count_nodup C hnd, if_neg hnot]
  by_cases c : w.ReverseEdgeIndex e ∈ C
  · rw [if_pos c]
    have e1 : w.FlowOnEdge e + d * (0 - 1) + d = w.FlowOnEdge e := by ring
    have e2 : w.FlowOnEdge (w.ReverseEdgeIndex e) + d * (1 - 0) - d
        = w.FlowOnEdge (w.ReverseEdgeIndex e) := by ring
    rw [e1, e2]
    exact ⟨hf.1 e he, hf.1 _ (by omega)⟩
  · rw [if_neg c, sub_self, mul_zero, add_zero, add_zero]
    exact ha

theorem finite_cost_cases (w : WindfarmResidual) (e : Nat) (d : Int)
    (hfin : StandardResidualCostComputer.ResidualCosts w e d ≠ ⊤) :
    (w.IsSuperSubstation (w.StartVertex e) = true → d ≤ -w.FlowOnEdge e)
      ∧ (w.IsSuperSubstation (w.StartVertex e) = false →
          w.IsSuperSubstation (w.EndVertex e) = true →
            d ≤ w.FreeSubstationCapacity (w.StartVertex e))
      ∧ (w.IsSuperSubstation (w.StartVertex e) = false →
          w.IsSuperSubstation (w.EndVertex e) = false →
            (w.IsSubstation (w.StartVertex e) = true → d ≤ -w.FlowOnEdge e)
              ∧ (w.IsSubstation (w.StartVertex e) = false →
                  d ≤ w.cabletypes.MaximumCapacity - w.FlowOnEdge e)) := by
  unfold StandardResidualCostComputer.ResidualCosts
    StandardResidualCostComputer.ResidualCostForNonSupersubstationEdge FreeEdgeCapacity at hfin
  simp only at hfin
  refine ⟨?_, ?_, ?_⟩
  · intro h1
    by_contra hc
    apply hfin
    rw [if_pos h1, if_neg hc]
  · intro h1 h2
    by_contra hc
    apply hfin
    rw [if_neg (by rw [h1]; simp), if_pos h2, if_neg hc]
  · intro h1 h2
    rw [if_neg (by rw [h1]; simp), if_neg (by rw [h2]; simp)] at hfin
    refine ⟨?_, ?_⟩
    · intro h3
      by_contra hc
      apply hfin
      rw [if_pos h3, if_neg hc]
    · intro h3
      by_contra hc
      apply hfin
      have h3' : ¬ (w.IsSubstation (w.StartVertex e) = true) := by rw [h3]; simp
      rw [if_neg h3'] at hfin ⊢
      rw [if_neg hc]

/-- At a feasible flow, an edge whose standard residual cost for a change of at least one
unit is finite can take that change. -/
theorem augmentable_of_finite_cost {inst : Instance} {w : WindfarmResidual}
    (hb : Built inst w) (hf : FeasibleFlow w) (d : Int) (hd : 1 ≤ d) (e : Nat) (he : e < w.NumberOfEdges)
    (hfin : StandardResidualCostComputer.ResidualCosts w e d ≠ ⊤) :
    Augmentable w d e := by
  have hNE := hb.numberOfEdges_eq
  have hrlt := ReverseEdgeIndex_lt w e (by omega)
  obtain ⟨r1, r2⟩ := hb.reverse_endpoints e he
  have hflow := FlowOnEdge_reverse w e (by omega)
  have hfe := hf.1 e he
  have hfr := hf.1 (w.ReverseEdgeIndex e) (by omega)
  obtain ⟨k1, k2, k3⟩ := finite_cost_cases w e d hfin
  have hdrain : w.IsSuperSubstation (w.StartVertex e) = false →
      w.IsSuperSubstation (w.EndVertex e) = true →
        w.IsSubstation (w.StartVertex e) = true
          ∧ w.FreeSubstationCapacity (w.StartVertex e)
              = w.VertexCapacity (w.StartVertex e) - w.FlowOnEdge e := by
    intro h1 h2
    have hsub : w.IsSubstation (w.StartVertex e) = true := by
      rcases hb.edge_cases e he with h | ⟨i, hi, _, c1, _⟩ | ⟨i, hi, _, c1, _⟩
      · have := (hb.isSuperSubstation_iff _).1 h2
        omega
      · rw [c1]
        exact (hb.isSubstation_iff _).2 (substations_getD_mem inst i hi)
      · have := (hb.isSuperSubstation_iff _).2 c1
        rw [h1] at this
        exact absurd this (by simp)
    refine ⟨hsub, ?_⟩
    have := (drain_edge hb _ hsub).2.2.2 e he rfl h2
    unfold FreeSubstationCapacity FlowToSubstation
    rw [← this]
  unfold Augmentable
  unfold EdgeBound at hfe hfr ⊢
  rw [r1, r2] at hfr ⊢
  have tS := vertex_type_cases w (w.StartVertex e)
  have tE := vertex_type_cases w (w.EndVertex e)
  have xS1 := isTurbine_false_of_isSubstation w (w.StartVertex e)
  have xS2 := isTurbine_false_of_isSuperSubstation w (w.StartVertex e)
  have xS3 := isSubstation_false_of_isSuperSubstation w (w.StartVertex e)
  have xE1 := isTurbine_false_of_isSubstation w (w.EndVertex e)
  have xE2 := isTurbine_false_of_isSuperSubstation w (w.EndVertex e)
  have xE3 := isSubstation_false_of_isSuperSubstation w (w.EndVertex e)
  generalize w.FlowOnEdge (w.ReverseEdgeIndex e) = fr at *
  generalize w.FlowOnEdge e = fe at *
  generalize w.FreeSubstationCapacity (w.StartVertex e) = fc at *
  generalize w.VertexCapacity (w.StartVertex e) = cS at *
  generalize w.VertexCapacity (w.EndVertex e) = cE at *
  generalize w.cabletypes.MaximumCapacity = M at *
  generalize w.IsSuperSubstation (w.StartVertex e) = sS at *
  generalize w.IsSuperSubstation (w.EndVertex e) = sE at *
  generalize w.IsSubstation (w.StartVertex e) = bS at *
  generalize w.IsSubstation (w.EndVertex e) = bE at *
  generalize w.IsTurbine (w.StartVertex e) = uS at *
  generalize w.IsTurbine (w.EndVertex e) = uE at *
  clear hfin hf hb
  subst hflow
  cases sS <;> cases sE <;> cases bS <;> cases bE <;> cases uS <;> cases uE <;>
    simp at tS tE xS1 xS2 xS3 xE1 xE2 xE3 <;>
    simp at hfe hfr k1 k2 k3 hdrain ⊢ <;> omega

end wcp

namespace wcp

/-! ## The loops of a cancellation pass -/

open WindfarmResidual

namespace NegativeCycleCanceling

theorem endpoints_lt {inst : Instance} {w : WindfarmResidual} (hb : Built inst w) (e : Nat)
    (he : e < w.NumberOfEdges) :
    w.StartVertex e < w.NumberOfVertices ∧ w.EndVertex e < w.NumberOfVertices := by
  rw [hb.numberOfVertices]
  rcases hb.edge_cases e he with ⟨_, h1, h2⟩ | ⟨i, hi, _, c1, c2⟩ | ⟨i, hi, _, c1, c2⟩
  · omega
  · have := ((mem_substations_iff inst _).1 (substations_getD_mem inst i hi)).1
    rw [c1, c2]; omega
  · have := ((mem_substations_iff inst _).1 (substations_getD_mem inst i hi)).1
    rw [c1, c2]; omega

theorem foldl_cost_ne_top (w : WindfarmResidual) :
    ∀ (C : List Nat) (acc : WithTop ℚ),
      C.foldl (fun cost e => cost + w.ResidualCostOnEdge e) acc ≠ ⊤ →
        acc ≠ ⊤ ∧ ∀ e ∈ C, w.ResidualCostOnEdge e ≠ ⊤ := by
  intro C
  induction C with
  | nil => intro acc h; exact ⟨h, fun e he => absurd he (List.not_mem_nil e)⟩
  | cons x C ih =>
    intro acc h
    rw [List.foldl_cons] at h
    obtain ⟨h1, h2⟩ := ih _ h
    rw [ne_eq, WithTop.add_eq_top, not_or] at h1
    refine ⟨h1.1, ?_⟩
    intro e he
    rcases List.mem_cons.1 he with rfl | he
    · exact h1.2
    · exact h2 e he

/-- A walk of negative cost has no edge of infinite residual cost. -/
theorem costOfWalk_finite (w : WindfarmResidual) (C : List Nat) (h : CostOfWalk w C < 0) :
    ∀ e ∈ C, w.ResidualCostOnEdge e ≠ ⊤ :=
  (foldl_cost_ne_top w C 0 (ne_top_of_lt h)).2

theorem walkInv_congr {w' w : WindfarmResidual} (h : w'.IsStateOf w) (W : List Nat) (b : Nat)
    (V : List Bool) (hi : WalkInv w W b V) : WalkInv w' W b V := by
  obtain ⟨t1, t2, _, _, _, _, _, _, _, _, t11, t12, _⟩ := IsStateOf_topology h
  have f1 : w'.StartVertex = w.StartVertex := funext t1
  have f2 : w'.EndVertex = w.EndVertex := funext t2
  refine ⟨by rw [t12]; exact hi.lenV, by rw [f1]; exact hi.marks, hi.idx, ?_⟩
  intro hne
  obtain ⟨hc, hb, hn⟩ := hi.closed hne
  refine ⟨?_, hb, by rw [f1]; exact hn⟩
  unfold IsClosedWalk at hc ⊢
  rw [f1, f2, t11]
  exact hc

theorem setEndVertexVisited_congr {w' w : WindfarmResidual} (h : w'.IsStateOf w) :
    SetEndVertexVisited w' = SetEndVertexVisited w := by
  obtain ⟨_, t2, _⟩ := IsStateOf_topology h
  funext V e b
  unfold SetEndVertexVisited
  rw [t2]

theorem walk_split (W : List Nat) (a c : Nat) (h : a ≤ c + 1) :
    W = W.take a ++ ((W.take (c + 1)).drop a ++ W.drop (c + 1)) := by
  have h1 := (List.take_append_drop (c + 1) W).symm
  have h2 := (List.take_append_drop a (W.take (c + 1))).symm
  rw [List.take_take, min_eq_left h] at h2
  rw [← List.append_assoc, ← h2]
  exact h1

theorem trail_split (W : List Nat) (a c : Nat) (h : a ≤ c + 1) (hnd : W.Nodup) :
    ((W.take (c + 1)).drop a).Nodup ∧ (W.take a ++ W.drop (c + 1)).Nodup
      ∧ ∀ e ∈ W.take a ++ W.drop (c + 1), e ∉ (W.take (c + 1)).drop a := by
  have hs := walk_split W a c h
  have hp : List.Perm (W.take a ++ ((W.take (c + 1)).drop a ++ W.drop (c + 1)))
      ((W.take (c + 1)).drop a ++ (W.take a ++ W.drop (c + 1))) :=
    List.perm_append_comm_assoc _ _ _
  have hnd2 : (W.take a ++ ((W.take (c + 1)).drop a ++ W.drop (c + 1))).Nodup := by
    rw [← hs]; exact hnd
  have := hp.nodup_iff.1 hnd2
  rw [List.nodup_append] at this
  obtain ⟨n1, n2, n3⟩ := this
  exact ⟨n1, n2, fun e he hc => n3 hc he⟩

theorem eq_replicate_of_marks_nil (V : List Bool) (h : MarksExactly V []) :
    V = List.replicate V.length false := by
  rw [List.eq_replicate_iff]
  refine ⟨rfl, ?_⟩
  intro b hb
  obtain ⟨i, hi, rfl⟩ := List.mem_iff_getElem.1 hb
  have := h i
  rw [getD_eq_getElem_of_lt _ _ _ hi] at this
  cases hv : V[i] with
  | false => rfl
  | true => exact absurd (this.1 hv) (List.not_mem_nil i)

theorem marks_nil_replicate (n : Nat) : MarksExactly (List.replicate n false) [] := by
  intro v
  rw [getD_replicate_eq]
  simp

theorem cancelCycle_cases (st : NCCState) (C : List Nat) (d : Int) :
    ((CancelCycle st C d).2 = true ∧ CostOfWalk st.windfarm C < 0
        ∧ (CancelCycle st C d).1.windfarm = st.windfarm.AddFlowOnMultipleEdges C d
        ∧ (CancelCycle st C d).1.visitedVertex = st.visitedVertex)
      ∨ ((CancelCycle st C d).2 = false ∧ (CancelCycle st C d).1 = st) := by
  unfold CancelCycle
  simp only
  by_cases hc : (decide (C.length > 2) && decide (CostOfWalk st.windfarm C < 0)) = true
  · rw [if_pos hc]
    rw [Bool.and_eq_true] at hc
    exact Or.inl ⟨rfl, of_decide_eq_true hc.2, rfl, rfl⟩
  · rw [if_neg hc]
    exact Or.inr ⟨rfl, rfl⟩

/-- One iteration of the loop in `CancelNegativeWalk` keeps the loop invariant and makes
the walk shorter. -/
theorem cancelNegativeWalkStep_spec {inst : Instance} (d : Int) (wi : WindfarmResidual)
    (s : WalkLoopState) (hinv : CancelLoopInv inst d wi s) (hne : s.walk ≠ []) :
    ∃ s', CancelNegativeWalkStep s d = some s' ∧ CancelLoopInv inst d wi s'
      ∧ s'.walk.length < s.walk.length := by
  obtain ⟨hb, hwalk, hnd, hf, haug, hsame⟩ := hinv
  have hE := (hwalk.closed hne).1.2.1
  obtain ⟨a, c, V2, hfind, hac, hc, ⟨hC, _⟩, hW'⟩ :=
    walk_step _ _ _ _ hwalk hne (fun e he => endpoints_lt hb e (hE e he))
  obtain ⟨t1, t2, t3⟩ := trail_split s.walk a c (by omega) hnd
  have hsubC : ∀ e ∈ (s.walk.take (c + 1)).drop a, e ∈ s.walk :=
    fun e he => List.mem_of_mem_take (List.mem_of_mem_drop he)
  have hsubW : ∀ e ∈ s.walk.take a ++ s.walk.drop (c + 1), e ∈ s.walk := by
    intro e he
    rcases List.mem_append.1 he with h | h
    · exact List.mem_of_mem_take h
    · exact List.mem_of_mem_drop h
  have hlen : (s.walk.take a ++ s.walk.drop (c + 1)).length < s.walk.length := by
    rw [List.length_append, List.length_take, List.length_drop]; omega
  unfold CancelNegativeWalkStep
  rw [hfind]
  simp only
  rcases cancelCycle_cases { s.st with visitedVertex := V2 } ((s.walk.take (c + 1)).drop a) d
    with ⟨k1, k2, k3, k4⟩ | ⟨k1, k2⟩
  · have k3' : (CancelCycle { s.st with visitedVertex := V2 }
        ((s.walk.take (c + 1)).drop a) d).1.windfarm
          = s.st.windfarm.AddFlowOnMultipleEdges ((s.walk.take (c + 1)).drop a) d := k3
    have k4' : (CancelCycle { s.st with visitedVertex := V2 }
        ((s.walk.take (c + 1)).drop a) d).1.visitedVertex = V2 := k4
    have k2' : CostOfWalk s.st.windfarm ((s.walk.take (c + 1)).drop a) < 0 := k2
    obtain ⟨hst, hres⟩ := addFlowOnMultipleEdges_state ((s.walk.take (c + 1)).drop a) d
      s.st.windfarm
    have hfin := costOfWalk_finite _ _ k2'
    refine ⟨_, rfl, ⟨?_, ?_, t2, ?_, ?_, ?_⟩, hlen⟩
    · show Built inst (CancelCycle _ _ d).1.windfarm
      rw [k3']
      exact Built_of_isStateOf inst _ _ hb hst
    · show WalkInv (CancelCycle _ _ d).1.windfarm _ a
        (List.foldl (fun vis e => SetEndVertexVisited (CancelCycle _ _ d).1.windfarm vis e false)
          (CancelCycle _ _ d).1.visitedVertex _)
      rw [k3', k4', setEndVertexVisited_congr hst]
      exact walkInv_congr hst _ _ _ hW'
    · show FeasibleFlow (CancelCycle _ _ d).1.windfarm
      rw [k3']
      exact feasibleFlow_cancel hb hf _ hC t1 d
        (fun e he => haug e (hsubC e he) (hfin e he))
    · intro e he hr
      change (CancelCycle _ _ d).1.windfarm.ResidualCostOnEdge e ≠ ⊤ at hr
      show Augmentable (CancelCycle _ _ d).1.windfarm d e
      rw [k3'] at hr ⊢
      have hr' : s.st.windfarm.ResidualCostOnEdge e ≠ ⊤ := by
        unfold ResidualCostOnEdge at hr ⊢
        rw [hres] at hr
        exact hr
      exact augmentable_cancel hb hf _ (fun x hx => hE x (hsubC x hx)) t1 d e
        (hE e (hsubW e he)) (t3 e he) (haug e (hsubW e he) hr')
    · intro hcan
      change (s.canceledAnyCycle || (CancelCycle _ _ d).2) = false at hcan
      rw [k1, Bool.or_true] at hcan
      exact absurd hcan (by simp)
  · have k2' : (CancelCycle { s.st with visitedVertex := V2 }
        ((s.walk.take (c + 1)).drop a) d).1 = { s.st with visitedVertex := V2 } := k2
    refine ⟨_, rfl, ⟨?_, ?_, t2, ?_, ?_, ?_⟩, hlen⟩
    · show Built inst (CancelCycle _ _ d).1.windfarm
      rw [k2']
      exact hb
    · show WalkInv (CancelCycle _ _ d).1.windfarm _ a
        (List.foldl (fun vis e => SetEndVertexVisited (CancelCycle _ _ d).1.windfarm vis e false)
          (CancelCycle _ _ d).1.visitedVertex _)
      rw [k2']
      exact hW'
    · show FeasibleFlow (CancelCycle _ _ d).1.windfarm
      rw [k2']
      exact hf
    · intro e he hr
      change (CancelCycle _ _ d).1.windfarm.ResidualCostOnEdge e ≠ ⊤ at hr
      show Augmentable (CancelCycle _ _ d).1.windfarm d e
      rw [k2'] at hr ⊢
      exact haug e (hsubW e he) hr
    · intro hcan
      change (s.canceledAnyCycle || (CancelCycle _ _ d).2) = false at hcan
      rw [k1, Bool.or_false] at hcan
      show (CancelCycle _ _ d).1.windfarm = wi
      rw [k2']
      exact hsame hcan

/-- The loop of `CancelNegativeWalk` ends within as many iterations as the walk has edges,
with an empty walk and the loop invariant. -/
theorem cancelNegativeWalkLoop_spec {inst : Instance} (d : Int) (wi : WindfarmResidual) :
    ∀ (fuel : Nat) (s : WalkLoopState), CancelLoopInv inst d wi s → s.walk.length ≤ fuel →
      ∃ s', CancelNegativeWalkLoop fuel s d = some s' ∧ CancelLoopInv inst d wi s'
        ∧ s'.walk = [] := by
  intro fuel
  induction fuel with
  | zero =>
    intro s hinv hl
    have hnil : s.walk = [] := List.eq_nil_of_length_eq_zero (by omega)
    refine ⟨s, ?_, hinv, hnil⟩
    unfold CancelNegativeWalkLoop
    rw [if_pos (by rw [hnil]; rfl)]
  | succ n ih =>
    intro s hinv hl
    unfold CancelNegativeWalkLoop
    by_cases he : s.walk = []
    · rw [if_pos (by rw [he]; rfl)]
      exact ⟨s, rfl, hinv, he⟩
    · rw [if_neg (by simpa using he)]
      obtain ⟨s1, h1, h2, h3⟩ := cancelNegativeWalkStep_spec d wi s hinv he
      rw [h1]
      exact ih s1 h2 (by omega)

/-- On a closed trail whose edges of finite residual cost can all take `d` more units,
`CancelNegativeWalk` returns, with a feasible flow, all visited flags reset, and the
residual graph as before when it reports that nothing was cancelled. -/
theorem cancelNegativeWalk_spec {inst : Instance} (d : Int) (st : NCCState)
    (hb : Built inst st.windfarm) (hf : FeasibleFlow st.windfarm)
    (hvis : st.visitedVertex = List.replicate st.windfarm.NumberOfVertices false)
    (walk : List Nat) (ht : IsClosedTrail st.windfarm walk)
    (haug : ∀ e ∈ walk, st.windfarm.ResidualCostOnEdge e ≠ ⊤ → Augmentable st.windfarm d e)
    (isRegularNCCrun : Bool) :
    ∃ st' b, CancelNegativeWalk st walk d isRegularNCCrun = some (st', b)
      ∧ Built inst st'.windfarm ∧ FeasibleFlow st'.windfarm
      ∧ st'.visitedVertex = List.replicate st'.windfarm.NumberOfVertices false
      ∧ (b = false → st'.windfarm = st.windfarm) := by
  have hne : walk ≠ [] := ht.1.1
  have hpos : 0 < walk.length := List.length_pos.2 hne
  have hinv : CancelLoopInv inst d st.windfarm
      { st := st, walk := walk, currentIndex := 0, canceledAnyCycle := false } := by
    refine ⟨hb, ⟨?_, ?_, fun _ => rfl, ?_⟩, ht.2, hf, haug, fun _ => rfl⟩
    · show st.visitedVertex.length = _
      rw [hvis, List.length_replicate]
    · show MarksExactly st.visitedVertex _
      rw [hvis]
      exact marks_nil_replicate _
    · intro _
      refine ⟨ht.1, hpos, ?_⟩
      show ((walk.take 1).map st.windfarm.StartVertex).Nodup
      cases walk with
      | nil => exact List.nodup_nil
      | cons x xs => exact List.nodup_singleton _
  obtain ⟨s', h1, h2, h3⟩ := cancelNegativeWalkLoop_spec d st.windfarm walk.length _ hinv le_rfl
  unfold CancelNegativeWalk
  rw [h1]
  refine ⟨_, _, rfl, h2.built, h2.feasible, ?_, h2.unchanged⟩
  show s'.st.visitedVertex = _
  have hm := h2.walk.marks
  rw [h3, List.take_nil, List.map_nil] at hm
  have := eq_replicate_of_marks_nil _ hm
  rw [h2.walk.lenV] at this
  exact this

/-- The loop over the walks of the detection strategy returns with a feasible flow. -/
theorem extractWalkAndCancelCycle_spec {inst : Instance} (d : Int) (isRegularNCCrun : Bool) :
    ∀ (walks : List (List Nat)) (st : NCCState) (clock : List Bool),
      Built inst st.windfarm → FeasibleFlow st.windfarm →
      st.visitedVertex = List.replicate st.windfarm.NumberOfVertices false →
      (∀ walk ∈ walks, walk ≠ [] → IsClosedTrail st.windfarm walk) →
      (∀ e, e < st.windfarm.NumberOfEdges → st.windfarm.ResidualCostOnEdge e ≠ ⊤ →
        Augmentable st.windfarm d e) →
      ∃ st' b, ExtractWalkAndCancelCycle d isRegularNCCrun walks st clock = some (st', b)
        ∧ Built inst st'.windfarm ∧ FeasibleFlow st'.windfarm := by
  intro walks
  induction walks with
  | nil =>
    intro st clock hb hf _ _ _
    exact ⟨st, false, rfl, hb, hf⟩
  | cons walk rest ih =>
    intro st clock hb hf hvis hw haug
    unfold ExtractWalkAndCancelCycle
    by_cases h1 : walk.isEmpty = true
    · rw [if_pos h1]
      exact ⟨st, false, rfl, hb, hf⟩
    · rw [if_neg h1]
      by_cases h2 : (IsTimeLimitExceeded clock).1 = true
      · rw [if_pos h2]
        exact ⟨st, false, rfl, hb, hf⟩
      · rw [if_neg h2]
        have hne : walk ≠ [] := by
          intro h0
          apply h1
          rw [h0]
          rfl
        have ht := hw walk (List.mem_cons_self _ _) hne
        obtain ⟨st', b, c1, c2, c3, c4, c5⟩ := cancelNegativeWalk_spec d st hb hf hvis walk ht
          (fun e he => haug e (ht.1.2.1 e he)) isRegularNCCrun
        rw [c1]
        cases b with
        | true => exact ⟨st', true, rfl, c2, c3⟩
        | false =>
          have hsame := c5 rfl
          show ∃ st'' b, ExtractWalkAndCancelCycle d isRegularNCCrun rest st'
            (IsTimeLimitExceeded clock).2 = some (st'', b)
              ∧ Built inst st''.windfarm ∧ FeasibleFlow st''.windfarm
          apply ih st' _ c2 c3 c4
          · intro w' hw' hne'
            rw [hsame]
            exact hw w' (List.mem_cons_of_mem _ hw') hne'
          · rw [hsame]
            exact haug

theorem computeResidualCosts_frame (w : WindfarmResidual) (d : Int) :
    AssertFeasibleFlow (StandardResidualCostComputer.ComputeResidualCosts w d)
        = AssertFeasibleFlow w
      ∧ (StandardResidualCostComputer.ComputeResidualCosts w d).NumberOfVertices
        = w.NumberOfVertices
      ∧ (StandardResidualCostComputer.ComputeResidualCosts w d).NumberOfEdges = w.NumberOfEdges
      ∧ (∀ walk, IsClosedTrail w walk →
          IsClosedTrail (StandardResidualCostComputer.ComputeResidualCosts w d) walk)
      ∧ (∀ e, Augmentable w d e →
          Augmentable (StandardResidualCostComputer.ComputeResidualCosts w d) d e) := by
  unfold StandardResidualCostComputer.ComputeResidualCosts
  have h := (StandardResidualCostComputer.ComputeStandardResidualCosts_spec w d).1
  generalize StandardResidualCostComputer.ComputeStandardResidualCosts w d = wc at h
  rw [h]
  exact ⟨rfl, rfl, rfl, fun _ hw => hw, fun _ ha => ha⟩

end NegativeCycleCanceling

/-- C10: let the residual graph of the driver be a state of the graph that the constructor
builds for an instance, with a flow that passes `AssertFeasibleFlow` and all visited
flags of the driver reset, and let every non-empty walk that the detection strategy hands
out be a closed walk that uses no edge twice (what `BellmanFord::ExtractWalk` delivers).
Then for every `Δ ≥ 1` the call of `PerformNegativeCycleCancelingForSingleDelta` with the
standard residual costs returns, and the flow afterwards passes `AssertFeasibleFlow`
again. -/
theorem cancellation_pass_preserves_feasibility (inst : Instance) (w0 : WindfarmResidual)
    (h0 : WindfarmResidual.ofInstance inst = some w0) (st : NCCState)
    (hw : st.windfarm.IsStateOf w0)
    (hvis : st.visitedVertex = List.replicate st.windfarm.NumberOfVertices false)
    (hfeas : AssertFeasibleFlow st.windfarm = true) (delta : Int) (hd : 1 ≤ delta)
    (detection : WindfarmResidual → DetectionResult)
    (hdet : ∀ walk ∈
        (detection (StandardResidualCostComputer.ComputeResidualCosts st.windfarm delta)).walks,
      walk ≠ [] → IsClosedTrail st.windfarm walk)
    (isRegularNCCrun : Bool) (clock : List Bool) :
    ∃ code st',
      NegativeCycleCanceling.PerformNegativeCycleCancelingForSingleDelta detection st delta
          isRegularNCCrun clock = some (code, st')
        ∧ AssertFeasibleFlow st'.windfarm = true := by
  have hb : Built inst st.windfarm := built_of_state inst w0 _ h0 hw
  obtain ⟨f1, f2, f3, f4, f5⟩ :=
    NegativeCycleCanceling.computeResidualCosts_frame st.windfarm delta
  have hst : (StandardResidualCostComputer.ComputeResidualCosts st.windfarm delta).IsStateOf
      st.windfarm := StandardResidualCostComputer.ComputeStandardResidualCosts_isStateOf _ _
  have hbc := Built_of_isStateOf inst _ _ hb hst
  have hfc : AssertFeasibleFlow
      (StandardResidualCostComputer.ComputeResidualCosts st.windfarm delta) = true := by
    rw [f1]; exact hfeas
  have hff := (assertFeasibleFlow_iff hb).1 hfeas
  unfold NegativeCycleCanceling.PerformNegativeCycleCancelingForSingleDelta
  simp only
  by_cases c1 : (NegativeCycleCanceling.IsTimeLimitExceeded clock).1 = true
  · rw [if_pos c1]
    exact ⟨_, _, rfl, hfc⟩
  · rw [if_neg c1]
    by_cases c2 : (detection
        (StandardResidualCostComputer.ComputeResidualCosts st.windfarm delta)).code
          = ReturnCode.SUCCESS
    · rw [if_pos c2]
      obtain ⟨st', b, e1, e2, e3⟩ := NegativeCycleCanceling.extractWalkAndCancelCycle_spec delta
        isRegularNCCrun
        (detection (StandardResidualCostComputer.ComputeResidualCosts st.windfarm delta)).walks
        { st with windfarm :=
            StandardResidualCostComputer.ComputeResidualCosts st.windfarm delta }
        (NegativeCycleCanceling.IsTimeLimitExceeded clock).2 hbc
        ((assertFeasibleFlow_iff hbc).1 hfc)
        (by
          show st.visitedVertex = _
          rw [f2]; exact hvis)
        (fun walk hwalk hne => f4 walk (hdet walk hwalk hne))
        (by
          intro e he hr
          apply f5
          apply augmentable_of_finite_cost hb hff delta hd e (by rw [← f3]; exact he)
          rw [← residualCostOnEdge_computed inst st.windfarm hb delta e
            (by rw [← f3]; exact he)]
          exact hr)
      rw [e1]
      exact ⟨_, st', rfl, (assertFeasibleFlow_iff e2).2 e3⟩
    · rw [if_neg c2]
      exact ⟨_, _, rfl, hfc⟩

end wcp

namespace wcp

open WindfarmResidual

theorem triangle_closed_trail (flow : List Int) (costs : List (WithTop ℚ)) :
    IsClosedTrail (triangleGraph flow costs) [2, 1, 3] := by
  unfold IsClosedTrail IsClosedWalk
  refine ⟨⟨by decide, ?_, ?_, by rfl⟩, by decide⟩
  · intro e he
    have : e = 2 ∨ e = 1 ∨ e = 3 := by simpa using he
    have hn : (triangleGraph flow costs).NumberOfEdges = 8 := rfl
    rw [hn]
    omega
  · unfold List.Chain'
    refine List.Chain.cons (by rfl) (List.Chain.cons (by rfl) List.Chain.nil)

/-- The pass of the witness of C10, evaluated: the cycle `2, 1, 3` is cancelled, the flow
values become `[0, 2, 1, 2]` and all visited flags are reset. -/
theorem triangle_pass_cancels :
    (NegativeCycleCanceling.PerformNegativeCycleCancelingForSingleDelta
        (fun _ => { code := ReturnCode.SUCCESS, walks := [[2, 1, 3]] })
        { windfarm := triangleGraph [1, 1, 0, 2] [0, 0, 0, 0, 0, 0, 0, 0]
          visitedVertex := [false, false, false, false]
          walkID := 0
          solutionCosts := 0 } 1 true []).map
      (fun r => (r.1, r.2.windfarm.flowValues, r.2.visitedVertex))
      = some (ReturnCode.SUCCESS, [0, 2, 1, 2], [false, false, false, false]) := by
  with_unfolding_all rfl

/-- The walks of the detection strategy must not repeat an edge: for the closed walk
`2, 1, 3, 2, 1, 3` the second cycle is cancelled with the residual costs computed before
the first one was, and the flow `[-1, 3, 2, 2]` sends one unit from the substation to a
turbine. -/
theorem triangle_pass_repeated_edges :
    (NegativeCycleCanceling.PerformNegativeCycleCancelingForSingleDelta
        (fun _ => { code := ReturnCode.SUCCESS, walks := [[2, 1, 3, 2, 1, 3]] })
        { windfarm := triangleGraph [1, 1, 0, 2] [0, 0, 0, 0, 0, 0, 0, 0]
          visitedVertex := [false, false, false, false]
          walkID := 0
          solutionCosts := 0 } 1 true []).map
      (fun r => (r.1, r.2.windfarm.flowValues, AssertFeasibleFlow r.2.windfarm))
      = some (ReturnCode.SUCCESS, [-1, 3, 2, 2], false) := by
  with_unfolding_all rfl

/-- Witness of C10: on the triangle with the feasible flow `[1, 1, 0, 2]` and `Δ = 1`, the
detection strategy hands out the closed trail `2, 1, 3`; the pass returns and the flow
afterwards is feasible. -/
theorem cancellation_pass_preserves_feasibility_witness :
    AssertFeasibleFlow (triangleGraph [1, 1, 0, 2] [0, 0, 0, 0, 0, 0, 0, 0]) = true
      ∧ IsClosedTrail (triangleGraph [1, 1, 0, 2] [0, 0, 0, 0, 0, 0, 0, 0]) [2, 1, 3]
      ∧ ∃ code st',
          NegativeCycleCanceling.PerformNegativeCycleCancelingForSingleDelta
              (fun _ => { code := ReturnCode.SUCCESS, walks := [[2, 1, 3]] })
              { windfarm := triangleGraph [1, 1, 0, 2] [0, 0, 0, 0, 0, 0, 0, 0]
                visitedVertex := [false, false, false, false]
                walkID := 0
                solutionCosts := 0 } 1 true [] = some (code, st')
            ∧ AssertFeasibleFlow st'.windfarm = true :=
  ⟨by decide, triangle_closed_trail _ _,
    cancellation_pass_preserves_feasibility triangleInstance _ triangle_ofInstance
      { windfarm := triangleGraph [1, 1, 0, 2] [0, 0, 0, 0, 0, 0, 0, 0]
        visitedVertex := [false, false, false, false]
        walkID := 0
        solutionCosts := 0 }
      (triangle_isStateOf _ _ rfl rfl) rfl (by decide) 1 (by decide)
      (fun _ => { code := ReturnCode.SUCCESS, walks := [[2, 1, 3]] })
      (fun walk hw _ => by
        rw [List.mem_singleton.1 hw]
        exact triangle_closed_trail _ _)
      true []⟩

end wcp

namespace wcp

/-! ## Symmetry of the cost of a flow and the residual costs of an edge and its reverse -/

namespace Cabletypes

theorem fill_symmetric (caps costs : List Int) (m : Nat) :
    ∀ n, n ≤ m →
      ((List.range' 1 n).foldl (FillExpandedCostsStep caps costs m)
          (0, (List.replicate (2 * m + 1) (0 : Int)).set m 0)).2.length = 2 * m + 1
        ∧ ∀ k, k ≤ m →
          ((List.range' 1 n).foldl (FillExpandedCostsStep caps costs m)
              (0, (List.replicate (2 * m + 1) (0 : Int)).set m 0)).2.getD (m + k) 0
            = ((List.range' 1 n).foldl (FillExpandedCostsStep caps costs m)
              (0, (List.replicate (2 * m + 1) (0 : Int)).set m 0)).2.getD (m - k) 0 := by
  refine foldl_range'_inv
    (fun _ st => st.2.length = 2 * m + 1
      ∧ ∀ k, k ≤ m → st.2.getD (m + k) 0 = st.2.getD (m - k) 0)
    (FillExpandedCostsStep caps costs m)
    (0, (List.replicate (2 * m + 1) (0 : Int)).set m 0) m ?_ ?_
  · refine ⟨by simp, ?_⟩
    intro k _
    simp only [getD_set_eq, getD_replicate_eq, List.length_replicate]
    split_ifs <;> rfl
  · rintro n ⟨s, E⟩ hn ⟨hl, hs⟩
    simp only at hl hs
    unfold FillExpandedCostsStep
    refine ⟨by simp [hl], ?_⟩
    intro k hk
    simp only
    rw [getD_fill_step E m (n + 1) _ _ hl (by omega),
      getD_fill_step E m (n + 1) _ _ hl (by omega)]
    by_cases c : k = n + 1
    · rw [if_pos (Or.inr (by omega)), if_pos (Or.inl (by omega))]
    · rw [if_neg (by omega), if_neg (by omega)]
      exact hs k hk

/-- The cost of a flow does not depend on its direction, for cable types built from
breakpoints. -/
theorem CostOfFlow_neg (caps costs : List Int) (ct : Cabletypes)
    (h : ofBreakpoints caps costs = some ct) (x : Int) :
    ct.CostOfFlow (-x) = ct.CostOfFlow x := by
  unfold ofBreakpoints at h
  simp only [] at h
  cases hm : caps[costs.length - 1]? with
  | none =>
    rw [hm] at h
    split_ifs at h
  | some m =>
    rw [hm] at h
    simp only [] at h
    split_ifs at h with h1 h2 h3 h4 h5
    injection h with h
    subst h
    have hm0 : 0 ≤ m := by omega
    have e : (2 * m + 1).toNat = 2 * m.toNat + 1 := by omega
    obtain ⟨hl, hs⟩ := fill_symmetric caps costs m.toNat m.toNat le_rfl
    unfold CostOfFlow MaximumCapacity
    simp only
    rw [e, FillExpandedCosts_replicate]
    by_cases c : x < -m ∨ x > m
    · rw [if_pos c, if_pos (by omega)]
    · rw [if_neg c, if_neg (by omega), hl]
      have hhalf : (2 * m.toNat + 1) / 2 = m.toNat := by omega
      rw [hhalf]
      by_cases c0 : 0 ≤ x
      · have e1 : ((m.toNat : Int) + -x).toNat = m.toNat - x.toNat := by omega
        have e2 : ((m.toNat : Int) + x).toNat = m.toNat + x.toNat := by omega
        rw [e1, e2]
        exact (hs x.toNat (by omega)).symm
      · have e1 : ((m.toNat : Int) + -x).toNat = m.toNat + (-x).toNat := by omega
        have e2 : ((m.toNat : Int) + x).toNat = m.toNat - (-x).toNat := by omega
        rw [e1, e2]
        exact hs (-x).toNat (by omega)

end Cabletypes

open WindfarmResidual

theorem create_costOfFlow_neg (nodes : List InstanceNode) (edges : List InstanceEdge)
    (caps costs : List Int) (inst : Instance)
    (h : Instance.create nodes edges caps costs = some inst) (x : Int) :
    inst.cabletypes.CostOfFlow (-x) = inst.cabletypes.CostOfFlow x := by
  unfold Instance.create at h
  cases hc : Cabletypes.ofBreakpoints caps costs with
  | none => rw [hc] at h; exact absurd h (by simp)
  | some c =>
    rw [hc] at h
    simp only [] at h
    injection h with h
    subst h
    exact Cabletypes.CostOfFlow_neg caps costs c hc x

/-- A finite standard residual cost is `0` on an edge at the super substation and the
difference of the costs of the two flows times the length on every other edge. -/
theorem residualCosts_value (w : WindfarmResidual) (e : Nat) (d : Int)
    (hfin : StandardResidualCostComputer.ResidualCosts w e d ≠ ⊤) :
    ((w.IsSuperSubstation (w.StartVertex e) = true ∨ w.IsSuperSubstation (w.EndVertex e) = true) →
        StandardResidualCostComputer.ResidualCosts w e d = 0)
      ∧ (w.IsSuperSubstation (w.StartVertex e) = false →
          w.IsSuperSubstation (w.EndVertex e) = false →
            StandardResidualCostComputer.ResidualCosts w e d
              = ((((w.cabletypes.CostOfFlow (w.FlowOnEdge e + d)
                    - w.cabletypes.CostOfFlow (w.FlowOnEdge e) : Int) : ℚ) * w.Length e : ℚ) :
                  WithTop ℚ)) := by
  unfold StandardResidualCostComputer.ResidualCosts
    StandardResidualCostComputer.ResidualCostForNonSupersubstationEdge at hfin ⊢
  simp only at hfin ⊢
  refine ⟨?_, ?_⟩
  · intro h
    by_cases h1 : w.IsSuperSubstation (w.StartVertex e) = true
    · rw [if_pos h1] at hfin ⊢
      by_cases c : d ≤ -w.FlowOnEdge e
      · rw [if_pos c]
      · rw [if_neg c] at hfin
        exact absurd rfl hfin
    · rw [if_neg h1] at hfin ⊢
      have h2 : w.IsSuperSubstation (w.EndVertex e) = true := by
        rcases h with h | h
        · exact absurd h h1
        · exact h
      rw [if_pos h2] at hfin ⊢
      by_cases c : d ≤ w.FreeSubstationCapacity (w.StartVertex e)
      · rw [if_pos c]
      · rw [if_neg c] at hfin
        exact absurd rfl hfin
  · intro h1 h2
    have h1' : ¬ (w.IsSuperSubstation (w.StartVertex e) = true) := by rw [h1]; simp
    have h2' : ¬ (w.IsSuperSubstation (w.EndVertex e) = true) := by rw [h2]; simp
    rw [if_neg h1', if_neg h2'] at hfin ⊢
    by_cases c : d ≤ (if w.IsSubstation (w.StartVertex e) = true then -w.FlowOnEdge e
        else w.FreeEdgeCapacity e)
    · rw [if_pos c]
    · rw [if_neg c] at hfin
      exact absurd rfl hfin

theorem builtEdge_length (inst : Instance) (e : Nat) :
    (builtEdge inst e).length =
      if e < inst.edges.length then (inst.edges.getD e default).length
      else if e < 2 * inst.edges.length then
        (inst.edges.getD (e - inst.edges.length) default).length
      else 0 := by
  unfold builtEdge
  simp only
  split_ifs <;> rfl

theorem Built.length_reverse {inst : Instance} {w : WindfarmResidual} (hb : Built inst w)
    (e : Nat) (he : e < w.NumberOfEdges) : w.Length (w.ReverseEdgeIndex e) = w.Length e := by
  rw [hb.length_eq, hb.length_eq, builtEdge_length, builtEdge_length]
  have hNE := hb.numberOfEdges
  unfold ReverseEdgeIndex
  rw [hb.numberOfOriginalEdges, hb.numberOfSubstations]
  by_cases c1 : e < inst.edges.length
  · rw [if_pos c1, if_pos c1, if_neg (by omega), if_pos (by omega)]
    congr 2
    omega
  · rw [if_neg c1, if_neg c1]
    by_cases c2 : e < 2 * inst.edges.length
    · rw [if_pos c2, if_pos (by omega), if_pos c2]
    · rw [if_neg c2, if_neg c2]
      by_cases c3 : e < 2 * inst.edges.length + inst.substations.length
      · rw [if_pos c3, if_neg (by omega), if_neg (by omega)]
      · rw [if_neg c3, if_neg (by omega), if_neg (by omega)]

theorem residualCosts_reverse (nodes : List InstanceNode) (edges : List InstanceEdge)
    (caps costs : List Int) (inst : Instance) (w : WindfarmResidual)
    (hinst : Instance.create nodes edges caps costs = some inst) (hb : Built inst w)
    (e : Nat) (he : e < w.NumberOfEdges) (delta : Int)
    (h1 : StandardResidualCostComputer.ResidualCosts w e delta ≠ ⊤)
    (h2 : StandardResidualCostComputer.ResidualCosts w (w.ReverseEdgeIndex e) (-delta) ≠ ⊤) :
    StandardResidualCostComputer.ResidualCosts w (w.ReverseEdgeIndex e) (-delta)
      = StandardResidualCostComputer.ResidualCosts w e delta := by
  obtain ⟨a1, a2⟩ := residualCosts_value w e delta h1
  obtain ⟨b1, b2⟩ := residualCosts_value w (w.ReverseEdgeIndex e) (-delta) h2
  obtain ⟨r1, r2⟩ := hb.reverse_endpoints e he
  rw [r1, r2] at b1 b2
  by_cases c : w.IsSuperSubstation (w.StartVertex e) = true
      ∨ w.IsSuperSubstation (w.EndVertex e) = true
  · rw [a1 c, b1 (Or.symm c)]
  · have c1 : w.IsSuperSubstation (w.StartVertex e) = false := by
      cases hc : w.IsSuperSubstation (w.StartVertex e)
      · rfl
      · exact absurd (Or.inl hc) c
    have c2 : w.IsSuperSubstation (w.EndVertex e) = false := by
      cases hc : w.IsSuperSubstation (w.EndVertex e)
      · rfl
      · exact absurd (Or.inr hc) c
    rw [a2 c1 c2, b2 c2 c1, hb.length_reverse e he]
    have hflow := FlowOnEdge_reverse w e (by rw [← hb.numberOfEdges_eq]; exact he)
    have hct : w.cabletypes = inst.cabletypes := hb.base.ct
    have e1 : w.FlowOnEdge (w.ReverseEdgeIndex e) + -delta = -(w.FlowOnEdge e + delta) := by
      rw [hflow]; ring
    have e2 : w.FlowOnEdge (w.ReverseEdgeIndex e) = -w.FlowOnEdge e := by
      rw [hflow]; ring
    rw [e1, hct, create_costOfFlow_neg nodes edges caps costs inst hinst, e2,
      create_costOfFlow_neg nodes edges caps costs inst hinst]

theorem triangle_residualCosts_5 :
    StandardResidualCostComputer.ResidualCosts
        (triangleGraph [0, 2, 1, 2] [0, 0, 0, 0, 0, 0, 0, 0]) 5 1 = ((-20 : ℚ) : WithTop ℚ) := by
  with_unfolding_all rfl

theorem triangle_residualCosts_2 :
    StandardResidualCostComputer.ResidualCosts
        (triangleGraph [0, 2, 1, 2] [0, 0, 0, 0, 0, 0, 0, 0])
        ((triangleGraph [0, 2, 1, 2] [0, 0, 0, 0, 0, 0, 0, 0]).ReverseEdgeIndex 5) (-1)
      = ((-20 : ℚ) : WithTop ℚ) := by
  with_unfolding_all rfl

/-- C12, as stated, fails: on the triangle with the feasible flow `[0, 2, 1, 2]` the edge 5
(from turbine 1 to turbine 0, flow `-1`) has the residual cost `-20` for `Δ = 1`, its reverse
edge 2 has the residual cost `-20` for `-Δ`, and the sum `-40` is negative. -/
theorem reverse_edge_costs_sum_negative :
    AssertFeasibleFlow (triangleGraph [0, 2, 1, 2] [0, 0, 0, 0, 0, 0, 0, 0]) = true
      ∧ StandardResidualCostComputer.ResidualCosts
          (triangleGraph [0, 2, 1, 2] [0, 0, 0, 0, 0, 0, 0, 0]) 5 1 ≠ ⊤
      ∧ StandardResidualCostComputer.ResidualCosts
          (triangleGraph [0, 2, 1, 2] [0, 0, 0, 0, 0, 0, 0, 0])
          ((triangleGraph [0, 2, 1, 2] [0, 0, 0, 0, 0, 0, 0, 0]).ReverseEdgeIndex 5) (-1) ≠ ⊤
      ∧ ¬ (StandardResidualCostComputer.ResidualCosts
            (triangleGraph [0, 2, 1, 2] [0, 0, 0, 0, 0, 0, 0, 0]) 5 1
          + StandardResidualCostComputer.ResidualCosts
            (triangleGraph [0, 2, 1, 2] [0, 0, 0, 0, 0, 0, 0, 0])
            ((triangleGraph [0, 2, 1, 2] [0, 0, 0, 0, 0, 0, 0, 0]).ReverseEdgeIndex 5) (-1)
          ≥ 0) := by
  rw [triangle_residualCosts_5, triangle_residualCosts_2]
  refine ⟨by decide, WithTop.coe_ne_top, WithTop.coe_ne_top, ?_⟩
  rw [← WithTop.coe_add, ge_iff_le, ← WithTop.coe_zero, WithTop.coe_le_coe]
  norm_num

/-- C12, amended: in every state of the residual graph that the constructor builds for an
instance whose cable types come from breakpoints, for every edge `e` and every `Δ` for
which both residual costs are finite, the residual cost of the reverse edge for `-Δ`
equals the residual cost of `e` for `Δ` (both price the same change of the flow); so their
sum is at least `0` exactly when the residual cost of `e` for `Δ` is. -/
theorem reverse_edge_costs_agree (nodes : List InstanceNode) (edges : List InstanceEdge)
    (caps costs : List Int) (inst : Instance) (w0 w : WindfarmResidual)
    (hinst : Instance.create nodes edges caps costs = some inst)
    (h0 : WindfarmResidual.ofInstance inst = some w0) (hw : w.IsStateOf w0)
    (e : Nat) (he : e < w.NumberOfEdges) (delta : Int)
    (h1 : StandardResidualCostComputer.ResidualCosts w e delta ≠ ⊤)
    (h2 : StandardResidualCostComputer.ResidualCosts w (w.ReverseEdgeIndex e) (-delta) ≠ ⊤) :
    StandardResidualCostComputer.ResidualCosts w (w.ReverseEdgeIndex e) (-delta)
        = StandardResidualCostComputer.ResidualCosts w e delta
      ∧ (StandardResidualCostComputer.ResidualCosts w e delta
            + StandardResidualCostComputer.ResidualCosts w (w.ReverseEdgeIndex e) (-delta) ≥ 0
          ↔ StandardResidualCostComputer.ResidualCosts w e delta ≥ 0) := by
  have hb : Built inst w := built_of_state inst w0 w h0 hw
  have heq := residualCosts_reverse nodes edges caps costs inst w hinst hb e he delta h1 h2
  refine ⟨heq, ?_⟩
  rw [heq]
  obtain ⟨q, hq⟩ := WithTop.ne_top_iff_exists.1 h1
  rw [← hq, ← WithTop.coe_add, ge_iff_le, ge_iff_le, ← WithTop.coe_zero, WithTop.coe_le_coe,
    WithTop.coe_le_coe]
  constructor <;> intro h <;> linarith

/-- Witness of C12 (amended): the edge 5 of the triangle with the flow `[0, 2, 1, 2]` and
`Δ = 1`. -/
theorem reverse_edge_costs_agree_witness :
    StandardResidualCostComputer.ResidualCosts
        (triangleGraph [0, 2, 1, 2] [0, 0, 0, 0, 0, 0, 0, 0])
        ((triangleGraph [0, 2, 1, 2] [0, 0, 0, 0, 0, 0, 0, 0]).ReverseEdgeIndex 5) (-1)
        = StandardResidualCostComputer.ResidualCosts
          (triangleGraph [0, 2, 1, 2] [0, 0, 0, 0, 0, 0, 0, 0]) 5 1
      ∧ (StandardResidualCostComputer.ResidualCosts
            (triangleGraph [0, 2, 1, 2] [0, 0, 0, 0, 0, 0, 0, 0]) 5 1
          + StandardResidualCostComputer.ResidualCosts
            (triangleGraph [0, 2, 1, 2] [0, 0, 0, 0, 0, 0, 0, 0])
            ((triangleGraph [0, 2, 1, 2] [0, 0, 0, 0, 0, 0, 0, 0]).ReverseEdgeIndex 5) (-1) ≥ 0
          ↔ StandardResidualCostComputer.ResidualCosts
            (triangleGraph [0, 2, 1, 2] [0, 0, 0, 0, 0, 0, 0, 0]) 5 1 ≥ 0) :=
  reverse_edge_costs_agree _ _ _ _ triangleInstance _
    (triangleGraph [0, 2, 1, 2] [0, 0, 0, 0, 0, 0, 0, 0]) triangle_create triangle_ofInstance
    (triangle_isStateOf _ _ rfl rfl) 5 (by decide) 1
    (by rw [triangle_residualCosts_5]; exact WithTop.coe_ne_top)
    (by rw [triangle_residualCosts_2]; exact WithTop.coe_ne_top)

end wcp

namespace wcp

/-! ## The slices that `CancelNegativeWalk` hands to `CancelCycle` -/

open WindfarmResidual

namespace NegativeCycleCanceling

theorem cancelCycle_eq (st : NCCState) (C : List Nat) (d : Int) :
    CancelCycle st C d =
      if CycleWillBeCanceled st.windfarm C = true then
        ({ st with
            solutionCosts := st.solutionCosts + CostOfWalk st.windfarm C
            windfarm := st.windfarm.AddFlowOnMultipleEdges C d }, true)
      else (st, false) := rfl

theorem costOfWalk_congr {w' w : WindfarmResidual} (h : w'.residualCosts = w.residualCosts)
    (C : List Nat) : CostOfWalk w' C = CostOfWalk w C := by
  unfold CostOfWalk ResidualCostOnEdge
  rw [h]

theorem cycleWillBeCanceled_congr {w' w : WindfarmResidual}
    (h : w'.residualCosts = w.residualCosts) (C : List Nat) :
    CycleWillBeCanceled w' C = CycleWillBeCanceled w C := by
  unfold CycleWillBeCanceled
  rw [costOfWalk_congr h]

theorem isSimpleCycle_congr {w' w : WindfarmResidual} (h : w'.IsStateOf w) (C : List Nat) :
    IsSimpleCycle w' C ↔ IsSimpleCycle w C := by
  obtain ⟨t1, t2, _, _, _, _, _, _, _, _, t11, _⟩ := IsStateOf_topology h
  have f1 : w'.StartVertex = w.StartVertex := funext t1
  have f2 : w'.EndVertex = w.EndVertex := funext t2
  unfold IsSimpleCycle IsClosedWalk
  rw [f1, f2, t11]

/-- One iteration of the loop in `CancelNegativeWalk`, on a walk that satisfies the
invariant of the loop: what is handed to `CancelCycle` and what the iteration leaves. -/
theorem cancelNegativeWalkStep_desc {inst : Instance} (d : Int) (s : WalkLoopState)
    (hb : Built inst s.st.windfarm)
    (hwalk : WalkInv s.st.windfarm s.walk s.currentIndex s.st.visitedVertex)
    (hne : s.walk ≠ []) :
    ∃ a c V2 s',
      FindCycle s.st.windfarm s.walk s.st.visitedVertex s.currentIndex = some (a, c + 1, V2)
        ∧ CancelNegativeWalkStep s d = some s'
        ∧ a ≤ c ∧ c < s.walk.length
        ∧ IsSimpleCycle s.st.windfarm ((s.walk.take (c + 1)).drop a)
        ∧ s'.walk = s.walk.take a ++ s.walk.drop (c + 1)
        ∧ s'.st.windfarm =
            (if CycleWillBeCanceled s.st.windfarm ((s.walk.take (c + 1)).drop a) = true then
              s.st.windfarm.AddFlowOnMultipleEdges ((s.walk.take (c + 1)).drop a) d
            else s.st.windfarm)
        ∧ s'.st.solutionCosts =
            (if CycleWillBeCanceled s.st.windfarm ((s.walk.take (c + 1)).drop a) = true then
              s.st.solutionCosts + CostOfWalk s.st.windfarm ((s.walk.take (c + 1)).drop a)
            else s.st.solutionCosts)
        ∧ s'.st.walkID = s.st.walkID
        ∧ s'.canceledAnyCycle =
            (s.canceledAnyCycle
              || CycleWillBeCanceled s.st.windfarm ((s.walk.take (c + 1)).drop a))
        ∧ Built inst s'.st.windfarm
        ∧ WalkInv s'.st.windfarm s'.walk s'.currentIndex s'.st.visitedVertex
        ∧ s'.st.windfarm.IsStateOf s.st.windfarm
        ∧ s'.st.windfarm.residualCosts = s.st.windfarm.residualCosts := by
  have hE := (hwalk.closed hne).1.2.1
  obtain ⟨a, c, V2, hfind, hac, hc, hC, hW'⟩ :=
    walk_step _ _ _ _ hwalk hne (fun e he => endpoints_lt hb e (hE e he))
  refine ⟨a, c, V2, ?_⟩
  unfold CancelNegativeWalkStep
  rw [hfind]
  simp only
  rw [cancelCycle_eq]
  by_cases hcw : CycleWillBeCanceled s.st.windfarm ((s.walk.take (c + 1)).drop a) = true
  · obtain ⟨hst, hres⟩ := addFlowOnMultipleEdges_state ((s.walk.take (c + 1)).drop a) d
      s.st.windfarm
    rw [if_pos hcw]
    refine ⟨_, trivial, rfl, hac, hc, hC, rfl, ?_, ?_, rfl, ?_, ?_, ?_, ?_, ?_⟩
    · rw [if_pos hcw]
    · rw [if_pos hcw]
    · rw [hcw]
    · exact Built_of_isStateOf inst _ _ hb hst
    · show WalkInv (s.st.windfarm.AddFlowOnMultipleEdges _ d) _ a
        (List.foldl
          (fun vis e => SetEndVertexVisited (s.st.windfarm.AddFlowOnMultipleEdges _ d) vis e false)
          V2 _)
      rw [setEndVertexVisited_congr hst]
      exact walkInv_congr hst _ _ _ hW'
    · exact hst
    · exact hres
  · rw [if_neg hcw]
    have hcw' : CycleWillBeCanceled s.st.windfarm ((s.walk.take (c + 1)).drop a) = false := by
      cases h : CycleWillBeCanceled s.st.windfarm ((s.walk.take (c + 1)).drop a)
      · rfl
      · exact absurd h hcw
    refine ⟨_, trivial, rfl, hac, hc, hC, rfl, ?_, ?_, rfl, ?_, hb, hW', IsStateOf_refl _, rfl⟩
    · rw [if_neg hcw]
    · rw [if_neg hcw]
    · rw [hcw']

/-- The loop of `CancelNegativeWalk` on a walk that satisfies its invariant: it ends with
an empty walk, the slices handed to `CancelCycle` are simple cycles, together they are the
edges of the walk, and the flow is changed on exactly the slices that `CancelCycle`
cancels. -/
theorem cancelNegativeWalkLoop_slices {inst : Instance} (d : Int) :
    ∀ (fuel : Nat) (s : WalkLoopState), Built inst s.st.windfarm →
      WalkInv s.st.windfarm s.walk s.currentIndex s.st.visitedVertex → s.walk.length ≤ fuel →
      ∃ s', CancelNegativeWalkLoop fuel s d = some s' ∧ s'.walk = []
        ∧ (∀ C ∈ CancelNegativeWalkSlices fuel s d, IsSimpleCycle s.st.windfarm C)
        ∧ List.Perm (CancelNegativeWalkSlices fuel s d).flatten s.walk
        ∧ s'.st.windfarm = (CancelNegativeWalkSlices fuel s d).foldl
            (fun w C => if CycleWillBeCanceled s.st.windfarm C = true then
              w.AddFlowOnMultipleEdges C d else w) s.st.windfarm
        ∧ s'.canceledAnyCycle = (s.canceledAnyCycle
            || (CancelNegativeWalkSlices fuel s d).any (CycleWillBeCanceled s.st.windfarm))
        ∧ s'.st.visitedVertex = List.replicate s.st.windfarm.NumberOfVertices false
        ∧ s'.st.walkID = s.st.walkID := by
  intro fuel
  induction fuel with
  | zero =>
    intro s _ hwalk hl
    have hnil : s.walk = [] := List.eq_nil_of_length_eq_zero (by omega)
    have hm := hwalk.marks
    rw [hnil, List.take_nil, List.map_nil] at hm
    have hv := eq_replicate_of_marks_nil _ hm
    rw [hwalk.lenV] at hv
    refine ⟨s, ?_, hnil, ?_, ?_, ?_, ?_, hv, rfl⟩
    · unfold CancelNegativeWalkLoop
      rw [if_pos (by rw [hnil]; rfl)]
    · intro C hC
      exact absurd hC (List.not_mem_nil C)
    · rw [hnil]
      exact List.Perm.refl _
    · rfl
    · show s.canceledAnyCycle = (s.canceledAnyCycle || false)
      rw [Bool.or_false]
  | succ n ih =>
    intro s hb hwalk hl
    by_cases he : s.walk = []
    · have hm := hwalk.marks
      rw [he, List.take_nil, List.map_nil] at hm
      have hv := eq_replicate_of_marks_nil _ hm
      rw [hwalk.lenV] at hv
      have hsl : CancelNegativeWalkSlices (n + 1) s d = [] := by
        unfold CancelNegativeWalkSlices
        rw [if_pos (by rw [he]; rfl)]
      rw [hsl]
      refine ⟨s, ?_, he, ?_, ?_, rfl, ?_, hv, rfl⟩
      · unfold CancelNegativeWalkLoop
        rw [if_pos (by rw [he]; rfl)]
      · intro C hC
        exact absurd hC (List.not_mem_nil C)
      · rw [he]
        exact List.Perm.refl _
      · show s.canceledAnyCycle = (s.canceledAnyCycle || false)
        rw [Bool.or_false]
    · obtain ⟨a, c, V2, s1, hfind, hstep, hac, hc, hC, k1, k2, _, k4, k5, hb1, hw1, hst1, hres1⟩ :=
        cancelNegativeWalkStep_desc d s hb hwalk he
      have hlen1 : s1.walk.length ≤ n := by
        rw [k1, List.length_append, List.length_take, List.length_drop]
        omega
      obtain ⟨s', i1, i2, i3, i4, i5, i6, i7, i8⟩ := ih s1 hb1 hw1 hlen1
      have hsl : CancelNegativeWalkSlices (n + 1) s d
          = ((s.walk.take (c + 1)).drop a) :: CancelNegativeWalkSlices n s1 d := by
        rw [CancelNegativeWalkSlices, if_neg (by simpa using he), hfind]
        simp only
        rw [hstep]
      have hloop : CancelNegativeWalkLoop (n + 1) s d = CancelNegativeWalkLoop n s1 d := by
        rw [CancelNegativeWalkLoop, if_neg (by simpa using he), hstep]
      have hcwb : CycleWillBeCanceled s1.st.windfarm = CycleWillBeCanceled s.st.windfarm :=
        funext (cycleWillBeCanceled_congr hres1)
      rw [hsl, hloop]
      refine ⟨s', i1, i2, ?_, ?_, ?_, ?_, ?_, ?_⟩
      · intro C hCm
        rcases List.mem_cons.1 hCm with rfl | hCm
        · exact hC
        · exact (isSimpleCycle_congr hst1 C).1 (i3 C hCm)
      · rw [List.flatten_cons]
        have h1 : List.Perm ((s.walk.take (c + 1)).drop a ++ (CancelNegativeWalkSlices n s1 d).flatten)
            ((s.walk.take (c + 1)).drop a ++ (s.walk.take a ++ s.walk.drop (c + 1))) := by
          rw [← k1]
          exact List.Perm.append_left _ i4
        have h2 := List.perm_append_comm_assoc ((s.walk.take (c + 1)).drop a) (s.walk.take a)
          (s.walk.drop (c + 1))
        have h3 := walk_split s.walk a c (by omega)
        refine (h1.trans h2).trans ?_
        rw [← h3]
      · rw [List.foldl_cons, ← k2, i5, hcwb]
      · rw [i6, k5, List.any_cons, hcwb, Bool.or_assoc]
      · rw [i7]
        congr 1
        exact (IsStateOf_topology hst1).2.2.2.2.2.2.2.2.2.2.2.1
      · rw [i8, k4]

end NegativeCycleCanceling

theorem triangle_closed_walk (flow : List Int) (costs : List (WithTop ℚ)) :
    IsClosedWalk (triangleGraph flow costs) [2, 1, 3, 0, 4, 5] := by
  unfold IsClosedWalk
  refine ⟨by decide, ?_, ?_, by rfl⟩
  · intro e he
    have : e = 2 ∨ e = 1 ∨ e = 3 ∨ e = 0 ∨ e = 4 ∨ e = 5 := by simpa using he
    have hn : (triangleGraph flow costs).NumberOfEdges = 8 := rfl
    rw [hn]
    omega
  · unfold List.Chain'
    refine List.Chain.cons (by rfl) (List.Chain.cons (by rfl) (List.Chain.cons (by rfl)
      (List.Chain.cons (by rfl) (List.Chain.cons (by rfl) List.Chain.nil))))

/-- C16: let the residual graph of the driver be a state of the graph that the constructor
builds for an instance and let all visited flags be reset.  For every closed walk of edges
of the graph, the loop of `CancelNegativeWalk` ends with the walk empty; every slice it
hands to `CancelCycle` is a simple cycle (a closed walk that starts at no vertex twice);
the slices together are a rearrangement of the edges of the walk; the residual graph
afterwards is the one before with `Δ` added along exactly those slices that have more than
two edges and a negative sum of residual costs; and the result is `true` iff there is such
a slice. -/
theorem cancelNegativeWalk_cancels_simple_cycles (inst : Instance) (w0 : WindfarmResidual)
    (h0 : WindfarmResidual.ofInstance inst = some w0) (st : NCCState)
    (hw : st.windfarm.IsStateOf w0)
    (hvis : st.visitedVertex = List.replicate st.windfarm.NumberOfVertices false)
    (walk : List Nat) (hwalk : IsClosedWalk st.windfarm walk) (delta : Int)
    (isRegularNCCrun : Bool) :
    ∃ s, NegativeCycleCanceling.CancelNegativeWalkLoop walk.length
          { st := st, walk := walk, currentIndex := 0, canceledAnyCycle := false } delta = some s
      ∧ s.walk = []
      ∧ NegativeCycleCanceling.CancelNegativeWalk st walk delta isRegularNCCrun
          = some ({ s.st with
              walkID := if isRegularNCCrun then s.st.walkID + 1 else s.st.walkID },
            s.canceledAnyCycle)
      ∧ (∀ C ∈ NegativeCycleCanceling.CancelNegativeWalkSlices walk.length
            { st := st, walk := walk, currentIndex := 0, canceledAnyCycle := false } delta,
          IsSimpleCycle st.windfarm C)
      ∧ List.Perm (NegativeCycleCanceling.CancelNegativeWalkSlices walk.length
            { st := st, walk := walk, currentIndex := 0, canceledAnyCycle := false }
            delta).flatten walk
      ∧ s.st.windfarm = (NegativeCycleCanceling.CancelNegativeWalkSlices walk.length
            { st := st, walk := walk, currentIndex := 0, canceledAnyCycle := false }
            delta).foldl
          (fun w C => if NegativeCycleCanceling.CycleWillBeCanceled st.windfarm C = true then
            w.AddFlowOnMultipleEdges C delta else w) st.windfarm
      ∧ (s.canceledAnyCycle = true ↔
          ∃ C ∈ NegativeCycleCanceling.CancelNegativeWalkSlices walk.length
            { st := st, walk := walk, currentIndex := 0, canceledAnyCycle := false } delta,
            NegativeCycleCanceling.CycleWillBeCanceled st.windfarm C = true) := by
  have hb : Built inst st.windfarm := built_of_state inst w0 _ h0 hw
  have hne : walk ≠ [] := hwalk.1
  have hpos : 0 < walk.length := List.length_pos.2 hne
  have hinv : WalkInv st.windfarm walk 0 st.visitedVertex := by
    refine ⟨?_, ?_, fun _ => rfl, ?_⟩
    · rw [hvis, List.length_replicate]
    · rw [hvis]
      exact NegativeCycleCanceling.marks_nil_replicate _
    · intro _
      refine ⟨hwalk, hpos, ?_⟩
      cases walk with
      | nil => exact List.nodup_nil
      | cons x xs => exact List.nodup_singleton _
  obtain ⟨s, i1, i2, i3, i4, i5, i6, _, _⟩ :=
    NegativeCycleCanceling.cancelNegativeWalkLoop_slices delta walk.length
      { st := st, walk := walk, currentIndex := 0, canceledAnyCycle := false } hb hinv le_rfl
  refine ⟨s, i1, i2, ?_, i3, i4, i5, ?_⟩
  · unfold NegativeCycleCanceling.CancelNegativeWalk
    rw [i1]
  · rw [i6]
    simp only [Bool.false_or, List.any_eq_true]

/-- The standard residual costs of the triangle with the flow `[1, 1, 0, 2]` for
`Δ = 1`. -/
theorem triangle_costs_computed :
    StandardResidualCostComputer.ComputeResidualCosts
        (triangleGraph [1, 1, 0, 2] [0, 0, 0, 0, 0, 0, 0, 0]) 1
      = triangleGraph [1, 1, 0, 2] [0, 0, 20, -200, -200, 20, 0, 0] := by
  with_unfolding_all rfl

/-- The slices of the closed walk `2, 1, 3, 0, 4, 5` on the triangle, evaluated: the two
triangles `2, 1, 3` and `0, 4, 5`; both are cancelled, which restores the flow. -/
theorem triangle_slices :
    NegativeCycleCanceling.CancelNegativeWalkSlices 6
        { st := { windfarm := triangleGraph [1, 1, 0, 2] [0, 0, 20, -200, -200, 20, 0, 0]
                  visitedVertex := [false, false, false, false]
                  walkID := 0
                  solutionCosts := 400 }
          walk := [2, 1, 3, 0, 4, 5]
          currentIndex := 0
          canceledAnyCycle := false } 1 = [[2, 1, 3], [0, 4, 5]]
      ∧ (NegativeCycleCanceling.CancelNegativeWalk
          { windfarm := triangleGraph [1, 1, 0, 2] [0, 0, 20, -200, -200, 20, 0, 0]
            visitedVertex := [false, false, false, false]
            walkID := 0
            solutionCosts := 400 } [2, 1, 3, 0, 4, 5] 1 true).map
          (fun r => (r.1.windfarm.flowValues, r.2)) = some ([1, 1, 0, 2], true) := by
  constructor <;> with_unfolding_all rfl

/-- Witness of C16: the closed walk `2, 1, 3, 0, 4, 5` on the triangle with the flow
`[1, 1, 0, 2]` and the residual costs for `Δ = 1`. -/
theorem cancelNegativeWalk_cancels_simple_cycles_witness :
    IsClosedWalk (triangleGraph [1, 1, 0, 2] [0, 0, 20, -200, -200, 20, 0, 0])
        [2, 1, 3, 0, 4, 5]
      ∧ ∃ s, NegativeCycleCanceling.CancelNegativeWalkLoop [2, 1, 3, 0, 4, 5].length
            { st := { windfarm := triangleGraph [1, 1, 0, 2] [0, 0, 20, -200, -200, 20, 0, 0]
                      visitedVertex := [false, false, false, false]
                      walkID := 0
                      solutionCosts := 400 }
              walk := [2, 1, 3, 0, 4, 5]
              currentIndex := 0
              canceledAnyCycle := false } 1 = some s
        ∧ s.walk = []
        ∧ NegativeCycleCanceling.CancelNegativeWalk
            { windfarm := triangleGraph [1, 1, 0, 2] [0, 0, 20, -200, -200, 20, 0, 0]
              visitedVertex := [false, false, false, false]
              walkID := 0
              solutionCosts := 400 } [2, 1, 3, 0, 4, 5] 1 true
            = some ({ s.st with walkID := if true then s.st.walkID + 1 else s.st.walkID },
              s.canceledAnyCycle)
        ∧ (∀ C ∈ NegativeCycleCanceling.CancelNegativeWalkSlices [2, 1, 3, 0, 4, 5].length
              { st := { windfarm := triangleGraph [1, 1, 0, 2] [0, 0, 20, -200, -200, 20, 0, 0]
                        visitedVertex := [false, false, false, false]
                        walkID := 0
                        solutionCosts := 400 }
                walk := [2, 1, 3, 0, 4, 5]
                currentIndex := 0
                canceledAnyCycle := false } 1,
            IsSimpleCycle (triangleGraph [1, 1, 0, 2] [0, 0, 20, -200, -200, 20, 0, 0]) C)
        ∧ List.Perm (NegativeCycleCanceling.CancelNegativeWalkSlices [2, 1, 3, 0, 4, 5].length
              { st := { windfarm := triangleGraph [1, 1, 0, 2] [0, 0, 20, -200, -200, 20, 0, 0]
                        visitedVertex := [false, false, false, false]
                        walkID := 0
                        solutionCosts := 400 }
                walk := [2, 1, 3, 0, 4, 5]
                currentIndex := 0
                canceledAnyCycle := false } 1).flatten [2, 1, 3, 0, 4, 5]
        ∧ s.st.windfarm = (NegativeCycleCanceling.CancelNegativeWalkSlices
              [2, 1, 3, 0, 4, 5].length
              { st := { windfarm := triangleGraph [1, 1, 0, 2] [0, 0, 20, -200, -200, 20, 0, 0]
                        visitedVertex := [false, false, false, false]
                        walkID := 0
                        solutionCosts := 400 }
                walk := [2, 1, 3, 0, 4, 5]
                currentIndex := 0
                canceledAnyCycle := false } 1).foldl
            (fun w C => if NegativeCycleCanceling.CycleWillBeCanceled
                (triangleGraph [1, 1, 0, 2] [0, 0, 20, -200, -200, 20, 0, 0]) C = true then
              w.AddFlowOnMultipleEdges C 1 else w)
            (triangleGraph [1, 1, 0, 2] [0, 0, 20, -200, -200, 20, 0, 0])
        ∧ (s.canceledAnyCycle = true ↔
            ∃ C ∈ NegativeCycleCanceling.CancelNegativeWalkSlices [2, 1, 3, 0, 4, 5].length
              { st := { windfarm := triangleGraph [1, 1, 0, 2] [0, 0, 20, -200, -200, 20, 0, 0]
                        visitedVertex := [false, false, false, false]
                        walkID := 0
                        solutionCosts := 400 }
                walk := [2, 1, 3, 0, 4, 5]
                currentIndex := 0
                canceledAnyCycle := false } 1,
              NegativeCycleCanceling.CycleWillBeCanceled
                (triangleGraph [1, 1, 0, 2] [0, 0, 20, -200, -200, 20, 0, 0]) C = true) :=
  ⟨triangle_closed_walk _ _,
    cancelNegativeWalk_cancels_simple_cycles triangleInstance _ triangle_ofInstance
      { windfarm := triangleGraph [1, 1, 0, 2] [0, 0, 20, -200, -200, 20, 0, 0]
        visitedVertex := [false, false, false, false]
        walkID := 0
        solutionCosts := 400 }
      (triangle_isStateOf _ _ rfl rfl) rfl [2, 1, 3, 0, 4, 5] (triangle_closed_walk _ _) 1 true⟩

end wcp

namespace wcp

/-! ## The recorded solution costs and the total cost of the flow -/

open WindfarmResidual

theorem foldl_add_eq_sum {α : Type} (g : α → ℚ) (L : List α) (a : ℚ) :
    L.foldl (fun c i => c + g i) a = a + (L.map g).sum := by
  induction L generalizing a with
  | nil => simp
  | cons x L ih =>
    rw [List.foldl_cons, ih, List.map_cons, List.sum_cons]
    ring

theorem computeTotalCostOfFlow_eq_sum (w : WindfarmResidual) :
    w.ComputeTotalCostOfFlow
      = ((List.range w.NumberOfOriginalEdges).map w.ComputeCostOfFlowOnEdge).sum := by
  unfold ComputeTotalCostOfFlow
  rw [foldl_add_eq_sum, zero_add]

theorem sum_indicator_rat (L : List Nat) (a : Nat) (c : ℚ) :
    (L.map fun x => if x = a then c else 0).sum = (L.count a : ℚ) * c := by
  induction L with
  | nil => simp
  | cons y L ih =>
    rw [List.map_cons, List.sum_cons, ih, List.count_cons]
    by_cases h : y = a
    · rw [if_pos h, if_pos (by simpa using h)]; push_cast; ring
    · rw [if_neg h, if_neg (by simpa using h)]; push_cast; ring

theorem sum_range_update (M j : Nat) (hj : j < M) (g g' : Nat → ℚ)
    (h : ∀ i, i < M → i ≠ j → g' i = g i) :
    ((List.range M).map g').sum = ((List.range M).map g).sum + (g' j - g j) := by
  have hmap : (List.range M).map g'
      = (List.range M).map fun i => g i + (if i = j then g' j - g j else 0) := by
    apply List.map_congr_left
    intro i hi
    rw [List.mem_range] at hi
    by_cases c : i = j
    · rw [if_pos c, c]; ring
    · rw [if_neg c, h i hi c]; ring
  rw [hmap, List.sum_map_add, sum_indicator_rat,
    List.count_eq_one_of_mem (List.nodup_range M) (List.mem_range.2 hj)]
  push_cast
  ring

theorem sum_range_same (M : Nat) (g g' : Nat → ℚ) (h : ∀ i, i < M → g' i = g i) :
    ((List.range M).map g').sum = ((List.range M).map g).sum := by
  congr 1
  apply List.map_congr_left
  intro i hi
  exact h i (List.mem_range.1 hi)

/-- The total cost of the flow after `AddFlowOnEdge`. -/
theorem computeTotalCostOfFlow_addFlowOnEdge {inst : Instance} {w : WindfarmResidual}
    (hb : Built inst w) (hsym : ∀ x, w.cabletypes.CostOfFlow (-x) = w.cabletypes.CostOfFlow x)
    (e : Nat) (he : e < w.NumberOfEdges) (d : Int) :
    (w.AddFlowOnEdge e d).ComputeTotalCostOfFlow
      = w.ComputeTotalCostOfFlow + edgeCostChange w e d := by
  have hst := AddFlowOnEdge_isStateOf w e d
  obtain ⟨_, _, t3, _, _, _, _, _, _, _, _, _, t13, _, _, _, t17⟩ := IsStateOf_topology hst
  have hNE := hb.numberOfEdges_eq
  rw [computeTotalCostOfFlow_eq_sum, computeTotalCostOfFlow_eq_sum, t13]
  have hflow : ∀ i, i < w.NumberOfOriginalEdges →
      (w.AddFlowOnEdge e d).ComputeCostOfFlowOnEdge i
        = (w.cabletypes.CostOfFlow
            (if i = e then w.FlowOnEdge i + d
              else if i = w.ReverseEdgeIndex e then w.FlowOnEdge i - d
              else w.FlowOnEdge i) : ℚ) * w.Length i := by
    intro i hi
    unfold ComputeCostOfFlowOnEdge
    rw [t17, t3, flowOnEdge_addFlowOnEdge inst w hb e i d he (by omega)]
  unfold edgeCostChange
  by_cases c1 : e < w.NumberOfOriginalEdges
  · rw [if_pos (by omega),
      sum_range_update _ e c1 w.ComputeCostOfFlowOnEdge (w.AddFlowOnEdge e d).ComputeCostOfFlowOnEdge]
    · rw [hflow e c1, if_pos rfl]
      unfold ComputeCostOfFlowOnEdge
      push_cast
      ring
    · intro i hi hne
      rw [hflow i hi, if_neg hne, if_neg]
      · rfl
      · unfold ReverseEdgeIndex
        rw [if_pos c1]
        omega
  · by_cases c2 : e < 2 * w.NumberOfOriginalEdges
    · have hrev : w.ReverseEdgeIndex e = e - w.NumberOfOriginalEdges := by
        unfold ReverseEdgeIndex
        rw [if_neg c1, if_pos c2]
      have hj : e - w.NumberOfOriginalEdges < w.NumberOfOriginalEdges := by omega
      rw [if_pos c2, sum_range_update _ (e - w.NumberOfOriginalEdges) hj
        w.ComputeCostOfFlowOnEdge (w.AddFlowOnEdge e d).ComputeCostOfFlowOnEdge]
      · rw [hflow _ hj, if_neg (by omega), if_pos hrev.symm]
        have hfl := FlowOnEdge_reverse w e (by omega)
        have hlen := hb.length_reverse e he
        rw [hrev] at hfl hlen
        unfold ComputeCostOfFlowOnEdge
        have e1 : w.FlowOnEdge (e - w.NumberOfOriginalEdges) - d = -(w.FlowOnEdge e + d) := by
          rw [hfl]; ring
        have e2 : w.FlowOnEdge (e - w.NumberOfOriginalEdges) = -w.FlowOnEdge e := by
          rw [hfl]; ring
        rw [e1, hsym, hlen, e2, hsym]
        push_cast
        ring
      · intro i hi hne
        rw [hflow i hi, if_neg (by omega), if_neg (by rw [hrev]; exact hne)]
        rfl
    · rw [if_neg c2, add_zero]
      apply sum_range_same
      intro i hi
      rw [hflow i hi, if_neg (by omega), if_neg]
      · rfl
      · unfold ReverseEdgeIndex
        rw [if_neg c1, if_neg c2]
        split_ifs <;> omega

theorem edgeCostChange_congr {w' w : WindfarmResidual} (h : w'.IsStateOf w) (e : Nat) (d : Int)
    (hf : w'.FlowOnEdge e = w.FlowOnEdge e) : edgeCostChange w' e d = edgeCostChange w e d := by
  obtain ⟨_, _, t3, _, _, _, _, _, _, _, _, _, t13, _, _, _, t17⟩ := IsStateOf_topology h
  unfold edgeCostChange
  rw [t13, t17, t3, hf]

/-- The total cost of the flow after `AddFlowOnMultipleEdges` along edges of which no two
are equal or reverse to each other. -/
theorem computeTotalCostOfFlow_addFlowOnMultipleEdges {inst : Instance} (d : Int) :
    ∀ (C : List Nat) (w : WindfarmResidual), Built inst w →
      (∀ x, w.cabletypes.CostOfFlow (-x) = w.cabletypes.CostOfFlow x) →
      (∀ e ∈ C, e < w.NumberOfEdges) → C.Nodup → NoReversePair w C →
      (w.AddFlowOnMultipleEdges C d).ComputeTotalCostOfFlow
        = w.ComputeTotalCostOfFlow + (C.map fun e => edgeCostChange w e d).sum := by
  intro C
  induction C with
  | nil => intro w _ _ _ _ _; simp [AddFlowOnMultipleEdges]
  | cons e C ih =>
    intro w hb hsym hC hnd hnr
    have he : e < w.NumberOfEdges := hC e (List.mem_cons_self _ _)
    have hst := AddFlowOnEdge_isStateOf w e d
    have hb1 := Built_of_isStateOf inst _ w hb hst
    obtain ⟨_, _, _, _, _, _, _, _, _, t10, t11, _, _, _, _, _, t17⟩ := IsStateOf_topology hst
    have hnd' := List.nodup_cons.1 hnd
    have hC' : ∀ x ∈ C, x < (w.AddFlowOnEdge e d).NumberOfEdges := by
      intro x hx; rw [t11]; exact hC x (List.mem_cons_of_mem _ hx)
    have hnr' : NoReversePair (w.AddFlowOnEdge e d) C := by
      intro x hx hr
      rw [t10] at hr
      exact hnr x (List.mem_cons_of_mem _ hx) (List.mem_cons_of_mem _ hr)
    have := ih (w.AddFlowOnEdge e d) hb1 (by rw [t17]; exact hsym) hC' hnd'.2 hnr'
    have hmap : (C.map fun x => edgeCostChange (w.AddFlowOnEdge e d) x d)
        = C.map fun x => edgeCostChange w x d := by
      apply List.map_congr_left
      intro x hx
      apply edgeCostChange_congr hst
      rw [flowOnEdge_addFlowOnEdge inst w hb e x d he (hC x (List.mem_cons_of_mem _ hx)),
        if_neg (fun h : x = e => hnd'.1 (h ▸ hx)), if_neg]
      intro h
      exact hnr e (List.mem_cons_self _ _) (h ▸ List.mem_cons_of_mem _ hx)
    unfold AddFlowOnMultipleEdges at this ⊢
    rw [List.foldl_cons, this, computeTotalCostOfFlow_addFlowOnEdge hb hsym e he,
      List.map_cons, List.sum_cons, add_assoc, hmap]

theorem foldl_cost_eq_sum (w : WindfarmResidual) (g : Nat → ℚ) :
    ∀ (C : List Nat) (acc : ℚ), (∀ e ∈ C, w.ResidualCostOnEdge e = ((g e : ℚ) : WithTop ℚ)) →
      C.foldl (fun cost e => cost + w.ResidualCostOnEdge e) ((acc : ℚ) : WithTop ℚ)
        = ((acc + (C.map g).sum : ℚ) : WithTop ℚ) := by
  intro C
  induction C with
  | nil => intro acc _; simp
  | cons x C ih =>
    intro acc h
    rw [List.foldl_cons, h x (List.mem_cons_self _ _), ← WithTop.coe_add,
      ih _ (fun e he => h e (List.mem_cons_of_mem _ he)), List.map_cons, List.sum_cons, add_assoc]

theorem costOfWalk_eq_sum (w : WindfarmResidual) (g : Nat → ℚ) (C : List Nat)
    (h : ∀ e ∈ C, w.ResidualCostOnEdge e = ((g e : ℚ) : WithTop ℚ)) :
    NegativeCycleCanceling.CostOfWalk w C = (((C.map g).sum : ℚ) : WithTop ℚ) := by
  unfold NegativeCycleCanceling.CostOfWalk
  have := foldl_cost_eq_sum w g C 0 h
  rw [zero_add] at this
  exact this

/-- A finite standard residual cost of an edge is the change of the total cost when the
flow on the edge is raised. -/
theorem residualCosts_eq_edgeCostChange {inst : Instance} {w : WindfarmResidual}
    (hb : Built inst w) (e : Nat) (he : e < w.NumberOfEdges) (d : Int)
    (hfin : StandardResidualCostComputer.ResidualCosts w e d ≠ ⊤) :
    StandardResidualCostComputer.ResidualCosts w e d
      = ((edgeCostChange w e d : ℚ) : WithTop ℚ) := by
  obtain ⟨a1, a2⟩ := residualCosts_value w e d hfin
  unfold edgeCostChange
  rw [hb.numberOfOriginalEdges]
  rcases hb.edge_cases e he with ⟨h1, h2, h3⟩ | ⟨i, hi, h1, h2, h3⟩ | ⟨i, hi, h1, h2, h3⟩
  · rw [if_pos h1]
    apply a2
    · cases h : w.IsSuperSubstation (w.StartVertex e)
      · rfl
      · have := (hb.isSuperSubstation_iff _).1 h
        omega
    · cases h : w.IsSuperSubstation (w.EndVertex e)
      · rfl
      · have := (hb.isSuperSubstation_iff _).1 h
        omega
  · rw [if_neg (by omega)]
    exact a1 (Or.inr ((hb.isSuperSubstation_iff _).2 h3))
  · rw [if_neg (by omega)]
    exact a1 (Or.inl ((hb.isSuperSubstation_iff _).2 h2))

namespace NegativeCycleCanceling

/-- Rule for the loop of `CancelNegativeWalk`: a property of the loop state that every
iteration keeps holds when the loop ends, and the loop ends. -/
theorem cancelNegativeWalkLoop_rule {inst : Instance} (d : Int) (I : WalkLoopState → Prop)
    (hI : ∀ s s', Built inst s.st.windfarm →
      WalkInv s.st.windfarm s.walk s.currentIndex s.st.visitedVertex → s.walk ≠ [] → I s →
      CancelNegativeWalkStep s d = some s' → I s') :
    ∀ (fuel : Nat) (s : WalkLoopState), Built inst s.st.windfarm →
      WalkInv s.st.windfarm s.walk s.currentIndex s.st.visitedVertex → I s →
      s.walk.length ≤ fuel →
      ∃ s', CancelNegativeWalkLoop fuel s d = some s' ∧ s'.walk = [] ∧ I s'
        ∧ Built inst s'.st.windfarm
        ∧ s'.st.visitedVertex = List.replicate s.st.windfarm.NumberOfVertices false := by
  intro fuel
  induction fuel with
  | zero =>
    intro s hb hwalk hi hl
    have hnil : s.walk = [] := List.eq_nil_of_length_eq_zero (by omega)
    have hm := hwalk.marks
    rw [hnil, List.take_nil, List.map_nil] at hm
    have hv := eq_replicate_of_marks_nil _ hm
    rw [hwalk.lenV] at hv
    refine ⟨s, ?_, hnil, hi, hb, hv⟩
    unfold CancelNegativeWalkLoop
    rw [if_pos (by rw [hnil]; rfl)]
  | succ n ih =>
    intro s hb hwalk hi hl
    unfold CancelNegativeWalkLoop
    by_cases he : s.walk = []
    · have hm := hwalk.marks
      rw [he, List.take_nil, List.map_nil] at hm
      have hv := eq_replicate_of_marks_nil _ hm
      rw [hwalk.lenV] at hv
      rw [if_pos (by rw [he]; rfl)]
      exact ⟨s, rfl, he, hi, hb, hv⟩
    · rw [if_neg (by simpa using he)]
      obtain ⟨a, c, V2, s1, _, hstep, hac, hc, _, k1, _, _, _, _, hb1, hw1, hst1, _⟩ :=
        cancelNegativeWalkStep_desc d s hb hwalk he
      have hlen1 : s1.walk.length ≤ n := by
        rw [k1, List.length_append, List.length_take, List.length_drop]
        omega
      rw [hstep]
      obtain ⟨s', i1, i2, i3, i4, i5⟩ := ih s1 hb1 hw1 (hI s s1 hb hwalk he hi hstep) hlen1
      refine ⟨s', i1, i2, i3, i4, ?_⟩
      rw [i5]
      congr 1
      exact (IsStateOf_topology hst1).2.2.2.2.2.2.2.2.2.2.2.1

theorem cycleWillBeCanceled_cost (w : WindfarmResidual) (C : List Nat)
    (h : CycleWillBeCanceled w C = true) : CostOfWalk w C < 0 := by
  unfold CycleWillBeCanceled at h
  rw [Bool.and_eq_true] at h
  exact of_decide_eq_true h.2

/-- One iteration of the loop in `CancelNegativeWalk` keeps the invariant for the recorded
solution costs. -/
theorem costLoopInv_step {inst : Instance} (d : Int) (wi : WindfarmResidual)
    (s s' : WalkLoopState) (hb : Built inst s.st.windfarm)
    (hwalk : WalkInv s.st.windfarm s.walk s.currentIndex s.st.visitedVertex)
    (hne : s.walk ≠ []) (hi : CostLoopInv d wi s)
    (hstep : CancelNegativeWalkStep s d = some s') : CostLoopInv d wi s' := by
  obtain ⟨a, c, V2, s1, _, hstep1, hac, hc, hC, k1, k2, k3, _, k5, hb1, hw1, hst1, hres1⟩ :=
    cancelNegativeWalkStep_desc d s hb hwalk hne
  rw [hstep] at hstep1
  have hs : s' = s1 := Option.some.inj hstep1
  subst hs
  obtain ⟨hnd, hnr, hsym, hrec, hcost, hsame⟩ := hi
  have hE := (hwalk.closed hne).1.2.1
  obtain ⟨t1, t2, t3⟩ := trail_split s.walk a c (by omega) hnd
  have hsubC : ∀ e ∈ (s.walk.take (c + 1)).drop a, e ∈ s.walk :=
    fun e he => List.mem_of_mem_take (List.mem_of_mem_drop he)
  have hsubW : ∀ e ∈ s.walk.take a ++ s.walk.drop (c + 1), e ∈ s.walk := by
    intro e he
    rcases List.mem_append.1 he with h | h
    · exact List.mem_of_mem_take h
    · exact List.mem_of_mem_drop h
  obtain ⟨_, _, _, _, _, _, _, _, _, t10, _, _, _, _, _, _, t17⟩ := IsStateOf_topology hst1
  by_cases hcw : CycleWillBeCanceled s.st.windfarm ((s.walk.take (c + 1)).drop a) = true
  · rw [if_pos hcw] at k2 k3
    have hfin := costOfWalk_finite _ _ (cycleWillBeCanceled_cost _ _ hcw)
    have hnrC : NoReversePair s.st.windfarm ((s.walk.take (c + 1)).drop a) :=
      fun e he hr => hnr e (hsubC e he) (hsubC _ hr)
    have htot := computeTotalCostOfFlow_addFlowOnMultipleEdges d _ s.st.windfarm hb hsym
      (fun e he => hE e (hsubC e he)) t1 hnrC
    have hcw' := costOfWalk_eq_sum s.st.windfarm (fun e => edgeCostChange s.st.windfarm e d)
      ((s.walk.take (c + 1)).drop a) (fun e he => hcost e (hsubC e he) (hfin e he))
    refine ⟨by rw [k1]; exact t2, ?_, by rw [t17]; exact hsym, ?_, ?_, ?_⟩
    · rw [k1]
      intro e he hr
      rw [t10] at hr
      exact hnr e (hsubW e he) (hsubW _ hr)
    · rw [k3, k2, htot, hrec, hcw', WithTop.coe_add]
    · intro e he hr
      rw [k1] at he
      have hr' : s.st.windfarm.ResidualCostOnEdge e ≠ ⊤ := by
        unfold ResidualCostOnEdge at hr ⊢
        rw [hres1] at hr
        exact hr
      have hval := hcost e (hsubW e he) hr'
      have hNE := hb.numberOfEdges_eq
      have heq : s'.st.windfarm.ResidualCostOnEdge e = s.st.windfarm.ResidualCostOnEdge e := by
        unfold ResidualCostOnEdge
        rw [hres1]
      rw [heq, hval]
      congr 1
      symm
      apply edgeCostChange_congr hst1
      rw [k2, flowOnEdge_addFlowOnMultipleEdges _ d s.st.windfarm hb
        (fun x hx => hE x (hsubC x hx)) e (hE e (hsubW e he)),
        List.count_eq_zero_of_not_mem (t3 e he),
        List.count_eq_zero_of_not_mem (fun h => hnr e (hsubW e he) (hsubC _ h))]
      simp
    · intro hcan
      rw [k5, hcw, Bool.or_true] at hcan
      exact absurd hcan (by simp)
  · rw [if_neg hcw] at k2 k3
    have hcw' : CycleWillBeCanceled s.st.windfarm ((s.walk.take (c + 1)).drop a) = false := by
      cases h : CycleWillBeCanceled s.st.windfarm ((s.walk.take (c + 1)).drop a)
      · rfl
      · exact absurd h hcw
    refine ⟨by rw [k1]; exact t2, ?_, by rw [k2]; exact hsym, by rw [k3, k2]; exact hrec, ?_, ?_⟩
    · rw [k1, k2]
      intro e he hr
      exact hnr e (hsubW e he) (hsubW _ hr)
    · intro e he hr
      rw [k1] at he
      rw [k2] at hr ⊢
      exact hcost e (hsubW e he) hr
    · intro hcan
      rw [k5, hcw', Bool.or_false] at hcan
      rw [k2]
      exact hsame hcan

/-- Rule for the loop over the walks of the detection strategy: `P` holds before every
call of `CancelNegativeWalk`, `Q` after the loop. -/
theorem extractWalkAndCancelCycle_rule (d : Int) (isRegularNCCrun : Bool)
    (P Q : NCCState → Prop) (walks : List (List Nat)) (hPQ : ∀ st, P st → Q st)
    (hcancel : ∀ st, P st → ∀ walk ∈ walks, walk ≠ [] →
      ∃ st' b, CancelNegativeWalk st walk d isRegularNCCrun = some (st', b)
        ∧ Q st' ∧ (b = false → P st')) :
    ∀ (st : NCCState) (clock : List Bool), P st →
      ∃ st' b, ExtractWalkAndCancelCycle d isRegularNCCrun walks st clock = some (st', b)
        ∧ Q st' := by
  induction walks with
  | nil =>
    intro st clock hP
    exact ⟨st, false, rfl, hPQ st hP⟩
  | cons walk rest ih =>
    intro st clock hP
    unfold ExtractWalkAndCancelCycle
    by_cases h1 : walk.isEmpty = true
    · rw [if_pos h1]
      exact ⟨st, false, rfl, hPQ st hP⟩
    · rw [if_neg h1]
      by_cases h2 : (IsTimeLimitExceeded clock).1 = true
      · rw [if_pos h2]
        exact ⟨st, false, rfl, hPQ st hP⟩
      · rw [if_neg h2]
        have hne : walk ≠ [] := by
          intro h0
          apply h1
          rw [h0]
          rfl
        obtain ⟨st', b, c1, c2, c3⟩ := hcancel st hP walk (List.mem_cons_self _ _) hne
        rw [c1]
        cases b with
        | true => exact ⟨st', true, rfl, c2⟩
        | false =>
          exact ih (fun st hP w hw hne => hcancel st hP w (List.mem_cons_of_mem _ hw) hne) st'
            (IsTimeLimitExceeded clock).2 (c3 rfl)

theorem computeResidualCosts_frame_cost (w : WindfarmResidual) (d : Int) :
    (StandardResidualCostComputer.ComputeResidualCosts w d).ComputeTotalCostOfFlow
        = w.ComputeTotalCostOfFlow
      ∧ (StandardResidualCostComputer.ComputeResidualCosts w d).cabletypes = w.cabletypes
      ∧ (∀ walk, NoReversePair w walk →
          NoReversePair (StandardResidualCostComputer.ComputeResidualCosts w d) walk)
      ∧ (∀ e, edgeCostChange (StandardResidualCostComputer.ComputeResidualCosts w d) e d
          = edgeCostChange w e d) := by
  unfold StandardResidualCostComputer.ComputeResidualCosts
  have h := (StandardResidualCostComputer.ComputeStandardResidualCosts_spec w d).1
  generalize StandardResidualCostComputer.ComputeStandardResidualCosts w d = wc at h
  rw [h]
  exact ⟨rfl, rfl, fun _ hw => hw, fun _ => rfl⟩

/-- On a closed trail without a pair of reverse edges, `CancelNegativeWalk` returns with
the recorded solution costs equal to the total cost of the flow. -/
theorem cancelNegativeWalk_cost {inst : Instance} (d : Int) (st : NCCState)
    (hb : Built inst st.windfarm)
    (hsym : ∀ x, st.windfarm.cabletypes.CostOfFlow (-x) = st.windfarm.cabletypes.CostOfFlow x)
    (hvis : st.visitedVertex = List.replicate st.windfarm.NumberOfVertices false)
    (hrec : st.solutionCosts = ((st.windfarm.ComputeTotalCostOfFlow : ℚ) : WithTop ℚ))
    (walk : List Nat) (ht : IsClosedTrail st.windfarm walk)
    (hnr : NoReversePair st.windfarm walk)
    (hcost : ∀ e ∈ walk, st.windfarm.ResidualCostOnEdge e ≠ ⊤ →
      st.windfarm.ResidualCostOnEdge e = ((edgeCostChange st.windfarm e d : ℚ) : WithTop ℚ))
    (isRegularNCCrun : Bool) :
    ∃ st' b, CancelNegativeWalk st walk d isRegularNCCrun = some (st', b)
      ∧ Built inst st'.windfarm
      ∧ st'.solutionCosts = ((st'.windfarm.ComputeTotalCostOfFlow : ℚ) : WithTop ℚ)
      ∧ st'.visitedVertex = List.replicate st.windfarm.NumberOfVertices false
      ∧ (b = false → st'.windfarm = st.windfarm) := by
  have hne : walk ≠ [] := ht.1.1
  have hpos : 0 < walk.length := List.length_pos.2 hne
  have hinv : WalkInv st.windfarm walk 0 st.visitedVertex := by
    refine ⟨?_, ?_, fun _ => rfl, ?_⟩
    · rw [hvis, List.length_replicate]
    · rw [hvis]
      exact marks_nil_replicate _
    · intro _
      refine ⟨ht.1, hpos, ?_⟩
      cases walk with
      | nil => exact List.nodup_nil
      | cons x xs => exact List.nodup_singleton _
  have hI : CostLoopInv d st.windfarm
      { st := st, walk := walk, currentIndex := 0, canceledAnyCycle := false } :=
    ⟨ht.2, hnr, hsym, hrec, hcost, fun _ => rfl⟩
  obtain ⟨s', h1, _, h3, h4, h5⟩ := cancelNegativeWalkLoop_rule d (CostLoopInv d st.windfarm)
    (fun s s' hb hw hne hi hstep => costLoopInv_step d st.windfarm s s' hb hw hne hi hstep)
    walk.length { st := st, walk := walk, currentIndex := 0, canceledAnyCycle := false }
    hb hinv hI le_rfl
  unfold CancelNegativeWalk
  rw [h1]
  exact ⟨_, _, rfl, h4, h3.recorded, h5, h3.unchanged⟩

end NegativeCycleCanceling

/-- C11, as stated, fails: on the triangle with the flow `[1, 1, 0, 2]`, the recorded
solution costs `400` of this flow and `Δ = 1`, the detection strategy hands out the closed
walk `2, 1, 3, 0, 4, 5`, which uses no edge twice.  The pass returns `SUCCESS`; both
triangles of the walk are cancelled at their residual cost `-180`, the second one with the
residual costs computed before the first one was cancelled.  The flow is again
`[1, 1, 0, 2]` with the total cost `400`, but the recorded solution costs are `40`. -/
theorem recorded_costs_leave_total_cost :
    ((triangleGraph [1, 1, 0, 2] [0, 0, 0, 0, 0, 0, 0, 0]).ComputeTotalCostOfFlow = 400)
      ∧ IsClosedTrail (triangleGraph [1, 1, 0, 2] [0, 0, 0, 0, 0, 0, 0, 0]) [2, 1, 3, 0, 4, 5]
      ∧ ∃ st',
          NegativeCycleCanceling.PerformNegativeCycleCancelingForSingleDelta
              (fun _ => { code := ReturnCode.SUCCESS, walks := [[2, 1, 3, 0, 4, 5]] })
              { windfarm := triangleGraph [1, 1, 0, 2] [0, 0, 0, 0, 0, 0, 0, 0]
                visitedVertex := [false, false, false, false]
                walkID := 0
                solutionCosts := ((400 : ℚ) : WithTop ℚ) } 1 true []
            = some (ReturnCode.SUCCESS, st')
          ∧ st'.windfarm.flowValues = [1, 1, 0, 2]
          ∧ AssertFeasibleFlow st'.windfarm = true
          ∧ st'.windfarm.ComputeTotalCostOfFlow = 400
          ∧ st'.solutionCosts = ((40 : ℚ) : WithTop ℚ)
          ∧ st'.solutionCosts ≠ ((st'.windfarm.ComputeTotalCostOfFlow : ℚ) : WithTop ℚ) := by
  refine ⟨by with_unfolding_all rfl, ⟨triangle_closed_walk _ _, by decide⟩, ?_⟩
  refine ⟨{ windfarm := triangleGraph [1, 1, 0, 2] [0, 0, 20, -200, -200, 20, 0, 0]
            visitedVertex := [false, false, false, false]
            walkID := 1
            solutionCosts := ((40 : ℚ) : WithTop ℚ) }, ?_, rfl, by decide, ?_, rfl, ?_⟩
  · with_unfolding_all rfl
  · with_unfolding_all rfl
  · have h : (triangleGraph [1, 1, 0, 2] [0, 0, 20, -200, -200, 20, 0, 0]).ComputeTotalCostOfFlow
        = 400 := by with_unfolding_all rfl
    show ((40 : ℚ) : WithTop ℚ) ≠ _
    rw [h, Ne, WithTop.coe_inj]
    norm_num

/-- C11, amended: let the cable types come from breakpoints, let the residual graph of the
driver be a state of the graph that the constructor builds for the instance, with all
visited flags reset and the recorded solution costs equal to `ComputeTotalCostOfFlow()`,
and let every non-empty walk that the detection strategy hands out be a closed walk in
which no two edges are equal or reverse to each other.  Then the call of
`PerformNegativeCycleCancelingForSingleDelta` with the standard residual costs returns,
and the recorded solution costs equal `ComputeTotalCostOfFlow()` of the new flow. -/
theorem recorded_costs_track_total_cost (nodes : List InstanceNode)
    (edges : List InstanceEdge) (caps costs : List Int) (inst : Instance)
    (w0 : WindfarmResidual)
    (hinst : Instance.create nodes edges caps costs = some inst)
    (h0 : WindfarmResidual.ofInstance inst = some w0) (st : NCCState)
    (hw : st.windfarm.IsStateOf w0)
    (hvis : st.visitedVertex = List.replicate st.windfarm.NumberOfVertices false)
    (hrec : st.solutionCosts = ((st.windfarm.ComputeTotalCostOfFlow : ℚ) : WithTop ℚ))
    (delta : Int) (detection : WindfarmResidual → DetectionResult)
    (hdet : ∀ walk ∈
        (detection (StandardResidualCostComputer.ComputeResidualCosts st.windfarm delta)).walks,
      walk ≠ [] → IsClosedTrail st.windfarm walk ∧ NoReversePair st.windfarm walk)
    (isRegularNCCrun : Bool) (clock : List Bool) :
    ∃ code st',
      NegativeCycleCanceling.PerformNegativeCycleCancelingForSingleDelta detection st delta
          isRegularNCCrun clock = some (code, st')
        ∧ st'.solutionCosts = ((st'.windfarm.ComputeTotalCostOfFlow : ℚ) : WithTop ℚ) := by
  have hb : Built inst st.windfarm := built_of_state inst w0 _ h0 hw
  obtain ⟨_, f2, f3, f4, _⟩ :=
    NegativeCycleCanceling.computeResidualCosts_frame st.windfarm delta
  obtain ⟨g1, g2, g3, g4⟩ :=
    NegativeCycleCanceling.computeResidualCosts_frame_cost st.windfarm delta
  have hst : (StandardResidualCostComputer.ComputeResidualCosts st.windfarm delta).IsStateOf
      st.windfarm := StandardResidualCostComputer.ComputeStandardResidualCosts_isStateOf _ _
  have hbc := Built_of_isStateOf inst _ _ hb hst
  have hsym : ∀ x, (StandardResidualCostComputer.ComputeResidualCosts st.windfarm
      delta).cabletypes.CostOfFlow (-x)
        = (StandardResidualCostComputer.ComputeResidualCosts st.windfarm
      delta).cabletypes.CostOfFlow x := by
    intro x
    rw [g2, hb.base.ct]
    exact create_costOfFlow_neg nodes edges caps costs inst hinst x
  have hrec0 : st.solutionCosts = (((StandardResidualCostComputer.ComputeResidualCosts
      st.windfarm delta).ComputeTotalCostOfFlow : ℚ) : WithTop ℚ) := by
    rw [g1]; exact hrec
  unfold NegativeCycleCanceling.PerformNegativeCycleCancelingForSingleDelta
  simp only
  by_cases c1 : (NegativeCycleCanceling.IsTimeLimitExceeded clock).1 = true
  · rw [if_pos c1]
    exact ⟨_, _, rfl, hrec0⟩
  · rw [if_neg c1]
    by_cases c2 : (detection
        (StandardResidualCostComputer.ComputeResidualCosts st.windfarm delta)).code
          = ReturnCode.SUCCESS
    · rw [if_pos c2]
      obtain ⟨st', b, e1, e2⟩ := NegativeCycleCanceling.extractWalkAndCancelCycle_rule delta
        isRegularNCCrun
        (fun s => s.windfarm = StandardResidualCostComputer.ComputeResidualCosts st.windfarm delta
          ∧ s.visitedVertex = List.replicate st.windfarm.NumberOfVertices false
          ∧ s.solutionCosts = ((s.windfarm.ComputeTotalCostOfFlow : ℚ) : WithTop ℚ))
        (fun s => s.solutionCosts = ((s.windfarm.ComputeTotalCostOfFlow : ℚ) : WithTop ℚ))
        (detection (StandardResidualCostComputer.ComputeResidualCosts st.windfarm delta)).walks
        (fun s hs => hs.2.2)
        (by
          rintro s ⟨p1, p2, p3⟩ walk hwalk hne
          obtain ⟨ht, hnr⟩ := hdet walk hwalk hne
          obtain ⟨s', b, q1, _, q3, q4, q5⟩ :=
            NegativeCycleCanceling.cancelNegativeWalk_cost delta s (by rw [p1]; exact hbc)
              (by rw [p1]; exact hsym) (by rw [p2, p1, f2]) p3 walk
              (by rw [p1]; exact f4 walk ht) (by rw [p1]; exact g3 walk hnr)
              (by
                rw [p1]
                intro e he hr
                have heN : e < st.windfarm.NumberOfEdges := ht.1.2.1 e he
                have hc := residualCostOnEdge_computed inst st.windfarm hb delta e heN
                change (StandardResidualCostComputer.ComputeResidualCosts st.windfarm
                  delta).ResidualCostOnEdge e = _ at hc
                rw [hc] at hr ⊢
                rw [g4, residualCosts_eq_edgeCostChange hb e heN delta hr])
              isRegularNCCrun
          refine ⟨s', b, q1, q3, ?_⟩
          intro hbf
          refine ⟨by rw [q5 hbf, p1], ?_, q3⟩
          rw [q4, p1, f2])
        { st with windfarm :=
            StandardResidualCostComputer.ComputeResidualCosts st.windfarm delta }
        (NegativeCycleCanceling.IsTimeLimitExceeded clock).2
        ⟨rfl, hvis, hrec0⟩
      rw [e1]
      exact ⟨_, st', rfl, e2⟩
    · rw [if_neg c2]
      exact ⟨_, _, rfl, hrec0⟩

theorem triangle_noReversePair (flow : List Int) (costs : List (WithTop ℚ)) :
    NoReversePair (triangleGraph flow costs) [2, 1, 3] := by
  intro e he
  have h : e = 2 ∨ e = 1 ∨ e = 3 := by simpa using he
  rcases h with rfl | rfl | rfl
  · show ¬ (5 ∈ [2, 1, 3])
    decide
  · show ¬ (4 ∈ [2, 1, 3])
    decide
  · show ¬ (0 ∈ [2, 1, 3])
    decide

/-- Witness of C11 (amended): the triangle with the flow `[1, 1, 0, 2]`, the recorded
solution costs `400`, `Δ = 1` and the closed trail `2, 1, 3`. -/
theorem recorded_costs_track_total_cost_witness :
    IsClosedTrail (triangleGraph [1, 1, 0, 2] [0, 0, 0, 0, 0, 0, 0, 0]) [2, 1, 3]
      ∧ NoReversePair (triangleGraph [1, 1, 0, 2] [0, 0, 0, 0, 0, 0, 0, 0]) [2, 1, 3]
      ∧ ∃ code st',
          NegativeCycleCanceling.PerformNegativeCycleCancelingForSingleDelta
              (fun _ => { code := ReturnCode.SUCCESS, walks := [[2, 1, 3]] })
              { windfarm := triangleGraph [1, 1, 0, 2] [0, 0, 0, 0, 0, 0, 0, 0]
                visitedVertex := [false, false, false, false]
                walkID := 0
                solutionCosts := ((400 : ℚ) : WithTop ℚ) } 1 true [] = some (code, st')
            ∧ st'.solutionCosts = ((st'.windfarm.ComputeTotalCostOfFlow : ℚ) : WithTop ℚ) :=
  ⟨triangle_closed_trail _ _, triangle_noReversePair _ _,
    recorded_costs_track_total_cost _ _ _ _ triangleInstance _ triangle_create
      triangle_ofInstance
      { windfarm := triangleGraph [1, 1, 0, 2] [0, 0, 0, 0, 0, 0, 0, 0]
        visitedVertex := [false, false, false, false]
        walkID := 0
        solutionCosts := ((400 : ℚ) : WithTop ℚ) }
      (triangle_isStateOf _ _ rfl rfl) rfl (by with_unfolding_all rfl) 1
      (fun _ => { code := ReturnCode.SUCCESS, walks := [[2, 1, 3]] })
      (fun walk hw _ => by
        rw [List.mem_singleton.1 hw]
        exact ⟨triangle_closed_trail _ _, triangle_noReversePair _ _⟩)
      true []⟩

end wcp

namespace wcp

/-! ## The laws of the two distance labels -/

theorem oneDistanceLabel_laws : LabelLaws oneDistanceLabel := by
  refine ⟨?_, ?_, ?_⟩
  · intro l d p h
    show (OneDistanceLabel.Update l d p).1 = l
    change (OneDistanceLabel.Update l d p).2 = false at h
    unfold OneDistanceLabel.Update at h ⊢
    split_ifs at h ⊢ with h1
    rfl
  · intro l d p
    show OneDistanceLabel.WouldUpdate (OneDistanceLabel.Update l d p).1 d p = false
    unfold OneDistanceLabel.Update OneDistanceLabel.WouldUpdate
    split_ifs with h1
    · simp
    · simp [h1]
  · intro l d p d' p' h
    show OneDistanceLabel.WouldUpdate (OneDistanceLabel.Update l d' p').1 d p = false
    change OneDistanceLabel.WouldUpdate l d p = false at h
    unfold OneDistanceLabel.WouldUpdate at h
    unfold OneDistanceLabel.Update OneDistanceLabel.WouldUpdate
    simp only [decide_eq_false_iff_not, not_lt] at h ⊢
    split_ifs with h1
    · exact le_of_lt (lt_of_lt_of_le h1 h)
    · exact h

theorem twoDistancesLabel_laws : LabelLaws twoDistancesLabel := by
  refine ⟨?_, ?_, ?_⟩
  · intro l d p h
    show (TwoDistancesLabel.Update l d p).1 = l
    change (TwoDistancesLabel.Update l d p).2 = false at h
    unfold TwoDistancesLabel.Update at h ⊢
    split_ifs at h ⊢
    rfl
  · intro l d p
    show TwoDistancesLabel.WouldUpdate (TwoDistancesLabel.Update l d p).1 d p = false
    unfold TwoDistancesLabel.Update TwoDistancesLabel.WouldUpdate
    split_ifs with h1 h2 h3
    · simp [h2]
    · simp
    · simp [h1]
    · simp only [Bool.or_eq_false_iff, Bool.and_eq_false_iff, decide_eq_false_iff_not]
      refine ⟨h1, ?_⟩
      by_cases h4 : d < l.distSecond
      · right
        intro h5
        exact h3 ⟨h4, fun h6 => h5 h6.symm⟩
      · left; exact h4
  · intro l d p d' p' h
    show TwoDistancesLabel.WouldUpdate (TwoDistancesLabel.Update l d' p').1 d p = false
    change TwoDistancesLabel.WouldUpdate l d p = false at h
    unfold TwoDistancesLabel.WouldUpdate at h
    simp only [Bool.or_eq_false_iff, Bool.and_eq_false_iff, decide_eq_false_iff_not, not_lt,
      ne_eq, not_not] at h
    obtain ⟨h1, h2⟩ := h
    unfold TwoDistancesLabel.Update TwoDistancesLabel.WouldUpdate
    simp only [Bool.or_eq_false_iff, Bool.and_eq_false_iff, decide_eq_false_iff_not, not_lt,
      ne_eq, not_not]
    split_ifs with h3 h4 h5
    · refine ⟨le_of_lt (lt_of_lt_of_le h3 h1), ?_⟩
      rcases h2 with h2 | h2
      · left; exact h2
      · right; rw [h2, h4]
    · exact ⟨le_of_lt (lt_of_lt_of_le h3 h1), Or.inl h1⟩
    · refine ⟨h1, ?_⟩
      rcases h2 with h2 | h2
      · left; exact le_of_lt (lt_of_lt_of_le h5.1 h2)
      · right; exact h2
    · exact ⟨h1, h2⟩

/-! ## One call of `RelaxOutgoingEdges` -/

namespace BellmanFord

variable {L : Type}

theorem set_getD_self {α : Type} : ∀ (l : List α) (i : Nat) (d : α), l.set i (l.getD i d) = l
  | [], _, _ => rfl
  | _ :: _, 0, _ => rfl
  | a :: l, i + 1, d => by
    show a :: l.set i (l.getD i d) = a :: l
    rw [set_getD_self l i d]

theorem labelAt_set (ops : LabelType L) (s : BellmanFord L) (x u : Nat) (l : L)
    (labels : List L) (h : labels = s.labels.set x l) (hx : x < s.labels.length)
    (s' : BellmanFord L) (hs : s'.labels = labels) :
    LabelAt ops s' u = if x = u then l else LabelAt ops s u := by
  unfold LabelAt
  rw [hs, h, getD_set_eq, if_pos hx]

theorem isRelaxable_congr (ops : LabelType L) (w : WindfarmResidual) (s s' : BellmanFord L)
    (h : s'.labels = s.labels) (v e : Nat) :
    IsRelaxable ops w s' v e = IsRelaxable ops w s v e := by
  unfold IsRelaxable LabelAt
  rw [h]

theorem settled_congr (ops : LabelType L) (w : WindfarmResidual) (s s' : BellmanFord L)
    (h : s'.labels = s.labels) (v : Nat) (hs : Settled ops w s v) : Settled ops w s' v := by
  intro e he
  rw [isRelaxable_congr ops w s s' h]
  exact hs e he

theorem relaxEdgeStep_eq (ops : LabelType L) (w : WindfarmResidual) (v : Nat)
    (st : BellmanFord L × Bool) (e : Nat) :
    RelaxEdgeStep ops w v st e
      = ({ labels := st.1.labels.set (w.EndVertex e)
              (ops.Update (LabelAt ops st.1 (w.EndVertex e))
                (ops.Distance (LabelAt ops st.1 v) w e + w.ResidualCostOnEdge e) e).1
           indexOfWalkIncluded := st.1.indexOfWalkIncluded
           currentWalkIndex := st.1.currentWalkIndex
           updatedSinceLastTime := st.1.updatedSinceLastTime.set (w.EndVertex e)
              (st.1.updatedSinceLastTime.getD (w.EndVertex e) false
                || (ops.Update (LabelAt ops st.1 (w.EndVertex e))
                  (ops.Distance (LabelAt ops st.1 v) w e + w.ResidualCostOnEdge e) e).2)
           vertexOfLastUpdate := st.1.vertexOfLastUpdate
           earlyTermination := st.1.earlyTermination
           numberOfRelaxedEdgesInLastRun := st.1.numberOfRelaxedEdgesInLastRun
              + (if (ops.Update (LabelAt ops st.1 (w.EndVertex e))
                  (ops.Distance (LabelAt ops st.1 v) w e + w.ResidualCostOnEdge e) e).2
                then 1 else 0) },
          st.2 || (ops.Update (LabelAt ops st.1 (w.EndVertex e))
            (ops.Distance (LabelAt ops st.1 v) w e + w.ResidualCostOnEdge e) e).2) :=
  rfl

theorem relaxEdgeStep_spec (ops : LabelType L) (laws : LabelLaws ops) (w : WindfarmResidual)
    (v : Nat) (st : BellmanFord L × Bool) (e : Nat) (hs : st.1.SizedFor w)
    (hx : w.EndVertex e < w.NumberOfVertices) (hxv : w.EndVertex e ≠ v) :
    (RelaxEdgeStep ops w v st e).1.SizedFor w
      ∧ LabelAt ops (RelaxEdgeStep ops w v st e).1 v = LabelAt ops st.1 v
      ∧ IsRelaxable ops w (RelaxEdgeStep ops w v st e).1 v e = false
      ∧ (∀ u f, u ≠ w.EndVertex e → IsRelaxable ops w st.1 u f = false →
          IsRelaxable ops w (RelaxEdgeStep ops w v st e).1 u f = false)
      ∧ (∀ u, u ≠ w.EndVertex e →
          (RelaxEdgeStep ops w v st e).1.updatedSinceLastTime.getD u false
            = st.1.updatedSinceLastTime.getD u false)
      ∧ ((RelaxEdgeStep ops w v st e).1.updatedSinceLastTime.getD (w.EndVertex e) false = false →
          (RelaxEdgeStep ops w v st e).1 = st.1)
      ∧ (RelaxEdgeStep ops w v st e).1.vertexOfLastUpdate = st.1.vertexOfLastUpdate
      ∧ ((RelaxEdgeStep ops w v st e).2 = false →
          st.2 = false ∧ (RelaxEdgeStep ops w v st e).1 = st.1)
      ∧ ((RelaxEdgeStep ops w v st e).2 = true →
          st.2 = true ∨ 0 < (RelaxEdgeStep ops w v st e).1.numberOfRelaxedEdgesInLastRun)
      ∧ (0 < st.1.numberOfRelaxedEdgesInLastRun →
          0 < (RelaxEdgeStep ops w v st e).1.numberOfRelaxedEdgesInLastRun) := by
  obtain ⟨hl, hi, hu⟩ := hs
  have hxl : w.EndVertex e < st.1.labels.length := by rw [hl]; exact hx
  have hxu : w.EndVertex e < st.1.updatedSinceLastTime.length := by rw [hu]; exact hx
  have hU1 := laws.unchanged (LabelAt ops st.1 (w.EndVertex e))
    (ops.Distance (LabelAt ops st.1 v) w e + w.ResidualCostOnEdge e) e
  have hU2 := laws.settled (LabelAt ops st.1 (w.EndVertex e))
    (ops.Distance (LabelAt ops st.1 v) w e + w.ResidualCostOnEdge e) e
  have hU3 := fun d p => laws.monotone (LabelAt ops st.1 (w.EndVertex e)) d p
    (ops.Distance (LabelAt ops st.1 v) w e + w.ResidualCostOnEdge e) e
  rw [relaxEdgeStep_eq]
  generalize ops.Update (LabelAt ops st.1 (w.EndVertex e))
    (ops.Distance (LabelAt ops st.1 v) w e + w.ResidualCostOnEdge e) e = U at hU1 hU2 hU3
  obtain ⟨s, b⟩ := st
  obtain ⟨labels, idx, cur, upd, vlu, early, cnt⟩ := s
  simp only at hl hi hu hxl hxu hU1 hU2 hU3 ⊢
  have hlab : ∀ (s' : BellmanFord L), s'.labels = labels.set (w.EndVertex e) U.1 → ∀ u,
      LabelAt ops s' u
        = if w.EndVertex e = u then U.1
          else LabelAt ops ⟨labels, idx, cur, upd, vlu, early, cnt⟩ u := by
    intro s' hs' u
    unfold LabelAt
    rw [hs', getD_set_eq, if_pos hxl]
  have hsame : U.2 = false →
      (⟨labels.set (w.EndVertex e) U.1, idx, cur,
        upd.set (w.EndVertex e) (upd.getD (w.EndVertex e) false || U.2), vlu, early,
        cnt + (if U.2 then 1 else 0)⟩ : BellmanFord L)
        = ⟨labels, idx, cur, upd, vlu, early, cnt⟩ := by
    intro h
    have h1 := hU1 h
    have e1 : labels.set (w.EndVertex e) U.1 = labels := by
      rw [h1]
      exact set_getD_self _ _ _
    have e2 : upd.set (w.EndVertex e) (upd.getD (w.EndVertex e) false || U.2) = upd := by
      rw [h, Bool.or_false]
      exact set_getD_self _ _ _
    rw [e1, e2, h]
    rfl
  refine ⟨⟨?_, hi, ?_⟩, ?_, ?_, ?_, ?_, ?_, trivial, ?_, ?_, ?_⟩
  · show (labels.set _ _).length = _
    rw [List.length_set]; exact hl
  · show (upd.set _ _).length = _
    rw [List.length_set]; exact hu
  · rw [hlab _ rfl, if_neg hxv]
  · unfold IsRelaxable
    rw [hlab _ rfl (w.EndVertex e), if_pos rfl, hlab _ rfl v, if_neg hxv]
    exact hU2
  · intro u f hu' h
    unfold IsRelaxable at h ⊢
    rw [hlab _ rfl u, if_neg (Ne.symm hu'), hlab _ rfl (w.EndVertex f)]
    split_ifs with h1
    · rw [← h1] at h
      exact hU3 _ _ h
    · exact h
  · intro u hu'
    show (upd.set _ _).getD u false = _
    rw [getD_set_eq, if_neg (Ne.symm hu')]
  · intro h
    have h' : (upd.set (w.EndVertex e) (upd.getD (w.EndVertex e) false || U.2)).getD
        (w.EndVertex e) false = false := h
    rw [getD_set_eq, if_pos rfl, if_pos hxu, Bool.or_eq_false_iff] at h'
    exact hsame h'.2
  · intro h
    have h' : (b || U.2) = false := h
    rw [Bool.or_eq_false_iff] at h'
    exact ⟨h'.1, hsame h'.2⟩
  · intro h
    have h' : (b || U.2) = true := h
    rw [Bool.or_eq_true] at h'
    rcases h' with h' | h'
    · exact Or.inl h'
    · right
      show 0 < cnt + (if U.2 then 1 else 0)
      rw [h']
      simp
  · intro h
    show 0 < cnt + (if U.2 then 1 else 0)
    have h' : 0 < cnt := h
    omega

theorem relaxFold_spec (ops : LabelType L) (laws : LabelLaws ops) (w : WindfarmResidual)
    (v : Nat) :
    ∀ (es done : List Nat) (st : BellmanFord L × Bool),
      (∀ e ∈ es, w.EndVertex e < w.NumberOfVertices ∧ w.EndVertex e ≠ v) →
      st.1.SizedFor w →
      (∀ e ∈ done, IsRelaxable ops w st.1 v e = false) →
      (∀ u, u < w.NumberOfVertices → u ≠ v → st.1.updatedSinceLastTime.getD u false = false →
        Settled ops w st.1 u) →
      (es.foldl (RelaxEdgeStep ops w v) st).1.SizedFor w
        ∧ (∀ e ∈ done ++ es, IsRelaxable ops w (es.foldl (RelaxEdgeStep ops w v) st).1 v e = false)
        ∧ (∀ u, u < w.NumberOfVertices → u ≠ v →
            (es.foldl (RelaxEdgeStep ops w v) st).1.updatedSinceLastTime.getD u false = false →
            Settled ops w (es.foldl (RelaxEdgeStep ops w v) st).1 u)
        ∧ (es.foldl (RelaxEdgeStep ops w v) st).1.vertexOfLastUpdate = st.1.vertexOfLastUpdate
        ∧ ((es.foldl (RelaxEdgeStep ops w v) st).2 = false →
            st.2 = false ∧ (es.foldl (RelaxEdgeStep ops w v) st).1 = st.1)
        ∧ ((es.foldl (RelaxEdgeStep ops w v) st).2 = true →
            st.2 = true
              ∨ 0 < (es.foldl (RelaxEdgeStep ops w v) st).1.numberOfRelaxedEdgesInLastRun)
        ∧ (0 < st.1.numberOfRelaxedEdgesInLastRun →
            0 < (es.foldl (RelaxEdgeStep ops w v) st).1.numberOfRelaxedEdgesInLastRun) := by
  intro es
  induction es with
  | nil =>
    intro done st _ hs hd hj
    simp only [List.foldl_nil, List.append_nil]
    exact ⟨hs, hd, hj, trivial, fun h => ⟨h, trivial⟩, fun h => Or.inl h, fun h => h⟩
  | cons e es ih =>
    intro done st hes hs hd hj
    have he := hes e (List.mem_cons_self _ _)
    obtain ⟨h1, h2, h3, h4, h5, h6, h7, h8, h9, h10⟩ :=
      relaxEdgeStep_spec ops laws w v st e hs he.1 he.2
    have hd' : ∀ f ∈ done ++ [e], IsRelaxable ops w (RelaxEdgeStep ops w v st e).1 v f = false := by
      intro f hf
      rw [List.mem_append, List.mem_singleton] at hf
      rcases hf with hf | hf
      · exact h4 v f (Ne.symm he.2) (hd f hf)
      · rw [hf]; exact h3
    have hj' : ∀ u, u < w.NumberOfVertices → u ≠ v →
        (RelaxEdgeStep ops w v st e).1.updatedSinceLastTime.getD u false = false →
        Settled ops w (RelaxEdgeStep ops w v st e).1 u := by
      intro u hu huv hupd
      by_cases hux : u = w.EndVertex e
      · rw [hux] at hupd
        have hsame := h6 hupd
        rw [hsame] at hupd ⊢
        rw [← hux] at hupd
        exact hj u hu huv hupd
      · rw [h5 u hux] at hupd
        intro f hf
        exact h4 u f hux (hj u hu huv hupd f hf)
    obtain ⟨k1, k2, k3, k4, k5, k6, k7⟩ :=
      ih (done ++ [e]) (RelaxEdgeStep ops w v st e)
        (fun f hf => hes f (List.mem_cons_of_mem _ hf)) h1 hd' hj'
    rw [List.foldl_cons]
    refine ⟨k1, ?_, k3, k4.trans h7, ?_, ?_, fun h => k7 (h10 h)⟩
    · intro f hf
      apply k2
      rw [List.append_assoc]
      exact hf
    · intro h
      obtain ⟨a1, a2⟩ := k5 h
      obtain ⟨b1, b2⟩ := h8 a1
      exact ⟨b1, a2.trans b2⟩
    · intro h
      rcases k6 h with a | a
      · rcases h9 a with b | b
        · exact Or.inl b
        · exact Or.inr (k7 b)
      · exact Or.inr a

theorem relaxOutgoingEdges_spec (ops : LabelType L) (laws : LabelLaws ops)
    (w : WindfarmResidual) (hw : ProperOutgoingEdges w) (s : BellmanFord L) (v : Nat)
    (hv : v < w.NumberOfVertices) (hs : s.SizedFor w)
    (hj : ∀ u, u < w.NumberOfVertices → u ≠ v → s.updatedSinceLastTime.getD u false = false →
      Settled ops w s u) :
    (RelaxOutgoingEdges ops w s v).SizedFor w
      ∧ Settled ops w (RelaxOutgoingEdges ops w s v) v
      ∧ (∀ u, u < w.NumberOfVertices → u ≠ v →
          (RelaxOutgoingEdges ops w s v).updatedSinceLastTime.getD u false = false →
          Settled ops w (RelaxOutgoingEdges ops w s v) u)
      ∧ (RelaxOutgoingEdges ops w s v = s
          ∨ ((RelaxOutgoingEdges ops w s v).vertexOfLastUpdate = (v : Int)
            ∧ 0 < (RelaxOutgoingEdges ops w s v).numberOfRelaxedEdgesInLastRun)) := by
  obtain ⟨k1, k2, k3, _, k5, k6, _⟩ :=
    relaxFold_spec ops laws w v (w.OutgoingEdges v) [] (s, false)
      (fun e he => ⟨(hw v hv e he).2.2.1, (hw v hv e he).2.2.2⟩) hs
      (fun e he => absurd he (List.not_mem_nil _)) hj
  rw [List.nil_append] at k2
  unfold RelaxOutgoingEdges
  simp only
  by_cases hb : ((w.OutgoingEdges v).foldl (RelaxEdgeStep ops w v) (s, false)).2 = true
  · rw [if_pos hb]
    refine ⟨k1, ?_, ?_, Or.inr ⟨rfl, ?_⟩⟩
    · exact settled_congr ops w _ _ rfl v k2
    · intro u hu huv h
      exact settled_congr ops w _ _ rfl u (k3 u hu huv h)
    · rcases k6 hb with a | a
      · exact absurd a (by simp)
      · exact a
  · rw [if_neg hb]
    rw [Bool.not_eq_true] at hb
    exact ⟨k1, k2, k3, Or.inl (k5 hb).2⟩

theorem runStep_spec (ops : LabelType L) (laws : LabelLaws ops)
    (w : WindfarmResidual) (hw : ProperOutgoingEdges w) (s : BellmanFord L) (v : Nat)
    (hv : v < w.NumberOfVertices) (hs : s.SizedFor w)
    (hj : ∀ u, u < w.NumberOfVertices → s.updatedSinceLastTime.getD u false = false →
      Settled ops w s u) :
    (RunStep ops w s v).SizedFor w
      ∧ (∀ u, u < w.NumberOfVertices →
          (RunStep ops w s v).updatedSinceLastTime.getD u false = false →
          Settled ops w (RunStep ops w s v) u)
      ∧ (RunStep ops w s v).updatedSinceLastTime.getD v false = false
      ∧ (((RunStep ops w s v).vertexOfLastUpdate = s.vertexOfLastUpdate
            ∧ (RunStep ops w s v).numberOfRelaxedEdgesInLastRun = s.numberOfRelaxedEdgesInLastRun
            ∧ ∀ u, u ≠ v → (RunStep ops w s v).updatedSinceLastTime.getD u false
                = s.updatedSinceLastTime.getD u false)
          ∨ ((RunStep ops w s v).vertexOfLastUpdate = (v : Int)
            ∧ 0 < (RunStep ops w s v).numberOfRelaxedEdgesInLastRun)) := by
  unfold RunStep
  by_cases hb : s.updatedSinceLastTime.getD v false = true
  · rw [if_pos hb]
    obtain ⟨k1, k2, k3, k4⟩ :=
      relaxOutgoingEdges_spec ops laws w hw s v hv hs (fun u hu _ h => hj u hu h)
    have hlen : v < (RelaxOutgoingEdges ops w s v).updatedSinceLastTime.length := by
      rw [k1.2.2]; exact hv
    have hget : ∀ u, ((RelaxOutgoingEdges ops w s v).updatedSinceLastTime.set v false).getD u false
        = if v = u then false else (RelaxOutgoingEdges ops w s v).updatedSinceLastTime.getD u false := by
      intro u
      rw [getD_set_eq, if_pos hlen]
    refine ⟨⟨k1.1, k1.2.1, ?_⟩, ?_, ?_, ?_⟩
    · show (List.set _ _ _).length = _
      rw [List.length_set]; exact k1.2.2
    · intro u hu h
      apply settled_congr ops w (RelaxOutgoingEdges ops w s v) _ rfl
      by_cases huv : u = v
      · rw [huv]; exact k2
      · have h' : ((RelaxOutgoingEdges ops w s v).updatedSinceLastTime.set v false).getD u false
            = false := h
        rw [hget, if_neg (Ne.symm huv)] at h'
        exact k3 u hu huv h'
    · show ((RelaxOutgoingEdges ops w s v).updatedSinceLastTime.set v false).getD v false = false
      rw [hget, if_pos rfl]
    · rcases k4 with a | a
      · left
        refine ⟨?_, ?_, ?_⟩
        · show (RelaxOutgoingEdges ops w s v).vertexOfLastUpdate = _
          rw [a]
        · show (RelaxOutgoingEdges ops w s v).numberOfRelaxedEdgesInLastRun = _
          rw [a]
        · intro u huv
          show ((RelaxOutgoingEdges ops w s v).updatedSinceLastTime.set v false).getD u false = _
          rw [hget, if_neg (Ne.symm huv), a]
      · right
        exact a
  · rw [if_neg hb]
    rw [Bool.not_eq_true] at hb
    exact ⟨hs, hj, hb, Or.inl ⟨rfl, rfl, fun _ _ => rfl⟩⟩

/-! ## The loops of `Run` -/

theorem runInv_step (ops : LabelType L) (laws : LabelLaws ops)
    (w : WindfarmResidual) (hw : ProperOutgoingEdges w) (s : BellmanFord L) (v : Nat)
    (hv : v < w.NumberOfVertices) (hinv : RunInv ops w s v)
    (hne : (v : Int) ≠ s.vertexOfLastUpdate) :
    RunInv ops w (RunStep ops w s v) (v + 1) := by
  obtain ⟨hs, ⟨l, hl, hlt, hj3, hbet⟩, hj⟩ := hinv
  obtain ⟨k1, k2, k3, k4⟩ := runStep_spec ops laws w hw s v hv hs hj
  have hlv : l ≠ v := by
    intro h
    apply hne
    rw [hl, h]
  refine ⟨k1, ?_, k2⟩
  rcases k4 with ⟨a1, a2, a3⟩ | ⟨a1, a2⟩
  · refine ⟨l, a1.trans hl, hlt, ?_, ?_⟩
    · rw [a3 l hlv, a2]
      exact hj3
    · intro u hu hc
      by_cases huv : u = v
      · rw [huv]; exact k3
      · rw [a3 u huv]
        apply hbet u hu
        by_cases h1 : l < v
        · rw [if_pos h1]
          rw [if_pos (by omega)] at hc
          omega
        · rw [if_neg h1]
          split_ifs at hc <;> omega
  · refine ⟨v, a1, hv, Or.inl k3, ?_⟩
    intro u _ hc
    rw [if_pos (by omega)] at hc
    omega

theorem runInv_wrap (ops : LabelType L) (w : WindfarmResidual) (s : BellmanFord L)
    (hinv : RunInv ops w s w.NumberOfVertices) : RunInv ops w s 0 := by
  obtain ⟨hs, ⟨l, hl, hlt, hj3, hbet⟩, hj⟩ := hinv
  refine ⟨hs, ⟨l, hl, hlt, hj3, ?_⟩, hj⟩
  intro u hu hc
  apply hbet u hu
  rw [if_pos hlt]
  rw [if_neg (by omega)] at hc
  omega

theorem runInv_exit (ops : LabelType L) (w : WindfarmResidual) (s : BellmanFord L) (v : Nat)
    (hinv : RunInv ops w s v) (heq : (v : Int) = s.vertexOfLastUpdate) :
    SettledExceptLast ops w { s with earlyTermination := true } := by
  obtain ⟨_, ⟨l, hl, _, hj3, hbet⟩, hj⟩ := hinv
  have hlv : l = v := by
    rw [hl] at heq
    exact_mod_cast heq.symm
  intro u hu hc
  apply settled_congr ops w s _ rfl
  apply hj u hu
  by_cases hul : u = l
  · rcases hj3 with h | ⟨h1, h2⟩
    · rw [hul]; exact h
    · exfalso
      have h2' : s.numberOfRelaxedEdgesInLastRun = 0 := h2
      have hc' : u + 1 < w.NumberOfVertices ∨ 0 < s.numberOfRelaxedEdgesInLastRun := hc
      omega
  · apply hbet u hu
    rw [← hlv, if_neg (lt_irrefl l)]
    omega

theorem runLoop_cons (ops : LabelType L) (w : WindfarmResidual) (v : Nat) (rest : List Nat)
    (s : BellmanFord L) :
    RunLoop ops w (v :: rest) s
      = if (v : Int) = s.vertexOfLastUpdate then
          (ReturnCode.EARLY_TERMINATION, { s with earlyTermination := true })
        else RunLoop ops w rest (RunStep ops w s v) :=
  rfl

theorem runLoop_append (ops : LabelType L) (w : WindfarmResidual) (a b : List Nat) :
    ∀ s : BellmanFord L,
      RunLoop ops w (a ++ b) s
        = if (RunLoop ops w a s).1 = ReturnCode.SUCCESS then
            RunLoop ops w b (RunLoop ops w a s).2
          else RunLoop ops w a s := by
  induction a with
  | nil =>
    intro s
    simp [RunLoop]
  | cons v a ih =>
    intro s
    rw [List.cons_append, runLoop_cons, runLoop_cons]
    by_cases h : (v : Int) = s.vertexOfLastUpdate
    · simp only [if_pos h]
      rw [if_neg (by decide)]
    · simp only [if_neg h]
      exact ih _

theorem runLoop_round (ops : LabelType L) (laws : LabelLaws ops)
    (w : WindfarmResidual) (hw : ProperOutgoingEdges w) :
    ∀ (n v : Nat) (s : BellmanFord L), v + n = w.NumberOfVertices → RunInv ops w s v →
      ((RunLoop ops w (List.range' v n) s).1 = ReturnCode.EARLY_TERMINATION
          ∧ SettledExceptLast ops w (RunLoop ops w (List.range' v n) s).2)
        ∨ ((RunLoop ops w (List.range' v n) s).1 = ReturnCode.SUCCESS
          ∧ RunInv ops w (RunLoop ops w (List.range' v n) s).2 w.NumberOfVertices) := by
  intro n
  induction n with
  | zero =>
    intro v s hvn hinv
    right
    rw [Nat.add_zero] at hvn
    rw [hvn] at hinv
    exact ⟨rfl, hinv⟩
  | succ n ih =>
    intro v s hvn hinv
    rw [List.range'_succ, runLoop_cons]
    by_cases h : (v : Int) = s.vertexOfLastUpdate
    · rw [if_pos h]
      left
      exact ⟨rfl, runInv_exit ops w s v hinv h⟩
    · rw [if_neg h]
      exact ih (v + 1) _ (by omega) (runInv_step ops laws w hw s v (by omega) hinv h)

theorem runLoop_rounds (ops : LabelType L) (laws : LabelLaws ops)
    (w : WindfarmResidual) (hw : ProperOutgoingEdges w) :
    ∀ (k : Nat) (s : BellmanFord L), RunInv ops w s 0 →
      ((RunLoop ops w ((List.range k).flatMap fun _ => List.range w.NumberOfVertices) s).1
            = ReturnCode.EARLY_TERMINATION
          ∧ SettledExceptLast ops w
            (RunLoop ops w ((List.range k).flatMap fun _ => List.range w.NumberOfVertices) s).2)
        ∨ ((RunLoop ops w ((List.range k).flatMap fun _ => List.range w.NumberOfVertices) s).1
            = ReturnCode.SUCCESS
          ∧ RunInv ops w
            (RunLoop ops w ((List.range k).flatMap fun _ => List.range w.NumberOfVertices) s).2
            0) := by
  intro k
  induction k with
  | zero =>
    intro s hinv
    right
    exact ⟨rfl, hinv⟩
  | succ k ih =>
    intro s hinv
    rw [List.range_succ, List.flatMap_append, List.flatMap_singleton, runLoop_append]
    rcases ih s hinv with ⟨h1, h2⟩ | ⟨h1, h2⟩
    · rw [if_neg (by rw [h1]; decide)]
      exact Or.inl ⟨h1, h2⟩
    · rw [if_pos h1]
      have hr := runLoop_round ops laws w hw w.NumberOfVertices 0 _ (by omega) h2
      rw [← List.range_eq_range'] at hr
      rcases hr with ⟨a1, a2⟩ | ⟨a1, a2⟩
      · exact Or.inl ⟨a1, a2⟩
      · exact Or.inr ⟨a1, runInv_wrap ops w _ a2⟩

theorem initializeLabels_frame (ops : LabelType L) (w : WindfarmResidual) :
    ∀ (es : List Nat) (s : BellmanFord L),
      (es.foldl (fun s edge =>
          (UpdateLabelAt ops s (w.EndVertex edge) (w.ResidualCostOnEdge edge) edge).1) s).labels.length
          = s.labels.length
        ∧ (es.foldl (fun s edge =>
          (UpdateLabelAt ops s (w.EndVertex edge) (w.ResidualCostOnEdge edge) edge).1)
            s).indexOfWalkIncluded = s.indexOfWalkIncluded
        ∧ (es.foldl (fun s edge =>
          (UpdateLabelAt ops s (w.EndVertex edge) (w.ResidualCostOnEdge edge) edge).1)
            s).currentWalkIndex = s.currentWalkIndex
        ∧ (es.foldl (fun s edge =>
          (UpdateLabelAt ops s (w.EndVertex edge) (w.ResidualCostOnEdge edge) edge).1)
            s).updatedSinceLastTime = s.updatedSinceLastTime
        ∧ (es.foldl (fun s edge =>
          (UpdateLabelAt ops s (w.EndVertex edge) (w.ResidualCostOnEdge edge) edge).1)
            s).vertexOfLastUpdate = s.vertexOfLastUpdate
        ∧ (es.foldl (fun s edge =>
          (UpdateLabelAt ops s (w.EndVertex edge) (w.ResidualCostOnEdge edge) edge).1)
            s).earlyTermination = s.earlyTermination
        ∧ (es.foldl (fun s edge =>
          (UpdateLabelAt ops s (w.EndVertex edge) (w.ResidualCostOnEdge edge) edge).1)
            s).numberOfRelaxedEdgesInLastRun = s.numberOfRelaxedEdgesInLastRun := by
  intro es
  induction es with
  | nil => intro s; exact ⟨rfl, rfl, rfl, rfl, rfl, rfl, rfl⟩
  | cons e es ih =>
    intro s
    rw [List.foldl_cons]
    obtain ⟨h1, h2, h3, h4, h5, h6, h7⟩ :=
      ih (UpdateLabelAt ops s (w.EndVertex e) (w.ResidualCostOnEdge e) e).1
    refine ⟨h1.trans ?_, h2, h3, h4, h5, h6, h7⟩
    show (s.labels.set _ _).length = _
    rw [List.length_set]

theorem runInv_initial (ops : LabelType L) (w : WindfarmResidual) (s : BellmanFord L)
    (hs : s.SizedFor w) (hn : 0 < w.NumberOfVertices) :
    RunInv ops w (InitializeLabels ops w (Reset ops w s)) 0 := by
  obtain ⟨h1, h2, h3, h4, h5, h6, h7⟩ :=
    initializeLabels_frame ops w (List.range w.NumberOfEdges) (Reset ops w s)
  obtain ⟨hl, hi, hu⟩ := hs
  have hupd : ∀ u, u < w.NumberOfVertices →
      (InitializeLabels ops w (Reset ops w s)).updatedSinceLastTime.getD u false = true := by
    intro u hu'
    unfold InitializeLabels
    rw [h4]
    show (s.updatedSinceLastTime.map fun _ => true).getD u false = true
    rw [getD_eq_getElem_of_lt _ _ _ (by rw [List.length_map, hu]; exact hu')]
    simp
  refine ⟨⟨?_, ?_, ?_⟩, ⟨w.NumberOfVertices - 1, ?_, by omega, Or.inr ⟨by omega, ?_⟩, ?_⟩, ?_⟩
  · unfold InitializeLabels
    rw [h1]
    show (s.labels.map _).length = _
    rw [List.length_map, hl]
  · unfold InitializeLabels
    rw [h2]
    show (s.indexOfWalkIncluded.map _).length = _
    rw [List.length_map, hi]
  · unfold InitializeLabels
    rw [h4]
    show (s.updatedSinceLastTime.map _).length = _
    rw [List.length_map, hu]
  · unfold InitializeLabels
    rw [h5]
    show (w.NumberOfVertices : Int) - 1 = _
    omega
  · unfold InitializeLabels
    rw [h7]
    rfl
  · intro u hu' hc
    rw [if_neg (by omega)] at hc
    omega
  · intro u hu' h
    rw [hupd u hu'] at h
    exact absurd h (by simp)

theorem run_early_settled (ops : LabelType L) (laws : LabelLaws ops)
    (w : WindfarmResidual) (hw : ProperOutgoingEdges w) (s : BellmanFord L)
    (hs : s.SizedFor w) (h : (Run ops w s).1 = ReturnCode.EARLY_TERMINATION) :
    SettledExceptLast ops w (Run ops w s).2 := by
  by_cases hn : 0 < w.NumberOfVertices
  · rcases runLoop_rounds ops laws w hw (ops.NumberOfIterations w).toNat _
        (runInv_initial ops w s hs hn) with ⟨_, h2⟩ | ⟨h1, _⟩
    · exact h2
    · exfalso
      unfold Run at h
      rw [h1] at h
      exact absurd h (by decide)
  · intro v hv
    omega

end BellmanFord

/-! ## Potentials exclude closed walks of negative cost -/

theorem potential_chain (w : WindfarmResidual) (p : Nat → ℚ)
    (h : ∀ e, e < w.NumberOfEdges →
      ((p (w.EndVertex e) : ℚ) : WithTop ℚ) ≤ ((p (w.StartVertex e) : ℚ) : WithTop ℚ) + w.ResidualCostOnEdge e)
    (c0 : WithTop ℚ) :
    ∀ (C : List Nat) (e0 : Nat) (acc : WithTop ℚ), (∀ e ∈ C, e < w.NumberOfEdges) →
      List.Chain (fun a b => w.EndVertex a = w.StartVertex b) e0 C →
      ((p (w.EndVertex e0) : ℚ) : WithTop ℚ) ≤ c0 + acc →
      ((p (w.EndVertex (C.getLastD e0)) : ℚ) : WithTop ℚ)
        ≤ c0 + C.foldl (fun cost e => cost + w.ResidualCostOnEdge e) acc := by
  intro C
  induction C with
  | nil => intro e0 acc _ _ h0; exact h0
  | cons e1 C ih =>
    intro e0 acc hC hch h0
    rw [List.chain_cons] at hch
    have e : (e1 :: C).getLastD e0 = C.getLastD e1 := by cases C <;> simp [List.getLastD]
    rw [e, List.foldl_cons]
    apply ih e1 _ (fun e he => hC e (List.mem_cons_of_mem _ he)) hch.2
    calc ((p (w.EndVertex e1) : ℚ) : WithTop ℚ)
        ≤ ((p (w.StartVertex e1) : ℚ) : WithTop ℚ) + w.ResidualCostOnEdge e1 :=
          h e1 (hC e1 (List.mem_cons_self _ _))
      _ ≤ (c0 + acc) + w.ResidualCostOnEdge e1 := by
          rw [← hch.1]
          exact add_le_add_right h0 _
      _ = c0 + (acc + w.ResidualCostOnEdge e1) := add_assoc _ _ _

theorem noNegativeClosedWalk_of_potential (w : WindfarmResidual) (p : Nat → ℚ)
    (h : ∀ e, e < w.NumberOfEdges →
      ((p (w.EndVertex e) : ℚ) : WithTop ℚ) ≤ ((p (w.StartVertex e) : ℚ) : WithTop ℚ) + w.ResidualCostOnEdge e) :
    NoNegativeClosedWalk w := by
  intro walk hw
  obtain ⟨hne, hlt, hch, hcl⟩ := hw
  cases walk with
  | nil => exact absurd rfl hne
  | cons e0 C =>
    have h1 := potential_chain w p h ((p (w.StartVertex e0) : ℚ) : WithTop ℚ) C e0 (0 + w.ResidualCostOnEdge e0)
      (fun e he => hlt e (List.mem_cons_of_mem _ he)) hch
      (by rw [zero_add]; exact h e0 (hlt e0 (List.mem_cons_self _ _)))
    have e : (e0 :: C).getLastD 0 = C.getLastD e0 := by cases C <;> simp [List.getLastD]
    rw [e] at hcl
    rw [hcl] at h1
    have h2 : NegativeCycleCanceling.CostOfWalk w (e0 :: C)
        = C.foldl (fun cost e => cost + w.ResidualCostOnEdge e) (0 + w.ResidualCostOnEdge e0) := rfl
    rw [h2]
    simp only [List.headD_cons] at h1
    generalize C.foldl (fun cost e => cost + w.ResidualCostOnEdge e) (0 + w.ResidualCostOnEdge e0) = c at h1
    cases c with
    | top => exact le_top
    | coe q =>
      rw [← WithTop.coe_add, WithTop.coe_le_coe] at h1
      rw [← WithTop.coe_zero, WithTop.coe_le_coe]
      linarith

/-! ## Early termination -/

/-- C13 (counterexample): on the residual graph of one substation with the residual cost
`-1` on the edge `0` to the super substation and `5` on the edge `1` back, no closed walk has
negative cost and `Run` with `OneDistanceLabel` returns `EARLY_TERMINATION`, yet the edge `1`
out of the super substation can still be relaxed; with the costs `3` and `-2` no closed walk
has negative cost either, and `Run` returns `SUCCESS`. -/
theorem early_termination_leaves_relaxable_edge :
    NoNegativeClosedWalk (substationGraph [0] [-1, 5])
      ∧ (BellmanFord.Run oneDistanceLabel (substationGraph [0] [-1, 5])
          (BellmanFord.create oneDistanceLabel (substationGraph [0] [-1, 5]))).1
        = ReturnCode.EARLY_TERMINATION
      ∧ 1 ∈ (substationGraph [0] [-1, 5]).OutgoingEdges 1
      ∧ BellmanFord.IsRelaxable oneDistanceLabel (substationGraph [0] [-1, 5])
          (BellmanFord.Run oneDistanceLabel (substationGraph [0] [-1, 5])
            (BellmanFord.create oneDistanceLabel (substationGraph [0] [-1, 5]))).2 1 1 = true
      ∧ NoNegativeClosedWalk (substationGraph [0] [3, -2])
      ∧ (BellmanFord.Run oneDistanceLabel (substationGraph [0] [3, -2])
          (BellmanFord.create oneDistanceLabel (substationGraph [0] [3, -2]))).1
        = ReturnCode.SUCCESS := by
  refine ⟨?_, ?_, ?_, ?_, ?_, ?_⟩
  · apply noNegativeClosedWalk_of_potential _ (fun v => if v = 1 then -1 else 0)
    intro e he
    have he' : e < 2 := he
    interval_cases e <;> with_unfolding_all decide
  · with_unfolding_all decide
  · decide
  · with_unfolding_all decide
  · apply noNegativeClosedWalk_of_potential _ (fun v => if v = 1 then 2 else 0)
    intro e he
    have he' : e < 2 := he
    interval_cases e <;> with_unfolding_all decide
  · with_unfolding_all decide

/-- C13 (amended): on a residual graph in which every outgoing edge of a vertex ends at
another vertex, with any residual costs, for `OneDistanceLabel` and for `TwoDistancesLabel`:
when `Run` returns `EARLY_TERMINATION` and has updated at least one label
(`NumberOfRelaxedEdgesInLastRun() > 0`), then
`WouldUpdate(label(v).Distance(e) + r(e), e)` at the label of `EndVertex(e)` is false for
every vertex `v` and every outgoing edge `e` of `v`. -/
theorem early_termination_settles_edges (w : WindfarmResidual) (hw : ProperOutgoingEdges w) :
    (∀ s : BellmanFord OneDistanceLabel, s.SizedFor w →
        (BellmanFord.Run oneDistanceLabel w s).1 = ReturnCode.EARLY_TERMINATION →
        0 < (BellmanFord.Run oneDistanceLabel w s).2.numberOfRelaxedEdgesInLastRun →
        ∀ v, v < w.NumberOfVertices → ∀ e ∈ w.OutgoingEdges v,
          BellmanFord.IsRelaxable oneDistanceLabel w (BellmanFord.Run oneDistanceLabel w s).2 v e
            = false)
      ∧ (∀ s : BellmanFord TwoDistancesLabel, s.SizedFor w →
        (BellmanFord.Run twoDistancesLabel w s).1 = ReturnCode.EARLY_TERMINATION →
        0 < (BellmanFord.Run twoDistancesLabel w s).2.numberOfRelaxedEdgesInLastRun →
        ∀ v, v < w.NumberOfVertices → ∀ e ∈ w.OutgoingEdges v,
          BellmanFord.IsRelaxable twoDistancesLabel w (BellmanFord.Run twoDistancesLabel w s).2 v e
            = false) :=
  ⟨fun s hs h hr v hv =>
      BellmanFord.run_early_settled oneDistanceLabel oneDistanceLabel_laws w hw s hs h v hv
        (Or.inr hr),
    fun s hs h hr v hv =>
      BellmanFord.run_early_settled twoDistancesLabel twoDistancesLabel_laws w hw s hs h v hv
        (Or.inr hr)⟩

theorem substationGraph_proper (flow : List Int) (costs : List (WithTop ℚ)) :
    ProperOutgoingEdges (substationGraph flow costs) := by
  intro v hv e he
  have hv' : v < 2 := hv
  interval_cases v
  · have he' : e ∈ [0] := he
    rw [List.mem_singleton] at he'
    subst he'
    exact ⟨by show 0 < 2; omega, rfl, by show 1 < 2; omega, by show (1 : Nat) ≠ 0; omega⟩
  · have he' : e ∈ [1] := he
    rw [List.mem_singleton] at he'
    subst he'
    exact ⟨by show 1 < 2; omega, rfl, by show 0 < 2; omega, by show (0 : Nat) ≠ 1; omega⟩

end wcp

namespace wcp

/-! ## The parent edges of the two distance labels -/

theorem oneDistanceLabel_parents : ParentLaws oneDistanceLabel OneDistanceLabel.stored := by
  refine ⟨rfl, ?_, ?_⟩
  · intro l w e p h
    change l.parent = some p at h
    show p ∈ l.parent.toList
    rw [h]
    simp
  · intro l d p q h
    change q ∈ (OneDistanceLabel.Update l d p).1.parent.toList at h
    show q = p ∨ q ∈ l.parent.toList
    unfold OneDistanceLabel.Update at h
    split_ifs at h
    · left
      simpa using h
    · right
      exact h

theorem twoDistancesLabel_parents : ParentLaws twoDistancesLabel TwoDistancesLabel.stored := by
  refine ⟨rfl, ?_, ?_⟩
  · intro l w e p h
    change (if l.parent = some (w.ReverseEdgeIndex e) then l.parentSecond else l.parent) = some p
      at h
    show p ∈ l.parent.toList ++ l.parentSecond.toList
    rw [List.mem_append]
    split_ifs at h
    · right
      rw [h]
      simp
    · left
      rw [h]
      simp
  · intro l d p q h
    change q ∈ (TwoDistancesLabel.Update l d p).1.parent.toList
      ++ (TwoDistancesLabel.Update l d p).1.parentSecond.toList at h
    show q = p ∨ q ∈ l.parent.toList ++ l.parentSecond.toList
    rw [List.mem_append] at h ⊢
    unfold TwoDistancesLabel.Update at h
    split_ifs at h
    · right
      exact h
    · rcases h with h | h
      · left
        simpa using h
      · right
        left
        exact h
    · rcases h with h | h
      · right
        left
        exact h
      · left
        simpa using h
    · right
      exact h

namespace BellmanFord

variable {L : Type}

/-! ## `Run` keeps the parent edges valid -/

theorem parentsValid_congr (ops : LabelType L) (stored : L → List Nat) (w : WindfarmResidual)
    (s s' : BellmanFord L) (h : s'.labels = s.labels) (hs : ParentsValid ops stored w s) :
    ParentsValid ops stored w s' := by
  intro v p hp
  unfold LabelAt at hp
  rw [h] at hp
  exact hs v p hp

theorem parentsValid_update (ops : LabelType L) (stored : L → List Nat)
    (laws : ParentLaws ops stored) (w : WindfarmResidual) (s : BellmanFord L)
    (d : WithTop ℚ) (e : Nat) (he : e < w.NumberOfEdges) (hs : ParentsValid ops stored w s) :
    ParentsValid ops stored w (UpdateLabelAt ops s (w.EndVertex e) d e).1 := by
  intro v p hp
  have hl : LabelAt ops (UpdateLabelAt ops s (w.EndVertex e) d e).1 v
      = (s.labels.set (w.EndVertex e)
          (ops.Update (LabelAt ops s (w.EndVertex e)) d e).1).getD v ops.init := rfl
  rw [hl, getD_set_eq] at hp
  split_ifs at hp with h1 h2
  · rcases laws.update _ _ _ _ hp with h | h
    · rw [h]
      exact ⟨he, h1⟩
    · rw [← h1]
      exact hs _ p h
  · exact hs v p hp
  · exact hs v p hp

theorem outgoing_lt (w : WindfarmResidual) (hw : ProperOutgoingEdges w) (v e : Nat)
    (he : e ∈ w.OutgoingEdges v) : e < w.NumberOfEdges := by
  by_cases hv : v < w.NumberOfVertices
  · exact (hw v hv e he).1
  · exfalso
    have h1 : w.VertexAt v = default := getD_of_length_le _ _ _ (not_lt.mp hv)
    unfold WindfarmResidual.OutgoingEdges at he
    rw [h1] at he
    exact absurd he (List.not_mem_nil _)

theorem relaxFold_frame (ops : LabelType L) (stored : L → List Nat)
    (laws : ParentLaws ops stored) (w : WindfarmResidual) (v : Nat) :
    ∀ (es : List Nat) (st : BellmanFord L × Bool), (∀ e ∈ es, e < w.NumberOfEdges) →
      ParentsValid ops stored w st.1 →
      ParentsValid ops stored w (es.foldl (RelaxEdgeStep ops w v) st).1
        ∧ (es.foldl (RelaxEdgeStep ops w v) st).1.indexOfWalkIncluded = st.1.indexOfWalkIncluded
        ∧ (es.foldl (RelaxEdgeStep ops w v) st).1.currentWalkIndex = st.1.currentWalkIndex := by
  intro es
  induction es with
  | nil => intro st _ h; exact ⟨h, rfl, rfl⟩
  | cons e es ih =>
    intro st hes h
    rw [List.foldl_cons]
    have h1 : ParentsValid ops stored w (RelaxEdgeStep ops w v st e).1 :=
      parentsValid_congr ops stored w _ _ rfl
        (parentsValid_update ops stored laws w st.1 _ e (hes e (List.mem_cons_self _ _)) h)
    obtain ⟨k1, k2, k3⟩ := ih (RelaxEdgeStep ops w v st e)
      (fun f hf => hes f (List.mem_cons_of_mem _ hf)) h1
    exact ⟨k1, k2, k3⟩

theorem runStep_frame (ops : LabelType L) (stored : L → List Nat)
    (laws : ParentLaws ops stored) (w : WindfarmResidual)
    (hw : ∀ v, ∀ e ∈ w.OutgoingEdges v, e < w.NumberOfEdges) (s : BellmanFord L) (v : Nat)
    (h : ParentsValid ops stored w s) :
    ParentsValid ops stored w (RunStep ops w s v)
      ∧ (RunStep ops w s v).indexOfWalkIncluded = s.indexOfWalkIncluded
      ∧ (RunStep ops w s v).currentWalkIndex = s.currentWalkIndex := by
  obtain ⟨k1, k2, k3⟩ := relaxFold_frame ops stored laws w v (w.OutgoingEdges v) (s, false)
    (hw v) h
  have hr : ParentsValid ops stored w (RelaxOutgoingEdges ops w s v)
      ∧ (RelaxOutgoingEdges ops w s v).indexOfWalkIncluded = s.indexOfWalkIncluded
      ∧ (RelaxOutgoingEdges ops w s v).currentWalkIndex = s.currentWalkIndex := by
    unfold RelaxOutgoingEdges
    simp only
    split_ifs
    · exact ⟨parentsValid_congr ops stored w _ _ rfl k1, k2, k3⟩
    · exact ⟨k1, k2, k3⟩
  unfold RunStep
  split_ifs
  · exact ⟨parentsValid_congr ops stored w _ _ rfl hr.1, hr.2.1, hr.2.2⟩
  · exact ⟨h, rfl, rfl⟩

theorem runLoop_frame (ops : LabelType L) (stored : L → List Nat)
    (laws : ParentLaws ops stored) (w : WindfarmResidual)
    (hw : ∀ v, ∀ e ∈ w.OutgoingEdges v, e < w.NumberOfEdges) :
    ∀ (vs : List Nat) (s : BellmanFord L), ParentsValid ops stored w s →
      ParentsValid ops stored w (RunLoop ops w vs s).2
        ∧ (RunLoop ops w vs s).2.indexOfWalkIncluded = s.indexOfWalkIncluded
        ∧ (RunLoop ops w vs s).2.currentWalkIndex = s.currentWalkIndex := by
  intro vs
  induction vs with
  | nil => intro s h; exact ⟨h, rfl, rfl⟩
  | cons v vs ih =>
    intro s h
    rw [runLoop_cons]
    split_ifs
    · exact ⟨parentsValid_congr ops stored w _ _ rfl h, rfl, rfl⟩
    · obtain ⟨k1, k2, k3⟩ := runStep_frame ops stored laws w hw s v h
      obtain ⟨j1, j2, j3⟩ := ih _ k1
      exact ⟨j1, j2.trans k2, j3.trans k3⟩

theorem initializeLabels_parents (ops : LabelType L) (stored : L → List Nat)
    (laws : ParentLaws ops stored) (w : WindfarmResidual) :
    ∀ (es : List Nat) (s : BellmanFord L), (∀ e ∈ es, e < w.NumberOfEdges) →
      ParentsValid ops stored w s →
      ParentsValid ops stored w
        (es.foldl (fun s edge =>
          (UpdateLabelAt ops s (w.EndVertex edge) (w.ResidualCostOnEdge edge) edge).1) s) := by
  intro es
  induction es with
  | nil => intro s _ h; exact h
  | cons e es ih =>
    intro s hes h
    rw [List.foldl_cons]
    exact ih _ (fun f hf => hes f (List.mem_cons_of_mem _ hf))
      (parentsValid_update ops stored laws w s _ e (hes e (List.mem_cons_self _ _)) h)

theorem run_extractInv (ops : LabelType L) (stored : L → List Nat)
    (laws : ParentLaws ops stored) (w : WindfarmResidual)
    (hw : ∀ v, ∀ e ∈ w.OutgoingEdges v, e < w.NumberOfEdges) (s : BellmanFord L)
    (hs : s.SizedFor w) : ExtractInv ops stored w (Run ops w s).2 := by
  have h0 : ParentsValid ops stored w (Reset ops w s) := by
    intro v p hp
    have hl : LabelAt ops (Reset ops w s) v = ops.init := by
      show (s.labels.map fun _ => ops.init).getD v ops.init = ops.init
      rw [List.getD_eq_getElem?_getD, List.getElem?_map]
      cases s.labels[v]? <;> rfl
    rw [hl, laws.init] at hp
    exact absurd hp (List.not_mem_nil _)
  have h1 : ParentsValid ops stored w (InitializeLabels ops w (Reset ops w s)) :=
    initializeLabels_parents ops stored laws w _ _ (fun e he => List.mem_range.mp he) h0
  obtain ⟨_, f2, f3, _⟩ :=
    initializeLabels_frame ops w (List.range w.NumberOfEdges) (Reset ops w s)
  obtain ⟨k1, k2, k3⟩ := runLoop_frame ops stored laws w hw
    ((List.range (ops.NumberOfIterations w).toNat).flatMap fun _ =>
      List.range w.NumberOfVertices) _ h1
  have hidx : (Run ops w s).2.indexOfWalkIncluded = s.indexOfWalkIncluded.map fun _ => 0 := by
    unfold Run
    rw [k2]
    unfold InitializeLabels
    rw [f2]
    rfl
  have hcur : (Run ops w s).2.currentWalkIndex = 0 := by
    unfold Run
    rw [k3]
    unfold InitializeLabels
    rw [f3]
    rfl
  refine ⟨k1, ?_, ?_⟩
  · rw [hidx, List.length_map]
    exact hs.2.1
  · intro e
    rw [hidx, hcur, List.getD_eq_getElem?_getD, List.getElem?_map]
    cases s.indexOfWalkIncluded[e]? <;> simp

/-! ## The loop of `ExtractWalk` -/

theorem extractWalkLoop_none (ops : LabelType L) (w : WindfarmResidual) (fuel : Nat)
    (s : BellmanFord L) (walk : List Nat) :
    ExtractWalkLoop ops w fuel s walk none = none := by
  cases fuel <;> rfl

theorem extractWalkLoop_zero (ops : LabelType L) (w : WindfarmResidual)
    (s : BellmanFord L) (walk : List Nat) (e : Nat) :
    ExtractWalkLoop ops w 0 s walk (some e)
      = if OnAnyWalk s e then some (s, walk, e) else none :=
  rfl

theorem extractWalkLoop_succ (ops : LabelType L) (w : WindfarmResidual) (fuel : Nat)
    (s : BellmanFord L) (walk : List Nat) (e : Nat) :
    ExtractWalkLoop ops w (fuel + 1) s walk (some e)
      = if OnAnyWalk s e then some (s, walk, e)
        else
          ExtractWalkLoop ops w fuel (SetToCurrentWalk s e) (walk ++ [e])
            (ops.Parent (LabelAt ops (SetToCurrentWalk s e) (w.StartVertex e)) w e) :=
  rfl

theorem extractWalkInv_push (ops : LabelType L) (stored : L → List Nat)
    (laws : ParentLaws ops stored) (w : WindfarmResidual) (s : BellmanFord L)
    (walk : List Nat) (e : Nat) (hinv : ExtractWalkInv ops stored w s walk (some e))
    (hon : OnAnyWalk s e = false) :
    ExtractWalkInv ops stored w (SetToCurrentWalk s e) (walk ++ [e])
      (ops.Parent (LabelAt ops (SetToCurrentWalk s e) (w.StartVertex e)) w e) := by
  obtain ⟨hp, hsz, hidx, hnd, hm, hold, hed, hch, hcur⟩ := hinv
  obtain ⟨he, hlast⟩ := hcur e rfl
  have h0 : s.indexOfWalkIncluded.getD e 0 = 0 := by
    unfold OnAnyWalk at hon
    simpa using hon
  have hnot : e ∉ walk := by
    intro h
    have := (hm e).2 h
    omega
  have hget : ∀ x, (SetToCurrentWalk s e).indexOfWalkIncluded.getD x 0
      = if e = x then s.currentWalkIndex else s.indexOfWalkIncluded.getD x 0 := by
    intro x
    have hlt : e < s.indexOfWalkIncluded.length := by rw [hsz]; exact he
    show (s.indexOfWalkIncluded.set e s.currentWalkIndex).getD x 0 = _
    rw [getD_set_eq, if_pos hlt]
  refine ⟨parentsValid_congr ops stored w s _ rfl hp, ?_, hidx, ?_, ?_, ?_, ?_, ?_, ?_⟩
  · show (s.indexOfWalkIncluded.set e s.currentWalkIndex).length = _
    rw [List.length_set]
    exact hsz
  · rw [List.nodup_append]
    refine ⟨hnd, List.nodup_singleton e, ?_⟩
    intro x hx hx'
    rw [List.mem_singleton] at hx'
    rw [hx'] at hx
    exact hnot hx
  · intro x
    rw [hget, List.mem_append, List.mem_singleton]
    show (if e = x then s.currentWalkIndex else s.indexOfWalkIncluded.getD x 0)
      = s.currentWalkIndex ↔ _
    split_ifs with h1
    · exact ⟨fun _ => Or.inr h1.symm, fun _ => rfl⟩
    · rw [hm x]
      exact ⟨fun h => Or.inl h, fun h => h.elim id (fun h2 => absurd h2.symm h1)⟩
  · intro x
    rw [hget]
    show (if e = x then s.currentWalkIndex else s.indexOfWalkIncluded.getD x 0)
      ≤ s.currentWalkIndex
    split_ifs
    · exact le_refl _
    · exact hold x
  · intro x hx
    rw [List.mem_append, List.mem_singleton] at hx
    rcases hx with hx | hx
    · exact hed x hx
    · rw [hx]; exact he
  · rw [List.chain'_append]
    refine ⟨hch, List.chain'_singleton e, ?_⟩
    intro x hx y hy
    have hy' : y = e := by simpa using hy.symm
    rw [hy']
    exact hlast x hx
  · intro p hpar
    have hmem := laws.parent _ _ _ _ hpar
    have hv := hp (w.StartVertex e) p hmem
    refine ⟨hv.1, ?_⟩
    intro x hx
    rw [List.getLast?_concat] at hx
    have hx' : x = e := by simpa using hx.symm
    rw [hx']
    exact hv.2

theorem extractWalkLoop_spec (ops : LabelType L) (stored : L → List Nat)
    (laws : ParentLaws ops stored) (w : WindfarmResidual) :
    ∀ (fuel : Nat) (s : BellmanFord L) (walk : List Nat) (current : Option Nat)
      (s' : BellmanFord L) (walk' : List Nat) (e' : Nat),
      ExtractWalkInv ops stored w s walk current →
      ExtractWalkLoop ops w fuel s walk current = some (s', walk', e') →
      ExtractWalkInv ops stored w s' walk' (some e') ∧ OnAnyWalk s' e' = true
        ∧ s'.currentWalkIndex = s.currentWalkIndex := by
  intro fuel
  induction fuel with
  | zero =>
    intro s walk current s' walk' e' hinv h
    cases current with
    | none => rw [extractWalkLoop_none] at h; exact absurd h (by simp)
    | some e =>
      rw [extractWalkLoop_zero] at h
      split_ifs at h with h1
      simp only [Option.some.injEq, Prod.mk.injEq] at h
      obtain ⟨a1, a2, a3⟩ := h
      subst a1 a2 a3
      exact ⟨hinv, h1, rfl⟩
  | succ fuel ih =>
    intro s walk current s' walk' e' hinv h
    cases current with
    | none => rw [extractWalkLoop_none] at h; exact absurd h (by simp)
    | some e =>
      rw [extractWalkLoop_succ] at h
      split_ifs at h with h1
      · simp only [Option.some.injEq, Prod.mk.injEq] at h
        obtain ⟨a1, a2, a3⟩ := h
        subst a1 a2 a3
        exact ⟨hinv, h1, rfl⟩
      · rw [Bool.not_eq_true] at h1
        obtain ⟨k1, k2, k3⟩ := ih _ _ _ s' walk' e'
          (extractWalkInv_push ops stored laws w s walk e hinv h1) h
        exact ⟨k1, k2, k3⟩

/-! ## The walk that `ExtractWalk` returns -/

theorem drop_indexOf (walk : List Nat) (e : Nat) (h : e ∈ walk) :
    walk.drop (walk.indexOf e) = e :: walk.drop (walk.indexOf e + 1) := by
  have hlt : walk.indexOf e < walk.length := List.indexOf_lt_length.mpr h
  rw [List.drop_eq_getElem_cons hlt]
  congr 1
  exact List.indexOf_get hlt

theorem closedTrail_of_walk (w : WindfarmResidual) (walk : List Nat) (e : Nat)
    (hnd : walk.Nodup) (hed : ∀ x ∈ walk, x < w.NumberOfEdges)
    (hch : List.Chain' (fun a b => w.EndVertex b = w.StartVertex a) walk)
    (hlast : ∀ x ∈ walk.getLast?, w.EndVertex e = w.StartVertex x) (he : e ∈ walk) :
    IsClosedTrail w (walk.drop (walk.indexOf e)).reverse := by
  have hsplit : walk = walk.take (walk.indexOf e) ++ walk.drop (walk.indexOf e) :=
    (List.take_append_drop _ _).symm
  have hD := drop_indexOf walk e he
  generalize walk.drop (walk.indexOf e) = D at hsplit hD
  generalize walk.drop (walk.indexOf e + 1) = T at hD
  have hsub : D.Sublist walk := by
    rw [hsplit]
    exact List.sublist_append_right _ _
  have hDne : D ≠ [] := by rw [hD]; exact List.cons_ne_nil _ _
  have hlastD : walk.getLast? = D.getLast? := by
    rw [hsplit, List.getLast?_append_of_ne_nil _ hDne]
  refine ⟨⟨?_, ?_, ?_, ?_⟩, ?_⟩
  · intro h
    rw [List.reverse_eq_nil_iff] at h
    exact hDne h
  · intro x hx
    rw [List.mem_reverse] at hx
    exact hed x (hsub.subset hx)
  · rw [List.chain'_reverse]
    have h1 : List.Chain' (fun a b => w.EndVertex b = w.StartVertex a) D := by
      rw [hsplit] at hch
      exact hch.right_of_append
    exact h1
  · have h1 : D.reverse.getLastD 0 = e := by
      rw [hD, List.reverse_cons, List.getLastD_concat]
    have h2 : ∀ x ∈ walk.getLast?, D.reverse.headD 0 = x := by
      intro x hx
      rw [hlastD] at hx
      have h3 : D.reverse.head? = some x := by
        rw [List.head?_reverse]
        exact hx
      cases hr : D.reverse with
      | nil =>
        rw [hr] at h3
        exact absurd h3 (by simp)
      | cons a l =>
        rw [hr] at h3
        simpa using h3
    rw [h1]
    have h4 : ∃ x, walk.getLast? = some x := by
      cases hl : walk.getLast? with
      | none =>
        rw [List.getLast?_eq_none_iff] at hl
        rw [hl] at he
        exact absurd he (List.not_mem_nil _)
      | some x => exact ⟨x, rfl⟩
    obtain ⟨x, hx⟩ := h4
    rw [h2 x hx]
    exact hlast x hx
  · rw [List.nodup_reverse]
    exact hnd.sublist hsub

theorem extractWalk_spec (ops : LabelType L) (stored : L → List Nat)
    (laws : ParentLaws ops stored) (w : WindfarmResidual) (s : BellmanFord L)
    (lastEdge : Nat) (s' : BellmanFord L) (walk : List Nat)
    (hp : ParentsValid ops stored w s) (hsz : s.indexOfWalkIncluded.length = w.NumberOfEdges)
    (hm : ∀ e, s.indexOfWalkIncluded.getD e 0 < s.currentWalkIndex)
    (he : lastEdge < w.NumberOfEdges)
    (h : ExtractWalk ops w s lastEdge = some (s', walk)) :
    ExtractInv ops stored w s' ∧ s'.currentWalkIndex = s.currentWalkIndex
      ∧ (walk ≠ [] → IsClosedTrail w walk) := by
  have hinv : ExtractWalkInv ops stored w s [] (some lastEdge) := by
    refine ⟨hp, hsz, ?_, List.nodup_nil, ?_, fun e => le_of_lt (hm e), ?_, List.chain'_nil, ?_⟩
    · have := hm 0
      omega
    · intro e
      have := hm e
      constructor
      · intro h1
        omega
      · intro h1
        exact absurd h1 (List.not_mem_nil _)
    · intro e h1
      exact absurd h1 (List.not_mem_nil _)
    · intro e h1
      have h2 : lastEdge = e := by simpa using h1
      rw [← h2]
      exact ⟨he, fun x hx => absurd hx (by simp)⟩
  unfold ExtractWalk at h
  cases hloop : ExtractWalkLoop ops w w.NumberOfEdges s [] (some lastEdge) with
  | none =>
    rw [hloop] at h
    exact absurd h (by simp)
  | some r =>
    obtain ⟨s1, walk1, e1⟩ := r
    rw [hloop] at h
    obtain ⟨k1, _, k3⟩ := extractWalkLoop_spec ops stored laws w _ _ _ _ _ _ _ hinv hloop
    simp only at h
    split_ifs at h with h1
    · simp only [Option.some.injEq, Prod.mk.injEq] at h
      obtain ⟨a1, a2⟩ := h
      subst a1 a2
      refine ⟨⟨k1.parents, k1.sized, k1.older⟩, k3, fun _ => ?_⟩
      have hmem : e1 ∈ walk1 := by
        apply (k1.marks e1).1
        unfold OnCurrentWalk at h1
        simpa using h1
      exact closedTrail_of_walk w walk1 e1 k1.nodup k1.edges k1.chain (k1.current e1 rfl).2 hmem
    · simp only [Option.some.injEq, Prod.mk.injEq] at h
      obtain ⟨a1, a2⟩ := h
      subst a1 a2
      exact ⟨⟨k1.parents, k1.sized, k1.older⟩, k3, fun h2 => absurd rfl h2⟩

/-! ## `ExtractNegativeClosedWalk` -/

theorem extractNegativeClosedWalkLoop_spec (ops : LabelType L) (stored : L → List Nat)
    (laws : ParentLaws ops stored) (w : WindfarmResidual)
    (hw : ∀ v, ∀ e ∈ w.OutgoingEdges v, e < w.NumberOfEdges) :
    ∀ (vs : List Nat) (s s' : BellmanFord L) (walk : List Nat),
      ParentsValid ops stored w s → s.indexOfWalkIncluded.length = w.NumberOfEdges →
      (∀ e, s.indexOfWalkIncluded.getD e 0 < s.currentWalkIndex) →
      ExtractNegativeClosedWalkLoop ops w vs s = some (s', walk) →
      ExtractInv ops stored w s' ∧ (walk ≠ [] → IsClosedTrail w walk) := by
  intro vs
  induction vs with
  | nil =>
    intro s s' walk hp hsz hm h
    have h' : some (s, ([] : List Nat)) = some (s', walk) := h
    simp only [Option.some.injEq, Prod.mk.injEq] at h'
    obtain ⟨a1, a2⟩ := h'
    subst a1 a2
    exact ⟨⟨hp, hsz, fun e => le_of_lt (hm e)⟩, fun h2 => absurd rfl h2⟩
  | cons v vs ih =>
    intro s s' walk hp hsz hm h
    unfold ExtractNegativeClosedWalkLoop at h
    cases hfind : FindRelaxableOutgoingEdge ops w s v with
    | none =>
      rw [hfind] at h
      exact ih s s' walk hp hsz hm h
    | some e =>
      rw [hfind] at h
      simp only at h
      have he : e < w.NumberOfEdges := hw v e (List.mem_of_find?_eq_some hfind)
      cases hex : ExtractWalk ops w s e with
      | none =>
        rw [hex] at h
        exact absurd h (by simp)
      | some r =>
        obtain ⟨s1, walk1⟩ := r
        rw [hex] at h
        simp only at h
        obtain ⟨k1, k2, k3⟩ := extractWalk_spec ops stored laws w s e s1 walk1 hp hsz hm he hex
        split_ifs at h with h1
        · simp only [Option.some.injEq, Prod.mk.injEq] at h
          obtain ⟨a1, a2⟩ := h
          subst a1 a2
          exact ⟨k1, k3⟩
        · refine ih { s1 with currentWalkIndex := s1.currentWalkIndex + 1 } s' walk
            (parentsValid_congr ops stored w s1 _ rfl k1.parents) k1.sized ?_ h
          intro x
          have := k1.marks x
          show s1.indexOfWalkIncluded.getD x 0 < s1.currentWalkIndex + 1
          omega

theorem extractNegativeClosedWalk_spec (ops : LabelType L) (stored : L → List Nat)
    (laws : ParentLaws ops stored) (w : WindfarmResidual)
    (hw : ∀ v, ∀ e ∈ w.OutgoingEdges v, e < w.NumberOfEdges)
    (s s' : BellmanFord L) (walk : List Nat) (hinv : ExtractInv ops stored w s)
    (h : ExtractNegativeClosedWalk ops w s = some (s', walk)) :
    ExtractInv ops stored w s' ∧ (walk ≠ [] → IsClosedTrail w walk) := by
  unfold ExtractNegativeClosedWalk at h
  split_ifs at h with h1
  · simp only [Option.some.injEq, Prod.mk.injEq] at h
    obtain ⟨a1, a2⟩ := h
    subst a1 a2
    exact ⟨hinv, fun h2 => absurd rfl h2⟩
  · refine extractNegativeClosedWalkLoop_spec ops stored laws w hw _
      { s with currentWalkIndex := s.currentWalkIndex + 1 } s' walk
      (parentsValid_congr ops stored w s _ rfl hinv.parents) hinv.sized ?_ h
    intro x
    have := hinv.marks x
    show s.indexOfWalkIncluded.getD x 0 < s.currentWalkIndex + 1
    omega

theorem extractNegativeClosedWalks_spec (ops : LabelType L) (stored : L → List Nat)
    (laws : ParentLaws ops stored) (w : WindfarmResidual)
    (hw : ∀ v, ∀ e ∈ w.OutgoingEdges v, e < w.NumberOfEdges) :
    ∀ (n : Nat) (s s' : BellmanFord L) (walks : List (List Nat)),
      ExtractInv ops stored w s →
      ExtractNegativeClosedWalks ops w n s = some (s', walks) →
      ∀ walk ∈ walks, walk ≠ [] → IsClosedTrail w walk := by
  intro n
  induction n with
  | zero =>
    intro s s' walks _ h walk hwalk
    have h' : some (s, ([] : List (List Nat))) = some (s', walks) := h
    simp only [Option.some.injEq, Prod.mk.injEq] at h'
    rw [← h'.2] at hwalk
    exact absurd hwalk (List.not_mem_nil _)
  | succ n ih =>
    intro s s' walks hinv h walk hwalk
    unfold ExtractNegativeClosedWalks at h
    cases hex : ExtractNegativeClosedWalk ops w s with
    | none =>
      rw [hex] at h
      exact absurd h (by simp)
    | some r =>
      obtain ⟨s1, walk1⟩ := r
      rw [hex] at h
      simp only at h
      obtain ⟨k1, k2⟩ := extractNegativeClosedWalk_spec ops stored laws w hw s s1 walk1 hinv hex
      cases hrest : ExtractNegativeClosedWalks ops w n s1 with
      | none =>
        rw [hrest] at h
        exact absurd h (by simp)
      | some r2 =>
        obtain ⟨s2, walks2⟩ := r2
        rw [hrest] at h
        simp only [Option.some.injEq, Prod.mk.injEq] at h
        rw [← h.2, List.mem_cons] at hwalk
        rcases hwalk with hwalk | hwalk
        · rw [hwalk]
          exact k2
        · exact ih s1 s2 walks2 k1 hrest walk hwalk

end BellmanFord

variable {L : Type}

theorem pairGraph_proper (flow : List Int) (costs : List (WithTop ℚ)) :
    ProperOutgoingEdges (pairGraph flow costs) := by
  intro v hv e he
  have hv' : v < 3 := hv
  interval_cases v
  · have he' : e ∈ [0] := he
    rw [List.mem_singleton] at he'
    subst he'
    exact ⟨by show 0 < 4; omega, rfl, by show 1 < 3; omega, by show (1 : Nat) ≠ 0; omega⟩
  · have he' : e ∈ [1, 2] := he
    rw [List.mem_cons, List.mem_singleton] at he'
    rcases he' with he' | he'
    · subst he'
      exact ⟨by show 1 < 4; omega, rfl, by show 0 < 3; omega, by show (0 : Nat) ≠ 1; omega⟩
    · subst he'
      exact ⟨by show 2 < 4; omega, rfl, by show 2 < 3; omega, by show (2 : Nat) ≠ 1; omega⟩
  · have he' : e ∈ [3] := he
    rw [List.mem_singleton] at he'
    subst he'
    exact ⟨by show 3 < 4; omega, rfl, by show 1 < 3; omega, by show (1 : Nat) ≠ 2; omega⟩

theorem extracted_walks_closed (ops : LabelType L) (stored : L → List Nat)
    (laws : ParentLaws ops stored) (w : WindfarmResidual)
    (hw : ∀ v, ∀ e ∈ w.OutgoingEdges v, e < w.NumberOfEdges) (s : BellmanFord L) (n : Nat)
    (walks : List (List Nat)) (hs : s.SizedFor w)
    (h : (BellmanFord.ExtractNegativeClosedWalks ops w n (BellmanFord.Run ops w s).2).map Prod.snd
      = some walks) :
    ∀ walk ∈ walks, walk ≠ [] → IsClosedTrail w walk := by
  cases hex : BellmanFord.ExtractNegativeClosedWalks ops w n (BellmanFord.Run ops w s).2 with
  | none =>
    rw [hex] at h
    exact absurd h (by simp)
  | some r =>
    obtain ⟨s', walks'⟩ := r
    rw [hex] at h
    simp only [Option.map_some', Option.some.injEq] at h
    subst h
    exact BellmanFord.extractNegativeClosedWalks_spec ops stored laws w hw n _ s' walks'
      (BellmanFord.run_extractInv ops stored laws w hw s hs) hex

/-- C14: on a residual graph whose outgoing edges are edges of the graph, for
`OneDistanceLabel` and for `TwoDistancesLabel`, every non-empty vector that one of the calls
of `ExtractNegativeClosedWalk` after a `Run` returns is a closed walk in forward order (the
end vertex of every edge is the start vertex of the next one, and the last edge ends where
the first edge starts) in which no edge occurs twice. -/
theorem extracted_walks_are_closed_trails (w : WindfarmResidual)
    (hw : ∀ v, ∀ e ∈ w.OutgoingEdges v, e < w.NumberOfEdges) :
    (∀ (s : BellmanFord OneDistanceLabel) (n : Nat) (walks : List (List Nat)), s.SizedFor w →
        (BellmanFord.ExtractNegativeClosedWalks oneDistanceLabel w n
          (BellmanFord.Run oneDistanceLabel w s).2).map Prod.snd = some walks →
        ∀ walk ∈ walks, walk ≠ [] → IsClosedTrail w walk)
      ∧ (∀ (s : BellmanFord TwoDistancesLabel) (n : Nat) (walks : List (List Nat)),
        s.SizedFor w →
        (BellmanFord.ExtractNegativeClosedWalks twoDistancesLabel w n
          (BellmanFord.Run twoDistancesLabel w s).2).map Prod.snd = some walks →
        ∀ walk ∈ walks, walk ≠ [] → IsClosedTrail w walk) :=
  ⟨fun s n walks hs h =>
      extracted_walks_closed oneDistanceLabel _ oneDistanceLabel_parents w hw s n walks hs h,
    fun s n walks hs h =>
      extracted_walks_closed twoDistancesLabel _ twoDistancesLabel_parents w hw s n walks hs h⟩

theorem extracted_walks_are_closed_trails_witness :
    (∀ v, ∀ e ∈ (pairGraph [0, 0] [-2, 1, -1, 0]).OutgoingEdges v,
        e < (pairGraph [0, 0] [-2, 1, -1, 0]).NumberOfEdges)
      ∧ (BellmanFord.create oneDistanceLabel (pairGraph [0, 0] [-2, 1, -1, 0])).SizedFor
          (pairGraph [0, 0] [-2, 1, -1, 0])
      ∧ (BellmanFord.Run oneDistanceLabel (pairGraph [0, 0] [-2, 1, -1, 0])
          (BellmanFord.create oneDistanceLabel (pairGraph [0, 0] [-2, 1, -1, 0]))).1
        = ReturnCode.SUCCESS
      ∧ (BellmanFord.ExtractNegativeClosedWalks oneDistanceLabel (pairGraph [0, 0] [-2, 1, -1, 0])
          1 (BellmanFord.Run oneDistanceLabel (pairGraph [0, 0] [-2, 1, -1, 0])
            (BellmanFord.create oneDistanceLabel (pairGraph [0, 0] [-2, 1, -1, 0]))).2).map
            Prod.snd = some [[2, 3]]
      ∧ IsClosedTrail (pairGraph [0, 0] [-2, 1, -1, 0]) [2, 3] :=
  ⟨BellmanFord.outgoing_lt _ (pairGraph_proper _ _), ⟨rfl, rfl, rfl⟩,
    by with_unfolding_all decide, by with_unfolding_all decide,
    (extracted_walks_are_closed_trails (pairGraph [0, 0] [-2, 1, -1, 0])
      (BellmanFord.outgoing_lt _ (pairGraph_proper _ _))).1
      (BellmanFord.create oneDistanceLabel (pairGraph [0, 0] [-2, 1, -1, 0])) 1 [[2, 3]]
      ⟨rfl, rfl, rfl⟩ (by with_unfolding_all decide) [2, 3] (by simp) (by simp)⟩

end wcp

namespace wcp

/-! ## Paths along edges with free capacity -/

theorem isFreePath_snoc (w : WindfarmResidual) (e : Nat) :
    ∀ (P : List Nat) (a b : Nat),
      IsFreePath w a b (P ++ [e]) ↔
        IsFreePath w a (w.StartVertex e) P ∧ e < w.NumberOfEdges
          ∧ w.HasFreeEdgeCapacity e = true ∧ w.IsSubstation (w.StartVertex e) = false
          ∧ w.EndVertex e = b := by
  intro P
  induction P with
  | nil =>
    intro a b
    show (e < w.NumberOfEdges ∧ w.StartVertex e = a ∧ w.HasFreeEdgeCapacity e = true
        ∧ w.IsSubstation a = false ∧ w.EndVertex e = b) ↔ (a = w.StartVertex e ∧ _)
    constructor
    · rintro ⟨h1, h2, h3, h4, h5⟩
      exact ⟨h2.symm, h1, h3, by rw [h2]; exact h4, h5⟩
    · rintro ⟨h1, h2, h3, h4, h5⟩
      exact ⟨h2, h1.symm, h3, by rw [h1]; exact h4, h5⟩
  | cons f P ih =>
    intro a b
    show (f < w.NumberOfEdges ∧ w.StartVertex f = a ∧ w.HasFreeEdgeCapacity f = true
        ∧ w.IsSubstation a = false ∧ IsFreePath w (w.EndVertex f) b (P ++ [e]))
      ↔ ((f < w.NumberOfEdges ∧ w.StartVertex f = a ∧ w.HasFreeEdgeCapacity f = true
        ∧ w.IsSubstation a = false ∧ IsFreePath w (w.EndVertex f) (w.StartVertex e) P) ∧ _)
    rw [ih]
    constructor
    · rintro ⟨h1, h2, h3, h4, h5, h6⟩
      exact ⟨⟨h1, h2, h3, h4, h5⟩, h6⟩
    · rintro ⟨⟨h1, h2, h3, h4, h5⟩, h6⟩
      exact ⟨h1, h2, h3, h4, h5, h6⟩

theorem pathLength_snoc (len : WindfarmResidual → Nat → ℚ) (w : WindfarmResidual)
    (P : List Nat) (e : Nat) :
    pathLength len w (P ++ [e]) = pathLength len w P + len w e := by
  unfold pathLength
  simp

theorem pathLength_nonneg (len : WindfarmResidual → Nat → ℚ) (w : WindfarmResidual)
    (hlen : ∀ e, 0 ≤ len w e) (P : List Nat) : 0 ≤ pathLength len w P := by
  unfold pathLength
  apply List.sum_nonneg
  intro x hx
  rw [List.mem_map] at hx
  obtain ⟨e, _, he⟩ := hx
  rw [← he]
  exact hlen e

theorem isFreePath_of_substation (w : WindfarmResidual) (a b : Nat) (P : List Nat)
    (ha : w.IsSubstation a = true) (h : IsFreePath w a b P) : P = [] ∧ a = b := by
  cases P with
  | nil => exact ⟨rfl, h⟩
  | cons e P =>
    obtain ⟨_, _, _, h4, _⟩ := h
    rw [ha] at h4
    exact absurd h4 (by simp)

namespace Dijkstra

/-! ## The frontier of the search -/

theorem inv_frontier (len : WindfarmResidual → Nat → ℚ) (w : WindfarmResidual)
    (hlen : ∀ e, 0 ≤ len w e) (hG2 : ∀ e, e < w.NumberOfEdges → e ∈ w.OutgoingEdges (w.StartVertex e))
    (s : Dijkstra) (S : List Nat) (hinv : Inv len w s S []) :
    ∀ (P : List Nat) (v : Nat), IsFreePath w s.startVertex v P →
      (∃ x ∈ s.queue, x.distance ≤ ((pathLength len w P : ℚ) : WithTop ℚ))
        ∨ (v ∈ S ∧ s.dist.getD v ⊤ ≤ ((pathLength len w P : ℚ) : WithTop ℚ)) := by
  intro P
  induction P using List.reverseRecOn with
  | nil =>
    intro v hP
    have hv : s.startVertex = v := hP
    rw [← hv]
    have h0 : s.dist.getD s.startVertex ⊤ ≤ ((pathLength len w [] : ℚ) : WithTop ℚ) := by
      rw [hinv.distStart]
      exact le_refl _
    rcases hinv.queued s.startVertex (by rw [hinv.distStart]; exact WithTop.zero_ne_top) with h | h
    · exact Or.inr ⟨h, h0⟩
    · exact Or.inl ⟨_, h, h0⟩
  | append_singleton P e ih =>
    intro v hP
    rw [isFreePath_snoc] at hP
    obtain ⟨h1, h2, h3, h4, h5⟩ := hP
    have hle : ((pathLength len w P : ℚ) : WithTop ℚ)
        ≤ ((pathLength len w (P ++ [e]) : ℚ) : WithTop ℚ) := by
      rw [pathLength_snoc, WithTop.coe_le_coe]
      have := hlen e
      linarith
    rcases ih (w.StartVertex e) h1 with ⟨x, hx, hxd⟩ | ⟨hS, hd⟩
    · exact Or.inl ⟨x, hx, le_trans hxd hle⟩
    · have hrel := hinv.relaxed (w.StartVertex e) hS h4 e (hG2 e h2) h3
      rcases hrel with hrel | hrel
      · exact absurd hrel (List.not_mem_nil _)
      · rw [h5] at hrel
        have hfin : s.dist.getD v ⊤ ≤ ((pathLength len w (P ++ [e]) : ℚ) : WithTop ℚ) := by
          rw [pathLength_snoc, WithTop.coe_add]
          exact le_trans hrel (add_le_add_right hd _)
        have hne : s.dist.getD v ⊤ ≠ ⊤ := by
          intro h
          rw [h] at hfin
          exact absurd (top_le_iff.mp hfin) (WithTop.coe_ne_top)
        rcases hinv.queued v hne with h | h
        · exact Or.inr ⟨h, hfin⟩
        · exact Or.inl ⟨_, h, hfin⟩

/-! ## Taking an entry out of the queue -/

theorem entry_eq (x y : DijkstraEntry) (h1 : x.vertex = y.vertex) (h2 : x.distance = y.distance) :
    x = y := by
  cases x
  cases y
  simp only at h1 h2
  rw [h1, h2]

theorem inv_dequeue (len : WindfarmResidual → Nat → ℚ) (w : WindfarmResidual)
    (s s' : Dijkstra) (S pending : List Nat) (hinv : Inv len w s S pending)
    (hd : s'.dist = s.dist) (hp : s'.parent = s.parent) (hs : s'.startVertex = s.startVertex)
    (ht : s'.targetVertex = s.targetVertex)
    (hc : s'.numberOfSettledSubstations = s.numberOfSettledSubstations)
    (hl : s'.lastFreeSubstationSettled = s.lastFreeSubstationSettled)
    (hsub : ∀ x ∈ s'.queue, x ∈ s.queue) (hnd : s'.queue.Nodup)
    (hq : ∀ v, s.dist.getD v ⊤ ≠ ⊤ → v ∉ S → ⟨v, s.dist.getD v ⊤⟩ ∈ s'.queue) :
    Inv len w s' S pending := by
  obtain ⟨i1, i2, i3, i4, i5, _, _, i8, i9, i10, i11, i12, i13, i14, i15, i16, i17, i18, i19,
    i20, i21⟩ := hinv
  refine ⟨?_, ?_, ?_, ?_, ?_, ?_, hnd, i8, i9, ?_, ?_, ?_, ?_, ?_, ?_, ?_, ?_, ?_, ?_, ?_, ?_⟩
  · rw [hd]; exact i1
  · rw [hp]; exact i2
  · rw [hs]; exact i3
  · rw [hd, hs]; exact i4
  · intro x hx
    rw [hd]
    exact i5 x (hsub x hx)
  · intro v hv
    rw [hd] at hv ⊢
    by_cases hS : v ∈ S
    · exact Or.inl hS
    · exact Or.inr (hq v hv hS)
  · rw [hs]; exact i10
  · rw [hd, hp, hs]; exact i11
  · rw [hd]; exact i12
  · intro u hu x hx
    rw [hd]
    exact i13 u hu x (hsub x hx)
  · intro u hu x hx
    rw [hd]
    exact i14 u hu x (hsub x hx)
  · rw [hd]; exact i15
  · rw [hd, hs]; exact i16
  · rw [hd, hs]; exact i17
  · rw [hc]; exact i18
  · rw [hl]; exact i19
  · rw [ht]; exact i20
  · rw [hd]; exact i21

theorem inv_stale (len : WindfarmResidual → Nat → ℚ) (w : WindfarmResidual)
    (s : Dijkstra) (S pending : List Nat) (hinv : Inv len w s S pending)
    (x : DijkstraEntry) (rest : List DijkstraEntry) (hperm : s.queue.Perm (x :: rest))
    (hst : s.dist.getD x.vertex ⊤ < x.distance) :
    Inv len w { s with queue := rest } S pending := by
  have hnd : (x :: rest).Nodup := hperm.nodup_iff.mp hinv.nodupQueue
  refine inv_dequeue len w s _ S pending hinv rfl rfl rfl rfl rfl rfl ?_ ?_ ?_
  · intro y hy
    exact hperm.mem_iff.mpr (List.mem_cons_of_mem _ hy)
  · exact (List.nodup_cons.mp hnd).2
  · intro v hv hS
    rcases hinv.queued v hv with h | h
    · exact absurd h hS
    · have h' := hperm.mem_iff.mp h
      rw [List.mem_cons] at h'
      rcases h' with h' | h'
      · exfalso
        rw [← h'] at hst
        exact lt_irrefl _ hst
      · exact h'

/-! ## Settling a vertex -/

theorem only_start_reached (len : WindfarmResidual → Nat → ℚ) (w : WindfarmResidual)
    (s : Dijkstra) (pending : List Nat) (hinv : Inv len w s [] pending) (v : Nat)
    (hv : s.dist.getD v ⊤ ≠ ⊤) : v = s.startVertex := by
  by_contra hne
  obtain ⟨e, _, _, _, h, _⟩ := hinv.parents v hne hv
  exact absurd h (List.not_mem_nil _)

theorem inv_settle (len : WindfarmResidual → Nat → ℚ) (w : WindfarmResidual)
    (hlen : ∀ e, 0 ≤ len w e)
    (hG2 : ∀ e, e < w.NumberOfEdges → e ∈ w.OutgoingEdges (w.StartVertex e))
    (s s' : Dijkstra) (S pending' : List Nat) (hinv : Inv len w s S [])
    (x : DijkstraEntry) (rest : List DijkstraEntry) (hperm : s.queue.Perm (x :: rest))
    (hmin : ∀ y ∈ s.queue, x.distance ≤ y.distance)
    (hst : ¬ s.dist.getD x.vertex ⊤ < x.distance)
    (hd : s'.dist = s.dist) (hp : s'.parent = s.parent) (hs : s'.startVertex = s.startVertex)
    (ht : s'.targetVertex = s.targetVertex) (hq : s'.queue = rest)
    (hc : s'.numberOfSettledSubstations
      = s.numberOfSettledSubstations + (if w.IsSubstation x.vertex then 1 else 0))
    (hl : s'.lastFreeSubstationSettled
      = if w.IsSubstation x.vertex && w.HasFreeSubstationCapacity x.vertex then some x.vertex
        else s.lastFreeSubstationSettled)
    (hany : s.targetVertex = ANY_FREE_SUBSTATION →
      ¬ (w.IsSubstation x.vertex = true ∧ w.HasFreeSubstationCapacity x.vertex = true))
    (hpend : w.IsSubstation x.vertex = false → ∀ e ∈ w.OutgoingEdges x.vertex, e ∈ pending') :
    Inv len w s' (S ++ [x.vertex]) pending' ∧ x.vertex ∉ S
      ∧ s.dist.getD x.vertex ⊤ = x.distance := by
  have hxq : x ∈ s.queue := hperm.mem_iff.mpr (List.mem_cons_self _ _)
  have hrestq : ∀ y ∈ rest, y ∈ s.queue := fun y hy =>
    hperm.mem_iff.mpr (List.mem_cons_of_mem _ hy)
  have hnd : (x :: rest).Nodup := hperm.nodup_iff.mp hinv.nodupQueue
  obtain ⟨hx1, hx2, hx3⟩ := hinv.entries x hxq
  have hdu : s.dist.getD x.vertex ⊤ = x.distance := le_antisymm hx3 (not_lt.mp hst)
  have huS : x.vertex ∉ S := by
    intro h
    have := hinv.settledStale x.vertex h x hxq rfl
    exact hst this
  have hidx : ∀ a, a ∈ S → (S ++ [x.vertex]).indexOf a = S.indexOf a := fun a ha =>
    List.indexOf_append_of_mem ha
  have hidxu : (S ++ [x.vertex]).indexOf x.vertex = S.length := by
    rw [List.indexOf_append_of_not_mem huS]
    simp
  refine ⟨⟨?_, ?_, ?_, ?_, ?_, ?_, ?_, ?_, ?_, ?_, ?_, ?_, ?_, ?_, ?_, ?_, ?_, ?_, ?_, ?_, ?_⟩,
    huS, hdu⟩
  · rw [hd]; exact hinv.sizeDist
  · rw [hp]; exact hinv.sizeParent
  · rw [hs]; exact hinv.startLt
  · rw [hd, hs]; exact hinv.distStart
  · intro y hy
    rw [hd]
    rw [hq] at hy
    exact hinv.entries y (hrestq y hy)
  · intro v hv
    rw [hd] at hv ⊢
    rcases hinv.queued v hv with h | h
    · exact Or.inl (List.mem_append_left _ h)
    · have h' := hperm.mem_iff.mp h
      rw [List.mem_cons] at h'
      rcases h' with h' | h'
      · left
        rw [List.mem_append, List.mem_singleton]
        right
        rw [← h']
      · right
        rw [hq]
        exact h'
  · rw [hq]
    exact (List.nodup_cons.mp hnd).2
  · rw [List.nodup_append]
    refine ⟨hinv.nodupSettled, List.nodup_singleton _, ?_⟩
    intro a ha ha'
    rw [List.mem_singleton] at ha'
    rw [ha'] at ha
    exact huS ha
  · intro u hu
    rw [List.mem_append, List.mem_singleton] at hu
    rcases hu with hu | hu
    · exact hinv.settledLt u hu
    · rw [hu]; exact hx1
  · intro _
    rw [hs]
    by_cases hS : S = []
    · rw [hS] at hinv
      have := only_start_reached len w s [] hinv x.vertex (by rw [hdu]; exact hx2)
      rw [List.mem_append, List.mem_singleton]
      right
      exact this.symm
    · exact List.mem_append_left _ (hinv.settledStart hS)
  · intro v hv hfin
    rw [hs] at hv
    rw [hd] at hfin
    obtain ⟨e, h1, h2, h3, h4, h5, h6, h7, h8⟩ := hinv.parents v hv hfin
    refine ⟨e, by rw [hp]; exact h1, h2, h3, List.mem_append_left _ h4, h5, h6,
      by rw [hd]; exact h7, ?_⟩
    intro hvS
    rw [List.mem_append, List.mem_singleton] at hvS
    rw [hidx _ h4]
    rcases hvS with hvS | hvS
    · rw [hidx _ hvS]
      exact h8 hvS
    · rw [hvS, hidxu]
      exact List.indexOf_lt_length.mpr h4
  · intro u hu hsub e he hfree
    rw [hd]
    rw [List.mem_append, List.mem_singleton] at hu
    rcases hu with hu | hu
    · rcases hinv.relaxed u hu hsub e he hfree with h | h
      · exact absurd h (List.not_mem_nil _)
      · exact Or.inr h
    · rw [hu] at hsub he
      exact Or.inl (hpend hsub e he)
  · intro u hu y hy
    rw [hd]
    rw [hq] at hy
    rw [List.mem_append, List.mem_singleton] at hu
    rcases hu with hu | hu
    · exact hinv.settledLe u hu y (hrestq y hy)
    · rw [hu, hdu]
      exact hmin y (hrestq y hy)
  · intro u hu y hy hyu
    rw [hd]
    rw [hq] at hy
    rw [List.mem_append, List.mem_singleton] at hu
    rcases hu with hu | hu
    · exact hinv.settledStale u hu y (hrestq y hy) hyu
    · rw [hu, hdu]
      apply lt_of_le_of_ne (hmin y (hrestq y hy))
      intro heq
      have : y = x := entry_eq y x (by rw [hyu, hu]) heq.symm
      rw [this] at hy
      exact (List.nodup_cons.mp hnd).1 hy
  · rw [hd, List.pairwise_append]
    refine ⟨hinv.settledSorted, List.pairwise_singleton _ _, ?_⟩
    intro a ha b hb
    rw [List.mem_singleton] at hb
    rw [hb, hdu]
    exact hinv.settledLe a ha x hxq
  · intro u hu P hP
    rw [hd]
    rw [hs] at hP
    rw [List.mem_append, List.mem_singleton] at hu
    rcases hu with hu | hu
    · exact hinv.shortest u hu P hP
    · rw [hu] at hP
      rcases inv_frontier len w hlen hG2 s S hinv P x.vertex hP with ⟨y, hy, hyd⟩ | ⟨h, _⟩
      · rw [hu, hdu]
        exact le_trans (hmin y hy) hyd
      · exact absurd h huS
  · intro v hv
    rw [hd] at hv ⊢
    rw [hs]
    exact hinv.reached v hv
  · rw [hc, hinv.count, List.filter_append]
    by_cases hsub : w.IsSubstation x.vertex = true
    · simp [hsub]
    · simp [hsub]
  · rw [hl, hinv.lastFree, List.filter_append]
    by_cases hsub : (w.IsSubstation x.vertex && w.HasFreeSubstationCapacity x.vertex) = true
    · rw [if_pos hsub]
      simp [List.filter_cons, hsub]
    · rw [if_neg hsub]
      simp [List.filter_cons, hsub]
  · intro h u hu
    rw [ht] at h
    rw [List.mem_append, List.mem_singleton] at hu
    rcases hu with hu | hu
    · exact hinv.anyTarget h u hu
    · rw [hu]
      exact hany h
  · intro u hu
    rw [hd]
    rw [List.mem_append, List.mem_singleton] at hu
    rcases hu with hu | hu
    · exact hinv.settledFinite u hu
    · rw [hu, hdu]
      exact hx2

/-! ## Relaxing the outgoing edges of a settled vertex -/

theorem relaxEdge_skip (len : WindfarmResidual → Nat → ℚ) (w : WindfarmResidual) (s : Dijkstra)
    (e : Nat)
    (h : w.HasFreeEdgeCapacity e = false
      ∨ ¬ s.dist.getD (w.EndVertex e) ⊤
          > s.dist.getD (w.StartVertex e) ⊤ + ((len w e : ℚ) : WithTop ℚ)) :
    RelaxEdge len w s e = s := by
  unfold RelaxEdge
  rcases h with h | h
  · rw [h]
    rfl
  · by_cases hf : w.HasFreeEdgeCapacity e = true
    · rw [hf]
      simp only [Bool.not_true, Bool.false_eq_true, if_false]
      rw [if_neg h]
    · rw [Bool.not_eq_true] at hf
      rw [hf]
      rfl

theorem relaxEdge_update (len : WindfarmResidual → Nat → ℚ) (w : WindfarmResidual) (s : Dijkstra)
    (e : Nat) (hf : w.HasFreeEdgeCapacity e = true)
    (h : s.dist.getD (w.EndVertex e) ⊤
      > s.dist.getD (w.StartVertex e) ⊤ + ((len w e : ℚ) : WithTop ℚ)) :
    RelaxEdge len w s e
      = { s with
          dist := s.dist.set (w.EndVertex e)
            (s.dist.getD (w.StartVertex e) ⊤ + ((len w e : ℚ) : WithTop ℚ))
          queue := s.queue ++ [⟨w.EndVertex e,
            s.dist.getD (w.StartVertex e) ⊤ + ((len w e : ℚ) : WithTop ℚ)⟩]
          parent := s.parent.set (w.EndVertex e) (some e) } := by
  unfold RelaxEdge
  rw [hf]
  simp only [Bool.not_true, Bool.false_eq_true, if_false]
  rw [if_pos h]

theorem inv_relaxEdge (len : WindfarmResidual → Nat → ℚ) (w : WindfarmResidual)
    (hlen : ∀ e, 0 ≤ len w e)
    (hG1 : ∀ u, ∀ e ∈ w.OutgoingEdges u,
      e < w.NumberOfEdges ∧ w.StartVertex e = u ∧ w.EndVertex e < w.NumberOfVertices)
    (s : Dijkstra) (S pending : List Nat) (e : Nat) (hinv : Inv len w s S (e :: pending))
    (he : e ∈ w.OutgoingEdges (w.StartVertex e)) (hu : w.StartVertex e ∈ S)
    (hsub : w.IsSubstation (w.StartVertex e) = false)
    (hfin : s.dist.getD (w.StartVertex e) ⊤ ≠ ⊤)
    (hmax : ∀ u ∈ S, s.dist.getD u ⊤ ≤ s.dist.getD (w.StartVertex e) ⊤) :
    Inv len w (RelaxEdge len w s e) S pending
      ∧ (∀ u ∈ S, (RelaxEdge len w s e).dist.getD u ⊤ = s.dist.getD u ⊤)
      ∧ (RelaxEdge len w s e).queue.length ≤ s.queue.length + 1
      ∧ (RelaxEdge len w s e).startVertex = s.startVertex
      ∧ (RelaxEdge len w s e).targetVertex = s.targetVertex := by
  by_cases hskip : w.HasFreeEdgeCapacity e = false
      ∨ ¬ s.dist.getD (w.EndVertex e) ⊤
          > s.dist.getD (w.StartVertex e) ⊤ + ((len w e : ℚ) : WithTop ℚ)
  · rw [relaxEdge_skip len w s e hskip]
    refine ⟨?_, fun _ _ => rfl, Nat.le_succ _, rfl, rfl⟩
    obtain ⟨i1, i2, i3, i4, i5, i6, i7, i8, i9, i10, i11, i12, i13, i14, i15, i16, i17, i18,
      i19, i20, i21⟩ := hinv
    refine ⟨i1, i2, i3, i4, i5, i6, i7, i8, i9, i10, i11, ?_, i13, i14, i15, i16, i17, i18,
      i19, i20, i21⟩
    intro u hu' hsub' e' he' hfree'
    rcases i12 u hu' hsub' e' he' hfree' with h | h
    · rw [List.mem_cons] at h
      rcases h with h | h
      · rcases hskip with hskip | hskip
        · rw [h, hskip] at hfree'
          exact absurd hfree' (by simp)
        · right
          have hs : w.StartVertex e' = u := (hG1 u e' he').2.1
          rw [h] at hs ⊢
          rw [← hs]
          exact not_lt.mp hskip
      · exact Or.inl h
    · exact Or.inr h
  · rw [not_or, Bool.not_eq_false, not_not] at hskip
    obtain ⟨hf, hupd⟩ := hskip
    rw [relaxEdge_update len w s e hf hupd]
    obtain ⟨he1, _, he3⟩ := hG1 _ e he
    obtain ⟨Pu, hPu, hPul⟩ := hinv.reached _ hfin
    have hdist : s.dist.getD (w.StartVertex e) ⊤ + ((len w e : ℚ) : WithTop ℚ)
        = ((pathLength len w (Pu ++ [e]) : ℚ) : WithTop ℚ) := by
      rw [pathLength_snoc, WithTop.coe_add, hPul]
    have hPath : IsFreePath w s.startVertex (w.EndVertex e) (Pu ++ [e]) := by
      rw [isFreePath_snoc]
      exact ⟨hPu, he1, hf, hsub, rfl⟩
    have hvS : w.EndVertex e ∉ S := by
      intro h
      have := hinv.shortest _ h _ hPath
      rw [← hdist] at this
      exact absurd hupd (not_lt.mpr this)
    have hvl : w.EndVertex e < s.dist.length := by rw [hinv.sizeDist]; exact he3
    have hvp : w.EndVertex e < s.parent.length := by rw [hinv.sizeParent]; exact he3
    have hget : ∀ y, (s.dist.set (w.EndVertex e)
          (s.dist.getD (w.StartVertex e) ⊤ + ((len w e : ℚ) : WithTop ℚ))).getD y ⊤
        = if w.EndVertex e = y then
            s.dist.getD (w.StartVertex e) ⊤ + ((len w e : ℚ) : WithTop ℚ)
          else s.dist.getD y ⊤ := by
      intro y
      rw [getD_set_eq, if_pos hvl]
    have hgetS : ∀ y ∈ S, (s.dist.set (w.EndVertex e)
          (s.dist.getD (w.StartVertex e) ⊤ + ((len w e : ℚ) : WithTop ℚ))).getD y ⊤
        = s.dist.getD y ⊤ := by
      intro y hy
      rw [hget, if_neg]
      intro h
      rw [← h] at hy
      exact hvS hy
    have hle : ∀ y, (s.dist.set (w.EndVertex e)
          (s.dist.getD (w.StartVertex e) ⊤ + ((len w e : ℚ) : WithTop ℚ))).getD y ⊤
        ≤ s.dist.getD y ⊤ := by
      intro y
      rw [hget]
      split_ifs with h
      · rw [← h]
        exact le_of_lt hupd
      · exact le_refl _
    have hstartS : s.startVertex ∈ S := hinv.settledStart (List.ne_nil_of_mem hu)
    have hdne : s.dist.getD (w.StartVertex e) ⊤ + ((len w e : ℚ) : WithTop ℚ) ≠ ⊤ := by
      rw [hdist]
      exact WithTop.coe_ne_top
    refine ⟨⟨?_, ?_, hinv.startLt, ?_, ?_, ?_, ?_, hinv.nodupSettled, hinv.settledLt,
      hinv.settledStart, ?_, ?_, ?_, ?_, ?_, ?_, ?_, hinv.count, hinv.lastFree,
      hinv.anyTarget, ?_⟩, hgetS, ?_, rfl, rfl⟩
    · show (s.dist.set _ _).length = _
      rw [List.length_set]
      exact hinv.sizeDist
    · show (s.parent.set _ _).length = _
      rw [List.length_set]
      exact hinv.sizeParent
    · show (s.dist.set _ _).getD s.startVertex ⊤ = 0
      rw [hgetS _ hstartS]
      exact hinv.distStart
    · intro y hy
      have hy' : y ∈ s.queue ++ [⟨w.EndVertex e,
          s.dist.getD (w.StartVertex e) ⊤ + ((len w e : ℚ) : WithTop ℚ)⟩] := hy
      rw [List.mem_append, List.mem_singleton] at hy'
      show _ ∧ _ ∧ (s.dist.set _ _).getD y.vertex ⊤ ≤ _
      rcases hy' with hy' | hy'
      · obtain ⟨a1, a2, a3⟩ := hinv.entries y hy'
        exact ⟨a1, a2, le_trans (hle _) a3⟩
      · rw [hy']
        refine ⟨he3, hdne, ?_⟩
        show (s.dist.set _ _).getD (w.EndVertex e) ⊤ ≤ _
        rw [hget, if_pos rfl]
    · intro v hv
      have hv' : (s.dist.set (w.EndVertex e)
          (s.dist.getD (w.StartVertex e) ⊤ + ((len w e : ℚ) : WithTop ℚ))).getD v ⊤ ≠ ⊤ := hv
      show _ ∨ (⟨v, (s.dist.set _ _).getD v ⊤⟩ : DijkstraEntry) ∈ s.queue ++ [_]
      rw [hget] at hv' ⊢
      split_ifs at hv' ⊢ with h
      · right
        rw [List.mem_append, List.mem_singleton]
        right
        rw [h]
      · rcases hinv.queued v hv' with h1 | h1
        · exact Or.inl h1
        · exact Or.inr (List.mem_append_left _ h1)
    · show (s.queue ++ [_]).Nodup
      rw [List.nodup_append]
      refine ⟨hinv.nodupQueue, List.nodup_singleton _, ?_⟩
      intro y hy hy'
      rw [List.mem_singleton] at hy'
      have := (hinv.entries y hy).2.2
      rw [hy'] at this
      exact absurd hupd (not_lt.mpr this)
    · intro v hv hfinv
      have hfinv' : (s.dist.set (w.EndVertex e)
          (s.dist.getD (w.StartVertex e) ⊤ + ((len w e : ℚ) : WithTop ℚ))).getD v ⊤ ≠ ⊤ :=
        hfinv
      show ∃ e', (s.parent.set (w.EndVertex e) (some e)).getD v none = some e' ∧ _ ∧ _ ∧ _ ∧ _
        ∧ _ ∧ (s.dist.set _ _).getD v ⊤ = (s.dist.set _ _).getD (w.StartVertex e') ⊤ + _ ∧ _
      by_cases hve : w.EndVertex e = v
      · refine ⟨e, ?_, he1, hve, hu, hsub, hf, ?_, ?_⟩
        · rw [getD_set_eq, if_pos hve, if_pos hvp]
        · rw [hget, if_pos hve, hgetS _ hu]
        · intro h
          rw [← hve] at h
          exact absurd h hvS
      · rw [hget, if_neg hve] at hfinv'
        obtain ⟨e', h1, h2, h3, h4, h5, h6, h7, h8⟩ := hinv.parents v hv hfinv'
        refine ⟨e', ?_, h2, h3, h4, h5, h6, ?_, h8⟩
        · rw [getD_set_eq, if_neg hve]
          exact h1
        · rw [hget, if_neg hve, hgetS _ h4]
          exact h7
    · intro u hu' hsub' e' he' hfree'
      show _ ∨ (s.dist.set _ _).getD (w.EndVertex e') ⊤ ≤ (s.dist.set _ _).getD u ⊤ + _
      rw [hgetS u hu']
      rcases hinv.relaxed u hu' hsub' e' he' hfree' with h | h
      · rw [List.mem_cons] at h
        rcases h with h | h
        · right
          have hs : w.StartVertex e' = u := (hG1 u e' he').2.1
          rw [h] at hs ⊢
          rw [hget, if_pos rfl, hs]
        · exact Or.inl h
      · exact Or.inr (le_trans (hle _) h)
    · intro u hu' y hy
      have hy' : y ∈ s.queue ++ [⟨w.EndVertex e,
          s.dist.getD (w.StartVertex e) ⊤ + ((len w e : ℚ) : WithTop ℚ)⟩] := hy
      show (s.dist.set _ _).getD u ⊤ ≤ _
      rw [hgetS u hu']
      rw [List.mem_append, List.mem_singleton] at hy'
      rcases hy' with hy' | hy'
      · exact hinv.settledLe u hu' y hy'
      · rw [hy']
        show _ ≤ s.dist.getD (w.StartVertex e) ⊤ + ((len w e : ℚ) : WithTop ℚ)
        refine le_trans (hmax u hu') ?_
        have h0 : (0 : WithTop ℚ) ≤ ((len w e : ℚ) : WithTop ℚ) := by
          rw [← WithTop.coe_zero, WithTop.coe_le_coe]
          exact hlen e
        exact le_add_of_nonneg_right h0
    · intro u hu' y hy hyu
      have hy' : y ∈ s.queue ++ [⟨w.EndVertex e,
          s.dist.getD (w.StartVertex e) ⊤ + ((len w e : ℚ) : WithTop ℚ)⟩] := hy
      show (s.dist.set _ _).getD u ⊤ < _
      rw [hgetS u hu']
      rw [List.mem_append, List.mem_singleton] at hy'
      rcases hy' with hy' | hy'
      · exact hinv.settledStale u hu' y hy' hyu
      · exfalso
        rw [hy'] at hyu
        have hyu' : w.EndVertex e = u := hyu
        rw [← hyu'] at hu'
        exact hvS hu'
    · show S.Pairwise fun a b => (s.dist.set _ _).getD a ⊤ ≤ (s.dist.set _ _).getD b ⊤
      refine hinv.settledSorted.imp_of_mem ?_
      intro a b ha hb hab
      rw [hgetS a ha, hgetS b hb]
      exact hab
    · intro u hu' P hP
      show (s.dist.set _ _).getD u ⊤ ≤ _
      rw [hgetS u hu']
      exact hinv.shortest u hu' P hP
    · intro v hv
      have hv' : (s.dist.set (w.EndVertex e)
          (s.dist.getD (w.StartVertex e) ⊤ + ((len w e : ℚ) : WithTop ℚ))).getD v ⊤ ≠ ⊤ := hv
      show ∃ P, IsFreePath w s.startVertex v P ∧ (s.dist.set _ _).getD v ⊤ = _
      rw [hget] at hv' ⊢
      split_ifs at hv' ⊢ with h
      · rw [← h]
        exact ⟨Pu ++ [e], hPath, hdist⟩
      · exact hinv.reached v hv'
    · intro u hu'
      show (s.dist.set _ _).getD u ⊤ ≠ ⊤
      rw [hgetS u hu']
      exact hinv.settledFinite u hu'
    · show (s.queue ++ [_]).length ≤ _
      rw [List.length_append]
      simp

theorem inv_relaxAll (len : WindfarmResidual → Nat → ℚ) (w : WindfarmResidual)
    (hlen : ∀ e, 0 ≤ len w e)
    (hG1 : ∀ u, ∀ e ∈ w.OutgoingEdges u,
      e < w.NumberOfEdges ∧ w.StartVertex e = u ∧ w.EndVertex e < w.NumberOfVertices)
    (S : List Nat) (u : Nat) (hu : u ∈ S) (hsub : w.IsSubstation u = false) :
    ∀ (es : List Nat) (s : Dijkstra), (∀ e ∈ es, e ∈ w.OutgoingEdges u) →
      Inv len w s S es → s.dist.getD u ⊤ ≠ ⊤ →
      (∀ u' ∈ S, s.dist.getD u' ⊤ ≤ s.dist.getD u ⊤) →
      Inv len w (es.foldl (RelaxEdge len w) s) S []
        ∧ (es.foldl (RelaxEdge len w) s).queue.length ≤ s.queue.length + es.length
        ∧ (es.foldl (RelaxEdge len w) s).startVertex = s.startVertex
        ∧ (es.foldl (RelaxEdge len w) s).targetVertex = s.targetVertex := by
  intro es
  induction es with
  | nil =>
    intro s _ hinv _ _
    exact ⟨hinv, Nat.le_refl _, rfl, rfl⟩
  | cons e es ih =>
    intro s hes hinv hfin hmax
    have he := hes e (List.mem_cons_self _ _)
    have hse : w.StartVertex e = u := (hG1 u e he).2.1
    obtain ⟨k1, k2, k3, k4, k5⟩ := inv_relaxEdge len w hlen hG1 s S es e hinv
      (by rw [hse]; exact he) (by rw [hse]; exact hu) (by rw [hse]; exact hsub)
      (by rw [hse]; exact hfin) (by rw [hse]; exact hmax)
    rw [List.foldl_cons]
    obtain ⟨j1, j2, j3, j4⟩ := ih (RelaxEdge len w s e)
      (fun f hf => hes f (List.mem_cons_of_mem _ hf)) k1
      (by rw [k2 u hu]; exact hfin)
      (by
        intro u' hu'
        rw [k2 u' hu', k2 u hu]
        exact hmax u' hu')
    refine ⟨j1, ?_, j3.trans k4, j4.trans k5⟩
    rw [List.length_cons]
    omega

/-! ## The loop of `Run` ends -/

theorem sum_filter_remove (f : Nat → Nat) (S : List Nat) (u : Nat) (hu : u ∉ S) :
    ∀ l : List Nat, l.Nodup →
      ((l.filter fun v => decide (v ∉ S ++ [u])).map f).sum + (if u ∈ l then f u else 0)
        = ((l.filter fun v => decide (v ∉ S)).map f).sum := by
  intro l
  induction l with
  | nil => intro _; simp
  | cons a l ih =>
    intro hnd
    rw [List.nodup_cons] at hnd
    have := ih hnd.2
    by_cases hau : a = u
    · subst hau
      have h1 : a ∉ l := hnd.1
      rw [if_neg h1] at this
      rw [List.filter_cons_of_neg (by
          rw [decide_eq_true_eq]
          exact fun h => h (List.mem_append_right _ (List.mem_singleton.mpr rfl))),
        List.filter_cons_of_pos (by rw [decide_eq_true_eq]; exact hu),
        if_pos (List.mem_cons_self _ _), List.map_cons, List.sum_cons]
      omega
    · have h2 : (a ∈ S ++ [u]) ↔ a ∈ S := by
        rw [List.mem_append, List.mem_singleton]
        exact ⟨fun h => h.elim id (fun h => absurd h hau), Or.inl⟩
      have h3 : (u ∈ a :: l) ↔ u ∈ l := by
        rw [List.mem_cons]
        exact ⟨fun h => h.elim (fun h => absurd h.symm hau) id, Or.inr⟩
      have h4 : (if u ∈ a :: l then f u else 0) = (if u ∈ l then f u else 0) := by
        by_cases hul : u ∈ l
        · rw [if_pos hul, if_pos (h3.mpr hul)]
        · rw [if_neg hul, if_neg (fun h => hul (h3.mp h))]
      rw [h4]
      by_cases haS : a ∈ S
      · rw [List.filter_cons_of_neg (by rw [decide_eq_true_eq]; exact fun h => h (h2.mpr haS)),
          List.filter_cons_of_neg (by rw [decide_eq_true_eq]; exact fun h => h haS)]
        exact this
      · rw [List.filter_cons_of_pos (by rw [decide_eq_true_eq]; exact fun h => haS (h2.mp h)),
          List.filter_cons_of_pos (by rw [decide_eq_true_eq]; exact haS), List.map_cons,
          List.sum_cons, List.map_cons, List.sum_cons]
        omega

theorem openDegree_settle (w : WindfarmResidual) (S : List Nat) (u : Nat) (hu : u ∉ S)
    (hlt : u < w.NumberOfVertices) :
    openDegree w (S ++ [u]) + (w.OutgoingEdges u).length = openDegree w S := by
  have := sum_filter_remove (fun v => (w.OutgoingEdges v).length) S u hu
    (List.range w.NumberOfVertices) (List.nodup_range _)
  rw [if_pos (List.mem_range.mpr hlt)] at this
  exact this

theorem isTarget_any (w : WindfarmResidual) (s : Dijkstra) (v : Nat)
    (h : s.targetVertex = ANY_FREE_SUBSTATION) :
    IsTarget w s v = (w.IsSubstation v && w.HasFreeSubstationCapacity v) := by
  unfold IsTarget
  rw [if_pos h]

theorem runLoop_spec (pop : List DijkstraEntry → Option (DijkstraEntry × List DijkstraEntry))
    (hpop : PopsMinimum pop) (len : WindfarmResidual → Nat → ℚ) (w : WindfarmResidual)
    (hlen : ∀ e, 0 ≤ len w e)
    (hG1 : ∀ u, ∀ e ∈ w.OutgoingEdges u,
      e < w.NumberOfEdges ∧ w.StartVertex e = u ∧ w.EndVertex e < w.NumberOfVertices)
    (hG2 : ∀ e, e < w.NumberOfEdges → e ∈ w.OutgoingEdges (w.StartVertex e)) :
    ∀ (fuel : Nat) (s : Dijkstra) (S : List Nat), Inv len w s S [] →
      s.queue.length + openDegree w S < fuel →
      ∃ code s' S' s1, RunLoop pop len w fuel s = some (code, s') ∧ Inv len w s1 S' []
        ∧ s1.startVertex = s.startVertex ∧ s1.targetVertex = s.targetVertex
        ∧ s'.dist = s1.dist ∧ s'.parent = s1.parent ∧ s'.startVertex = s1.startVertex
        ∧ ((∃ x rest, s1.queue.Perm (x :: rest) ∧ (∀ y ∈ s1.queue, x.distance ≤ y.distance)
              ∧ ¬ s1.dist.getD x.vertex ⊤ < x.distance ∧ IsTarget w s1 x.vertex = true
              ∧ code = ReturnCode.SUCCESS ∧ s'.targetVertex = x.vertex)
            ∨ (s1.queue = [] ∧ (code, s') = RunEnd s1)) := by
  intro fuel
  induction fuel with
  | zero =>
    intro s S _ h
    exact absurd h (Nat.not_lt_zero _)
  | succ fuel ih =>
    intro s S hinv hfuel
    unfold RunLoop
    by_cases hq : s.queue = []
    · rw [hq, hpop.1]
      exact ⟨(RunEnd s).1, (RunEnd s).2, S, s, rfl, hinv, rfl, rfl,
        by unfold RunEnd; split_ifs <;> first | rfl | (split <;> rfl),
        by unfold RunEnd; split_ifs <;> first | rfl | (split <;> rfl),
        by unfold RunEnd; split_ifs <;> first | rfl | (split <;> rfl),
        Or.inr ⟨hq, rfl⟩⟩
    · obtain ⟨x, rest, hp, hperm, hmin⟩ := hpop.2 s.queue hq
      rw [hp]
      simp only
      have hlenq : s.queue.length = rest.length + 1 := by
        rw [hperm.length_eq, List.length_cons]
      by_cases hst : s.dist.getD x.vertex ⊤ < x.distance
      · rw [if_pos hst]
        exact ih _ S (inv_stale len w s S [] hinv x rest hperm hst)
          (by show rest.length + _ < fuel; omega)
      · rw [if_neg hst]
        by_cases htgt : IsTarget w s x.vertex = true
        · rw [if_pos htgt]
          exact ⟨ReturnCode.SUCCESS, _, S, s, rfl, hinv, rfl, rfl, rfl, rfl, rfl,
            Or.inl ⟨x, rest, hperm, hmin, hst, htgt, rfl, rfl⟩⟩
        · rw [if_neg htgt]
          have hany : s.targetVertex = ANY_FREE_SUBSTATION →
              ¬ (w.IsSubstation x.vertex = true ∧ w.HasFreeSubstationCapacity x.vertex = true) := by
            intro h1 h2
            apply htgt
            rw [isTarget_any w s _ h1, h2.1, h2.2]
            rfl
          by_cases hsub : w.IsSubstation x.vertex = true
          · rw [if_pos hsub]
            obtain ⟨k1, k2, _⟩ := inv_settle len w hlen hG2 s
              { s with
                queue := rest
                numberOfSettledSubstations := s.numberOfSettledSubstations + 1
                lastFreeSubstationSettled :=
                  if w.HasFreeSubstationCapacity x.vertex then some x.vertex
                  else s.lastFreeSubstationSettled }
              S [] hinv x rest hperm hmin hst rfl rfl rfl rfl rfl
              (by rw [if_pos hsub])
              (by simp only [hsub, Bool.true_and])
              hany
              (by intro h; rw [hsub] at h; exact absurd h (by simp))
            have ho := openDegree_settle w S x.vertex k2 (hinv.entries x
              (hperm.mem_iff.mpr (List.mem_cons_self _ _))).1
            obtain ⟨code, s', S', s1, r1, r2, r3, r4, r5⟩ := ih _ (S ++ [x.vertex]) k1
              (by show rest.length + _ < fuel; omega)
            exact ⟨code, s', S', s1, r1, r2, r3, r4, r5⟩
          · rw [if_neg hsub]
            rw [Bool.not_eq_true] at hsub
            obtain ⟨k1, k2, k3⟩ := inv_settle len w hlen hG2 s { s with queue := rest }
              S (w.OutgoingEdges x.vertex) hinv x rest hperm hmin hst rfl rfl rfl rfl rfl
              (by rw [hsub]; simp)
              (by rw [hsub]; simp)
              hany
              (fun _ e he => he)
            have hbest : IsBestEntryForVertex s x = true := by
              unfold IsBestEntryForVertex
              rw [k3]
              simp
            rw [if_pos hbest]
            have hxq := hperm.mem_iff.mpr (List.mem_cons_self _ _)
            have ho := openDegree_settle w S x.vertex k2 (hinv.entries x hxq).1
            obtain ⟨j1, j2, j3, j4⟩ := inv_relaxAll len w hlen hG1 (S ++ [x.vertex]) x.vertex
              (List.mem_append_right _ (List.mem_singleton.mpr rfl)) hsub
              (w.OutgoingEdges x.vertex) { s with queue := rest } (fun e he => he) k1
              (by
                show s.dist.getD x.vertex ⊤ ≠ ⊤
                rw [k3]
                exact (hinv.entries x hxq).2.1)
              (by
                intro u' hu'
                show s.dist.getD u' ⊤ ≤ s.dist.getD x.vertex ⊤
                rw [List.mem_append, List.mem_singleton] at hu'
                rcases hu' with hu' | hu'
                · rw [k3]
                  exact hinv.settledLe u' hu' x hxq
                · rw [hu'])
            obtain ⟨code, s', S', s1, r1, r2, r3, r4, r5⟩ := ih
              (RelaxAllNeighbors len w { s with queue := rest } x.vertex) (S ++ [x.vertex]) j1
              (by
                unfold RelaxAllNeighbors
                have j2' : ((w.OutgoingEdges x.vertex).foldl (RelaxEdge len w)
                    { s with queue := rest }).queue.length
                    ≤ rest.length + (w.OutgoingEdges x.vertex).length := j2
                omega)
            exact ⟨code, s', S', s1, r1, r2, r3.trans j3, r4.trans j4, r5⟩

theorem openDegree_nil (w : WindfarmResidual) :
    openDegree w [] + 2 = RunFuel w := by
  unfold openDegree RunFuel
  simp

theorem getD_map_const {α β : Type} (l : List α) (b d : β) (i : Nat) (hd : d = b) :
    (l.map fun _ => b).getD i d = b := by
  rw [List.getD_eq_getElem?_getD, List.getElem?_map]
  cases l[i]? <;> simp [hd]

theorem inv_initial (len : WindfarmResidual → Nat → ℚ) (w : WindfarmResidual) (s : Dijkstra)
    (hsd : s.dist.length = w.NumberOfVertices) (hsp : s.parent.length = w.NumberOfVertices)
    (hstart : s.startVertex < w.NumberOfVertices) :
    Inv len w
      { Reset s with
        dist := (Reset s).dist.set s.startVertex 0
        queue := [⟨s.startVertex, 0⟩] } [] [] := by
  have hlen' : s.startVertex < (s.dist.map fun _ => (⊤ : WithTop ℚ)).length := by
    rw [List.length_map, hsd]
    exact hstart
  have hget : ∀ v, ((s.dist.map fun _ => (⊤ : WithTop ℚ)).set s.startVertex 0).getD v ⊤
      = if s.startVertex = v then 0 else ⊤ := by
    intro v
    rw [getD_set_eq, if_pos hlen', getD_map_const _ _ _ _ rfl]
  have hfin : ∀ v, ((s.dist.map fun _ => (⊤ : WithTop ℚ)).set s.startVertex 0).getD v ⊤ ≠ ⊤ →
      v = s.startVertex := by
    intro v hv
    rw [hget] at hv
    split_ifs at hv with h
    · exact h.symm
    · exact absurd rfl hv
  refine ⟨?_, hsp, hstart, ?_, ?_, ?_, List.nodup_singleton _, List.nodup_nil, ?_, ?_, ?_, ?_,
    ?_, ?_, List.Pairwise.nil, ?_, ?_, rfl, rfl, ?_, ?_⟩
  · show ((s.dist.map fun _ => (⊤ : WithTop ℚ)).set s.startVertex 0).length = _
    rw [List.length_set, List.length_map]
    exact hsd
  · show ((s.dist.map fun _ => (⊤ : WithTop ℚ)).set s.startVertex 0).getD s.startVertex ⊤ = 0
    rw [hget, if_pos rfl]
  · intro x hx
    have hx' : x ∈ [(⟨s.startVertex, 0⟩ : DijkstraEntry)] := hx
    rw [List.mem_singleton] at hx'
    rw [hx']
    refine ⟨hstart, WithTop.zero_ne_top, ?_⟩
    show ((s.dist.map fun _ => (⊤ : WithTop ℚ)).set s.startVertex 0).getD s.startVertex ⊤ ≤ 0
    rw [hget, if_pos rfl]
  · intro v hv
    right
    have hv' := hfin v hv
    show (⟨v, ((s.dist.map fun _ => (⊤ : WithTop ℚ)).set s.startVertex 0).getD v ⊤⟩ :
      DijkstraEntry) ∈ [(⟨s.startVertex, 0⟩ : DijkstraEntry)]
    rw [hget, hv', if_pos rfl]
    exact List.mem_singleton.mpr rfl
  · intro u hu
    exact absurd hu (List.not_mem_nil _)
  · intro h
    exact absurd rfl h
  · intro v hv hv'
    exact absurd (hfin v hv') hv
  · intro u hu
    exact absurd hu (List.not_mem_nil _)
  · intro u hu
    exact absurd hu (List.not_mem_nil _)
  · intro u hu
    exact absurd hu (List.not_mem_nil _)
  · intro u hu
    exact absurd hu (List.not_mem_nil _)
  · intro v hv
    have hv' := hfin v hv
    refine ⟨[], hv'.symm, ?_⟩
    show ((s.dist.map fun _ => (⊤ : WithTop ℚ)).set s.startVertex 0).getD v ⊤ = _
    rw [hget, hv', if_pos rfl]
    simp [pathLength]
  · intro _ u hu
    exact absurd hu (List.not_mem_nil _)
  · intro u hu
    exact absurd hu (List.not_mem_nil _)

theorem run_spec (pop : List DijkstraEntry → Option (DijkstraEntry × List DijkstraEntry))
    (hpop : PopsMinimum pop) (len : WindfarmResidual → Nat → ℚ) (w : WindfarmResidual)
    (hlen : ∀ e, 0 ≤ len w e)
    (hG1 : ∀ u, ∀ e ∈ w.OutgoingEdges u,
      e < w.NumberOfEdges ∧ w.StartVertex e = u ∧ w.EndVertex e < w.NumberOfVertices)
    (hG2 : ∀ e, e < w.NumberOfEdges → e ∈ w.OutgoingEdges (w.StartVertex e))
    (s : Dijkstra) (hsd : s.dist.length = w.NumberOfVertices)
    (hsp : s.parent.length = w.NumberOfVertices) (hstart : s.startVertex < w.NumberOfVertices) :
    ∃ code s' S' s1, Run pop len w s = some (code, s') ∧ Inv len w s1 S' []
      ∧ s1.startVertex = s.startVertex ∧ s1.targetVertex = s.targetVertex
      ∧ s'.dist = s1.dist ∧ s'.parent = s1.parent ∧ s'.startVertex = s1.startVertex
      ∧ ((∃ x rest, s1.queue.Perm (x :: rest) ∧ (∀ y ∈ s1.queue, x.distance ≤ y.distance)
            ∧ ¬ s1.dist.getD x.vertex ⊤ < x.distance ∧ IsTarget w s1 x.vertex = true
            ∧ code = ReturnCode.SUCCESS ∧ s'.targetVertex = x.vertex)
          ∨ (s1.queue = [] ∧ (code, s') = RunEnd s1)) := by
  have hfuel := openDegree_nil w
  obtain ⟨code, s', S', s1, r1, r2, r3, r4, r5⟩ :=
    runLoop_spec pop hpop len w hlen hG1 hG2 (RunFuel w) _ [] (inv_initial len w s hsd hsp hstart)
      (by
        show 1 + openDegree w [] < RunFuel w
        omega)
  exact ⟨code, s', S', s1, r1, r2, r3, r4, r5⟩

end Dijkstra

end wcp

namespace wcp

/-! ## The graph that the constructor builds -/

theorem built_outgoing {inst : Instance} {w : WindfarmResidual} (hb : Built inst w) :
    ∀ u, ∀ e ∈ w.OutgoingEdges u,
      e < w.NumberOfEdges ∧ w.StartVertex e = u ∧ w.EndVertex e < w.NumberOfVertices := by
  intro u e he
  obtain ⟨h1, h2⟩ := (hb.mem_outgoingEdges_iff u e).mp he
  exact ⟨h1, h2, (NegativeCycleCanceling.endpoints_lt hb e h1).2⟩

theorem built_edge_outgoing {inst : Instance} {w : WindfarmResidual} (hb : Built inst w) :
    ∀ e, e < w.NumberOfEdges → e ∈ w.OutgoingEdges (w.StartVertex e) :=
  fun e he => (hb.mem_outgoingEdges_iff _ e).mpr ⟨he, rfl⟩

theorem built_into_super {inst : Instance} {w : WindfarmResidual} (hb : Built inst w) (e : Nat)
    (he : e < w.NumberOfEdges) (h : w.IsSuperSubstation (w.EndVertex e) = true) :
    w.IsSubstation (w.StartVertex e) = true := by
  rw [hb.isSuperSubstation_iff] at h
  rcases hb.edge_cases e he with ⟨_, _, h2⟩ | ⟨i, hi, _, c1, _⟩ | ⟨i, hi, _, _, c2⟩
  · omega
  · rw [c1, hb.isSubstation_iff]
    exact substations_getD_mem inst i hi
  · exfalso
    have := ((mem_substations_iff inst _).1 (substations_getD_mem inst i hi)).1
    rw [c2] at h
    omega

/-! ## Paths whose inner vertices are turbines -/

theorem isFreePath_of_isTurbinePath (w : WindfarmResidual) :
    ∀ (P : List Nat) (a b : Nat), w.IsSubstation a = false → IsTurbinePath w a b P →
      IsFreePath w a b P := by
  intro P
  induction P with
  | nil => intro a b _ h; exact h
  | cons e P ih =>
    intro a b ha h
    cases P with
    | nil =>
      obtain ⟨h1, h2, h3, h4⟩ := h
      exact ⟨h1, h2, h3, ha, h4⟩
    | cons e' P =>
      obtain ⟨h1, h2, h3, h4, h5⟩ := h
      refine ⟨h1, h2, h3, ha, ih _ _ ?_ h5⟩
      cases hs : w.IsSubstation (w.EndVertex e) with
      | false => rfl
      | true =>
        rw [isTurbine_false_of_isSubstation w _ hs] at h4
        exact absurd h4 (by simp)

theorem isTurbinePath_of_isFreePath {inst : Instance} {w : WindfarmResidual}
    (hb : Built inst w) :
    ∀ (P : List Nat) (a b : Nat), IsFreePath w a b P → IsTurbinePath w a b P := by
  intro P
  induction P with
  | nil => intro a b h; exact h
  | cons e P ih =>
    intro a b h
    obtain ⟨h1, h2, h3, h4, h5⟩ := h
    cases P with
    | nil => exact ⟨h1, h2, h3, h5⟩
    | cons e' P =>
      refine ⟨h1, h2, h3, ?_, ih _ _ h5⟩
      obtain ⟨_, _, _, h6, _⟩ := h5
      rcases vertex_type_cases w (w.EndVertex e) with h | h | h
      · exact h
      · rw [h] at h6
        exact absurd h6 (by simp)
      · have := built_into_super hb e h1 h
        rw [h2, h4] at this
        exact absurd this (by simp)

/-! ## The concrete priority queue -/

theorem minEntry_spec : ∀ (q : List DijkstraEntry), q ≠ [] →
    ∃ x, Dijkstra.minEntry q = some x ∧ x ∈ q ∧ ∀ y ∈ q, x.distance ≤ y.distance := by
  intro q
  induction q with
  | nil => intro h; exact absurd rfl h
  | cons a q ih =>
    intro _
    by_cases hq : q = []
    · subst hq
      refine ⟨a, rfl, List.mem_singleton.mpr rfl, ?_⟩
      intro y hy
      rw [List.mem_singleton] at hy
      rw [hy]
    · obtain ⟨x, h1, h2, h3⟩ := ih hq
      unfold Dijkstra.minEntry
      rw [h1]
      simp only
      by_cases hlt : x.distance < a.distance
      · rw [if_pos hlt]
        refine ⟨x, rfl, List.mem_cons_of_mem _ h2, ?_⟩
        intro y hy
        rw [List.mem_cons] at hy
        rcases hy with hy | hy
        · rw [hy]; exact le_of_lt hlt
        · exact h3 y hy
      · rw [if_neg hlt]
        refine ⟨a, rfl, List.mem_cons_self _ _, ?_⟩
        intro y hy
        rw [List.mem_cons] at hy
        rcases hy with hy | hy
        · rw [hy]
        · exact le_trans (not_lt.mp hlt) (h3 y hy)

theorem popMinimum_popsMinimum : Dijkstra.PopsMinimum Dijkstra.popMinimum := by
  refine ⟨rfl, ?_⟩
  intro q hq
  obtain ⟨x, h1, h2, h3⟩ := minEntry_spec q hq
  refine ⟨x, q.erase x, ?_, List.perm_cons_erase h2, h3⟩
  unfold Dijkstra.popMinimum
  rw [h1]

/-! ## The target `ANY_FREE_SUBSTATION` -/

theorem target_constants : Dijkstra.ANY_FREE_SUBSTATION ≠ Dijkstra.LAST_FREE_SUBSTATION := by
  decide

/-- C17: on a residual graph built from an instance, with no negative edge length and
whatever entry of least distance the priority queue hands out, when `Run` with the target
`ANY_FREE_SUBSTATION` returns `SUCCESS`, then `TargetVertex()` is a substation with free
capacity, and it is reached from the start by a path `P` that uses only edges with free
capacity and whose inner vertices are turbines, whose length is the distance stored for the
target, and which is not longer than any such path from the start to any substation with free
capacity. -/
theorem any_free_substation_is_nearest (inst : Instance) (w0 w : WindfarmResidual)
    (pop : List DijkstraEntry → Option (DijkstraEntry × List DijkstraEntry))
    (len : WindfarmResidual → Nat → ℚ) (s s' : Dijkstra)
    (h0 : WindfarmResidual.ofInstance inst = some w0) (hw : w.IsStateOf w0)
    (hpop : Dijkstra.PopsMinimum pop) (hlen : ∀ e, 0 ≤ len w e)
    (hsd : s.dist.length = w.NumberOfVertices) (hsp : s.parent.length = w.NumberOfVertices)
    (hstart : s.startVertex < w.NumberOfVertices)
    (htarget : s.targetVertex = Dijkstra.ANY_FREE_SUBSTATION)
    (hrun : Dijkstra.Run pop len w s = some (ReturnCode.SUCCESS, s')) :
    w.IsSubstation s'.targetVertex = true
      ∧ w.HasFreeSubstationCapacity s'.targetVertex = true
      ∧ ∃ P, IsTurbinePath w s.startVertex s'.targetVertex P
          ∧ s'.dist.getD s'.targetVertex ⊤ = ((pathLength len w P : ℚ) : WithTop ℚ)
          ∧ ∀ t P', w.IsSubstation t = true → w.HasFreeSubstationCapacity t = true →
              IsTurbinePath w s.startVertex t P' → pathLength len w P ≤ pathLength len w P' := by
  have hb : Built inst w :=
    WindfarmResidual.Built_of_isStateOf inst w w0 (WindfarmResidual.ofInstance_spec inst w0 h0).1 hw
  obtain ⟨code, s'', S', s1, r1, hinv, r3, r4, r5, _, _, r8⟩ :=
    Dijkstra.run_spec pop hpop len w hlen (built_outgoing hb) (built_edge_outgoing hb) s hsd hsp
      hstart
  rw [hrun] at r1
  simp only [Option.some.injEq, Prod.mk.injEq] at r1
  obtain ⟨rc, rs⟩ := r1
  subst rc rs
  rcases r8 with ⟨x, rest, hperm, hmin, hst, htgt, _, hx⟩ | ⟨_, hend⟩
  · have hxq : x ∈ s1.queue := hperm.mem_iff.mpr (List.mem_cons_self _ _)
    obtain ⟨_, hx2, hx3⟩ := hinv.entries x hxq
    have hdx : s1.dist.getD x.vertex ⊤ = x.distance := le_antisymm hx3 (not_lt.mp hst)
    rw [Dijkstra.isTarget_any w s1 _ (r4.trans htarget), Bool.and_eq_true] at htgt
    obtain ⟨P, hP, hPl⟩ := hinv.reached x.vertex (by rw [hdx]; exact hx2)
    rw [r3] at hP
    rw [hx, r5]
    refine ⟨htgt.1, htgt.2, P, isTurbinePath_of_isFreePath hb P _ _ hP, hPl, ?_⟩
    intro t P' ht1 ht2 hP'
    cases hsub : w.IsSubstation s.startVertex with
    | true =>
      have := isFreePath_of_substation w _ _ P hsub hP
      rw [this.1]
      exact pathLength_nonneg len w hlen P'
    | false =>
      have hF := isFreePath_of_isTurbinePath w P' _ _ hsub hP'
      rw [← r3] at hF
      rcases Dijkstra.inv_frontier len w hlen (built_edge_outgoing hb) s1 S' hinv P' t hF with
        ⟨y, hy, hyd⟩ | ⟨hS, _⟩
      · have h1 := le_trans (hmin y hy) hyd
        rw [← hdx, hPl, WithTop.coe_le_coe] at h1
        exact h1
      · exact absurd ⟨ht1, ht2⟩ (hinv.anyTarget (r4.trans htarget) t hS)
  · exfalso
    unfold Dijkstra.RunEnd at hend
    rw [if_neg (by rw [r4, htarget]; exact target_constants)] at hend
    simp only [Prod.mk.injEq] at hend
    exact absurd hend.1 (by decide)

theorem pair_ofInstance :
    WindfarmResidual.ofInstance pairInstance = some (pairGraph [0, 0] [0, 0, 0, 0]) := by
  rfl

theorem pair_isStateOf (flow : List Int) (costs : List (WithTop ℚ))
    (hf : flow.length = 2) (hc : costs.length = 4) :
    (pairGraph flow costs).IsStateOf (pairGraph [0, 0] [0, 0, 0, 0]) :=
  ⟨rfl, rfl, rfl, rfl, rfl, rfl, rfl, rfl, rfl, hf, hc⟩

theorem any_free_substation_is_nearest_witness :
    Dijkstra.Run Dijkstra.popMinimum UnitLength (pairGraph [0, 0] [0, 0, 0, 0])
        { Dijkstra.create (pairGraph [0, 0] [0, 0, 0, 0]) with
          startVertex := 0, targetVertex := Dijkstra.ANY_FREE_SUBSTATION }
      = some (ReturnCode.SUCCESS,
          { startVertex := 0, targetVertex := 1, numberOfSettledSubstations := 0,
            lastFreeSubstationSettled := none, dist := [0, 1, ⊤],
            parent := [none, some 0, none], queue := [] })
      ∧ (pairGraph [0, 0] [0, 0, 0, 0]).IsSubstation 1 = true
      ∧ (pairGraph [0, 0] [0, 0, 0, 0]).HasFreeSubstationCapacity 1 = true
      ∧ ∃ P, IsTurbinePath (pairGraph [0, 0] [0, 0, 0, 0]) 0 1 P
          ∧ ([0, 1, ⊤] : List (WithTop ℚ)).getD 1 ⊤
            = ((pathLength UnitLength (pairGraph [0, 0] [0, 0, 0, 0]) P : ℚ) : WithTop ℚ)
          ∧ ∀ t P', (pairGraph [0, 0] [0, 0, 0, 0]).IsSubstation t = true →
              (pairGraph [0, 0] [0, 0, 0, 0]).HasFreeSubstationCapacity t = true →
              IsTurbinePath (pairGraph [0, 0] [0, 0, 0, 0]) 0 t P' →
              pathLength UnitLength (pairGraph [0, 0] [0, 0, 0, 0]) P
                ≤ pathLength UnitLength (pairGraph [0, 0] [0, 0, 0, 0]) P' :=
  ⟨by with_unfolding_all rfl,
    any_free_substation_is_nearest pairInstance (pairGraph [0, 0] [0, 0, 0, 0])
      (pairGraph [0, 0] [0, 0, 0, 0]) Dijkstra.popMinimum UnitLength
      { Dijkstra.create (pairGraph [0, 0] [0, 0, 0, 0]) with
        startVertex := 0, targetVertex := Dijkstra.ANY_FREE_SUBSTATION }
      { startVertex := 0, targetVertex := 1, numberOfSettledSubstations := 0,
        lastFreeSubstationSettled := none, dist := [0, 1, ⊤],
        parent := [none, some 0, none], queue := [] }
      pair_ofInstance (pair_isStateOf _ _ rfl rfl) popMinimum_popsMinimum
      (fun _ => zero_le_one) rfl rfl (by decide) rfl (by with_unfolding_all rfl)⟩

end wcp

namespace wcp

namespace Dijkstra

/-! ## The walk that `ExtractWalk` returns -/

theorem settleRank_parent (len : WindfarmResidual → Nat → ℚ) (w : WindfarmResidual)
    (s : Dijkstra) (S : List Nat) (hinv : Inv len w s S []) (v : Nat)
    (hv : v ≠ s.startVertex) (hfin : s.dist.getD v ⊤ ≠ ⊤) :
    ∃ e, s.parent.getD v none = some e ∧ e < w.NumberOfEdges ∧ w.EndVertex e = v
      ∧ w.IsSubstation (w.StartVertex e) = false ∧ w.HasFreeEdgeCapacity e = true
      ∧ s.dist.getD (w.StartVertex e) ⊤ ≠ ⊤
      ∧ settleRank S (w.StartVertex e) < settleRank S v := by
  obtain ⟨e, h1, h2, h3, h4, h5, h6, _, h8⟩ := hinv.parents v hv hfin
  refine ⟨e, h1, h2, h3, h5, h6, hinv.settledFinite _ h4, ?_⟩
  unfold settleRank
  rw [if_pos h4]
  by_cases hvS : v ∈ S
  · rw [if_pos hvS]
    exact h8 hvS
  · rw [if_neg hvS]
    exact List.indexOf_lt_length.mpr h4

theorem extractWalkLoop_base (w : WindfarmResidual) (s : Dijkstra) (current : Nat)
    (walk : List Nat) :
    ExtractWalkLoop w s 0 current walk = if current = s.startVertex then some walk else none :=
  rfl

theorem extractWalkLoop_step (w : WindfarmResidual) (s : Dijkstra) (fuel current : Nat)
    (walk : List Nat) :
    ExtractWalkLoop w s (fuel + 1) current walk
      = if current = s.startVertex then some walk
        else
          match s.parent.getD current none with
          | none => none
          | some edgeFromParent =>
            ExtractWalkLoop w s fuel (w.StartVertex edgeFromParent) (walk ++ [edgeFromParent]) :=
  rfl

theorem extractWalkLoop_path (len : WindfarmResidual → Nat → ℚ) (w : WindfarmResidual)
    (s1 s' : Dijkstra) (S : List Nat) (hinv : Inv len w s1 S [])
    (hp : s'.parent = s1.parent) (hs : s'.startVertex = s1.startVertex) :
    ∀ (n v : Nat) (acc : List Nat) (fuel : Nat), s1.dist.getD v ⊤ ≠ ⊤ → settleRank S v ≤ n →
      n ≤ fuel →
      ∃ Q, ExtractWalkLoop w s' fuel v acc = some (acc ++ Q)
        ∧ IsFreePath w s1.startVertex v Q.reverse
        ∧ (v :: Q.map w.StartVertex).Pairwise fun a c => settleRank S c < settleRank S a := by
  intro n
  induction n with
  | zero =>
    intro v acc fuel hfin hr _
    have hv : v = s1.startVertex := by
      by_contra hne
      obtain ⟨e, _, _, _, _, _, _, h⟩ := settleRank_parent len w s1 S hinv v hne hfin
      omega
    refine ⟨[], ?_, hv.symm, List.pairwise_singleton _ _⟩
    rw [List.append_nil]
    cases fuel with
    | zero => rw [extractWalkLoop_base, if_pos (by rw [hs]; exact hv)]
    | succ f => rw [extractWalkLoop_step, if_pos (by rw [hs]; exact hv)]
  | succ n ih =>
    intro v acc fuel hfin hr hfuel
    by_cases hv : v = s1.startVertex
    · refine ⟨[], ?_, hv.symm, List.pairwise_singleton _ _⟩
      rw [List.append_nil]
      cases fuel with
      | zero => rw [extractWalkLoop_base, if_pos (by rw [hs]; exact hv)]
      | succ f => rw [extractWalkLoop_step, if_pos (by rw [hs]; exact hv)]
    · obtain ⟨e, h1, h2, h3, h4, h5, h6, h7⟩ := settleRank_parent len w s1 S hinv v hv hfin
      cases fuel with
      | zero => omega
      | succ f =>
        obtain ⟨Q, k1, k2, k3⟩ := ih (w.StartVertex e) (acc ++ [e]) f h6 (by omega) (by omega)
        refine ⟨e :: Q, ?_, ?_, ?_⟩
        · rw [extractWalkLoop_step, if_neg (by rw [hs]; exact hv), hp, h1]
          simp only
          rw [k1, List.append_assoc]
          rfl
        · rw [List.reverse_cons, isFreePath_snoc]
          exact ⟨k2, h2, h5, h4, h3⟩
        · rw [List.map_cons, List.pairwise_cons]
          refine ⟨?_, k3⟩
          intro c hc
          rw [List.mem_cons] at hc
          rcases hc with hc | hc
          · rw [hc]; exact h7
          · exact lt_trans ((List.pairwise_cons.mp k3).1 c hc) h7

theorem settled_length_le (len : WindfarmResidual → Nat → ℚ) (w : WindfarmResidual)
    (s : Dijkstra) (S pending : List Nat) (hinv : Inv len w s S pending) :
    S.length ≤ w.NumberOfVertices := by
  have h1 : S.toFinset ⊆ Finset.range w.NumberOfVertices := by
    intro x hx
    rw [List.mem_toFinset] at hx
    exact Finset.mem_range.mpr (hinv.settledLt x hx)
  have h2 := Finset.card_le_card h1
  rw [List.toFinset_card_of_nodup hinv.nodupSettled, Finset.card_range] at h2
  exact h2

theorem settleRank_le (S : List Nat) (v : Nat) : settleRank S v ≤ S.length := by
  unfold settleRank
  split_ifs with h
  · exact le_of_lt (List.indexOf_lt_length.mpr h)
  · exact le_refl _

end Dijkstra

/-! ## What a path along edges with free capacity is made of -/

theorem isFreePath_facts (w : WindfarmResidual) :
    ∀ (P : List Nat) (a b : Nat), IsFreePath w a b P → P ≠ [] →
      w.StartVertex (P.headD 0) = a ∧ w.EndVertex (P.getLastD 0) = b
        ∧ List.Chain' (fun x y => w.EndVertex x = w.StartVertex y) P
        ∧ ∀ e ∈ P, e < w.NumberOfEdges ∧ w.HasFreeEdgeCapacity e = true := by
  intro P
  induction P with
  | nil => intro a b _ h; exact absurd rfl h
  | cons e P ih =>
    intro a b h _
    obtain ⟨h1, h2, h3, _, h5⟩ := h
    cases P with
    | nil =>
      refine ⟨h2, h5, List.chain'_singleton _, ?_⟩
      intro f hf
      rw [List.mem_singleton] at hf
      rw [hf]
      exact ⟨h1, h3⟩
    | cons e' P =>
      obtain ⟨k1, k2, k3, k4⟩ := ih _ b h5 (List.cons_ne_nil _ _)
      refine ⟨h2, ?_, ?_, ?_⟩
      · rw [List.getLastD_cons]
        have : (e' :: P).getLastD e = (e' :: P).getLastD 0 := by
          rw [List.getLastD_cons, List.getLastD_cons]
        rw [this]
        exact k2
      · rw [List.chain'_cons]
        exact ⟨k1.symm, k3⟩
      · intro f hf
        rw [List.mem_cons] at hf
        rcases hf with hf | hf
        · rw [hf]; exact ⟨h1, h3⟩
        · exact k4 f hf

theorem isFreePath_turbines {inst : Instance} {w : WindfarmResidual} (hb : Built inst w) :
    ∀ (P : List Nat) (a b : Nat), w.IsTurbine a = true → IsFreePath w a b P →
      ∀ e ∈ P, w.IsTurbine (w.StartVertex e) = true := by
  intro P
  induction P with
  | nil => intro a b _ _ e he; exact absurd he (List.not_mem_nil _)
  | cons e P ih =>
    intro a b ha h f hf
    obtain ⟨h1, h2, _, h4, h5⟩ := h
    rw [List.mem_cons] at hf
    rcases hf with hf | hf
    · rw [hf, h2]; exact ha
    · cases P with
      | nil => exact absurd hf (List.not_mem_nil _)
      | cons e' P =>
        have h6 : w.IsSubstation (w.EndVertex e) = false := h5.2.2.2.1
        have hT : w.IsTurbine (w.EndVertex e) = true := by
          rcases vertex_type_cases w (w.EndVertex e) with h | h | h
          · exact h
          · rw [h] at h6
            exact absurd h6 (by simp)
          · have := built_into_super hb e h1 h
            rw [h2, h4] at this
            exact absurd this (by simp)
        exact ih _ b hT h5 f hf

/-! ## A successful run -/

theorem run_success (pop : List DijkstraEntry → Option (DijkstraEntry × List DijkstraEntry))
    (hpop : Dijkstra.PopsMinimum pop) (len : WindfarmResidual → Nat → ℚ) (w : WindfarmResidual)
    (hlen : ∀ e, 0 ≤ len w e)
    (hG1 : ∀ u, ∀ e ∈ w.OutgoingEdges u,
      e < w.NumberOfEdges ∧ w.StartVertex e = u ∧ w.EndVertex e < w.NumberOfVertices)
    (hG2 : ∀ e, e < w.NumberOfEdges → e ∈ w.OutgoingEdges (w.StartVertex e))
    (s s' : Dijkstra) (hsd : s.dist.length = w.NumberOfVertices)
    (hsp : s.parent.length = w.NumberOfVertices) (hstart : s.startVertex < w.NumberOfVertices)
    (hrun : Dijkstra.Run pop len w s = some (ReturnCode.SUCCESS, s')) :
    ∃ S' s1, Dijkstra.Inv len w s1 S' []
      ∧ s1.startVertex = s.startVertex ∧ s1.targetVertex = s.targetVertex
      ∧ s'.dist = s1.dist ∧ s'.parent = s1.parent ∧ s'.startVertex = s1.startVertex
      ∧ s1.dist.getD s'.targetVertex ⊤ ≠ ⊤
      ∧ ((∃ x rest, s1.queue.Perm (x :: rest) ∧ (∀ y ∈ s1.queue, x.distance ≤ y.distance)
            ∧ Dijkstra.IsTarget w s1 x.vertex = true ∧ s'.targetVertex = x.vertex
            ∧ s1.dist.getD x.vertex ⊤ = x.distance ∧ x.vertex ∉ S')
          ∨ (s1.queue = [] ∧ s1.targetVertex = Dijkstra.LAST_FREE_SUBSTATION
            ∧ s1.lastFreeSubstationSettled = some s'.targetVertex ∧ s'.targetVertex ∈ S'
            ∧ w.IsSubstation s'.targetVertex = true
            ∧ w.HasFreeSubstationCapacity s'.targetVertex = true)) := by
  obtain ⟨code, s'', S', s1, r1, hinv, r3, r4, r5, r6, r7, r8⟩ :=
    Dijkstra.run_spec pop hpop len w hlen hG1 hG2 s hsd hsp hstart
  rw [hrun] at r1
  simp only [Option.some.injEq, Prod.mk.injEq] at r1
  obtain ⟨rc, rs⟩ := r1
  subst rc rs
  rcases r8 with ⟨x, rest, hperm, hmin, hst, htgt, _, hx⟩ | ⟨hq, hend⟩
  · have hxq : x ∈ s1.queue := hperm.mem_iff.mpr (List.mem_cons_self _ _)
    obtain ⟨_, hx2, hx3⟩ := hinv.entries x hxq
    have hdx : s1.dist.getD x.vertex ⊤ = x.distance := le_antisymm hx3 (not_lt.mp hst)
    have hxS : x.vertex ∉ S' := by
      intro h
      exact hst (hinv.settledStale x.vertex h x hxq rfl)
    exact ⟨S', s1, hinv, r3, r4, r5, r6, r7, by rw [hx, hdx]; exact hx2,
      Or.inl ⟨x, rest, hperm, hmin, htgt, hx, hdx, hxS⟩⟩
  · unfold Dijkstra.RunEnd at hend
    by_cases hl : s1.targetVertex = Dijkstra.LAST_FREE_SUBSTATION
    · rw [if_pos hl] at hend
      cases hlf : s1.lastFreeSubstationSettled with
      | none =>
        rw [hlf] at hend
        simp only [Prod.mk.injEq] at hend
        exact absurd hend.1 (by decide)
      | some v =>
        rw [hlf] at hend
        simp only [Prod.mk.injEq] at hend
        have hv : s'.targetVertex = v := by rw [hend.2]
        have hmem := List.mem_of_getLast?_eq_some (hinv.lastFree.symm.trans hlf)
        rw [List.mem_filter, Bool.and_eq_true] at hmem
        rw [hv]
        exact ⟨S', s1, hinv, r3, r4, r5, r6, r7, hinv.settledFinite v hmem.1,
          Or.inr ⟨hq, hl, hlf, hmem.1, hmem.2.1, hmem.2.2⟩⟩
    · rw [if_neg hl] at hend
      simp only [Prod.mk.injEq] at hend
      exact absurd hend.1 (by decide)

/-! ## The walk extracted after a successful run -/

/-- C18 (counterexample): on the residual graph of scenario S1, `Run` from the turbine `0`
with the target vertex `0` returns `SUCCESS`, and `ExtractWalk` returns the empty vector. -/
theorem extractWalk_empty_when_target_is_start :
    (pairGraph [0, 0] [0, 0, 0, 0]).IsTurbine 0 = true
      ∧ Dijkstra.Run Dijkstra.popMinimum EuclideanLength (pairGraph [0, 0] [0, 0, 0, 0])
          { Dijkstra.create (pairGraph [0, 0] [0, 0, 0, 0]) with
            startVertex := 0, targetVertex := 0 }
        = some (ReturnCode.SUCCESS,
            { startVertex := 0, targetVertex := 0, numberOfSettledSubstations := 0,
              lastFreeSubstationSettled := none, dist := [0, ⊤, ⊤],
              parent := [none, none, none], queue := [] })
      ∧ Dijkstra.ExtractWalk (pairGraph [0, 0] [0, 0, 0, 0])
          { startVertex := 0, targetVertex := 0, numberOfSettledSubstations := 0,
            lastFreeSubstationSettled := none, dist := [0, ⊤, ⊤],
            parent := [none, none, none], queue := [] } = some [] :=
  ⟨by decide, by with_unfolding_all rfl, by rfl⟩

/-- After a successful `Run` from a turbine with a target other than the start vertex,
`ExtractWalk` returns a non-empty simple path of free edges that start at turbines. -/
theorem extractWalk_path (inst : Instance) (w0 w : WindfarmResidual)
    (pop : List DijkstraEntry → Option (DijkstraEntry × List DijkstraEntry))
    (len : WindfarmResidual → Nat → ℚ) (s s' : Dijkstra)
    (h0 : WindfarmResidual.ofInstance inst = some w0) (hw : w.IsStateOf w0)
    (hpop : Dijkstra.PopsMinimum pop) (hlen : ∀ e, 0 ≤ len w e)
    (hsd : s.dist.length = w.NumberOfVertices) (hsp : s.parent.length = w.NumberOfVertices)
    (hstart : s.startVertex < w.NumberOfVertices)
    (hturbine : w.IsTurbine s.startVertex = true)
    (hrun : Dijkstra.Run pop len w s = some (ReturnCode.SUCCESS, s'))
    (hne : s'.targetVertex ≠ s.startVertex) :
    ∃ walk, Dijkstra.ExtractWalk w s' = some walk ∧ walk ≠ []
      ∧ w.StartVertex (walk.headD 0) = s.startVertex
      ∧ w.EndVertex (walk.getLastD 0) = s'.targetVertex
      ∧ List.Chain' (fun a b => w.EndVertex a = w.StartVertex b) walk
      ∧ (∀ e ∈ walk, e < w.NumberOfEdges ∧ w.FreeEdgeCapacity e > 0
          ∧ w.IsTurbine (w.StartVertex e) = true)
      ∧ (walk.map w.StartVertex ++ [s'.targetVertex]).Nodup := by
  have hb : Built inst w :=
    WindfarmResidual.Built_of_isStateOf inst w w0 (WindfarmResidual.ofInstance_spec inst w0 h0).1 hw
  obtain ⟨S', s1, hinv, r3, _, _, r6, r7, hfin, _⟩ :=
    run_success pop hpop len w hlen (built_outgoing hb) (built_edge_outgoing hb) s s' hsd hsp
      hstart hrun
  obtain ⟨Q, k1, k2, k3⟩ := Dijkstra.extractWalkLoop_path len w s1 s' S' hinv r6 r7
    w.NumberOfVertices s'.targetVertex [] w.NumberOfVertices hfin
    (le_trans (Dijkstra.settleRank_le S' _) (Dijkstra.settled_length_le len w s1 S' [] hinv))
    (le_refl _)
  rw [r3] at k2
  have hQne : Q.reverse ≠ [] := by
    intro h
    rw [h] at k2
    exact hne k2.symm
  obtain ⟨f1, f2, f3, f4⟩ := isFreePath_facts w Q.reverse _ _ k2 hQne
  have f5 := isFreePath_turbines hb Q.reverse _ _ hturbine k2
  refine ⟨Q.reverse, ?_, hQne, f1, f2, f3, ?_, ?_⟩
  · unfold Dijkstra.ExtractWalk
    rw [k1]
    rfl
  · intro e he
    refine ⟨(f4 e he).1, ?_, f5 e he⟩
    have := (f4 e he).2
    unfold WindfarmResidual.HasFreeEdgeCapacity at this
    exact of_decide_eq_true this
  · have h1 : Q.reverse.map w.StartVertex ++ [s'.targetVertex]
        = (s'.targetVertex :: Q.map w.StartVertex).reverse := by
      rw [List.reverse_cons, List.map_reverse]
    rw [h1, List.nodup_reverse]
    refine k3.imp ?_
    intro a c hac heq
    rw [heq] at hac
    exact lt_irrefl _ hac

/-- C18 (amended): on a residual graph built from an instance, with no negative edge length,
after a `Run` from a turbine that returned `SUCCESS` with a target vertex other than the
start vertex (as it is for the targets `ANY_FREE_SUBSTATION` and `LAST_FREE_SUBSTATION`),
`ExtractWalk` returns a non-empty path: the first edge starts at `StartVertex()`, the last
edge ends at `TargetVertex()`, consecutive edges are connected, every edge has free capacity
and a turbine as start vertex, and no vertex is repeated. -/
theorem extractWalk_returns_path (inst : Instance) (w0 w : WindfarmResidual)
    (pop : List DijkstraEntry → Option (DijkstraEntry × List DijkstraEntry))
    (len : WindfarmResidual → Nat → ℚ) (s s' : Dijkstra)
    (h0 : WindfarmResidual.ofInstance inst = some w0) (hw : w.IsStateOf w0)
    (hpop : Dijkstra.PopsMinimum pop) (hlen : ∀ e, 0 ≤ len w e)
    (hsd : s.dist.length = w.NumberOfVertices) (hsp : s.parent.length = w.NumberOfVertices)
    (hstart : s.startVertex < w.NumberOfVertices)
    (hturbine : w.IsTurbine s.startVertex = true)
    (hrun : Dijkstra.Run pop len w s = some (ReturnCode.SUCCESS, s'))
    (hne : s'.targetVertex ≠ s.startVertex) :
    ∃ walk, Dijkstra.ExtractWalk w s' = some walk ∧ walk ≠ []
      ∧ w.StartVertex (walk.headD 0) = s.startVertex
      ∧ w.EndVertex (walk.getLastD 0) = s'.targetVertex
      ∧ List.Chain' (fun a b => w.EndVertex a = w.StartVertex b) walk
      ∧ (∀ e ∈ walk, e < w.NumberOfEdges ∧ w.FreeEdgeCapacity e > 0
          ∧ w.IsTurbine (w.StartVertex e) = true)
      ∧ (walk.map w.StartVertex ++ [s'.targetVertex]).Nodup :=
  extractWalk_path inst w0 w pop len s s' h0 hw hpop hlen hsd hsp hstart hturbine hrun hne

theorem extractWalk_returns_path_witness :
    Dijkstra.Run Dijkstra.popMinimum UnitLength (pairGraph [0, 0] [0, 0, 0, 0])
        { Dijkstra.create (pairGraph [0, 0] [0, 0, 0, 0]) with
          startVertex := 0, targetVertex := Dijkstra.ANY_FREE_SUBSTATION }
      = some (ReturnCode.SUCCESS,
          { startVertex := 0, targetVertex := 1, numberOfSettledSubstations := 0,
            lastFreeSubstationSettled := none, dist := [0, 1, ⊤],
            parent := [none, some 0, none], queue := [] })
      ∧ ∃ walk, Dijkstra.ExtractWalk (pairGraph [0, 0] [0, 0, 0, 0])
            { startVertex := 0, targetVertex := 1, numberOfSettledSubstations := 0,
              lastFreeSubstationSettled := none, dist := [0, 1, ⊤],
              parent := [none, some 0, none], queue := [] } = some walk
          ∧ walk ≠ []
          ∧ (pairGraph [0, 0] [0, 0, 0, 0]).StartVertex (walk.headD 0) = 0
          ∧ (pairGraph [0, 0] [0, 0, 0, 0]).EndVertex (walk.getLastD 0) = 1
          ∧ List.Chain' (fun a b => (pairGraph [0, 0] [0, 0, 0, 0]).EndVertex a
              = (pairGraph [0, 0] [0, 0, 0, 0]).StartVertex b) walk
          ∧ (∀ e ∈ walk, e < (pairGraph [0, 0] [0, 0, 0, 0]).NumberOfEdges
              ∧ (pairGraph [0, 0] [0, 0, 0, 0]).FreeEdgeCapacity e > 0
              ∧ (pairGraph [0, 0] [0, 0, 0, 0]).IsTurbine
                  ((pairGraph [0, 0] [0, 0, 0, 0]).StartVertex e) = true)
          ∧ (walk.map (pairGraph [0, 0] [0, 0, 0, 0]).StartVertex ++ [1]).Nodup :=
  ⟨by with_unfolding_all rfl,
    extractWalk_returns_path pairInstance (pairGraph [0, 0] [0, 0, 0, 0])
      (pairGraph [0, 0] [0, 0, 0, 0]) Dijkstra.popMinimum UnitLength
      { Dijkstra.create (pairGraph [0, 0] [0, 0, 0, 0]) with
        startVertex := 0, targetVertex := Dijkstra.ANY_FREE_SUBSTATION }
      { startVertex := 0, targetVertex := 1, numberOfSettledSubstations := 0,
        lastFreeSubstationSettled := none, dist := [0, 1, ⊤],
        parent := [none, some 0, none], queue := [] }
      pair_ofInstance (pair_isStateOf _ _ rfl rfl) popMinimum_popsMinimum
      (fun _ => zero_le_one) rfl rfl (by decide) (by decide) (by with_unfolding_all rfl)
      (by decide)⟩

end wcp

namespace wcp

/-! ## The target `LAST_FREE_SUBSTATION` -/

theorem isTarget_last (w : WindfarmResidual) (s : Dijkstra) (v : Nat)
    (h : s.targetVertex = Dijkstra.LAST_FREE_SUBSTATION) :
    Dijkstra.IsTarget w s v
      = (w.IsSubstation v && w.HasFreeSubstationCapacity v
        && decide (s.numberOfSettledSubstations = (w.NumberOfSubstations : Int) - 1)) := by
  unfold Dijkstra.IsTarget
  rw [if_neg (by rw [h]; exact fun h' => target_constants h'.symm), if_pos h]

theorem pairwise_getLast (R : Nat → Nat → Prop) (hrefl : ∀ a, R a a) (l : List Nat) (v : Nat)
    (hp : l.Pairwise R) (hl : l.getLast? = some v) : ∀ a ∈ l, R a v := by
  obtain ⟨ys, hys⟩ := List.getLast?_eq_some_iff.mp hl
  rw [hys, List.pairwise_append] at hp
  intro a ha
  rw [hys, List.mem_append, List.mem_singleton] at ha
  rcases ha with ha | ha
  · exact hp.2.2 a ha v (List.mem_singleton.mpr rfl)
  · rw [ha]
    exact hrefl v

theorem all_other_substations_settled {inst : Instance} {w : WindfarmResidual}
    (hb : Built inst w) (S : List Nat) (hnd : S.Nodup) (t : Nat) (htS : t ∉ S)
    (ht : w.IsSubstation t = true)
    (hcount : ((S.filter w.IsSubstation).length : Int) = (w.NumberOfSubstations : Int) - 1)
    (t' : Nat) (ht' : w.IsSubstation t' = true) : t' = t ∨ t' ∈ S := by
  have h1 : (insert t (S.filter w.IsSubstation).toFinset) ⊆ inst.substations.toFinset := by
    intro x hx
    rw [Finset.mem_insert, List.mem_toFinset, List.mem_filter] at hx
    rw [List.mem_toFinset, ← hb.isSubstation_iff]
    rcases hx with hx | hx
    · rw [hx]; exact ht
    · exact hx.2
  have h2 : (insert t (S.filter w.IsSubstation).toFinset).card
      = (S.filter w.IsSubstation).length + 1 := by
    rw [Finset.card_insert_of_not_mem, List.toFinset_card_of_nodup (hnd.filter _)]
    rw [List.mem_toFinset, List.mem_filter]
    exact fun h => htS h.1
  have h3 : inst.substations.toFinset.card = w.NumberOfSubstations := by
    rw [List.toFinset_card_of_nodup (substations_nodup inst), hb.numberOfSubstations]
  have h4 : inst.substations.toFinset.card ≤ (insert t (S.filter w.IsSubstation).toFinset).card := by
    rw [h2, h3]
    omega
  have h5 := Finset.eq_of_subset_of_card_le h1 h4
  have h6 : t' ∈ inst.substations.toFinset := by
    rw [List.mem_toFinset, ← hb.isSubstation_iff]
    exact ht'
  rw [← h5, Finset.mem_insert, List.mem_toFinset, List.mem_filter] at h6
  rcases h6 with h6 | h6
  · exact Or.inl h6
  · exact Or.inr h6.1

/-- C19: on a residual graph built from an instance, with no negative edge length and
whatever entry of least distance the priority queue hands out, `Run` with the target
`LAST_FREE_SUBSTATION` returns `SUCCESS` or `INFEASIBLE`; it returns `SUCCESS` exactly when a
substation with free capacity can be reached from the start along edges with free capacity
none of which leaves a substation; and then `TargetVertex()` is such a substation, the
distance stored for it is the length of a shortest such path to it, and no substation with
free capacity that can be reached lies farther from the start, as the settling in the order
of the distances makes the substation settled last the farthest one. -/
theorem last_free_substation_result (inst : Instance) (w0 w : WindfarmResidual)
    (pop : List DijkstraEntry → Option (DijkstraEntry × List DijkstraEntry))
    (len : WindfarmResidual → Nat → ℚ) (s : Dijkstra)
    (h0 : WindfarmResidual.ofInstance inst = some w0) (hw : w.IsStateOf w0)
    (hpop : Dijkstra.PopsMinimum pop) (hlen : ∀ e, 0 ≤ len w e)
    (hsd : s.dist.length = w.NumberOfVertices) (hsp : s.parent.length = w.NumberOfVertices)
    (hstart : s.startVertex < w.NumberOfVertices)
    (htarget : s.targetVertex = Dijkstra.LAST_FREE_SUBSTATION) :
    ∃ code s', Dijkstra.Run pop len w s = some (code, s')
      ∧ (code = ReturnCode.SUCCESS ∨ code = ReturnCode.INFEASIBLE)
      ∧ (code = ReturnCode.SUCCESS ↔
          ∃ t P, w.IsSubstation t = true ∧ w.HasFreeSubstationCapacity t = true
            ∧ IsFreePath w s.startVertex t P)
      ∧ (code = ReturnCode.SUCCESS →
          w.IsSubstation s'.targetVertex = true
            ∧ w.HasFreeSubstationCapacity s'.targetVertex = true
            ∧ ∃ P, IsFreePath w s.startVertex s'.targetVertex P
                ∧ s'.dist.getD s'.targetVertex ⊤ = ((pathLength len w P : ℚ) : WithTop ℚ)
                ∧ (∀ Q, IsFreePath w s.startVertex s'.targetVertex Q →
                    pathLength len w P ≤ pathLength len w Q)
                ∧ ∀ t Q, w.IsSubstation t = true → w.HasFreeSubstationCapacity t = true →
                    IsFreePath w s.startVertex t Q →
                    ∃ Q', IsFreePath w s.startVertex t Q'
                      ∧ pathLength len w Q' ≤ pathLength len w P) := by
  have hb : Built inst w :=
    WindfarmResidual.Built_of_isStateOf inst w w0 (WindfarmResidual.ofInstance_spec inst w0 h0).1 hw
  obtain ⟨code, s', S', s1, r1, hinv, r3, r4, r5, _, _, r8⟩ :=
    Dijkstra.run_spec pop hpop len w hlen (built_outgoing hb) (built_edge_outgoing hb) s hsd hsp
      hstart
  have hlast : s1.targetVertex = Dijkstra.LAST_FREE_SUBSTATION := r4.trans htarget
  refine ⟨code, s', r1, ?_⟩
  rcases r8 with ⟨x, rest, hperm, hmin, hst, htgt, hcode, hx⟩ | ⟨hq, hend⟩
  · have hxq : x ∈ s1.queue := hperm.mem_iff.mpr (List.mem_cons_self _ _)
    obtain ⟨_, hx2, hx3⟩ := hinv.entries x hxq
    have hdx : s1.dist.getD x.vertex ⊤ = x.distance := le_antisymm hx3 (not_lt.mp hst)
    have hxS : x.vertex ∉ S' := fun h => hst (hinv.settledStale x.vertex h x hxq rfl)
    rw [isTarget_last w s1 _ hlast, Bool.and_eq_true, Bool.and_eq_true, decide_eq_true_eq] at htgt
    obtain ⟨⟨t1, t2⟩, t3⟩ := htgt
    obtain ⟨P, hP, hPl⟩ := hinv.reached x.vertex (by rw [hdx]; exact hx2)
    rw [r3] at hP
    have hres : w.IsSubstation s'.targetVertex = true
        ∧ w.HasFreeSubstationCapacity s'.targetVertex = true
        ∧ ∃ P, IsFreePath w s.startVertex s'.targetVertex P
            ∧ s'.dist.getD s'.targetVertex ⊤ = ((pathLength len w P : ℚ) : WithTop ℚ)
            ∧ (∀ Q, IsFreePath w s.startVertex s'.targetVertex Q →
                pathLength len w P ≤ pathLength len w Q)
            ∧ ∀ t Q, w.IsSubstation t = true → w.HasFreeSubstationCapacity t = true →
                IsFreePath w s.startVertex t Q →
                ∃ Q', IsFreePath w s.startVertex t Q'
                  ∧ pathLength len w Q' ≤ pathLength len w P := by
      rw [hx, r5]
      refine ⟨t1, t2, P, hP, hPl, ?_, ?_⟩
      · intro Q hQ
        rw [← r3] at hQ
        rcases Dijkstra.inv_frontier len w hlen (built_edge_outgoing hb) s1 S' hinv Q _ hQ with
          ⟨y, hy, hyd⟩ | ⟨hS, _⟩
        · have h1 := le_trans (hmin y hy) hyd
          rw [← hdx, hPl, WithTop.coe_le_coe] at h1
          exact h1
        · exact absurd hS hxS
      · intro t Q ht1 _ _
        rcases all_other_substations_settled hb S' hinv.nodupSettled x.vertex hxS t1
            (by rw [← hinv.count]; exact t3) t ht1 with h | h
        · rw [h]
          exact ⟨P, hP, le_refl _⟩
        · obtain ⟨Q', hQ', hQl⟩ := hinv.reached t (hinv.settledFinite t h)
          rw [r3] at hQ'
          refine ⟨Q', hQ', ?_⟩
          have h1 := hinv.settledLe t h x hxq
          rw [hQl, ← hdx, hPl, WithTop.coe_le_coe] at h1
          exact h1
    refine ⟨Or.inl hcode, ⟨fun _ => ?_, fun _ => hcode⟩, fun _ => hres⟩
    obtain ⟨a1, a2, P', a3, _⟩ := hres
    exact ⟨_, P', a1, a2, a3⟩
  · unfold Dijkstra.RunEnd at hend
    rw [if_pos hlast] at hend
    have hall : ∀ t Q, w.IsSubstation t = true → w.HasFreeSubstationCapacity t = true →
        IsFreePath w s.startVertex t Q →
        t ∈ S'.filter fun u => w.IsSubstation u && w.HasFreeSubstationCapacity u := by
      intro t Q ht1 ht2 hQ
      rw [← r3] at hQ
      rcases Dijkstra.inv_frontier len w hlen (built_edge_outgoing hb) s1 S' hinv Q _ hQ with
        ⟨y, hy, _⟩ | ⟨hS, _⟩
      · rw [hq] at hy
        exact absurd hy (List.not_mem_nil _)
      · rw [List.mem_filter, ht1, ht2]
        exact ⟨hS, rfl⟩
    cases hlf : s1.lastFreeSubstationSettled with
    | none =>
      rw [hlf] at hend
      simp only [Prod.mk.injEq] at hend
      have hcode : code = ReturnCode.INFEASIBLE := hend.1
      refine ⟨Or.inr hcode, ⟨fun h => ?_, fun h => ?_⟩, fun h => ?_⟩
      · rw [hcode] at h
        exact absurd h (by decide)
      · exfalso
        obtain ⟨t, Q, ht1, ht2, hQ⟩ := h
        have hmem := hall t Q ht1 ht2 hQ
        have hnone := hinv.lastFree.symm.trans hlf
        rw [List.getLast?_eq_none_iff] at hnone
        rw [hnone] at hmem
        exact absurd hmem (List.not_mem_nil _)
      · rw [hcode] at h
        exact absurd h (by decide)
    | some v =>
      rw [hlf] at hend
      simp only [Prod.mk.injEq] at hend
      have hcode : code = ReturnCode.SUCCESS := hend.1
      have hv : s'.targetVertex = v := by rw [hend.2]
      have hd : s'.dist = s1.dist := by rw [hend.2]
      have hgl := hinv.lastFree.symm.trans hlf
      have hmem := List.mem_of_getLast?_eq_some hgl
      rw [List.mem_filter, Bool.and_eq_true] at hmem
      obtain ⟨P, hP, hPl⟩ := hinv.reached v (hinv.settledFinite v hmem.1)
      rw [r3] at hP
      have hres : w.IsSubstation s'.targetVertex = true
          ∧ w.HasFreeSubstationCapacity s'.targetVertex = true
          ∧ ∃ P, IsFreePath w s.startVertex s'.targetVertex P
              ∧ s'.dist.getD s'.targetVertex ⊤ = ((pathLength len w P : ℚ) : WithTop ℚ)
              ∧ (∀ Q, IsFreePath w s.startVertex s'.targetVertex Q →
                  pathLength len w P ≤ pathLength len w Q)
              ∧ ∀ t Q, w.IsSubstation t = true → w.HasFreeSubstationCapacity t = true →
                  IsFreePath w s.startVertex t Q →
                  ∃ Q', IsFreePath w s.startVertex t Q'
                    ∧ pathLength len w Q' ≤ pathLength len w P := by
        rw [hv, hd]
        refine ⟨hmem.2.1, hmem.2.2, P, hP, hPl, ?_, ?_⟩
        · intro Q hQ
          rw [← r3] at hQ
          have h1 := hinv.shortest v hmem.1 Q hQ
          rw [hPl, WithTop.coe_le_coe] at h1
          exact h1
        · intro t Q ht1 ht2 hQ
          have htF := hall t Q ht1 ht2 hQ
          have htS : t ∈ S' := (List.mem_filter.mp htF).1
          obtain ⟨Q', hQ', hQl⟩ := hinv.reached t (hinv.settledFinite t htS)
          rw [r3] at hQ'
          refine ⟨Q', hQ', ?_⟩
          have h1 := pairwise_getLast (fun a b => s1.dist.getD a ⊤ ≤ s1.dist.getD b ⊤)
            (fun a => le_refl _) _ v (hinv.settledSorted.filter _) hgl t htF
          simp only at h1
          rw [hQl, hPl, WithTop.coe_le_coe] at h1
          exact h1
      refine ⟨Or.inl hcode, ⟨fun _ => ?_, fun _ => hcode⟩, fun _ => hres⟩
      obtain ⟨a1, a2, P', a3, _⟩ := hres
      exact ⟨_, P', a1, a2, a3⟩

theorem last_free_substation_result_witness :
    ∃ code s', Dijkstra.Run Dijkstra.popMinimum UnitLength (pairGraph [0, 0] [0, 0, 0, 0])
        { Dijkstra.create (pairGraph [0, 0] [0, 0, 0, 0]) with
          startVertex := 0, targetVertex := Dijkstra.LAST_FREE_SUBSTATION } = some (code, s')
      ∧ (code = ReturnCode.SUCCESS ∨ code = ReturnCode.INFEASIBLE)
      ∧ (code = ReturnCode.SUCCESS ↔
          ∃ t P, (pairGraph [0, 0] [0, 0, 0, 0]).IsSubstation t = true
            ∧ (pairGraph [0, 0] [0, 0, 0, 0]).HasFreeSubstationCapacity t = true
            ∧ IsFreePath (pairGraph [0, 0] [0, 0, 0, 0]) 0 t P)
      ∧ (code = ReturnCode.SUCCESS →
          (pairGraph [0, 0] [0, 0, 0, 0]).IsSubstation s'.targetVertex = true
            ∧ (pairGraph [0, 0] [0, 0, 0, 0]).HasFreeSubstationCapacity s'.targetVertex = true
            ∧ ∃ P, IsFreePath (pairGraph [0, 0] [0, 0, 0, 0]) 0 s'.targetVertex P
                ∧ s'.dist.getD s'.targetVertex ⊤
                  = ((pathLength UnitLength (pairGraph [0, 0] [0, 0, 0, 0]) P : ℚ) : WithTop ℚ)
                ∧ (∀ Q, IsFreePath (pairGraph [0, 0] [0, 0, 0, 0]) 0 s'.targetVertex Q →
                    pathLength UnitLength (pairGraph [0, 0] [0, 0, 0, 0]) P
                      ≤ pathLength UnitLength (pairGraph [0, 0] [0, 0, 0, 0]) Q)
                ∧ ∀ t Q, (pairGraph [0, 0] [0, 0, 0, 0]).IsSubstation t = true →
                    (pairGraph [0, 0] [0, 0, 0, 0]).HasFreeSubstationCapacity t = true →
                    IsFreePath (pairGraph [0, 0] [0, 0, 0, 0]) 0 t Q →
                    ∃ Q', IsFreePath (pairGraph [0, 0] [0, 0, 0, 0]) 0 t Q'
                      ∧ pathLength UnitLength (pairGraph [0, 0] [0, 0, 0, 0]) Q'
                        ≤ pathLength UnitLength (pairGraph [0, 0] [0, 0, 0, 0]) P) :=
  last_free_substation_result pairInstance (pairGraph [0, 0] [0, 0, 0, 0])
    (pairGraph [0, 0] [0, 0, 0, 0]) Dijkstra.popMinimum UnitLength
    { Dijkstra.create (pairGraph [0, 0] [0, 0, 0, 0]) with
      startVertex := 0, targetVertex := Dijkstra.LAST_FREE_SUBSTATION }
    pair_ofInstance (pair_isStateOf _ _ rfl rfl) popMinimum_popsMinimum
    (fun _ => zero_le_one) rfl rfl (by decide) rfl

end wcp

/-! # The initial flow of `NonCollecting::InitializeFlow` -/

namespace wcp

open WindfarmResidual

/-! ## Paths -/

/-- The start vertices of a walk followed by its last end vertex are its first start vertex
followed by its end vertices. -/
theorem chain_endpoints (w : WindfarmResidual) (x : Nat) (xs : List Nat)
    (h : List.Chain' (fun a b => w.EndVertex a = w.StartVertex b) (x :: xs)) :
    (x :: xs).map w.StartVertex ++ [w.EndVertex ((x :: xs).getLastD 0)]
      = w.StartVertex x :: (x :: xs).map w.EndVertex := by
  rw [NegativeCycleCanceling.chain_map_end w x xs h, List.map_cons, List.cons_append]

/-- A path that repeats no vertex does not contain an edge together with an edge in the
opposite direction. -/
theorem route_no_reverse_pair (w : WindfarmResidual) :
    ∀ (walk : List Nat) (s : Nat), walk ≠ [] →
      List.Chain' (fun a b => w.EndVertex a = w.StartVertex b) walk →
      w.EndVertex (walk.getLastD 0) = s →
      (walk.map w.StartVertex ++ [s]).Nodup →
      ∀ x ∈ walk, ∀ y ∈ walk,
        ¬ (w.StartVertex y = w.EndVertex x ∧ w.EndVertex y = w.StartVertex x) := by
  intro walk
  induction walk with
  | nil => intro s h; exact absurd rfl h
  | cons e0 rest ih =>
    intro s _ hch hlast hnd x hx y hy
    have hV := chain_endpoints w e0 rest hch
    rw [hlast] at hV
    rw [hV] at hnd
    have hnot : w.StartVertex e0 ∉ (e0 :: rest).map w.EndVertex := (List.nodup_cons.mp hnd).1
    have hend : ∀ z ∈ e0 :: rest, w.EndVertex z ≠ w.StartVertex e0 := by
      intro z hz heq
      exact hnot (heq ▸ List.mem_map_of_mem _ hz)
    rintro ⟨h1, h2⟩
    rcases List.mem_cons.mp hx with hx0 | hxr
    · subst hx0
      exact hend y hy h2
    · rcases List.mem_cons.mp hy with hy0 | hyr
      · subst hy0
        exact hend x hx h1.symm
      · cases rest with
        | nil => exact absurd hxr (List.not_mem_nil _)
        | cons e1 rest' =>
          have hch' := (List.chain'_cons.mp hch).2
          have hnd' : ((e1 :: rest').map w.StartVertex ++ [s]).Nodup := by
            have hV' := chain_endpoints w e1 rest' hch'
            have hl : w.EndVertex ((e1 :: rest').getLastD 0) = s := hlast
            rw [hl] at hV'
            rw [hV', ← (List.chain'_cons.mp hch).1]
            exact (List.nodup_cons.mp hnd).2
          exact ih s (List.cons_ne_nil _ _) hch' hlast hnd' x hxr y hyr ⟨h1, h2⟩

/-! ## One call of `UpdateFlowOnWalk` -/

theorem updateFlowOnWalk_eq (w : WindfarmResidual) (walk : List Nat) (s : Nat) :
    NonCollecting.UpdateFlowOnWalk w walk s
      = w.AddFlowOnMultipleEdges (walk ++ [w.EdgeToSupersubstation s]) 1 := by
  obtain ⟨hst, _⟩ := addFlowOnMultipleEdges_state walk 1 w
  obtain ⟨_, _, _, _, _, _, _, _, t9, _⟩ := IsStateOf_topology hst
  unfold NonCollecting.UpdateFlowOnWalk
  rw [t9]
  unfold AddFlowOnMultipleEdges
  rw [List.foldl_append, List.foldl_cons, List.foldl_nil]

/-- The facts on the edges of a route and on the edge to the super substation that the
effect of `UpdateFlowOnWalk` rests on. -/
theorem route_edges {inst : Instance} {w : WindfarmResidual} (hb : Built inst w)
    (t s : Nat) (walk : List Nat) (hr : NonCollecting.IsRoute w t s walk) :
    (walk ++ [w.EdgeToSupersubstation s]).Nodup
      ∧ (∀ e ∈ walk ++ [w.EdgeToSupersubstation s], e < w.NumberOfEdges)
      ∧ (∀ e ∈ walk ++ [w.EdgeToSupersubstation s],
          w.IsSuperSubstation (w.StartVertex e) = false)
      ∧ (∀ e ∈ walk, w.ReverseEdgeIndex e ∉ walk ++ [w.EdgeToSupersubstation s])
      ∧ w.ReverseEdgeIndex (w.EdgeToSupersubstation s) ∉ walk ++ [w.EdgeToSupersubstation s]
      ∧ w.EdgeToSupersubstation s ∉ walk := by
  obtain ⟨hne, _, hlast, hs, _, hch, hwalk, hnd⟩ := hr
  obtain ⟨d1, d2, d3, _⟩ := drain_edge hb s hs
  have hdn : w.EdgeToSupersubstation s ∉ walk := by
    intro h
    have h1 := (hwalk _ h).2.2
    rw [d2, isTurbine_false_of_isSubstation w s hs] at h1
    exact absurd h1 (by decide)
  have hwnd : walk.Nodup := List.Nodup.of_map _ (List.Nodup.of_append_left hnd)
  have hstart : ∀ e ∈ walk ++ [w.EdgeToSupersubstation s],
      w.IsSuperSubstation (w.StartVertex e) = false := by
    intro e he
    rcases List.mem_append.mp he with h | h
    · exact isSuperSubstation_false_of_isTurbine w _ (hwalk e h).2.2
    · rw [List.mem_singleton.mp h, d2]
      exact isSuperSubstation_false_of_isSubstation w s hs
  refine ⟨?_, ?_, hstart, ?_, ?_, hdn⟩
  · rw [List.nodup_append]
    refine ⟨hwnd, List.nodup_singleton _, ?_⟩
    intro a ha ha'
    rw [List.mem_singleton] at ha'
    subst ha'
    exact hdn ha
  · intro e he
    rcases List.mem_append.mp he with h | h
    · exact (hwalk e h).1
    · rw [List.mem_singleton.mp h]
      exact d1
  · intro e he hrev
    obtain ⟨r1, r2⟩ := hb.reverse_endpoints e (hwalk e he).1
    rcases List.mem_append.mp hrev with h | h
    · exact route_no_reverse_pair w walk s hne hch hlast hnd e he _ h ⟨r1, r2⟩
    · rw [List.mem_singleton] at h
      rw [h] at r2
      have h1 := isSuperSubstation_false_of_isTurbine w _ (hwalk e he).2.2
      rw [← r2, d3] at h1
      exact absurd h1 (by decide)
  · intro hrev
    obtain ⟨r1, _⟩ := hb.reverse_endpoints _ d1
    have h1 := hstart _ hrev
    rw [r1, d3] at h1
    exact absurd h1 (by decide)

/-- Every edge of a route and the edge to the super substation can take one more unit. -/
theorem route_augmentable {inst : Instance} {w : WindfarmResidual} (hb : Built inst w)
    (t s : Nat) (walk : List Nat) (hr : NonCollecting.IsRoute w t s walk)
    (hbound : ∀ e, e < w.NumberOfEdges → EdgeBound w e (w.FlowOnEdge e)) :
    ∀ e ∈ walk ++ [w.EdgeToSupersubstation s], Augmentable w 1 e := by
  obtain ⟨_, _, _, hs, hfree, _, hwalk, _⟩ := hr
  obtain ⟨d1, d2, d3, _⟩ := drain_edge hb s hs
  have hNE := hb.numberOfEdges_eq
  intro e he
  rcases List.mem_append.mp he with h | h
  · obtain ⟨h1, h2, h3⟩ := hwalk e h
    obtain ⟨r1, r2⟩ := hb.reverse_endpoints e h1
    have hold := hbound (w.ReverseEdgeIndex e) (by
      have := ReverseEdgeIndex_lt w e (by omega)
      omega)
    unfold FreeEdgeCapacity at h2
    unfold Augmentable
    unfold EdgeBound at hold ⊢
    rw [r1, r2] at hold ⊢
    refine ⟨⟨fun _ _ => by omega, fun a => ?_⟩, ⟨fun a b => ?_, fun a => ?_⟩⟩
    · rw [isTurbine_false_of_isSubstation w _ a] at h3
      exact absurd h3 (by decide)
    · have := hold.1 a b
      omega
    · have := hold.2 a
      rw [if_pos h3] at this ⊢
      omega
  · rw [List.mem_singleton] at h
    subst h
    obtain ⟨r1, _⟩ := hb.reverse_endpoints _ d1
    have hold := (hbound _ d1).2 (by rw [d2]; exact hs)
    have hT := isTurbine_false_of_isSuperSubstation w _ d3
    rw [if_neg (by rw [hT]; decide), if_pos d3, d2] at hold
    unfold HasFreeSubstationCapacity FreeSubstationCapacity FlowToSubstation at hfree
    have hfree' := of_decide_eq_true hfree
    unfold Augmentable
    unfold EdgeBound
    rw [r1]
    refine ⟨⟨fun _ b => ?_, fun _ => ?_⟩, ⟨fun a => ?_, fun a => ?_⟩⟩
    · rw [d3] at b
      exact absurd b (by decide)
    · rw [if_neg (by rw [hT]; decide), if_pos d3, d2]
      omega
    · rw [d3] at a
      exact absurd a (by decide)
    · rw [isSubstation_false_of_isSuperSubstation w _ d3] at a
      exact absurd a (by decide)

/-- The effect of `UpdateFlowOnWalk` along a route: the bounds of `AssertFeasibleFlow` on the
edges are kept, the sum of the outgoing flow grows by one at the turbine of the route and
stays as it was at every other vertex but the super substation, the flow into the
substations grows by one in total, and the flow grows by exactly one on the edges of the
route and on the edge to the super substation. -/
theorem updateFlowOnWalk_spec {inst : Instance} {w : WindfarmResidual} (hb : Built inst w)
    (t s : Nat) (walk : List Nat) (hr : NonCollecting.IsRoute w t s walk)
    (hbound : ∀ e, e < w.NumberOfEdges → EdgeBound w e (w.FlowOnEdge e)) :
    (NonCollecting.UpdateFlowOnWalk w walk s).IsStateOf w
      ∧ (∀ e, e < w.NumberOfEdges →
          EdgeBound (NonCollecting.UpdateFlowOnWalk w walk s) e
            ((NonCollecting.UpdateFlowOnWalk w walk s).FlowOnEdge e))
      ∧ (∀ v, w.IsSuperSubstation v = false →
          outSum (NonCollecting.UpdateFlowOnWalk w walk s) v
            = outSum w v + if v = t then 1 else 0)
      ∧ (inst.substations.map (NonCollecting.UpdateFlowOnWalk w walk s).FlowToSubstation).sum
          = (inst.substations.map w.FlowToSubstation).sum + 1
      ∧ (∀ e ∈ walk, (NonCollecting.UpdateFlowOnWalk w walk s).FlowOnEdge e
          = w.FlowOnEdge e + 1)
      ∧ (NonCollecting.UpdateFlowOnWalk w walk s).FlowToSubstation s
          = w.FlowToSubstation s + 1
      ∧ (∀ e, e < w.NumberOfEdges →
          e ∉ walk ++ [w.EdgeToSupersubstation s] →
          w.ReverseEdgeIndex e ∉ walk ++ [w.EdgeToSupersubstation s] →
          (NonCollecting.UpdateFlowOnWalk w walk s).FlowOnEdge e = w.FlowOnEdge e) := by
  obtain ⟨hnd, hCE, hstart, hrevw, hrevd, hdn⟩ := route_edges hb t s walk hr
  have haug := route_augmentable hb t s walk hr hbound
  obtain ⟨hne, hhead, hlast, hs, _, hch, hwalk, _⟩ := hr
  obtain ⟨d1, d2, d3, _⟩ := drain_edge hb s hs
  have hNE := hb.numberOfEdges_eq
  rw [updateFlowOnWalk_eq]
  obtain ⟨hst, _⟩ := addFlowOnMultipleEdges_state (walk ++ [w.EdgeToSupersubstation s]) 1 w
  obtain ⟨_, _, _, _, _, _, _, _, t9, _⟩ := IsStateOf_topology hst
  have hflow : ∀ x, x < w.NumberOfEdges →
      (w.AddFlowOnMultipleEdges (walk ++ [w.EdgeToSupersubstation s]) 1).FlowOnEdge x
        = w.FlowOnEdge x
          + ((if x ∈ walk ++ [w.EdgeToSupersubstation s] then 1 else 0)
            - (if w.ReverseEdgeIndex x ∈ walk ++ [w.EdgeToSupersubstation s] then 1 else 0)) := by
    intro x hx
    rw [flowOnEdge_addFlowOnMultipleEdges _ 1 w hb hCE x hx, count_nodup _ hnd,
      count_nodup _ hnd, one_mul]
  have hdrain : ∀ s', w.IsSubstation s' = true →
      (w.AddFlowOnMultipleEdges (walk ++ [w.EdgeToSupersubstation s]) 1).FlowToSubstation s'
        = w.FlowToSubstation s' + if s' = s then 1 else 0 := by
    intro s' hs'
    obtain ⟨e1, e2, e3, _⟩ := drain_edge hb s' hs'
    unfold FlowToSubstation
    rw [t9, hflow _ e1]
    have hrev : w.ReverseEdgeIndex (w.EdgeToSupersubstation s')
        ∉ walk ++ [w.EdgeToSupersubstation s] := by
      intro h
      have h1 := hstart _ h
      rw [(hb.reverse_endpoints _ e1).1, e3] at h1
      exact absurd h1 (by decide)
    rw [if_neg hrev]
    by_cases c : s' = s
    · subst c
      rw [if_pos (List.mem_append_right _ (List.mem_singleton_self _)), if_pos rfl]
      ring
    · have hnot : w.EdgeToSupersubstation s' ∉ walk ++ [w.EdgeToSupersubstation s] := by
        intro h
        rcases List.mem_append.mp h with h | h
        · have h1 := (hwalk _ h).2.2
          rw [e2, isTurbine_false_of_isSubstation w s' hs'] at h1
          exact absurd h1 (by decide)
        · rw [List.mem_singleton] at h
          have h1 := congrArg w.StartVertex h
          rw [e2, d2] at h1
          exact c h1
      rw [if_neg hnot, if_neg c]
      ring
  refine ⟨hst, ?_, ?_, ?_, ?_, ?_, ?_⟩
  · intro x hx
    rw [edgeBound_congr hst, hflow x hx]
    have hinvx := ReverseEdgeIndex_involutive w x (by omega)
    by_cases c1 : x ∈ walk ++ [w.EdgeToSupersubstation s] <;>
      by_cases c2 : w.ReverseEdgeIndex x ∈ walk ++ [w.EdgeToSupersubstation s]
    · rw [if_pos c1, if_pos c2, sub_self, add_zero]; exact hbound x hx
    · rw [if_pos c1, if_neg c2, sub_zero]; exact (haug x c1).1
    · rw [if_neg c1, if_pos c2]
      have := (haug _ c2).2
      rw [hinvx] at this
      have e1 : w.FlowOnEdge x + ((0 : Int) - 1) = w.FlowOnEdge x - 1 := by ring
      rw [e1]; exact this
    · rw [if_neg c1, if_neg c2, sub_self, add_zero]; exact hbound x hx
  · intro v hv
    rw [outSum_addFlowOnMultipleEdges _ 1 v w hb hCE, List.map_append, List.map_append,
      List.map_singleton, List.map_singleton, d2]
    cases walk with
    | nil => exact absurd rfl hne
    | cons e0 rest =>
      have hV := chain_endpoints w e0 rest hch
      rw [hlast] at hV
      have hh : w.StartVertex e0 = t := hhead
      rw [hV, hh, List.count_cons, List.count_append]
      have hz : List.count v [w.EndVertex (w.EdgeToSupersubstation s)] = 0 := by
        apply List.count_eq_zero_of_not_mem
        intro h
        rw [List.mem_singleton] at h
        rw [h, d3] at hv
        exact absurd hv (by decide)
      rw [hz]
      by_cases c : v = t
      · rw [if_pos c, if_pos (by simpa using c.symm)]
        push_cast
        ring
      · rw [if_neg c, if_neg (by simpa using fun h : t = v => c h.symm)]
        push_cast
        ring
  · have hmap : inst.substations.map
          (w.AddFlowOnMultipleEdges (walk ++ [w.EdgeToSupersubstation s]) 1).FlowToSubstation
        = inst.substations.map fun s' =>
            w.FlowToSubstation s' + if s' = s then (1 : Int) else 0 := by
      apply List.map_congr_left
      intro s' hs'
      exact hdrain s' ((hb.isSubstation_iff s').2 hs')
    rw [hmap, List.sum_map_add, sum_indicator, count_nodup _ (substations_nodup inst),
      if_pos ((hb.isSubstation_iff s).1 hs)]
  · intro e he
    rw [hflow e (hwalk e he).1, if_pos (List.mem_append_left _ he), if_neg (hrevw e he)]
    ring
  · rw [hdrain s hs, if_pos rfl]
  · intro e he c1 c2
    rw [hflow e he, if_neg c1, if_neg c2]
    ring

/-! ## The loop over the turbines -/

theorem initializeFlowLoop_cons
    (pop : List DijkstraEntry → Option (DijkstraEntry × List DijkstraEntry))
    (len : WindfarmResidual → Nat → ℚ) (target turbine : Nat) (rest : List Nat)
    (w : WindfarmResidual) (d : Dijkstra) :
    NonCollecting.InitializeFlowLoop pop len target (turbine :: rest) w d
      = match Dijkstra.Run pop len w
            { d with startVertex := turbine, targetVertex := target } with
        | none => none
        | some (returnCode, dijkstra) =>
          if returnCode = ReturnCode.INFEASIBLE then
            some (ReturnCode.NO_FEASIBLE_SOLUTION_FOUND, w, dijkstra)
          else if !(w.IsSubstation dijkstra.targetVertex
              && w.HasFreeSubstationCapacity dijkstra.targetVertex) then none
          else
            match Dijkstra.ExtractWalk w dijkstra with
            | none => none
            | some walk =>
              if walk.getLast?.map w.EndVertex ≠ some dijkstra.targetVertex then none
              else
                NonCollecting.InitializeFlowLoop pop len target rest
                  (NonCollecting.UpdateFlowOnWalk w walk dijkstra.targetVertex) dijkstra :=
  rfl

/-- One turbine of `InitializeFlow`: when the loop goes on after the turbine, `Run` has
returned `SUCCESS` and the walk extracted is a route from the turbine to the substation that
`Run` found. -/
theorem initializeFlow_route (inst : Instance) (w0 w : WindfarmResidual)
    (pop : List DijkstraEntry → Option (DijkstraEntry × List DijkstraEntry))
    (len : WindfarmResidual → Nat → ℚ) (s s' : Dijkstra) (code : ReturnCode) (walk : List Nat)
    (h0 : WindfarmResidual.ofInstance inst = some w0) (hw : w.IsStateOf w0)
    (hpop : Dijkstra.PopsMinimum pop) (hlen : ∀ e, 0 ≤ len w e)
    (hsd : s.dist.length = w.NumberOfVertices) (hsp : s.parent.length = w.NumberOfVertices)
    (hturbine : s.startVertex ∈ inst.turbines)
    (hrun : Dijkstra.Run pop len w s = some (code, s'))
    (hcode : code ≠ ReturnCode.INFEASIBLE)
    (hsub : w.IsSubstation s'.targetVertex = true)
    (hfree : w.HasFreeSubstationCapacity s'.targetVertex = true)
    (hwalk : Dijkstra.ExtractWalk w s' = some walk) :
    NonCollecting.IsRoute w s.startVertex s'.targetVertex walk
      ∧ s'.dist.length = w.NumberOfVertices ∧ s'.parent.length = w.NumberOfVertices := by
  have hb : Built inst w :=
    WindfarmResidual.Built_of_isStateOf inst w w0 (WindfarmResidual.ofInstance_spec inst w0 h0).1 hw
  have hstart : s.startVertex < w.NumberOfVertices := by
    rw [hb.numberOfVertices]
    have := ((mem_turbines_iff inst _).1 hturbine).1
    omega
  have hT : w.IsTurbine s.startVertex = true := hb.isTurbine_of_mem _ hturbine
  have hsuccess : code = ReturnCode.SUCCESS := by
    obtain ⟨code', s'', S', s1, r1, _, _, _, _, _, _, r8⟩ :=
      Dijkstra.run_spec pop hpop len w hlen (built_outgoing hb) (built_edge_outgoing hb) s hsd
        hsp hstart
    rw [hrun] at r1
    simp only [Option.some.injEq, Prod.mk.injEq] at r1
    obtain ⟨rc, rs⟩ := r1
    subst rc rs
    rcases r8 with ⟨_, _, _, _, _, _, hc, _⟩ | ⟨_, hend⟩
    · exact hc
    · unfold Dijkstra.RunEnd at hend
      split_ifs at hend
      · cases hl : s1.lastFreeSubstationSettled with
        | none =>
          rw [hl] at hend
          simp only [Prod.mk.injEq] at hend
          exact absurd hend.1 hcode
        | some v =>
          rw [hl] at hend
          simp only [Prod.mk.injEq] at hend
          exact hend.1
      · simp only [Prod.mk.injEq] at hend
        exact absurd hend.1 hcode
  subst hsuccess
  have hne : s'.targetVertex ≠ s.startVertex := by
    intro h
    rw [h] at hsub
    rw [isTurbine_false_of_isSubstation w _ hsub] at hT
    exact absurd hT (by decide)
  obtain ⟨walk', k1, k2, k3, k4, k5, k6, k7⟩ :=
    extractWalk_path inst w0 w pop len s s' h0 hw hpop hlen hsd hsp hstart hT hrun hne
  rw [hwalk] at k1
  simp only [Option.some.injEq] at k1
  subst k1
  obtain ⟨S', s1, hinv, _, _, r5, r6, _⟩ :=
    run_success pop hpop len w hlen (built_outgoing hb) (built_edge_outgoing hb) s s' hsd hsp
      hstart hrun
  exact ⟨⟨k2, k3, k4, hsub, hfree, k5, k6, k7⟩, by rw [r5]; exact hinv.sizeDist,
    by rw [r6]; exact hinv.sizeParent⟩

/-- The loop of `InitializeFlow` over the turbines `ts` that are still to be routed: from a
flow that keeps the bounds on the edges, has the outgoing flow `1` at the turbines routed
before and `0` at the other turbines and at the substations, a run of the loop that returns
`SUCCESS` leads to a feasible flow. -/
theorem initializeFlowLoop_spec (inst : Instance) (w0 : WindfarmResidual)
    (pop : List DijkstraEntry → Option (DijkstraEntry × List DijkstraEntry))
    (len : WindfarmResidual → Nat → ℚ) (target : Nat)
    (h0 : WindfarmResidual.ofInstance inst = some w0)
    (hpop : Dijkstra.PopsMinimum pop)
    (hlen : ∀ w : WindfarmResidual, w.IsStateOf w0 → ∀ e, 0 ≤ len w e)
    (w' : WindfarmResidual) (d' : Dijkstra) :
    ∀ (ts : List Nat) (w : WindfarmResidual) (d : Dijkstra), w.IsStateOf w0 → ts.Nodup →
      (∀ t ∈ ts, t ∈ inst.turbines) →
      d.dist.length = w0.NumberOfVertices → d.parent.length = w0.NumberOfVertices →
      (∀ e, e < w.NumberOfEdges → EdgeBound w e (w.FlowOnEdge e)) →
      (∀ t ∈ inst.turbines, outSum w t = if t ∈ ts then 0 else 1) →
      (∀ s ∈ inst.substations, outSum w s = 0) →
      (inst.substations.map w.FlowToSubstation).sum + (ts.length : Int)
        = (inst.turbines.length : Int) →
      NonCollecting.InitializeFlowLoop pop len target ts w d
        = some (ReturnCode.SUCCESS, w', d') →
      w'.IsStateOf w0 ∧ FeasibleFlow w'
        ∧ (inst.substations.map w'.FlowToSubstation).sum = (inst.turbines.length : Int)
        ∧ NonCollecting.Routed ts w w' := by
  have hb0 : Built inst w0 := (WindfarmResidual.ofInstance_spec inst w0 h0).1
  intro ts
  induction ts with
  | nil =>
    intro w d hw _ _ _ _ hbound hturb hsubs hsum hrun
    have hb : Built inst w := WindfarmResidual.Built_of_isStateOf inst w w0 hb0 hw
    have hrun' : some (ReturnCode.SUCCESS, w, d) = some (ReturnCode.SUCCESS, w', d') := hrun
    simp only [Option.some.injEq, Prod.mk.injEq, true_and] at hrun'
    obtain ⟨hw', _⟩ := hrun'
    subst hw'
    refine ⟨hw, ⟨hbound, ?_, ?_⟩, ?_, rfl⟩
    · intro t ht
      rw [hb.turbines_eq] at ht
      rw [hturb t ht, if_neg (List.not_mem_nil _)]
    · intro s hs
      rw [hb.substations_eq] at hs
      exact hsubs s hs
    · have := hsum
      rw [List.length_nil] at this
      push_cast at this
      omega
  | cons t rest ih =>
    intro w d hw hnd hmem hsd hsp hbound hturb hsubs hsum hrun
    have hb : Built inst w := WindfarmResidual.Built_of_isStateOf inst w w0 hb0 hw
    obtain ⟨_, _, _, _, _, _, _, _, _, _, t11, t12, _⟩ := IsStateOf_topology hw
    rw [initializeFlowLoop_cons] at hrun
    cases hR : Dijkstra.Run pop len w { d with startVertex := t, targetVertex := target } with
    | none =>
      rw [hR] at hrun
      exact absurd hrun (by simp)
    | some r =>
      obtain ⟨code, d1⟩ := r
      rw [hR] at hrun
      simp only at hrun
      by_cases c1 : code = ReturnCode.INFEASIBLE
      · rw [if_pos c1] at hrun
        simp only [Option.some.injEq, Prod.mk.injEq] at hrun
        exact absurd hrun.1 (by decide)
      · rw [if_neg c1] at hrun
        by_cases c2 : (!(w.IsSubstation d1.targetVertex
            && w.HasFreeSubstationCapacity d1.targetVertex)) = true
        · rw [if_pos c2] at hrun
          exact absurd hrun (by simp)
        · rw [if_neg c2] at hrun
          have hab : (w.IsSubstation d1.targetVertex
              && w.HasFreeSubstationCapacity d1.targetVertex) = true := by
            cases h : (w.IsSubstation d1.targetVertex
                && w.HasFreeSubstationCapacity d1.targetVertex) with
            | true => rfl
            | false => exact absurd (by rw [h]; rfl) c2
          rw [Bool.and_eq_true] at hab
          cases hE : Dijkstra.ExtractWalk w d1 with
          | none =>
            rw [hE] at hrun
            exact absurd hrun (by simp)
          | some walk =>
            rw [hE] at hrun
            simp only at hrun
            by_cases c3 : walk.getLast?.map w.EndVertex ≠ some d1.targetVertex
            · rw [if_pos c3] at hrun
              exact absurd hrun (by simp)
            · rw [if_neg c3] at hrun
              have htmem : t ∈ inst.turbines := hmem t (List.mem_cons_self _ _)
              obtain ⟨hroute, hsd1, hsp1⟩ :=
                initializeFlow_route inst w0 w pop len
                  { d with startVertex := t, targetVertex := target } d1 code walk h0 hw hpop
                  (hlen w hw) (by rw [t12]; exact hsd) (by rw [t12]; exact hsp) htmem hR c1
                  hab.1 hab.2 hE
              have hroute' : NonCollecting.IsRoute w t d1.targetVertex walk := hroute
              obtain ⟨u1, u2, u3, u4, u5, u6, u7⟩ :=
                updateFlowOnWalk_spec hb t d1.targetVertex walk hroute' hbound
              obtain ⟨_, _, _, _, _, _, _, _, _, _, v11, _⟩ := IsStateOf_topology u1
              have hT : w.IsTurbine t = true := hb.isTurbine_of_mem t htmem
              obtain ⟨i1, i2, i3, i4⟩ :=
                ih (NonCollecting.UpdateFlowOnWalk w walk d1.targetVertex) d1
                  (IsStateOf_trans u1 hw) (List.nodup_cons.mp hnd).2
                  (fun x hx => hmem x (List.mem_cons_of_mem _ hx))
                  (by rw [hsd1, t12]) (by rw [hsp1, t12])
                  (by rw [v11]; exact u2)
                  (by
                    intro x hx
                    rw [u3 x (isSuperSubstation_false_of_isTurbine w x
                      (hb.isTurbine_of_mem x hx)), hturb x hx]
                    by_cases c : x = t
                    · subst c
                      rw [if_pos (List.mem_cons_self _ _), if_pos rfl,
                        if_neg (List.nodup_cons.mp hnd).1]
                      rfl
                    · rw [if_neg c]
                      by_cases c' : x ∈ rest
                      · rw [if_pos (List.mem_cons_of_mem _ c'), if_pos c']
                        rfl
                      · rw [if_neg c', if_neg (by
                          intro h
                          rcases List.mem_cons.mp h with h | h
                          · exact c h
                          · exact c' h)]
                        rfl)
                  (by
                    intro x hx
                    have hxs : w.IsSubstation x = true := (hb.isSubstation_iff x).2 hx
                    rw [u3 x (isSuperSubstation_false_of_isSubstation w x hxs), hsubs x hx,
                      if_neg (by
                        intro h
                        rw [h] at hxs
                        rw [isTurbine_false_of_isSubstation w t hxs] at hT
                        exact absurd hT (by decide))]
                    rfl)
                  (by
                    rw [u4]
                    rw [List.length_cons] at hsum
                    push_cast at hsum
                    omega)
                  hrun
              exact ⟨i1, i2, i3, walk, d1.targetVertex, hroute', u5, u6, u7, i4⟩

/-! ## The flow after `InitializeFlow` -/

theorem flowOnEdge_ofInstance (inst : Instance) (w0 : WindfarmResidual)
    (h0 : WindfarmResidual.ofInstance inst = some w0) (e : Nat) : w0.FlowOnEdge e = 0 := by
  obtain ⟨_, hfv, _⟩ := WindfarmResidual.ofInstance_spec inst w0 h0
  rw [FlowOnEdge_eq, hfv, getD_replicate_eq]
  split_ifs <;> simp

/-- C20 (counterexample): on scenario S1 with a second substation `2` of capacity `-1`,
`InitializeFlow` of `NonCollecting` with the target `ANY_FREE_SUBSTATION` returns `SUCCESS`
from the zero flow, with the flow `1` on the edge `0` and on the edge from the substation `1`
to the super substation; the flow `0` into the substation `2` is above its capacity, and
`AssertFeasibleFlow` fails. -/
theorem initializeFlow_infeasible_for_negative_capacity :
    ((WindfarmResidual.ofInstance spareInstance).bind fun w0 =>
        (NonCollecting.InitializeFlow Dijkstra.popMinimum EuclideanLength
          Dijkstra.ANY_FREE_SUBSTATION w0 (Dijkstra.create w0)).map fun r =>
            (r.1, r.2.1.flowValues, r.2.1.FlowToSubstation 2, r.2.1.VertexCapacity 2,
              AssertFeasibleFlow r.2.1))
      = some (ReturnCode.SUCCESS, [1, 1, 0], 0, -1, false) := by
  with_unfolding_all rfl

/-- C20 (amended): on the residual graph built from an instance with no negative edge
length, no negative substation capacity and no negative maximum cable capacity, which
carries the zero flow, whenever `InitializeFlow` of `NonCollecting` returns `SUCCESS` the
resulting flow satisfies `AssertFeasibleFlow`, the flows from the substations to the super
substation sum to the number of turbines, and the turbines have been routed one after the
other, each along a path to a substation with free capacity on which, and on the edge from
the substation to the super substation, the flow has grown by exactly `1`. -/
theorem initializeFlow_feasible (inst : Instance) (w0 w' : WindfarmResidual)
    (pop : List DijkstraEntry → Option (DijkstraEntry × List DijkstraEntry))
    (len : WindfarmResidual → Nat → ℚ) (target : Nat) (d d' : Dijkstra)
    (h0 : WindfarmResidual.ofInstance inst = some w0)
    (hpop : Dijkstra.PopsMinimum pop)
    (hlen : ∀ w : WindfarmResidual, w.IsStateOf w0 → ∀ e, 0 ≤ len w e)
    (hcap : 0 ≤ w0.cabletypes.MaximumCapacity)
    (hsub : ∀ s ∈ w0.Substations, 0 ≤ w0.VertexCapacity s)
    (hsd : d.dist.length = w0.NumberOfVertices) (hsp : d.parent.length = w0.NumberOfVertices)
    (hrun : NonCollecting.InitializeFlow pop len target w0 d
      = some (ReturnCode.SUCCESS, w', d')) :
    AssertFeasibleFlow w' = true
      ∧ (w'.Substations.map w'.FlowToSubstation).sum = (w'.NumberOfTurbines : Int)
      ∧ NonCollecting.Routed w0.Turbines w0 w' := by
  have hb0 : Built inst w0 := (WindfarmResidual.ofInstance_spec inst w0 h0).1
  have hzero := flowOnEdge_ofInstance inst w0 h0
  have hfun : w0.FlowOnEdge = fun _ => 0 := funext hzero
  have hout : ∀ v, outSum w0 v = 0 := by
    intro v
    unfold outSum
    rw [hfun]
    simp
  unfold NonCollecting.InitializeFlow at hrun
  rw [hb0.turbines_eq] at hrun ⊢
  obtain ⟨i1, i2, i3, i4⟩ :=
    initializeFlowLoop_spec inst w0 pop len target h0 hpop hlen w' d' inst.turbines w0 d
      (IsStateOf_refl w0) (turbines_nodup inst) (fun t ht => ht) hsd hsp
      (by
        intro e _
        rw [hzero e]
        unfold EdgeBound
        refine ⟨fun _ _ => hcap, fun a => ?_⟩
        have hs := hsub _ (by rw [hb0.substations_eq]; exact (hb0.isSubstation_iff _).1 a)
        split_ifs
        · exact le_refl _
        · exact ⟨le_refl _, hs⟩
        · rfl)
      (by
        intro t ht
        rw [hout t, if_pos ht])
      (fun s _ => hout s)
      (by
        have : inst.substations.map w0.FlowToSubstation = inst.substations.map fun _ => 0 := by
          apply List.map_congr_left
          intro s _
          exact hzero _
        rw [this]
        simp)
      hrun
  have hb : Built inst w' := WindfarmResidual.Built_of_isStateOf inst w' w0 hb0 i1
  refine ⟨(assertFeasibleFlow_iff hb).2 i2, ?_, i4⟩
  rw [hb.substations_eq, i3]
  show ((inst.turbines.length : Nat) : Int) = ((w'.numberOfTurbines : Nat) : Int)
  rw [hb.base.nT]

theorem pairGraph_length_nonneg (w : WindfarmResidual)
    (hw : w.IsStateOf (pairGraph [0, 0] [0, 0, 0, 0])) (e : Nat) : 0 ≤ EuclideanLength w e := by
  obtain ⟨_, _, t3, _⟩ := IsStateOf_topology hw
  unfold EuclideanLength
  rw [t3]
  rcases e with _ | _ | _ | _ | e
  · with_unfolding_all decide
  · with_unfolding_all decide
  · with_unfolding_all decide
  · with_unfolding_all decide
  · exact le_of_eq rfl

theorem initializeFlow_feasible_witness :
    NonCollecting.InitializeFlow Dijkstra.popMinimum EuclideanLength
        Dijkstra.ANY_FREE_SUBSTATION (pairGraph [0, 0] [0, 0, 0, 0])
        (Dijkstra.create (pairGraph [0, 0] [0, 0, 0, 0]))
      = some (ReturnCode.SUCCESS, pairGraph [1, 1] [0, 0, 0, 0],
          { startVertex := 0, targetVertex := 1, numberOfSettledSubstations := 0,
            lastFreeSubstationSettled := none, dist := [0, 10, ⊤],
            parent := [none, some 0, none], queue := [] })
      ∧ (pairGraph [1, 1] [0, 0, 0, 0]).FlowOnEdge 0 = 1
      ∧ (pairGraph [1, 1] [0, 0, 0, 0]).FlowToSubstation 1 = 1
      ∧ (pairGraph [1, 1] [0, 0, 0, 0]).ComputeTotalCostOfFlow = 200
      ∧ AssertFeasibleFlow (pairGraph [1, 1] [0, 0, 0, 0]) = true
      ∧ ((pairGraph [1, 1] [0, 0, 0, 0]).Substations.map
          (pairGraph [1, 1] [0, 0, 0, 0]).FlowToSubstation).sum
        = ((pairGraph [1, 1] [0, 0, 0, 0]).NumberOfTurbines : Int)
      ∧ NonCollecting.Routed (pairGraph [0, 0] [0, 0, 0, 0]).Turbines
          (pairGraph [0, 0] [0, 0, 0, 0]) (pairGraph [1, 1] [0, 0, 0, 0]) :=
  ⟨by with_unfolding_all rfl, by decide, by decide, by with_unfolding_all rfl,
    initializeFlow_feasible pairInstance (pairGraph [0, 0] [0, 0, 0, 0])
      (pairGraph [1, 1] [0, 0, 0, 0]) Dijkstra.popMinimum EuclideanLength
      Dijkstra.ANY_FREE_SUBSTATION (Dijkstra.create (pairGraph [0, 0] [0, 0, 0, 0]))
      { startVertex := 0, targetVertex := 1, numberOfSettledSubstations := 0,
        lastFreeSubstationSettled := none, dist := [0, 10, ⊤],
        parent := [none, some 0, none], queue := [] }
      pair_ofInstance popMinimum_popsMinimum pairGraph_length_nonneg (by decide)
      (by decide) rfl rfl (by with_unfolding_all rfl)⟩

end wcp

/-! # The laws of the distance labels behind the cost of the extracted walks -/

namespace wcp

theorem oneDistanceLabel_chain : ChainLaws oneDistanceLabel (fun _ => True) := by
  refine ⟨trivial, fun _ _ _ _ => trivial, ?_, ?_, ?_, ?_⟩
  · intro l d p
    show (OneDistanceLabel.Update l d p).2 = OneDistanceLabel.WouldUpdate l d p
    unfold OneDistanceLabel.Update OneDistanceLabel.WouldUpdate
    split_ifs with h
    · simp [h]
    · simp [h]
  · intro l d p w e _
    dsimp only [oneDistanceLabel]
    unfold OneDistanceLabel.Update OneDistanceLabel.Distance OneDistanceLabel.Parent
    split_ifs with h
    · right; exact ⟨rfl, rfl, rfl, h⟩
    · left; exact ⟨rfl, rfl⟩
  · intro l d d' p h1 h2
    change OneDistanceLabel.WouldUpdate l d p = true at h1
    change OneDistanceLabel.WouldUpdate l d' p = false at h2
    unfold OneDistanceLabel.WouldUpdate at h1 h2
    simp only [decide_eq_true_eq, decide_eq_false_iff_not, not_lt] at h1 h2
    exact lt_of_lt_of_le h1 h2
  · intro w e
    rfl

theorem twoDistancesLabel_chain : ChainLaws twoDistancesLabel TwoDistancesLabel.ordered := by
  refine ⟨le_refl _, ?_, ?_, ?_, ?_, ?_⟩
  · intro l d p hok
    show ((TwoDistancesLabel.Update l d p).1).dist ≤ ((TwoDistancesLabel.Update l d p).1).distSecond
    unfold TwoDistancesLabel.ordered at hok
    unfold TwoDistancesLabel.Update
    split_ifs with h1 h2 h3
    · exact le_trans (le_of_lt h1) hok
    · exact le_of_lt h1
    · exact not_lt.mp h1
    · exact hok
  · intro l d p
    show (TwoDistancesLabel.Update l d p).2 = TwoDistancesLabel.WouldUpdate l d p
    unfold TwoDistancesLabel.Update TwoDistancesLabel.WouldUpdate
    split_ifs with h1 h2 h3
    · simp [h1]
    · simp [h1]
    · have h4 : some p ≠ l.parent := fun h => h3.2 h.symm
      simp [h1, h3.1, h4]
    · simp only [h1, decide_False, Bool.false_or]
      by_cases h4 : d < l.distSecond
      · have h5 : l.parent = some p := by
          by_contra h5
          exact h3 ⟨h4, h5⟩
        simp [h5]
      · simp [h4]
  · intro l d p w e hok
    dsimp only [twoDistancesLabel]
    unfold TwoDistancesLabel.ordered at hok
    unfold TwoDistancesLabel.Update TwoDistancesLabel.Distance TwoDistancesLabel.Parent
      TwoDistancesLabel.DistanceForbidding TwoDistancesLabel.ParentForbidding
    by_cases h1 : d < l.dist
    · rw [if_pos h1]
      by_cases h2 : l.parent = some p
      · rw [if_pos h2]
        dsimp only
        by_cases h3 : l.parent = some (w.ReverseEdgeIndex e)
        · left
          rw [if_pos h3, if_pos h3]
          exact ⟨rfl, rfl⟩
        · right
          rw [if_neg h3, if_neg h3, if_neg h3]
          exact ⟨rfl, rfl, h2, h1⟩
      · rw [if_neg h2]
        dsimp only
        by_cases h3 : some p = some (w.ReverseEdgeIndex e)
        · left
          have h4 : l.parent ≠ some (w.ReverseEdgeIndex e) := fun h => h2 (h.trans h3.symm)
          rw [if_pos h3, if_pos h3, if_neg h4, if_neg h4]
          exact ⟨rfl, rfl⟩
        · right
          rw [if_neg h3, if_neg h3]
          refine ⟨rfl, rfl, rfl, ?_⟩
          split_ifs
          · exact lt_of_lt_of_le h1 hok
          · exact h1
    · rw [if_neg h1]
      by_cases h2 : d < l.distSecond ∧ l.parent ≠ some p
      · rw [if_pos h2]
        dsimp only
        by_cases h3 : l.parent = some (w.ReverseEdgeIndex e)
        · right
          rw [if_pos h3, if_pos h3, if_pos h3]
          exact ⟨rfl, rfl, rfl, h2.1⟩
        · left
          rw [if_neg h3, if_neg h3, if_neg h3, if_neg h3]
          exact ⟨rfl, rfl⟩
      · rw [if_neg h2]
        left
        exact ⟨rfl, rfl⟩
  · intro l d d' p h1 h2
    change TwoDistancesLabel.WouldUpdate l d p = true at h1
    change TwoDistancesLabel.WouldUpdate l d' p = false at h2
    unfold TwoDistancesLabel.WouldUpdate at h1 h2
    simp only [Bool.or_eq_true, Bool.and_eq_true, decide_eq_true_eq, Bool.or_eq_false_iff,
      Bool.and_eq_false_iff, decide_eq_false_iff_not, not_lt, ne_eq, not_not] at h1 h2
    rcases h1 with h1 | ⟨h1, h3⟩
    · exact lt_of_lt_of_le h1 h2.1
    · rcases h2.2 with h4 | h4
      · exact lt_of_lt_of_le h1 h4
      · exact absurd h4 h3
  · intro w e
    rfl

/-- The label of `OneDistanceLabel` offers the same distance and the same parent for every
outgoing edge. -/
theorem oneDistanceLabel_uniform (l : OneDistanceLabel) (w : WindfarmResidual) (e e' : Nat) :
    oneDistanceLabel.Distance l w e = oneDistanceLabel.Distance l w e'
      ∧ oneDistanceLabel.Parent l w e = oneDistanceLabel.Parent l w e' :=
  ⟨rfl, rfl⟩

theorem oneDistanceLabel_stored_length (l : OneDistanceLabel) :
    (OneDistanceLabel.stored l).length ≤ 1 := by
  unfold OneDistanceLabel.stored
  cases l.parent <;> simp

theorem twoDistancesLabel_stored_length (l : TwoDistancesLabel) :
    (TwoDistancesLabel.stored l).length ≤ 2 := by
  unfold TwoDistancesLabel.stored
  cases l.parent <;> cases l.parentSecond <;> simp

end wcp

/-! # The invariant of `Run` on the chain of parent edges -/

namespace wcp

theorem neg_of_add_lt (a b : WithTop ℚ) (h : a + b < b) : a < 0 := by
  induction a using WithTop.recTopCoe with
  | top =>
    rw [WithTop.top_add] at h
    exact absurd h (not_lt.mpr le_top)
  | coe x =>
    induction b using WithTop.recTopCoe with
    | top =>
      rw [WithTop.add_top] at h
      exact absurd h (lt_irrefl _)
    | coe y =>
      rw [← WithTop.coe_add, WithTop.coe_lt_coe] at h
      rw [← WithTop.coe_zero, WithTop.coe_lt_coe]
      linarith

theorem ne_top_of_add_le (a b c : WithTop ℚ) (h : a + b ≤ c) (hc : c ≠ ⊤) : a ≠ ⊤ ∧ b ≠ ⊤ := by
  constructor
  · intro ha
    rw [ha, WithTop.top_add, top_le_iff] at h
    exact hc h
  · intro hb
    rw [hb, WithTop.add_top, top_le_iff] at h
    exact hc h

namespace BellmanFord

variable {L : Type}

theorem relaxEdgeStep_labels (ops : LabelType L) (w : WindfarmResidual) (v : Nat)
    (st : BellmanFord L × Bool) (e : Nat) (hs : st.1.SizedFor w)
    (hx : w.EndVertex e < w.NumberOfVertices) :
    (∀ x, LabelAt ops (RelaxEdgeStep ops w v st e).1 x
        = if w.EndVertex e = x then
            (ops.Update (LabelAt ops st.1 (w.EndVertex e))
              (ops.Distance (LabelAt ops st.1 v) w e + w.ResidualCostOnEdge e) e).1
          else LabelAt ops st.1 x)
      ∧ (∀ x, (RelaxEdgeStep ops w v st e).1.updatedSinceLastTime.getD x false
          = if w.EndVertex e = x then
              (st.1.updatedSinceLastTime.getD (w.EndVertex e) false
                || (ops.Update (LabelAt ops st.1 (w.EndVertex e))
                  (ops.Distance (LabelAt ops st.1 v) w e + w.ResidualCostOnEdge e) e).2)
            else st.1.updatedSinceLastTime.getD x false)
      ∧ (RelaxEdgeStep ops w v st e).1.SizedFor w := by
  obtain ⟨hl, hi, hu⟩ := hs
  have hxl : w.EndVertex e < st.1.labels.length := by rw [hl]; exact hx
  have hxu : w.EndVertex e < st.1.updatedSinceLastTime.length := by rw [hu]; exact hx
  rw [relaxEdgeStep_eq]
  refine ⟨?_, ?_, ⟨?_, hi, ?_⟩⟩
  · intro x
    unfold LabelAt
    simp only
    rw [getD_set_eq, if_pos hxl]
  · intro x
    simp only
    rw [getD_set_eq, if_pos hxu]
  · simp only
    rw [List.length_set]; exact hl
  · simp only
    rw [List.length_set]; exact hu

/-- One edge of `RelaxOutgoingEdges` keeps the invariant. -/
theorem chainMid_relaxEdge (ops : LabelType L) (ok : L → Prop) (laws : LabelLaws ops)
    (claws : ChainLaws ops ok) (w : WindfarmResidual) (hw : ProperOutgoingEdges w)
    (n u : Nat) (hu : u < w.NumberOfVertices) (hun : n % w.NumberOfVertices = u)
    (done : List Nat) (st : BellmanFord L × Bool) (c : Nat → Nat) (q : Nat)
    (hq : q ∈ w.OutgoingEdges u) (hinv : ChainMid ops ok w n u done st.1 c) :
    ∃ c', ChainMid ops ok w n u (done ++ [q]) (RelaxEdgeStep ops w u st q).1 c' := by
  obtain ⟨hqE, hqS, hqV, hqN⟩ := hw u hu q hq
  obtain ⟨hlab, hflag, hsz⟩ := relaxEdgeStep_labels ops w u st q hinv.core.sized hqV
  generalize (RelaxEdgeStep ops w u st q).1 = s' at hlab hflag hsz ⊢
  obtain ⟨s, b⟩ := st
  simp only at hinv hlab hflag
  obtain ⟨⟨_, hok, hini, hfl, hun0⟩, hstamp, hdirty⟩ := hinv
  have hcand : ops.Distance (LabelAt ops s u) w q = chainDistance ops w s q := by
    unfold chainDistance; rw [hqS]
  rw [hcand] at hlab hflag
  have hokl := hok (w.EndVertex q)
  have hiniq := hini q hqE
  have hrelq : IsRelaxable ops w s u q
      = ops.WouldUpdate (LabelAt ops s (w.EndVertex q))
          (chainDistance ops w s q + w.ResidualCostOnEdge q) q := by
    unfold IsRelaxable; rw [hcand]
  have hlabel : ∀ x, w.EndVertex q = x → LabelAt ops s x = LabelAt ops s (w.EndVertex q) := by
    intro x hx; rw [hx]
  generalize LabelAt ops s (w.EndVertex q) = l at hlab hflag hokl hiniq hrelq hlabel
  have hdq : chainDistance ops w s q + w.ResidualCostOnEdge q
      = chainDistance ops w s q + w.ResidualCostOnEdge q := rfl
  generalize hcd : chainDistance ops w s q + w.ResidualCostOnEdge q = cand
    at hlab hflag hrelq
  have hsel := fun e => claws.select l cand q w e hokl
  have hwould := claws.would l cand q
  have hsett := laws.settled l cand q
  have hmono := fun d p => laws.monotone l d p cand q
  have hok' := claws.okUpdate l cand q hokl
  have hanti := fun h => claws.antitone l cand (w.ResidualCostOnEdge q) q h hiniq
  rw [← hwould] at hrelq hanti
  generalize ops.Update l cand q = U at hlab hflag hsel hsett hmono hok' hrelq hanti
  clear hwould hdq
  -- the distances and parents of the chain after the update
  have hkey : ∀ e, chainDistance ops w s' e
      = if w.EndVertex q = w.StartVertex e then ops.Distance U.1 w e
        else chainDistance ops w s e := by
    intro e
    unfold chainDistance
    rw [hlab]
    split_ifs <;> rfl
  have hpar : ∀ e, chainParent ops w s' e
      = if w.EndVertex q = w.StartVertex e then ops.Parent U.1 w e
        else chainParent ops w s e := by
    intro e
    unfold chainParent
    rw [hlab]
    split_ifs <;> rfl
  have hkeyOld : ∀ e, w.EndVertex q = w.StartVertex e →
      chainDistance ops w s e = ops.Distance l w e
        ∧ chainParent ops w s e = ops.Parent l w e := by
    intro e he
    unfold chainDistance chainParent
    rw [hlabel _ he]
    exact ⟨rfl, rfl⟩
  obtain ⟨c', hc'⟩ : ∃ c' : Nat → Nat, ∀ e, c' e
      = if w.EndVertex q = w.StartVertex e
          ∧ ¬ (ops.Distance U.1 w e = ops.Distance l w e
            ∧ ops.Parent U.1 w e = ops.Parent l w e)
        then n + 1 else c e := ⟨_, fun _ => rfl⟩
  refine ⟨c', ?_⟩
  have hcases' : ∀ e,
      (chainDistance ops w s' e = chainDistance ops w s e
          ∧ chainParent ops w s' e = chainParent ops w s e ∧ c' e = c e)
        ∨ (w.EndVertex q = w.StartVertex e ∧ U.2 = true
          ∧ chainDistance ops w s' e = cand ∧ chainParent ops w s' e = some q
          ∧ cand < chainDistance ops w s e ∧ c' e = n + 1) := by
    intro e
    rw [hc' e]
    by_cases h1 : w.EndVertex q = w.StartVertex e
    · obtain ⟨o1, o2⟩ := hkeyOld e h1
      rcases hsel e with ⟨a1, a2⟩ | ⟨a1, a2, a3, a4⟩
      · left
        rw [hkey, hpar, if_pos h1, if_pos h1, o1, o2, if_neg (fun h => h.2 ⟨a1, a2⟩)]
        exact ⟨a1, a2, rfl⟩
      · right
        rw [hkey, hpar, if_pos h1, if_pos h1, o1,
          if_pos ⟨h1, fun h => absurd (h.1 ▸ a2 ▸ a4) (lt_irrefl _)⟩]
        exact ⟨h1, a1, a2, a3, a4, rfl⟩
    · left
      rw [hkey, hpar, if_neg h1, if_neg h1, if_neg (fun h => h1 h.1)]
      exact ⟨rfl, rfl, rfl⟩
  clear hc'
  have hle : ∀ e, chainDistance ops w s' e ≤ chainDistance ops w s e ∧ c e ≤ c' e := by
    intro e
    rcases hcases' e with ⟨k1, _, k3⟩ | ⟨_, _, k3, _, k5, k6⟩
    · rw [k1, k3]
      exact ⟨le_refl _, le_refl _⟩
    · rw [k3, k6]
      exact ⟨le_of_lt k5, hstamp e⟩
  have hqsame : chainDistance ops w s' q = chainDistance ops w s q ∧ c' q = c q := by
    rcases hcases' q with ⟨k1, _, k3⟩ | ⟨k1, _⟩
    · exact ⟨k1, k3⟩
    · rw [hqS] at k1
      exact absurd k1 hqN
  have hrel : ∀ x e, w.StartVertex e = x →
      IsRelaxable ops w s' x e
        = ops.WouldUpdate (LabelAt ops s' (w.EndVertex e))
            (chainDistance ops w s' e + w.ResidualCostOnEdge e) e := by
    intro x e hx
    unfold IsRelaxable chainDistance
    rw [hx]
  have hrelOld : ∀ x e, w.StartVertex e = x →
      IsRelaxable ops w s x e
        = ops.WouldUpdate (LabelAt ops s (w.EndVertex e))
            (chainDistance ops w s e + w.ResidualCostOnEdge e) e := by
    intro x e hx
    unfold IsRelaxable chainDistance
    rw [hx]
  refine ⟨⟨hsz, ?_, ?_, ?_, ?_⟩, ?_, ?_⟩
  · intro v
    rw [hlab]
    split_ifs
    · exact hok'
    · exact hok v
  · intro p hp
    rw [hlab]
    split_ifs with h
    · have := hini p hp
      rw [hlabel _ h] at this
      exact hmono _ _ this
    · exact hini p hp
  · intro e he
    rcases hcases' e with ⟨k1, k2, k3⟩ | ⟨k1, k2, k3, k4, k5, k6⟩
    · rw [k3] at he
      obtain ⟨q0, p1, p2, p3, p4, p5, p6, p7, p8, p9⟩ := hfl e he
      obtain ⟨r1, r2⟩ := ne_top_of_add_le _ _ _ p6 p5
      refine ⟨q0, by rw [k2]; exact p1, p2, by rw [k3]; exact p3, p4, by rw [k1]; exact p5,
        ?_, ?_, ?_, lt_of_le_of_lt (hle q0).1 p9⟩
      · rw [k1]
        exact le_trans (add_le_add_right (hle q0).1 _) p6
      · rw [k1, k3]
        intro hlt
        rcases hcases' q0 with ⟨j1, _, j3⟩ | ⟨_, _, j3, _, j5, _⟩
        · rw [j1]
          rw [j3] at hlt
          exact p7 hlt
        · rw [j3]
          exact lt_of_lt_of_le (WithTop.add_lt_add_right r2 j5) p6
      · rw [k3]
        intro hlt
        have := p8 hlt
        have := (hle q0).2
        omega
    · have hrq : U.2 = true := k2
      have hT : IsRelaxable ops w s u q = true := by rw [hrelq]; exact hrq
      obtain ⟨_, d2, _⟩ := hdirty u hu q hq hT
      refine ⟨q, k4, k1, ?_, ?_, ?_, ?_, ?_, ?_, ?_⟩
      · rw [k6, hqS, Nat.add_sub_cancel, hun]
      · rw [hqS, ← k1]
        exact Ne.symm hqN
      · rw [k3]
        exact ne_top_of_lt k5
      · rw [k3, hqsame.1, hcd]
      · rw [k6, hqsame.2]
        intro hlt
        have := hstamp q
        omega
      · rw [k6, hqsame.2]
        intro hlt
        have hk : (n - w.NumberOfVertices) % w.NumberOfVertices = u := by
          have e1 : n = (n - w.NumberOfVertices) + w.NumberOfVertices := by omega
          rw [← hun]
          conv_rhs => rw [e1]
          rw [Nat.add_mod_right]
        have := d2 (n - w.NumberOfVertices) (by omega) hk
        omega
      · rw [hqsame.1]
        apply neg_of_add_lt _ (w.ResidualCostOnEdge q)
        rw [hcd]
        exact hanti hrq
  · intro e q0 he hp
    rcases hcases' e with ⟨k1, k2, k3⟩ | ⟨_, _, _, _, _, k6⟩
    · rw [k3] at he
      rw [k2] at hp
      rw [k1]
      exact hun0 e q0 he hp
    · rw [k6] at he
      exact absurd he (by omega)
  · intro e
    rcases hcases' e with ⟨_, _, k3⟩ | ⟨_, _, _, _, _, k6⟩
    · rw [k3]
      have := hstamp e
      omega
    · rw [k6]
  · intro x hx e he hre
    obtain ⟨eE, eS, eV, eN⟩ := hw x hx e he
    rw [hrel x e eS] at hre
    rcases hcases' e with ⟨k1, k2, k3⟩ | ⟨k1, k2, k3, k4, k5, k6⟩
    · have hold : IsRelaxable ops w s x e = true := by
        rw [hrelOld x e eS]
        cases hb : ops.WouldUpdate (LabelAt ops s (w.EndVertex e))
            (chainDistance ops w s e + w.ResidualCostOnEdge e) e with
        | true => rfl
        | false =>
          exfalso
          rw [k1, hlab] at hre
          split_ifs at hre with h
          · rw [hlabel _ h] at hb
            rw [hmono _ _ hb] at hre
            exact absurd hre (by decide)
          · rw [hb] at hre
            exact absurd hre (by decide)
      obtain ⟨f1, f2, f3⟩ := hdirty x hx e he hold
      refine ⟨?_, ?_, ?_⟩
      · rw [hflag]
        split_ifs with h
        · rw [h, f1]
          rfl
        · exact f1
      · rw [k3]
        exact f2
      · intro hxu hmem
        rw [List.mem_append, List.mem_singleton] at hmem
        rcases hmem with hmem | hmem
        · exact f3 hxu hmem
        · rw [hmem, hqsame.1, hcd, hlab, if_pos rfl, hsett] at hre
          exact absurd hre (by decide)
    · refine ⟨?_, ?_, ?_⟩
      · rw [hflag, if_pos (k1.trans eS), k2, Bool.or_true]
      · intro k hk _
        rw [k6]
        omega
      · intro hxu
        rw [← eS, ← k1] at hxu
        exact absurd hxu hqN

end BellmanFord

end wcp

/-! # The invariant of `Run` on the chain of parent edges: the loops -/

namespace wcp

namespace BellmanFord

variable {L : Type}

theorem chainCore_congr (ops : LabelType L) (ok : L → Prop) (w : WindfarmResidual)
    (s s' : BellmanFord L) (c : Nat → Nat) (h : s'.labels = s.labels) (hs : s'.SizedFor w)
    (hc : ChainCore ops ok w s c) : ChainCore ops ok w s' c := by
  have e1 : ∀ v, LabelAt ops s' v = LabelAt ops s v := by
    intro v; unfold LabelAt; rw [h]
  have e2 : ∀ e, chainDistance ops w s' e = chainDistance ops w s e := by
    intro e; unfold chainDistance; rw [e1]
  have e3 : ∀ e, chainParent ops w s' e = chainParent ops w s e := by
    intro e; unfold chainParent; rw [e1]
  refine ⟨hs, ?_, ?_, ?_, ?_⟩
  · intro v; rw [e1]; exact hc.ok v
  · intro p hp; rw [e1]; exact hc.initial p hp
  · intro e he
    have := hc.flagged e he
    unfold ChainLink at this ⊢
    simp only [e2, e3]
    exact this
  · intro e q he hq
    rw [e3] at hq
    rw [e2]
    exact hc.unflagged e q he hq

theorem chainMid_fold (ops : LabelType L) (ok : L → Prop) (laws : LabelLaws ops)
    (claws : ChainLaws ops ok) (w : WindfarmResidual) (hw : ProperOutgoingEdges w)
    (n u : Nat) (hu : u < w.NumberOfVertices) (hun : n % w.NumberOfVertices = u) :
    ∀ (es done : List Nat) (st : BellmanFord L × Bool) (c : Nat → Nat),
      (∀ e ∈ es, e ∈ w.OutgoingEdges u) → ChainMid ops ok w n u done st.1 c →
      ∃ c', ChainMid ops ok w n u (done ++ es) (es.foldl (RelaxEdgeStep ops w u) st).1 c' := by
  intro es
  induction es with
  | nil =>
    intro done st c _ hinv
    rw [List.append_nil]
    exact ⟨c, hinv⟩
  | cons e es ih =>
    intro done st c hes hinv
    obtain ⟨c1, h1⟩ :=
      chainMid_relaxEdge ops ok laws claws w hw n u hu hun done st c e
        (hes e (List.mem_cons_self _ _)) hinv
    obtain ⟨c2, h2⟩ :=
      ih (done ++ [e]) (RelaxEdgeStep ops w u st e) c1
        (fun f hf => hes f (List.mem_cons_of_mem _ hf)) h1
    rw [List.append_assoc] at h2
    exact ⟨c2, h2⟩

theorem relaxOutgoingEdges_frame (ops : LabelType L) (w : WindfarmResidual)
    (s : BellmanFord L) (v : Nat) :
    (RelaxOutgoingEdges ops w s v).labels
        = ((w.OutgoingEdges v).foldl (RelaxEdgeStep ops w v) (s, false)).1.labels
      ∧ (RelaxOutgoingEdges ops w s v).updatedSinceLastTime
        = ((w.OutgoingEdges v).foldl (RelaxEdgeStep ops w v) (s, false)).1.updatedSinceLastTime
      ∧ (RelaxOutgoingEdges ops w s v).indexOfWalkIncluded
        = ((w.OutgoingEdges v).foldl (RelaxEdgeStep ops w v) (s, false)).1.indexOfWalkIncluded := by
  unfold RelaxOutgoingEdges
  simp only
  split_ifs
  · exact ⟨rfl, rfl, rfl⟩
  · exact ⟨rfl, rfl, rfl⟩

theorem runStep_frame' (ops : LabelType L) (w : WindfarmResidual) (s : BellmanFord L)
    (u : Nat) :
    (s.updatedSinceLastTime.getD u false = true →
        (RunStep ops w s u).labels
            = ((w.OutgoingEdges u).foldl (RelaxEdgeStep ops w u) (s, false)).1.labels
          ∧ (RunStep ops w s u).updatedSinceLastTime
            = ((w.OutgoingEdges u).foldl (RelaxEdgeStep ops w u)
                (s, false)).1.updatedSinceLastTime.set u false
          ∧ (RunStep ops w s u).indexOfWalkIncluded
            = ((w.OutgoingEdges u).foldl (RelaxEdgeStep ops w u)
                (s, false)).1.indexOfWalkIncluded)
      ∧ (¬ s.updatedSinceLastTime.getD u false = true → RunStep ops w s u = s) := by
  obtain ⟨r1, r2, r3⟩ := relaxOutgoingEdges_frame ops w s u
  unfold RunStep
  constructor
  · intro hf
    rw [if_pos hf]
    refine ⟨r1, ?_, r3⟩
    show (RelaxOutgoingEdges ops w s u).updatedSinceLastTime.set u false = _
    rw [r2]
  · intro hf
    rw [if_neg hf]

/-- One visit of `Run` keeps the invariant. -/
theorem chainInv_runStep (ops : LabelType L) (ok : L → Prop) (laws : LabelLaws ops)
    (claws : ChainLaws ops ok) (w : WindfarmResidual) (hw : ProperOutgoingEdges w)
    (n u : Nat) (hu : u < w.NumberOfVertices) (hun : n % w.NumberOfVertices = u)
    (s : BellmanFord L) (c : Nat → Nat) (hinv : ChainInv ops ok w n s c) :
    ∃ c', ChainInv ops ok w (n + 1) (RunStep ops w s u) c' := by
  obtain ⟨hcore, hstamp, hdirty⟩ := hinv
  obtain ⟨hyes, hno⟩ := runStep_frame' ops w s u
  by_cases hf : s.updatedSinceLastTime.getD u false = true
  · obtain ⟨r1, r2, r3⟩ := hyes hf
    have hmid : ChainMid ops ok w n u [] (s, false).1 c := by
      refine ⟨hcore, fun e => by have := hstamp e; omega, ?_⟩
      intro x hx e he hre
      obtain ⟨f1, f2⟩ := hdirty x hx e he hre
      exact ⟨f1, f2, fun _ h => absurd h (List.not_mem_nil _)⟩
    obtain ⟨c1, ⟨k1, k2, k3⟩⟩ :=
      chainMid_fold ops ok laws claws w hw n u hu hun (w.OutgoingEdges u) [] (s, false) c
        (fun e he => he) hmid
    rw [List.nil_append] at k3
    generalize RunStep ops w s u = s2 at r1 r2 r3 ⊢
    generalize ((w.OutgoingEdges u).foldl (RelaxEdgeStep ops w u) (s, false)).1 = s1
      at r1 r2 r3 k1 k3
    have hsz : s2.SizedFor w := by
      obtain ⟨z1, z2, z3⟩ := k1.sized
      refine ⟨by rw [r1]; exact z1, by rw [r3]; exact z2, ?_⟩
      rw [r2, List.length_set]; exact z3
    refine ⟨c1, chainCore_congr ops ok w _ _ c1 r1 hsz k1, k2, ?_⟩
    intro x hx e he hre
    rw [isRelaxable_congr ops w s1 s2 r1] at hre
    obtain ⟨f1, f2, f3⟩ := k3 x hx e he hre
    have hxu : x ≠ u := fun h => f3 h (h ▸ he)
    refine ⟨?_, ?_⟩
    · rw [r2, getD_set_eq, if_neg (Ne.symm hxu)]
      exact f1
    · intro k hk hkx
      by_cases hkn : k < n
      · exact f2 k hkn hkx
      · have : k = n := by omega
        rw [this, hun] at hkx
        exact absurd hkx.symm hxu
  · rw [hno hf]
    refine ⟨c, hcore, fun e => by have := hstamp e; omega, ?_⟩
    intro x hx e he hre
    obtain ⟨f1, f2⟩ := hdirty x hx e he hre
    have hxu : x ≠ u := fun h => hf (h ▸ f1)
    refine ⟨f1, ?_⟩
    intro k hk hkx
    by_cases hkn : k < n
    · exact f2 k hkn hkx
    · have : k = n := by omega
      rw [this, hun] at hkx
      exact absurd hkx.symm hxu

/-- The rest of a round of `Run`, from the vertex `v` on, keeps the invariant when it does
not end with an early termination. -/
theorem chainInv_round (ops : LabelType L) (ok : L → Prop) (laws : LabelLaws ops)
    (claws : ChainLaws ops ok) (w : WindfarmResidual) (hw : ProperOutgoingEdges w) (k : Nat) :
    ∀ (m v : Nat) (s : BellmanFord L) (c : Nat → Nat), v + m = w.NumberOfVertices →
      ChainInv ops ok w (k * w.NumberOfVertices + v) s c →
      (RunLoop ops w (List.range' v m) s).1 = ReturnCode.SUCCESS →
      ∃ c', ChainInv ops ok w (k * w.NumberOfVertices + w.NumberOfVertices)
        (RunLoop ops w (List.range' v m) s).2 c' := by
  intro m
  induction m with
  | zero =>
    intro v s c hv hinv _
    have : v = w.NumberOfVertices := by omega
    subst this
    exact ⟨c, hinv⟩
  | succ m ih =>
    intro v s c hv hinv hcode
    rw [List.range'_succ, runLoop_cons] at hcode ⊢
    by_cases h1 : (v : Int) = s.vertexOfLastUpdate
    · rw [if_pos h1] at hcode
      have hcode' : ReturnCode.EARLY_TERMINATION = ReturnCode.SUCCESS := hcode
      exact absurd hcode' (by decide)
    · rw [if_neg h1] at hcode ⊢
      have hvlt : v < w.NumberOfVertices := by omega
      have hmod : (k * w.NumberOfVertices + v) % w.NumberOfVertices = v := by
        rw [Nat.mul_add_mod_of_lt hvlt]
      obtain ⟨c1, h2⟩ :=
        chainInv_runStep ops ok laws claws w hw _ v hvlt hmod s c hinv
      exact ih (v + 1) _ c1 (by omega) h2 hcode

/-- The rounds of `Run` keep the invariant when none of them ends with an early
termination. -/
theorem chainInv_rounds (ops : LabelType L) (ok : L → Prop) (laws : LabelLaws ops)
    (claws : ChainLaws ops ok) (w : WindfarmResidual) (hw : ProperOutgoingEdges w) :
    ∀ (k : Nat) (s : BellmanFord L) (c : Nat → Nat), ChainInv ops ok w 0 s c →
      (RunLoop ops w ((List.range k).flatMap fun _ => List.range w.NumberOfVertices) s).1
        = ReturnCode.SUCCESS →
      ∃ c', ChainInv ops ok w (k * w.NumberOfVertices)
        (RunLoop ops w ((List.range k).flatMap fun _ => List.range w.NumberOfVertices) s).2
        c' := by
  intro k
  induction k with
  | zero =>
    intro s c hinv _
    rw [Nat.zero_mul]
    exact ⟨c, hinv⟩
  | succ k ih =>
    intro s c hinv hcode
    rw [List.range_succ, List.flatMap_append, List.flatMap_singleton, runLoop_append]
      at hcode ⊢
    by_cases h1 : (RunLoop ops w
        ((List.range k).flatMap fun _ => List.range w.NumberOfVertices) s).1
        = ReturnCode.SUCCESS
    · rw [if_pos h1] at hcode ⊢
      obtain ⟨c1, h2⟩ := ih s c hinv h1
      have h3 := chainInv_round ops ok laws claws w hw k w.NumberOfVertices 0 _ c1
        (by omega) (by rw [Nat.add_zero]; exact h2)
      rw [← List.range_eq_range'] at h3
      rw [Nat.succ_mul]
      exact h3 hcode
    · rw [if_neg h1] at hcode
      exact absurd hcode h1

/-! ## The labels after `InitializeLabels` -/

theorem updateLabelAt_labels (ops : LabelType L) (s : BellmanFord L) (y : Nat)
    (d : WithTop ℚ) (p : Nat) (hy : y < s.labels.length) :
    ∀ x, LabelAt ops (UpdateLabelAt ops s y d p).1 x
      = if y = x then (ops.Update (LabelAt ops s y) d p).1 else LabelAt ops s x := by
  intro x
  unfold UpdateLabelAt LabelAt
  simp only
  rw [getD_set_eq, if_pos hy]

theorem initializeLabels_chain (ops : LabelType L) (ok : L → Prop) (laws : LabelLaws ops)
    (claws : ChainLaws ops ok) (w : WindfarmResidual) :
    ∀ (es done : List Nat) (s : BellmanFord L),
      (∀ e ∈ es, w.EndVertex e < s.labels.length) →
      (∀ v, ok (LabelAt ops s v)) →
      (∀ p ∈ done, ops.WouldUpdate (LabelAt ops s (w.EndVertex p)) (w.ResidualCostOnEdge p) p
        = false) →
      (∀ e q, chainParent ops w s e = some q →
        w.ResidualCostOnEdge q ≤ chainDistance ops w s e) →
      (∀ v, ok (LabelAt ops (es.foldl (fun s edge =>
          (UpdateLabelAt ops s (w.EndVertex edge) (w.ResidualCostOnEdge edge) edge).1) s) v))
        ∧ (∀ p ∈ done ++ es,
            ops.WouldUpdate (LabelAt ops (es.foldl (fun s edge =>
              (UpdateLabelAt ops s (w.EndVertex edge) (w.ResidualCostOnEdge edge) edge).1) s)
                (w.EndVertex p)) (w.ResidualCostOnEdge p) p = false)
        ∧ (∀ e q, chainParent ops w (es.foldl (fun s edge =>
              (UpdateLabelAt ops s (w.EndVertex edge) (w.ResidualCostOnEdge edge) edge).1) s) e
              = some q →
            w.ResidualCostOnEdge q ≤ chainDistance ops w (es.foldl (fun s edge =>
              (UpdateLabelAt ops s (w.EndVertex edge) (w.ResidualCostOnEdge edge) edge).1) s)
              e) := by
  intro es
  induction es with
  | nil =>
    intro done s _ h1 h2 h3
    rw [List.append_nil]
    exact ⟨h1, h2, h3⟩
  | cons e es ih =>
    intro done s hes h1 h2 h3
    rw [List.foldl_cons]
    have hy := hes e (List.mem_cons_self _ _)
    have hlab := updateLabelAt_labels ops s (w.EndVertex e) (w.ResidualCostOnEdge e) e hy
    have hlen : (UpdateLabelAt ops s (w.EndVertex e) (w.ResidualCostOnEdge e) e).1.labels.length
        = s.labels.length := by
      show (s.labels.set _ _).length = _
      rw [List.length_set]
    have hsel := fun x => claws.select (LabelAt ops s (w.EndVertex e))
      (w.ResidualCostOnEdge e) e w x (h1 _)
    have hsett := laws.settled (LabelAt ops s (w.EndVertex e)) (w.ResidualCostOnEdge e) e
    have hmono := fun d p => laws.monotone (LabelAt ops s (w.EndVertex e)) d p
      (w.ResidualCostOnEdge e) e
    have hok' := claws.okUpdate (LabelAt ops s (w.EndVertex e)) (w.ResidualCostOnEdge e) e
      (h1 _)
    generalize (UpdateLabelAt ops s (w.EndVertex e) (w.ResidualCostOnEdge e) e).1 = s'
      at hlab hlen ⊢
    generalize ops.Update (LabelAt ops s (w.EndVertex e)) (w.ResidualCostOnEdge e) e = U
      at hlab hsel hsett hmono hok'
    obtain ⟨k1, k2, k3⟩ := ih (done ++ [e]) s'
      (fun f hf => by rw [hlen]; exact hes f (List.mem_cons_of_mem _ hf))
      (by
        intro v
        rw [hlab]
        split_ifs
        · exact hok'
        · exact h1 v)
      (by
        intro p hp
        rw [List.mem_append, List.mem_singleton] at hp
        rw [hlab]
        rcases hp with hp | hp
        · split_ifs with h
          · have := h2 p hp
            rw [← h] at this
            exact hmono _ _ this
          · exact h2 p hp
        · rw [hp, if_pos rfl]
          exact hsett)
      (by
        intro x q hq
        unfold chainParent at hq
        unfold chainDistance
        rw [hlab] at hq ⊢
        split_ifs at hq ⊢ with h
        · rcases hsel x with ⟨a1, a2⟩ | ⟨_, a2, a3, _⟩
          · rw [a1]
            rw [a2] at hq
            have := h3 x q
            unfold chainParent chainDistance at this
            rw [← h] at this
            exact this hq
          · rw [a2]
            rw [a3] at hq
            simp only [Option.some.injEq] at hq
            rw [← hq]
        · exact h3 x q hq)
    rw [List.append_assoc] at k2
    exact ⟨k1, k2, k3⟩

/-- The invariant holds when the loops of `Run` begin. -/
theorem chainInv_initial (ops : LabelType L) (ok : L → Prop) (laws : LabelLaws ops)
    (claws : ChainLaws ops ok) (w : WindfarmResidual)
    (hE : ∀ e, e < w.NumberOfEdges → w.EndVertex e < w.NumberOfVertices)
    (s : BellmanFord L) (hs : s.SizedFor w) :
    ChainInv ops ok w 0 (InitializeLabels ops w (Reset ops w s)) (fun _ => 0) := by
  obtain ⟨f1, f2, _, f4, _⟩ :=
    initializeLabels_frame ops w (List.range w.NumberOfEdges) (Reset ops w s)
  obtain ⟨hl, hi, hu⟩ := hs
  have hl0 : ∀ v, LabelAt ops (Reset ops w s) v = ops.init := by
    intro v
    show (s.labels.map fun _ => ops.init).getD v ops.init = ops.init
    rw [List.getD_eq_getElem?_getD, List.getElem?_map]
    cases s.labels[v]? <;> rfl
  have hlen0 : (Reset ops w s).labels.length = w.NumberOfVertices := by
    show (s.labels.map _).length = _
    rw [List.length_map, hl]
  obtain ⟨k1, k2, k3⟩ :=
    initializeLabels_chain ops ok laws claws w (List.range w.NumberOfEdges) [] (Reset ops w s)
      (fun e he => by rw [hlen0]; exact hE e (List.mem_range.mp he))
      (fun v => by rw [hl0]; exact claws.okInit)
      (fun p hp => absurd hp (List.not_mem_nil _))
      (by
        intro e q hq
        unfold chainParent at hq
        rw [hl0, claws.initParent] at hq
        exact absurd hq (by simp))
  rw [List.nil_append] at k2
  refine ⟨⟨⟨?_, ?_, ?_⟩, k1, fun p hp => k2 p (List.mem_range.mpr hp), ?_, ?_⟩, ?_, ?_⟩
  · unfold InitializeLabels
    rw [f1]
    exact hlen0
  · unfold InitializeLabels
    rw [f2]
    show (s.indexOfWalkIncluded.map _).length = _
    rw [List.length_map, hi]
  · unfold InitializeLabels
    rw [f4]
    show (s.updatedSinceLastTime.map _).length = _
    rw [List.length_map, hu]
  · intro e he
    exact absurd he (by omega)
  · intro e q _ hq
    exact k3 e q hq
  · intro e
    exact le_refl _
  · intro x hx e _ _
    refine ⟨?_, fun k hk => absurd hk (by omega)⟩
    unfold InitializeLabels
    rw [f4]
    show (s.updatedSinceLastTime.map fun _ => true).getD x false = true
    rw [getD_eq_getElem_of_lt _ _ _ (by rw [List.length_map, hu]; exact hx)]
    simp

/-- The invariant holds after a `Run` that returned `SUCCESS`. -/
theorem run_chainInv (ops : LabelType L) (ok : L → Prop) (laws : LabelLaws ops)
    (claws : ChainLaws ops ok) (w : WindfarmResidual) (hw : ProperOutgoingEdges w)
    (hE : ∀ e, e < w.NumberOfEdges → w.EndVertex e < w.NumberOfVertices)
    (s : BellmanFord L) (hs : s.SizedFor w)
    (hcode : (Run ops w s).1 = ReturnCode.SUCCESS) :
    ∃ c, ChainInv ops ok w ((ops.NumberOfIterations w).toNat * w.NumberOfVertices)
      (Run ops w s).2 c :=
  chainInv_rounds ops ok laws claws w hw _ _ _
    (chainInv_initial ops ok laws claws w hE s hs) hcode

end BellmanFord

end wcp

/-! # The cost of a cycle of parent edges -/

namespace wcp

/-! ## Sums along a cycle -/

theorem sum_pos_of_exists_pos : ∀ (l : List ℚ), (∀ y ∈ l, 0 ≤ y) → (∃ y ∈ l, 0 < y) → 0 < l.sum
  | [], _, h => by
    obtain ⟨y, hy, _⟩ := h
    exact absurd hy (List.not_mem_nil _)
  | z :: l, h0, h => by
    rw [List.sum_cons]
    have hz : 0 ≤ z := h0 z (List.mem_cons_self _ _)
    have hl : 0 ≤ l.sum := List.sum_nonneg (fun y hy => h0 y (List.mem_cons_of_mem _ hy))
    obtain ⟨y, hy, hpos⟩ := h
    rcases List.mem_cons.mp hy with h1 | h1
    · rw [h1] at hpos
      linarith
    · have := sum_pos_of_exists_pos l (fun y hy => h0 y (List.mem_cons_of_mem _ hy))
        ⟨y, h1, hpos⟩
      linarith

theorem sum_map_sub3 (f g h : Nat → ℚ) : ∀ (l : List Nat),
    (l.map fun a => f a - g a - h a).sum = (l.map f).sum - (l.map g).sum - (l.map h).sum
  | [] => by simp
  | a :: l => by
    rw [List.map_cons, List.sum_cons, sum_map_sub3 f g h l, List.map_cons, List.sum_cons,
      List.map_cons, List.sum_cons, List.map_cons, List.sum_cons]
    ring

theorem chain_map_next (nxt : Nat → Nat) : ∀ (x : Nat) (W : List Nat),
    List.Chain' (fun a b => nxt a = b) (x :: W) →
    (x :: W).map nxt = W ++ [nxt ((x :: W).getLastD 0)] := by
  intro x W
  induction W generalizing x with
  | nil => intro _; rfl
  | cons y W ih =>
    intro h
    rw [List.chain'_cons] at h
    have := ih y h.2
    rw [List.map_cons, this, h.1]
    rfl

/-- Along a cycle on which the value `kq` of every node is at least the value of the next
node plus the cost `rq` of the next node, with a strict inequality at one node, the costs
sum to less than zero. -/
theorem cycle_sum_neg (kq rq : Nat → ℚ) (nxt : Nat → Nat) (x : Nat) (W : List Nat)
    (hch : List.Chain' (fun a b => nxt a = b) (x :: W))
    (hcl : nxt ((x :: W).getLastD 0) = x)
    (hJ : ∀ a ∈ x :: W, kq (nxt a) + rq (nxt a) ≤ kq a)
    (hS : ∃ a ∈ x :: W, kq (nxt a) + rq (nxt a) < kq a) :
    ((x :: W).map rq).sum < 0 := by
  have hmap := chain_map_next nxt x W hch
  rw [hcl] at hmap
  have hrot : ∀ f : Nat → ℚ, ((x :: W).map fun a => f (nxt a)).sum = ((x :: W).map f).sum := by
    intro f
    have : ((x :: W).map fun a => f (nxt a)) = ((x :: W).map nxt).map f := by
      rw [List.map_map]
      rfl
    rw [this, hmap]
    simp only [List.map_append, List.sum_append, List.map_cons, List.map_nil, List.sum_cons,
      List.sum_nil]
    ring
  have hpos : 0 < ((x :: W).map fun a => kq a - kq (nxt a) - rq (nxt a)).sum := by
    apply sum_pos_of_exists_pos
    · intro y hy
      rw [List.mem_map] at hy
      obtain ⟨a, ha, rfl⟩ := hy
      have := hJ a ha
      linarith
    · obtain ⟨a, ha, hlt⟩ := hS
      exact ⟨_, List.mem_map_of_mem _ ha, by linarith⟩
  rw [sum_map_sub3, hrot kq, hrot rq] at hpos
  linarith

theorem chain_forall_next {R : Nat → Nat → Prop} : ∀ (x : Nat) (W : List Nat) (z : Nat),
    List.Chain' R (x :: W) → R ((x :: W).getLastD 0) z →
    ∀ a ∈ x :: W, ∃ b, R a b ∧ (b ∈ W ∨ b = z) := by
  intro x W
  induction W generalizing x with
  | nil =>
    intro z _ hz a ha
    rw [List.mem_singleton] at ha
    subst ha
    exact ⟨z, hz, Or.inr rfl⟩
  | cons y W ih =>
    intro z h hz a ha
    rw [List.chain'_cons] at h
    rcases List.mem_cons.mp ha with h1 | h1
    · subst h1
      exact ⟨y, h.1, Or.inl (List.mem_cons_self _ _)⟩
    · obtain ⟨b, hb1, hb2⟩ := ih y z h.2 hz a h1
      refine ⟨b, hb1, ?_⟩
      rcases hb2 with hb2 | hb2
      · exact Or.inl (List.mem_cons_of_mem _ hb2)
      · exact Or.inr hb2

namespace BellmanFord

variable {L : Type}

/-- Two edges one of which is the parent of the other were not last lowered by the same
visit. -/
theorem chainLink_stamp_ne (ops : LabelType L) (w : WindfarmResidual) (s : BellmanFord L)
    (c : Nat → Nat) (hfl : ∀ e, 1 ≤ c e → ChainLink ops w s c e) (a b : Nat)
    (ha : 1 ≤ c a) (hab : chainParent ops w s a = some b) : c b ≠ c a := by
  intro heq
  obtain ⟨q, p1, _, p3, _⟩ := hfl a ha
  rw [hab] at p1
  simp only [Option.some.injEq] at p1
  subst p1
  obtain ⟨q', _, r2, r3, r4, _⟩ := hfl b (by omega)
  rw [heq, ← p3] at r3
  exact r4 r3

/-- A cycle of parent edges has negative cost when every edge of it whose distance was last
set by `InitializeLabels` has a finite distance that is greater than the distance of its
parent plus the cost of its parent. -/
theorem cycle_negative (ops : LabelType L) (w : WindfarmResidual) (s : BellmanFord L)
    (c : Nat → Nat) (hfl : ∀ e, 1 ≤ c e → ChainLink ops w s c e) (x : Nat) (W : List Nat)
    (hch : List.Chain' (fun a b => chainParent ops w s a = some b) (x :: W))
    (hclose : chainParent ops w s ((x :: W).getLastD 0) = some x)
    (hgood : ∀ a ∈ x :: W, c a = 0 → ∀ b, chainParent ops w s a = some b →
      chainDistance ops w s a ≠ ⊤
        ∧ chainDistance ops w s b + w.ResidualCostOnEdge b < chainDistance ops w s a) :
    NegativeCycleCanceling.CostOfWalk w (x :: W).reverse < 0 := by
  have hnext := chain_forall_next x W x hch hclose
  have hnxtch : List.Chain' (fun a b => (chainParent ops w s a).getD 0 = b) (x :: W) :=
    hch.imp fun {a b} h => by rw [h]; rfl
  have hnxtcl : (chainParent ops w s ((x :: W).getLastD 0)).getD 0 = x := by
    rw [hclose]; rfl
  have hmemnext : ∀ a ∈ x :: W, ∀ b, chainParent ops w s a = some b → b ∈ x :: W := by
    intro a ha b hb
    obtain ⟨b', h1, h2⟩ := hnext a ha
    rw [hb] at h1
    simp only [Option.some.injEq] at h1
    subst h1
    rcases h2 with h2 | h2
    · exact List.mem_cons_of_mem _ h2
    · rw [h2]; exact List.mem_cons_self _ _
  -- every edge of the cycle satisfies the inequality, and its distance is finite
  have hJ : ∀ a ∈ x :: W, ∀ b, chainParent ops w s a = some b →
      chainDistance ops w s a ≠ ⊤
        ∧ chainDistance ops w s b + w.ResidualCostOnEdge b ≤ chainDistance ops w s a := by
    intro a ha b hb
    by_cases hc : c a = 0
    · obtain ⟨g1, g2⟩ := hgood a ha hc b hb
      exact ⟨g1, le_of_lt g2⟩
    · obtain ⟨q, p1, _, _, _, p5, p6, _⟩ := hfl a (by omega)
      rw [hb] at p1
      simp only [Option.some.injEq] at p1
      subst p1
      exact ⟨p5, p6⟩
  have hstrict : ∃ a ∈ x :: W, ∀ b, chainParent ops w s a = some b →
      chainDistance ops w s b + w.ResidualCostOnEdge b < chainDistance ops w s a := by
    by_cases hex : ∃ a ∈ x :: W, c a = 0
    · obtain ⟨a, ha, hc⟩ := hex
      exact ⟨a, ha, fun b hb => (hgood a ha hc b hb).2⟩
    · have hall : ∀ a ∈ x :: W, 1 ≤ c a := by
        intro a ha
        by_contra hc
        exact hex ⟨a, ha, by omega⟩
      by_contra hno
      have hdesc : ∀ a ∈ x :: W, ∀ b, chainParent ops w s a = some b → c b < c a := by
        intro a ha b hb
        have hne := chainLink_stamp_ne ops w s c hfl a b (hall a ha) hb
        by_contra hlt
        have hlt' : c a < c b := by omega
        apply hno
        refine ⟨a, ha, ?_⟩
        intro b' hb'
        rw [hb] at hb'
        simp only [Option.some.injEq] at hb'
        subst hb'
        obtain ⟨q, p1, _, _, _, _, _, p7, _⟩ := hfl a (hall a ha)
        rw [hb] at p1
        simp only [Option.some.injEq] at p1
        subst p1
        exact p7 hlt'
      have hsum := cycle_sum_neg (fun a => (c a : ℚ)) (fun _ => 0)
        (fun a => (chainParent ops w s a).getD 0) x W hnxtch hnxtcl
        (by
          intro a ha
          obtain ⟨b, hb, _⟩ := hnext a ha
          have := hdesc a ha b hb
          beta_reduce
          rw [hb]
          simp only [Option.getD_some, add_zero, Nat.cast_le]
          omega)
        ⟨x, List.mem_cons_self _ _, by
          obtain ⟨b, hb, _⟩ := hnext x (List.mem_cons_self _ _)
          have := hdesc x (List.mem_cons_self _ _) b hb
          beta_reduce
          rw [hb]
          simp only [Option.getD_some, add_zero, Nat.cast_lt]
          exact this⟩
      simp at hsum
  -- the distances and costs as rational numbers
  have hkfin : ∀ a ∈ x :: W, chainDistance ops w s a
      = ((WithTop.untop' 0 (chainDistance ops w s a) : ℚ) : WithTop ℚ) := by
    intro a ha
    obtain ⟨b, hb, _⟩ := hnext a ha
    obtain ⟨v, hv⟩ := WithTop.ne_top_iff_exists.mp (hJ a ha b hb).1
    rw [← hv, WithTop.untop'_coe]
  have hrfin : ∀ a ∈ x :: W, ∀ b, chainParent ops w s a = some b →
      w.ResidualCostOnEdge b
        = ((WithTop.untop' 0 (w.ResidualCostOnEdge b) : ℚ) : WithTop ℚ) := by
    intro a ha b hb
    obtain ⟨h1, h2⟩ := hJ a ha b hb
    obtain ⟨v, hv⟩ := WithTop.ne_top_iff_exists.mp (ne_top_of_add_le _ _ _ h2 h1).2
    rw [← hv, WithTop.untop'_coe]
  have hmap := chain_map_next (fun a => (chainParent ops w s a).getD 0) x W hnxtch
  beta_reduce at hmap
  rw [hnxtcl] at hmap
  have hpre : ∀ e ∈ x :: W, ∃ a ∈ x :: W, chainParent ops w s a = some e := by
    intro e he
    have he' : e ∈ W ++ [x] := by
      rw [List.mem_append, List.mem_singleton]
      rcases List.mem_cons.mp he with h | h
      · exact Or.inr h
      · exact Or.inl h
    rw [← hmap, List.mem_map] at he'
    obtain ⟨a, ha, hae⟩ := he'
    obtain ⟨b, hb, _⟩ := hnext a ha
    rw [hb] at hae
    have hae' : b = e := hae
    exact ⟨a, ha, by rw [hb, hae']⟩
  have hcost := costOfWalk_eq_sum w (fun e => WithTop.untop' 0 (w.ResidualCostOnEdge e))
    (x :: W).reverse (by
      intro e he
      rw [List.mem_reverse] at he
      obtain ⟨a, ha, hae⟩ := hpre e he
      exact hrfin a ha e hae)
  rw [hcost, List.map_reverse, List.sum_reverse, ← WithTop.coe_zero, WithTop.coe_lt_coe]
  apply cycle_sum_neg (fun a => WithTop.untop' 0 (chainDistance ops w s a))
    (fun e => WithTop.untop' 0 (w.ResidualCostOnEdge e))
    (fun a => (chainParent ops w s a).getD 0) x W hnxtch hnxtcl
  · intro a ha
    obtain ⟨b, hb, _⟩ := hnext a ha
    have h2 := (hJ a ha b hb).2
    rw [hkfin a ha, hkfin b (hmemnext a ha b hb), hrfin a ha b hb, ← WithTop.coe_add,
      WithTop.coe_le_coe] at h2
    rw [hb]
    exact h2
  · obtain ⟨a, ha, hlt⟩ := hstrict
    obtain ⟨b, hb, _⟩ := hnext a ha
    have h2 := hlt b hb
    rw [hkfin a ha, hkfin b (hmemnext a ha b hb), hrfin a ha b hb, ← WithTop.coe_add,
      WithTop.coe_lt_coe] at h2
    refine ⟨a, ha, ?_⟩
    rw [hb]
    exact h2

end BellmanFord

end wcp

/-! # The chain of parent edges that `ExtractWalk` follows -/

namespace wcp

theorem getLast?_of_suffix {α : Type} (l1 l2 : List α) (h : l2 <:+ l1) (hne : l2 ≠ []) :
    l1.getLast? = l2.getLast? := by
  obtain ⟨pre, rfl⟩ := h
  exact List.getLast?_append_of_ne_nil _ hne

namespace BellmanFord

variable {L : Type}

theorem chainParent_congr (ops : LabelType L) (w : WindfarmResidual) (s s' : BellmanFord L)
    (h : s'.labels = s.labels) (e : Nat) : chainParent ops w s' e = chainParent ops w s e := by
  unfold chainParent LabelAt
  rw [h]

theorem chainDistance_congr (ops : LabelType L) (w : WindfarmResidual) (s s' : BellmanFord L)
    (h : s'.labels = s.labels) (e : Nat) :
    chainDistance ops w s' e = chainDistance ops w s e := by
  unfold chainDistance LabelAt
  rw [h]

/-- The loop of `ExtractWalk` leaves the labels as they are and pushes a chain of parent
edges: every edge pushed is the parent of the edge pushed before it, and the edge at which
the loop ends is the parent of the last edge pushed. -/
theorem extractWalkLoop_chain (ops : LabelType L) (w : WindfarmResidual) (s0 : BellmanFord L) :
    ∀ (fuel : Nat) (s : BellmanFord L) (walk : List Nat) (current : Option Nat)
      (s' : BellmanFord L) (walk' : List Nat) (e' : Nat),
      s.labels = s0.labels →
      List.Chain' (fun a b => chainParent ops w s0 a = some b) walk →
      (∀ x ∈ walk.getLast?, chainParent ops w s0 x = current) →
      ExtractWalkLoop ops w fuel s walk current = some (s', walk', e') →
      s'.labels = s0.labels
        ∧ List.Chain' (fun a b => chainParent ops w s0 a = some b) walk'
        ∧ (∀ x ∈ walk'.getLast?, chainParent ops w s0 x = some e')
        ∧ ∃ rest, walk' = walk ++ rest ∧ ∀ y ∈ rest.head?, current = some y := by
  intro fuel
  induction fuel with
  | zero =>
    intro s walk current s' walk' e' hl hch hlast h
    cases current with
    | none => rw [extractWalkLoop_none] at h; exact absurd h (by simp)
    | some e =>
      rw [extractWalkLoop_zero] at h
      split_ifs at h with h1
      simp only [Option.some.injEq, Prod.mk.injEq] at h
      obtain ⟨a1, a2, a3⟩ := h
      subst a1 a2 a3
      exact ⟨hl, hch, hlast, [], (List.append_nil _).symm, fun y hy => absurd hy (by simp)⟩
  | succ fuel ih =>
    intro s walk current s' walk' e' hl hch hlast h
    cases current with
    | none => rw [extractWalkLoop_none] at h; exact absurd h (by simp)
    | some e =>
      rw [extractWalkLoop_succ] at h
      split_ifs at h with h1
      · simp only [Option.some.injEq, Prod.mk.injEq] at h
        obtain ⟨a1, a2, a3⟩ := h
        subst a1 a2 a3
        exact ⟨hl, hch, hlast, [], (List.append_nil _).symm, fun y hy => absurd hy (by simp)⟩
      · have hl' : (SetToCurrentWalk s e).labels = s0.labels := hl
        have hcur : ops.Parent (LabelAt ops (SetToCurrentWalk s e) (w.StartVertex e)) w e
            = chainParent ops w s0 e := chainParent_congr ops w s0 _ hl' e
        rw [hcur] at h
        obtain ⟨k1, k2, k3, rest, k4, _⟩ :=
          ih (SetToCurrentWalk s e) (walk ++ [e]) (chainParent ops w s0 e) s' walk' e' hl'
            (by
              refine List.Chain'.append hch (List.chain'_singleton _) ?_
              intro x hx y hy
              have hy' : e = y := by simpa using hy
              rw [← hy']
              exact hlast x hx)
            (by
              intro x hx
              rw [List.getLast?_append_of_ne_nil _ (List.cons_ne_nil _ _)] at hx
              have hx' : e = x := by simpa using hx
              rw [← hx'])
            h
        refine ⟨k1, k2, k3, e :: rest, ?_, ?_⟩
        · rw [k4, List.append_assoc]
          rfl
        · intro y hy
          have hy' : e = y := by simpa using hy
          rw [hy']

/-- The vector that `ExtractWalk` returns, when it is not empty, is the reverse of a cycle
of parent edges at the end of a chain of parent edges that begins with `lastEdge`. -/
theorem extractWalk_chain (ops : LabelType L) (stored : L → List Nat)
    (laws : ParentLaws ops stored) (w : WindfarmResidual) (s : BellmanFord L)
    (lastEdge : Nat) (s' : BellmanFord L) (walk : List Nat)
    (hp : ParentsValid ops stored w s) (hsz : s.indexOfWalkIncluded.length = w.NumberOfEdges)
    (hm : ∀ e, s.indexOfWalkIncluded.getD e 0 < s.currentWalkIndex)
    (he : lastEdge < w.NumberOfEdges)
    (h : ExtractWalk ops w s lastEdge = some (s', walk)) :
    s'.labels = s.labels
      ∧ (walk ≠ [] → ∃ (W : List Nat) (x : Nat) (T : List Nat),
          List.Chain' (fun a b => chainParent ops w s a = some b) W
            ∧ W.Nodup ∧ W.head? = some lastEdge ∧ (∀ e ∈ W, e < w.NumberOfEdges)
            ∧ (x :: T) <:+ W ∧ walk = (x :: T).reverse
            ∧ chainParent ops w s ((x :: T).getLastD 0) = some x) := by
  have hinv : ExtractWalkInv ops stored w s [] (some lastEdge) := by
    refine ⟨hp, hsz, ?_, List.nodup_nil, ?_, fun e => le_of_lt (hm e), ?_, List.chain'_nil, ?_⟩
    · have := hm 0
      omega
    · intro e
      have := hm e
      constructor
      · intro h1
        omega
      · intro h1
        exact absurd h1 (List.not_mem_nil _)
    · intro e h1
      exact absurd h1 (List.not_mem_nil _)
    · intro e h1
      have h2 : lastEdge = e := by simpa using h1
      rw [← h2]
      exact ⟨he, fun x hx => absurd hx (by simp)⟩
  unfold ExtractWalk at h
  cases hloop : ExtractWalkLoop ops w w.NumberOfEdges s [] (some lastEdge) with
  | none =>
    rw [hloop] at h
    exact absurd h (by simp)
  | some r =>
    obtain ⟨s1, walk1, e1⟩ := r
    rw [hloop] at h
    obtain ⟨k1, _, _⟩ := extractWalkLoop_spec ops stored laws w _ _ _ _ _ _ _ hinv hloop
    obtain ⟨c1, c2, c3, rest, c4, c5⟩ :=
      extractWalkLoop_chain ops w s _ _ _ _ _ _ _ rfl List.chain'_nil
        (fun x hx => absurd hx (by simp)) hloop
    simp only at h
    split_ifs at h with h1
    · simp only [Option.some.injEq, Prod.mk.injEq] at h
      obtain ⟨a1, a2⟩ := h
      subst a1 a2
      refine ⟨c1, fun _ => ?_⟩
      have hmem : e1 ∈ walk1 := by
        apply (k1.marks e1).1
        unfold OnCurrentWalk at h1
        simpa using h1
      have hD := drop_indexOf walk1 e1 hmem
      have hsuf : (e1 :: walk1.drop (walk1.indexOf e1 + 1)) <:+ walk1 := by
        rw [← hD]
        exact List.drop_suffix _ _
      refine ⟨walk1, e1, walk1.drop (walk1.indexOf e1 + 1), c2, k1.nodup, ?_, k1.edges, hsuf,
        by rw [hD], ?_⟩
      · rw [List.nil_append] at c4
        rw [c4]
        cases rest with
        | nil =>
          rw [c4] at hmem
          exact absurd hmem (List.not_mem_nil _)
        | cons y rest =>
          have := c5 y (by simp)
          simp only [Option.some.injEq] at this
          rw [this]
          rfl
      · have hlast := getLast?_of_suffix _ _ hsuf (List.cons_ne_nil _ _)
        apply c3
        rw [hlast, List.getLastD_eq_getLast?]
        cases hgl : (e1 :: walk1.drop (walk1.indexOf e1 + 1)).getLast? with
        | none =>
          rw [List.getLast?_eq_none_iff] at hgl
          exact absurd hgl (List.cons_ne_nil _ _)
        | some z => simp
    · simp only [Option.some.injEq, Prod.mk.injEq] at h
      obtain ⟨a1, a2⟩ := h
      subst a1 a2
      exact ⟨c1, fun h2 => absurd rfl h2⟩

/-! ## What every extracted walk inherits from the call of `ExtractWalk` that made it -/

theorem extractNegativeClosedWalkLoop_rule (ops : LabelType L) (stored : L → List Nat)
    (laws : ParentLaws ops stored) (w : WindfarmResidual)
    (hw : ∀ v, ∀ e ∈ w.OutgoingEdges v, e < w.NumberOfEdges) (s0 : BellmanFord L)
    (Q : List Nat → Prop)
    (hQ : ∀ (s s' : BellmanFord L) (v e : Nat) (walk : List Nat), s.labels = s0.labels →
      ParentsValid ops stored w s → s.indexOfWalkIncluded.length = w.NumberOfEdges →
      (∀ x, s.indexOfWalkIncluded.getD x 0 < s.currentWalkIndex) →
      v < w.NumberOfVertices → FindRelaxableOutgoingEdge ops w s v = some e →
      ExtractWalk ops w s e = some (s', walk) → walk ≠ [] → Q walk) :
    ∀ (vs : List Nat) (s s' : BellmanFord L) (walk : List Nat),
      (∀ v ∈ vs, v < w.NumberOfVertices) → s.labels = s0.labels →
      ParentsValid ops stored w s → s.indexOfWalkIncluded.length = w.NumberOfEdges →
      (∀ e, s.indexOfWalkIncluded.getD e 0 < s.currentWalkIndex) →
      ExtractNegativeClosedWalkLoop ops w vs s = some (s', walk) →
      s'.labels = s0.labels ∧ (walk ≠ [] → Q walk) := by
  intro vs
  induction vs with
  | nil =>
    intro s s' walk _ hl hp hsz hm h
    have h' : some (s, ([] : List Nat)) = some (s', walk) := h
    simp only [Option.some.injEq, Prod.mk.injEq] at h'
    obtain ⟨a1, a2⟩ := h'
    subst a1 a2
    exact ⟨hl, fun h2 => absurd rfl h2⟩
  | cons v vs ih =>
    intro s s' walk hvs hl hp hsz hm h
    unfold ExtractNegativeClosedWalkLoop at h
    cases hfind : FindRelaxableOutgoingEdge ops w s v with
    | none =>
      rw [hfind] at h
      exact ih s s' walk (fun x hx => hvs x (List.mem_cons_of_mem _ hx)) hl hp hsz hm h
    | some e =>
      rw [hfind] at h
      simp only at h
      have he : e < w.NumberOfEdges := hw v e (List.mem_of_find?_eq_some hfind)
      cases hex : ExtractWalk ops w s e with
      | none =>
        rw [hex] at h
        exact absurd h (by simp)
      | some r =>
        obtain ⟨s1, walk1⟩ := r
        rw [hex] at h
        simp only at h
        obtain ⟨k1, k2, _⟩ := extractWalk_spec ops stored laws w s e s1 walk1 hp hsz hm he hex
        have k4 := (extractWalk_chain ops stored laws w s e s1 walk1 hp hsz hm he hex).1
        split_ifs at h with h1
        · simp only [Option.some.injEq, Prod.mk.injEq] at h
          obtain ⟨a1, a2⟩ := h
          subst a1 a2
          exact ⟨k4.trans hl, fun hne =>
            hQ s s1 v e walk1 hl hp hsz hm (hvs v (List.mem_cons_self _ _)) hfind hex hne⟩
        · refine ih { s1 with currentWalkIndex := s1.currentWalkIndex + 1 } s' walk
            (fun x hx => hvs x (List.mem_cons_of_mem _ hx)) (k4.trans hl)
            (parentsValid_congr ops stored w s1 _ rfl k1.parents) k1.sized ?_ h
          intro x
          have := k1.marks x
          show s1.indexOfWalkIncluded.getD x 0 < s1.currentWalkIndex + 1
          omega

theorem extractNegativeClosedWalk_rule (ops : LabelType L) (stored : L → List Nat)
    (laws : ParentLaws ops stored) (w : WindfarmResidual)
    (hw : ∀ v, ∀ e ∈ w.OutgoingEdges v, e < w.NumberOfEdges) (s0 : BellmanFord L)
    (Q : List Nat → Prop)
    (hQ : ∀ (s s' : BellmanFord L) (v e : Nat) (walk : List Nat), s.labels = s0.labels →
      ParentsValid ops stored w s → s.indexOfWalkIncluded.length = w.NumberOfEdges →
      (∀ x, s.indexOfWalkIncluded.getD x 0 < s.currentWalkIndex) →
      v < w.NumberOfVertices → FindRelaxableOutgoingEdge ops w s v = some e →
      ExtractWalk ops w s e = some (s', walk) → walk ≠ [] → Q walk)
    (s s' : BellmanFord L) (walk : List Nat) (hl : s.labels = s0.labels)
    (hinv : ExtractInv ops stored w s)
    (h : ExtractNegativeClosedWalk ops w s = some (s', walk)) :
    s'.labels = s0.labels ∧ (walk ≠ [] → Q walk) := by
  unfold ExtractNegativeClosedWalk at h
  split_ifs at h with h1
  · simp only [Option.some.injEq, Prod.mk.injEq] at h
    obtain ⟨a1, a2⟩ := h
    subst a1 a2
    exact ⟨hl, fun h2 => absurd rfl h2⟩
  · refine extractNegativeClosedWalkLoop_rule ops stored laws w hw s0 Q hQ _
      { s with currentWalkIndex := s.currentWalkIndex + 1 } s' walk
      (fun v hv => List.mem_range.1 hv) hl
      (parentsValid_congr ops stored w s _ rfl hinv.parents) hinv.sized ?_ h
    intro x
    have := hinv.marks x
    show s.indexOfWalkIncluded.getD x 0 < s.currentWalkIndex + 1
    omega

theorem extractNegativeClosedWalks_rule (ops : LabelType L) (stored : L → List Nat)
    (laws : ParentLaws ops stored) (w : WindfarmResidual)
    (hw : ∀ v, ∀ e ∈ w.OutgoingEdges v, e < w.NumberOfEdges) (s0 : BellmanFord L)
    (Q : List Nat → Prop)
    (hQ : ∀ (s s' : BellmanFord L) (v e : Nat) (walk : List Nat), s.labels = s0.labels →
      ParentsValid ops stored w s → s.indexOfWalkIncluded.length = w.NumberOfEdges →
      (∀ x, s.indexOfWalkIncluded.getD x 0 < s.currentWalkIndex) →
      v < w.NumberOfVertices → FindRelaxableOutgoingEdge ops w s v = some e →
      ExtractWalk ops w s e = some (s', walk) → walk ≠ [] → Q walk) :
    ∀ (n : Nat) (s s' : BellmanFord L) (walks : List (List Nat)), s.labels = s0.labels →
      ExtractInv ops stored w s →
      ExtractNegativeClosedWalks ops w n s = some (s', walks) →
      ∀ walk ∈ walks, walk ≠ [] → Q walk := by
  intro n
  induction n with
  | zero =>
    intro s s' walks _ _ h walk hwalk
    have h' : some (s, ([] : List (List Nat))) = some (s', walks) := h
    simp only [Option.some.injEq, Prod.mk.injEq] at h'
    rw [← h'.2] at hwalk
    exact absurd hwalk (List.not_mem_nil _)
  | succ n ih =>
    intro s s' walks hl hinv h walk hwalk
    unfold ExtractNegativeClosedWalks at h
    cases hex : ExtractNegativeClosedWalk ops w s with
    | none =>
      rw [hex] at h
      exact absurd h (by simp)
    | some r =>
      obtain ⟨s1, walk1⟩ := r
      rw [hex] at h
      simp only at h
      obtain ⟨k1, _⟩ := extractNegativeClosedWalk_spec ops stored laws w hw s s1 walk1 hinv hex
      obtain ⟨k3, k4⟩ :=
        extractNegativeClosedWalk_rule ops stored laws w hw s0 Q hQ s s1 walk1 hl hinv hex
      cases hrest : ExtractNegativeClosedWalks ops w n s1 with
      | none =>
        rw [hrest] at h
        exact absurd h (by simp)
      | some r2 =>
        obtain ⟨s2, walks2⟩ := r2
        rw [hrest] at h
        simp only [Option.some.injEq, Prod.mk.injEq] at h
        rw [← h.2, List.mem_cons] at hwalk
        rcases hwalk with hwalk | hwalk
        · rw [hwalk]
          exact k4
        · exact ih s1 s2 walks2 k3 k1 hrest walk hwalk

end BellmanFord

end wcp

/-! # The two distance labels -/

namespace wcp

namespace TwoDistancesLabel

theorem consistent_init : Consistent {} :=
  ⟨le_refl _, fun h => absurd rfl h, fun _ => ⟨rfl, rfl, rfl⟩⟩

theorem consistent_update (l : TwoDistancesLabel) (d : WithTop ℚ) (p : Nat)
    (h : l.Consistent) : (l.Update d p).1.Consistent := by
  obtain ⟨h1, h2, h3⟩ := h
  unfold Update
  by_cases c1 : d < l.dist
  · rw [if_pos c1]
    by_cases c2 : l.parent = some p
    · rw [if_pos c2]
      refine ⟨le_trans (le_of_lt c1) h1, h2, fun h => ?_⟩
      rw [c2] at h
      exact absurd h (by simp)
    · rw [if_neg c2]
      refine ⟨le_of_lt c1, fun _ h => c2 h.symm, fun h => absurd h (by simp)⟩
  · rw [if_neg c1]
    by_cases c2 : d < l.distSecond ∧ l.parent ≠ some p
    · rw [if_pos c2]
      refine ⟨not_lt.1 c1, fun _ => c2.2, fun h => ?_⟩
      have h4 := (h3 h).1
      rw [h4] at c1
      exact absurd (lt_of_lt_of_le c2.1 le_top) c1
    · rw [if_neg c2]
      exact ⟨h1, h2, h3⟩

theorem consistent_updateAll (calls : List (WithTop ℚ × Nat)) :
    ∀ l : TwoDistancesLabel, l.Consistent → (l.UpdateAll calls).Consistent := by
  induction calls with
  | nil => intro l h; exact h
  | cons c calls ih =>
    intro l h
    exact ih _ (consistent_update l c.1 c.2 h)

theorem holdsTwoSmallest_update (l : TwoDistancesLabel) (d : WithTop ℚ) (p : Nat)
    (h : l.Consistent) : l.HoldsTwoSmallest d p (l.Update d p).1 := by
  obtain ⟨h1, h2, h3⟩ := h
  unfold HoldsTwoSmallest candidates Update
  by_cases c1 : d < l.dist
  · rw [if_pos c1]
    by_cases c2 : l.parent = some p
    · rw [if_pos c2]
      refine ⟨by simp [c2], ?_, ?_, Or.inl ⟨by simp, ?_⟩⟩
      · intro c hc
        simp only [List.mem_cons, List.mem_singleton, List.not_mem_nil, or_false] at hc
        rcases hc with rfl | rfl | rfl
        · exact le_of_lt c1
        · exact le_trans (le_of_lt c1) h1
        · exact le_refl _
      · intro c hc hne
        simp only [List.mem_cons, List.mem_singleton, List.not_mem_nil, or_false] at hc
        rcases hc with rfl | rfl | rfl
        · exact absurd rfl hne
        · exact le_refl _
        · exact absurd c2.symm hne
      · intro h
        have h' : l.parentSecond = l.parent := h
        exact h2 (by rw [h', c2]; simp) h'.symm
    · rw [if_neg c2]
      refine ⟨by simp, ?_, ?_, Or.inl ⟨by simp, c2⟩⟩
      · intro c hc
        simp only [List.mem_cons, List.mem_singleton, List.not_mem_nil, or_false] at hc
        rcases hc with rfl | rfl | rfl
        · exact le_of_lt c1
        · exact le_trans (le_of_lt c1) h1
        · exact le_refl _
      · intro c hc hne
        simp only [List.mem_cons, List.mem_singleton, List.not_mem_nil, or_false] at hc
        rcases hc with rfl | rfl | rfl
        · exact le_refl _
        · exact h1
        · exact absurd rfl hne
  · rw [if_neg c1]
    by_cases c2 : d < l.distSecond ∧ l.parent ≠ some p
    · rw [if_pos c2]
      refine ⟨by simp, ?_, ?_, Or.inl ⟨by simp, fun h => c2.2 h.symm⟩⟩
      · intro c hc
        simp only [List.mem_cons, List.mem_singleton, List.not_mem_nil, or_false] at hc
        rcases hc with rfl | rfl | rfl
        · exact le_refl _
        · exact h1
        · exact not_lt.1 c1
      · intro c hc hne
        simp only [List.mem_cons, List.mem_singleton, List.not_mem_nil, or_false] at hc
        rcases hc with rfl | rfl | rfl
        · exact absurd rfl hne
        · exact le_of_lt c2.1
        · exact le_refl _
    · rw [if_neg c2]
      refine ⟨by simp, ?_, ?_, ?_⟩
      · intro c hc
        simp only [List.mem_cons, List.mem_singleton, List.not_mem_nil, or_false] at hc
        rcases hc with rfl | rfl | rfl
        · exact le_refl _
        · exact h1
        · exact not_lt.1 c1
      · intro c hc hne
        simp only [List.mem_cons, List.mem_singleton, List.not_mem_nil, or_false] at hc
        rcases hc with rfl | rfl | rfl
        · exact absurd rfl hne
        · exact le_refl _
        · have c3 : ¬ d < l.distSecond := fun h => c2 ⟨h, fun h' => hne h'.symm⟩
          exact not_lt.1 c3
      · by_cases c3 : l.parentSecond = l.parent
        · right
          by_cases c4 : l.parentSecond = none
          · rw [c4] at c3
            exact ⟨(h3 c3.symm).2.1, c4⟩
          · exact absurd c3.symm (h2 c4)
        · exact Or.inl ⟨by simp, c3⟩

end TwoDistancesLabel

/-- C27: for every sequence of calls `Update(d, p)` applied to a new
`TwoDistancesLabel`, the label has its first distance at most its second distance and a
second parent that, when it is a valid edge, differs from the first parent; and every
further call `Update(d, p)` leaves in the label the two smallest distances among the two
stored before and `d` that were reached via two different parent edges. -/
theorem two_distances_label_holds_two_smallest (calls : List (WithTop ℚ × Nat)) :
    (TwoDistancesLabel.UpdateAll {} calls).dist ≤ (TwoDistancesLabel.UpdateAll {} calls).distSecond
      ∧ ((TwoDistancesLabel.UpdateAll {} calls).parentSecond ≠ none →
          (TwoDistancesLabel.UpdateAll {} calls).parent
            ≠ (TwoDistancesLabel.UpdateAll {} calls).parentSecond)
      ∧ ∀ (d : WithTop ℚ) (p : Nat),
          (TwoDistancesLabel.UpdateAll {} calls).HoldsTwoSmallest d p
            ((TwoDistancesLabel.UpdateAll {} calls).Update d p).1 :=
  ⟨(TwoDistancesLabel.consistent_updateAll calls _ TwoDistancesLabel.consistent_init).ordered,
    (TwoDistancesLabel.consistent_updateAll calls _ TwoDistancesLabel.consistent_init).distinct,
    fun d p => TwoDistancesLabel.holdsTwoSmallest_update _ d p
      (TwoDistancesLabel.consistent_updateAll calls _ TwoDistancesLabel.consistent_init)⟩

theorem oneDistanceLabel_update_false_iff (l : OneDistanceLabel) (d : WithTop ℚ) (p : Nat) :
    (l.Update d p).2 = l.WouldUpdate d p ∧ ((l.Update d p).2 = false ↔ (l.Update d p).1 = l) := by
  unfold OneDistanceLabel.Update OneDistanceLabel.WouldUpdate
  by_cases c1 : d < l.dist
  · rw [if_pos c1]
    refine ⟨by simp [c1], ?_⟩
    constructor
    · intro h
      exact absurd h (by simp)
    · intro h
      have h' : d = l.dist := congrArg OneDistanceLabel.dist h
      rw [h'] at c1
      exact absurd c1 (lt_irrefl _)
  · rw [if_neg c1]
    exact ⟨by simp [c1], fun _ => rfl, fun _ => rfl⟩

theorem twoDistancesLabel_update_false_iff (l : TwoDistancesLabel) (d : WithTop ℚ) (p : Nat) :
    (l.Update d p).2 = l.WouldUpdate d p ∧ ((l.Update d p).2 = false ↔ (l.Update d p).1 = l) := by
  unfold TwoDistancesLabel.Update TwoDistancesLabel.WouldUpdate
  by_cases c1 : d < l.dist
  · rw [if_pos c1]
    by_cases c2 : l.parent = some p
    · rw [if_pos c2]
      refine ⟨by simp [c1], ?_⟩
      constructor
      · intro h
        exact absurd h (by simp)
      · intro h
        have h' : d = l.dist := congrArg TwoDistancesLabel.dist h
        rw [h'] at c1
        exact absurd c1 (lt_irrefl _)
    · rw [if_neg c2]
      refine ⟨by simp [c1], ?_⟩
      constructor
      · intro h
        exact absurd h (by simp)
      · intro h
        have h' : d = l.dist := congrArg TwoDistancesLabel.dist h
        rw [h'] at c1
        exact absurd c1 (lt_irrefl _)
  · rw [if_neg c1]
    by_cases c2 : d < l.distSecond ∧ l.parent ≠ some p
    · rw [if_pos c2]
      refine ⟨?_, ?_⟩
      · have c3 : some p ≠ l.parent := fun h => c2.2 h.symm
        simp [c2.1, c3]
      · constructor
        · intro h
          exact absurd h (by simp)
        · intro h
          have h' : d = l.distSecond := congrArg TwoDistancesLabel.distSecond h
          have c3 := c2.1
          rw [h'] at c3
          exact absurd c3 (lt_irrefl _)
    · rw [if_neg c2]
      refine ⟨?_, fun _ => rfl, fun _ => rfl⟩
      by_cases c3 : d < l.distSecond
      · have c4 : l.parent = some p := by
          by_contra c4
          exact c2 ⟨c3, c4⟩
        simp [c1, c4]
      · simp [c1, c3]

/-- C28: for `OneDistanceLabel` and for `TwoDistancesLabel`, for every state of the
label, every distance `d` and every edge `p`, `WouldUpdate(d, p)`, which is a function of
the label and does not change it, is the value that `Update(d, p)` returns on this state,
and `Update(d, p)` returns `false` if and only if the label after the call is the label
before it. -/
theorem would_update_tells_update :
    (∀ (l : OneDistanceLabel) (d : WithTop ℚ) (p : Nat),
        (l.Update d p).2 = l.WouldUpdate d p ∧ ((l.Update d p).2 = false ↔ (l.Update d p).1 = l))
      ∧ (∀ (l : TwoDistancesLabel) (d : WithTop ℚ) (p : Nat),
        (l.Update d p).2 = l.WouldUpdate d p ∧ ((l.Update d p).2 = false ↔ (l.Update d p).1 = l)) :=
  ⟨oneDistanceLabel_update_false_iff, twoDistancesLabel_update_false_iff⟩

end wcp

/-! # The order of the deltas in `RunNCCforAllDeltas` -/

namespace wcp

namespace NegativeCycleCanceling

theorem cancelCycle_false (st : NCCState) (C : List Nat) (d : Int)
    (h : (CancelCycle st C d).2 = false) : (CancelCycle st C d).1 = st := by
  unfold CancelCycle at h ⊢
  simp only at h ⊢
  by_cases h1 : (decide (C.length > 2) && decide (CostOfWalk st.windfarm C < 0)) = true
  · rw [if_pos h1] at h
    exact absurd h (by simp)
  · rw [if_neg h1]

theorem cancelNegativeWalkStep_unchanged (s s' : WalkLoopState) (d : Int)
    (h : CancelNegativeWalkStep s d = some s') (hc : s'.canceledAnyCycle = false) :
    s.canceledAnyCycle = false ∧ s'.st.windfarm = s.st.windfarm := by
  unfold CancelNegativeWalkStep at h
  cases hf : FindCycle s.st.windfarm s.walk s.st.visitedVertex s.currentIndex with
  | none =>
    rw [hf] at h
    exact absurd h (by simp)
  | some r =>
    obtain ⟨cycleBegin, cycleEnd, visited⟩ := r
    rw [hf] at h
    simp only [Option.some.injEq] at h
    subst h
    simp only [Bool.or_eq_false_iff] at hc
    refine ⟨hc.1, ?_⟩
    have h2 := cancelCycle_false _ _ _ hc.2
    show (CancelCycle _ _ _).1.windfarm = _
    rw [h2]

theorem cancelNegativeWalkLoop_unchanged (d : Int) :
    ∀ (fuel : Nat) (s s' : WalkLoopState), CancelNegativeWalkLoop fuel s d = some s' →
      s'.canceledAnyCycle = false →
      s.canceledAnyCycle = false ∧ s'.st.windfarm = s.st.windfarm := by
  intro fuel
  induction fuel with
  | zero =>
    intro s s' h hc
    unfold CancelNegativeWalkLoop at h
    split_ifs at h
    simp only [Option.some.injEq] at h
    subst h
    exact ⟨hc, rfl⟩
  | succ fuel ih =>
    intro s s' h hc
    unfold CancelNegativeWalkLoop at h
    split_ifs at h
    · simp only [Option.some.injEq] at h
      subst h
      exact ⟨hc, rfl⟩
    · cases hs : CancelNegativeWalkStep s d with
      | none =>
        rw [hs] at h
        exact absurd h (by simp)
      | some s1 =>
        rw [hs] at h
        obtain ⟨k1, k2⟩ := ih s1 s' h hc
        obtain ⟨k3, k4⟩ := cancelNegativeWalkStep_unchanged s s1 d hs k1
        exact ⟨k3, k2.trans k4⟩

theorem cancelNegativeWalk_unchanged (st st' : NCCState) (walk : List Nat) (d : Int)
    (b : Bool) (h : CancelNegativeWalk st walk d b = some (st', false)) :
    st'.windfarm = st.windfarm := by
  unfold CancelNegativeWalk at h
  cases hl : CancelNegativeWalkLoop walk.length
      { st := st, walk := walk, currentIndex := 0, canceledAnyCycle := false } d with
  | none =>
    rw [hl] at h
    exact absurd h (by simp)
  | some s =>
    rw [hl] at h
    simp only [Option.some.injEq, Prod.mk.injEq] at h
    obtain ⟨h1, h2⟩ := h
    rw [← h1]
    exact (cancelNegativeWalkLoop_unchanged d _ _ _ hl h2).2

theorem extractWalkAndCancelCycle_unchanged (d : Int) (b : Bool) :
    ∀ (walks : List (List Nat)) (st st' : NCCState) (clock : List Bool),
      ExtractWalkAndCancelCycle d b walks st clock = some (st', false) →
      st'.windfarm = st.windfarm := by
  intro walks
  induction walks with
  | nil =>
    intro st st' clock h
    unfold ExtractWalkAndCancelCycle at h
    simp only [Option.some.injEq, Prod.mk.injEq] at h
    rw [← h.1]
  | cons walk rest ih =>
    intro st st' clock h
    unfold ExtractWalkAndCancelCycle at h
    split_ifs at h with h1 h2
    · simp only [Option.some.injEq, Prod.mk.injEq] at h
      rw [← h.1]
    · simp only [Option.some.injEq, Prod.mk.injEq] at h
      rw [← h.1]
    · cases hc : CancelNegativeWalk st walk d b with
      | none =>
        rw [hc] at h
        exact absurd h (by simp)
      | some r =>
        obtain ⟨st1, c⟩ := r
        rw [hc] at h
        cases c with
        | true =>
          simp only [Option.some.injEq, Prod.mk.injEq] at h
          exact absurd h.2 (by simp)
        | false =>
          simp only at h
          rw [ih st1 st' _ h]
          exact cancelNegativeWalk_unchanged st st1 walk d b hc

/-- A call of `PerformNegativeCycleCancelingForSingleDelta` during which no reading of the
clock is over the time limit returns `SUCCESS` or `NOTHING_CHANGED`, and in the second case
the flow is the one before the call. -/
theorem pass_without_time_limit (detection : WindfarmResidual → DetectionResult)
    (st st' : NCCState) (d : Int) (b : Bool) (code : ReturnCode)
    (h : PerformNegativeCycleCancelingForSingleDelta detection st d b [] = some (code, st')) :
    code = ReturnCode.SUCCESS
      ∨ (code = ReturnCode.NOTHING_CHANGED ∧ st'.windfarm.flowValues = st.windfarm.flowValues) := by
  have hflow : (StandardResidualCostComputer.ComputeResidualCosts st.windfarm d).flowValues
      = st.windfarm.flowValues :=
    StandardResidualCostComputer.ComputeStandardResidualCosts_flowValues _ _
  unfold PerformNegativeCycleCancelingForSingleDelta at h
  simp only [IsTimeLimitExceeded, List.headD_nil, Bool.false_eq_true, if_false] at h
  split_ifs at h with h1
  · cases he : ExtractWalkAndCancelCycle d b
        (detection (StandardResidualCostComputer.ComputeResidualCosts st.windfarm d)).walks
        { st with windfarm := StandardResidualCostComputer.ComputeResidualCosts st.windfarm d }
        ([] : List Bool).tail with
    | none =>
      rw [he] at h
      exact absurd h (by simp)
    | some r =>
      obtain ⟨st1, c⟩ := r
      rw [he] at h
      simp only [Option.some.injEq, Prod.mk.injEq] at h
      obtain ⟨k1, k2⟩ := h
      cases c with
      | true =>
        left
        rw [← k1]
        rfl
      | false =>
        right
        refine ⟨by rw [← k1]; rfl, ?_⟩
        rw [← k2, extractWalkAndCancelCycle_unchanged d b _ _ _ _ he]
        exact hflow
  · simp only [Option.some.injEq, Prod.mk.injEq] at h
    right
    refine ⟨h.1.symm, ?_⟩
    rw [← h.2]
    exact hflow

theorem runNCCforAllDeltasLoop_rule (strategy : DeltaStrategy)
    (detection : WindfarmResidual → DetectionResult)
    (I : Int → NCCState → List DeltaPass → Prop)
    (hstep : ∀ delta st passes code st', I delta st passes → strategy.Continue delta = true →
      PerformNegativeCycleCancelingForSingleDelta detection st delta true [] = some (code, st') →
      I (strategy.NextDelta delta (decide (code = ReturnCode.SUCCESS))) st'
        (passes ++ [⟨delta, code, st.windfarm, st'.windfarm⟩])) :
    ∀ (fuel : Nat) (delta : Int) (st : NCCState) (passes : List DeltaPass) (st' : NCCState)
      (passes' : List DeltaPass),
      RunNCCforAllDeltasLoop strategy detection fuel delta st [] passes = some (st', passes') →
      I delta st passes → ∃ delta', I delta' st' passes' ∧ strategy.Continue delta' = false := by
  intro fuel
  induction fuel with
  | zero =>
    intro delta st passes st' passes' h hI
    unfold RunNCCforAllDeltasLoop at h
    simp only [List.headD_nil, Bool.false_or] at h
    split_ifs at h with h1
    simp only [Option.some.injEq, Prod.mk.injEq] at h
    rw [← h.1, ← h.2]
    exact ⟨delta, hI, by simpa using h1⟩
  | succ fuel ih =>
    intro delta st passes st' passes' h hI
    unfold RunNCCforAllDeltasLoop at h
    simp only [List.headD_nil, Bool.false_or, List.tail_nil] at h
    split_ifs at h with h1
    · simp only [Option.some.injEq, Prod.mk.injEq] at h
      rw [← h.1, ← h.2]
      exact ⟨delta, hI, by simpa using h1⟩
    · have hcont : strategy.Continue delta = true := by simpa using h1
      cases hp : PerformNegativeCycleCancelingForSingleDelta detection st delta true [] with
      | none =>
        rw [hp] at h
        exact absurd h (by simp)
      | some r =>
        obtain ⟨code, st1⟩ := r
        rw [hp] at h
        simp only at h
        have hcode : code ≠ ReturnCode.TIME_LIMIT := by
          rcases pass_without_time_limit detection st st1 delta true code hp with k | k
          · rw [k]
            decide
          · rw [k.1]
            decide
        rw [if_neg hcode] at h
        exact ih _ _ _ _ _ h (hstep delta st passes code st1 hI hcont hp)

theorem range_map_succ_toNat (delta : Int) (h : 1 ≤ delta) :
    (List.range (delta + 1 - 1).toNat).map (fun i : Nat => (i : Int) + 1)
      = (List.range (delta - 1).toNat).map (fun i : Nat => (i : Int) + 1) ++ [delta] := by
  have h1 : (delta + 1 - 1).toNat = (delta - 1).toNat + 1 := by omega
  rw [h1, List.range_succ, List.map_append, List.map_singleton]
  congr 2
  omega

theorem range_map_sub_toNat (max delta : Int) (h : delta ≤ max) :
    (List.range (max - (delta - 1)).toNat).map (fun i : Nat => max - (i : Int))
      = (List.range (max - delta).toNat).map (fun i : Nat => max - (i : Int)) ++ [delta] := by
  have h1 : (max - (delta - 1)).toNat = (max - delta).toNat + 1 := by omega
  rw [h1, List.range_succ, List.map_append, List.map_singleton]
  congr 2
  omega

theorem increasing_passes (maximumFlowChange : Int)
    (detection : WindfarmResidual → DetectionResult) (fuel : Nat) (st st' : NCCState)
    (code : ReturnCode) (passes : List DeltaPass)
    (h : RunNCCforAllDeltas (IncreasingDeltaStrategy maximumFlowChange) detection fuel st []
      false = some (code, st', passes)) :
    (∀ p ∈ passes, 1 ≤ p.delta ∧ p.delta ≤ maximumFlowChange)
      ∧ ∃ earlier last, passes = earlier ++ last
        ∧ last.map DeltaPass.delta
          = (List.range maximumFlowChange.toNat).map (fun i : Nat => (i : Int) + 1)
        ∧ ∀ p ∈ last, p.code = ReturnCode.NOTHING_CHANGED
          ∧ p.before.flowValues = st'.windfarm.flowValues
          ∧ p.after.flowValues = st'.windfarm.flowValues := by
  unfold RunNCCforAllDeltas at h
  cases hl : RunNCCforAllDeltasLoop (IncreasingDeltaStrategy maximumFlowChange) detection fuel
      (IncreasingDeltaStrategy maximumFlowChange).FirstDelta st [] [] with
  | none =>
    rw [hl] at h
    exact absurd h (by simp)
  | some r =>
    obtain ⟨st1, passes1⟩ := r
    rw [hl] at h
    simp only [Option.some.injEq, Prod.mk.injEq] at h
    obtain ⟨_, h2, h3⟩ := h
    subst h2 h3
    obtain ⟨delta', ⟨k1, k2, earlier, last, k3, k4, k5⟩, k6⟩ :=
      runNCCforAllDeltasLoop_rule (IncreasingDeltaStrategy maximumFlowChange) detection
        (fun delta st passes =>
          (1 ≤ delta ∧ (delta = 1 ∨ delta ≤ maximumFlowChange + 1))
            ∧ (∀ p ∈ passes, 1 ≤ p.delta ∧ p.delta ≤ maximumFlowChange)
            ∧ ∃ earlier last, passes = earlier ++ last
              ∧ last.map DeltaPass.delta
                = (List.range (delta - 1).toNat).map (fun i : Nat => (i : Int) + 1)
              ∧ ∀ p ∈ last, p.code = ReturnCode.NOTHING_CHANGED
                ∧ p.before.flowValues = st.windfarm.flowValues
                ∧ p.after.flowValues = st.windfarm.flowValues)
        (by
          intro delta st passes code st' ⟨⟨a1, a2⟩, a3, earlier, last, a4, a5, a6⟩ hcont hp
          have hle : delta ≤ maximumFlowChange := by
            simpa [IncreasingDeltaStrategy] using hcont
          have hmem : ∀ p ∈ passes ++ [(⟨delta, code, st.windfarm, st'.windfarm⟩ : DeltaPass)],
              1 ≤ p.delta ∧ p.delta ≤ maximumFlowChange := by
            intro p hp'
            rcases List.mem_append.1 hp' with hp' | hp'
            · exact a3 p hp'
            · rw [List.mem_singleton.1 hp']
              exact ⟨a1, hle⟩
          rcases pass_without_time_limit detection st st' delta true code hp with k | ⟨k, kf⟩
          · subst k
            refine ⟨⟨le_refl _, Or.inl rfl⟩, hmem, _, [], (List.append_nil _).symm, rfl, ?_⟩
            intro p hp'
            exact absurd hp' (List.not_mem_nil _)
          · subst k
            refine ⟨⟨?_, Or.inr ?_⟩, hmem, earlier,
              last ++ [⟨delta, ReturnCode.NOTHING_CHANGED, st.windfarm, st'.windfarm⟩], ?_, ?_,
              ?_⟩
            · show 1 ≤ delta + 1
              omega
            · show delta + 1 ≤ maximumFlowChange + 1
              omega
            · rw [a4, List.append_assoc]
            · show _ = (List.range (delta + 1 - 1).toNat).map _
              rw [range_map_succ_toNat delta a1, List.map_append, a5]
              rfl
            · intro p hp'
              rcases List.mem_append.1 hp' with hp' | hp'
              · obtain ⟨b1, b2, b3⟩ := a6 p hp'
                exact ⟨b1, b2.trans kf.symm, b3.trans kf.symm⟩
              · rw [List.mem_singleton.1 hp']
                exact ⟨rfl, kf.symm, rfl⟩)
        fuel _ st [] st1 passes1 hl
        ⟨⟨le_refl _, Or.inl rfl⟩, fun p hp => absurd hp (List.not_mem_nil _), [], [], rfl, rfl,
          fun p hp => absurd hp (List.not_mem_nil _)⟩
    have hgt : maximumFlowChange < delta' := by
      simpa [IncreasingDeltaStrategy] using k6
    refine ⟨k2, earlier, last, k3, ?_, k5⟩
    rw [k4]
    have : (delta' - 1).toNat = maximumFlowChange.toNat := by
      rcases k1.2 with k | k
      · omega
      · omega
    rw [this]

theorem decreasing_passes (maximumFlowChange : Int)
    (detection : WindfarmResidual → DetectionResult) (fuel : Nat) (st st' : NCCState)
    (code : ReturnCode) (passes : List DeltaPass)
    (h : RunNCCforAllDeltas (DecreasingDeltaStrategy maximumFlowChange) detection fuel st []
      false = some (code, st', passes)) :
    (∀ p ∈ passes, 1 ≤ p.delta ∧ p.delta ≤ maximumFlowChange)
      ∧ ∃ earlier last, passes = earlier ++ last
        ∧ last.map DeltaPass.delta
          = (List.range maximumFlowChange.toNat).map
              (fun i : Nat => maximumFlowChange - (i : Int))
        ∧ ∀ p ∈ last, p.code = ReturnCode.NOTHING_CHANGED
          ∧ p.before.flowValues = st'.windfarm.flowValues
          ∧ p.after.flowValues = st'.windfarm.flowValues := by
  unfold RunNCCforAllDeltas at h
  cases hl : RunNCCforAllDeltasLoop (DecreasingDeltaStrategy maximumFlowChange) detection fuel
      (DecreasingDeltaStrategy maximumFlowChange).FirstDelta st [] [] with
  | none =>
    rw [hl] at h
    exact absurd h (by simp)
  | some r =>
    obtain ⟨st1, passes1⟩ := r
    rw [hl] at h
    simp only [Option.some.injEq, Prod.mk.injEq] at h
    obtain ⟨_, h2, h3⟩ := h
    subst h2 h3
    obtain ⟨delta', ⟨k1, k2, earlier, last, k3, k4, k5⟩, k6⟩ :=
      runNCCforAllDeltasLoop_rule (DecreasingDeltaStrategy maximumFlowChange) detection
        (fun delta st passes =>
          (delta ≤ maximumFlowChange ∧ (delta = maximumFlowChange ∨ 0 ≤ delta))
            ∧ (∀ p ∈ passes, 1 ≤ p.delta ∧ p.delta ≤ maximumFlowChange)
            ∧ ∃ earlier last, passes = earlier ++ last
              ∧ last.map DeltaPass.delta
                = (List.range (maximumFlowChange - delta).toNat).map
                    (fun i : Nat => maximumFlowChange - (i : Int))
              ∧ ∀ p ∈ last, p.code = ReturnCode.NOTHING_CHANGED
                ∧ p.before.flowValues = st.windfarm.flowValues
                ∧ p.after.flowValues = st.windfarm.flowValues)
        (by
          intro delta st passes code st' ⟨⟨a1, a2⟩, a3, earlier, last, a4, a5, a6⟩ hcont hp
          have hpos : 0 < delta := by
            simpa [DecreasingDeltaStrategy] using hcont
          have hmem : ∀ p ∈ passes ++ [(⟨delta, code, st.windfarm, st'.windfarm⟩ : DeltaPass)],
              1 ≤ p.delta ∧ p.delta ≤ maximumFlowChange := by
            intro p hp'
            rcases List.mem_append.1 hp' with hp' | hp'
            · exact a3 p hp'
            · rw [List.mem_singleton.1 hp']
              exact ⟨hpos, a1⟩
          rcases pass_without_time_limit detection st st' delta true code hp with k | ⟨k, kf⟩
          · subst k
            refine ⟨⟨le_refl _, Or.inl rfl⟩, hmem, _, [], (List.append_nil _).symm, ?_, ?_⟩
            · show _ = (List.range (maximumFlowChange - maximumFlowChange).toNat).map _
              rw [sub_self]
              rfl
            · intro p hp'
              exact absurd hp' (List.not_mem_nil _)
          · subst k
            refine ⟨⟨?_, Or.inr ?_⟩, hmem, earlier,
              last ++ [⟨delta, ReturnCode.NOTHING_CHANGED, st.windfarm, st'.windfarm⟩], ?_, ?_,
              ?_⟩
            · show delta - 1 ≤ maximumFlowChange
              omega
            · show 0 ≤ delta - 1
              omega
            · rw [a4, List.append_assoc]
            · show _ = (List.range (maximumFlowChange - (delta - 1)).toNat).map _
              rw [range_map_sub_toNat maximumFlowChange delta a1, List.map_append, a5]
              rfl
            · intro p hp'
              rcases List.mem_append.1 hp' with hp' | hp'
              · obtain ⟨b1, b2, b3⟩ := a6 p hp'
                exact ⟨b1, b2.trans kf.symm, b3.trans kf.symm⟩
              · rw [List.mem_singleton.1 hp']
                exact ⟨rfl, kf.symm, rfl⟩)
        fuel _ st [] st1 passes1 hl
        ⟨⟨le_refl _, Or.inl rfl⟩, fun p hp => absurd hp (List.not_mem_nil _), [], [], rfl,
          by
            show _ = (List.range (maximumFlowChange - maximumFlowChange).toNat).map _
            rw [sub_self]
            rfl,
          fun p hp => absurd hp (List.not_mem_nil _)⟩
    have hle : delta' ≤ 0 := by
      simpa [DecreasingDeltaStrategy] using k6
    refine ⟨k2, earlier, last, k3, ?_, k5⟩
    rw [k4]
    have : (maximumFlowChange - delta').toNat = maximumFlowChange.toNat := by
      rcases k1.2 with k | k
      · omega
      · omega
    rw [this]

end NegativeCycleCanceling

/-- C30: let no reading of the clock be over the time limit.  When `RunNCCforAllDeltas`
returns with the strategy `IncreasingDeltaStrategy` of the maximum `maximumFlowChange`,
every delta passed to `PerformNegativeCycleCancelingForSingleDelta` lies between `1` and the
maximum, and the last calls are calls with the deltas `1, 2, ..., maximumFlowChange`, in
this order, each of which returned `NOTHING_CHANGED` and began and ended with the flow that
the residual graph has in the end.  The same holds for `DecreasingDeltaStrategy` with the
deltas `maximumFlowChange, ..., 2, 1`. -/
theorem delta_strategies_end_with_unchanged_passes (maximumFlowChange : Int)
    (detection : WindfarmResidual → DetectionResult) (fuel : Nat) (st st' : NCCState)
    (code : ReturnCode) (passes : List DeltaPass) :
    (NegativeCycleCanceling.RunNCCforAllDeltas (IncreasingDeltaStrategy maximumFlowChange)
          detection fuel st [] false = some (code, st', passes) →
        (∀ p ∈ passes, 1 ≤ p.delta ∧ p.delta ≤ maximumFlowChange)
          ∧ ∃ earlier last, passes = earlier ++ last
            ∧ last.map DeltaPass.delta
              = (List.range maximumFlowChange.toNat).map (fun i : Nat => (i : Int) + 1)
            ∧ ∀ p ∈ last, p.code = ReturnCode.NOTHING_CHANGED
              ∧ p.before.flowValues = st'.windfarm.flowValues
              ∧ p.after.flowValues = st'.windfarm.flowValues)
      ∧ (NegativeCycleCanceling.RunNCCforAllDeltas (DecreasingDeltaStrategy maximumFlowChange)
          detection fuel st [] false = some (code, st', passes) →
        (∀ p ∈ passes, 1 ≤ p.delta ∧ p.delta ≤ maximumFlowChange)
          ∧ ∃ earlier last, passes = earlier ++ last
            ∧ last.map DeltaPass.delta
              = (List.range maximumFlowChange.toNat).map
                  (fun i : Nat => maximumFlowChange - (i : Int))
            ∧ ∀ p ∈ last, p.code = ReturnCode.NOTHING_CHANGED
              ∧ p.before.flowValues = st'.windfarm.flowValues
              ∧ p.after.flowValues = st'.windfarm.flowValues) :=
  ⟨NegativeCycleCanceling.increasing_passes maximumFlowChange detection fuel st st' code passes,
    NegativeCycleCanceling.decreasing_passes maximumFlowChange detection fuel st st' code passes⟩

/-- Witness of C30: the triangle with the flow `[1, 1, 0, 2]`, the maximum `2` and a
detection strategy that hands out the closed walk `2, 1, 3` for this flow and no walk for
any other flow.  The calls are made with the deltas `1, 1, 2`: the first one cancels the
walk, the two last ones return `NOTHING_CHANGED` on the final flow `[0, 2, 1, 2]`. -/
theorem delta_strategies_end_with_unchanged_passes_witness :
    ∃ st' passes,
      NegativeCycleCanceling.RunNCCforAllDeltas (IncreasingDeltaStrategy 2)
          (fun w => if w.flowValues = [1, 1, 0, 2] then ⟨ReturnCode.SUCCESS, [[2, 1, 3]]⟩
            else ⟨ReturnCode.SUCCESS, []⟩) 10
          { windfarm := triangleGraph [1, 1, 0, 2] [0, 0, 0, 0, 0, 0, 0, 0]
            visitedVertex := [false, false, false, false]
            walkID := 0
            solutionCosts := ((400 : ℚ) : WithTop ℚ) } [] false
        = some (ReturnCode.SUCCESS, st', passes)
      ∧ st'.windfarm.flowValues = [0, 2, 1, 2]
      ∧ passes.map (fun p => (p.delta, p.code, p.before.flowValues))
        = [(1, ReturnCode.SUCCESS, [1, 1, 0, 2]), (1, ReturnCode.NOTHING_CHANGED, [0, 2, 1, 2]),
            (2, ReturnCode.NOTHING_CHANGED, [0, 2, 1, 2])]
      ∧ (∀ p ∈ passes, 1 ≤ p.delta ∧ p.delta ≤ 2)
      ∧ ∃ earlier last, passes = earlier ++ last
        ∧ last.map DeltaPass.delta = (List.range (2 : Int).toNat).map (fun i : Nat => (i : Int) + 1)
        ∧ ∀ p ∈ last, p.code = ReturnCode.NOTHING_CHANGED
          ∧ p.before.flowValues = st'.windfarm.flowValues
          ∧ p.after.flowValues = st'.windfarm.flowValues := by
  have e : (NegativeCycleCanceling.RunNCCforAllDeltas (IncreasingDeltaStrategy 2)
          (fun w => if w.flowValues = [1, 1, 0, 2] then ⟨ReturnCode.SUCCESS, [[2, 1, 3]]⟩
            else ⟨ReturnCode.SUCCESS, []⟩) 10
          { windfarm := triangleGraph [1, 1, 0, 2] [0, 0, 0, 0, 0, 0, 0, 0]
            visitedVertex := [false, false, false, false]
            walkID := 0
            solutionCosts := ((400 : ℚ) : WithTop ℚ) } [] false).map
        (fun r => (r.1, r.2.1.windfarm.flowValues,
          r.2.2.map (fun p => (p.delta, p.code, p.before.flowValues))))
      = some (ReturnCode.SUCCESS, [0, 2, 1, 2],
          [(1, ReturnCode.SUCCESS, [1, 1, 0, 2]), (1, ReturnCode.NOTHING_CHANGED, [0, 2, 1, 2]),
            (2, ReturnCode.NOTHING_CHANGED, [0, 2, 1, 2])]) := by
    with_unfolding_all rfl
  cases hr : NegativeCycleCanceling.RunNCCforAllDeltas (IncreasingDeltaStrategy 2)
      (fun w => if w.flowValues = [1, 1, 0, 2] then ⟨ReturnCode.SUCCESS, [[2, 1, 3]]⟩
        else ⟨ReturnCode.SUCCESS, []⟩) 10
      { windfarm := triangleGraph [1, 1, 0, 2] [0, 0, 0, 0, 0, 0, 0, 0]
        visitedVertex := [false, false, false, false]
        walkID := 0
        solutionCosts := ((400 : ℚ) : WithTop ℚ) } [] false with
  | none =>
    rw [hr] at e
    exact absurd e (by simp)
  | some r =>
    obtain ⟨code, st', passes⟩ := r
    rw [hr] at e
    simp only [Option.map_some', Option.some.injEq, Prod.mk.injEq] at e
    obtain ⟨e1, e2, e3⟩ := e
    subst e1
    exact ⟨st', passes, rfl, e2, e3,
      (delta_strategies_end_with_unchanged_passes 2 _ 10 _ st' ReturnCode.SUCCESS passes).1 hr⟩

end wcp

/-! # The walks of the side-trip-free Bellman-Ford -/

namespace wcp

namespace BellmanFord

variable {L : Type}

theorem forall_mem_set {α : Type} (P : α → Prop) (l : List α) (i : Nat) (x : α)
    (h : ∀ y ∈ l, P y) (hx : P x) : ∀ y ∈ l.set i x, P y := by
  intro y hy
  rcases List.mem_or_eq_of_mem_set hy with hy | hy
  · exact h y hy
  · rw [hy]
    exact hx

theorem labelAt_of_all (ops : LabelType L) (P : L → Prop) (hinit : P ops.init)
    (s : BellmanFord L) (h : ∀ l ∈ s.labels, P l) (v : Nat) : P (LabelAt ops s v) := by
  unfold LabelAt
  by_cases hv : v < s.labels.length
  · rw [getD_eq_getElem_of_lt _ _ _ hv]
    exact h _ (List.getElem_mem _)
  · rw [getD_of_length_le _ _ _ (not_lt.1 hv)]
    exact hinit

theorem relaxFold_all (ops : LabelType L) (P : L → Prop) (hinit : P ops.init)
    (hupd : ∀ l d p, P l → P (ops.Update l d p).1) (w : WindfarmResidual) (v : Nat) :
    ∀ (es : List Nat) (st : BellmanFord L × Bool), (∀ l ∈ st.1.labels, P l) →
      ∀ l ∈ (es.foldl (RelaxEdgeStep ops w v) st).1.labels, P l := by
  intro es
  induction es with
  | nil => intro st h; exact h
  | cons e es ih =>
    intro st h
    rw [List.foldl_cons]
    apply ih
    rw [relaxEdgeStep_eq]
    exact forall_mem_set P _ _ _ h (hupd _ _ _ (labelAt_of_all ops P hinit st.1 h _))

theorem runStep_all (ops : LabelType L) (P : L → Prop) (hinit : P ops.init)
    (hupd : ∀ l d p, P l → P (ops.Update l d p).1) (w : WindfarmResidual)
    (s : BellmanFord L) (v : Nat) (h : ∀ l ∈ s.labels, P l) :
    ∀ l ∈ (RunStep ops w s v).labels, P l := by
  by_cases hf : s.updatedSinceLastTime.getD v false = true
  · rw [((runStep_frame' ops w s v).1 hf).1]
    exact relaxFold_all ops P hinit hupd w v _ (s, false) h
  · rw [(runStep_frame' ops w s v).2 hf]
    exact h

theorem runLoop_all (ops : LabelType L) (P : L → Prop) (hinit : P ops.init)
    (hupd : ∀ l d p, P l → P (ops.Update l d p).1) (w : WindfarmResidual) :
    ∀ (vs : List Nat) (s : BellmanFord L), (∀ l ∈ s.labels, P l) →
      ∀ l ∈ (RunLoop ops w vs s).2.labels, P l := by
  intro vs
  induction vs with
  | nil => intro s h; exact h
  | cons v vs ih =>
    intro s h
    rw [runLoop_cons]
    by_cases h1 : (v : Int) = s.vertexOfLastUpdate
    · rw [if_pos h1]
      exact h
    · rw [if_neg h1]
      exact ih _ (runStep_all ops P hinit hupd w s v h)

theorem initializeLabels_all (ops : LabelType L) (P : L → Prop) (hinit : P ops.init)
    (hupd : ∀ l d p, P l → P (ops.Update l d p).1) (w : WindfarmResidual) :
    ∀ (es : List Nat) (s : BellmanFord L), (∀ l ∈ s.labels, P l) →
      ∀ l ∈ (es.foldl (fun s edge =>
        (UpdateLabelAt ops s (w.EndVertex edge) (w.ResidualCostOnEdge edge) edge).1) s).labels,
        P l := by
  intro es
  induction es with
  | nil => intro s h; exact h
  | cons e es ih =>
    intro s h
    rw [List.foldl_cons]
    apply ih
    exact forall_mem_set P _ _ _ h (hupd _ _ _ (labelAt_of_all ops P hinit s h _))

/-- A property of labels that holds for a new label and that `Update` keeps holds for every
label after `Run`. -/
theorem run_labels_all (ops : LabelType L) (P : L → Prop) (hinit : P ops.init)
    (hupd : ∀ l d p, P l → P (ops.Update l d p).1) (w : WindfarmResidual)
    (s : BellmanFord L) (v : Nat) : P (LabelAt ops (Run ops w s).2 v) := by
  apply labelAt_of_all ops P hinit
  unfold Run
  apply runLoop_all ops P hinit hupd
  unfold InitializeLabels
  apply initializeLabels_all ops P hinit hupd
  intro l hl
  have hl' : l ∈ s.labels.map fun _ => ops.init := hl
  rw [List.mem_map] at hl'
  obtain ⟨_, _, h⟩ := hl'
  rw [← h]
  exact hinit

end BellmanFord

namespace TwoDistancesLabel

theorem parent_ne_reverse (l : TwoDistancesLabel) (h : l.Consistent) (w : WindfarmResidual)
    (e : Nat) : l.Parent w e ≠ some (w.ReverseEdgeIndex e) := by
  unfold Parent ParentForbidding
  by_cases c : l.parent = some (w.ReverseEdgeIndex e)
  · rw [if_pos c]
    intro h2
    exact h.distinct (by rw [h2]; simp) (by rw [c, h2])
  · rw [if_neg c]
    exact c

theorem parent_distance_paired (l : TwoDistancesLabel) (w : WindfarmResidual) (e : Nat) :
    (l.Parent w e = l.parent ∧ l.Distance w e = l.dist)
      ∨ (l.Parent w e = l.parentSecond ∧ l.Distance w e = l.distSecond) := by
  unfold Parent ParentForbidding Distance DistanceForbidding
  by_cases c : l.parent = some (w.ReverseEdgeIndex e)
  · rw [if_pos c, if_pos c]
    exact Or.inr ⟨rfl, rfl⟩
  · rw [if_neg c, if_neg c]
    exact Or.inl ⟨rfl, rfl⟩

end TwoDistancesLabel

/-- The walks that `ExtractNegativeClosedWalk` returns after a `Run` with the label
`TwoDistancesLabel` have no edge that is followed by its reverse edge, also not from the
last edge to the first one. -/
theorem sideTripFree_walks (w : WindfarmResidual)
    (hw : ∀ v, ∀ e ∈ w.OutgoingEdges v, e < w.NumberOfEdges)
    (hn : w.NumberOfEdges = 2 * w.NumberOfOriginalEdges + 2 * w.NumberOfSubstations)
    (s : BellmanFord TwoDistancesLabel) (n : Nat) (walks : List (List Nat)) (hs : s.SizedFor w)
    (h : (BellmanFord.ExtractNegativeClosedWalks twoDistancesLabel w n
      (BellmanFord.Run twoDistancesLabel w s).2).map Prod.snd = some walks) :
    ∀ walk ∈ walks, List.Chain' (fun a b => b ≠ w.ReverseEdgeIndex a) walk
      ∧ ∀ a ∈ walk.getLast?, ∀ b ∈ walk.head?, b ≠ w.ReverseEdgeIndex a := by
  have hcons : ∀ v, (BellmanFord.LabelAt twoDistancesLabel
      (BellmanFord.Run twoDistancesLabel w s).2 v).Consistent :=
    BellmanFord.run_labels_all twoDistancesLabel TwoDistancesLabel.Consistent
      TwoDistancesLabel.consistent_init
      (fun l d p hl => TwoDistancesLabel.consistent_update l d p hl) w s
  have hpar : ∀ a b, a < w.NumberOfEdges → b < w.NumberOfEdges →
      BellmanFord.chainParent twoDistancesLabel w (BellmanFord.Run twoDistancesLabel w s).2 a
        = some b → a ≠ w.ReverseEdgeIndex b := by
    intro a b ha hb hab h2
    have h3 := TwoDistancesLabel.parent_ne_reverse _ (hcons (w.StartVertex a)) w a
    apply h3
    have h4 : w.ReverseEdgeIndex a = b := by
      rw [h2]
      exact WindfarmResidual.ReverseEdgeIndex_involutive w b (by omega)
    rw [h4]
    exact hab
  cases hex : BellmanFord.ExtractNegativeClosedWalks twoDistancesLabel w n
      (BellmanFord.Run twoDistancesLabel w s).2 with
  | none =>
    rw [hex] at h
    exact absurd h (by simp)
  | some r =>
    obtain ⟨s', walks'⟩ := r
    rw [hex] at h
    simp only [Option.map_some', Option.some.injEq] at h
    subst h
    intro walk hwalk
    by_cases hne : walk = []
    · rw [hne]
      exact ⟨List.chain'_nil, fun a ha => absurd ha (by simp)⟩
    · refine BellmanFord.extractNegativeClosedWalks_rule twoDistancesLabel _
        twoDistancesLabel_parents w hw (BellmanFord.Run twoDistancesLabel w s).2
        (fun walk => List.Chain' (fun a b => b ≠ w.ReverseEdgeIndex a) walk
          ∧ ∀ a ∈ walk.getLast?, ∀ b ∈ walk.head?, b ≠ w.ReverseEdgeIndex a)
        ?_ n _ s' walks' rfl
        (BellmanFord.run_extractInv twoDistancesLabel _ twoDistancesLabel_parents w hw s hs) hex
        walk hwalk hne
      intro s1 s2 v e walk1 hl hp hsz hm _ _ hext hne1
      obtain ⟨_, k⟩ := BellmanFord.extractWalk_chain twoDistancesLabel _
        twoDistancesLabel_parents w s1 e s2 walk1 hp hsz hm
        (hw v e (List.mem_of_find?_eq_some (by assumption))) hext
      obtain ⟨W, x, T, c1, _, _, c4, c5, c6, c7⟩ := k hne1
      have hcp : ∀ a, BellmanFord.chainParent twoDistancesLabel w s1 a
          = BellmanFord.chainParent twoDistancesLabel w (BellmanFord.Run twoDistancesLabel w s).2
              a :=
        fun a => BellmanFord.chainParent_congr twoDistancesLabel w _ s1 hl a
      have hmem : ∀ a ∈ x :: T, a < w.NumberOfEdges := fun a ha => c4 a (c5.subset ha)
      have hchain : List.Chain' (fun a b => a ≠ w.ReverseEdgeIndex b) (x :: T) := by
        have h1 := List.Chain'.iff_mem.1 (c1.suffix c5)
        refine h1.imp ?_
        intro a b hab
        have h2 := hab.2.2
        rw [hcp] at h2
        exact hpar a b (hmem a hab.1) (hmem b hab.2.1) h2
      rw [c6]
      constructor
      · rw [List.chain'_reverse]
        exact hchain
      · intro a ha b hb
        rw [List.getLast?_reverse] at ha
        rw [List.head?_reverse] at hb
        have ha' : x = a := by simpa using ha
        have hb1 : (x :: T).getLast? = some b := hb
        have hb' : (x :: T).getLastD 0 = b := by
          rw [List.getLastD_eq_getLast?, hb1]
          rfl
        rw [hb', hcp] at c7
        rw [← ha']
        exact hpar b x (hmem b (List.mem_of_getLast?_eq_some hb1))
          (hmem x (List.mem_cons_self _ _)) c7

/-- C29: for every `TwoDistancesLabel` reached from a new label by calls of `Update`
and every edge `e`, `Parent(graph, e)` is not `ReverseEdgeIndex(e)`, and `Parent(graph, e)`
and `Distance(graph, e)` are the parent and the distance of one of the two pairs stored in
the label.  Hence, on a residual graph whose edges come in pairs of reverse edges and
whose outgoing edges are edges of the graph, no vector that `ExtractNegativeClosedWalk`
returns after a `Run` of the side-trip-free Bellman-Ford has an edge followed by its
reverse edge, also not from the last edge to the first one. -/
theorem side_trip_free_label_forbids_reverse (w : WindfarmResidual) :
    (∀ (calls : List (WithTop ℚ × Nat)) (e : Nat),
        (TwoDistancesLabel.UpdateAll {} calls).Parent w e ≠ some (w.ReverseEdgeIndex e)
          ∧ (((TwoDistancesLabel.UpdateAll {} calls).Parent w e
                = (TwoDistancesLabel.UpdateAll {} calls).parent
              ∧ (TwoDistancesLabel.UpdateAll {} calls).Distance w e
                = (TwoDistancesLabel.UpdateAll {} calls).dist)
            ∨ ((TwoDistancesLabel.UpdateAll {} calls).Parent w e
                = (TwoDistancesLabel.UpdateAll {} calls).parentSecond
              ∧ (TwoDistancesLabel.UpdateAll {} calls).Distance w e
                = (TwoDistancesLabel.UpdateAll {} calls).distSecond)))
      ∧ ((∀ v, ∀ e ∈ w.OutgoingEdges v, e < w.NumberOfEdges) →
        w.NumberOfEdges = 2 * w.NumberOfOriginalEdges + 2 * w.NumberOfSubstations →
        ∀ (s : BellmanFord TwoDistancesLabel) (n : Nat) (walks : List (List Nat)),
          s.SizedFor w →
          (BellmanFord.ExtractNegativeClosedWalks twoDistancesLabel w n
            (BellmanFord.Run twoDistancesLabel w s).2).map Prod.snd = some walks →
          ∀ walk ∈ walks, List.Chain' (fun a b => b ≠ w.ReverseEdgeIndex a) walk
            ∧ ∀ a ∈ walk.getLast?, ∀ b ∈ walk.head?, b ≠ w.ReverseEdgeIndex a) :=
  ⟨fun calls e =>
      ⟨TwoDistancesLabel.parent_ne_reverse _
          (TwoDistancesLabel.consistent_updateAll calls _ TwoDistancesLabel.consistent_init) w e,
        TwoDistancesLabel.parent_distance_paired _ w e⟩,
    fun hw hn s n walks hs h => sideTripFree_walks w hw hn s n walks hs h⟩

/-- Witness of C29: the triangle with the residual costs `-3, -5, -5, 2, 1, 1, 1, 1`.  The
side-trip-free Bellman-Ford returns the closed walks `1, 3, 2` and `0, 4, 5` and then an
empty vector. -/
theorem side_trip_free_label_forbids_reverse_witness :
    (∀ v, ∀ e ∈ (triangleGraph [0, 0, 0, 0] [-3, -5, -5, 2, 1, 1, 1, 1]).OutgoingEdges v,
        e < (triangleGraph [0, 0, 0, 0] [-3, -5, -5, 2, 1, 1, 1, 1]).NumberOfEdges)
      ∧ (BellmanFord.ExtractNegativeClosedWalks twoDistancesLabel
          (triangleGraph [0, 0, 0, 0] [-3, -5, -5, 2, 1, 1, 1, 1]) 3
          (BellmanFord.Run twoDistancesLabel
            (triangleGraph [0, 0, 0, 0] [-3, -5, -5, 2, 1, 1, 1, 1])
            (BellmanFord.create twoDistancesLabel
              (triangleGraph [0, 0, 0, 0] [-3, -5, -5, 2, 1, 1, 1, 1]))).2).map Prod.snd
        = some [[1, 3, 2], [0, 4, 5], []]
      ∧ ∀ walk ∈ [[1, 3, 2], [0, 4, 5], []],
          List.Chain' (fun a b =>
            b ≠ (triangleGraph [0, 0, 0, 0] [-3, -5, -5, 2, 1, 1, 1, 1]).ReverseEdgeIndex a) walk
          ∧ ∀ a ∈ walk.getLast?, ∀ b ∈ walk.head?,
            b ≠ (triangleGraph [0, 0, 0, 0] [-3, -5, -5, 2, 1, 1, 1, 1]).ReverseEdgeIndex a :=
  have hw : ∀ v, ∀ e ∈ (triangleGraph [0, 0, 0, 0] [-3, -5, -5, 2, 1, 1, 1, 1]).OutgoingEdges v,
      e < (triangleGraph [0, 0, 0, 0] [-3, -5, -5, 2, 1, 1, 1, 1]).NumberOfEdges := by
    intro v e he
    by_cases hv : v < 4
    · interval_cases v <;> revert e <;> decide
    · have h0 : (triangleGraph [0, 0, 0, 0] [-3, -5, -5, 2, 1, 1, 1, 1]).OutgoingEdges v = [] := by
        unfold WindfarmResidual.OutgoingEdges WindfarmResidual.VertexAt
        rw [getD_of_length_le _ _ _ (by show 4 ≤ v; omega)]
        rfl
      rw [h0] at he
      exact absurd he (List.not_mem_nil _)
  ⟨hw, by with_unfolding_all decide,
    (side_trip_free_label_forbids_reverse
      (triangleGraph [0, 0, 0, 0] [-3, -5, -5, 2, 1, 1, 1, 1])).2 hw rfl
      (BellmanFord.create twoDistancesLabel
        (triangleGraph [0, 0, 0, 0] [-3, -5, -5, 2, 1, 1, 1, 1])) 3 _ ⟨rfl, rfl, rfl⟩
      (by with_unfolding_all decide)⟩

end wcp

/-! # `EscapingNewInitialization` and the strategy `Collecting` -/

namespace wcp

end wcp

/-! # The loop of `TryToChangeFlowByApplyingEscapingStrategies` -/

namespace wcp

namespace EscapingNCC

variable {E : Type}

theorem tryToChange_rule (calls : EscapingCalls E) (I : EscapingNCC E → Prop)
    (Q : ReturnCode → EscapingNCC E → Prop)
    (hstep : ∀ s, I s → (countIteration s).keeperOfEscapingStrategies.CheckConsistency = true →
      ((readClock calls (countIteration s)).1 = true →
        Q ReturnCode.TIME_LIMIT (readClock calls (countIteration s)).2)
      ∧ ((readClock calls (countIteration s)).1 = false →
        (IsIterationLimitExceeded (readClock calls (countIteration s)).2 = true →
          Q ReturnCode.ITERATION_LIMIT (readClock calls (countIteration s)).2)
        ∧ (IsIterationLimitExceeded (readClock calls (countIteration s)).2 = false →
          ((drawStrategy calls (readClock calls (countIteration s)).2).keeperOfEscapingStrategies
              |>.HasCurrentStrategyBeenUsedInCurrentIteration) = true →
            I (skipStrategy (drawStrategy calls (readClock calls (countIteration s)).2)))
        ∧ (IsIterationLimitExceeded (readClock calls (countIteration s)).2 = false →
          ((drawStrategy calls (readClock calls (countIteration s)).2).keeperOfEscapingStrategies
              |>.HasCurrentStrategyBeenUsedInCurrentIteration) = false →
            ((applyStrategy calls (drawStrategy calls (readClock calls (countIteration s)).2)).1
                = ReturnCode.SUCCESS →
              Q ReturnCode.IN_PROGRESS
                (DoBookkeepingAfterSuccessfulEscaping
                  (applyStrategy calls
                    (drawStrategy calls (readClock calls (countIteration s)).2)).2))
            ∧ ((applyStrategy calls (drawStrategy calls (readClock calls (countIteration s)).2)).1
                = ReturnCode.NOTHING_CHANGED →
              (CanEscapingContinueAfterUnsuccessfulTry
                  (DoBookkeepingAfterUnsuccessfulEscaping
                    (applyStrategy calls
                      (drawStrategy calls (readClock calls (countIteration s)).2)).2)
                  = ReturnCode.IN_PROGRESS →
                I (DoBookkeepingAfterUnsuccessfulEscaping
                    (applyStrategy calls
                      (drawStrategy calls (readClock calls (countIteration s)).2)).2))
              ∧ (CanEscapingContinueAfterUnsuccessfulTry
                  (DoBookkeepingAfterUnsuccessfulEscaping
                    (applyStrategy calls
                      (drawStrategy calls (readClock calls (countIteration s)).2)).2)
                  ≠ ReturnCode.IN_PROGRESS →
                Q (CanEscapingContinueAfterUnsuccessfulTry
                    (DoBookkeepingAfterUnsuccessfulEscaping
                      (applyStrategy calls
                        (drawStrategy calls (readClock calls (countIteration s)).2)).2))
                  (DoBookkeepingAfterUnsuccessfulEscaping
                    (applyStrategy calls
                      (drawStrategy calls (readClock calls (countIteration s)).2)).2)))))) :
    ∀ (fuel : Nat) (s : EscapingNCC E) (code : ReturnCode) (s' : EscapingNCC E), I s →
      TryToChangeFlowByApplyingEscapingStrategies calls fuel s = some (code, s') → Q code s' := by
  intro fuel
  induction fuel with
  | zero =>
    intro s code s' _ h
    exact absurd h (by simp [TryToChangeFlowByApplyingEscapingStrategies])
  | succ fuel ih =>
    intro s code s' hI h
    unfold TryToChangeFlowByApplyingEscapingStrategies at h
    by_cases c0 : (countIteration s).keeperOfEscapingStrategies.CheckConsistency = true
    · rw [c0] at h
      simp only [Bool.not_true, Bool.false_eq_true, if_false] at h
      obtain ⟨k1, k2⟩ := hstep s hI c0
      by_cases c1 : (readClock calls (countIteration s)).1 = true
      · rw [if_pos c1] at h
        simp only [Option.some.injEq, Prod.mk.injEq] at h
        rw [← h.1, ← h.2]
        exact k1 c1
      · rw [if_neg c1] at h
        have c1' : (readClock calls (countIteration s)).1 = false := by simpa using c1
        obtain ⟨k3, k4, k5⟩ := k2 c1'
        by_cases c2 : IsIterationLimitExceeded (readClock calls (countIteration s)).2 = true
        · rw [if_pos c2] at h
          simp only [Option.some.injEq, Prod.mk.injEq] at h
          rw [← h.1, ← h.2]
          exact k3 c2
        · rw [if_neg c2] at h
          have c2' : IsIterationLimitExceeded (readClock calls (countIteration s)).2 = false := by
            simpa using c2
          by_cases c3 : ((drawStrategy calls
              (readClock calls (countIteration s)).2).keeperOfEscapingStrategies
                |>.HasCurrentStrategyBeenUsedInCurrentIteration) = true
          · rw [if_pos c3] at h
            exact ih _ _ _ (k4 c2' c3) h
          · rw [if_neg c3] at h
            have c3' : ((drawStrategy calls
                (readClock calls (countIteration s)).2).keeperOfEscapingStrategies
                  |>.HasCurrentStrategyBeenUsedInCurrentIteration) = false := by
              simpa using c3
            obtain ⟨k6, k7⟩ := k5 c2' c3'
            by_cases c4 : (applyStrategy calls
                (drawStrategy calls (readClock calls (countIteration s)).2)).1
                  = ReturnCode.SUCCESS
            · rw [if_pos c4] at h
              simp only [Option.some.injEq, Prod.mk.injEq] at h
              rw [← h.1, ← h.2]
              exact k6 c4
            · rw [if_neg c4] at h
              by_cases c5 : (applyStrategy calls
                  (drawStrategy calls (readClock calls (countIteration s)).2)).1
                    = ReturnCode.NOTHING_CHANGED
              · rw [if_neg (not_not.2 c5)] at h
                obtain ⟨k8, k9⟩ := k7 c5
                by_cases c6 : CanEscapingContinueAfterUnsuccessfulTry
                    (DoBookkeepingAfterUnsuccessfulEscaping
                      (applyStrategy calls
                        (drawStrategy calls (readClock calls (countIteration s)).2)).2)
                    = ReturnCode.IN_PROGRESS
                · rw [if_pos c6] at h
                  exact ih _ _ _ (k8 c6) h
                · rw [if_neg c6] at h
                  simp only [Option.some.injEq, Prod.mk.injEq] at h
                  rw [← h.1, ← h.2]
                  exact k9 c6
              · rw [if_pos c5] at h
                exact absurd h (by simp)
    · have c0' : (countIteration s).keeperOfEscapingStrategies.CheckConsistency = false := by
        simpa using c0
      rw [c0'] at h
      exact absurd h (by simp)

/-! ## The record of events -/

theorem applied_append (l : List EscapingEvent) (e : EscapingEvent) :
    appliedSinceLastSuccess (l ++ [e])
      = match e with
        | EscapingEvent.apply index code _ =>
          if code = ReturnCode.SUCCESS then [] else appliedSinceLastSuccess l ++ [index]
        | _ => appliedSinceLastSuccess l := by
  unfold appliedSinceLastSuccess
  rw [List.foldl_append]
  cases e <;> rfl

theorem saveBest_frame (s : EscapingNCC E) (c : ℚ) :
    (SaveBestFlowIfNecessary s c).keeperOfEscapingStrategies = s.keeperOfEscapingStrategies
      ∧ (SaveBestFlowIfNecessary s c).runs = s.runs
      ∧ (SaveBestFlowIfNecessary s c).iterationLimit = s.iterationLimit
      ∧ (SaveBestFlowIfNecessary s c).members = s.members
      ∧ (SaveBestFlowIfNecessary s c).events
        = s.events ++ [EscapingEvent.save c (SaveBestFlowIfNecessary s c).bestSolutionValue
            (SaveBestFlowIfNecessary s c).bestFlow] := by
  unfold SaveBestFlowIfNecessary
  simp only
  split_ifs
  · exact ⟨rfl, rfl, rfl, rfl, rfl⟩
  · exact ⟨rfl, rfl, rfl, rfl, rfl⟩

theorem full_of_length (l : List Nat) (n : Nat) (h1 : l.Nodup) (h2 : ∀ x ∈ l, x < n)
    (h3 : l.length = n) : ∀ j, j < n → j ∈ l := by
  intro j hj
  have hs : l ⊆ List.range n := fun x hx => List.mem_range.2 (h2 x hx)
  have hp := (List.Nodup.subperm h1 hs).perm_of_length_le (by rw [List.length_range, h3])
  exact hp.symm.subset (List.mem_range.2 hj)

theorem length_of_full (l : List Nat) (n : Nat) (h1 : l.Nodup) (h2 : ∀ x ∈ l, x < n)
    (h3 : ∀ j, j < n → j ∈ l) : l.length = n := by
  have hs : List.range n ⊆ l := fun x hx => h3 x (List.mem_range.1 hx)
  have hs' : l ⊆ List.range n := fun x hx => List.mem_range.2 (h2 x hx)
  have a := (List.Nodup.subperm (List.nodup_range n) hs).length_le
  have b := (List.Nodup.subperm h1 hs').length_le
  rw [List.length_range] at a b
  omega

theorem positions_append {α : Type} (R : List α → α → Prop) (l : List α) (e : α) (n0 : Nat)
    (h : ∀ k, n0 ≤ k → ∀ x, l[k]? = some x → R (l.take k) x) (he : R l e) :
    ∀ k, n0 ≤ k → ∀ x, (l ++ [e])[k]? = some x → R ((l ++ [e]).take k) x := by
  intro k hk x hx
  by_cases c : k < l.length
  · rw [List.getElem?_append_left c] at hx
    rw [List.take_append_of_le_length (le_of_lt c)]
    exact h k hk x hx
  · rw [List.getElem?_append_right (not_lt.1 c)] at hx
    by_cases c2 : k = l.length
    · subst c2
      rw [Nat.sub_self] at hx
      simp only [List.getElem?_cons_zero, Option.some.injEq] at hx
      rw [List.take_left' rfl, ← hx]
      exact he
    · have : k - l.length = (k - l.length - 1) + 1 := by omega
      rw [this] at hx
      simp at hx

/-! ## The keeper during the loop -/

theorem keeperInv_count (s : EscapingNCC E) (h : KeeperInv s) :
    KeeperInv (countIteration s)
      ∧ (countIteration s).keeperOfEscapingStrategies.iterationOfLastChange
        < (countIteration s).runs :=
  ⟨⟨h.size, h.nodup, h.used, h.count, Nat.le_succ_of_le h.change,
      fun x hx => Nat.le_succ_of_le (h.le x hx)⟩,
    Nat.lt_succ_of_le h.change⟩

theorem keeperInv_clock (calls : EscapingCalls E) (s : EscapingNCC E) (h : KeeperInv s) :
    KeeperInv (readClock calls s).2 :=
  ⟨h.size, h.nodup, h.used, h.count, h.change, h.le⟩

theorem keeperInv_draw (calls : EscapingCalls E) (s : EscapingNCC E) (h : KeeperInv s) :
    KeeperInv (drawStrategy calls s) := by
  have e : appliedSinceLastSuccess (drawStrategy calls s).events
      = appliedSinceLastSuccess s.events := applied_append _ _
  refine ⟨h.size, ?_, ?_, ?_, h.change, h.le⟩
  · rw [e]
    exact h.nodup
  · rw [e]
    exact h.used
  · rw [e]
    exact h.count

theorem keeperInv_skip (s : EscapingNCC E) (h : KeeperInv s) : KeeperInv (skipStrategy s) := by
  have e : appliedSinceLastSuccess (skipStrategy s).events
      = appliedSinceLastSuccess s.events := applied_append _ _
  refine ⟨h.size, ?_, ?_, ?_, h.change, h.le⟩
  · rw [e]
    exact h.nodup
  · rw [e]
    exact h.used
  · rw [e]
    exact h.count

theorem used_iff (s : EscapingNCC E) (h : KeeperInv s)
    (hi : s.keeperOfEscapingStrategies.indexOfCurrentEscapingStrategy
      < s.keeperOfEscapingStrategies.numberOfStrategies) :
    s.keeperOfEscapingStrategies.HasCurrentStrategyBeenUsedInCurrentIteration = true
      ↔ s.keeperOfEscapingStrategies.indexOfCurrentEscapingStrategy
        ∈ appliedSinceLastSuccess s.events := by
  rw [h.used]
  unfold KeeperOfEscapingStrategies.HasCurrentStrategyBeenUsedInCurrentIteration
  rw [decide_eq_true_eq]
  exact ⟨fun a => ⟨hi, a⟩, fun a => a.2⟩

theorem keeperInv_unsuccessful (calls : EscapingCalls E) (s : EscapingNCC E) (h : KeeperInv s)
    (hlt : s.keeperOfEscapingStrategies.iterationOfLastChange < s.runs)
    (hi : s.keeperOfEscapingStrategies.indexOfCurrentEscapingStrategy
      < s.keeperOfEscapingStrategies.numberOfStrategies)
    (hu : s.keeperOfEscapingStrategies.HasCurrentStrategyBeenUsedInCurrentIteration = false)
    (hc : (applyStrategy calls s).1 ≠ ReturnCode.SUCCESS) :
    KeeperInv (DoBookkeepingAfterUnsuccessfulEscaping (applyStrategy calls s).2)
      ∧ appliedSinceLastSuccess
          (DoBookkeepingAfterUnsuccessfulEscaping (applyStrategy calls s).2).events
        = appliedSinceLastSuccess s.events
          ++ [s.keeperOfEscapingStrategies.indexOfCurrentEscapingStrategy] := by
  have e : appliedSinceLastSuccess
      (DoBookkeepingAfterUnsuccessfulEscaping (applyStrategy calls s).2).events
      = appliedSinceLastSuccess s.events
        ++ [s.keeperOfEscapingStrategies.indexOfCurrentEscapingStrategy] := by
    have := applied_append s.events
      (EscapingEvent.apply s.keeperOfEscapingStrategies.indexOfCurrentEscapingStrategy
        (calls.Apply s.keeperOfEscapingStrategies.indexOfCurrentEscapingStrategy s.members).1
        (calls.Apply s.keeperOfEscapingStrategies.indexOfCurrentEscapingStrategy
          s.members).2.windfarm)
    simp only at this
    have hc' : (calls.Apply s.keeperOfEscapingStrategies.indexOfCurrentEscapingStrategy
        s.members).1 ≠ ReturnCode.SUCCESS := hc
    rw [if_neg hc'] at this
    exact this
  have hnot : s.keeperOfEscapingStrategies.indexOfCurrentEscapingStrategy
      ∉ appliedSinceLastSuccess s.events := by
    intro hmem
    have := (used_iff s h hi).2 hmem
    rw [hu] at this
    exact absurd this (by decide)
  have hsz : s.keeperOfEscapingStrategies.indexOfCurrentEscapingStrategy
      < s.keeperOfEscapingStrategies.iterationOfLastUse.length := by
    rw [h.size]
    exact hi
  refine ⟨⟨?_, ?_, ?_, ?_, h.change, ?_⟩, e⟩
  · show (s.keeperOfEscapingStrategies.iterationOfLastUse.set _ _).length = _
    rw [List.length_set]
    exact h.size
  · rw [e, List.nodup_append]
    refine ⟨h.nodup, List.nodup_singleton _, ?_⟩
    intro a ha ha'
    rw [List.mem_singleton] at ha'
    rw [ha'] at ha
    exact hnot ha
  · intro i
    rw [e, List.mem_append, List.mem_singleton, h.used]
    show _ ↔ i < s.keeperOfEscapingStrategies.numberOfStrategies
      ∧ (s.keeperOfEscapingStrategies.iterationOfLastUse.set
          s.keeperOfEscapingStrategies.indexOfCurrentEscapingStrategy s.runs).getD i 0
        > s.keeperOfEscapingStrategies.iterationOfLastChange
    rw [getD_set_eq]
    by_cases c : s.keeperOfEscapingStrategies.indexOfCurrentEscapingStrategy = i
    · rw [if_pos c, if_pos hsz]
      constructor
      · intro _
        exact ⟨by rw [← c]; exact hi, hlt⟩
      · intro _
        exact Or.inr c.symm
    · rw [if_neg c]
      constructor
      · rintro (a | a)
        · exact a
        · exact absurd a.symm c
      · intro a
        exact Or.inl a
  · show s.keeperOfEscapingStrategies.numberOfStrategiesUsedUnsuccessfully + 1 = _
    rw [e, List.length_append, List.length_singleton, h.count]
  · intro x hx
    rcases List.mem_or_eq_of_mem_set hx with a | a
    · exact h.le x a
    · rw [a]
      exact le_refl _

theorem keeperInv_saved (s t : EscapingNCC E) (h : KeeperInv s) (w : WindfarmResidual)
    (c : ℚ) (hk : t.keeperOfEscapingStrategies = s.keeperOfEscapingStrategies)
    (hr : t.runs = s.runs)
    (he : t.events = s.events
      ++ [EscapingEvent.apply s.keeperOfEscapingStrategies.indexOfCurrentEscapingStrategy
        ReturnCode.SUCCESS w]) :
    KeeperInv
        ({ SaveBestFlowIfNecessary t c with
            keeperOfEscapingStrategies :=
              (SaveBestFlowIfNecessary t c).keeperOfEscapingStrategies
                |>.SetCurrentStrategyAsUsedSuccessfully (SaveBestFlowIfNecessary t c).runs } :
          EscapingNCC E)
      ∧ appliedSinceLastSuccess (SaveBestFlowIfNecessary t c).events = [] := by
  obtain ⟨f1, f2, _, _, f5⟩ := saveBest_frame t c
  have e : appliedSinceLastSuccess (SaveBestFlowIfNecessary t c).events = [] := by
    rw [f5, applied_append]
    simp only
    rw [he, applied_append]
    simp
  generalize SaveBestFlowIfNecessary t c = u at f1 f2 f5 e ⊢
  have hle : ∀ x ∈ s.keeperOfEscapingStrategies.iterationOfLastUse.set
      s.keeperOfEscapingStrategies.indexOfCurrentEscapingStrategy s.runs, x ≤ s.runs := by
    intro x hx
    rcases List.mem_or_eq_of_mem_set hx with a | a
    · exact h.le x a
    · rw [a]
  refine ⟨⟨?_, ?_, ?_, ?_, ?_, ?_⟩, e⟩
  · show (u.keeperOfEscapingStrategies.iterationOfLastUse.set _ _).length = _
    rw [List.length_set, f1, hk]
    exact h.size
  · show (appliedSinceLastSuccess u.events).Nodup
    rw [e]
    exact List.nodup_nil
  · intro i
    show i ∈ appliedSinceLastSuccess u.events ↔ i < u.keeperOfEscapingStrategies.numberOfStrategies
      ∧ (u.keeperOfEscapingStrategies.iterationOfLastUse.set
          u.keeperOfEscapingStrategies.indexOfCurrentEscapingStrategy u.runs).getD i 0 > u.runs
    rw [e, f1, f2, hk, hr]
    constructor
    · intro a
      exact absurd a (List.not_mem_nil _)
    · rintro ⟨_, a'⟩
      exfalso
      by_cases c : i < (s.keeperOfEscapingStrategies.iterationOfLastUse.set
          s.keeperOfEscapingStrategies.indexOfCurrentEscapingStrategy s.runs).length
      · rw [getD_eq_getElem_of_lt _ _ _ c] at a'
        have := hle _ (List.getElem_mem c)
        omega
      · rw [getD_of_length_le _ _ _ (not_lt.1 c)] at a'
        omega
  · show 0 = (appliedSinceLastSuccess u.events).length
    rw [e]
    rfl
  · show u.runs ≤ u.runs
    exact le_refl _
  · show ∀ x ∈ u.keeperOfEscapingStrategies.iterationOfLastUse.set
      u.keeperOfEscapingStrategies.indexOfCurrentEscapingStrategy u.runs, x ≤ u.runs
    rw [f1, f2, hk, hr]
    exact hle

theorem keeperInv_successful (calls : EscapingCalls E) (s : EscapingNCC E) (h : KeeperInv s)
    (hc : (applyStrategy calls s).1 = ReturnCode.SUCCESS) :
    KeeperInv (DoBookkeepingAfterSuccessfulEscaping (applyStrategy calls s).2)
      ∧ appliedSinceLastSuccess
          (DoBookkeepingAfterSuccessfulEscaping (applyStrategy calls s).2).events = [] := by
  have hc' : (calls.Apply s.keeperOfEscapingStrategies.indexOfCurrentEscapingStrategy
      s.members).1 = ReturnCode.SUCCESS := hc
  have he : (applyStrategy calls s).2.events = s.events
      ++ [EscapingEvent.apply s.keeperOfEscapingStrategies.indexOfCurrentEscapingStrategy
        ReturnCode.SUCCESS
        (calls.Apply s.keeperOfEscapingStrategies.indexOfCurrentEscapingStrategy
          s.members).2.windfarm] := by
    show s.events ++ [EscapingEvent.apply _ _ _] = _
    rw [hc']
  exact keeperInv_saved s
    ({ (applyStrategy calls s).2 with
        members :=
          { (applyStrategy calls s).2.members with
            solutionCosts :=
              (((applyStrategy calls s).2.members.windfarm.ComputeTotalCostOfFlow : ℚ) :
                WithTop ℚ) } } : EscapingNCC E) h _
    (applyStrategy calls s).2.members.windfarm.ComputeTotalCostOfFlow rfl rfl he

theorem not_ends_with_apply (l l' : List EscapingEvent) (e : EscapingEvent) (i : Nat)
    (c : ReturnCode) (w : WindfarmResidual) (h : l ++ [e] = l' ++ [EscapingEvent.apply i c w]) :
    e = EscapingEvent.apply i c w := by
  have := congrArg List.getLast? h
  simpa using this

theorem successful_events (calls : EscapingCalls E) (s : EscapingNCC E) :
    ∃ c v f, (DoBookkeepingAfterSuccessfulEscaping (applyStrategy calls s).2).events
      = (applyStrategy calls s).2.events ++ [EscapingEvent.save c v f] := by
  obtain ⟨_, _, _, _, f5⟩ := saveBest_frame
    ({ (applyStrategy calls s).2 with
        members :=
          { (applyStrategy calls s).2.members with
            solutionCosts :=
              (((applyStrategy calls s).2.members.windfarm.ComputeTotalCostOfFlow : ℚ) :
                WithTop ℚ) } } : EscapingNCC E)
    (applyStrategy calls s).2.members.windfarm.ComputeTotalCostOfFlow
  exact ⟨_, _, _, f5⟩

/-- The loop of `TryToChangeFlowByApplyingEscapingStrategies` from a consistent state of the
keeper, with valid draws: the keeper stays consistent, every application and every skip is
allowed by the keeper, and `EARLY_TERMINATION` is returned exactly when the call ends with
an application without success after which every strategy has been applied without success
since the last successful application. -/
theorem tryToChange_keeper (calls : EscapingCalls E) (s0 : EscapingNCC E)
    (hdraw : ∀ rest, (calls.Draw rest).1 < s0.keeperOfEscapingStrategies.numberOfStrategies)
    (hK : KeeperInv s0) (fuel : Nat) (code : ReturnCode) (s' : EscapingNCC E)
    (h : TryToChangeFlowByApplyingEscapingStrategies calls fuel s0 = some (code, s')) :
    KeeperInv s'
      ∧ s'.keeperOfEscapingStrategies.numberOfStrategies
        = s0.keeperOfEscapingStrategies.numberOfStrategies
      ∧ (∃ new, s'.events = s0.events ++ new)
      ∧ (∀ k, s0.events.length ≤ k → ∀ x, s'.events[k]? = some x →
          eventAllowed (s'.events.take k) x)
      ∧ (code = ReturnCode.EARLY_TERMINATION ↔
          (∃ new i w, s'.events
              = s0.events ++ new ++ [EscapingEvent.apply i ReturnCode.NOTHING_CHANGED w])
            ∧ ∀ j, j < s0.keeperOfEscapingStrategies.numberOfStrategies →
              j ∈ appliedSinceLastSuccess s'.events) := by
  have hfull : ∀ s : EscapingNCC E, KeeperInv s →
      s.keeperOfEscapingStrategies.numberOfStrategies
        = s0.keeperOfEscapingStrategies.numberOfStrategies →
      (∀ j, j < s0.keeperOfEscapingStrategies.numberOfStrategies →
        j ∈ appliedSinceLastSuccess s.events) →
      (appliedSinceLastSuccess s.events).length
        = s0.keeperOfEscapingStrategies.numberOfStrategies := by
    intro s hs hn hall
    exact length_of_full _ _ hs.nodup (fun x hx => by rw [← hn]; exact ((hs.used x).1 hx).1) hall
  refine tryToChange_rule calls
    (fun s => KeeperInv s
      ∧ s.keeperOfEscapingStrategies.numberOfStrategies
        = s0.keeperOfEscapingStrategies.numberOfStrategies
      ∧ (∃ new, s.events = s0.events ++ new)
      ∧ (∀ k, s0.events.length ≤ k → ∀ x, s.events[k]? = some x →
          eventAllowed (s.events.take k) x)
      ∧ ((∃ new i w, s.events
            = s0.events ++ new ++ [EscapingEvent.apply i ReturnCode.NOTHING_CHANGED w]) →
          (appliedSinceLastSuccess s.events).length
            ≠ s0.keeperOfEscapingStrategies.numberOfStrategies))
    (fun code s => KeeperInv s
      ∧ s.keeperOfEscapingStrategies.numberOfStrategies
        = s0.keeperOfEscapingStrategies.numberOfStrategies
      ∧ (∃ new, s.events = s0.events ++ new)
      ∧ (∀ k, s0.events.length ≤ k → ∀ x, s.events[k]? = some x →
          eventAllowed (s.events.take k) x)
      ∧ (code = ReturnCode.EARLY_TERMINATION ↔
          (∃ new i w, s.events
              = s0.events ++ new ++ [EscapingEvent.apply i ReturnCode.NOTHING_CHANGED w])
            ∧ ∀ j, j < s0.keeperOfEscapingStrategies.numberOfStrategies →
              j ∈ appliedSinceLastSuccess s.events))
    ?_ fuel s0 code s'
    ⟨hK, rfl, ⟨[], (List.append_nil _).symm⟩,
      fun k hk x hx => by
        rw [List.getElem?_eq_none hk] at hx
        exact absurd hx (by simp),
      fun ⟨new, i, w, e⟩ => by
        exfalso
        have := congrArg List.length e
        simp only [List.length_append, List.length_singleton] at this
        omega⟩ h
  intro s ⟨sK, sn, ⟨new, snew⟩, sall, slast⟩ _
  obtain ⟨K1, hlt⟩ := keeperInv_count s sK
  have K2 := keeperInv_clock calls (countIteration s) K1
  have K3 := keeperInv_draw calls (readClock calls (countIteration s)).2 K2
  have hi : (drawStrategy calls (readClock calls (countIteration s)).2).keeperOfEscapingStrategies.indexOfCurrentEscapingStrategy
      < (drawStrategy calls (readClock calls (countIteration s)).2).keeperOfEscapingStrategies.numberOfStrategies := by
    show (calls.Draw _).1 < s.keeperOfEscapingStrategies.numberOfStrategies
    rw [sn]
    exact hdraw _
  have e3 : (drawStrategy calls (readClock calls (countIteration s)).2).events
      = s.events ++ [EscapingEvent.draw (s.runs + 1)
          (calls.Draw (readClock calls (countIteration s)).2.members.rest).1] := rfl
  have all3 : ∀ k, s0.events.length ≤ k → ∀ x,
      (drawStrategy calls (readClock calls (countIteration s)).2).events[k]? = some x →
      eventAllowed ((drawStrategy calls (readClock calls (countIteration s)).2).events.take k)
        x := by
    rw [e3]
    exact positions_append eventAllowed _ _ _ sall trivial
  have hstop : ∀ c : ReturnCode, c ≠ ReturnCode.EARLY_TERMINATION →
      (c = ReturnCode.EARLY_TERMINATION ↔
        (∃ new i w, s.events
            = s0.events ++ new ++ [EscapingEvent.apply i ReturnCode.NOTHING_CHANGED w])
          ∧ ∀ j, j < s0.keeperOfEscapingStrategies.numberOfStrategies →
            j ∈ appliedSinceLastSuccess s.events) := by
    intro c hc
    constructor
    · intro a
      exact absurd a hc
    · rintro ⟨a, b⟩
      exact absurd (hfull s sK sn b) (slast a)
  refine ⟨fun _ => ⟨K2, sn, ⟨new, snew⟩, sall, hstop _ (by decide)⟩, fun _ =>
    ⟨fun _ => ⟨K2, sn, ⟨new, snew⟩, sall, hstop _ (by decide)⟩, ?_, ?_⟩⟩
  · intro _ c3
    refine ⟨keeperInv_skip _ K3, sn,
      ⟨new ++ [EscapingEvent.draw (s.runs + 1)
            (calls.Draw (readClock calls (countIteration s)).2.members.rest).1,
          EscapingEvent.skip
            (calls.Draw (readClock calls (countIteration s)).2.members.rest).1], ?_⟩, ?_, ?_⟩
    · show (drawStrategy calls (readClock calls (countIteration s)).2).events
        ++ [EscapingEvent.skip
          (calls.Draw (readClock calls (countIteration s)).2.members.rest).1] = _
      rw [e3, snew]
      simp
    · exact positions_append eventAllowed _ _ _ all3 ((used_iff _ K3 hi).1 c3)
    · rintro ⟨new', i, w, e⟩
      have e' : (drawStrategy calls (readClock calls (countIteration s)).2).events
          ++ [EscapingEvent.skip
            (calls.Draw (readClock calls (countIteration s)).2.members.rest).1]
          = s0.events ++ new' ++ [EscapingEvent.apply i ReturnCode.NOTHING_CHANGED w] := e
      have := not_ends_with_apply _ _ _ _ _ _ e'
      exact absurd this (by simp)
  · intro _ c3
    have hnot : (drawStrategy calls
        (readClock calls (countIteration s)).2).keeperOfEscapingStrategies.indexOfCurrentEscapingStrategy
        ∉ appliedSinceLastSuccess
          (drawStrategy calls (readClock calls (countIteration s)).2).events := by
      intro a
      have := (used_iff _ K3 hi).2 a
      rw [c3] at this
      exact absurd this (by decide)
    have all4 : ∀ k, s0.events.length ≤ k → ∀ x,
        (applyStrategy calls (drawStrategy calls
          (readClock calls (countIteration s)).2)).2.events[k]? = some x →
        eventAllowed ((applyStrategy calls (drawStrategy calls
          (readClock calls (countIteration s)).2)).2.events.take k) x :=
      positions_append eventAllowed _ _ _ all3 hnot
    have e4 : (applyStrategy calls (drawStrategy calls
        (readClock calls (countIteration s)).2)).2.events
        = s0.events ++ (new ++ [EscapingEvent.draw (s.runs + 1)
            (calls.Draw (readClock calls (countIteration s)).2.members.rest).1])
          ++ [EscapingEvent.apply
            (calls.Draw (readClock calls (countIteration s)).2.members.rest).1
            (applyStrategy calls (drawStrategy calls
              (readClock calls (countIteration s)).2)).1
            (applyStrategy calls (drawStrategy calls
              (readClock calls (countIteration s)).2)).2.members.windfarm] := by
      show (drawStrategy calls (readClock calls (countIteration s)).2).events ++ [_] = _
      rw [e3, snew]
      simp only [List.append_assoc]
      rfl
    constructor
    · intro c4
      obtain ⟨K5, _⟩ := keeperInv_successful calls _ K3 c4
      obtain ⟨c, v, f, e5⟩ := successful_events calls
        (drawStrategy calls (readClock calls (countIteration s)).2)
      refine ⟨K5, ?_, ⟨_, by rw [e5, e4, List.append_assoc, List.append_assoc]⟩, ?_, ?_⟩
      · have := (saveBest_frame
          ({ (applyStrategy calls (drawStrategy calls
              (readClock calls (countIteration s)).2)).2 with
              members :=
                { (applyStrategy calls (drawStrategy calls
                    (readClock calls (countIteration s)).2)).2.members with
                  solutionCosts :=
                    (((applyStrategy calls (drawStrategy calls
                      (readClock calls (countIteration s)).2)).2.members.windfarm.ComputeTotalCostOfFlow : ℚ) : WithTop ℚ) } } : EscapingNCC E)
          (applyStrategy calls (drawStrategy calls
            (readClock calls (countIteration s)).2)).2.members.windfarm.ComputeTotalCostOfFlow).1
        show (KeeperOfEscapingStrategies.SetCurrentStrategyAsUsedSuccessfully
          (SaveBestFlowIfNecessary _ _).keeperOfEscapingStrategies _).numberOfStrategies = _
        show (SaveBestFlowIfNecessary _ _).keeperOfEscapingStrategies.numberOfStrategies = _
        rw [this]
        exact sn
      · rw [e5]
        exact positions_append eventAllowed _ _ _ all4 trivial
      · constructor
        · intro a
          exact absurd a (by decide)
        · rintro ⟨⟨new', i, w, e⟩, _⟩
          rw [e5] at e
          have := not_ends_with_apply _ _ _ _ _ _ e
          exact absurd this (by simp)
    · intro c5
      have hne : (applyStrategy calls (drawStrategy calls
          (readClock calls (countIteration s)).2)).1 ≠ ReturnCode.SUCCESS := by
        rw [c5]
        decide
      obtain ⟨K5, _⟩ := keeperInv_unsuccessful calls _ K3 hlt hi c3 hne
      have e5 : (DoBookkeepingAfterUnsuccessfulEscaping (applyStrategy calls (drawStrategy calls
          (readClock calls (countIteration s)).2)).2).events
          = s0.events ++ (new ++ [EscapingEvent.draw (s.runs + 1)
              (calls.Draw (readClock calls (countIteration s)).2.members.rest).1])
            ++ [EscapingEvent.apply
              (calls.Draw (readClock calls (countIteration s)).2.members.rest).1
              ReturnCode.NOTHING_CHANGED
              (applyStrategy calls (drawStrategy calls
                (readClock calls (countIteration s)).2)).2.members.windfarm] := by
        rw [← c5]
        exact e4
      have hcount := K5.count
      have hsize := K5.size
      constructor
      · intro c6
        refine ⟨K5, sn, ⟨_, by rw [e5, List.append_assoc]⟩, all4, fun _ => ?_⟩
        intro a
        unfold CanEscapingContinueAfterUnsuccessfulTry
          KeeperOfEscapingStrategies.HaveAllStrategiesBeenUsedInCurrentIteration at c6
        rw [hcount, hsize] at c6
        have sn' : (DoBookkeepingAfterUnsuccessfulEscaping (applyStrategy calls
            (drawStrategy calls (readClock calls
              (countIteration s)).2)).2).keeperOfEscapingStrategies.numberOfStrategies
            = s0.keeperOfEscapingStrategies.numberOfStrategies := sn
        rw [sn', a] at c6
        simp at c6
      · intro c6
        have hall : CanEscapingContinueAfterUnsuccessfulTry
            (DoBookkeepingAfterUnsuccessfulEscaping (applyStrategy calls (drawStrategy calls
              (readClock calls (countIteration s)).2)).2) = ReturnCode.EARLY_TERMINATION
            ∧ (appliedSinceLastSuccess (DoBookkeepingAfterUnsuccessfulEscaping
                (applyStrategy calls (drawStrategy calls
                  (readClock calls (countIteration s)).2)).2).events).length
              = s0.keeperOfEscapingStrategies.numberOfStrategies := by
          unfold CanEscapingContinueAfterUnsuccessfulTry at c6 ⊢
          split_ifs at c6 ⊢ with c7
          · refine ⟨rfl, ?_⟩
            unfold KeeperOfEscapingStrategies.HaveAllStrategiesBeenUsedInCurrentIteration at c7
            rw [decide_eq_true_eq, hcount, hsize] at c7
            rw [c7]
            exact sn
          · exact absurd rfl c6
        refine ⟨K5, sn, ⟨_, by rw [e5, List.append_assoc]⟩, all4, ?_⟩
        rw [hall.1]
        refine ⟨fun _ => ⟨⟨_, _, _, e5⟩, ?_⟩, fun _ => rfl⟩
        exact full_of_length _ _ K5.nodup
          (fun x hx => by
            have := ((K5.used x).1 hx).1
            rw [← sn]
            exact this) hall.2

theorem keeperInv_create (windfarm : WindfarmResidual) (rest : E)
    (numberOfStrategies iterationLimit : Nat) :
    KeeperInv (create windfarm rest numberOfStrategies iterationLimit) := by
  refine ⟨?_, List.nodup_nil, ?_, rfl, Nat.zero_le _, ?_⟩
  · show (List.replicate numberOfStrategies 0).length = numberOfStrategies
    exact List.length_replicate _ _
  · intro i
    constructor
    · intro a
      exact absurd a (List.not_mem_nil _)
    · rintro ⟨_, a⟩
      have a' : (List.replicate numberOfStrategies 0).getD i 0 > 0 := a
      rw [getD_replicate_eq] at a'
      split_ifs at a' <;> omega
  · intro x hx
    have hx' : x ∈ List.replicate numberOfStrategies 0 := hx
    rw [List.eq_of_mem_replicate hx']
    exact Nat.zero_le _

theorem keeperInv_congr (s t : EscapingNCC E) (h : KeeperInv s)
    (hk : t.keeperOfEscapingStrategies = s.keeperOfEscapingStrategies)
    (hr : s.runs ≤ t.runs)
    (he : appliedSinceLastSuccess t.events = appliedSinceLastSuccess s.events) :
    KeeperInv t := by
  refine ⟨?_, ?_, ?_, ?_, ?_, ?_⟩
  · rw [hk]
    exact h.size
  · rw [he]
    exact h.nodup
  · rw [he, hk]
    exact h.used
  · rw [he, hk]
    exact h.count
  · rw [hk]
    exact le_trans h.change hr
  · rw [hk]
    exact fun x hx => le_trans (h.le x hx) hr

end EscapingNCC

/-- C24: let the keeper of the escaping strategies be in a consistent state, as it is
after the constructor of `EscapingNCC` and after every step of the outer loop, and let every
draw yield the index of a registered strategy.  When
`TryToChangeFlowByApplyingEscapingStrategies` returns, the keeper is consistent again;
every strategy that the call has applied had not been applied without success since the
last successful application, and every strategy that it has skipped had been; and the call
returns `EARLY_TERMINATION` if and only if it ends with an application without success
after which every registered strategy has been applied without success since the last
successful application. -/
theorem escape_loop_applies_no_strategy_twice {E : Type} (calls : EscapingCalls E)
    (s0 : EscapingNCC E)
    (hdraw : ∀ rest, (calls.Draw rest).1 < s0.keeperOfEscapingStrategies.numberOfStrategies)
    (hK : EscapingNCC.KeeperInv s0) (fuel : Nat) (code : ReturnCode) (s' : EscapingNCC E)
    (h : EscapingNCC.TryToChangeFlowByApplyingEscapingStrategies calls fuel s0
      = some (code, s')) :
    EscapingNCC.KeeperInv s'
      ∧ (∃ new, s'.events = s0.events ++ new)
      ∧ (∀ k, s0.events.length ≤ k → ∀ x, s'.events[k]? = some x →
          EscapingNCC.eventAllowed (s'.events.take k) x)
      ∧ (code = ReturnCode.EARLY_TERMINATION ↔
          (∃ new i w, s'.events
              = s0.events ++ new ++ [EscapingEvent.apply i ReturnCode.NOTHING_CHANGED w])
            ∧ ∀ j, j < s0.keeperOfEscapingStrategies.numberOfStrategies →
              j ∈ EscapingNCC.appliedSinceLastSuccess s'.events) :=
  have k := EscapingNCC.tryToChange_keeper calls s0 hdraw hK fuel code s' h
  ⟨k.1, k.2.2.1, k.2.2.2.1, k.2.2.2.2⟩

/-- Witness of C24: two strategies that change nothing, on scenario S1, with the draws
`0, 0, 1`.  The strategy `0` is applied, then skipped, then the strategy `1` is applied, and
the call returns `EARLY_TERMINATION`. -/
theorem escape_loop_applies_no_strategy_twice_witness :
    ∃ s', EscapingNCC.TryToChangeFlowByApplyingEscapingStrategies
          ({ ComputeInitialFlow := fun m => (ReturnCode.SUCCESS, m)
             RunNCCforAllDeltas := fun m => (ReturnCode.SUCCESS, m)
             IsTimeLimitExceeded := fun rest => (false, rest)
             Draw := fun rest => ([0, 0, 1].getD rest 0, rest + 1)
             Apply := fun _ m => (ReturnCode.NOTHING_CHANGED, m) } : EscapingCalls Nat) 5
          (EscapingNCC.create (pairGraph [1, 1] [0, 0, 0, 0]) 0 2 10)
        = some (ReturnCode.EARLY_TERMINATION, s')
      ∧ EscapingNCC.drawRuns s'.events = [1, 2, 3]
      ∧ EscapingNCC.appliedSinceLastSuccess s'.events = [0, 1]
      ∧ EscapingNCC.KeeperInv s'
      ∧ (∃ new, s'.events
          = (EscapingNCC.create (pairGraph [1, 1] [0, 0, 0, 0]) (0 : Nat) 2 10).events ++ new)
      ∧ (∀ k, (EscapingNCC.create (pairGraph [1, 1] [0, 0, 0, 0]) (0 : Nat) 2 10).events.length
            ≤ k →
          ∀ x, s'.events[k]? = some x → EscapingNCC.eventAllowed (s'.events.take k) x)
      ∧ (ReturnCode.EARLY_TERMINATION = ReturnCode.EARLY_TERMINATION ↔
          (∃ new i w, s'.events
              = (EscapingNCC.create (pairGraph [1, 1] [0, 0, 0, 0]) (0 : Nat) 2 10).events
                ++ new ++ [EscapingEvent.apply i ReturnCode.NOTHING_CHANGED w])
            ∧ ∀ j, j < (EscapingNCC.create (pairGraph [1, 1] [0, 0, 0, 0]) (0 : Nat) 2
                10).keeperOfEscapingStrategies.numberOfStrategies →
              j ∈ EscapingNCC.appliedSinceLastSuccess s'.events) := by
  have e : (EscapingNCC.TryToChangeFlowByApplyingEscapingStrategies
          ({ ComputeInitialFlow := fun m => (ReturnCode.SUCCESS, m)
             RunNCCforAllDeltas := fun m => (ReturnCode.SUCCESS, m)
             IsTimeLimitExceeded := fun rest => (false, rest)
             Draw := fun rest => ([0, 0, 1].getD rest 0, rest + 1)
             Apply := fun _ m => (ReturnCode.NOTHING_CHANGED, m) } : EscapingCalls Nat) 5
          (EscapingNCC.create (pairGraph [1, 1] [0, 0, 0, 0]) 0 2 10)).map
        (fun r => (r.1, EscapingNCC.drawRuns r.2.events,
          EscapingNCC.appliedSinceLastSuccess r.2.events))
      = some (ReturnCode.EARLY_TERMINATION, [1, 2, 3], [0, 1]) := by
    decide
  cases hr : EscapingNCC.TryToChangeFlowByApplyingEscapingStrategies
      ({ ComputeInitialFlow := fun m => (ReturnCode.SUCCESS, m)
         RunNCCforAllDeltas := fun m => (ReturnCode.SUCCESS, m)
         IsTimeLimitExceeded := fun rest => (false, rest)
         Draw := fun rest => ([0, 0, 1].getD rest 0, rest + 1)
         Apply := fun _ m => (ReturnCode.NOTHING_CHANGED, m) } : EscapingCalls Nat) 5
      (EscapingNCC.create (pairGraph [1, 1] [0, 0, 0, 0]) 0 2 10) with
  | none =>
    rw [hr] at e
    exact absurd e (by simp)
  | some r =>
    obtain ⟨code, s'⟩ := r
    rw [hr] at e
    simp only [Option.map_some', Option.some.injEq, Prod.mk.injEq] at e
    obtain ⟨e1, e2, e3⟩ := e
    subst e1
    exact ⟨s', rfl, e2, e3,
      escape_loop_applies_no_strategy_twice _ _
        (fun rest => by
          show [0, 0, 1].getD rest 0 < 2
          rcases rest with _ | _ | _ | rest
          · decide
          · decide
          · decide
          · exact Nat.zero_lt_two)
        (EscapingNCC.keeperInv_create _ _ _ _) 5 _ s' hr⟩

end wcp

/-! # The iteration counter of `EscapingNCC` -/

namespace wcp

namespace EscapingNCC

variable {E : Type}

theorem drawRuns_append (l l' : List EscapingEvent) :
    drawRuns (l ++ l') = drawRuns l ++ drawRuns l' := by
  induction l with
  | nil => rfl
  | cons e l ih =>
    cases e <;> simp [drawRuns, ih]

theorem nccRuns_append (l l' : List EscapingEvent) :
    nccRuns (l ++ l') = nccRuns l ++ nccRuns l' := by
  induction l with
  | nil => rfl
  | cons e l ih =>
    cases e <;> simp [nccRuns, ih]

theorem alternate_rule (calls : EscapingCalls E) (fuel' : Nat) (I : EscapingNCC E → Prop)
    (Q : ReturnCode → EscapingNCC E → Prop)
    (hstep : ∀ s, I s →
      ((runNCC calls s).1 ≠ ReturnCode.SUCCESS →
        Q (runNCC calls s).1
          (SaveBestFlowIfNecessary (runNCC calls s).2
            (runNCC calls s).2.members.windfarm.ComputeTotalCostOfFlow))
      ∧ ((runNCC calls s).1 = ReturnCode.SUCCESS → ∀ code u,
        TryToChangeFlowByApplyingEscapingStrategies calls fuel'
            (SaveBestFlowIfNecessary (runNCC calls s).2
              (runNCC calls s).2.members.windfarm.ComputeTotalCostOfFlow) = some (code, u) →
          (code = ReturnCode.IN_PROGRESS → I u) ∧ (code ≠ ReturnCode.IN_PROGRESS → Q code u))) :
    ∀ (fuel : Nat) (s : EscapingNCC E) (code : ReturnCode) (s' : EscapingNCC E), I s →
      AlternateNCCandEscaping calls fuel' fuel s = some (code, s') → Q code s' := by
  intro fuel
  induction fuel with
  | zero =>
    intro s code s' _ h
    exact absurd h (by simp [AlternateNCCandEscaping])
  | succ fuel ih =>
    intro s code s' hI h
    unfold AlternateNCCandEscaping at h
    obtain ⟨k1, k2⟩ := hstep s hI
    by_cases c1 : (runNCC calls s).1 ≠ ReturnCode.SUCCESS
    · rw [if_pos c1] at h
      simp only [Option.some.injEq, Prod.mk.injEq] at h
      rw [← h.1, ← h.2]
      exact k1 c1
    · rw [if_neg c1] at h
      cases ht : TryToChangeFlowByApplyingEscapingStrategies calls fuel'
          (SaveBestFlowIfNecessary (runNCC calls s).2
            (runNCC calls s).2.members.windfarm.ComputeTotalCostOfFlow) with
      | none =>
        rw [ht] at h
        exact absurd h (by simp)
      | some r =>
        obtain ⟨code1, u⟩ := r
        rw [ht] at h
        simp only at h
        obtain ⟨k3, k4⟩ := k2 (not_not.1 c1) code1 u ht
        by_cases c2 : code1 = ReturnCode.IN_PROGRESS
        · rw [if_pos c2] at h
          exact ih u code s' (k3 c2) h
        · rw [if_neg c2] at h
          simp only [Option.some.injEq, Prod.mk.injEq] at h
          rw [← h.1, ← h.2]
          exact k4 c2

/-- The iteration counter in one call of `TryToChangeFlowByApplyingEscapingStrategies`: a
strategy is drawn at the values `runs_ + 1, runs_ + 2, ...` of the counter, none of which
is above the iteration limit; the call ends with the counter one above the last draw when
it returns `TIME_LIMIT` or `ITERATION_LIMIT`, and at the last draw otherwise, which is then
a draw of this call; and it returns `ITERATION_LIMIT` only with the counter above the
limit. -/
theorem tryToChange_counter (calls : EscapingCalls E) (s0 : EscapingNCC E) (fuel : Nat)
    (code : ReturnCode) (s' : EscapingNCC E)
    (h : TryToChangeFlowByApplyingEscapingStrategies calls fuel s0 = some (code, s')) :
    s'.iterationLimit = s0.iterationLimit
      ∧ nccRuns s'.events = nccRuns s0.events
      ∧ ∃ d, drawRuns s'.events = drawRuns s0.events ++ List.range' (s0.runs + 1) d
        ∧ (∀ r ∈ List.range' (s0.runs + 1) d, r ≤ s0.iterationLimit)
        ∧ (((code = ReturnCode.TIME_LIMIT ∨ code = ReturnCode.ITERATION_LIMIT)
              ∧ s'.runs = s0.runs + d + 1
              ∧ (code = ReturnCode.ITERATION_LIMIT → s0.iterationLimit < s'.runs))
            ∨ ((code = ReturnCode.IN_PROGRESS ∨ code = ReturnCode.EARLY_TERMINATION)
              ∧ 1 ≤ d ∧ s'.runs = s0.runs + d)) := by
  refine tryToChange_rule calls
    (fun s => s.iterationLimit = s0.iterationLimit ∧ nccRuns s.events = nccRuns s0.events
      ∧ ∃ d, drawRuns s.events = drawRuns s0.events ++ List.range' (s0.runs + 1) d
        ∧ (∀ r ∈ List.range' (s0.runs + 1) d, r ≤ s0.iterationLimit)
        ∧ s.runs = s0.runs + d)
    (fun code s => s.iterationLimit = s0.iterationLimit
      ∧ nccRuns s.events = nccRuns s0.events
      ∧ ∃ d, drawRuns s.events = drawRuns s0.events ++ List.range' (s0.runs + 1) d
        ∧ (∀ r ∈ List.range' (s0.runs + 1) d, r ≤ s0.iterationLimit)
        ∧ (((code = ReturnCode.TIME_LIMIT ∨ code = ReturnCode.ITERATION_LIMIT)
              ∧ s.runs = s0.runs + d + 1
              ∧ (code = ReturnCode.ITERATION_LIMIT → s0.iterationLimit < s.runs))
            ∨ ((code = ReturnCode.IN_PROGRESS ∨ code = ReturnCode.EARLY_TERMINATION)
              ∧ 1 ≤ d ∧ s.runs = s0.runs + d)))
    ?_ fuel s0 code s' ⟨rfl, rfl, 0, (List.append_nil _).symm,
      fun r hr => absurd hr (List.not_mem_nil _), rfl⟩ h
  intro s ⟨sl, sn, d, sd, sle, sr⟩ _
  have hr2 : (readClock calls (countIteration s)).2.runs = s0.runs + d + 1 := by
    show s.runs + 1 = _
    rw [sr]
  refine ⟨fun _ => ⟨sl, sn, d, sd, sle, Or.inl ⟨Or.inl rfl, hr2, fun a => absurd a (by decide)⟩⟩,
    fun _ => ⟨fun c2 => ⟨sl, sn, d, sd, sle, Or.inl ⟨Or.inr rfl, hr2, fun _ => ?_⟩⟩, ?_, ?_⟩⟩
  · unfold IsIterationLimitExceeded at c2
    rw [decide_eq_true_eq, hr2] at c2
    have sl' : (readClock calls (countIteration s)).2.iterationLimit = s0.iterationLimit := sl
    rw [sl'] at c2
    rw [hr2]
    exact c2
  · intro c2 _
    have hle : s0.runs + 1 + d ≤ s0.iterationLimit := by
      unfold IsIterationLimitExceeded at c2
      rw [decide_eq_false_iff_not, hr2] at c2
      have sl' : (readClock calls (countIteration s)).2.iterationLimit = s0.iterationLimit := sl
      rw [sl'] at c2
      omega
    refine ⟨sl, ?_, d + 1, ?_, ?_, ?_⟩
    · show nccRuns (s.events ++ [EscapingEvent.draw _ _] ++ [EscapingEvent.skip _]) = _
      rw [nccRuns_append, nccRuns_append, sn]
      simp [nccRuns]
    · show drawRuns (s.events ++ [EscapingEvent.draw (s.runs + 1) _] ++ [EscapingEvent.skip _])
        = _
      rw [drawRuns_append, drawRuns_append, sd, List.range'_1_concat, sr]
      simp [drawRuns]
      omega
    · intro r hr
      rw [List.range'_1_concat, List.mem_append, List.mem_singleton] at hr
      rcases hr with hr | hr
      · exact sle r hr
      · omega
    · show s.runs + 1 = _
      omega
  · intro c2 _
    have hle : s0.runs + 1 + d ≤ s0.iterationLimit := by
      unfold IsIterationLimitExceeded at c2
      rw [decide_eq_false_iff_not, hr2] at c2
      have sl' : (readClock calls (countIteration s)).2.iterationLimit = s0.iterationLimit := sl
      rw [sl'] at c2
      omega
    have hd : drawRuns (s.events ++ [EscapingEvent.draw (s.runs + 1)
          (calls.Draw (readClock calls (countIteration s)).2.members.rest).1])
        = drawRuns s0.events ++ List.range' (s0.runs + 1) (d + 1) := by
      rw [drawRuns_append, sd, List.range'_1_concat, sr]
      simp [drawRuns]
      omega
    have hle' : ∀ r ∈ List.range' (s0.runs + 1) (d + 1), r ≤ s0.iterationLimit := by
      intro r hr
      rw [List.range'_1_concat, List.mem_append, List.mem_singleton] at hr
      rcases hr with hr | hr
      · exact sle r hr
      · omega
    constructor
    · intro _
      obtain ⟨f1, f2, f3, f4, f5⟩ := saveBest_frame
        ({ (applyStrategy calls (drawStrategy calls
            (readClock calls (countIteration s)).2)).2 with
            members :=
              { (applyStrategy calls (drawStrategy calls
                  (readClock calls (countIteration s)).2)).2.members with
                solutionCosts :=
                  (((applyStrategy calls (drawStrategy calls
                    (readClock calls (countIteration s)).2)).2.members.windfarm.ComputeTotalCostOfFlow
                      : ℚ) : WithTop ℚ) } } : EscapingNCC E)
        (applyStrategy calls (drawStrategy calls
          (readClock calls (countIteration s)).2)).2.members.windfarm.ComputeTotalCostOfFlow
      refine ⟨?_, ?_, d + 1, ?_, hle', Or.inr ⟨Or.inl rfl, by omega, ?_⟩⟩
      · show (SaveBestFlowIfNecessary _ _).iterationLimit = _
        rw [f3]
        exact sl
      · show nccRuns (SaveBestFlowIfNecessary _ _).events = _
        rw [f5, nccRuns_append]
        show nccRuns (s.events ++ [EscapingEvent.draw _ _] ++ [EscapingEvent.apply _ _ _])
          ++ _ = _
        rw [nccRuns_append, nccRuns_append, sn]
        simp [nccRuns]
      · show drawRuns (SaveBestFlowIfNecessary _ _).events = _
        rw [f5, drawRuns_append]
        show drawRuns (s.events ++ [EscapingEvent.draw (s.runs + 1) _]
          ++ [EscapingEvent.apply _ _ _]) ++ _ = _
        rw [drawRuns_append, hd]
        simp [drawRuns]
      · show (SaveBestFlowIfNecessary _ _).runs = _
        rw [f2]
        show s.runs + 1 = _
        omega
    · intro _
      have hn5 : nccRuns (s.events ++ [EscapingEvent.draw (s.runs + 1)
            (calls.Draw (readClock calls (countIteration s)).2.members.rest).1]
          ++ [EscapingEvent.apply
            (calls.Draw (readClock calls (countIteration s)).2.members.rest).1
            (applyStrategy calls (drawStrategy calls
              (readClock calls (countIteration s)).2)).1
            (applyStrategy calls (drawStrategy calls
              (readClock calls (countIteration s)).2)).2.members.windfarm])
          = nccRuns s0.events := by
        rw [nccRuns_append, nccRuns_append, sn]
        simp [nccRuns]
      have hd5 : drawRuns (s.events ++ [EscapingEvent.draw (s.runs + 1)
            (calls.Draw (readClock calls (countIteration s)).2.members.rest).1]
          ++ [EscapingEvent.apply
            (calls.Draw (readClock calls (countIteration s)).2.members.rest).1
            (applyStrategy calls (drawStrategy calls
              (readClock calls (countIteration s)).2)).1
            (applyStrategy calls (drawStrategy calls
              (readClock calls (countIteration s)).2)).2.members.windfarm])
          = drawRuns s0.events ++ List.range' (s0.runs + 1) (d + 1) := by
        rw [drawRuns_append, hd]
        simp [drawRuns]
      have hr5 : (DoBookkeepingAfterUnsuccessfulEscaping (applyStrategy calls
          (drawStrategy calls (readClock calls (countIteration s)).2)).2).runs
          = s0.runs + (d + 1) := by
        show s.runs + 1 = _
        omega
      constructor
      · intro _
        exact ⟨sl, hn5, d + 1, hd5, hle', hr5⟩
      · intro c6
        refine ⟨sl, hn5, d + 1, hd5, hle', Or.inr ⟨Or.inr ?_, by omega, hr5⟩⟩
        unfold CanEscapingContinueAfterUnsuccessfulTry at c6 ⊢
        split_ifs at c6 ⊢
        · rfl
        · exact absurd rfl c6

theorem create_iterationLimit (windfarm : WindfarmResidual) (rest : E)
    (numberOfStrategies iterationLimit : Nat) :
    (create windfarm rest numberOfStrategies iterationLimit).iterationLimit
      = if numberOfStrategies = 0 then 1 else iterationLimit := by
  unfold create KeeperOfEscapingStrategies.AtLeastOneEscapingStrategy
    KeeperOfEscapingStrategies.create
  by_cases h : numberOfStrategies = 0
  · simp [h]
  · simp [h]

end EscapingNCC

end wcp

/-! # The outer loop of `EscapingNCC` returns -/

namespace wcp

namespace EscapingNCC

variable {E : Type}

theorem countP_eq_filter_range (p : Nat → Bool) (l : List Nat) :
    l.countP p = ((List.range l.length).filter (fun i => p (l.getD i 0))).length := by
  induction l using List.reverseRecOn with
  | nil => rfl
  | append_singleton l a ih =>
    rw [List.countP_append, List.length_append, List.length_singleton, List.range_succ,
      List.filter_append, List.length_append, ih]
    congr 1
    · congr 1
      apply List.filter_congr
      intro x hx
      rw [List.mem_range] at hx
      rw [List.getD_append _ _ _ _ hx]
    · have e : (l ++ [a]).getD l.length 0 = a := by
        rw [List.getD_append_right _ _ _ _ (le_refl _)]
        simp
      simp only [List.filter_cons, List.filter_nil, e, List.countP_cons, List.countP_nil]
      cases p a <;> rfl

theorem checkConsistency_of_keeperInv (s : EscapingNCC E) (h : KeeperInv s) :
    s.keeperOfEscapingStrategies.CheckConsistency = true := by
  unfold KeeperOfEscapingStrategies.CheckConsistency
  rw [decide_eq_true_eq, countP_eq_filter_range, h.count, h.size]
  apply List.Perm.length_eq
  apply (List.perm_ext_iff_of_nodup ((List.nodup_range _).filter _) h.nodup).2
  intro i
  rw [h.used, List.mem_filter, List.mem_range, decide_eq_true_eq]

theorem tryToChange_returns (calls : EscapingCalls E) (n : Nat)
    (hdraw : 0 < n → ∀ rest, (calls.Draw rest).1 < n)
    (happly : ∀ i m, (calls.Apply i m).1 = ReturnCode.SUCCESS
      ∨ (calls.Apply i m).1 = ReturnCode.NOTHING_CHANGED) :
    ∀ (fuel : Nat) (s : EscapingNCC E), KeeperInv s →
      s.keeperOfEscapingStrategies.numberOfStrategies = n →
      (n = 0 → s.iterationLimit ≤ s.runs) →
      s.iterationLimit + 1 - s.runs < fuel →
      ∃ r, TryToChangeFlowByApplyingEscapingStrategies calls fuel s = some r := by
  intro fuel
  induction fuel with
  | zero =>
    intro s _ _ _ h
    exact absurd h (by omega)
  | succ fuel ih =>
    intro s hK hn h0 hfuel
    obtain ⟨k1, k1'⟩ := keeperInv_count s hK
    have k2 := keeperInv_clock calls _ k1
    have k3 := keeperInv_draw calls _ k2
    unfold TryToChangeFlowByApplyingEscapingStrategies
    rw [if_neg (by rw [checkConsistency_of_keeperInv _ k1]; decide)]
    by_cases c1 : (readClock calls (countIteration s)).1 = true
    · rw [if_pos c1]
      exact ⟨_, rfl⟩
    rw [if_neg c1]
    by_cases c2 : IsIterationLimitExceeded (readClock calls (countIteration s)).2 = true
    · rw [if_pos c2]
      exact ⟨_, rfl⟩
    rw [if_neg c2]
    have hle : s.runs + 1 ≤ s.iterationLimit := by
      unfold IsIterationLimitExceeded at c2
      rw [decide_eq_true_eq] at c2
      have c2' : ¬ (s.runs + 1 > s.iterationLimit) := c2
      omega
    by_cases c3 : ((drawStrategy calls (readClock calls (countIteration s)).2).keeperOfEscapingStrategies
        |>.HasCurrentStrategyBeenUsedInCurrentIteration) = true
    · rw [if_pos c3]
      apply ih _ (keeperInv_skip _ k3) hn
      · intro hn0
        have := h0 hn0
        omega
      · show s.iterationLimit + 1 - (s.runs + 1) < fuel
        omega
    rw [if_neg c3]
    by_cases c4 : (applyStrategy calls
        (drawStrategy calls (readClock calls (countIteration s)).2)).1 = ReturnCode.SUCCESS
    · rw [if_pos c4]
      exact ⟨_, rfl⟩
    rw [if_neg c4]
    have c5 : (applyStrategy calls
        (drawStrategy calls (readClock calls (countIteration s)).2)).1
          = ReturnCode.NOTHING_CHANGED := (happly _ _).resolve_left c4
    rw [if_neg (not_not.2 c5)]
    by_cases c6 : CanEscapingContinueAfterUnsuccessfulTry
        (DoBookkeepingAfterUnsuccessfulEscaping
          (applyStrategy calls (drawStrategy calls (readClock calls (countIteration s)).2)).2)
        = ReturnCode.IN_PROGRESS
    · rw [if_pos c6]
      have hi : (drawStrategy calls (readClock calls
          (countIteration s)).2).keeperOfEscapingStrategies.indexOfCurrentEscapingStrategy
          < (drawStrategy calls (readClock calls
            (countIteration s)).2).keeperOfEscapingStrategies.numberOfStrategies := by
        show (calls.Draw _).1 < s.keeperOfEscapingStrategies.numberOfStrategies
        rw [hn]
        apply hdraw
        rcases Nat.eq_zero_or_pos n with hn0 | hn0
        · have := h0 hn0
          omega
        · exact hn0
      apply ih _ (keeperInv_unsuccessful calls _ k3 k1' hi
        (by simpa using c3) c4).1 hn
      · intro hn0
        have := h0 hn0
        omega
      · show s.iterationLimit + 1 - (s.runs + 1) < fuel
        omega
    · rw [if_neg c6]
      exact ⟨_, rfl⟩

theorem keeperInv_runNCC (calls : EscapingCalls E) (s : EscapingNCC E) (h : KeeperInv s)
    (c : ℚ) : KeeperInv (SaveBestFlowIfNecessary (runNCC calls s).2 c) := by
  obtain ⟨f1, f2, f3, f4, f5⟩ := saveBest_frame (runNCC calls s).2 c
  refine keeperInv_congr s _ h f1 (le_of_eq f2.symm) ?_
  rw [f5, applied_append]
  show appliedSinceLastSuccess (s.events ++ [EscapingEvent.ncc _ _]) = _
  rw [applied_append]

theorem alternate_returns (calls : EscapingCalls E) (n : Nat)
    (hdraw : 0 < n → ∀ rest, (calls.Draw rest).1 < n)
    (happly : ∀ i m, (calls.Apply i m).1 = ReturnCode.SUCCESS
      ∨ (calls.Apply i m).1 = ReturnCode.NOTHING_CHANGED) (fuel' : Nat) :
    ∀ (fuel : Nat) (s : EscapingNCC E), KeeperInv s →
      s.keeperOfEscapingStrategies.numberOfStrategies = n →
      (n = 0 → s.iterationLimit ≤ s.runs) →
      s.iterationLimit + 1 - s.runs < fuel → s.iterationLimit + 1 - s.runs < fuel' →
      ∃ r, AlternateNCCandEscaping calls fuel' fuel s = some r := by
  intro fuel
  induction fuel with
  | zero =>
    intro s _ _ _ h
    exact absurd h (by omega)
  | succ fuel ih =>
    intro s hK hn h0 hfuel hfuel'
    unfold AlternateNCCandEscaping
    by_cases c1 : (runNCC calls s).1 ≠ ReturnCode.SUCCESS
    · rw [if_pos c1]
      exact ⟨_, rfl⟩
    rw [if_neg c1]
    obtain ⟨f1, f2, f3, f4, f5⟩ := saveBest_frame (runNCC calls s).2
      (runNCC calls s).2.members.windfarm.ComputeTotalCostOfFlow
    have f1' : (SaveBestFlowIfNecessary (runNCC calls s).2
        (runNCC calls s).2.members.windfarm.ComputeTotalCostOfFlow).keeperOfEscapingStrategies
        = s.keeperOfEscapingStrategies := f1
    have f2' : (SaveBestFlowIfNecessary (runNCC calls s).2
        (runNCC calls s).2.members.windfarm.ComputeTotalCostOfFlow).runs = s.runs := f2
    have f3' : (SaveBestFlowIfNecessary (runNCC calls s).2
        (runNCC calls s).2.members.windfarm.ComputeTotalCostOfFlow).iterationLimit
        = s.iterationLimit := f3
    have hKt := keeperInv_runNCC calls s hK
      (runNCC calls s).2.members.windfarm.ComputeTotalCostOfFlow
    obtain ⟨r, hr⟩ := tryToChange_returns calls n hdraw happly fuel' _ hKt
      (by rw [f1', hn]) (by rw [f2', f3']; exact h0) (by rw [f2', f3']; exact hfuel')
    obtain ⟨code1, u⟩ := r
    rw [hr]
    simp only
    by_cases c2 : code1 = ReturnCode.IN_PROGRESS
    · rw [if_pos c2]
      obtain ⟨g1, _, d, _, g4, g5⟩ := tryToChange_counter calls _ fuel' code1 u hr
      rw [f2', f3'] at g4 g5
      rw [f3'] at g1
      have hd : 1 ≤ d ∧ u.runs = s.runs + d := by
        rcases g5 with ⟨g5 | g5, _⟩ | ⟨_, g5, g6⟩
        · rw [c2] at g5
          exact absurd g5 (by decide)
        · rw [c2] at g5
          exact absurd g5 (by decide)
        · exact ⟨g5, g6⟩
      have hle : s.runs + d ≤ s.iterationLimit := by
        have := g4 (s.runs + d) (by rw [List.mem_range'_1]; omega)
        omega
      have hn0 : 0 < n := by
        rcases Nat.eq_zero_or_pos n with hn0 | hn0
        · have := h0 hn0
          omega
        · exact hn0
      obtain ⟨k1, k2, _⟩ := tryToChange_keeper calls _
        (by rw [f1', hn]; exact hdraw hn0) hKt fuel' code1 u hr
      apply ih u k1 (by rw [k2, f1', hn]) (fun hn1 => absurd hn1 (by omega))
      · rw [g1, hd.2]
        omega
      · rw [g1, hd.2]
        omega
    · rw [if_neg c2]
      exact ⟨_, rfl⟩

/-- The iteration counter over `AlternateNCCandEscaping`, started with the counter at most
the limit: the draws happen at consecutive values of the counter, at most the limit, and
each run of `RunNCCforAllDeltas` but the first follows a draw. -/
theorem alternate_counter (calls : EscapingCalls E)
    (hncc : ∀ m, (calls.RunNCCforAllDeltas m).1 = ReturnCode.SUCCESS
      ∨ (calls.RunNCCforAllDeltas m).1 = ReturnCode.TIME_LIMIT) (fuel' : Nat) (L c0 : Nat) :
    ∀ (fuel : Nat) (s : EscapingNCC E) (code : ReturnCode) (s' : EscapingNCC E),
      (s.iterationLimit = L ∧ c0 ≤ s.runs ∧ s.runs ≤ L
        ∧ drawRuns s.events = List.range' (c0 + 1) (s.runs - c0)
        ∧ (nccRuns s.events).length ≤ s.runs - c0) →
      AlternateNCCandEscaping calls fuel' fuel s = some (code, s') →
      s'.iterationLimit = L
        ∧ ∃ d, drawRuns s'.events = List.range' (c0 + 1) d ∧ c0 + d ≤ L
          ∧ c0 + d ≤ s'.runs ∧ s'.runs ≤ L + 1
          ∧ (code = ReturnCode.ITERATION_LIMIT → L < s'.runs)
          ∧ (L < s'.runs → code = ReturnCode.ITERATION_LIMIT ∨ code = ReturnCode.TIME_LIMIT)
          ∧ 1 ≤ (nccRuns s'.events).length ∧ (nccRuns s'.events).length ≤ d + 1 := by
  refine alternate_rule calls fuel'
    (fun s => s.iterationLimit = L ∧ c0 ≤ s.runs ∧ s.runs ≤ L
        ∧ drawRuns s.events = List.range' (c0 + 1) (s.runs - c0)
        ∧ (nccRuns s.events).length ≤ s.runs - c0)
    (fun code s' => s'.iterationLimit = L
        ∧ ∃ d, drawRuns s'.events = List.range' (c0 + 1) d ∧ c0 + d ≤ L
          ∧ c0 + d ≤ s'.runs ∧ s'.runs ≤ L + 1
          ∧ (code = ReturnCode.ITERATION_LIMIT → L < s'.runs)
          ∧ (L < s'.runs → code = ReturnCode.ITERATION_LIMIT ∨ code = ReturnCode.TIME_LIMIT)
          ∧ 1 ≤ (nccRuns s'.events).length ∧ (nccRuns s'.events).length ≤ d + 1) ?_
  intro s ⟨i1, i2, i3, i4, i5⟩
  obtain ⟨f1, f2, f3, f4, f5⟩ := saveBest_frame (runNCC calls s).2
    (runNCC calls s).2.members.windfarm.ComputeTotalCostOfFlow
  have f2' : (SaveBestFlowIfNecessary (runNCC calls s).2
      (runNCC calls s).2.members.windfarm.ComputeTotalCostOfFlow).runs = s.runs := f2
  have f3' : (SaveBestFlowIfNecessary (runNCC calls s).2
      (runNCC calls s).2.members.windfarm.ComputeTotalCostOfFlow).iterationLimit
      = s.iterationLimit := f3
  have hd : drawRuns (SaveBestFlowIfNecessary (runNCC calls s).2
      (runNCC calls s).2.members.windfarm.ComputeTotalCostOfFlow).events
      = List.range' (c0 + 1) (s.runs - c0) := by
    rw [f5, drawRuns_append]
    show drawRuns (s.events ++ [EscapingEvent.ncc _ _]) ++ _ = _
    rw [drawRuns_append, i4]
    simp [drawRuns]
  have hn : (nccRuns (SaveBestFlowIfNecessary (runNCC calls s).2
      (runNCC calls s).2.members.windfarm.ComputeTotalCostOfFlow).events).length
      = (nccRuns s.events).length + 1 := by
    rw [f5, nccRuns_append]
    show (nccRuns (s.events ++ [EscapingEvent.ncc _ _]) ++ _).length = _
    rw [nccRuns_append]
    simp [nccRuns]
  constructor
  · intro c1
    refine ⟨f3'.trans i1, s.runs - c0, hd, by omega, by rw [f2']; omega, by rw [f2']; omega,
      ?_, ?_, by omega, by omega⟩
    · intro hc
      have hc' : (calls.RunNCCforAllDeltas s.members).1 = ReturnCode.ITERATION_LIMIT := hc
      rcases hncc s.members with k | k
      · exact absurd (k.symm.trans hc') (by decide)
      · exact absurd (k.symm.trans hc') (by decide)
    · intro hc
      rw [f2'] at hc
      omega
  · intro c1 code u hr
    obtain ⟨g1, g2, d, g3, g4, g5⟩ := tryToChange_counter calls _ fuel' code u hr
    rw [f2', f3'] at g4 g5
    rw [f2', hd] at g3
    rw [f3', i1] at g1
    have g2' := congrArg List.length g2
    rw [hn] at g2'
    rw [i1] at g4 g5
    have hrange : List.range' (c0 + 1) (s.runs - c0) ++ List.range' (s.runs + 1) d
        = List.range' (c0 + 1) (s.runs - c0 + d) := by
      have e : s.runs + 1 = c0 + 1 + (s.runs - c0) := by omega
      rw [e, List.range'_append_1]
      congr 1
      omega
    rw [hrange] at g3
    have hle : d = 0 ∨ s.runs + d ≤ L := by
      rcases Nat.eq_zero_or_pos d with h0 | h0
      · exact Or.inl h0
      · have := g4 (s.runs + d) (by rw [List.mem_range'_1]; omega)
        exact Or.inr this
    constructor
    · intro c2
      have hd2 : 1 ≤ d ∧ u.runs = s.runs + d := by
        rcases g5 with ⟨g5 | g5, _⟩ | ⟨_, g5, g6⟩
        · rw [c2] at g5
          exact absurd g5 (by decide)
        · rw [c2] at g5
          exact absurd g5 (by decide)
        · exact ⟨g5, g6⟩
      refine ⟨g1, by omega, by omega, ?_, by omega⟩
      rw [g3]
      congr 1
      omega
    · intro c2
      refine ⟨g1, s.runs - c0 + d, g3, by omega, ?_⟩
      rcases g5 with ⟨g5, g6, g7⟩ | ⟨g5, g6, g7⟩
      · exact ⟨by omega, by omega, g7, fun _ => g5.symm, by omega, by omega⟩
      · refine ⟨by omega, by omega, ?_, ?_, by omega, by omega⟩
        · intro hc
          rcases g5 with g5 | g5
          · exact absurd (g5.symm.trans hc) (by decide)
          · exact absurd (g5.symm.trans hc) (by decide)
        · intro hc
          omega

end EscapingNCC

end wcp

/-! # The iteration limit of `EscapingNCC` -/

namespace wcp

/-- C25 does not hold as stated: without an escaping strategy and without a feasible initial
flow, `RunCompleteAlgorithm` returns `NO_FEASIBLE_SOLUTION_FOUND` and no run of
`RunNCCforAllDeltas` is performed; and with two strategies, the iteration limit 2 and a
clock that is beyond the time limit from its second reading on, `RunCompleteAlgorithm`
returns `TIME_LIMIT` with the iteration counter 3. -/
theorem time_limit_precedes_iteration_limit :
    (EscapingNCC.RunCompleteAlgorithm
          ({ ComputeInitialFlow := fun m => (ReturnCode.NO_FEASIBLE_SOLUTION_FOUND, m)
             RunNCCforAllDeltas := fun m => (ReturnCode.SUCCESS, m)
             IsTimeLimitExceeded := fun rest => (false, rest)
             Draw := fun rest => (0, rest)
             Apply := fun _ m => (ReturnCode.NOTHING_CHANGED, m) } : EscapingCalls Nat) 5 5
          (EscapingNCC.create (pairGraph [1, 1] [0, 0, 0, 0]) 0 0 10)).map
        (fun r => (r.1, r.2.iterationLimit, (EscapingNCC.nccRuns r.2.events).length))
      = some (ReturnCode.NO_FEASIBLE_SOLUTION_FOUND, 1, 0)
    ∧ (EscapingNCC.RunCompleteAlgorithm
          ({ ComputeInitialFlow := fun m => (ReturnCode.SUCCESS, m)
             RunNCCforAllDeltas := fun m => (ReturnCode.SUCCESS, m)
             IsTimeLimitExceeded := fun rest => (decide (1 ≤ rest), rest + 1)
             Draw := fun rest => (0, rest)
             Apply := fun _ m => (ReturnCode.NOTHING_CHANGED, m) } : EscapingCalls Nat) 5 5
          (EscapingNCC.create (pairGraph [1, 1] [0, 0, 0, 0]) 0 2 2)).map
        (fun r => (r.1, r.2.iterationLimit, r.2.runs, EscapingNCC.drawRuns r.2.events))
      = some (ReturnCode.TIME_LIMIT, 2, 3, [2]) := by
  constructor
  · decide
  · decide

/-- C25 (amended): let the initial flow be found, let `RunNCCforAllDeltas` return `SUCCESS`
or `TIME_LIMIT` and every escaping strategy `SUCCESS` or `NOTHING_CHANGED`, and let the
distribution draw registered strategies only.  Then `RunCompleteAlgorithm` returns (its loops
need no more iterations than the iteration limit plus one), with the iteration limit 1 if
no strategy is registered.  The strategies are drawn at the values `2, 3, ...` of the
iteration counter, none of them above the iteration limit, and the counter ends at most one
above the limit.  `ITERATION_LIMIT` is returned only with the counter above the limit, and
with the counter above the limit the code returned is `ITERATION_LIMIT` or `TIME_LIMIT`.
With no strategy registered, no strategy is drawn and exactly one run of
`RunNCCforAllDeltas` is performed. -/
theorem iteration_limit_ends_escaping {E : Type} (calls : EscapingCalls E)
    (windfarm : WindfarmResidual) (rest : E) (numberOfStrategies iterationLimit : Nat)
    (fuel fuel' : Nat)
    (hinit : (calls.ComputeInitialFlow
      (EscapingNCC.create windfarm rest numberOfStrategies iterationLimit).members).1
        = ReturnCode.SUCCESS)
    (hncc : ∀ m, (calls.RunNCCforAllDeltas m).1 = ReturnCode.SUCCESS
      ∨ (calls.RunNCCforAllDeltas m).1 = ReturnCode.TIME_LIMIT)
    (happly : ∀ i m, (calls.Apply i m).1 = ReturnCode.SUCCESS
      ∨ (calls.Apply i m).1 = ReturnCode.NOTHING_CHANGED)
    (hdraw : 0 < numberOfStrategies → ∀ rest, (calls.Draw rest).1 < numberOfStrategies)
    (hfuel : (if numberOfStrategies = 0 then 1 else iterationLimit) < fuel)
    (hfuel' : (if numberOfStrategies = 0 then 1 else iterationLimit) < fuel') :
    ∃ code s', EscapingNCC.RunCompleteAlgorithm calls fuel fuel'
          (EscapingNCC.create windfarm rest numberOfStrategies iterationLimit)
        = some (code, s')
      ∧ s'.iterationLimit = (if numberOfStrategies = 0 then 1 else iterationLimit)
      ∧ (∃ d, EscapingNCC.drawRuns s'.events = List.range' 2 d)
      ∧ (∀ r ∈ EscapingNCC.drawRuns s'.events, r ≤ s'.iterationLimit)
      ∧ s'.runs ≤ s'.iterationLimit + 1
      ∧ (code = ReturnCode.ITERATION_LIMIT → s'.iterationLimit < s'.runs)
      ∧ (s'.iterationLimit < s'.runs →
          code = ReturnCode.ITERATION_LIMIT ∨ code = ReturnCode.TIME_LIMIT)
      ∧ (numberOfStrategies = 0 →
          EscapingNCC.drawRuns s'.events = [] ∧ (EscapingNCC.nccRuns s'.events).length = 1) := by
  have hL := EscapingNCC.create_iterationLimit windfarm rest numberOfStrategies iterationLimit
  generalize hLdef : (if numberOfStrategies = 0 then 1 else iterationLimit) = L at *
  have hn0 : numberOfStrategies = 0 → L = 1 := by
    intro h
    rw [← hLdef, if_pos h]
  unfold EscapingNCC.RunCompleteAlgorithm
  simp only [hinit, true_and]
  by_cases hz : (EscapingNCC.create windfarm rest numberOfStrategies iterationLimit).iterationLimit
      = 0
  · rw [if_pos hz, if_neg (by decide)]
    rw [hL] at hz
    refine ⟨_, _, rfl, hL, ⟨0, rfl⟩, fun r hr => absurd hr (List.not_mem_nil _), ?_,
      fun _ => ?_, fun _ => Or.inl rfl, fun h => ?_⟩
    · show 1 ≤ _ + 1
      omega
    · show _ < 1
      rw [hL]
      omega
    · have := hn0 h
      omega
  · rw [if_neg hz, if_pos rfl]
    rw [hL] at hz
    have hK : EscapingNCC.KeeperInv
        ({ EscapingNCC.create windfarm rest numberOfStrategies iterationLimit with
            members := (calls.ComputeInitialFlow
              (EscapingNCC.create windfarm rest numberOfStrategies iterationLimit).members).2
            runs := 1 } : EscapingNCC E) :=
      EscapingNCC.keeperInv_congr _ _
        (EscapingNCC.keeperInv_create windfarm rest numberOfStrategies iterationLimit)
        rfl (Nat.zero_le _) rfl
    obtain ⟨r, hr⟩ := EscapingNCC.alternate_returns calls numberOfStrategies hdraw happly fuel'
      fuel _ hK rfl
      (fun h => by
        show (EscapingNCC.create windfarm rest numberOfStrategies iterationLimit).iterationLimit
          ≤ 1
        rw [hL, hn0 h])
      (by
        show (EscapingNCC.create windfarm rest numberOfStrategies iterationLimit).iterationLimit
          + 1 - 1 < fuel
        rw [hL]
        omega)
      (by
        show (EscapingNCC.create windfarm rest numberOfStrategies iterationLimit).iterationLimit
          + 1 - 1 < fuel'
        rw [hL]
        omega)
    obtain ⟨code, u⟩ := r
    obtain ⟨g1, d, g2, g3, g4, g5, g6, g7, g8, g9⟩ :=
      EscapingNCC.alternate_counter calls hncc fuel' L 1 fuel
        ({ EscapingNCC.create windfarm rest numberOfStrategies iterationLimit with
            members := (calls.ComputeInitialFlow
              (EscapingNCC.create windfarm rest numberOfStrategies iterationLimit).members).2
            runs := 1 } : EscapingNCC E) code u
        ⟨hL, le_refl _, by show 1 ≤ L; omega, rfl, Nat.zero_le _⟩ hr
    rw [hr]
    refine ⟨code, _, rfl, g1, ⟨d, g2⟩, ?_, ?_, ?_, ?_, ?_⟩
    · intro r hr
      have hr' : r ∈ EscapingNCC.drawRuns u.events := hr
      rw [g2, List.mem_range'_1] at hr'
      show r ≤ u.iterationLimit
      omega
    · show u.runs ≤ u.iterationLimit + 1
      omega
    · intro hc
      show u.iterationLimit < u.runs
      rw [g1]
      exact g6 hc
    · intro hc
      have hc' : u.iterationLimit < u.runs := hc
      rw [g1] at hc'
      exact g7 hc'
    · intro h
      have := hn0 h
      have hd0 : d = 0 := by omega
      constructor
      · show EscapingNCC.drawRuns u.events = []
        rw [g2, hd0]
        rfl
      · show (EscapingNCC.nccRuns u.events).length = 1
        omega

/-- Witness of C25: two strategies that change nothing on scenario S1, the iteration limit
3 and the strategy `0` drawn again and again.  The strategy is applied with the counter at
2 and skipped with the counter at 3, and `ITERATION_LIMIT` is returned with the counter
at 4. -/
theorem iteration_limit_ends_escaping_witness :
    (EscapingNCC.RunCompleteAlgorithm
          ({ ComputeInitialFlow := fun m => (ReturnCode.SUCCESS, m)
             RunNCCforAllDeltas := fun m => (ReturnCode.SUCCESS, m)
             IsTimeLimitExceeded := fun rest => (false, rest)
             Draw := fun rest => (0, rest)
             Apply := fun _ m => (ReturnCode.NOTHING_CHANGED, m) } : EscapingCalls Nat) 4 4
          (EscapingNCC.create (pairGraph [1, 1] [0, 0, 0, 0]) 0 2 3)).map
        (fun r => (r.1, r.2.iterationLimit, r.2.runs, EscapingNCC.drawRuns r.2.events))
      = some (ReturnCode.ITERATION_LIMIT, 3, 4, [2, 3])
    ∧ ∃ code s', EscapingNCC.RunCompleteAlgorithm
          ({ ComputeInitialFlow := fun m => (ReturnCode.SUCCESS, m)
             RunNCCforAllDeltas := fun m => (ReturnCode.SUCCESS, m)
             IsTimeLimitExceeded := fun rest => (false, rest)
             Draw := fun rest => (0, rest)
             Apply := fun _ m => (ReturnCode.NOTHING_CHANGED, m) } : EscapingCalls Nat) 4 4
          (EscapingNCC.create (pairGraph [1, 1] [0, 0, 0, 0]) 0 2 3)
        = some (code, s')
      ∧ s'.iterationLimit = (if 2 = 0 then 1 else 3)
      ∧ (∃ d, EscapingNCC.drawRuns s'.events = List.range' 2 d)
      ∧ (∀ r ∈ EscapingNCC.drawRuns s'.events, r ≤ s'.iterationLimit)
      ∧ s'.runs ≤ s'.iterationLimit + 1
      ∧ (code = ReturnCode.ITERATION_LIMIT → s'.iterationLimit < s'.runs)
      ∧ (s'.iterationLimit < s'.runs →
          code = ReturnCode.ITERATION_LIMIT ∨ code = ReturnCode.TIME_LIMIT)
      ∧ (2 = 0 →
          EscapingNCC.drawRuns s'.events = [] ∧ (EscapingNCC.nccRuns s'.events).length = 1) :=
  ⟨by decide,
    iteration_limit_ends_escaping _ _ _ 2 3 4 4 rfl (fun _ => Or.inl rfl)
      (fun _ _ => Or.inr rfl) (fun _ _ => Nat.zero_lt_two) (by decide) (by decide)⟩

end wcp

/-! # The best flow of `EscapingNCC` -/

namespace wcp

namespace EscapingNCC

variable {E : Type}

theorem savedValues_append (l l' : List EscapingEvent) :
    savedValues (l ++ l') = savedValues l ++ savedValues l' := by
  induction l with
  | nil => rfl
  | cons e l ih =>
    cases e <;> simp [savedValues, ih]

theorem seenFlows_append (l l' : List EscapingEvent) :
    seenFlows (l ++ l') = seenFlows l ++ seenFlows l' := by
  induction l with
  | nil => rfl
  | cons e l ih =>
    cases e with
    | apply i c w =>
      by_cases h : c = ReturnCode.SUCCESS
      · simp [seenFlows, ih, h]
      · simp [seenFlows, ih, h]
    | _ => simp [seenFlows, ih]

theorem foldl_set_range (g : Nat → Int) (bestFlow : List Int) :
    (List.range bestFlow.length).foldl (fun bestFlow edge => bestFlow.set edge (g edge)) bestFlow
      = (List.range bestFlow.length).map g := by
  have key := WindfarmResidual.foldl_range_inv
    (fun k (l : List Int) => l.length = bestFlow.length
      ∧ ∀ j, l[j]? = if j < k then (if j < bestFlow.length then some (g j) else none)
        else bestFlow[j]?)
    (fun bestFlow edge => bestFlow.set edge (g edge)) bestFlow bestFlow.length
    ⟨rfl, fun j => by simp⟩
    (fun k l hk ⟨h1, h2⟩ => by
      refine ⟨by rw [List.length_set, h1], fun j => ?_⟩
      rw [List.getElem?_set, h2 j]
      by_cases c : k = j
      · subst c
        rw [if_pos rfl, if_pos (by omega), if_pos (by omega), if_pos hk]
      · rw [if_neg c]
        by_cases c2 : j < k
        · rw [if_pos c2, if_pos (by omega), if_pos (by omega)]
        · rw [if_neg c2, if_neg (by omega)])
    bestFlow.length (le_refl _)
  apply List.ext_getElem?
  intro j
  rw [key.2 j]
  by_cases c : j < bestFlow.length
  · rw [if_pos c, if_pos c, List.getElem?_map, List.getElem?_range c]
    rfl
  · rw [if_neg c, List.getElem?_eq_none (by omega), List.getElem?_eq_none (by simp; omega)]

theorem copyBestFlowFromWindfarm_bestFlow (s : EscapingNCC E)
    (h : s.bestFlow.length = s.members.windfarm.NumberOfEdges) :
    (CopyBestFlowFromWindfarm s).bestFlow = flowOf s.members.windfarm := by
  unfold CopyBestFlowFromWindfarm flowOf
  show (List.range s.members.windfarm.NumberOfEdges).foldl _ s.bestFlow = _
  rw [← h]
  exact foldl_set_range _ _

theorem saveBest_best (s : EscapingNCC E) (c : ℚ)
    (h : s.bestFlow.length = s.members.windfarm.NumberOfEdges) :
    ((SaveBestFlowIfNecessary s c).bestSolutionValue
        = if ((c : ℚ) : WithTop ℚ) < s.bestSolutionValue then ((c : ℚ) : WithTop ℚ)
          else s.bestSolutionValue)
      ∧ ((SaveBestFlowIfNecessary s c).bestFlow
        = if ((c : ℚ) : WithTop ℚ) < s.bestSolutionValue then flowOf s.members.windfarm
          else s.bestFlow) := by
  unfold SaveBestFlowIfNecessary
  by_cases hc : ((c : ℚ) : WithTop ℚ) < s.bestSolutionValue
  · rw [if_pos hc, if_pos hc]
    simp only [if_pos hc]
    exact ⟨rfl, copyBestFlowFromWindfarm_bestFlow
      ({ s with bestSolutionValue := ((c : ℚ) : WithTop ℚ) } : EscapingNCC E) h⟩
  · rw [if_neg hc, if_neg hc]
    simp only [if_neg hc]
    exact ⟨trivial, trivial⟩

/-- Function `CopyBestFlowToWindfarm` on a residual graph that is a state of `w0`, with the
flow of another state `wb` of `w0` in `bestFlow_`: the graph keeps being a state of `w0`, the
flow on every edge is the flow of `wb`, and so is the cost. -/
theorem copyBestFlowToWindfarm_spec (s : EscapingNCC E) (w0 wb : WindfarmResidual)
    (hlen : w0.flowValues.length = w0.NumberOfOriginalEdges + w0.NumberOfSubstations)
    (hne : w0.NumberOfEdges = 2 * w0.NumberOfOriginalEdges + 2 * w0.NumberOfSubstations)
    (hs : s.members.windfarm.IsStateOf w0) (hb : wb.IsStateOf w0)
    (hf : s.bestFlow = flowOf wb) :
    (CopyBestFlowToWindfarm s).members.windfarm.IsStateOf w0
      ∧ (∀ e, e < w0.NumberOfEdges →
        (CopyBestFlowToWindfarm s).members.windfarm.FlowOnEdge e = wb.FlowOnEdge e)
      ∧ (CopyBestFlowToWindfarm s).members.windfarm.ComputeTotalCostOfFlow
        = wb.ComputeTotalCostOfFlow := by
  have tb := WindfarmResidual.IsStateOf_topology hb
  have ts := WindfarmResidual.IsStateOf_topology hs
  have hnb : wb.NumberOfEdges = w0.NumberOfEdges := tb.2.2.2.2.2.2.2.2.2.2.1
  have hns : s.members.windfarm.NumberOfEdges = w0.NumberOfEdges := ts.2.2.2.2.2.2.2.2.2.2.1
  have hbf : ∀ e, e < w0.NumberOfEdges → s.bestFlow.getD e 0 = wb.FlowOnEdge e := by
    intro e he
    rw [hf]
    unfold flowOf
    rw [List.getD_eq_getElem?_getD, List.getElem?_map, List.getElem?_range (by omega)]
    rfl
  have key := WindfarmResidual.foldl_range_inv
    (fun k (w : WindfarmResidual) => w.IsStateOf w0
      ∧ ∀ e, e < w0.NumberOfEdges → (e < k ∨ w0.ReverseEdgeIndex e < k) →
        w.FlowOnEdge e = wb.FlowOnEdge e)
    (fun windfarm edge => windfarm.SetFlowOnEdge edge (s.bestFlow.getD edge 0))
    s.members.windfarm w0.NumberOfEdges
    ⟨hs, fun e _ h => absurd h (by omega)⟩
    (fun k w hk ⟨h1, h2⟩ => by
      have h1' := WindfarmResidual.SetFlowOnEdge_isStateOf w k (s.bestFlow.getD k 0)
      have tw := WindfarmResidual.IsStateOf_topology h1
      obtain ⟨a1, a2, a3, a4, a5, a6, a7, a8, a9, a10, a11⟩ := h1
      have e1 : w.NumberOfOriginalEdges = w0.NumberOfOriginalEdges := a2
      have e2 : w.NumberOfSubstations = w0.NumberOfSubstations := a4
      refine ⟨WindfarmResidual.IsStateOf_trans h1'
        ⟨a1, a2, a3, a4, a5, a6, a7, a8, a9, a10, a11⟩, fun e he hor => ?_⟩
      rw [WindfarmResidual.FlowOnEdge_SetFlowOnEdge w k e _ (by rw [a10, hlen, e1, e2])
        (by rw [e1, e2, ← hne]; exact hk) (by rw [e1, e2, ← hne]; exact he)]
      have hrev : ∀ x, w.ReverseEdgeIndex x = w0.ReverseEdgeIndex x := tw.2.2.2.2.2.2.2.2.2.1
      by_cases c1 : e = k
      · rw [if_pos c1, c1]
        exact hbf k hk
      · rw [if_neg c1]
        by_cases c2 : e = w.ReverseEdgeIndex k
        · rw [if_pos c2, hbf k hk]
          have hk' : k < 2 * wb.NumberOfOriginalEdges + 2 * wb.NumberOfSubstations := by
            have b2 : wb.NumberOfOriginalEdges = w0.NumberOfOriginalEdges := hb.2.1
            have b4 : wb.NumberOfSubstations = w0.NumberOfSubstations := hb.2.2.2.1
            rw [b2, b4, ← hne]
            exact hk
          rw [WindfarmResidual.FlowOnEdge_reverse wb k hk', neg_neg, c2, hrev,
            tb.2.2.2.2.2.2.2.2.2.1]
        · rw [if_neg c2]
          apply h2 e he
          rcases hor with hor | hor
          · exact Or.inl (by omega)
          · rcases Nat.lt_succ_iff_lt_or_eq.1 hor with hor | hor
            · exact Or.inr hor
            · exfalso
              apply c2
              rw [hrev, ← hor, WindfarmResidual.ReverseEdgeIndex_involutive w0 e
                (by rw [← hne]; exact he)])
    w0.NumberOfEdges (le_refl _)
  have hcopy : (CopyBestFlowToWindfarm s).members.windfarm
      = (List.range w0.NumberOfEdges).foldl
        (fun windfarm edge => windfarm.SetFlowOnEdge edge (s.bestFlow.getD edge 0))
        s.members.windfarm := by
    show (List.range s.members.windfarm.NumberOfEdges).foldl _ _ = _
    rw [hns]
  rw [hcopy]
  refine ⟨key.1, fun e he => key.2 e he (Or.inl he), ?_⟩
  rw [computeTotalCostOfFlow_eq_sum, computeTotalCostOfFlow_eq_sum]
  have tk := WindfarmResidual.IsStateOf_topology key.1
  have k2 : ((List.range w0.NumberOfEdges).foldl
        (fun windfarm edge => windfarm.SetFlowOnEdge edge (s.bestFlow.getD edge 0))
        s.members.windfarm).NumberOfOriginalEdges = w0.NumberOfOriginalEdges := key.1.2.1
  have b2 : wb.NumberOfOriginalEdges = w0.NumberOfOriginalEdges := hb.2.1
  rw [k2, b2]
  apply congrArg
  apply List.map_congr_left
  intro i hi
  rw [List.mem_range] at hi
  unfold WindfarmResidual.ComputeCostOfFlowOnEdge
  rw [key.2 i (by omega) (Or.inl (by omega)), tk.2.2.1 i, tb.2.2.1 i, key.1.2.2.2.2.2.2.2.2.1,
    hb.2.2.2.2.2.2.2.2.1]

theorem bestInv_neutral (w0 w w' : WindfarmResidual) (bf : List Int) (bv : WithTop ℚ)
    (ev : List EscapingEvent) (e : EscapingEvent) (h : BestInv w0 w bf bv ev)
    (hw : w'.IsStateOf w0) (hseen : seenFlows [e] = []) (hsv : savedValues [e] = [])
    (hns : ∀ c v f, e ≠ EscapingEvent.save c v f) :
    BestInv w0 w' bf bv (ev ++ [e]) := by
  have e1 : seenFlows (ev ++ [e]) = seenFlows ev := by
    rw [seenFlows_append, hseen, List.append_nil]
  have e2 : savedValues (ev ++ [e]) = savedValues ev := by
    rw [savedValues_append, hsv, List.append_nil]
  refine ⟨hw, h.size, ?_, ?_, ?_, ?_, ?_, ?_, ?_, ?_⟩
  · rw [e1]
    exact h.seen
  · rw [e2]
    exact h.mono
  · rw [e2]
    exact h.below
  · rw [e2]
    exact h.last
  · rw [e1, e2]
    exact h.count
  · intro c v f hm
    rw [List.mem_append, List.mem_singleton] at hm
    rw [e1]
    rcases hm with hm | hm
    · exact h.saved c v f hm
    · exact absurd hm.symm (hns c v f)
  · rw [e1]
    exact h.best
  · rw [e1]
    exact h.least

theorem bestInv_save (w0 w w' : WindfarmResidual) (bf : List Int) (bv : WithTop ℚ)
    (ev : List EscapingEvent) (e : EscapingEvent) (h : BestInv w0 w bf bv ev)
    (hw : w'.IsStateOf w0) (hseen : seenFlows [e] = [w']) (hsv : savedValues [e] = [])
    (hns : ∀ c v f, e ≠ EscapingEvent.save c v f) :
    BestInv w0 w'
      (if ((w'.ComputeTotalCostOfFlow : ℚ) : WithTop ℚ) < bv then flowOf w' else bf)
      (if ((w'.ComputeTotalCostOfFlow : ℚ) : WithTop ℚ) < bv
        then ((w'.ComputeTotalCostOfFlow : ℚ) : WithTop ℚ) else bv)
      (ev ++ [e] ++ [EscapingEvent.save w'.ComputeTotalCostOfFlow
        (if ((w'.ComputeTotalCostOfFlow : ℚ) : WithTop ℚ) < bv
          then ((w'.ComputeTotalCostOfFlow : ℚ) : WithTop ℚ) else bv)
        (if ((w'.ComputeTotalCostOfFlow : ℚ) : WithTop ℚ) < bv then flowOf w' else bf)]) := by
  generalize hbv' : (if ((w'.ComputeTotalCostOfFlow : ℚ) : WithTop ℚ) < bv
        then ((w'.ComputeTotalCostOfFlow : ℚ) : WithTop ℚ) else bv) = bv'
  generalize hbf' : (if ((w'.ComputeTotalCostOfFlow : ℚ) : WithTop ℚ) < bv
        then flowOf w' else bf) = bf'
  have e1 : seenFlows (ev ++ [e] ++ [EscapingEvent.save w'.ComputeTotalCostOfFlow bv' bf'])
      = seenFlows ev ++ [w'] := by
    rw [seenFlows_append, seenFlows_append, hseen]
    simp [seenFlows]
  have e2 : savedValues (ev ++ [e] ++ [EscapingEvent.save w'.ComputeTotalCostOfFlow bv' bf'])
      = savedValues ev ++ [bv'] := by
    rw [savedValues_append, savedValues_append, hsv]
    simp [savedValues]
  have hle : bv' ≤ bv := by
    rw [← hbv']
    split_ifs with hc
    · exact le_of_lt hc
    · exact le_refl _
  have hlec : bv' ≤ ((w'.ComputeTotalCostOfFlow : ℚ) : WithTop ℚ) := by
    rw [← hbv']
    split_ifs with hc
    · exact le_refl _
    · exact not_lt.1 hc
  have hbest : ∃ wb ∈ seenFlows ev ++ [w'], bf' = flowOf wb
      ∧ bv' = ((wb.ComputeTotalCostOfFlow : ℚ) : WithTop ℚ) := by
    by_cases hc : ((w'.ComputeTotalCostOfFlow : ℚ) : WithTop ℚ) < bv
    · rw [if_pos hc] at hbv' hbf'
      exact ⟨w', by simp, hbf'.symm, hbv'.symm⟩
    · rw [if_neg hc] at hbv' hbf'
      rcases h.best with k | ⟨wb, k1, k2, k3⟩
      · rw [k] at hc
        exact absurd (WithTop.coe_lt_top _) hc
      · exact ⟨wb, List.mem_append_left _ k1, by rw [← hbf', k2], by rw [← hbv', k3]⟩
  refine ⟨hw, ?_, ?_, ?_, ?_, ?_, ?_, ?_, ?_, ?_⟩
  · rw [← hbf']
    split_ifs
    · unfold flowOf
      rw [List.length_map, List.length_range]
      exact (WindfarmResidual.IsStateOf_topology hw).2.2.2.2.2.2.2.2.2.2.1
    · exact h.size
  · rw [e1]
    intro x hx
    rw [List.mem_append, List.mem_singleton] at hx
    rcases hx with hx | hx
    · exact h.seen x hx
    · rw [hx]
      exact hw
  · rw [e2, List.pairwise_append]
    refine ⟨h.mono, List.pairwise_singleton _ _, fun a ha b hb => ?_⟩
    rw [List.mem_singleton] at hb
    rw [hb]
    exact le_trans hle (h.below a ha)
  · rw [e2]
    intro v hv
    rw [List.mem_append, List.mem_singleton] at hv
    rcases hv with hv | hv
    · exact le_trans hle (h.below v hv)
    · rw [hv]
  · left
    rw [e2, List.getLast?_append]
    rfl
  · rw [e1, e2, List.length_append, List.length_append, h.count]
    rfl
  · intro c v f hm
    rw [e1]
    rw [List.mem_append, List.mem_singleton, List.mem_append, List.mem_singleton] at hm
    rcases hm with (hm | hm) | hm
    · obtain ⟨wb, k1, k2⟩ := h.saved c v f hm
      exact ⟨wb, List.mem_append_left _ k1, k2⟩
    · exact absurd hm.symm (hns c v f)
    · simp only [EscapingEvent.save.injEq] at hm
      obtain ⟨_, m2, m3⟩ := hm
      rw [m2, m3]
      exact hbest
  · right
    rw [e1]
    exact hbest
  · rw [e1]
    intro x hx
    rw [List.mem_append, List.mem_singleton] at hx
    rcases hx with hx | hx
    · exact le_trans hle (h.least x hx)
    · rw [hx]
      exact hlec

theorem bestInv_saveState (w0 w : WindfarmResidual) (t : EscapingNCC E) (bf : List Int)
    (bv : WithTop ℚ) (ev : List EscapingEvent) (e : EscapingEvent)
    (h : BestInv w0 w bf bv ev) (hw : t.members.windfarm.IsStateOf w0)
    (hev : t.events = ev ++ [e]) (hseen : seenFlows [e] = [t.members.windfarm])
    (hsv : savedValues [e] = []) (hns : ∀ c v f, e ≠ EscapingEvent.save c v f)
    (hbf : t.bestFlow = bf) (hbv : t.bestSolutionValue = bv) :
    BestInv w0
      (SaveBestFlowIfNecessary t t.members.windfarm.ComputeTotalCostOfFlow).members.windfarm
      (SaveBestFlowIfNecessary t t.members.windfarm.ComputeTotalCostOfFlow).bestFlow
      (SaveBestFlowIfNecessary t t.members.windfarm.ComputeTotalCostOfFlow).bestSolutionValue
      (SaveBestFlowIfNecessary t t.members.windfarm.ComputeTotalCostOfFlow).events := by
  obtain ⟨f1, f2, f3, f4, f5⟩ := saveBest_frame t t.members.windfarm.ComputeTotalCostOfFlow
  have hsize : t.bestFlow.length = t.members.windfarm.NumberOfEdges := by
    rw [hbf, h.size]
    exact (WindfarmResidual.IsStateOf_topology hw).2.2.2.2.2.2.2.2.2.2.1.symm
  obtain ⟨b1, b2⟩ := saveBest_best t t.members.windfarm.ComputeTotalCostOfFlow hsize
  rw [f5, f4, b1, b2, hev, hbf, hbv]
  exact bestInv_save w0 w t.members.windfarm bf bv ev e h hw hseen hsv hns

end EscapingNCC

end wcp

/-! # `EscapingNCC` keeps the best flow -/

namespace wcp

namespace EscapingNCC

variable {E : Type}

theorem seenFlows_apply_success (i : Nat) (c : ReturnCode) (w : WindfarmResidual)
    (h : c = ReturnCode.SUCCESS) : seenFlows [EscapingEvent.apply i c w] = [w] := by
  simp [seenFlows, h]

theorem seenFlows_apply_other (i : Nat) (c : ReturnCode) (w : WindfarmResidual)
    (h : c ≠ ReturnCode.SUCCESS) : seenFlows [EscapingEvent.apply i c w] = [] := by
  simp [seenFlows, h]

theorem tryToChange_best (calls : EscapingCalls E) (w0 : WindfarmResidual)
    (hA : ∀ i m, m.windfarm.IsStateOf w0 → (calls.Apply i m).2.windfarm.IsStateOf w0)
    (n0 : Nat) :
    ∀ (fuel : Nat) (s : EscapingNCC E) (code : ReturnCode) (s' : EscapingNCC E),
      (BestInv w0 s.members.windfarm s.bestFlow s.bestSolutionValue s.events
        ∧ n0 ≤ (seenFlows s.events).length) →
      TryToChangeFlowByApplyingEscapingStrategies calls fuel s = some (code, s') →
      BestInv w0 s'.members.windfarm s'.bestFlow s'.bestSolutionValue s'.events
        ∧ n0 ≤ (seenFlows s'.events).length := by
  refine tryToChange_rule calls
    (fun s => BestInv w0 s.members.windfarm s.bestFlow s.bestSolutionValue s.events
        ∧ n0 ≤ (seenFlows s.events).length)
    (fun _ s => BestInv w0 s.members.windfarm s.bestFlow s.bestSolutionValue s.events
        ∧ n0 ≤ (seenFlows s.events).length) ?_
  intro s ⟨hI, hn⟩ _
  have hdraw : BestInv w0 s.members.windfarm s.bestFlow s.bestSolutionValue
      (s.events ++ [EscapingEvent.draw (s.runs + 1) (calls.Draw
        (calls.IsTimeLimitExceeded s.members.rest).2).1]) :=
    bestInv_neutral w0 _ _ _ _ _ _ hI hI.state rfl rfl (fun _ _ _ h => by cases h)
  have hseen1 : ∀ r i, seenFlows (s.events ++ [EscapingEvent.draw r i])
      = seenFlows s.events := by
    intro r i
    rw [seenFlows_append]
    simp [seenFlows]
  refine ⟨fun _ => ⟨hI, hn⟩, fun _ => ⟨fun _ => ⟨hI, hn⟩, fun _ _ => ?_, fun _ _ => ⟨?_, ?_⟩⟩⟩
  · constructor
    · exact bestInv_neutral w0 _ _ _ _ _ _ hdraw hI.state rfl rfl (fun _ _ _ h => by cases h)
    · show n0 ≤ (seenFlows (s.events ++ [EscapingEvent.draw _ _] ++ [EscapingEvent.skip _])).length
      rw [seenFlows_append, hseen1]
      simpa [seenFlows] using hn
  · intro hc
    have hw := hA (drawStrategy calls (readClock calls
        (countIteration s)).2).keeperOfEscapingStrategies.indexOfCurrentEscapingStrategy
      (drawStrategy calls (readClock calls (countIteration s)).2).members hI.state
    have hc' : (calls.Apply (drawStrategy calls (readClock calls
        (countIteration s)).2).keeperOfEscapingStrategies.indexOfCurrentEscapingStrategy
      (drawStrategy calls (readClock calls (countIteration s)).2).members).1
        = ReturnCode.SUCCESS := hc
    have key := bestInv_saveState w0 s.members.windfarm
      ({ (applyStrategy calls (drawStrategy calls
            (readClock calls (countIteration s)).2)).2 with
          members :=
            { (applyStrategy calls (drawStrategy calls
                (readClock calls (countIteration s)).2)).2.members with
              solutionCosts :=
                (((applyStrategy calls (drawStrategy calls
                  (readClock calls (countIteration s)).2)).2.members.windfarm.ComputeTotalCostOfFlow
                    : ℚ) : WithTop ℚ) } } : EscapingNCC E)
      s.bestFlow s.bestSolutionValue _ _ hdraw hw rfl
      (seenFlows_apply_success _ _ _ hc') rfl (fun _ _ _ h => by cases h) rfl rfl
    refine ⟨key, ?_⟩
    obtain ⟨f1, f2, f3, f4, f5⟩ := saveBest_frame
      ({ (applyStrategy calls (drawStrategy calls
            (readClock calls (countIteration s)).2)).2 with
          members :=
            { (applyStrategy calls (drawStrategy calls
                (readClock calls (countIteration s)).2)).2.members with
              solutionCosts :=
                (((applyStrategy calls (drawStrategy calls
                  (readClock calls (countIteration s)).2)).2.members.windfarm.ComputeTotalCostOfFlow
                    : ℚ) : WithTop ℚ) } } : EscapingNCC E)
      (applyStrategy calls (drawStrategy calls
        (readClock calls (countIteration s)).2)).2.members.windfarm.ComputeTotalCostOfFlow
    show n0 ≤ (seenFlows (SaveBestFlowIfNecessary _ _).events).length
    rw [f5, seenFlows_append]
    show n0 ≤ (seenFlows (s.events ++ [EscapingEvent.draw _ _] ++ [EscapingEvent.apply _ _ _])
      ++ _).length
    rw [seenFlows_append, hseen1, List.length_append, List.length_append]
    omega
  · intro hc
    have hw := hA (drawStrategy calls (readClock calls
        (countIteration s)).2).keeperOfEscapingStrategies.indexOfCurrentEscapingStrategy
      (drawStrategy calls (readClock calls (countIteration s)).2).members hI.state
    have hc' : (calls.Apply (drawStrategy calls (readClock calls
        (countIteration s)).2).keeperOfEscapingStrategies.indexOfCurrentEscapingStrategy
      (drawStrategy calls (readClock calls (countIteration s)).2).members).1
        = ReturnCode.NOTHING_CHANGED := hc
    have key : BestInv w0
        (DoBookkeepingAfterUnsuccessfulEscaping (applyStrategy calls (drawStrategy calls
          (readClock calls (countIteration s)).2)).2).members.windfarm
        (DoBookkeepingAfterUnsuccessfulEscaping (applyStrategy calls (drawStrategy calls
          (readClock calls (countIteration s)).2)).2).bestFlow
        (DoBookkeepingAfterUnsuccessfulEscaping (applyStrategy calls (drawStrategy calls
          (readClock calls (countIteration s)).2)).2).bestSolutionValue
        (DoBookkeepingAfterUnsuccessfulEscaping (applyStrategy calls (drawStrategy calls
          (readClock calls (countIteration s)).2)).2).events :=
      bestInv_neutral w0 _ _ _ _ _ _ hdraw hw
        (seenFlows_apply_other _ _ _ (by rw [hc']; decide)) rfl (fun _ _ _ h => by cases h)
    have hlen : n0 ≤ (seenFlows (DoBookkeepingAfterUnsuccessfulEscaping (applyStrategy calls
        (drawStrategy calls (readClock calls (countIteration s)).2)).2).events).length := by
      show n0 ≤ (seenFlows (s.events ++ [EscapingEvent.draw _ _]
        ++ [EscapingEvent.apply _ _ _])).length
      rw [seenFlows_append, hseen1, List.length_append]
      omega
    exact ⟨fun _ => ⟨key, hlen⟩, fun _ => ⟨key, hlen⟩⟩

theorem alternate_best (calls : EscapingCalls E) (w0 : WindfarmResidual)
    (hN : ∀ m, m.windfarm.IsStateOf w0 → (calls.RunNCCforAllDeltas m).2.windfarm.IsStateOf w0)
    (hA : ∀ i m, m.windfarm.IsStateOf w0 → (calls.Apply i m).2.windfarm.IsStateOf w0)
    (fuel' : Nat) :
    ∀ (fuel : Nat) (s : EscapingNCC E) (code : ReturnCode) (s' : EscapingNCC E),
      BestInv w0 s.members.windfarm s.bestFlow s.bestSolutionValue s.events →
      AlternateNCCandEscaping calls fuel' fuel s = some (code, s') →
      BestInv w0 s'.members.windfarm s'.bestFlow s'.bestSolutionValue s'.events
        ∧ 1 ≤ (seenFlows s'.events).length := by
  refine alternate_rule calls fuel'
    (fun s => BestInv w0 s.members.windfarm s.bestFlow s.bestSolutionValue s.events)
    (fun _ s => BestInv w0 s.members.windfarm s.bestFlow s.bestSolutionValue s.events
        ∧ 1 ≤ (seenFlows s.events).length) ?_
  intro s hI
  have hw := hN s.members hI.state
  have key := bestInv_saveState w0 s.members.windfarm (runNCC calls s).2
      s.bestFlow s.bestSolutionValue _ _ hI hw rfl rfl rfl (fun _ _ _ h => by cases h) rfl rfl
  obtain ⟨f1, f2, f3, f4, f5⟩ := saveBest_frame (runNCC calls s).2
    (runNCC calls s).2.members.windfarm.ComputeTotalCostOfFlow
  have hlen : 1 ≤ (seenFlows (SaveBestFlowIfNecessary (runNCC calls s).2
      (runNCC calls s).2.members.windfarm.ComputeTotalCostOfFlow).events).length := by
    rw [f5, seenFlows_append]
    show 1 ≤ (seenFlows (s.events ++ [EscapingEvent.ncc _ _]) ++ _).length
    rw [seenFlows_append, List.length_append, List.length_append]
    simp [seenFlows]
  refine ⟨fun _ => ⟨key, hlen⟩, fun _ code u hr => ?_⟩
  have k := tryToChange_best calls w0 hA 1 fuel' _ code u ⟨key, hlen⟩ hr
  exact ⟨fun _ => k.1, fun _ => k⟩

end EscapingNCC

end wcp

/-! # The best flow at the end of `EscapingNCC` -/

namespace wcp

/-- C23: let `RunCompleteAlgorithm` find an initial flow and call `AlternateNCCandEscaping`,
with runs of `RunNCCforAllDeltas` and escaping strategies that change nothing of the
residual graph but its flow and its residual costs.  When it returns, no value of
`bestSolutionValue_` after a call of `SaveBestFlowIfNecessary` is larger than an earlier
one and the last of them is the final one; every call of `SaveBestFlowIfNecessary` has
left in `bestFlow_` the flow of a residual graph seen at the end of a run of
`RunNCCforAllDeltas` or after a successful escape, with the cost of this flow in
`bestSolutionValue_`, and so it is at the end; the flow copied back into the windfarm is
`bestFlow_`, its cost is `bestSolutionValue_`, and `bestSolutionValue_` is at most the
cost of every flow seen. -/
theorem best_flow_is_kept_and_copied_back {E : Type} (calls : EscapingCalls E)
    (w0 : WindfarmResidual) (rest : E) (numberOfStrategies iterationLimit fuel fuel' : Nat)
    (code : ReturnCode) (s' : EscapingNCC E)
    (hlen : w0.flowValues.length = w0.NumberOfOriginalEdges + w0.NumberOfSubstations)
    (hne : w0.NumberOfEdges = 2 * w0.NumberOfOriginalEdges + 2 * w0.NumberOfSubstations)
    (hI : ∀ m, m.windfarm.IsStateOf w0 → (calls.ComputeInitialFlow m).2.windfarm.IsStateOf w0)
    (hN : ∀ m, m.windfarm.IsStateOf w0 → (calls.RunNCCforAllDeltas m).2.windfarm.IsStateOf w0)
    (hA : ∀ i m, m.windfarm.IsStateOf w0 → (calls.Apply i m).2.windfarm.IsStateOf w0)
    (hinit : (calls.ComputeInitialFlow
      (EscapingNCC.create w0 rest numberOfStrategies iterationLimit).members).1
        = ReturnCode.SUCCESS)
    (hlimit : numberOfStrategies = 0 ∨ iterationLimit ≠ 0)
    (h : EscapingNCC.RunCompleteAlgorithm calls fuel fuel'
      (EscapingNCC.create w0 rest numberOfStrategies iterationLimit) = some (code, s')) :
    (EscapingNCC.savedValues s'.events).Pairwise (fun earlier later => later ≤ earlier)
      ∧ (EscapingNCC.savedValues s'.events).getLast? = some s'.bestSolutionValue
      ∧ (∀ c v f, EscapingEvent.save c v f ∈ s'.events →
          ∃ wb ∈ EscapingNCC.seenFlows s'.events, f = EscapingNCC.flowOf wb
            ∧ v = ((wb.ComputeTotalCostOfFlow : ℚ) : WithTop ℚ))
      ∧ (∃ wb ∈ EscapingNCC.seenFlows s'.events, s'.bestFlow = EscapingNCC.flowOf wb
          ∧ s'.bestSolutionValue = ((wb.ComputeTotalCostOfFlow : ℚ) : WithTop ℚ))
      ∧ EscapingNCC.flowOf s'.members.windfarm = s'.bestFlow
      ∧ ((s'.members.windfarm.ComputeTotalCostOfFlow : ℚ) : WithTop ℚ) = s'.bestSolutionValue
      ∧ (∀ w ∈ EscapingNCC.seenFlows s'.events,
          s'.bestSolutionValue ≤ ((w.ComputeTotalCostOfFlow : ℚ) : WithTop ℚ)) := by
  have hL := EscapingNCC.create_iterationLimit w0 rest numberOfStrategies iterationLimit
  have hz : (EscapingNCC.create w0 rest numberOfStrategies iterationLimit).iterationLimit
      ≠ 0 := by
    rw [hL]
    rcases hlimit with k | k
    · rw [if_pos k]
      decide
    · split_ifs
      · decide
      · exact k
  unfold EscapingNCC.RunCompleteAlgorithm at h
  simp only [hinit, true_and] at h
  rw [if_neg hz, if_pos rfl] at h
  cases hr : EscapingNCC.AlternateNCCandEscaping calls fuel' fuel
      ({ EscapingNCC.create w0 rest numberOfStrategies iterationLimit with
          members := (calls.ComputeInitialFlow
            (EscapingNCC.create w0 rest numberOfStrategies iterationLimit).members).2
          runs := 1 } : EscapingNCC E) with
  | none =>
    rw [hr] at h
    exact absurd h (by simp)
  | some r =>
    obtain ⟨code1, u⟩ := r
    rw [hr] at h
    simp only [Option.some.injEq, Prod.mk.injEq] at h
    obtain ⟨_, h2⟩ := h
    have h0 : EscapingNCC.BestInv w0
        (calls.ComputeInitialFlow
          (EscapingNCC.create w0 rest numberOfStrategies iterationLimit).members).2.windfarm
        (List.replicate w0.NumberOfEdges EscapingNCC.INFINITE_CAPACITY) ⊤ [] :=
      ⟨hI _ (WindfarmResidual.IsStateOf_refl w0), List.length_replicate _ _,
        fun _ hw => absurd hw (List.not_mem_nil _), List.Pairwise.nil,
        fun _ hv => absurd hv (List.not_mem_nil _), Or.inr ⟨rfl, rfl⟩, rfl,
        fun _ _ _ hm => absurd hm (List.not_mem_nil _), Or.inl rfl,
        fun _ hw => absurd hw (List.not_mem_nil _)⟩
    obtain ⟨k, kn⟩ := EscapingNCC.alternate_best calls w0 hN hA fuel' fuel _ code1 u h0 hr
    have hbest : ∃ wb ∈ EscapingNCC.seenFlows u.events, u.bestFlow = EscapingNCC.flowOf wb
        ∧ u.bestSolutionValue = ((wb.ComputeTotalCostOfFlow : ℚ) : WithTop ℚ) := by
      rcases k.best with kb | kb
      · exfalso
        cases hs : EscapingNCC.seenFlows u.events with
        | nil =>
          rw [hs] at kn
          exact absurd kn (by decide)
        | cons w l =>
          have := k.least w (by rw [hs]; exact List.mem_cons_self _ _)
          rw [kb, top_le_iff] at this
          exact absurd this (WithTop.coe_ne_top)
      · exact kb
    have hlast : (EscapingNCC.savedValues u.events).getLast? = some u.bestSolutionValue := by
      rcases k.last with kl | ⟨kl, _⟩
      · exact kl
      · have := k.count
        rw [kl] at this
        have this' : (EscapingNCC.seenFlows u.events).length = 0 := this.symm
        omega
    obtain ⟨wb, b1, b2, b3⟩ := hbest
    obtain ⟨c1, c2, c3⟩ := EscapingNCC.copyBestFlowToWindfarm_spec u w0 wb hlen hne k.state
      (k.seen wb b1) b2
    rw [← h2]
    refine ⟨k.mono, hlast, k.saved, ⟨wb, b1, b2, b3⟩, ?_, ?_, k.least⟩
    · show EscapingNCC.flowOf (EscapingNCC.CopyBestFlowToWindfarm u).members.windfarm
        = u.bestFlow
      rw [b2]
      unfold EscapingNCC.flowOf
      rw [(WindfarmResidual.IsStateOf_topology c1).2.2.2.2.2.2.2.2.2.2.1,
        (WindfarmResidual.IsStateOf_topology (k.seen wb b1)).2.2.2.2.2.2.2.2.2.2.1]
      apply List.map_congr_left
      intro e he
      rw [List.mem_range] at he
      exact c2 e he
    · show (((EscapingNCC.CopyBestFlowToWindfarm u).members.windfarm.ComputeTotalCostOfFlow
        : ℚ) : WithTop ℚ) = u.bestSolutionValue
      rw [c3, b3]

/-- Witness of C23: on the triangle instance with the flow `[1, 1, 0, 2]` of cost 400, the
first run of `RunNCCforAllDeltas` finds the flow `[0, 2, 1, 2]` of cost 220, the escaping
strategy and the second run leave the flow `[1, 1, 0, 2]` in the windfarm, and the
iteration limit 2 ends the run: the three values saved are 220, and the flow copied back
is `[0, 2, 1, 2]`. -/
theorem best_flow_is_kept_and_copied_back_witness :
    ∃ s', EscapingNCC.RunCompleteAlgorithm reroutingCalls 3 3
          (EscapingNCC.create (triangleGraph [1, 1, 0, 2] [0, 0, 0, 0, 0, 0, 0, 0]) 0 1 2)
        = some (ReturnCode.ITERATION_LIMIT, s')
      ∧ s'.members.windfarm.flowValues = [0, 2, 1, 2]
      ∧ EscapingNCC.savedValues s'.events = [220, 220, 220]
      ∧ (EscapingNCC.seenFlows s'.events).map (fun w => w.flowValues)
        = [[0, 2, 1, 2], [1, 1, 0, 2], [1, 1, 0, 2]]
      ∧ (EscapingNCC.seenFlows s'.events).map (fun w => w.ComputeTotalCostOfFlow)
        = [220, 400, 400]
      ∧ (EscapingNCC.savedValues s'.events).Pairwise (fun earlier later => later ≤ earlier)
      ∧ (EscapingNCC.savedValues s'.events).getLast? = some s'.bestSolutionValue
      ∧ (∀ c v f, EscapingEvent.save c v f ∈ s'.events →
          ∃ wb ∈ EscapingNCC.seenFlows s'.events, f = EscapingNCC.flowOf wb
            ∧ v = ((wb.ComputeTotalCostOfFlow : ℚ) : WithTop ℚ))
      ∧ (∃ wb ∈ EscapingNCC.seenFlows s'.events, s'.bestFlow = EscapingNCC.flowOf wb
          ∧ s'.bestSolutionValue = ((wb.ComputeTotalCostOfFlow : ℚ) : WithTop ℚ))
      ∧ EscapingNCC.flowOf s'.members.windfarm = s'.bestFlow
      ∧ ((s'.members.windfarm.ComputeTotalCostOfFlow : ℚ) : WithTop ℚ) = s'.bestSolutionValue
      ∧ (∀ w ∈ EscapingNCC.seenFlows s'.events,
          s'.bestSolutionValue ≤ ((w.ComputeTotalCostOfFlow : ℚ) : WithTop ℚ)) := by
  have e : (EscapingNCC.RunCompleteAlgorithm reroutingCalls 3 3
      (EscapingNCC.create (triangleGraph [1, 1, 0, 2] [0, 0, 0, 0, 0, 0, 0, 0]) 0 1 2)).map
        (fun r => (r.1, r.2.members.windfarm.flowValues, EscapingNCC.savedValues r.2.events,
          (EscapingNCC.seenFlows r.2.events).map (fun w => w.flowValues),
          (EscapingNCC.seenFlows r.2.events).map (fun w => w.ComputeTotalCostOfFlow)))
      = some (ReturnCode.ITERATION_LIMIT, [0, 2, 1, 2], [220, 220, 220],
          [[0, 2, 1, 2], [1, 1, 0, 2], [1, 1, 0, 2]], [220, 400, 400]) := by
    with_unfolding_all rfl
  cases hr : EscapingNCC.RunCompleteAlgorithm reroutingCalls 3 3
      (EscapingNCC.create (triangleGraph [1, 1, 0, 2] [0, 0, 0, 0, 0, 0, 0, 0]) 0 1 2) with
  | none =>
    rw [hr] at e
    exact absurd e (by simp)
  | some r =>
    obtain ⟨code, s'⟩ := r
    rw [hr] at e
    simp only [Option.map_some', Option.some.injEq, Prod.mk.injEq] at e
    obtain ⟨e1, e2, e3, e4, e5⟩ := e
    subst e1
    exact ⟨s', rfl, e2, e3, e4, e5,
      best_flow_is_kept_and_copied_back reroutingCalls
        (triangleGraph [1, 1, 0, 2] [0, 0, 0, 0, 0, 0, 0, 0]) 0 1 2 3 3 _ s' rfl rfl
        (fun _ hm => hm)
        (fun m hm => by
          show WindfarmResidual.IsStateOf (if m.rest = 0 then
              ({ m with
                  windfarm := triangleGraph [0, 2, 1, 2] [0, 0, 0, 0, 0, 0, 0, 0]
                  rest := 1 } : NCCMembers Nat)
            else m).windfarm _
          by_cases c : m.rest = 0
          · rw [if_pos c]
            exact ⟨rfl, rfl, rfl, rfl, rfl, rfl, rfl, rfl, rfl, rfl, rfl⟩
          · rw [if_neg c]
            exact hm)
        (fun _ _ _ => ⟨rfl, rfl, rfl, rfl, rfl, rfl, rfl, rfl, rfl, rfl, rfl⟩)
        rfl (Or.inr (by decide)) hr⟩

end wcp

/-! # The loop of `Collecting::UpdateFlowOnWalk` -/

namespace wcp

namespace Collecting

open WindfarmResidual

theorem computeFreeCapacities_head_pos (w : WindfarmResidual) (s : Nat) :
    ∀ walk : List Nat, (∀ e ∈ walk, 0 < w.FreeEdgeCapacity e) →
      0 < w.FreeSubstationCapacity s → 0 < (ComputeFreeCapacities w s walk).headD 0 := by
  intro walk
  induction walk with
  | nil => intro _ h; exact h
  | cons e rest ih =>
    intro h1 h2
    have i := ih (fun x hx => h1 x (List.mem_cons_of_mem _ hx)) h2
    have j := h1 e (List.mem_cons_self _ _)
    show 0 < (if w.FreeEdgeCapacity e < (ComputeFreeCapacities w s rest).headD 0 then
        w.FreeEdgeCapacity e else (ComputeFreeCapacities w s rest).headD 0)
    split_ifs
    · exact j
    · exact i

theorem computeFreeCapacities_head_le (w : WindfarmResidual) (s e : Nat) (rest : List Nat) :
    (ComputeFreeCapacities w s (e :: rest)).headD 0 ≤ w.FreeEdgeCapacity e
      ∧ (ComputeFreeCapacities w s (e :: rest)).headD 0
        ≤ (ComputeFreeCapacities w s rest).headD 0 := by
  show (if w.FreeEdgeCapacity e < (ComputeFreeCapacities w s rest).headD 0 then
      w.FreeEdgeCapacity e else (ComputeFreeCapacities w s rest).headD 0) ≤ _ ∧
    (if w.FreeEdgeCapacity e < (ComputeFreeCapacities w s rest).headD 0 then
      w.FreeEdgeCapacity e else (ComputeFreeCapacities w s rest).headD 0) ≤ _
  split_ifs with h
  · exact ⟨le_refl _, le_of_lt h⟩
  · exact ⟨not_lt.1 h, le_refl _⟩

/-- One iteration of the loop of `UpdateFlowOnWalk`: the flow on the edge grows by the new
`currentFlowValue`, which is the old one or one more; it is one more exactly if the start
vertex was not collected and the old value is below the free capacity, and then the start
vertex is collected. -/
theorem updateFlowOnWalkLoop_cons (edge : Nat) (rest : List Nat) (freeCapacities : List Int)
    (w : WindfarmResidual) (collected : List Bool) (currentFlowValue : Int) :
    ∃ (b : Int) (collected2 : List Bool),
      UpdateFlowOnWalkLoop (edge :: rest) freeCapacities w collected currentFlowValue
        = UpdateFlowOnWalkLoop rest freeCapacities.tail
            (w.AddFlowOnEdge edge (currentFlowValue + b)) collected2 (currentFlowValue + b)
      ∧ ((b = 1 ∧ collected.getD (w.StartVertex edge) false = false
            ∧ currentFlowValue < freeCapacities.headD 0
            ∧ collected2 = collected.set (w.StartVertex edge) true)
          ∨ (b = 0 ∧ collected2 = collected
            ∧ (collected.getD (w.StartVertex edge) false = true
              ∨ ¬ currentFlowValue < freeCapacities.headD 0))) := by
  by_cases c : (!HasTurbineProductionBeenCollected collected (w.StartVertex edge)
        && decide (currentFlowValue < freeCapacities.headD 0)) = true
  · refine ⟨1, collected.set (w.StartVertex edge) true, ?_, Or.inl ?_⟩
    · show (if (!HasTurbineProductionBeenCollected collected (w.StartVertex edge)
        && decide (currentFlowValue < freeCapacities.headD 0)) = true then _ else _) = _
      rw [if_pos c]
    · rw [Bool.and_eq_true, Bool.not_eq_true', decide_eq_true_eq] at c
      exact ⟨rfl, c.1, c.2, rfl⟩
  · refine ⟨0, collected, ?_, Or.inr ?_⟩
    · show (if (!HasTurbineProductionBeenCollected collected (w.StartVertex edge)
        && decide (currentFlowValue < freeCapacities.headD 0)) = true then _ else _) = _
      rw [if_neg c, add_zero]
    · rw [Bool.and_eq_true, Bool.not_eq_true', decide_eq_true_eq, not_and_or] at c
      refine ⟨rfl, rfl, ?_⟩
      rcases c with c | c
      · left
        unfold HasTurbineProductionBeenCollected at c
        simpa using c
      · exact Or.inr c

theorem newlyCollected_cons (w : WindfarmResidual) (before after : List Bool) (e : Nat)
    (l : List Nat) :
    newlyCollected w before after (e :: l)
      = newlyCollected w before after l
        + (if before.getD (w.StartVertex e) false = false
            ∧ after.getD (w.StartVertex e) false = true then 1 else 0) := by
  unfold newlyCollected
  rw [List.countP_cons]
  congr 1
  cases before.getD (w.StartVertex e) false <;> cases after.getD (w.StartVertex e) false <;> rfl

theorem newlyCollected_congr (w w' : WindfarmResidual) (b b' a : List Bool) (l : List Nat)
    (hw : ∀ e, w'.StartVertex e = w.StartVertex e)
    (h : ∀ e ∈ l, b'.getD (w.StartVertex e) false = b.getD (w.StartVertex e) false) :
    newlyCollected w' b' a l = newlyCollected w b a l := by
  unfold newlyCollected
  apply List.countP_congr
  intro e he
  rw [hw e, h e he]

/-- The vector `haveTurbineProductionsBeenCollected` and `currentFlowValue` after the loop
of `UpdateFlowOnWalk` over the edges `rest` of a path with distinct start vertices. -/
theorem updateFlowOnWalkLoop_collected (w0 : WindfarmResidual) (s : Nat) :
    ∀ (rest : List Nat) (w1 : WindfarmResidual) (c : List Bool) (cur : Int),
      w1.IsStateOf w0 → (rest.map w0.StartVertex).Nodup →
      (∀ e ∈ rest, w0.StartVertex e < c.length) →
      (∀ e ∈ rest, 0 < w0.FreeEdgeCapacity e) → 0 < w0.FreeSubstationCapacity s →
      0 ≤ cur → cur ≤ (ComputeFreeCapacities w0 s rest).headD 0 →
      (UpdateFlowOnWalkLoop rest (ComputeFreeCapacities w0 s rest) w1 c cur).2.1.length
          = c.length
        ∧ (∀ v, c.getD v false = true →
          (UpdateFlowOnWalkLoop rest (ComputeFreeCapacities w0 s rest) w1 c cur).2.1.getD v false
            = true)
        ∧ (∀ v, v ∉ rest.map w0.StartVertex →
          (UpdateFlowOnWalkLoop rest (ComputeFreeCapacities w0 s rest) w1 c cur).2.1.getD v false
            = c.getD v false)
        ∧ (UpdateFlowOnWalkLoop rest (ComputeFreeCapacities w0 s rest) w1 c cur).2.2
          = cur + newlyCollected w0 c
            (UpdateFlowOnWalkLoop rest (ComputeFreeCapacities w0 s rest) w1 c cur).2.1 rest
        ∧ (UpdateFlowOnWalkLoop rest (ComputeFreeCapacities w0 s rest) w1 c cur).2.2
          ≤ w0.FreeSubstationCapacity s
        ∧ (cur = 0 → ∀ e0 rest', rest = e0 :: rest' → c.getD (w0.StartVertex e0) false = false →
          (UpdateFlowOnWalkLoop rest (ComputeFreeCapacities w0 s rest) w1 c cur).2.1.getD
            (w0.StartVertex e0) false = true) := by
  intro rest
  induction rest with
  | nil =>
    intro w1 c cur _ _ _ _ _ _ hcur
    refine ⟨rfl, fun _ h => h, fun _ _ => rfl, ?_, hcur, fun _ e0 rest' h => by cases h⟩
    show cur = cur + ((newlyCollected w0 c c [] : Nat) : Int)
    simp [newlyCollected]
  | cons e rest ih =>
    intro w1 c cur hst hnd hlen hfree hfs h0 hcur
    obtain ⟨t1, _⟩ := IsStateOf_topology hst
    obtain ⟨b, c2, heq, hcase⟩ := updateFlowOnWalkLoop_cons e rest
      (ComputeFreeCapacities w0 s (e :: rest)) w1 c cur
    rw [heq]
    have htail : (ComputeFreeCapacities w0 s (e :: rest)).tail
        = ComputeFreeCapacities w0 s rest := rfl
    rw [htail]
    obtain ⟨hle1, hle2⟩ := computeFreeCapacities_head_le w0 s e rest
    rw [List.map_cons, List.nodup_cons] at hnd
    have hse : w1.StartVertex e = w0.StartVertex e := t1 e
    have hlt := hlen e (List.mem_cons_self _ _)
    have hc2len : c2.length = c.length := by
      rcases hcase with ⟨_, _, _, k⟩ | ⟨_, k, _⟩
      · rw [k, List.length_set]
      · rw [k]
    have hb01 : 0 ≤ b ∧ cur + b ≤ (ComputeFreeCapacities w0 s rest).headD 0 := by
      rcases hcase with ⟨k1, _, k3, _⟩ | ⟨k1, _, _⟩
      · rw [k1]
        constructor
        · decide
        · have : cur + 1 ≤ (ComputeFreeCapacities w0 s (e :: rest)).headD 0 := by omega
          exact le_trans this hle2
      · rw [k1, add_zero]
        exact ⟨le_refl _, le_trans hcur hle2⟩
    have hc2 : ∀ v, c2.getD v false
        = if v = w0.StartVertex e ∧ b = 1 then true else c.getD v false := by
      intro v
      rcases hcase with ⟨k1, _, _, k⟩ | ⟨k1, k, _⟩
      · rw [k, getD_set_eq, hse, k1]
        by_cases hv : w0.StartVertex e = v
        · rw [if_pos hv, if_pos hlt, if_pos ⟨hv.symm, rfl⟩]
        · rw [if_neg hv, if_neg (fun h => hv h.1.symm)]
      · rw [k, k1, if_neg (fun h => absurd h.2 (by decide))]
    obtain ⟨i1, i2, i3, i4, i5, _⟩ := ih (w1.AddFlowOnEdge e (cur + b)) c2 (cur + b)
      (IsStateOf_trans (AddFlowOnEdge_isStateOf w1 e (cur + b)) hst) hnd.2
      (fun x hx => by rw [hc2len]; exact hlen x (List.mem_cons_of_mem _ hx))
      (fun x hx => hfree x (List.mem_cons_of_mem _ hx)) hfs (by omega) hb01.2
    generalize (UpdateFlowOnWalkLoop rest (ComputeFreeCapacities w0 s rest)
      (w1.AddFlowOnEdge e (cur + b)) c2 (cur + b)) = R at i1 i2 i3 i4 i5 ⊢
    have hRe : R.2.1.getD (w0.StartVertex e) false = c2.getD (w0.StartVertex e) false :=
      i3 _ hnd.1
    refine ⟨i1.trans hc2len, ?_, ?_, ?_, i5, ?_⟩
    · intro v hv
      apply i2
      rw [hc2, hv]
      split_ifs <;> rfl
    · intro v hv
      rw [List.map_cons, List.mem_cons, not_or] at hv
      rw [i3 v hv.2, hc2, if_neg (fun h => hv.1 h.1)]
    · rw [i4, newlyCollected_cons]
      have hcongr : newlyCollected w0 c2 R.2.1 rest = newlyCollected w0 c R.2.1 rest := by
        apply newlyCollected_congr w0 w0 c c2 R.2.1 rest (fun _ => rfl)
        intro x hx
        rw [hc2, if_neg]
        intro h
        exact hnd.1 (by rw [← h.1]; exact List.mem_map_of_mem _ hx)
      have hind : (((if c.getD (w0.StartVertex e) false = false
          ∧ R.2.1.getD (w0.StartVertex e) false = true then 1 else 0 : Nat)) : Int) = b := by
        rw [hRe]
        rcases hcase with ⟨k1, k2, _, _⟩ | ⟨k1, k2, _⟩
        · rw [hse] at k2
          have e2 : c2.getD (w0.StartVertex e) false = true := by
            rw [hc2, if_pos ⟨rfl, k1⟩]
          rw [e2, if_pos ⟨k2, rfl⟩, k1]
          rfl
        · rw [k2, k1, if_neg]
          · rfl
          · intro h
            rw [h.1] at h
            exact absurd h.2 (by decide)
      rw [hcongr, Nat.cast_add, hind]
      ring
    · intro hcur0 e0 rest' hcons hce
      simp only [List.cons.injEq] at hcons
      rw [← hcons.1] at hce ⊢
      rw [hRe, hc2]
      rcases hcase with ⟨k1, _, _, _⟩ | ⟨_, _, k3⟩
      · rw [if_pos ⟨rfl, k1⟩]
      · exfalso
        rcases k3 with k3 | k3
        · rw [hse, hce] at k3
          exact absurd k3 (by decide)
        · have := computeFreeCapacities_head_pos w0 s (e :: rest) hfree hfs
          omega

theorem count_set_true (l : List Bool) (i : Nat) (hi : i < l.length)
    (h : l.getD i false = false) : (l.set i true).count true = l.count true + 1 := by
  induction l generalizing i with
  | nil => exact absurd hi (by simp)
  | cons a l ih =>
    cases i with
    | zero =>
      have ha : a = false := h
      rw [ha, List.set_cons_zero, List.count_cons, List.count_cons]
      simp
    | succ j =>
      rw [List.set_cons_succ, List.count_cons, List.count_cons,
        ih j (by rw [List.length_cons] at hi; omega) h]
      omega

/-- What the lemmas on the loop of `UpdateFlowOnWalk` need of one iteration. -/
theorem updateFlowOnWalkLoop_step (w0 : WindfarmResidual) (s : Nat) (e : Nat) (rest : List Nat)
    (w1 : WindfarmResidual) (c : List Bool) (cur : Int) (hst : w1.IsStateOf w0)
    (hlt : w0.StartVertex e < c.length) (_h0 : 0 ≤ cur)
    (hcur : cur ≤ (ComputeFreeCapacities w0 s (e :: rest)).headD 0) :
    ∃ (b : Int) (c2 : List Bool),
      UpdateFlowOnWalkLoop (e :: rest) (ComputeFreeCapacities w0 s (e :: rest)) w1 c cur
        = UpdateFlowOnWalkLoop rest (ComputeFreeCapacities w0 s rest)
            (w1.AddFlowOnEdge e (cur + b)) c2 (cur + b)
      ∧ 0 ≤ b ∧ cur + b ≤ (ComputeFreeCapacities w0 s rest).headD 0
      ∧ cur + b ≤ w0.FreeEdgeCapacity e
      ∧ c2.length = c.length
      ∧ (∀ c' : List Bool, c'.getD (w0.StartVertex e) false = c2.getD (w0.StartVertex e) false →
        (((if c.getD (w0.StartVertex e) false = false
            ∧ c'.getD (w0.StartVertex e) false = true then 1 else 0 : Nat)) : Int) = b)
      ∧ (∀ (c' : List Bool) (l : List Nat), w0.StartVertex e ∉ l.map w0.StartVertex →
        newlyCollected w0 c2 c' l = newlyCollected w0 c c' l)
      ∧ (∀ v, v ≠ w0.StartVertex e → c2.getD v false = c.getD v false)
      ∧ ((c2.count true : Nat) : Int) = c.count true + b := by
  obtain ⟨t1, _⟩ := IsStateOf_topology hst
  obtain ⟨b, c2, heq, hcase⟩ := updateFlowOnWalkLoop_cons e rest
    (ComputeFreeCapacities w0 s (e :: rest)) w1 c cur
  have hse : w1.StartVertex e = w0.StartVertex e := t1 e
  obtain ⟨hle1, hle2⟩ := computeFreeCapacities_head_le w0 s e rest
  have hc2 : ∀ v, c2.getD v false
      = if v = w0.StartVertex e ∧ b = 1 then true else c.getD v false := by
    intro v
    rcases hcase with ⟨k1, _, _, k⟩ | ⟨k1, k, _⟩
    · rw [k, getD_set_eq, hse, k1]
      by_cases hv : w0.StartVertex e = v
      · rw [if_pos hv, if_pos hlt, if_pos ⟨hv.symm, rfl⟩]
      · rw [if_neg hv, if_neg (fun h => hv h.1.symm)]
    · rw [k, k1, if_neg (fun h => absurd h.2 (by decide))]
  refine ⟨b, c2, heq, ?_, ?_, ?_, ?_, ?_, ?_, ?_, ?_⟩
  · rcases hcase with ⟨k1, _⟩ | ⟨k1, _⟩
    · rw [k1]
      decide
    · rw [k1]
  · rcases hcase with ⟨k1, _, k3, _⟩ | ⟨k1, _, _⟩
    · rw [k1]
      have : cur + 1 ≤ (ComputeFreeCapacities w0 s (e :: rest)).headD 0 := by omega
      exact le_trans this hle2
    · rw [k1, add_zero]
      exact le_trans hcur hle2
  · rcases hcase with ⟨k1, _, k3, _⟩ | ⟨k1, _, _⟩
    · rw [k1]
      have : cur + 1 ≤ (ComputeFreeCapacities w0 s (e :: rest)).headD 0 := by omega
      exact le_trans this hle1
    · rw [k1, add_zero]
      exact le_trans hcur hle1
  · rcases hcase with ⟨_, _, _, k⟩ | ⟨_, k, _⟩
    · rw [k, List.length_set]
    · rw [k]
  · intro c' hc'
    rw [hc']
    rcases hcase with ⟨k1, k2, _, _⟩ | ⟨k1, k2, _⟩
    · rw [hse] at k2
      have e2 : c2.getD (w0.StartVertex e) false = true := by
        rw [hc2, if_pos ⟨rfl, k1⟩]
      rw [e2, if_pos ⟨k2, rfl⟩, k1]
      rfl
    · rw [k2, k1, if_neg]
      · rfl
      · intro h
        rw [h.1] at h
        exact absurd h.2 (by decide)
  · intro c' l hl
    apply newlyCollected_congr w0 w0 c c2 c' l (fun _ => rfl)
    intro x hx
    rw [hc2, if_neg]
    intro h
    exact hl (by rw [← h.1]; exact List.mem_map_of_mem _ hx)
  · intro v hv
    rw [hc2, if_neg (fun h => hv h.1)]
  · rcases hcase with ⟨k1, k2, _, k4⟩ | ⟨k1, k2, _⟩
    · rw [hse] at k2 k4
      rw [k4, count_set_true c _ hlt k2, k1]
      push_cast
      ring
    · rw [k2, k1, add_zero]

theorem flowOnEdge_addFlowOnEdge_sum {inst : Instance} {w : WindfarmResidual} (hb : Built inst w)
    (e x : Nat) (d : Int) (he : e < w.NumberOfEdges) (hx : x < w.NumberOfEdges) :
    (w.AddFlowOnEdge e d).FlowOnEdge x
      = w.FlowOnEdge x + (if x = e then d else if x = w.ReverseEdgeIndex e then -d else 0) := by
  have hNE := hb.numberOfEdges_eq
  unfold AddFlowOnEdge
  rw [FlowOnEdge_SetFlowOnEdge w e x _ hb.flowValues_length (by omega) (by omega)]
  by_cases c1 : x = e
  · rw [if_pos c1, if_pos c1, c1]
  · rw [if_neg c1, if_neg c1]
    by_cases c2 : x = w.ReverseEdgeIndex e
    · rw [if_pos c2, if_pos c2, c2, FlowOnEdge_reverse w e (by omega)]
      ring
    · rw [if_neg c2, if_neg c2, add_zero]

/-- The flow after the loop of `UpdateFlowOnWalk` over the edges `rest` of a path: on the
edge `rest[i]` it has grown by the `currentFlowValue` at the beginning plus the number of
turbines newly collected among the start vertices of `rest[0..i]`, which is at most the free
capacity of the edge; on an edge that is neither on the path nor the reverse of an edge on
the path it is as before. -/
theorem updateFlowOnWalkLoop_flow (inst : Instance) (w0 : WindfarmResidual)
    (hb0 : Built inst w0) (s : Nat) :
    ∀ (rest : List Nat) (w1 : WindfarmResidual) (c : List Bool) (cur : Int),
      w1.IsStateOf w0 → rest.Nodup → (∀ e ∈ rest, e < w0.NumberOfEdges) →
      (∀ x ∈ rest, w0.ReverseEdgeIndex x ∉ rest) →
      (rest.map w0.StartVertex).Nodup →
      (∀ e ∈ rest, w0.StartVertex e < c.length) →
      (∀ e ∈ rest, 0 < w0.FreeEdgeCapacity e) → 0 < w0.FreeSubstationCapacity s →
      0 ≤ cur → cur ≤ (ComputeFreeCapacities w0 s rest).headD 0 →
      (UpdateFlowOnWalkLoop rest (ComputeFreeCapacities w0 s rest) w1 c cur).1.IsStateOf w0
        ∧ (∀ i, i < rest.length →
          (UpdateFlowOnWalkLoop rest (ComputeFreeCapacities w0 s rest) w1 c cur).1.FlowOnEdge
              (rest.getD i 0)
            = w1.FlowOnEdge (rest.getD i 0) + (cur + newlyCollected w0 c
                (UpdateFlowOnWalkLoop rest (ComputeFreeCapacities w0 s rest) w1 c cur).2.1
                (rest.take (i + 1)))
          ∧ cur + newlyCollected w0 c
                (UpdateFlowOnWalkLoop rest (ComputeFreeCapacities w0 s rest) w1 c cur).2.1
                (rest.take (i + 1)) ≤ w0.FreeEdgeCapacity (rest.getD i 0))
        ∧ (∀ x, x < w0.NumberOfEdges → x ∉ rest → w0.ReverseEdgeIndex x ∉ rest →
          (UpdateFlowOnWalkLoop rest (ComputeFreeCapacities w0 s rest) w1 c cur).1.FlowOnEdge x
            = w1.FlowOnEdge x) := by
  intro rest
  induction rest with
  | nil =>
    intro w1 c cur hst _ _ _ _ _ _ _ _ _
    exact ⟨hst, fun i hi => absurd hi (by simp), fun _ _ _ _ => rfl⟩
  | cons e rest ih =>
    intro w1 c cur hst hnd hE hrev hsnd hlen hfree hfs h0 hcur
    have hb1 : Built inst w1 := Built_of_isStateOf inst w1 w0 hb0 hst
    have tp := IsStateOf_topology hst
    have hNE1 : w1.NumberOfEdges = w0.NumberOfEdges := tp.2.2.2.2.2.2.2.2.2.2.1
    have hrev1 : ∀ x, w1.ReverseEdgeIndex x = w0.ReverseEdgeIndex x := tp.2.2.2.2.2.2.2.2.2.1
    have hNE := hb0.numberOfEdges_eq
    obtain ⟨b, c2, heq, hb0', hb1', hb2, hc2len, hind, hcongr, _, _⟩ :=
      updateFlowOnWalkLoop_step w0 s e rest w1 c cur hst (hlen e (List.mem_cons_self _ _)) h0 hcur
    rw [heq]
    rw [List.nodup_cons] at hnd
    rw [List.map_cons, List.nodup_cons] at hsnd
    have hst2 : (w1.AddFlowOnEdge e (cur + b)).IsStateOf w0 :=
      IsStateOf_trans (AddFlowOnEdge_isStateOf w1 e (cur + b)) hst
    have hrest : ∀ x ∈ rest, w0.ReverseEdgeIndex x ∉ rest :=
      fun x hx h => hrev x (List.mem_cons_of_mem _ hx) (List.mem_cons_of_mem _ h)
    obtain ⟨i1, i2, i3⟩ := ih (w1.AddFlowOnEdge e (cur + b)) c2 (cur + b) hst2 hnd.2
      (fun x hx => hE x (List.mem_cons_of_mem _ hx)) hrest hsnd.2
      (fun x hx => by rw [hc2len]; exact hlen x (List.mem_cons_of_mem _ hx))
      (fun x hx => hfree x (List.mem_cons_of_mem _ hx)) hfs (by omega) hb1'
    obtain ⟨_, _, j3, _⟩ := updateFlowOnWalkLoop_collected w0 s rest
      (w1.AddFlowOnEdge e (cur + b)) c2 (cur + b) hst2 hsnd.2
      (fun x hx => by rw [hc2len]; exact hlen x (List.mem_cons_of_mem _ hx))
      (fun x hx => hfree x (List.mem_cons_of_mem _ hx)) hfs (by omega) hb1'
    generalize (UpdateFlowOnWalkLoop rest (ComputeFreeCapacities w0 s rest)
      (w1.AddFlowOnEdge e (cur + b)) c2 (cur + b)) = R at i1 i2 i3 j3 ⊢
    have hRe := hind R.2.1 (j3 _ hsnd.1)
    have he : e < w0.NumberOfEdges := hE e (List.mem_cons_self _ _)
    have hreve : w0.ReverseEdgeIndex e ∉ rest :=
      fun h => hrev e (List.mem_cons_self _ _) (List.mem_cons_of_mem _ h)
    have hstep : ∀ x, x < w0.NumberOfEdges → (w1.AddFlowOnEdge e (cur + b)).FlowOnEdge x
        = w1.FlowOnEdge x
          + (if x = e then cur + b else if x = w0.ReverseEdgeIndex e then -(cur + b) else 0) := by
      intro x hx
      rw [flowOnEdge_addFlowOnEdge_sum hb1 e x _ (by omega) (by omega), hrev1]
    refine ⟨i1, ?_, ?_⟩
    · intro i hi
      cases i with
      | zero =>
        have e1 : (e :: rest).getD 0 0 = e := rfl
        have e2 : (e :: rest).take (0 + 1) = [e] := rfl
        rw [e1, e2, i3 e he hnd.1 hreve, hstep e he, if_pos rfl]
        have e3 : ((newlyCollected w0 c R.2.1 [e] : Nat) : Int) = b := by
          rw [newlyCollected_cons]
          have : newlyCollected w0 c R.2.1 [] = 0 := rfl
          rw [this, Nat.zero_add]
          exact hRe
        rw [e3]
        exact ⟨rfl, hb2⟩
      | succ j =>
        have hj : j < rest.length := by
          rw [List.length_cons] at hi
          omega
        have e1 : (e :: rest).getD (j + 1) 0 = rest.getD j 0 := rfl
        have e2 : (e :: rest).take (j + 1 + 1) = e :: rest.take (j + 1) := rfl
        have hmem : rest.getD j 0 ∈ rest := by
          rw [getD_eq_getElem_of_lt _ _ _ hj]
          exact List.getElem_mem _
        obtain ⟨k1, k2⟩ := i2 j hj
        have e3 : ((newlyCollected w0 c R.2.1 (e :: rest.take (j + 1)) : Nat) : Int)
            = b + newlyCollected w0 c2 R.2.1 (rest.take (j + 1)) := by
          rw [newlyCollected_cons, Nat.cast_add, hRe, hcongr]
          · ring
          · intro h
            apply hsnd.1
            obtain ⟨y, hy, hye⟩ := List.mem_map.1 h
            exact List.mem_map.2 ⟨y, List.mem_of_mem_take hy, hye⟩
        rw [e1, e2, k1, e3, hstep _ (hE _ (List.mem_cons_of_mem _ hmem)),
          if_neg (fun h => hnd.1 (by rw [← h]; exact hmem)),
          if_neg (fun h => hreve (by rw [← h]; exact hmem))]
        constructor
        · ring
        · have : cur + (b + (newlyCollected w0 c2 R.2.1 (rest.take (j + 1)) : Int))
              = cur + b + newlyCollected w0 c2 R.2.1 (rest.take (j + 1)) := by ring
          rw [this]
          exact k2
    · intro x hx hx1 hx2
      rw [List.mem_cons, not_or] at hx1 hx2
      rw [i3 x hx hx1.2 hx2.2, hstep x hx, if_neg hx1.1, if_neg, add_zero]
      intro h
      apply hx2.1
      rw [h, ReverseEdgeIndex_involutive w0 e (by omega)]

/-- The sums of the outgoing flow after the loop of `UpdateFlowOnWalk` over the edges `rest`
of a path to the substation `s`: the sum grows by the `currentFlowValue` at the beginning at
the first vertex of the path, by one at every turbine newly collected, and falls by the
final `currentFlowValue` at the substation. -/
theorem updateFlowOnWalkLoop_outSum (inst : Instance) (w0 : WindfarmResidual)
    (hb0 : Built inst w0) (s : Nat) :
    ∀ (rest : List Nat) (w1 : WindfarmResidual) (c : List Bool) (cur : Int),
      w1.IsStateOf w0 → (∀ e ∈ rest, e < w0.NumberOfEdges) →
      (rest.map w0.StartVertex ++ [s]).Nodup →
      List.Chain' (fun a b => w0.EndVertex a = w0.StartVertex b) rest →
      (∀ e ∈ rest.getLast?, w0.EndVertex e = s) →
      (∀ e ∈ rest, w0.StartVertex e < c.length) →
      (∀ e ∈ rest, 0 < w0.FreeEdgeCapacity e) → 0 < w0.FreeSubstationCapacity s →
      0 ≤ cur → cur ≤ (ComputeFreeCapacities w0 s rest).headD 0 →
      ∀ v, outSum (UpdateFlowOnWalkLoop rest (ComputeFreeCapacities w0 s rest) w1 c cur).1 v
        = outSum w1 v
          + (if v = (rest.head?.map w0.StartVertex).getD s then cur else 0)
          + (if c.getD v false = false
              ∧ (UpdateFlowOnWalkLoop rest (ComputeFreeCapacities w0 s rest) w1 c cur).2.1.getD
                v false = true then 1 else 0)
          - (if v = s then
              (UpdateFlowOnWalkLoop rest (ComputeFreeCapacities w0 s rest) w1 c cur).2.2
            else 0) := by
  intro rest
  induction rest with
  | nil =>
    intro w1 c cur _ _ _ _ _ _ _ _ _ _ v
    show outSum w1 v = outSum w1 v + (if v = s then cur else 0)
      + (if c.getD v false = false ∧ c.getD v false = true then 1 else 0)
      - (if v = s then cur else 0)
    rw [if_neg (fun h : c.getD v false = false ∧ c.getD v false = true => by
      rw [h.1] at h
      exact absurd h.2 (by decide))]
    ring
  | cons e rest ih =>
    intro w1 c cur hst hE hnd hch hlast hlen hfree hfs h0 hcur v
    have hb1 : Built inst w1 := Built_of_isStateOf inst w1 w0 hb0 hst
    have tp := IsStateOf_topology hst
    have hNE1 : w1.NumberOfEdges = w0.NumberOfEdges := tp.2.2.2.2.2.2.2.2.2.2.1
    obtain ⟨b, c2, heq, hb0', hb1', hb2, hc2len, hind, hcongr, hc2, _⟩ :=
      updateFlowOnWalkLoop_step w0 s e rest w1 c cur hst (hlen e (List.mem_cons_self _ _)) h0 hcur
    rw [heq]
    rw [List.map_cons, List.cons_append, List.nodup_cons] at hnd
    have hsnd : (rest.map w0.StartVertex).Nodup := (List.nodup_append.1 hnd.2).1
    have hse_not : w0.StartVertex e ∉ rest.map w0.StartVertex :=
      fun h => hnd.1 (List.mem_append_left _ h)
    have hse_s : w0.StartVertex e ≠ s :=
      fun h => hnd.1 (List.mem_append_right _ (by rw [h]; exact List.mem_singleton_self _))
    have hst2 : (w1.AddFlowOnEdge e (cur + b)).IsStateOf w0 :=
      IsStateOf_trans (AddFlowOnEdge_isStateOf w1 e (cur + b)) hst
    have hlast' : ∀ x ∈ rest.getLast?, w0.EndVertex x = s := by
      intro x hx
      apply hlast x
      cases rest with
      | nil => exact absurd hx (by simp)
      | cons y r =>
        rw [List.getLast?_cons_cons]
        exact hx
    have hfirst : (rest.head?.map w0.StartVertex).getD s = w0.EndVertex e := by
      cases rest with
      | nil =>
        exact (hlast e (by simp)).symm
      | cons y r =>
        rw [List.chain'_cons] at hch
        exact hch.1.symm
    have i := ih (w1.AddFlowOnEdge e (cur + b)) c2 (cur + b) hst2
      (fun x hx => hE x (List.mem_cons_of_mem _ hx)) hnd.2 hch.tail hlast'
      (fun x hx => by rw [hc2len]; exact hlen x (List.mem_cons_of_mem _ hx))
      (fun x hx => hfree x (List.mem_cons_of_mem _ hx)) hfs (by omega) hb1' v
    obtain ⟨_, _, j3, _⟩ := updateFlowOnWalkLoop_collected w0 s rest
      (w1.AddFlowOnEdge e (cur + b)) c2 (cur + b) hst2 hsnd
      (fun x hx => by rw [hc2len]; exact hlen x (List.mem_cons_of_mem _ hx))
      (fun x hx => hfree x (List.mem_cons_of_mem _ hx)) hfs (by omega) hb1'
    generalize (UpdateFlowOnWalkLoop rest (ComputeFreeCapacities w0 s rest)
      (w1.AddFlowOnEdge e (cur + b)) c2 (cur + b)) = R at i j3 ⊢
    have hRe := hind R.2.1 (j3 _ hse_not)
    rw [i, outSum_addFlowOnEdge hb1 e (by rw [hNE1]; exact hE e (List.mem_cons_self _ _)),
      tp.1 e, tp.2.1 e, hfirst]
    have hhead : ((e :: rest).head?.map w0.StartVertex).getD s = w0.StartVertex e := rfl
    rw [hhead]
    have hse_e : w0.StartVertex e ≠ w0.EndVertex e := by
      rw [← hfirst]
      cases rest with
      | nil => exact hse_s
      | cons y r =>
        intro h
        exact hse_not (by rw [h]; exact List.mem_map_of_mem _ (List.mem_cons_self _ _))
    by_cases c1 : v = w0.StartVertex e
    · have hind2 : ¬ (c2.getD v false = false ∧ R.2.1.getD v false = true) := by
        rw [c1, j3 _ hse_not]
        intro h
        rw [h.1] at h
        exact absurd h.2 (by decide)
      have hindI : (if c.getD v false = false ∧ R.2.1.getD v false = true then (1 : Int)
          else 0) = b := by
        rw [← hRe, c1]
        split_ifs <;> rfl
      rw [if_neg hind2, hindI, if_pos c1.symm, if_neg (fun h => hse_e (c1.symm.trans h.symm)),
        if_neg (fun h => hse_e (c1.symm.trans h)), if_pos c1, if_neg (fun h => hse_s (c1.symm.trans h))]
      ring
    · have hindeq : (c2.getD v false = false ∧ R.2.1.getD v false = true)
          ↔ (c.getD v false = false ∧ R.2.1.getD v false = true) := by
        rw [hc2 v c1]
      rw [if_neg (fun h => c1 h.symm), if_neg c1]
      by_cases c2' : v = w0.EndVertex e
      · rw [if_pos c2'.symm, if_pos c2']
        simp only [hindeq]
        ring
      · rw [if_neg (fun h => c2' h.symm), if_neg c2']
        simp only [hindeq]
        ring

/-- The number of vertices marked as collected grows in the loop of `UpdateFlowOnWalk` by
the number of turbines newly collected. -/
theorem updateFlowOnWalkLoop_count (w0 : WindfarmResidual) (s : Nat) :
    ∀ (rest : List Nat) (w1 : WindfarmResidual) (c : List Bool) (cur : Int),
      w1.IsStateOf w0 → (rest.map w0.StartVertex).Nodup →
      (∀ e ∈ rest, w0.StartVertex e < c.length) →
      (∀ e ∈ rest, 0 < w0.FreeEdgeCapacity e) → 0 < w0.FreeSubstationCapacity s →
      0 ≤ cur → cur ≤ (ComputeFreeCapacities w0 s rest).headD 0 →
      (((UpdateFlowOnWalkLoop rest (ComputeFreeCapacities w0 s rest) w1 c cur).2.1.count true
          : Nat) : Int)
        = c.count true + newlyCollected w0 c
          (UpdateFlowOnWalkLoop rest (ComputeFreeCapacities w0 s rest) w1 c cur).2.1 rest := by
  intro rest
  induction rest with
  | nil =>
    intro w1 c cur _ _ _ _ _ _ _
    show ((c.count true : Nat) : Int) = c.count true + ((newlyCollected w0 c c [] : Nat) : Int)
    simp [newlyCollected]
  | cons e rest ih =>
    intro w1 c cur hst hnd hlen hfree hfs h0 hcur
    obtain ⟨b, c2, heq, hb0', hb1', hb2, hc2len, hind, hcongr, hc2, hcount⟩ :=
      updateFlowOnWalkLoop_step w0 s e rest w1 c cur hst (hlen e (List.mem_cons_self _ _)) h0 hcur
    rw [heq]
    rw [List.map_cons, List.nodup_cons] at hnd
    have hst2 : (w1.AddFlowOnEdge e (cur + b)).IsStateOf w0 :=
      IsStateOf_trans (AddFlowOnEdge_isStateOf w1 e (cur + b)) hst
    have i := ih (w1.AddFlowOnEdge e (cur + b)) c2 (cur + b) hst2 hnd.2
      (fun x hx => by rw [hc2len]; exact hlen x (List.mem_cons_of_mem _ hx))
      (fun x hx => hfree x (List.mem_cons_of_mem _ hx)) hfs (by omega) hb1'
    obtain ⟨_, _, j3, _⟩ := updateFlowOnWalkLoop_collected w0 s rest
      (w1.AddFlowOnEdge e (cur + b)) c2 (cur + b) hst2 hnd.2
      (fun x hx => by rw [hc2len]; exact hlen x (List.mem_cons_of_mem _ hx))
      (fun x hx => hfree x (List.mem_cons_of_mem _ hx)) hfs (by omega) hb1'
    have hRe := hind _ (j3 _ hnd.1)
    rw [i, newlyCollected_cons, hcongr _ _ hnd.1, Nat.cast_add, hRe, hcount]
    ring

end Collecting

end wcp

/-! # The effect of `Collecting::UpdateFlowOnWalk` along a route -/

namespace wcp

open WindfarmResidual

/-- Sending `a` more units, at most the free capacity, along an edge of a route or into the
substation at its end keeps the bounds of `AssertFeasibleFlow`. -/
theorem route_augmentable_by {inst : Instance} {w : WindfarmResidual} (hb : Built inst w)
    (t s : Nat) (walk : List Nat) (hr : NonCollecting.IsRoute w t s walk)
    (hbound : ∀ e, e < w.NumberOfEdges → EdgeBound w e (w.FlowOnEdge e)) (a : Int)
    (ha : 0 ≤ a) :
    (∀ e ∈ walk, a ≤ w.FreeEdgeCapacity e → Augmentable w a e)
      ∧ (a ≤ w.FreeSubstationCapacity s → Augmentable w a (w.EdgeToSupersubstation s)) := by
  obtain ⟨_, _, _, hs, hfree, _, hwalk, _⟩ := hr
  obtain ⟨d1, d2, d3, _⟩ := drain_edge hb s hs
  have hNE := hb.numberOfEdges_eq
  constructor
  · intro e h hle
    obtain ⟨h1, h2, h3⟩ := hwalk e h
    obtain ⟨r1, r2⟩ := hb.reverse_endpoints e h1
    have hold := hbound (w.ReverseEdgeIndex e) (by
      have := ReverseEdgeIndex_lt w e (by omega)
      omega)
    unfold FreeEdgeCapacity at hle
    unfold Augmentable
    unfold EdgeBound at hold ⊢
    rw [r1, r2] at hold ⊢
    refine ⟨⟨fun _ _ => by omega, fun a => ?_⟩, ⟨fun a b => ?_, fun a => ?_⟩⟩
    · rw [isTurbine_false_of_isSubstation w _ a] at h3
      exact absurd h3 (by decide)
    · have := hold.1 a b
      omega
    · have := hold.2 a
      rw [if_pos h3] at this ⊢
      omega
  · intro hle
    obtain ⟨r1, _⟩ := hb.reverse_endpoints _ d1
    have hold := (hbound _ d1).2 (by rw [d2]; exact hs)
    have hT := isTurbine_false_of_isSuperSubstation w _ d3
    rw [if_neg (by rw [hT]; decide), if_pos d3, d2] at hold
    unfold FreeSubstationCapacity FlowToSubstation at hle
    unfold Augmentable
    unfold EdgeBound
    rw [r1]
    refine ⟨⟨fun _ b => ?_, fun _ => ?_⟩, ⟨fun a => ?_, fun a => ?_⟩⟩
    · rw [d3] at b
      exact absurd b (by decide)
    · rw [if_neg (by rw [hT]; decide), if_pos d3, d2]
      omega
    · rw [d3] at a
      exact absurd a (by decide)
    · rw [isSubstation_false_of_isSuperSubstation w _ d3] at a
      exact absurd a (by decide)

namespace Collecting

/-- The start vertex of an edge of a route is one of the original vertices. -/
theorem route_start_lt {inst : Instance} {w : WindfarmResidual} (hb : Built inst w)
    (t s : Nat) (walk : List Nat) (hr : NonCollecting.IsRoute w t s walk) :
    ∀ e ∈ walk, w.StartVertex e < inst.nodes.length := by
  intro e he
  obtain ⟨h1, _, h3⟩ := hr.2.2.2.2.2.2.1 e he
  have h4 := (NegativeCycleCanceling.endpoints_lt hb e h1).1
  rw [hb.numberOfVertices] at h4
  have h5 := isSuperSubstation_false_of_isTurbine w _ h3
  have h6 : w.StartVertex e ≠ inst.nodes.length := by
    intro h
    rw [(hb.isSuperSubstation_iff _).2 h] at h5
    exact absurd h5 (by decide)
  omega

/-- The effect of `Collecting::UpdateFlowOnWalk` along a route whose first vertex is not
collected yet: the flow on the edge `walk[i]` grows by the number of turbines newly collected
among the start vertices of `walk[0..i]`, which is at most the free capacity of the edge; the
flow into the substation grows by the number of all turbines newly collected, which is at
most its free capacity; the first turbine is collected; the bounds of `AssertFeasibleFlow`
on the edges are kept; and the sum of the outgoing flow grows by one at the turbines newly
collected and stays as it was at every other vertex but the super substation. -/
theorem updateFlowOnWalk_route {inst : Instance} {w : WindfarmResidual} (hb : Built inst w)
    (t s : Nat) (walk : List Nat) (hr : NonCollecting.IsRoute w t s walk)
    (hbound : ∀ e, e < w.NumberOfEdges → EdgeBound w e (w.FlowOnEdge e)) (c : List Bool)
    (hclen : c.length = inst.nodes.length) (hct : c.getD t false = false) :
    (UpdateFlowOnWalk w c walk s).1.IsStateOf w
      ∧ (UpdateFlowOnWalk w c walk s).2.length = c.length
      ∧ (∀ v, c.getD v false = true → (UpdateFlowOnWalk w c walk s).2.getD v false = true)
      ∧ (∀ v, v ∉ walk.map w.StartVertex →
          (UpdateFlowOnWalk w c walk s).2.getD v false = c.getD v false)
      ∧ (UpdateFlowOnWalk w c walk s).2.getD t false = true
      ∧ (∀ i, i < walk.length →
          (UpdateFlowOnWalk w c walk s).1.FlowOnEdge (walk.getD i 0)
            = w.FlowOnEdge (walk.getD i 0)
              + newlyCollected w c (UpdateFlowOnWalk w c walk s).2 (walk.take (i + 1))
          ∧ (newlyCollected w c (UpdateFlowOnWalk w c walk s).2 (walk.take (i + 1)) : Int)
            ≤ w.FreeEdgeCapacity (walk.getD i 0))
      ∧ ((UpdateFlowOnWalk w c walk s).1.FlowToSubstation s
            = w.FlowToSubstation s + newlyCollected w c (UpdateFlowOnWalk w c walk s).2 walk
          ∧ (newlyCollected w c (UpdateFlowOnWalk w c walk s).2 walk : Int)
            ≤ w.FreeSubstationCapacity s)
      ∧ (∀ x, x < w.NumberOfEdges → x ∉ walk ++ [w.EdgeToSupersubstation s] →
          w.ReverseEdgeIndex x ∉ walk ++ [w.EdgeToSupersubstation s] →
          (UpdateFlowOnWalk w c walk s).1.FlowOnEdge x = w.FlowOnEdge x)
      ∧ (∀ e, e < w.NumberOfEdges →
          EdgeBound (UpdateFlowOnWalk w c walk s).1 e
            ((UpdateFlowOnWalk w c walk s).1.FlowOnEdge e))
      ∧ (∀ v, w.IsSuperSubstation v = false →
          outSum (UpdateFlowOnWalk w c walk s).1 v
            = outSum w v + if c.getD v false = false
                ∧ (UpdateFlowOnWalk w c walk s).2.getD v false = true then 1 else 0)
      ∧ (inst.substations.map (UpdateFlowOnWalk w c walk s).1.FlowToSubstation).sum
          = (inst.substations.map w.FlowToSubstation).sum
            + newlyCollected w c (UpdateFlowOnWalk w c walk s).2 walk
      ∧ (((UpdateFlowOnWalk w c walk s).2.count true : Nat) : Int)
          = c.count true + newlyCollected w c (UpdateFlowOnWalk w c walk s).2 walk := by
  obtain ⟨hnd, hCE, hstart, hrevw, hrevd, hdn⟩ := route_edges hb t s walk hr
  obtain ⟨haugw, haugd⟩ : (∀ a : Int, 0 ≤ a → ∀ e ∈ walk, a ≤ w.FreeEdgeCapacity e →
      Augmentable w a e) ∧ (∀ a : Int, 0 ≤ a → a ≤ w.FreeSubstationCapacity s →
      Augmentable w a (w.EdgeToSupersubstation s)) :=
    ⟨fun a ha => (route_augmentable_by hb t s walk hr hbound a ha).1,
      fun a ha => (route_augmentable_by hb t s walk hr hbound a ha).2⟩
  have hstartlt := route_start_lt hb t s walk hr
  obtain ⟨hne, hhead, hlast, hs, hfree, hch, hwalk, hvnd⟩ := hr
  obtain ⟨d1, d2, d3, _⟩ := drain_edge hb s hs
  have hNE := hb.numberOfEdges_eq
  have hwnd : walk.Nodup := (List.nodup_append.1 hnd).1
  have hsnd : (walk.map w.StartVertex).Nodup := (List.nodup_append.1 hvnd).1
  have hlen : ∀ e ∈ walk, w.StartVertex e < c.length := by
    intro e he
    rw [hclen]
    exact hstartlt e he
  have hfreeE : ∀ e ∈ walk, 0 < w.FreeEdgeCapacity e := fun e he => (hwalk e he).2.1
  have hfs : 0 < w.FreeSubstationCapacity s := by
    unfold HasFreeSubstationCapacity at hfree
    exact of_decide_eq_true hfree
  have hhd : (0 : Int) ≤ (ComputeFreeCapacities w s walk).headD 0 :=
    le_of_lt (computeFreeCapacities_head_pos w s walk hfreeE hfs)
  have hE : ∀ e ∈ walk, e < w.NumberOfEdges := fun e he => (hwalk e he).1
  have hrevw' : ∀ x ∈ walk, w.ReverseEdgeIndex x ∉ walk :=
    fun x hx h => hrevw x hx (List.mem_append_left _ h)
  have hlast' : ∀ e ∈ walk.getLast?, w.EndVertex e = s := by
    intro e he
    cases walk with
    | nil => exact absurd he (by simp)
    | cons x xs =>
      rw [List.getLast?_eq_getLast _ (List.cons_ne_nil _ _), Option.mem_def,
        Option.some.injEq] at he
      rw [← he, ← hlast, List.getLastD_eq_getLast?, List.getLast?_eq_getLast _
        (List.cons_ne_nil _ _)]
      rfl
  obtain ⟨l1, l2, l3, l4, l5, l6⟩ := updateFlowOnWalkLoop_collected w s walk w c 0
    (IsStateOf_refl w) hsnd hlen hfreeE hfs (le_refl _) hhd
  obtain ⟨f1, f2, f3⟩ := updateFlowOnWalkLoop_flow inst w hb s walk w c 0
    (IsStateOf_refl w) hwnd hE hrevw' hsnd hlen hfreeE hfs (le_refl _) hhd
  have o1 := updateFlowOnWalkLoop_outSum inst w hb s walk w c 0
    (IsStateOf_refl w) hE hvnd hch hlast' hlen hfreeE hfs (le_refl _) hhd
  have k1 := updateFlowOnWalkLoop_count w s walk w c 0
    (IsStateOf_refl w) hsnd hlen hfreeE hfs (le_refl _) hhd
  have hdef : UpdateFlowOnWalk w c walk s
      = (((UpdateFlowOnWalkLoop walk (ComputeFreeCapacities w s walk) w c 0).1).AddFlowOnEdge
          ((UpdateFlowOnWalkLoop walk (ComputeFreeCapacities w s walk) w c 0).1.EdgeToSupersubstation
            s)
          (UpdateFlowOnWalkLoop walk (ComputeFreeCapacities w s walk) w c 0).2.2,
        (UpdateFlowOnWalkLoop walk (ComputeFreeCapacities w s walk) w c 0).2.1) := rfl
  rw [hdef]
  generalize (UpdateFlowOnWalkLoop walk (ComputeFreeCapacities w s walk) w c 0) = R
    at l1 l2 l3 l4 l5 l6 f1 f2 f3 o1 k1 ⊢
  rw [zero_add] at l4
  have tR := IsStateOf_topology f1
  have hdR : R.1.EdgeToSupersubstation s = w.EdgeToSupersubstation s := tR.2.2.2.2.2.2.2.2.1 s
  simp only [hdR]
  have hbR : Built inst R.1 := Built_of_isStateOf inst R.1 w hb f1
  have hNER : R.1.NumberOfEdges = w.NumberOfEdges := tR.2.2.2.2.2.2.2.2.2.2.1
  have hstW : (R.1.AddFlowOnEdge (w.EdgeToSupersubstation s) R.2.2).IsStateOf w :=
    IsStateOf_trans (AddFlowOnEdge_isStateOf _ _ _) f1
  have tW := IsStateOf_topology hstW
  have hA0 : (0 : Int) ≤ R.2.2 := by
    rw [l4]
    exact Int.natCast_nonneg _
  have hflowW : ∀ x, x < w.NumberOfEdges →
      (R.1.AddFlowOnEdge (w.EdgeToSupersubstation s) R.2.2).FlowOnEdge x
        = R.1.FlowOnEdge x + (if x = w.EdgeToSupersubstation s then R.2.2
          else if x = w.ReverseEdgeIndex (w.EdgeToSupersubstation s) then -R.2.2 else 0) := by
    intro x hx
    rw [flowOnEdge_addFlowOnEdge_sum hbR _ x _ (by rw [hNER]; exact d1) (by rw [hNER]; exact hx),
      tR.2.2.2.2.2.2.2.2.2.1]
  have hwalkne : ∀ x ∈ walk, x ≠ w.EdgeToSupersubstation s
      ∧ x ≠ w.ReverseEdgeIndex (w.EdgeToSupersubstation s) := by
    intro x hx
    refine ⟨fun h => hdn (by rw [← h]; exact hx), fun h => ?_⟩
    apply hrevw x hx
    rw [h, ReverseEdgeIndex_involutive w _ (by omega)]
    exact List.mem_append_right _ (List.mem_singleton_self _)
  have hRd : R.1.FlowOnEdge (w.EdgeToSupersubstation s)
      = w.FlowOnEdge (w.EdgeToSupersubstation s) :=
    f3 _ d1 hdn (fun h => hrevd (List.mem_append_left _ h))
  have hWd : (R.1.AddFlowOnEdge (w.EdgeToSupersubstation s) R.2.2).FlowOnEdge
      (w.EdgeToSupersubstation s) = w.FlowOnEdge (w.EdgeToSupersubstation s) + R.2.2 := by
    rw [hflowW _ d1, if_pos rfl, hRd]
  have hWwalk : ∀ i, i < walk.length →
      (R.1.AddFlowOnEdge (w.EdgeToSupersubstation s) R.2.2).FlowOnEdge (walk.getD i 0)
        = w.FlowOnEdge (walk.getD i 0) + newlyCollected w c R.2.1 (walk.take (i + 1))
      ∧ (newlyCollected w c R.2.1 (walk.take (i + 1)) : Int)
        ≤ w.FreeEdgeCapacity (walk.getD i 0) := by
    intro i hi
    have hmem : walk.getD i 0 ∈ walk := by
      rw [getD_eq_getElem_of_lt _ _ _ hi]
      exact List.getElem_mem _
    obtain ⟨g1, g2⟩ := f2 i hi
    rw [zero_add] at g1 g2
    rw [hflowW _ (hE _ hmem), if_neg (hwalkne _ hmem).1, if_neg (hwalkne _ hmem).2, add_zero, g1]
    exact ⟨rfl, g2⟩
  have hframe : ∀ x, x < w.NumberOfEdges → x ∉ walk ++ [w.EdgeToSupersubstation s] →
      w.ReverseEdgeIndex x ∉ walk ++ [w.EdgeToSupersubstation s] →
      (R.1.AddFlowOnEdge (w.EdgeToSupersubstation s) R.2.2).FlowOnEdge x = w.FlowOnEdge x := by
    intro x hx h1 h2
    rw [List.mem_append, List.mem_singleton, not_or] at h1 h2
    rw [hflowW x hx, if_neg h1.2, if_neg, add_zero, f3 x hx h1.1 h2.1]
    intro h
    apply h2.2
    rw [h, ReverseEdgeIndex_involutive w _ (by omega)]
  have hdrain : ∀ s', w.IsSubstation s' = true →
      (R.1.AddFlowOnEdge (w.EdgeToSupersubstation s) R.2.2).FlowToSubstation s'
        = w.FlowToSubstation s' + R.2.2 * (if s' = s then 1 else 0) := by
    intro s' hs'
    obtain ⟨e1, e2, e3, _⟩ := drain_edge hb s' hs'
    unfold FlowToSubstation
    rw [tW.2.2.2.2.2.2.2.2.1]
    by_cases cs : s' = s
    · rw [cs, hWd, if_pos rfl, mul_one]
    · rw [if_neg cs, mul_zero, add_zero]
      apply hframe _ e1
      · intro h
        rcases List.mem_append.mp h with h | h
        · have h1 := (hwalk _ h).2.2
          rw [e2, isTurbine_false_of_isSubstation w s' hs'] at h1
          exact absurd h1 (by decide)
        · rw [List.mem_singleton] at h
          have h1 := congrArg w.StartVertex h
          rw [e2, d2] at h1
          exact cs h1
      · intro h
        have h1 := hstart _ h
        rw [(hb.reverse_endpoints _ e1).1, e3] at h1
        exact absurd h1 (by decide)
  refine ⟨hstW, l1, l2, l3, ?_, hWwalk, ?_, hframe, ?_, ?_, ?_, ?_⟩
  · cases walk with
    | nil => exact absurd rfl hne
    | cons e0 rest =>
      have hh : w.StartVertex e0 = t := hhead
      rw [← hh]
      apply l6 rfl e0 rest rfl
      rw [hh]
      exact hct
  · constructor
    · rw [hdrain s hs, if_pos rfl, mul_one, l4]
    · rw [← l4]
      exact l5
  · intro x hx
    rw [edgeBound_congr hstW]
    have hinvx := ReverseEdgeIndex_involutive w x (by omega)
    have hrx : w.ReverseEdgeIndex x < w.NumberOfEdges := by
      have := ReverseEdgeIndex_lt w x (by omega)
      omega
    have hrevW : (R.1.AddFlowOnEdge (w.EdgeToSupersubstation s) R.2.2).FlowOnEdge x
        = -(R.1.AddFlowOnEdge (w.EdgeToSupersubstation s) R.2.2).FlowOnEdge
          (w.ReverseEdgeIndex x) := by
      have := FlowOnEdge_reverse (R.1.AddFlowOnEdge (w.EdgeToSupersubstation s) R.2.2) x (by
        have a2 : (R.1.AddFlowOnEdge (w.EdgeToSupersubstation s) R.2.2).NumberOfOriginalEdges
            = w.NumberOfOriginalEdges := hstW.2.1
        have a4 : (R.1.AddFlowOnEdge (w.EdgeToSupersubstation s) R.2.2).NumberOfSubstations
            = w.NumberOfSubstations := hstW.2.2.2.1
        rw [a2, a4]
        omega)
      rw [tW.2.2.2.2.2.2.2.2.2.1] at this
      exact this
    by_cases c1 : x ∈ walk
    · obtain ⟨i, hi, hget⟩ := List.mem_iff_getElem.1 c1
      have hgd : walk.getD i 0 = x := by
        rw [getD_eq_getElem_of_lt _ _ _ hi]
        exact hget
      obtain ⟨g1, g2⟩ := hWwalk i hi
      rw [hgd] at g1 g2
      rw [g1]
      exact (haugw _ (Int.natCast_nonneg _) x c1 g2).1
    · by_cases c2 : w.ReverseEdgeIndex x ∈ walk
      · obtain ⟨i, hi, hget⟩ := List.mem_iff_getElem.1 c2
        have hgd : walk.getD i 0 = w.ReverseEdgeIndex x := by
          rw [getD_eq_getElem_of_lt _ _ _ hi]
          exact hget
        obtain ⟨g1, g2⟩ := hWwalk i hi
        rw [hgd] at g1 g2
        have := (haugw _ (Int.natCast_nonneg _) _ c2 g2).2
        rw [hinvx] at this
        rw [hrevW, g1]
        have e1 : -(w.FlowOnEdge (w.ReverseEdgeIndex x)
            + (newlyCollected w c R.2.1 (walk.take (i + 1)) : Int))
            = w.FlowOnEdge x - newlyCollected w c R.2.1 (walk.take (i + 1)) := by
          rw [FlowOnEdge_reverse w x (by omega)]
          ring
        rw [e1]
        exact this
      · by_cases c3 : x = w.EdgeToSupersubstation s
        · rw [c3, hWd]
          exact (haugd _ hA0 l5).1
        · by_cases c4 : w.ReverseEdgeIndex x = w.EdgeToSupersubstation s
          · have := (haugd _ hA0 l5).2
            rw [← c4, hinvx] at this
            rw [hrevW, c4, hWd]
            have e1 : -(w.FlowOnEdge (w.EdgeToSupersubstation s) + R.2.2)
                = w.FlowOnEdge x - R.2.2 := by
              rw [FlowOnEdge_reverse w x (by omega), c4]
              ring
            rw [e1]
            exact this
          · rw [hframe x hx (by
              rw [List.mem_append, List.mem_singleton, not_or]
              exact ⟨c1, c3⟩) (by
              rw [List.mem_append, List.mem_singleton, not_or]
              exact ⟨c2, c4⟩)]
            exact hbound x hx
  · intro v hv
    rw [outSum_addFlowOnEdge hbR _ (by rw [hNER]; exact d1), o1 v, tR.1, tR.2.1, d2]
    have hend : ¬ w.EndVertex (w.EdgeToSupersubstation s) = v := by
      intro h
      rw [← h, d3] at hv
      exact absurd hv (by decide)
    rw [if_neg hend, ite_self, add_zero]
    by_cases cs : v = s
    · have cs' : s = v := cs.symm
      simp only [if_pos cs, if_pos cs']
      ring
    · have cs' : ¬ s = v := fun h => cs h.symm
      simp only [if_neg cs, if_neg cs']
      ring
  · have hmap : inst.substations.map
          (R.1.AddFlowOnEdge (w.EdgeToSupersubstation s) R.2.2).FlowToSubstation
        = inst.substations.map fun s' =>
            w.FlowToSubstation s' + R.2.2 * (if s' = s then (1 : Int) else 0) := by
      apply List.map_congr_left
      intro s' hs'
      exact hdrain s' ((hb.isSubstation_iff s').2 hs')
    rw [hmap, List.sum_map_add, List.sum_map_mul_left, sum_indicator,
      count_nodup _ (substations_nodup inst), if_pos ((hb.isSubstation_iff s).1 hs), mul_one, l4]
  · exact k1

end Collecting

end wcp

/-! # The initial flow of `Collecting` -/

namespace wcp

open WindfarmResidual

namespace Collecting

theorem collecting_initializeFlowLoop_cons
    (pop : List DijkstraEntry → Option (DijkstraEntry × List DijkstraEntry))
    (len : WindfarmResidual → Nat → ℚ) (target turbine : Nat) (rest : List Nat)
    (w : WindfarmResidual) (c : List Bool) (d : Dijkstra) :
    collecting.InitializeFlowLoop pop len target (turbine :: rest) w c d
      = if c.getD turbine false = true then
          collecting.InitializeFlowLoop pop len target rest w c d
        else
          match Dijkstra.Run pop len w
              { d with startVertex := turbine, targetVertex := target } with
          | none => none
          | some (returnCode, dijkstra) =>
            if returnCode = ReturnCode.INFEASIBLE then
              some (ReturnCode.NO_FEASIBLE_SOLUTION_FOUND, w, c, dijkstra)
            else if !(w.IsSubstation dijkstra.targetVertex
                && w.HasFreeSubstationCapacity dijkstra.targetVertex) then none
            else
              match Dijkstra.ExtractWalk w dijkstra with
              | none => none
              | some walk =>
                if walk.getLast?.map w.EndVertex ≠ some dijkstra.targetVertex then none
                else
                  collecting.InitializeFlowLoop pop len target rest
                    (UpdateFlowOnWalk w c walk dijkstra.targetVertex).1
                    (UpdateFlowOnWalk w c walk dijkstra.targetVertex).2 dijkstra :=
  rfl

/-- The loop of `InitializeFlow` with the strategy `Collecting` over the turbines `ts`: from
a flow that keeps the bounds on the edges and has the outgoing flow `1` at the turbines
collected, `0` at the other turbines and `0` at the substations, a run of the loop that
returns `SUCCESS` leads to such a flow with all turbines of `ts` collected. -/
theorem collecting_initializeFlowLoop_spec (inst : Instance) (w0 : WindfarmResidual)
    (pop : List DijkstraEntry → Option (DijkstraEntry × List DijkstraEntry))
    (len : WindfarmResidual → Nat → ℚ) (target : Nat)
    (h0 : WindfarmResidual.ofInstance inst = some w0)
    (hpop : Dijkstra.PopsMinimum pop)
    (hlen : ∀ w : WindfarmResidual, w.IsStateOf w0 → ∀ e, 0 ≤ len w e)
    (w' : WindfarmResidual) (c' : List Bool) (d' : Dijkstra) :
    ∀ (ts : List Nat) (w : WindfarmResidual) (c : List Bool) (d : Dijkstra),
      w.IsStateOf w0 → (∀ t ∈ ts, t ∈ inst.turbines) →
      d.dist.length = w0.NumberOfVertices → d.parent.length = w0.NumberOfVertices →
      (∀ e, e < w.NumberOfEdges → EdgeBound w e (w.FlowOnEdge e)) →
      c.length = inst.nodes.length →
      (∀ t ∈ inst.turbines, outSum w t = if c.getD t false = true then 1 else 0) →
      (∀ s ∈ inst.substations, outSum w s = 0) →
      (inst.substations.map w.FlowToSubstation).sum = (c.count true : Int) →
      collecting.InitializeFlowLoop pop len target ts w c d
        = some (ReturnCode.SUCCESS, w', c', d') →
      w'.IsStateOf w0
        ∧ (∀ e, e < w'.NumberOfEdges → EdgeBound w' e (w'.FlowOnEdge e))
        ∧ c'.length = inst.nodes.length
        ∧ (∀ t ∈ inst.turbines, outSum w' t = if c'.getD t false = true then 1 else 0)
        ∧ (∀ s ∈ inst.substations, outSum w' s = 0)
        ∧ (inst.substations.map w'.FlowToSubstation).sum = (c'.count true : Int)
        ∧ (∀ v, c.getD v false = true → c'.getD v false = true)
        ∧ (∀ t ∈ ts, c'.getD t false = true) := by
  have hb0 : Built inst w0 := (WindfarmResidual.ofInstance_spec inst w0 h0).1
  intro ts
  induction ts with
  | nil =>
    intro w c d hw _ _ _ hbound hcl hturb hsubs hsum hrun
    have hrun' : some (ReturnCode.SUCCESS, w, c, d) = some (ReturnCode.SUCCESS, w', c', d') :=
      hrun
    simp only [Option.some.injEq, Prod.mk.injEq, true_and] at hrun'
    obtain ⟨hw', hc', _⟩ := hrun'
    subst hw' hc'
    exact ⟨hw, hbound, hcl, hturb, hsubs, hsum, fun _ h => h,
      fun _ h => absurd h (List.not_mem_nil _)⟩
  | cons t rest ih =>
    intro w c d hw hmem hsd hsp hbound hcl hturb hsubs hsum hrun
    have hb : Built inst w := WindfarmResidual.Built_of_isStateOf inst w w0 hb0 hw
    obtain ⟨_, _, _, _, _, _, _, _, _, _, t11, t12, _⟩ := IsStateOf_topology hw
    rw [collecting_initializeFlowLoop_cons] at hrun
    by_cases c0 : c.getD t false = true
    · rw [if_pos c0] at hrun
      obtain ⟨i1, i2, i3, i4, i5, i6, i7, i8⟩ := ih w c d hw
        (fun x hx => hmem x (List.mem_cons_of_mem _ hx)) hsd hsp hbound hcl hturb hsubs hsum hrun
      refine ⟨i1, i2, i3, i4, i5, i6, i7, fun x hx => ?_⟩
      rcases List.mem_cons.mp hx with h | h
      · rw [h]
        exact i7 t c0
      · exact i8 x h
    rw [if_neg c0] at hrun
    have c0' : c.getD t false = false := by
      cases h : c.getD t false with
      | true => exact absurd h c0
      | false => rfl
    cases hR : Dijkstra.Run pop len w { d with startVertex := t, targetVertex := target } with
    | none =>
      rw [hR] at hrun
      exact absurd hrun (by simp)
    | some r =>
      obtain ⟨code, d1⟩ := r
      rw [hR] at hrun
      simp only at hrun
      by_cases c1 : code = ReturnCode.INFEASIBLE
      · rw [if_pos c1] at hrun
        simp only [Option.some.injEq, Prod.mk.injEq] at hrun
        exact absurd hrun.1 (by decide)
      · rw [if_neg c1] at hrun
        by_cases c2 : (!(w.IsSubstation d1.targetVertex
            && w.HasFreeSubstationCapacity d1.targetVertex)) = true
        · rw [if_pos c2] at hrun
          exact absurd hrun (by simp)
        · rw [if_neg c2] at hrun
          have hab : (w.IsSubstation d1.targetVertex
              && w.HasFreeSubstationCapacity d1.targetVertex) = true := by
            cases h : (w.IsSubstation d1.targetVertex
                && w.HasFreeSubstationCapacity d1.targetVertex) with
            | true => rfl
            | false => exact absurd (by rw [h]; rfl) c2
          rw [Bool.and_eq_true] at hab
          cases hE : Dijkstra.ExtractWalk w d1 with
          | none =>
            rw [hE] at hrun
            exact absurd hrun (by simp)
          | some walk =>
            rw [hE] at hrun
            simp only at hrun
            by_cases c3 : walk.getLast?.map w.EndVertex ≠ some d1.targetVertex
            · rw [if_pos c3] at hrun
              exact absurd hrun (by simp)
            · rw [if_neg c3] at hrun
              have htmem : t ∈ inst.turbines := hmem t (List.mem_cons_self _ _)
              obtain ⟨hroute, hsd1, hsp1⟩ :=
                initializeFlow_route inst w0 w pop len
                  { d with startVertex := t, targetVertex := target } d1 code walk h0 hw hpop
                  (hlen w hw) (by rw [t12]; exact hsd) (by rw [t12]; exact hsp) htmem hR c1
                  hab.1 hab.2 hE
              have hroute' : NonCollecting.IsRoute w t d1.targetVertex walk := hroute
              obtain ⟨u1, u2, u3, u4, u5, _, _, _, u9, u10, u11, u12⟩ :=
                updateFlowOnWalk_route hb t d1.targetVertex walk hroute' hbound c hcl c0'
              obtain ⟨_, _, _, _, _, _, _, _, _, _, v11, _⟩ := IsStateOf_topology u1
              have hwalkT : ∀ v, v ∈ walk.map w.StartVertex → w.IsTurbine v = true := by
                intro v hv
                obtain ⟨e, he, hev⟩ := List.mem_map.1 hv
                rw [← hev]
                exact (hroute'.2.2.2.2.2.2.1 e he).2.2
              obtain ⟨i1, i2, i3, i4, i5, i6, i7, i8⟩ :=
                ih (UpdateFlowOnWalk w c walk d1.targetVertex).1
                  (UpdateFlowOnWalk w c walk d1.targetVertex).2 d1
                  (IsStateOf_trans u1 hw)
                  (fun x hx => hmem x (List.mem_cons_of_mem _ hx))
                  (by rw [hsd1, t12]) (by rw [hsp1, t12])
                  (by rw [v11]; exact u9)
                  (by rw [u2, hcl])
                  (by
                    intro x hx
                    rw [u10 x (isSuperSubstation_false_of_isTurbine w x
                      (hb.isTurbine_of_mem x hx)), hturb x hx]
                    by_cases cx : c.getD x false = true
                    · rw [if_pos cx, if_pos (u3 x cx), if_neg]
                      · rfl
                      · intro h
                        rw [cx] at h
                        exact absurd h.1 (by decide)
                    · have cx' : c.getD x false = false := by
                        cases h : c.getD x false with
                        | true => exact absurd h cx
                        | false => rfl
                      rw [if_neg cx]
                      by_cases cy : (UpdateFlowOnWalk w c walk d1.targetVertex).2.getD x false
                          = true
                      · rw [if_pos ⟨cx', cy⟩, if_pos cy]
                        rfl
                      · rw [if_neg (fun h => cy h.2), if_neg cy]
                        rfl)
                  (by
                    intro x hx
                    have hxs : w.IsSubstation x = true := (hb.isSubstation_iff x).2 hx
                    have hnot : x ∉ walk.map w.StartVertex := by
                      intro h
                      have := hwalkT x h
                      rw [isTurbine_false_of_isSubstation w x hxs] at this
                      exact absurd this (by decide)
                    rw [u10 x (isSuperSubstation_false_of_isSubstation w x hxs), hsubs x hx,
                      u4 x hnot, if_neg]
                    · rfl
                    · intro h
                      rw [h.1] at h
                      exact absurd h.2 (by decide))
                  (by rw [u11, u12, hsum])
                  hrun
              refine ⟨i1, i2, i3, i4, i5, i6, fun v hv => i7 v (u3 v hv), fun x hx => ?_⟩
              rcases List.mem_cons.mp hx with h | h
              · rw [h]
                exact i7 t u5
              · exact i8 x h

end Collecting

end wcp

/-! # `Collecting::UpdateFlowOnWalk` and the feasibility of the initial flow -/

namespace wcp

open WindfarmResidual

theorem line_ofInstance :
    WindfarmResidual.ofInstance lineInstance = some (lineGraph [0, 0, 0] [0, 0, 0, 0, 0, 0]) := by
  rfl

theorem lineGraph_length_nonneg (w : WindfarmResidual)
    (hw : w.IsStateOf (lineGraph [0, 0, 0] [0, 0, 0, 0, 0, 0])) (e : Nat) :
    0 ≤ EuclideanLength w e := by
  obtain ⟨_, _, t3, _⟩ := IsStateOf_topology hw
  unfold EuclideanLength
  rw [t3]
  rcases e with _ | _ | _ | _ | _ | _ | e
  · with_unfolding_all decide
  · with_unfolding_all decide
  · with_unfolding_all decide
  · with_unfolding_all decide
  · with_unfolding_all decide
  · with_unfolding_all decide
  · exact le_of_eq rfl

theorem lineGraph_route :
    NonCollecting.IsRoute (lineGraph [0, 0, 0] [0, 0, 0, 0, 0, 0]) 0 2 [0, 1] := by
  refine ⟨by decide, by decide, by decide, by decide, by decide,
    List.chain'_cons.2 ⟨by decide, List.chain'_singleton _⟩, ?_, ?_⟩
  · intro e he
    rw [List.mem_cons, List.mem_singleton] at he
    rcases he with h | h
    · rw [h]
      decide
    · rw [h]
      decide
  · show ([0, 1, 2] : List Nat).Nodup
    simp

theorem lineGraph_edgeBound (e : Nat)
    (he : e < (lineGraph [0, 0, 0] [0, 0, 0, 0, 0, 0]).NumberOfEdges) :
    EdgeBound (lineGraph [0, 0, 0] [0, 0, 0, 0, 0, 0]) e
      ((lineGraph [0, 0, 0] [0, 0, 0, 0, 0, 0]).FlowOnEdge e) := by
  have he' : e < 6 := he
  unfold EdgeBound
  interval_cases e <;> decide

/-- C21 does not hold as stated: on scenario S1 with a second substation of capacity `-1`
that no edge leads to, `InitializeFlow` with the strategy `Collecting` returns `SUCCESS`
from the zero flow, and the flow `0` into the second substation is above its capacity, so
that `AssertFeasibleFlow` fails. -/
theorem collecting_infeasible_for_negative_capacity :
    ((WindfarmResidual.ofInstance spareInstance).bind fun w0 =>
        (collecting.InitializeFlow Dijkstra.popMinimum EuclideanLength
          Dijkstra.ANY_FREE_SUBSTATION w0 (Collecting.create w0) (Dijkstra.create w0)).map
            fun r =>
              (r.1, r.2.1.flowValues, r.2.2.1, r.2.1.FlowToSubstation 2,
                r.2.1.VertexCapacity 2, AssertFeasibleFlow r.2.1))
      = some (ReturnCode.SUCCESS, [1, 1, 0], [true, false, false], 0, -1, false) := by
  with_unfolding_all rfl

/-- C21 (amended): in a residual graph built from an instance, let the flow keep the bounds
of `AssertFeasibleFlow` on the edges, and let `walk` be a path of edges with free capacity
from the turbine `t`, which is not collected yet, over turbines to the substation `s`, which
has free capacity, without a repeated vertex.  Then `Collecting::UpdateFlowOnWalk` adds to
the flow on `walk[i]` the number of turbines newly collected among the start vertices of
`walk[0..i]`, which is at most the free capacity of the edge; the number of all turbines
newly collected is at most the free capacity of the substation and is added to the flow from
the substation to the super substation; and the turbine `t` is collected.  If moreover the
maximum cable capacity and the capacities of the substations are not negative, a run of
`InitializeFlow` from the zero flow that returns `SUCCESS` leaves a flow for which
`AssertFeasibleFlow` holds. -/
theorem collecting_collects_along_the_walk (inst : Instance) (w0 : WindfarmResidual)
    (h0 : WindfarmResidual.ofInstance inst = some w0) :
    (∀ (w : WindfarmResidual) (c : List Bool) (t s : Nat) (walk : List Nat),
      w.IsStateOf w0 → (∀ e, e < w.NumberOfEdges → EdgeBound w e (w.FlowOnEdge e)) →
      NonCollecting.IsRoute w t s walk → c.length = w.NumberOfOriginalVertices →
      c.getD t false = false →
      (∀ i, i < walk.length →
          (Collecting.UpdateFlowOnWalk w c walk s).1.FlowOnEdge (walk.getD i 0)
            = w.FlowOnEdge (walk.getD i 0)
              + Collecting.newlyCollected w c (Collecting.UpdateFlowOnWalk w c walk s).2
                (walk.take (i + 1))
          ∧ (Collecting.newlyCollected w c (Collecting.UpdateFlowOnWalk w c walk s).2
              (walk.take (i + 1)) : Int) ≤ w.FreeEdgeCapacity (walk.getD i 0))
        ∧ (Collecting.newlyCollected w c (Collecting.UpdateFlowOnWalk w c walk s).2 walk : Int)
          ≤ w.FreeSubstationCapacity s
        ∧ (Collecting.UpdateFlowOnWalk w c walk s).2.getD t false = true
        ∧ (Collecting.UpdateFlowOnWalk w c walk s).1.FlowToSubstation s
          = w.FlowToSubstation s
            + Collecting.newlyCollected w c (Collecting.UpdateFlowOnWalk w c walk s).2 walk)
      ∧ (∀ (pop : List DijkstraEntry → Option (DijkstraEntry × List DijkstraEntry))
          (len : WindfarmResidual → Nat → ℚ) (target : Nat) (d d' : Dijkstra)
          (w' : WindfarmResidual) (c' : List Bool),
        Dijkstra.PopsMinimum pop →
        (∀ w : WindfarmResidual, w.IsStateOf w0 → ∀ e, 0 ≤ len w e) →
        0 ≤ w0.cabletypes.MaximumCapacity →
        (∀ s ∈ w0.Substations, 0 ≤ w0.VertexCapacity s) →
        d.dist.length = w0.NumberOfVertices → d.parent.length = w0.NumberOfVertices →
        collecting.InitializeFlow pop len target w0 (Collecting.create w0) d
          = some (ReturnCode.SUCCESS, w', c', d') →
        AssertFeasibleFlow w' = true) := by
  have hb0 : Built inst w0 := (WindfarmResidual.ofInstance_spec inst w0 h0).1
  constructor
  · intro w c t s walk hw hbound hroute hcl hct
    have hb : Built inst w := WindfarmResidual.Built_of_isStateOf inst w w0 hb0 hw
    have hcl' : c.length = inst.nodes.length := by
      rw [hcl]
      exact hb.base.nV
    obtain ⟨_, _, _, _, u5, u6, u7, _⟩ :=
      Collecting.updateFlowOnWalk_route hb t s walk hroute hbound c hcl' hct
    exact ⟨u6, u7.2, u5, u7.1⟩
  · intro pop len target d d' w' c' hpop hlen hcap hsub hsd hsp hrun
    have hzero := flowOnEdge_ofInstance inst w0 h0
    have hfun : w0.FlowOnEdge = fun _ => 0 := funext hzero
    have hout : ∀ v, outSum w0 v = 0 := by
      intro v
      unfold outSum
      rw [hfun]
      simp
    have hcreate : ∀ v, (Collecting.create w0).getD v false = false := by
      intro v
      unfold Collecting.create
      rw [getD_replicate_eq]
      split_ifs <;> rfl
    unfold InitializationStrategy.InitializeFlow at hrun
    rw [hb0.turbines_eq] at hrun
    obtain ⟨i1, i2, i3, i4, i5, _, _, i8⟩ :=
      Collecting.collecting_initializeFlowLoop_spec inst w0 pop len target h0 hpop hlen w' c' d'
        inst.turbines w0 (Collecting.create w0) d
        (IsStateOf_refl w0) (fun t ht => ht) hsd hsp
        (by
          intro e _
          rw [hzero e]
          unfold EdgeBound
          refine ⟨fun _ _ => hcap, fun a => ?_⟩
          have hs := hsub _ (by rw [hb0.substations_eq]; exact (hb0.isSubstation_iff _).1 a)
          split_ifs
          · exact le_refl _
          · exact ⟨le_refl _, hs⟩
          · rfl)
        (by
          unfold Collecting.create
          rw [List.length_replicate]
          exact hb0.base.nV)
        (by
          intro t _
          rw [hout t, hcreate t, if_neg (by decide)])
        (fun s _ => hout s)
        (by
          have e1 : inst.substations.map w0.FlowToSubstation
              = inst.substations.map fun _ => 0 := by
            apply List.map_congr_left
            intro s _
            exact hzero _
          have e2 : (Collecting.create w0).count true = 0 := by
            apply List.count_eq_zero_of_not_mem
            intro h
            unfold Collecting.create at h
            have := List.eq_of_mem_replicate h
            exact absurd this (by decide)
          rw [e1, e2]
          simp)
        hrun
    have hb : Built inst w' := WindfarmResidual.Built_of_isStateOf inst w' w0 hb0 i1
    refine (assertFeasibleFlow_iff hb).2 ⟨i2, ?_, ?_⟩
    · intro t ht
      rw [hb.turbines_eq] at ht
      rw [i4 t ht, if_pos (i8 t ht)]
    · intro s hs
      rw [hb.substations_eq] at hs
      exact i5 s hs

/-- Witness of C21: on the line of the turbines `0` and `1` and the substation `2`, the walk
`[0, 1]` from the turbine `0` collects both turbines, the flow grows by 1 on the edge `0`, by
2 on the edge `1` and by 2 into the substation, and the run of `InitializeFlow` from the
zero flow ends with this flow, which is feasible. -/
theorem collecting_collects_along_the_walk_witness :
    Collecting.UpdateFlowOnWalk (lineGraph [0, 0, 0] [0, 0, 0, 0, 0, 0]) [false, false, false]
        [0, 1] 2 = (lineGraph [1, 2, 2] [0, 0, 0, 0, 0, 0], [true, true, false])
      ∧ ((∀ i, i < [0, 1].length →
          (Collecting.UpdateFlowOnWalk (lineGraph [0, 0, 0] [0, 0, 0, 0, 0, 0])
              [false, false, false] [0, 1] 2).1.FlowOnEdge ([0, 1].getD i 0)
            = (lineGraph [0, 0, 0] [0, 0, 0, 0, 0, 0]).FlowOnEdge ([0, 1].getD i 0)
              + Collecting.newlyCollected (lineGraph [0, 0, 0] [0, 0, 0, 0, 0, 0])
                [false, false, false]
                (Collecting.UpdateFlowOnWalk (lineGraph [0, 0, 0] [0, 0, 0, 0, 0, 0])
                  [false, false, false] [0, 1] 2).2 ([0, 1].take (i + 1))
          ∧ (Collecting.newlyCollected (lineGraph [0, 0, 0] [0, 0, 0, 0, 0, 0])
                [false, false, false]
                (Collecting.UpdateFlowOnWalk (lineGraph [0, 0, 0] [0, 0, 0, 0, 0, 0])
                  [false, false, false] [0, 1] 2).2 ([0, 1].take (i + 1)) : Int)
            ≤ (lineGraph [0, 0, 0] [0, 0, 0, 0, 0, 0]).FreeEdgeCapacity ([0, 1].getD i 0))
        ∧ (Collecting.newlyCollected (lineGraph [0, 0, 0] [0, 0, 0, 0, 0, 0])
              [false, false, false]
              (Collecting.UpdateFlowOnWalk (lineGraph [0, 0, 0] [0, 0, 0, 0, 0, 0])
                [false, false, false] [0, 1] 2).2 [0, 1] : Int)
          ≤ (lineGraph [0, 0, 0] [0, 0, 0, 0, 0, 0]).FreeSubstationCapacity 2
        ∧ (Collecting.UpdateFlowOnWalk (lineGraph [0, 0, 0] [0, 0, 0, 0, 0, 0])
            [false, false, false] [0, 1] 2).2.getD 0 false = true
        ∧ (Collecting.UpdateFlowOnWalk (lineGraph [0, 0, 0] [0, 0, 0, 0, 0, 0])
            [false, false, false] [0, 1] 2).1.FlowToSubstation 2
          = (lineGraph [0, 0, 0] [0, 0, 0, 0, 0, 0]).FlowToSubstation 2
            + Collecting.newlyCollected (lineGraph [0, 0, 0] [0, 0, 0, 0, 0, 0])
              [false, false, false]
              (Collecting.UpdateFlowOnWalk (lineGraph [0, 0, 0] [0, 0, 0, 0, 0, 0])
                [false, false, false] [0, 1] 2).2 [0, 1])
      ∧ collecting.InitializeFlow Dijkstra.popMinimum EuclideanLength
          Dijkstra.ANY_FREE_SUBSTATION (lineGraph [0, 0, 0] [0, 0, 0, 0, 0, 0])
          (Collecting.create (lineGraph [0, 0, 0] [0, 0, 0, 0, 0, 0]))
          (Dijkstra.create (lineGraph [0, 0, 0] [0, 0, 0, 0, 0, 0]))
        = some (ReturnCode.SUCCESS, lineGraph [1, 2, 2] [0, 0, 0, 0, 0, 0],
            [true, true, false],
            { startVertex := 0, targetVertex := 2, numberOfSettledSubstations := 0,
              lastFreeSubstationSettled := none, dist := [0, 1, 2, ⊤],
              parent := [none, some 0, some 1, none], queue := [] })
      ∧ AssertFeasibleFlow (lineGraph [1, 2, 2] [0, 0, 0, 0, 0, 0]) = true :=
  have k := collecting_collects_along_the_walk lineInstance
    (lineGraph [0, 0, 0] [0, 0, 0, 0, 0, 0]) line_ofInstance
  have hrun : collecting.InitializeFlow Dijkstra.popMinimum EuclideanLength
        Dijkstra.ANY_FREE_SUBSTATION (lineGraph [0, 0, 0] [0, 0, 0, 0, 0, 0])
        (Collecting.create (lineGraph [0, 0, 0] [0, 0, 0, 0, 0, 0]))
        (Dijkstra.create (lineGraph [0, 0, 0] [0, 0, 0, 0, 0, 0]))
      = some (ReturnCode.SUCCESS, lineGraph [1, 2, 2] [0, 0, 0, 0, 0, 0],
          [true, true, false],
          { startVertex := 0, targetVertex := 2, numberOfSettledSubstations := 0,
            lastFreeSubstationSettled := none, dist := [0, 1, 2, ⊤],
            parent := [none, some 0, some 1, none], queue := [] }) := by
    with_unfolding_all rfl
  ⟨by with_unfolding_all rfl,
    k.1 (lineGraph [0, 0, 0] [0, 0, 0, 0, 0, 0]) [false, false, false] 0 2 [0, 1]
      (IsStateOf_refl _) lineGraph_edgeBound lineGraph_route rfl rfl,
    hrun,
    k.2 Dijkstra.popMinimum EuclideanLength Dijkstra.ANY_FREE_SUBSTATION
      (Dijkstra.create (lineGraph [0, 0, 0] [0, 0, 0, 0, 0, 0])) _ _ _
      popMinimum_popsMinimum lineGraph_length_nonneg (by decide) (by decide) rfl rfl hrun⟩

end wcp

/-! # `InitializeFlow` returns -/

namespace wcp

open WindfarmResidual

namespace InitializationStrategy

variable {σ : Type}

/-- A run of `Dijkstra::Run` from a turbine towards any free substation or the last free
substation returns `INFEASIBLE`, or it returns `SUCCESS` with a free substation as the
target, and then `ExtractWalk` returns a walk that ends at this substation. -/
theorem run_for_turbine (inst : Instance) (w0 w : WindfarmResidual)
    (pop : List DijkstraEntry → Option (DijkstraEntry × List DijkstraEntry))
    (len : WindfarmResidual → Nat → ℚ) (s : Dijkstra)
    (h0 : WindfarmResidual.ofInstance inst = some w0) (hw : w.IsStateOf w0)
    (hpop : Dijkstra.PopsMinimum pop) (hlen : ∀ e, 0 ≤ len w e)
    (hsd : s.dist.length = w.NumberOfVertices) (hsp : s.parent.length = w.NumberOfVertices)
    (hturbine : s.startVertex ∈ inst.turbines)
    (htarget : s.targetVertex = Dijkstra.ANY_FREE_SUBSTATION
      ∨ s.targetVertex = Dijkstra.LAST_FREE_SUBSTATION) :
    ∃ code s', Dijkstra.Run pop len w s = some (code, s')
      ∧ (code = ReturnCode.INFEASIBLE
        ∨ (code = ReturnCode.SUCCESS
          ∧ w.IsSubstation s'.targetVertex = true
          ∧ w.HasFreeSubstationCapacity s'.targetVertex = true
          ∧ ∃ walk, Dijkstra.ExtractWalk w s' = some walk
            ∧ walk.getLast?.map w.EndVertex = some s'.targetVertex
            ∧ s'.dist.length = w.NumberOfVertices ∧ s'.parent.length = w.NumberOfVertices)) := by
  have hb : Built inst w :=
    WindfarmResidual.Built_of_isStateOf inst w w0 (WindfarmResidual.ofInstance_spec inst w0 h0).1 hw
  have hstart : s.startVertex < w.NumberOfVertices := by
    rw [hb.numberOfVertices]
    have := ((mem_turbines_iff inst _).1 hturbine).1
    omega
  have hT : w.IsTurbine s.startVertex = true := hb.isTurbine_of_mem _ hturbine
  obtain ⟨code, s', S', s1, r1, _, _, _, _, _, _, r8⟩ :=
    Dijkstra.run_spec pop hpop len w hlen (built_outgoing hb) (built_edge_outgoing hb) s hsd
      hsp hstart
  refine ⟨code, s', r1, ?_⟩
  by_cases hc : code = ReturnCode.INFEASIBLE
  · exact Or.inl hc
  right
  have hsuccess : code = ReturnCode.SUCCESS := by
    rcases r8 with ⟨_, _, _, _, _, _, hc', _⟩ | ⟨_, hend⟩
    · exact hc'
    · unfold Dijkstra.RunEnd at hend
      split_ifs at hend
      · cases hl : s1.lastFreeSubstationSettled with
        | none =>
          rw [hl] at hend
          simp only [Prod.mk.injEq] at hend
          exact absurd hend.1 hc
        | some v =>
          rw [hl] at hend
          simp only [Prod.mk.injEq] at hend
          exact hend.1
      · simp only [Prod.mk.injEq] at hend
        exact absurd hend.1 hc
  subst hsuccess
  obtain ⟨S2, s2, hinv, q2, q3, q5, q6, _, _, q9⟩ :=
    run_success pop hpop len w hlen (built_outgoing hb) (built_edge_outgoing hb) s s' hsd hsp
      hstart r1
  have hfreeSub : w.IsSubstation s'.targetVertex = true
      ∧ w.HasFreeSubstationCapacity s'.targetVertex = true := by
    rcases q9 with ⟨x, rest, _, _, hx, hx2, _⟩ | ⟨_, _, _, _, k1, k2⟩
    · unfold Dijkstra.IsTarget at hx
      rw [q3] at hx
      rw [hx2]
      rcases htarget with ht | ht
      · rw [if_pos ht, Bool.and_eq_true] at hx
        exact hx
      · rw [if_neg (by rw [ht]; decide), if_pos ht, Bool.and_eq_true, Bool.and_eq_true] at hx
        exact hx.1
    · exact ⟨k1, k2⟩
  have hne : s'.targetVertex ≠ s.startVertex := by
    intro h
    rw [h] at hfreeSub
    rw [isTurbine_false_of_isSubstation w _ hfreeSub.1] at hT
    exact absurd hT (by decide)
  obtain ⟨walk, k1, k2, _, k4, _⟩ :=
    extractWalk_path inst w0 w pop len s s' h0 hw hpop hlen hsd hsp hstart hT r1 hne
  refine ⟨rfl, hfreeSub.1, hfreeSub.2, walk, k1, ?_, by rw [q5]; exact hinv.sizeDist,
    by rw [q6]; exact hinv.sizeParent⟩
  cases walk with
  | nil => exact absurd rfl k2
  | cons x xs =>
    rw [List.getLast?_eq_getLast _ (List.cons_ne_nil _ _), Option.map_some', ← k4,
      List.getLastD_eq_getLast?, List.getLast?_eq_getLast _ (List.cons_ne_nil _ _)]
    rfl

/-- Function `InitializeFlow` returns, for every strategy whose `UpdateFlowOnWalk` changes
nothing of the residual graph but the flow: it returns `NO_FEASIBLE_SOLUTION_FOUND` if one
of the runs of `Dijkstra::Run` for a turbine not yet collected returns `INFEASIBLE`, and
`SUCCESS` otherwise. -/
theorem initializeFlowLoop_returns (strategy : InitializationStrategy σ) (inst : Instance)
    (w0 : WindfarmResidual)
    (pop : List DijkstraEntry → Option (DijkstraEntry × List DijkstraEntry))
    (len : WindfarmResidual → Nat → ℚ) (target : Nat)
    (h0 : WindfarmResidual.ofInstance inst = some w0)
    (hpop : Dijkstra.PopsMinimum pop)
    (hlen : ∀ w : WindfarmResidual, w.IsStateOf w0 → ∀ e, 0 ≤ len w e)
    (htarget : target = Dijkstra.ANY_FREE_SUBSTATION ∨ target = Dijkstra.LAST_FREE_SUBSTATION)
    (hstate : ∀ w m walk s, (strategy.UpdateFlowOnWalk w m walk s).1.IsStateOf w) :
    ∀ (ts : List Nat) (w : WindfarmResidual) (m : σ) (d : Dijkstra),
      w.IsStateOf w0 → (∀ t ∈ ts, t ∈ inst.turbines) →
      d.dist.length = w0.NumberOfVertices → d.parent.length = w0.NumberOfVertices →
      ∃ code w' m' d', strategy.InitializeFlowLoop pop len target ts w m d
          = some (code, w', m', d')
        ∧ (code = ReturnCode.SUCCESS ∨ code = ReturnCode.NO_FEASIBLE_SOLUTION_FOUND)
        ∧ (code = ReturnCode.NO_FEASIBLE_SOLUTION_FOUND ↔
            ∃ t, (t, ReturnCode.INFEASIBLE)
              ∈ strategy.InitializeFlowRuns pop len target ts w m d)
        ∧ (∀ p ∈ strategy.InitializeFlowRuns pop len target ts w m d,
            p.1 ∈ ts ∧ (p.2 = ReturnCode.SUCCESS ∨ p.2 = ReturnCode.INFEASIBLE)) := by
  intro ts
  induction ts with
  | nil =>
    intro w m d _ _ _ _
    refine ⟨ReturnCode.SUCCESS, w, m, d, rfl, Or.inl rfl, ?_, ?_⟩
    · constructor
      · intro h
        exact absurd h (by decide)
      · rintro ⟨t, ht⟩
        exact absurd ht (List.not_mem_nil _)
    · intro p hp
      exact absurd hp (List.not_mem_nil _)
  | cons t rest ih =>
    intro w m d hw hmem hsd hsp
    obtain ⟨_, _, _, _, _, _, _, _, _, _, t11, t12, _⟩ := IsStateOf_topology hw
    unfold InitializeFlowLoop InitializeFlowRuns
    by_cases c0 : strategy.HasTurbineProductionBeenCollected m t = true
    · rw [if_pos c0, if_pos c0]
      obtain ⟨code, w', m', d', i1, i2, i3, i4⟩ := ih w m d hw
        (fun x hx => hmem x (List.mem_cons_of_mem _ hx)) hsd hsp
      exact ⟨code, w', m', d', i1, i2, i3,
        fun p hp => ⟨List.mem_cons_of_mem _ (i4 p hp).1, (i4 p hp).2⟩⟩
    rw [if_neg c0, if_neg c0]
    obtain ⟨code, d1, hR, hcase⟩ := run_for_turbine inst w0 w pop len
      { d with startVertex := t, targetVertex := target } h0 hw hpop (hlen w hw)
      (by rw [t12]; exact hsd) (by rw [t12]; exact hsp) (hmem t (List.mem_cons_self _ _))
      htarget
    rw [hR]
    simp only
    rcases hcase with hc | ⟨hc, hs1, hs2, walk, hE, hlast, hsd1, hsp1⟩
    · rw [if_pos hc, if_pos hc]
      refine ⟨_, _, _, _, rfl, Or.inr rfl, ?_, ?_⟩
      · constructor
        · intro _
          exact ⟨t, by rw [hc]; exact List.mem_singleton_self _⟩
        · intro _
          rfl
      · intro p hp
        rw [List.mem_singleton] at hp
        rw [hp]
        exact ⟨List.mem_cons_self _ _, Or.inr hc⟩
    · have hc' : ¬ code = ReturnCode.INFEASIBLE := by
        rw [hc]
        decide
      rw [if_neg hc', if_neg hc', hs1, hs2]
      simp only [Bool.and_self, Bool.not_true, Bool.false_eq_true, if_false]
      rw [hE]
      simp only
      rw [if_neg (not_not.2 hlast), if_neg (not_not.2 hlast)]
      obtain ⟨code2, w', m', d', i1, i2, i3, i4⟩ :=
        ih (strategy.UpdateFlowOnWalk w m walk d1.targetVertex).1
          (strategy.UpdateFlowOnWalk w m walk d1.targetVertex).2 d1
          (IsStateOf_trans (hstate w m walk d1.targetVertex) hw)
          (fun x hx => hmem x (List.mem_cons_of_mem _ hx))
          (by rw [hsd1, t12]) (by rw [hsp1, t12])
      refine ⟨code2, w', m', d', i1, i2, ?_, ?_⟩
      · rw [i3]
        constructor
        · rintro ⟨t', ht'⟩
          exact ⟨t', List.mem_cons_of_mem _ ht'⟩
        · rintro ⟨t', ht'⟩
          rcases List.mem_cons.1 ht' with h | h
          · simp only [Prod.mk.injEq] at h
            rw [hc] at h
            exact absurd h.2 (by decide)
          · exact ⟨t', h⟩
      · intro p hp
        rcases List.mem_cons.1 hp with h | h
        · rw [h]
          exact ⟨List.mem_cons_self _ _, Or.inl hc⟩
        · exact ⟨List.mem_cons_of_mem _ (i4 p h).1, (i4 p h).2⟩

end InitializationStrategy

end wcp

/-! # The codes that `InitializeFlow` returns -/

namespace wcp

open WindfarmResidual

theorem nonCollecting_loop_eq
    (pop : List DijkstraEntry → Option (DijkstraEntry × List DijkstraEntry))
    (len : WindfarmResidual → Nat → ℚ) (target : Nat) :
    ∀ (ts : List Nat) (w : WindfarmResidual) (d : Dijkstra),
      nonCollecting.InitializeFlowLoop pop len target ts w () d
        = (NonCollecting.InitializeFlowLoop pop len target ts w d).map
            fun r => (r.1, r.2.1, (), r.2.2) := by
  intro ts
  induction ts with
  | nil => intro w d; rfl
  | cons t rest ih =>
    intro w d
    unfold InitializationStrategy.InitializeFlowLoop NonCollecting.InitializeFlowLoop
    rw [if_neg (by
      show ¬ (false = true)
      decide)]
    cases hR : Dijkstra.Run pop len w { d with startVertex := t, targetVertex := target } with
    | none => rfl
    | some r =>
      obtain ⟨code, d1⟩ := r
      simp only
      by_cases c1 : code = ReturnCode.INFEASIBLE
      · rw [if_pos c1, if_pos c1]
        rfl
      · rw [if_neg c1, if_neg c1]
        by_cases c2 : (!(w.IsSubstation d1.targetVertex
            && w.HasFreeSubstationCapacity d1.targetVertex)) = true
        · rw [if_pos c2, if_pos c2]
          rfl
        · rw [if_neg c2, if_neg c2]
          cases hE : Dijkstra.ExtractWalk w d1 with
          | none => rfl
          | some walk =>
            simp only
            by_cases c3 : walk.getLast?.map w.EndVertex ≠ some d1.targetVertex
            · rw [if_pos c3, if_pos c3]
              rfl
            · rw [if_neg c3, if_neg c3]
              exact ih _ _

theorem nonCollecting_state (w : WindfarmResidual) (m : Unit) (walk : List Nat) (s : Nat) :
    (nonCollecting.UpdateFlowOnWalk w m walk s).1.IsStateOf w := by
  show (NonCollecting.UpdateFlowOnWalk w walk s).IsStateOf w
  rw [updateFlowOnWalk_eq]
  exact (addFlowOnMultipleEdges_state _ 1 w).1

theorem collecting_loop_state :
    ∀ (rest : List Nat) (fcs : List Int) (w : WindfarmResidual) (c : List Bool) (cur : Int),
      (Collecting.UpdateFlowOnWalkLoop rest fcs w c cur).1.IsStateOf w := by
  intro rest
  induction rest with
  | nil => intro _ w _ _; exact IsStateOf_refl w
  | cons e rest ih =>
    intro fcs w c cur
    obtain ⟨b, c2, heq, _⟩ := Collecting.updateFlowOnWalkLoop_cons e rest fcs w c cur
    rw [heq]
    exact IsStateOf_trans (ih _ _ _ _) (AddFlowOnEdge_isStateOf w e _)

theorem collecting_state (w : WindfarmResidual) (m : List Bool) (walk : List Nat) (s : Nat) :
    (collecting.UpdateFlowOnWalk w m walk s).1.IsStateOf w := by
  show (Collecting.UpdateFlowOnWalk w m walk s).1.IsStateOf w
  unfold Collecting.UpdateFlowOnWalk
  exact IsStateOf_trans (AddFlowOnEdge_isStateOf _ _ _) (collecting_loop_state _ _ _ _ _)

theorem count_true_eq_filter_range (l : List Bool) :
    l.count true = ((List.range l.length).filter (fun i => l.getD i false)).length := by
  induction l using List.reverseRecOn with
  | nil => rfl
  | append_singleton l a ih =>
    rw [List.count_append, List.length_append, List.length_singleton, List.range_succ,
      List.filter_append, List.length_append, ih]
    congr 1
    · congr 1
      apply List.filter_congr
      intro x hx
      rw [List.mem_range] at hx
      rw [List.getD_append _ _ _ _ hx]
    · have e : (l ++ [a]).getD l.length false = a := by
        rw [List.getD_append_right _ _ _ _ (le_refl _)]
        simp
      simp only [List.filter_cons, List.filter_nil, e]
      cases a <;> rfl

theorem length_le_count_true (l : List Bool) (ts : List Nat) (hnd : ts.Nodup)
    (h : ∀ t ∈ ts, l.getD t false = true) : ts.length ≤ l.count true := by
  rw [count_true_eq_filter_range]
  apply (List.Nodup.subperm hnd _).length_le
  intro t ht
  rw [List.mem_filter, List.mem_range]
  refine ⟨?_, h t ht⟩
  by_contra hlt
  have := h t ht
  rw [getD_of_length_le _ _ _ (by omega)] at this
  exact absurd this (by decide)

/-- With the bounds of `AssertFeasibleFlow` on the edges, the flow into the substations is
at most their capacity in total. -/
theorem drains_le_capacities {inst : Instance} {w : WindfarmResidual} (hb : Built inst w)
    (hbound : ∀ e, e < w.NumberOfEdges → EdgeBound w e (w.FlowOnEdge e)) :
    (inst.substations.map w.FlowToSubstation).sum
      ≤ (inst.substations.map w.VertexCapacity).sum := by
  apply List.sum_le_sum
  intro s hs
  have hs' : w.IsSubstation s = true := (hb.isSubstation_iff s).2 hs
  obtain ⟨d1, d2, d3, _⟩ := drain_edge hb s hs'
  have k := (hbound _ d1).2 (by rw [d2]; exact hs')
  rw [if_neg (by rw [isTurbine_false_of_isSuperSubstation w _ d3]; decide), if_pos d3, d2] at k
  exact k.2

end wcp

/-! # `InitializeFlow` and the capacity of the substations -/

namespace wcp

open WindfarmResidual

theorem zero_flow_edgeBound (inst : Instance) (w0 : WindfarmResidual)
    (h0 : WindfarmResidual.ofInstance inst = some w0)
    (hcap : 0 ≤ w0.cabletypes.MaximumCapacity)
    (hsub : ∀ s ∈ w0.Substations, 0 ≤ w0.VertexCapacity s) :
    ∀ e, e < w0.NumberOfEdges → EdgeBound w0 e (w0.FlowOnEdge e) := by
  have hb0 : Built inst w0 := (WindfarmResidual.ofInstance_spec inst w0 h0).1
  intro e _
  rw [flowOnEdge_ofInstance inst w0 h0 e]
  unfold EdgeBound
  refine ⟨fun _ _ => hcap, fun a => ?_⟩
  have hs := hsub _ (by rw [hb0.substations_eq]; exact (hb0.isSubstation_iff _).1 a)
  split_ifs
  · exact le_refl _
  · exact ⟨le_refl _, hs⟩
  · rfl

theorem zero_flow_outSum (inst : Instance) (w0 : WindfarmResidual)
    (h0 : WindfarmResidual.ofInstance inst = some w0) (v : Nat) : outSum w0 v = 0 := by
  have hfun : w0.FlowOnEdge = fun _ => 0 := funext (flowOnEdge_ofInstance inst w0 h0)
  unfold outSum
  rw [hfun]
  simp

theorem zero_flow_drains (inst : Instance) (w0 : WindfarmResidual)
    (h0 : WindfarmResidual.ofInstance inst = some w0) :
    (inst.substations.map w0.FlowToSubstation).sum = 0 := by
  have e1 : inst.substations.map w0.FlowToSubstation = inst.substations.map fun _ => 0 := by
    apply List.map_congr_left
    intro s _
    exact flowOnEdge_ofInstance inst w0 h0 _
  rw [e1]
  simp

/-- A run of `InitializeFlow` with the strategy `NonCollecting` from the zero flow that
returns `SUCCESS` needs as much capacity of the substations as there are turbines. -/
theorem nonCollecting_success_capacity (inst : Instance) (w0 w' : WindfarmResidual)
    (pop : List DijkstraEntry → Option (DijkstraEntry × List DijkstraEntry))
    (len : WindfarmResidual → Nat → ℚ) (target : Nat) (d d' : Dijkstra) (m' : Unit)
    (h0 : WindfarmResidual.ofInstance inst = some w0)
    (hpop : Dijkstra.PopsMinimum pop)
    (hlen : ∀ w : WindfarmResidual, w.IsStateOf w0 → ∀ e, 0 ≤ len w e)
    (hcap : 0 ≤ w0.cabletypes.MaximumCapacity)
    (hsub : ∀ s ∈ w0.Substations, 0 ≤ w0.VertexCapacity s)
    (hsd : d.dist.length = w0.NumberOfVertices) (hsp : d.parent.length = w0.NumberOfVertices)
    (hrun : nonCollecting.InitializeFlow pop len target w0 () d
      = some (ReturnCode.SUCCESS, w', m', d')) :
    (w0.NumberOfTurbines : Int) ≤ (w0.Substations.map w0.VertexCapacity).sum := by
  have hb0 : Built inst w0 := (WindfarmResidual.ofInstance_spec inst w0 h0).1
  unfold InitializationStrategy.InitializeFlow at hrun
  rw [nonCollecting_loop_eq, hb0.turbines_eq] at hrun
  cases hN : NonCollecting.InitializeFlowLoop pop len target inst.turbines w0 d with
  | none =>
    rw [hN] at hrun
    exact absurd hrun (by simp)
  | some r =>
    obtain ⟨code, w1, d1⟩ := r
    rw [hN] at hrun
    simp only [Option.map_some', Option.some.injEq, Prod.mk.injEq] at hrun
    obtain ⟨e1, e2, _, e4⟩ := hrun
    subst e1 e2 e4
    obtain ⟨i1, i2, i3, _⟩ :=
      initializeFlowLoop_spec inst w0 pop len target h0 hpop hlen w1 d1 inst.turbines w0 d
        (IsStateOf_refl w0) (turbines_nodup inst) (fun t ht => ht) hsd hsp
        (zero_flow_edgeBound inst w0 h0 hcap hsub)
        (by
          intro t ht
          rw [zero_flow_outSum inst w0 h0 t, if_pos ht])
        (fun s _ => zero_flow_outSum inst w0 h0 s)
        (by rw [zero_flow_drains inst w0 h0, zero_add])
        hN
    have hb : Built inst w1 := WindfarmResidual.Built_of_isStateOf inst w1 w0 hb0 i1
    have k := drains_le_capacities hb i2.1
    rw [i3] at k
    have hcapEq : inst.substations.map w1.VertexCapacity
        = inst.substations.map w0.VertexCapacity := by
      apply List.map_congr_left
      intro s _
      exact (IsStateOf_topology i1).2.2.2.2.2.2.1 s
    rw [hcapEq] at k
    rw [hb0.substations_eq]
    have hT : w0.NumberOfTurbines = inst.turbines.length := hb0.base.nT
    rw [hT]
    exact k

/-- A run of `InitializeFlow` with the strategy `Collecting` from the zero flow that
returns `SUCCESS` needs as much capacity of the substations as there are turbines. -/
theorem collecting_success_capacity (inst : Instance) (w0 w' : WindfarmResidual)
    (pop : List DijkstraEntry → Option (DijkstraEntry × List DijkstraEntry))
    (len : WindfarmResidual → Nat → ℚ) (target : Nat) (d d' : Dijkstra) (c' : List Bool)
    (h0 : WindfarmResidual.ofInstance inst = some w0)
    (hpop : Dijkstra.PopsMinimum pop)
    (hlen : ∀ w : WindfarmResidual, w.IsStateOf w0 → ∀ e, 0 ≤ len w e)
    (hcap : 0 ≤ w0.cabletypes.MaximumCapacity)
    (hsub : ∀ s ∈ w0.Substations, 0 ≤ w0.VertexCapacity s)
    (hsd : d.dist.length = w0.NumberOfVertices) (hsp : d.parent.length = w0.NumberOfVertices)
    (hrun : collecting.InitializeFlow pop len target w0 (Collecting.create w0) d
      = some (ReturnCode.SUCCESS, w', c', d')) :
    (w0.NumberOfTurbines : Int) ≤ (w0.Substations.map w0.VertexCapacity).sum := by
  have hb0 : Built inst w0 := (WindfarmResidual.ofInstance_spec inst w0 h0).1
  have hcreate : ∀ v, (Collecting.create w0).getD v false = false := by
    intro v
    unfold Collecting.create
    rw [getD_replicate_eq]
    split_ifs <;> rfl
  unfold InitializationStrategy.InitializeFlow at hrun
  rw [hb0.turbines_eq] at hrun
  obtain ⟨i1, i2, _, _, _, i6, _, i8⟩ :=
    Collecting.collecting_initializeFlowLoop_spec inst w0 pop len target h0 hpop hlen w' c' d'
      inst.turbines w0 (Collecting.create w0) d
      (IsStateOf_refl w0) (fun t ht => ht) hsd hsp
      (zero_flow_edgeBound inst w0 h0 hcap hsub)
      (by
        unfold Collecting.create
        rw [List.length_replicate]
        exact hb0.base.nV)
      (by
        intro t _
        rw [zero_flow_outSum inst w0 h0 t, hcreate t, if_neg (by decide)])
      (fun s _ => zero_flow_outSum inst w0 h0 s)
      (by
        have e2 : (Collecting.create w0).count true = 0 := by
          apply List.count_eq_zero_of_not_mem
          intro h
          unfold Collecting.create at h
          have := List.eq_of_mem_replicate h
          exact absurd this (by decide)
        rw [zero_flow_drains inst w0 h0, e2]
        rfl)
      hrun
  have hb : Built inst w' := WindfarmResidual.Built_of_isStateOf inst w' w0 hb0 i1
  have k := drains_le_capacities hb i2
  rw [i6] at k
  have hcapEq : inst.substations.map w'.VertexCapacity
      = inst.substations.map w0.VertexCapacity := by
    apply List.map_congr_left
    intro s _
    exact (IsStateOf_topology i1).2.2.2.2.2.2.1 s
  rw [hcapEq] at k
  rw [hb0.substations_eq]
  have hT : w0.NumberOfTurbines = inst.turbines.length := hb0.base.nT
  rw [hT]
  have hcount := length_le_count_true c' inst.turbines (turbines_nodup inst) i8
  have : ((inst.turbines.length : Nat) : Int) ≤ ((c'.count true : Nat) : Int) :=
    Int.ofNat_le.2 hcount
  exact le_trans this k

/-- C22 does not hold as stated: on scenario S1 with a second substation of capacity `-10`
that no edge leads to, the capacities of the substations sum up to `-5`, which is less than
the number 1 of turbines, and `InitializeFlow` returns `SUCCESS` from the zero flow, with
the strategy `NonCollecting` and with the strategy `Collecting`. -/
theorem initializeFlow_success_with_capacity_deficit :
    ((WindfarmResidual.ofInstance deficitInstance).bind fun w0 =>
        (nonCollecting.InitializeFlow Dijkstra.popMinimum EuclideanLength
          Dijkstra.ANY_FREE_SUBSTATION w0 () (Dijkstra.create w0)).map fun r =>
            (r.1, (w0.Substations.map w0.VertexCapacity).sum, w0.NumberOfTurbines))
      = some (ReturnCode.SUCCESS, -5, 1)
    ∧ ((WindfarmResidual.ofInstance deficitInstance).bind fun w0 =>
        (collecting.InitializeFlow Dijkstra.popMinimum EuclideanLength
          Dijkstra.ANY_FREE_SUBSTATION w0 (Collecting.create w0) (Dijkstra.create w0)).map
            fun r => (r.1, (w0.Substations.map w0.VertexCapacity).sum, w0.NumberOfTurbines))
      = some (ReturnCode.SUCCESS, -5, 1) := by
  constructor
  · with_unfolding_all rfl
  · with_unfolding_all rfl

/-- C22 (amended): in a residual graph built from an instance, with a queue that hands out
an entry of least distance, edge lengths that are not negative and the target any free
substation or the last free substation, `InitializeFlow` returns, with the strategy
`NonCollecting` and with the strategy `Collecting`, from every flow: it returns
`NO_FEASIBLE_SOLUTION_FOUND` if and only if one of its runs of `Dijkstra::Run`, each of them
for a turbine that is not collected yet, returns `INFEASIBLE`, and `SUCCESS` otherwise.  If
the maximum cable capacity and the capacities of the substations are not negative and the
capacities of the substations sum up to less than the number of turbines, it returns
`NO_FEASIBLE_SOLUTION_FOUND` from the zero flow. -/
theorem initializeFlow_returns_success_or_no_feasible_solution (inst : Instance)
    (w0 : WindfarmResidual)
    (pop : List DijkstraEntry → Option (DijkstraEntry × List DijkstraEntry))
    (len : WindfarmResidual → Nat → ℚ) (target : Nat)
    (h0 : WindfarmResidual.ofInstance inst = some w0)
    (hpop : Dijkstra.PopsMinimum pop)
    (hlen : ∀ w : WindfarmResidual, w.IsStateOf w0 → ∀ e, 0 ≤ len w e)
    (htarget : target = Dijkstra.ANY_FREE_SUBSTATION ∨ target = Dijkstra.LAST_FREE_SUBSTATION) :
    (∀ (w : WindfarmResidual) (d : Dijkstra), w.IsStateOf w0 →
      d.dist.length = w0.NumberOfVertices → d.parent.length = w0.NumberOfVertices →
      ∃ code w' m' d', nonCollecting.InitializeFlow pop len target w () d
          = some (code, w', m', d')
        ∧ (code = ReturnCode.SUCCESS ∨ code = ReturnCode.NO_FEASIBLE_SOLUTION_FOUND)
        ∧ (code = ReturnCode.NO_FEASIBLE_SOLUTION_FOUND ↔
            ∃ t, (t, ReturnCode.INFEASIBLE)
              ∈ nonCollecting.InitializeFlowRuns pop len target w.Turbines w () d)
        ∧ (∀ p ∈ nonCollecting.InitializeFlowRuns pop len target w.Turbines w () d,
            p.1 ∈ w.Turbines)
        ∧ (w = w0 → 0 ≤ w0.cabletypes.MaximumCapacity →
            (∀ s ∈ w0.Substations, 0 ≤ w0.VertexCapacity s) →
            (w0.Substations.map w0.VertexCapacity).sum < (w0.NumberOfTurbines : Int) →
            code = ReturnCode.NO_FEASIBLE_SOLUTION_FOUND))
      ∧ (∀ (w : WindfarmResidual) (c : List Bool) (d : Dijkstra), w.IsStateOf w0 →
        d.dist.length = w0.NumberOfVertices → d.parent.length = w0.NumberOfVertices →
        ∃ code w' c' d', collecting.InitializeFlow pop len target w c d
            = some (code, w', c', d')
          ∧ (code = ReturnCode.SUCCESS ∨ code = ReturnCode.NO_FEASIBLE_SOLUTION_FOUND)
          ∧ (code = ReturnCode.NO_FEASIBLE_SOLUTION_FOUND ↔
              ∃ t, (t, ReturnCode.INFEASIBLE)
                ∈ collecting.InitializeFlowRuns pop len target w.Turbines w c d)
          ∧ (∀ p ∈ collecting.InitializeFlowRuns pop len target w.Turbines w c d,
              p.1 ∈ w.Turbines)
          ∧ (w = w0 → c = Collecting.create w0 → 0 ≤ w0.cabletypes.MaximumCapacity →
              (∀ s ∈ w0.Substations, 0 ≤ w0.VertexCapacity s) →
              (w0.Substations.map w0.VertexCapacity).sum < (w0.NumberOfTurbines : Int) →
              code = ReturnCode.NO_FEASIBLE_SOLUTION_FOUND)) := by
  have hb0 : Built inst w0 := (WindfarmResidual.ofInstance_spec inst w0 h0).1
  constructor
  · intro w d hw hsd hsp
    have hb : Built inst w := WindfarmResidual.Built_of_isStateOf inst w w0 hb0 hw
    obtain ⟨code, w', m', d', r1, r2, r3, r4⟩ :=
      InitializationStrategy.initializeFlowLoop_returns nonCollecting inst w0 pop len target h0
        hpop hlen htarget nonCollecting_state w.Turbines w () d hw
        (fun t ht => by rw [hb.turbines_eq] at ht; exact ht) hsd hsp
    refine ⟨code, w', m', d', r1, r2, r3, fun p hp => (r4 p hp).1, ?_⟩
    intro hw0 hcap hsub hdef
    subst hw0
    rcases r2 with r2 | r2
    · subst r2
      have := nonCollecting_success_capacity inst w w' pop len target d d' m' h0 hpop hlen
        hcap hsub hsd hsp r1
      omega
    · exact r2
  · intro w c d hw hsd hsp
    have hb : Built inst w := WindfarmResidual.Built_of_isStateOf inst w w0 hb0 hw
    obtain ⟨code, w', c', d', r1, r2, r3, r4⟩ :=
      InitializationStrategy.initializeFlowLoop_returns collecting inst w0 pop len target h0
        hpop hlen htarget collecting_state w.Turbines w c d hw
        (fun t ht => by rw [hb.turbines_eq] at ht; exact ht) hsd hsp
    refine ⟨code, w', c', d', r1, r2, r3, fun p hp => (r4 p hp).1, ?_⟩
    intro hw0 hc hcap hsub hdef
    subst hw0 hc
    rcases r2 with r2 | r2
    · subst r2
      have := collecting_success_capacity inst w w' pop len target d d' c' h0 hpop hlen
        hcap hsub hsd hsp r1
      omega
    · exact r2

theorem tight_ofInstance :
    WindfarmResidual.ofInstance tightInstance
      = some (tightGraph [0, 0, 0] [0, 0, 0, 0, 0, 0]) := by
  rfl

theorem tightGraph_length_nonneg (w : WindfarmResidual)
    (hw : w.IsStateOf (tightGraph [0, 0, 0] [0, 0, 0, 0, 0, 0])) (e : Nat) :
    0 ≤ EuclideanLength w e := by
  obtain ⟨_, _, t3, _⟩ := IsStateOf_topology hw
  unfold EuclideanLength
  rw [t3]
  rcases e with _ | _ | _ | _ | _ | _ | e
  · with_unfolding_all decide
  · with_unfolding_all decide
  · with_unfolding_all decide
  · with_unfolding_all decide
  · with_unfolding_all decide
  · with_unfolding_all decide
  · exact le_of_eq rfl

/-- Witness of C22: two turbines in a row before a substation of capacity 1.  With both
strategies the run of `Dijkstra::Run` for the turbine `0` returns `SUCCESS`, the one for
the turbine `1` returns `INFEASIBLE`, and `InitializeFlow` returns
`NO_FEASIBLE_SOLUTION_FOUND`. -/
theorem initializeFlow_returns_success_or_no_feasible_solution_witness :
    (nonCollecting.InitializeFlow Dijkstra.popMinimum EuclideanLength
          Dijkstra.ANY_FREE_SUBSTATION (tightGraph [0, 0, 0] [0, 0, 0, 0, 0, 0]) ()
          (Dijkstra.create (tightGraph [0, 0, 0] [0, 0, 0, 0, 0, 0]))).map
        (fun r => (r.1, r.2.1.flowValues))
      = some (ReturnCode.NO_FEASIBLE_SOLUTION_FOUND, [1, 1, 1])
    ∧ nonCollecting.InitializeFlowRuns Dijkstra.popMinimum EuclideanLength
          Dijkstra.ANY_FREE_SUBSTATION (tightGraph [0, 0, 0] [0, 0, 0, 0, 0, 0]).Turbines
          (tightGraph [0, 0, 0] [0, 0, 0, 0, 0, 0]) ()
          (Dijkstra.create (tightGraph [0, 0, 0] [0, 0, 0, 0, 0, 0]))
        = [(0, ReturnCode.SUCCESS), (1, ReturnCode.INFEASIBLE)]
    ∧ (collecting.InitializeFlow Dijkstra.popMinimum EuclideanLength
          Dijkstra.ANY_FREE_SUBSTATION (tightGraph [0, 0, 0] [0, 0, 0, 0, 0, 0])
          (Collecting.create (tightGraph [0, 0, 0] [0, 0, 0, 0, 0, 0]))
          (Dijkstra.create (tightGraph [0, 0, 0] [0, 0, 0, 0, 0, 0]))).map
        (fun r => (r.1, r.2.1.flowValues, r.2.2.1))
      = some (ReturnCode.NO_FEASIBLE_SOLUTION_FOUND, [1, 1, 1], [true, false, false])
    ∧ (∃ code w' m' d', nonCollecting.InitializeFlow Dijkstra.popMinimum EuclideanLength
          Dijkstra.ANY_FREE_SUBSTATION (tightGraph [0, 0, 0] [0, 0, 0, 0, 0, 0]) ()
          (Dijkstra.create (tightGraph [0, 0, 0] [0, 0, 0, 0, 0, 0]))
          = some (code, w', m', d')
        ∧ (code = ReturnCode.SUCCESS ∨ code = ReturnCode.NO_FEASIBLE_SOLUTION_FOUND)
        ∧ (code = ReturnCode.NO_FEASIBLE_SOLUTION_FOUND ↔
            ∃ t, (t, ReturnCode.INFEASIBLE)
              ∈ nonCollecting.InitializeFlowRuns Dijkstra.popMinimum EuclideanLength
                Dijkstra.ANY_FREE_SUBSTATION (tightGraph [0, 0, 0] [0, 0, 0, 0, 0, 0]).Turbines
                (tightGraph [0, 0, 0] [0, 0, 0, 0, 0, 0]) ()
                (Dijkstra.create (tightGraph [0, 0, 0] [0, 0, 0, 0, 0, 0])))
        ∧ code = ReturnCode.NO_FEASIBLE_SOLUTION_FOUND)
    ∧ (∃ code w' c' d', collecting.InitializeFlow Dijkstra.popMinimum EuclideanLength
          Dijkstra.ANY_FREE_SUBSTATION (tightGraph [0, 0, 0] [0, 0, 0, 0, 0, 0])
          (Collecting.create (tightGraph [0, 0, 0] [0, 0, 0, 0, 0, 0]))
          (Dijkstra.create (tightGraph [0, 0, 0] [0, 0, 0, 0, 0, 0]))
          = some (code, w', c', d')
        ∧ (code = ReturnCode.SUCCESS ∨ code = ReturnCode.NO_FEASIBLE_SOLUTION_FOUND)
        ∧ (code = ReturnCode.NO_FEASIBLE_SOLUTION_FOUND ↔
            ∃ t, (t, ReturnCode.INFEASIBLE)
              ∈ collecting.InitializeFlowRuns Dijkstra.popMinimum EuclideanLength
                Dijkstra.ANY_FREE_SUBSTATION (tightGraph [0, 0, 0] [0, 0, 0, 0, 0, 0]).Turbines
                (tightGraph [0, 0, 0] [0, 0, 0, 0, 0, 0])
                (Collecting.create (tightGraph [0, 0, 0] [0, 0, 0, 0, 0, 0]))
                (Dijkstra.create (tightGraph [0, 0, 0] [0, 0, 0, 0, 0, 0])))
        ∧ code = ReturnCode.NO_FEASIBLE_SOLUTION_FOUND) :=
  have k := initializeFlow_returns_success_or_no_feasible_solution tightInstance
    (tightGraph [0, 0, 0] [0, 0, 0, 0, 0, 0]) Dijkstra.popMinimum EuclideanLength
    Dijkstra.ANY_FREE_SUBSTATION tight_ofInstance popMinimum_popsMinimum
    tightGraph_length_nonneg (Or.inl rfl)
  ⟨by with_unfolding_all rfl, by with_unfolding_all rfl, by with_unfolding_all rfl,
    (k.1 (tightGraph [0, 0, 0] [0, 0, 0, 0, 0, 0])
      (Dijkstra.create (tightGraph [0, 0, 0] [0, 0, 0, 0, 0, 0]))
      (IsStateOf_refl _) rfl rfl).imp fun _ h1 => h1.imp fun _ h2 => h2.imp fun _ h3 =>
        h3.imp fun _ h4 =>
          ⟨h4.1, h4.2.1, h4.2.2.1, h4.2.2.2.2 rfl (by decide) (by decide) (by decide)⟩,
    (k.2 (tightGraph [0, 0, 0] [0, 0, 0, 0, 0, 0])
      (Collecting.create (tightGraph [0, 0, 0] [0, 0, 0, 0, 0, 0]))
      (Dijkstra.create (tightGraph [0, 0, 0] [0, 0, 0, 0, 0, 0]))
      (IsStateOf_refl _) rfl rfl).imp fun _ h1 => h1.imp fun _ h2 => h2.imp fun _ h3 =>
        h3.imp fun _ h4 =>
          ⟨h4.1, h4.2.1, h4.2.2.1,
            h4.2.2.2.2 rfl rfl (by decide) (by decide) (by decide)⟩⟩

end wcp

/-! # The chain of parent edges after the last round of `Run` -/

namespace wcp

/-! ## Chains of a relation that is a function -/

/-- Every element of a chain but the first one has a predecessor in the chain. -/
theorem chain_pred {R : Nat → Nat → Prop} : ∀ (e : Nat) (W : List Nat),
    List.Chain' R (e :: W) → ∀ b ∈ W, ∃ a ∈ e :: W, R a b := by
  intro e W
  induction W generalizing e with
  | nil =>
    intro _ b hb
    exact absurd hb (List.not_mem_nil _)
  | cons y W ih =>
    intro h b hb
    rw [List.chain'_cons] at h
    rcases List.mem_cons.mp hb with hby | hbW
    · subst hby
      exact ⟨e, List.mem_cons_self _ _, h.1⟩
    · obtain ⟨a, ha, hab⟩ := ih y h.2 b hbW
      exact ⟨a, List.mem_cons_of_mem _ ha, hab⟩

/-- Along a chain of a function, the elements after the first one are the values of the
function at the elements before the last one. -/
theorem chain_tail_map (nxt : Nat → Option Nat) : ∀ (e : Nat) (W : List Nat),
    List.Chain' (fun a b => nxt a = some b) (e :: W) →
    W.map some = (e :: W).dropLast.map nxt := by
  intro e W
  induction W generalizing e with
  | nil =>
    intro _
    rfl
  | cons y W ih =>
    intro h
    rw [List.chain'_cons] at h
    rw [List.dropLast_cons₂, List.map_cons, List.map_cons, ih y h.2, h.1]

/-- A list without repetitions of `n` numbers below `n` holds every number below `n`. -/
theorem mem_of_nodup_of_length (l : List Nat) (n : Nat) (hn : l.Nodup) (hl : l.length = n)
    (hlt : ∀ v ∈ l, v < n) (v : Nat) (hv : v < n) : v ∈ l := by
  have hsub : l ⊆ List.range n := fun x hx => List.mem_range.mpr (hlt x hx)
  have hperm : l.Perm (List.range n) :=
    (List.subperm_of_subset hn hsub).perm_of_length_le (by rw [List.length_range, hl])
  exact hperm.mem_iff.mpr (List.mem_range.mpr hv)

theorem length_flatMap_range_le (f : Nat → List Nat) (m : Nat) (hf : ∀ v, (f v).length ≤ m) :
    ∀ n, ((List.range n).flatMap f).length ≤ m * n := by
  intro n
  induction n with
  | zero => simp
  | succ n ih =>
    rw [List.range_succ, List.flatMap_append, List.length_append]
    have := hf n
    simp only [List.flatMap_cons, List.flatMap_nil, List.append_nil]
    rw [Nat.mul_succ]
    omega

namespace BellmanFord

variable {L : Type}

/-! ## The visits that lowered the distances of a chain -/

/-- Along a chain of parent edges the visit that last lowered the distance goes back by
less than a round from an edge to its parent: when the distance of the first edge was
lowered after `k` rounds less `k` visits, the distances of the first `k + 1` edges were all
lowered by a visit. -/
theorem chain_flagged (ops : LabelType L) (w : WindfarmResidual) (s : BellmanFord L)
    (c : Nat → Nat) (hfl : ∀ e, 1 ≤ c e → ChainLink ops w s c e) :
    ∀ (W : List Nat) (e k : Nat),
      List.Chain' (fun a b => chainParent ops w s a = some b) (e :: W) →
      k * (w.NumberOfVertices - 1) + 2 ≤ c e →
      ∀ a ∈ (e :: W).take (k + 1), 1 ≤ c a := by
  intro W
  induction W with
  | nil =>
    intro e k _ hc a ha
    rw [List.take_succ_cons, List.take_nil, List.mem_singleton] at ha
    subst ha
    omega
  | cons b W ih =>
    intro e k hch hc a ha
    rw [List.take_succ_cons] at ha
    rcases List.mem_cons.mp ha with hae | hat
    · subst hae
      omega
    · cases k with
      | zero =>
        rw [List.take_zero] at hat
        exact absurd hat (List.not_mem_nil _)
      | succ k =>
        rw [List.chain'_cons] at hch
        obtain ⟨q, p1, _, _, _, _, _, _, p8, _⟩ := hfl e (by omega)
        rw [hch.1] at p1
        simp only [Option.some.injEq] at p1
        subst p1
        rw [Nat.succ_mul] at hc
        have hb : k * (w.NumberOfVertices - 1) + 2 ≤ c b := by
          generalize k * (w.NumberOfVertices - 1) = m at hc ⊢
          have hgt : w.NumberOfVertices < c e := by omega
          have hT := p8 hgt
          omega
        exact ih b k hch.2 hb a hat

/-- An edge that can be relaxed after the last round of `Run` had its distance lowered
after the visit of its start vertex in the last round. -/
theorem relaxable_stamp (ops : LabelType L) (ok : L → Prop) (w : WindfarmResidual)
    (s : BellmanFord L) (c : Nat → Nat) (N : Nat)
    (hinv : ChainInv ops ok w (N * w.NumberOfVertices) s c) (hN : 1 ≤ N) (x e : Nat)
    (hx : x < w.NumberOfVertices) (he : e ∈ w.OutgoingEdges x)
    (hr : IsRelaxable ops w s x e = true) :
    (N - 1) * w.NumberOfVertices + x + 2 ≤ c e := by
  have h := (hinv.dirty x hx e he hr).2 ((N - 1) * w.NumberOfVertices + x) ?_ ?_
  · exact h
  · obtain ⟨M, rfl⟩ : ∃ M, N = M + 1 := ⟨N - 1, by omega⟩
    rw [Nat.add_sub_cancel, Nat.succ_mul]
    omega
  · exact Nat.mul_add_mod_of_lt hx

/-- The distance of an edge that can be relaxed is negative. -/
theorem relaxable_negative (ops : LabelType L) (ok : L → Prop) (claws : ChainLaws ops ok)
    (w : WindfarmResidual) (s : BellmanFord L) (c : Nat → Nat)
    (hcore : ChainCore ops ok w s c) (e : Nat) (he : e < w.NumberOfEdges)
    (hr : IsRelaxable ops w s (w.StartVertex e) e = true) :
    chainDistance ops w s e < 0 :=
  neg_of_add_lt _ _ (claws.antitone _ _ _ _ hr (hcore.initial e he))

/-- An edge that has a parent starts at a vertex of the graph. -/
theorem start_lt_of_chainParent (ops : LabelType L) (ok : L → Prop) (claws : ChainLaws ops ok)
    (w : WindfarmResidual) (s : BellmanFord L) (hs : s.labels.length = w.NumberOfVertices)
    (a b : Nat) (h : chainParent ops w s a = some b) : w.StartVertex a < w.NumberOfVertices := by
  by_contra hlt
  have hl : LabelAt ops s (w.StartVertex a) = ops.init := by
    unfold LabelAt
    exact getD_of_length_le _ _ _ (by rw [hs]; exact not_lt.mp hlt)
  unfold chainParent at h
  rw [hl, claws.initParent] at h
  exact absurd h (by simp)

/-- The edges of a chain of parent edges without repetitions, other than the first one, are
among the parent edges that the labels of the vertices hold. -/
theorem chain_length_le (ops : LabelType L) (ok : L → Prop) (claws : ChainLaws ops ok)
    (stored : L → List Nat) (laws : ParentLaws ops stored) (m : Nat)
    (hm : ∀ l, (stored l).length ≤ m) (w : WindfarmResidual) (s : BellmanFord L)
    (hs : s.labels.length = w.NumberOfVertices) (e : Nat) (W : List Nat)
    (hch : List.Chain' (fun a b => chainParent ops w s a = some b) (e :: W))
    (hnd : (e :: W).Nodup) : (e :: W).length ≤ m * w.NumberOfVertices + 1 := by
  have hsub : W ⊆ (List.range w.NumberOfVertices).flatMap
      fun v => stored (LabelAt ops s v) := by
    intro b hb
    obtain ⟨a, _, hab⟩ := chain_pred e W hch b hb
    rw [List.mem_flatMap]
    exact ⟨w.StartVertex a,
      List.mem_range.mpr (start_lt_of_chainParent ops ok claws w s hs a b hab),
      laws.parent _ _ _ _ hab⟩
  have h1 := (List.subperm_of_subset (List.nodup_cons.mp hnd).2 hsub).length_le
  have h2 := length_flatMap_range_le (fun v => stored (LabelAt ops s v)) m
    (fun v => hm _) w.NumberOfVertices
  rw [List.length_cons]
  omega

end BellmanFord

end wcp

/-! # The cost of the walks that `ExtractNegativeClosedWalk` returns -/

namespace wcp

namespace BellmanFord

variable {L : Type}

/-- The walks extracted after a `Run` that returned `SUCCESS` have negative cost, when in
every cycle of parent edges that a chain of parent edges from an edge that can be relaxed
runs into, every edge whose distance was last set by `InitializeLabels` has a finite
distance that is greater than the distance of its parent plus the cost of its parent. -/
theorem extracted_walks_negative_of (ops : LabelType L) (ok : L → Prop) (laws : LabelLaws ops)
    (claws : ChainLaws ops ok) (stored : L → List Nat) (plaws : ParentLaws ops stored)
    (w : WindfarmResidual) (hw : ProperOutgoingEdges w)
    (hE : ∀ e, e < w.NumberOfEdges → w.EndVertex e < w.NumberOfVertices)
    (hkey : ∀ (s0 : BellmanFord L) (c : Nat → Nat),
      ChainInv ops ok w ((ops.NumberOfIterations w).toNat * w.NumberOfVertices) s0 c →
      ∀ (v e : Nat) (W : List Nat) (x : Nat) (T : List Nat), v < w.NumberOfVertices →
        e ∈ w.OutgoingEdges v → IsRelaxable ops w s0 v e = true →
        List.Chain' (fun a b => chainParent ops w s0 a = some b) (e :: W) →
        (e :: W).Nodup → (x :: T) <:+ (e :: W) →
        chainParent ops w s0 ((x :: T).getLastD 0) = some x →
        ∀ a ∈ x :: T, c a = 0 → ∀ b, chainParent ops w s0 a = some b →
          chainDistance ops w s0 a ≠ ⊤
            ∧ chainDistance ops w s0 b + w.ResidualCostOnEdge b < chainDistance ops w s0 a)
    (s : BellmanFord L) (hs : s.SizedFor w)
    (hcode : (Run ops w s).1 = ReturnCode.SUCCESS) (n : Nat) (walks : List (List Nat))
    (h : (ExtractNegativeClosedWalks ops w n (Run ops w s).2).map Prod.snd = some walks) :
    ∀ walk ∈ walks, walk ≠ [] → NegativeCycleCanceling.CostOfWalk w walk < 0 := by
  obtain ⟨c, hinv⟩ := run_chainInv ops ok laws claws w hw hE s hs hcode
  cases hex : ExtractNegativeClosedWalks ops w n (Run ops w s).2 with
  | none =>
    rw [hex] at h
    exact absurd h (by simp)
  | some r =>
    obtain ⟨s', walks'⟩ := r
    rw [hex] at h
    simp only [Option.map_some', Option.some.injEq] at h
    subst h
    refine extractNegativeClosedWalks_rule ops stored plaws w (outgoing_lt w hw) (Run ops w s).2
      (fun walk => NegativeCycleCanceling.CostOfWalk w walk < 0) ?_ n _ s' walks' rfl
      (run_extractInv ops stored plaws w (outgoing_lt w hw) s hs) hex
    intro s1 s1' v e walk hl hp hsz hm hv hfind hext hne
    have hmem : e ∈ w.OutgoingEdges v := List.mem_of_find?_eq_some hfind
    have hrel : IsRelaxable ops w (Run ops w s).2 v e = true := by
      have h1 := List.find?_some hfind
      rw [Bool.and_eq_true] at h1
      rw [← isRelaxable_congr ops w _ s1 hl]
      exact h1.2
    obtain ⟨W, x, T, hch, hnd, hhead, _, hsuf, hwalk, hclose⟩ :=
      (extractWalk_chain ops stored plaws w s1 e s1' walk hp hsz hm
        (outgoing_lt w hw v e hmem) hext).2 hne
    cases W with
    | nil => exact absurd hhead (by simp)
    | cons e' W =>
      have he' : e' = e := by simpa using hhead
      subst he'
      have hch0 : List.Chain' (fun a b => chainParent ops w (Run ops w s).2 a = some b)
          (e' :: W) :=
        hch.imp fun {a b} hab => by rw [← chainParent_congr ops w _ s1 hl]; exact hab
      have hclose0 : chainParent ops w (Run ops w s).2 ((x :: T).getLastD 0) = some x := by
        rw [← chainParent_congr ops w _ s1 hl]; exact hclose
      rw [hwalk]
      exact cycle_negative ops w _ c hinv.core.flagged x T (hch0.suffix hsuf) hclose0
        (hkey _ c hinv v e' W x T hv hmem hrel hch0 hnd hsuf hclose0)

/-! ## The label with two distances -/

/-- With `TwoDistancesLabel` and its `2 |V| - 1` rounds, the distance of every edge of a
chain of parent edges from an edge that can be relaxed was lowered by a visit. -/
theorem twoDistances_chain_flagged (w : WindfarmResidual) (s0 : BellmanFord TwoDistancesLabel)
    (c : Nat → Nat)
    (hinv : ChainInv twoDistancesLabel TwoDistancesLabel.ordered w
      ((twoDistancesLabel.NumberOfIterations w).toNat * w.NumberOfVertices) s0 c)
    (v e : Nat) (W : List Nat) (hv : v < w.NumberOfVertices) (he : e ∈ w.OutgoingEdges v)
    (hr : IsRelaxable twoDistancesLabel w s0 v e = true)
    (hch : List.Chain' (fun a b => chainParent twoDistancesLabel w s0 a = some b) (e :: W))
    (hnd : (e :: W).Nodup) : ∀ a ∈ e :: W, 1 ≤ c a := by
  have hN : (twoDistancesLabel.NumberOfIterations w).toNat = 2 * w.NumberOfVertices - 1 := by
    show (2 * (w.NumberOfVertices : Int) - 1).toNat = 2 * w.NumberOfVertices - 1
    omega
  rw [hN] at hinv
  have hst := relaxable_stamp twoDistancesLabel _ w s0 c _ hinv (by omega) v e hv he hr
  have hlen := chain_length_le twoDistancesLabel _ twoDistancesLabel_chain
    TwoDistancesLabel.stored twoDistancesLabel_parents 2 twoDistancesLabel_stored_length w s0
    hinv.core.sized.1 e W hch hnd
  have hk : 2 * w.NumberOfVertices * (w.NumberOfVertices - 1) + 2 ≤ c e := by
    obtain ⟨M, hM⟩ : ∃ M, w.NumberOfVertices = M + 1 := ⟨w.NumberOfVertices - 1, by omega⟩
    rw [hM] at hst ⊢
    have e1 : 2 * (M + 1) - 1 - 1 = 2 * M := by omega
    rw [e1] at hst
    have e2 : 2 * (M + 1) * (M + 1 - 1) = 2 * M * (M + 1) := by
      rw [Nat.add_sub_cancel]; ring
    rw [e2]
    omega
  have hall := chain_flagged twoDistancesLabel w s0 c hinv.core.flagged W e
    (2 * w.NumberOfVertices) hch hk
  rw [List.take_of_length_le hlen] at hall
  exact hall

end BellmanFord

end wcp

/-! # The chain of parent edges of the label with one distance -/

namespace wcp

theorem add_lt_of_neg_of_le (a r k : WithTop ℚ) (ha : a < 0) (hr : r ≤ k) (hk : k ≠ ⊤) :
    a + r < k := by
  induction k using WithTop.recTopCoe with
  | top => exact absurd rfl hk
  | coe z =>
    induction r using WithTop.recTopCoe with
    | top => exact absurd (top_le_iff.mp hr) WithTop.coe_ne_top
    | coe y =>
      induction a using WithTop.recTopCoe with
      | top => exact absurd ha (not_lt.mpr le_top)
      | coe x =>
        rw [← WithTop.coe_zero, WithTop.coe_lt_coe] at ha
        rw [WithTop.coe_le_coe] at hr
        rw [← WithTop.coe_add, WithTop.coe_lt_coe]
        linarith

namespace BellmanFord

variable {L : Type}

/-- The parent of an edge whose distance was lowered by a visit has a negative distance:
when the distances of the first `k` edges of a chain of parent edges were lowered by a
visit and the distance of the first edge is negative, the first `k + 1` edges have a
negative distance. -/
theorem chain_negative (ops : LabelType L) (w : WindfarmResidual) (s : BellmanFord L)
    (c : Nat → Nat) (hfl : ∀ e, 1 ≤ c e → ChainLink ops w s c e) :
    ∀ (W : List Nat) (e k : Nat),
      List.Chain' (fun a b => chainParent ops w s a = some b) (e :: W) →
      (∀ a ∈ (e :: W).take k, 1 ≤ c a) → chainDistance ops w s e < 0 →
      ∀ a ∈ (e :: W).take (k + 1), chainDistance ops w s a < 0 := by
  intro W
  induction W with
  | nil =>
    intro e k _ _ hneg a ha
    rw [List.take_succ_cons, List.take_nil, List.mem_singleton] at ha
    subst ha
    exact hneg
  | cons b W ih =>
    intro e k hch hflag hneg a ha
    rw [List.take_succ_cons] at ha
    rcases List.mem_cons.mp ha with hae | hat
    · subst hae
      exact hneg
    · cases k with
      | zero =>
        rw [List.take_zero] at hat
        exact absurd hat (List.not_mem_nil _)
      | succ k =>
        rw [List.chain'_cons] at hch
        rw [List.take_succ_cons] at hflag
        obtain ⟨q, p1, _, _, _, _, _, _, _, p9⟩ := hfl e (hflag e (List.mem_cons_self _ _))
        rw [hch.1] at p1
        simp only [Option.some.injEq] at p1
        subst p1
        exact ih b k hch.2 (fun y hy => hflag y (List.mem_cons_of_mem _ hy)) p9 a hat

/-- With `OneDistanceLabel`, the start vertices of the edges of a chain of parent edges
without repetitions, other than the last edge, are pairwise distinct. -/
theorem oneDistance_starts_nodup (w : WindfarmResidual) (s : BellmanFord OneDistanceLabel)
    (e : Nat) (W : List Nat)
    (hch : List.Chain' (fun a b => chainParent oneDistanceLabel w s a = some b) (e :: W))
    (hnd : (e :: W).Nodup) : ((e :: W).dropLast.map w.StartVertex).Nodup := by
  have h1 := chain_tail_map (chainParent oneDistanceLabel w s) e W hch
  have h2 : (W.map some).Nodup :=
    (List.nodup_cons.mp hnd).2.map (Option.some_injective _)
  rw [h1] at h2
  have h3 : (e :: W).dropLast.map (chainParent oneDistanceLabel w s)
      = ((e :: W).dropLast.map w.StartVertex).map
          fun v => (LabelAt oneDistanceLabel s v).parent := by
    rw [List.map_map]
    rfl
  rw [h3] at h2
  exact h2.of_map _

/-- With `OneDistanceLabel` and its `|V| - 1` rounds, every edge of a chain of parent edges
from an edge that can be relaxed into a cycle of parent edges has a negative distance. -/
theorem oneDistance_chain_negative (w : WindfarmResidual) (hw : ProperOutgoingEdges w)
    (s0 : BellmanFord OneDistanceLabel) (c : Nat → Nat)
    (hinv : ChainInv oneDistanceLabel (fun _ => True) w
      ((oneDistanceLabel.NumberOfIterations w).toNat * w.NumberOfVertices) s0 c)
    (v e : Nat) (W : List Nat) (x : Nat) (hv : v < w.NumberOfVertices)
    (he : e ∈ w.OutgoingEdges v) (hr : IsRelaxable oneDistanceLabel w s0 v e = true)
    (hch : List.Chain' (fun a b => chainParent oneDistanceLabel w s0 a = some b) (e :: W))
    (hnd : (e :: W).Nodup)
    (hclose : chainParent oneDistanceLabel w s0 ((e :: W).getLastD 0) = some x) :
    ∀ a ∈ e :: W, chainDistance oneDistanceLabel w s0 a < 0 := by
  obtain ⟨p1, p2, p3, p4⟩ := hw v hv e he
  have hN : (oneDistanceLabel.NumberOfIterations w).toNat = w.NumberOfVertices - 1 := by
    show ((w.NumberOfVertices : Int) - 1).toNat = w.NumberOfVertices - 1
    omega
  rw [hN] at hinv
  have hst := relaxable_stamp oneDistanceLabel _ w s0 c _ hinv (by omega) v e hv he hr
  obtain ⟨M, hM⟩ : ∃ M, w.NumberOfVertices = M + 2 := ⟨w.NumberOfVertices - 2, by omega⟩
  have hk : M * (w.NumberOfVertices - 1) + 2 ≤ c e := by
    rw [hM] at hst ⊢
    have e1 : M + 2 - 1 - 1 = M := by omega
    have e2 : M + 2 - 1 = M + 1 := by omega
    rw [e1] at hst
    rw [e2]
    have e3 : M * (M + 2) = M * (M + 1) + M := by ring
    rw [e3] at hst
    omega
  have hflag := chain_flagged oneDistanceLabel w s0 c hinv.core.flagged W e M hch hk
  have hneg0 : chainDistance oneDistanceLabel w s0 e < 0 := by
    apply relaxable_negative oneDistanceLabel _ oneDistanceLabel_chain w s0 c hinv.core e p1
    rw [p2]
    exact hr
  have hneg := chain_negative oneDistanceLabel w s0 c hinv.core.flagged W e (M + 1) hch
    hflag hneg0
  rw [show M + 1 + 1 = w.NumberOfVertices by omega] at hneg
  intro a ha
  by_cases hlen : (e :: W).length ≤ w.NumberOfVertices
  · rw [List.take_of_length_le hlen] at hneg
    exact hneg a ha
  · have hnext := chain_forall_next e W x hch hclose
    have hstart : ∀ y ∈ e :: W, w.StartVertex y < w.NumberOfVertices := by
      intro y hy
      obtain ⟨b, hb, _⟩ := hnext y hy
      exact start_lt_of_chainParent oneDistanceLabel _ oneDistanceLabel_chain w s0
        hinv.core.sized.1 y b hb
    have htake : (e :: W).take w.NumberOfVertices
        = (e :: W).dropLast.take w.NumberOfVertices := by
      rw [List.dropLast_eq_take, List.take_take]
      congr 1
      omega
    have hnodup : (((e :: W).take w.NumberOfVertices).map w.StartVertex).Nodup := by
      rw [htake]
      exact (oneDistance_starts_nodup w s0 e W hch hnd).sublist
        ((List.take_sublist _ _).map _)
    have hmem := mem_of_nodup_of_length _ w.NumberOfVertices hnodup
      (by rw [List.length_map, List.length_take]; omega)
      (by
        intro u hu
        obtain ⟨y, hy, rfl⟩ := List.mem_map.mp hu
        exact hstart y (List.mem_of_mem_take hy))
      (w.StartVertex a) (hstart a ha)
    obtain ⟨y, hy, hya⟩ := List.mem_map.mp hmem
    have := hneg y hy
    unfold chainDistance at this ⊢
    rw [← hya]
    exact this

/-- With `OneDistanceLabel`, every edge of the cycle whose distance was last set by
`InitializeLabels` has a finite distance that is greater than the distance of its parent
plus the cost of its parent. -/
theorem oneDistance_cycle_strict (w : WindfarmResidual) (hw : ProperOutgoingEdges w)
    (s0 : BellmanFord OneDistanceLabel) (c : Nat → Nat)
    (hinv : ChainInv oneDistanceLabel (fun _ => True) w
      ((oneDistanceLabel.NumberOfIterations w).toNat * w.NumberOfVertices) s0 c)
    (v e : Nat) (W : List Nat) (x : Nat) (T : List Nat) (hv : v < w.NumberOfVertices)
    (he : e ∈ w.OutgoingEdges v) (hr : IsRelaxable oneDistanceLabel w s0 v e = true)
    (hch : List.Chain' (fun a b => chainParent oneDistanceLabel w s0 a = some b) (e :: W))
    (hnd : (e :: W).Nodup) (hsuf : (x :: T) <:+ (e :: W))
    (hclose : chainParent oneDistanceLabel w s0 ((x :: T).getLastD 0) = some x) :
    ∀ a ∈ x :: T, c a = 0 → ∀ b, chainParent oneDistanceLabel w s0 a = some b →
      chainDistance oneDistanceLabel w s0 a ≠ ⊤
        ∧ chainDistance oneDistanceLabel w s0 b + w.ResidualCostOnEdge b
          < chainDistance oneDistanceLabel w s0 a := by
  have hlast : (e :: W).getLastD 0 = (x :: T).getLastD 0 := by
    rw [List.getLastD_eq_getLast?, List.getLastD_eq_getLast?,
      getLast?_of_suffix _ _ hsuf (List.cons_ne_nil _ _)]
  have hclose' : chainParent oneDistanceLabel w s0 ((e :: W).getLastD 0) = some x := by
    rw [hlast]; exact hclose
  have hneg := oneDistance_chain_negative w hw s0 c hinv v e W x hv he hr hch hnd hclose'
  have hnext := chain_forall_next e W x hch hclose'
  intro a ha hc b hb
  have haW : a ∈ e :: W := hsuf.subset ha
  have hbW : b ∈ e :: W := by
    obtain ⟨b', h1, h2⟩ := hnext a haW
    rw [hb] at h1
    simp only [Option.some.injEq] at h1
    subst h1
    rcases h2 with h2 | h2
    · exact List.mem_cons_of_mem _ h2
    · rw [h2]
      exact hsuf.subset (List.mem_cons_self _ _)
  have hfin : chainDistance oneDistanceLabel w s0 a ≠ ⊤ :=
    ne_of_lt (lt_trans (hneg a haW) (WithTop.coe_lt_top 0))
  exact ⟨hfin, add_lt_of_neg_of_le _ _ _ (hneg b hbW) (hinv.core.unflagged a b hc hb) hfin⟩

end BellmanFord

end wcp

/-! # The walks that `ExtractNegativeClosedWalk` returns have negative cost -/

namespace wcp

/-- With sums of doubles that are exact, as `BellmanFord.Run` and `CostOfWalk` take them
here: on a residual graph each of whose outgoing edges starts at its vertex and ends at
another vertex of the graph, and each of whose edges ends at a vertex of the graph, with
any residual costs: for `OneDistanceLabel`, whose `Run` makes `|V| - 1` rounds, and for
`TwoDistancesLabel`, whose `Run` makes `2 |V| - 1` rounds, every non-empty vector that one
of the calls of `ExtractNegativeClosedWalk` after a `Run` that returned `SUCCESS` returns
has a strictly negative total residual cost, which is the precondition
`CostOfWalk(walk) < 0` of `CancelNegativeWalk`. -/
theorem exact_sums_give_negative_walks (w : WindfarmResidual)
    (hw : ProperOutgoingEdges w)
    (hE : ∀ e, e < w.NumberOfEdges → w.EndVertex e < w.NumberOfVertices) :
    (oneDistanceLabel.NumberOfIterations w = (w.NumberOfVertices : Int) - 1
        ∧ ∀ (s : BellmanFord OneDistanceLabel) (n : Nat) (walks : List (List Nat)),
          s.SizedFor w → (BellmanFord.Run oneDistanceLabel w s).1 = ReturnCode.SUCCESS →
          (BellmanFord.ExtractNegativeClosedWalks oneDistanceLabel w n
            (BellmanFord.Run oneDistanceLabel w s).2).map Prod.snd = some walks →
          ∀ walk ∈ walks, walk ≠ [] → NegativeCycleCanceling.CostOfWalk w walk < 0)
      ∧ (twoDistancesLabel.NumberOfIterations w = 2 * (w.NumberOfVertices : Int) - 1
        ∧ ∀ (s : BellmanFord TwoDistancesLabel) (n : Nat) (walks : List (List Nat)),
          s.SizedFor w → (BellmanFord.Run twoDistancesLabel w s).1 = ReturnCode.SUCCESS →
          (BellmanFord.ExtractNegativeClosedWalks twoDistancesLabel w n
            (BellmanFord.Run twoDistancesLabel w s).2).map Prod.snd = some walks →
          ∀ walk ∈ walks, walk ≠ [] → NegativeCycleCanceling.CostOfWalk w walk < 0) :=
  ⟨⟨rfl, fun s n walks hs hcode h =>
      BellmanFord.extracted_walks_negative_of oneDistanceLabel _ oneDistanceLabel_laws
        oneDistanceLabel_chain OneDistanceLabel.stored oneDistanceLabel_parents w hw hE
        (fun s0 c hinv v e W x T hv he hr hch hnd hsuf hclose =>
          BellmanFord.oneDistance_cycle_strict w hw s0 c hinv v e W x T hv he hr hch hnd hsuf
            hclose)
        s hs hcode n walks h⟩,
    ⟨rfl, fun s n walks hs hcode h =>
      BellmanFord.extracted_walks_negative_of twoDistancesLabel _ twoDistancesLabel_laws
        twoDistancesLabel_chain TwoDistancesLabel.stored twoDistancesLabel_parents w hw hE
        (fun s0 c hinv v e W x T hv he hr hch hnd hsuf _ a ha hc =>
          absurd hc (by
            have := BellmanFord.twoDistances_chain_flagged w s0 c hinv v e W hv he hr hch hnd a
              (hsuf.subset ha)
            omega))
        s hs hcode n walks h⟩⟩

/-- Scenario S1 with the residual costs `-2, 1, -1, 0`, whose sums are exact.  The standard
Bellman-Ford returns `SUCCESS` after its two rounds, and the first call of
`ExtractNegativeClosedWalk` returns the walk `2, 3` of cost `-1`. -/
theorem exact_sums_give_negative_walks_on_pair :
    ProperOutgoingEdges (pairGraph [0, 0] [-2, 1, -1, 0])
      ∧ (∀ e, e < (pairGraph [0, 0] [-2, 1, -1, 0]).NumberOfEdges →
          (pairGraph [0, 0] [-2, 1, -1, 0]).EndVertex e
            < (pairGraph [0, 0] [-2, 1, -1, 0]).NumberOfVertices)
      ∧ (BellmanFord.create oneDistanceLabel (pairGraph [0, 0] [-2, 1, -1, 0])).SizedFor
          (pairGraph [0, 0] [-2, 1, -1, 0])
      ∧ (BellmanFord.Run oneDistanceLabel (pairGraph [0, 0] [-2, 1, -1, 0])
          (BellmanFord.create oneDistanceLabel (pairGraph [0, 0] [-2, 1, -1, 0]))).1
        = ReturnCode.SUCCESS
      ∧ (BellmanFord.ExtractNegativeClosedWalks oneDistanceLabel (pairGraph [0, 0] [-2, 1, -1, 0])
          1 (BellmanFord.Run oneDistanceLabel (pairGraph [0, 0] [-2, 1, -1, 0])
            (BellmanFord.create oneDistanceLabel (pairGraph [0, 0] [-2, 1, -1, 0]))).2).map
            Prod.snd = some [[2, 3]]
      ∧ NegativeCycleCanceling.CostOfWalk (pairGraph [0, 0] [-2, 1, -1, 0]) [2, 3] < 0 :=
  have hE : ∀ e, e < (pairGraph [0, 0] [-2, 1, -1, 0]).NumberOfEdges →
      (pairGraph [0, 0] [-2, 1, -1, 0]).EndVertex e
        < (pairGraph [0, 0] [-2, 1, -1, 0]).NumberOfVertices := by
    intro e he
    have he' : e < 4 := he
    interval_cases e <;> decide
  ⟨pairGraph_proper _ _, hE, ⟨rfl, rfl, rfl⟩,
    by with_unfolding_all decide, by with_unfolding_all decide,
    (exact_sums_give_negative_walks (pairGraph [0, 0] [-2, 1, -1, 0])
      (pairGraph_proper _ _) hE).1.2
      (BellmanFord.create oneDistanceLabel (pairGraph [0, 0] [-2, 1, -1, 0])) 1 [[2, 3]]
      ⟨rfl, rfl, rfl⟩ (by with_unfolding_all decide) (by with_unfolding_all decide) [2, 3]
      (by simp) (by simp)⟩

end wcp

/-! # The residual costs of `ResidualCostComputerFreeSatisfiedEdges` -/

namespace wcp

namespace ResidualCostComputerFreeSatisfiedEdges

open StandardResidualCostComputer

/-- Invariant of the loop of `ComputeResidualCosts` before the edge `k`, with `w1` the
residual graph after `ComputeStandardResidualCosts`. -/
theorem markSaturated_inv (w1 : WindfarmResidual) (flags : List Bool)
    (hr : w1.residualCosts.length = w1.NumberOfEdges) (hf : flags.length = w1.NumberOfEdges)
    (n : Nat) (hn : n ≤ w1.NumberOfEdges) :
    ∀ k, k ≤ n →
      ((List.range k).foldl markSaturated (w1, flags)).1
          = { w1 with
              residualCosts := ((List.range k).foldl markSaturated (w1, flags)).1.residualCosts }
        ∧ ((List.range k).foldl markSaturated (w1, flags)).1.residualCosts.length
            = w1.NumberOfEdges
        ∧ ((List.range k).foldl markSaturated (w1, flags)).2.length = w1.NumberOfEdges
        ∧ (∀ e, e < k →
            (w1.FlowOnEdge e ≠ 0 ∧ 0 < w1.ResidualCostOnEdge e ∧ w1.ResidualCostOnEdge e < ⊤ →
              ((List.range k).foldl markSaturated (w1, flags)).1.ResidualCostOnEdge e = 0
                ∧ ((List.range k).foldl markSaturated (w1, flags)).2.getD e false = true)
            ∧ (¬(w1.FlowOnEdge e ≠ 0 ∧ 0 < w1.ResidualCostOnEdge e
                  ∧ w1.ResidualCostOnEdge e < ⊤) →
              ((List.range k).foldl markSaturated (w1, flags)).1.ResidualCostOnEdge e
                  = w1.ResidualCostOnEdge e
                ∧ ((List.range k).foldl markSaturated (w1, flags)).2.getD e false = false))
        ∧ (∀ e, k ≤ e →
            ((List.range k).foldl markSaturated (w1, flags)).1.ResidualCostOnEdge e
                = w1.ResidualCostOnEdge e
              ∧ ((List.range k).foldl markSaturated (w1, flags)).2.getD e false
                = flags.getD e false) := by
  apply WindfarmResidual.foldl_range_inv
    (fun k (st : WindfarmResidual × List Bool) =>
      st.1 = { w1 with residualCosts := st.1.residualCosts }
        ∧ st.1.residualCosts.length = w1.NumberOfEdges
        ∧ st.2.length = w1.NumberOfEdges
        ∧ (∀ e, e < k →
            (w1.FlowOnEdge e ≠ 0 ∧ 0 < w1.ResidualCostOnEdge e ∧ w1.ResidualCostOnEdge e < ⊤ →
              st.1.ResidualCostOnEdge e = 0 ∧ st.2.getD e false = true)
            ∧ (¬(w1.FlowOnEdge e ≠ 0 ∧ 0 < w1.ResidualCostOnEdge e
                  ∧ w1.ResidualCostOnEdge e < ⊤) →
              st.1.ResidualCostOnEdge e = w1.ResidualCostOnEdge e
                ∧ st.2.getD e false = false))
        ∧ (∀ e, k ≤ e →
            st.1.ResidualCostOnEdge e = w1.ResidualCostOnEdge e
              ∧ st.2.getD e false = flags.getD e false))
    markSaturated (w1, flags) n
  · exact ⟨rfl, hr, hf, fun e he => absurd he (Nat.not_lt_zero e), fun e _ => ⟨rfl, rfl⟩⟩
  · rintro k ⟨w2, fl⟩ hk ⟨h1, h2, h3, h4, h5⟩
    dsimp only at h1 h2 h3 h4 h5
    have hflow : w2.FlowOnEdge k = w1.FlowOnEdge k := by
      rw [h1]
      rfl
    have hcost : w2.ResidualCostOnEdge k = w1.ResidualCostOnEdge k := (h5 k le_rfl).1
    have hk2 : k < w2.residualCosts.length := by
      have : w2.residualCosts.length = w1.NumberOfEdges := h2
      omega
    have hk3 : k < fl.length := by
      have : fl.length = w1.NumberOfEdges := h3
      omega
    by_cases hsat : w1.FlowOnEdge k ≠ 0 ∧ 0 < w1.ResidualCostOnEdge k
        ∧ w1.ResidualCostOnEdge k < ⊤
    · have hstep : markSaturated (w2, fl) k = (w2.setResidualCostOnEdge k 0, fl.set k true) := by
        unfold markSaturated
        rw [if_pos]
        show w2.FlowOnEdge k ≠ 0 ∧ w2.ResidualCostOnEdge k > 0 ∧ w2.ResidualCostOnEdge k < ⊤
        rw [hflow, hcost]
        exact hsat
      rw [hstep]
      refine ⟨?_, ?_, ?_, ?_, ?_⟩
      · show w2.setResidualCostOnEdge k 0 = _
        unfold WindfarmResidual.setResidualCostOnEdge
        rw [h1]
      · show (w2.residualCosts.set k 0).length = _
        rw [List.length_set]
        exact h2
      · show (fl.set k true).length = _
        rw [List.length_set]
        exact h3
      · intro e he
        by_cases hek : e = k
        · subst hek
          constructor
          · intro _
            constructor
            · show (w2.residualCosts.set e 0).getD e 0 = 0
              rw [getD_set_eq, if_pos rfl, if_pos hk2]
            · show (fl.set e true).getD e false = true
              rw [getD_set_eq, if_pos rfl, if_pos hk3]
          · intro hno
            exact absurd hsat hno
        · have he' : e < k := by omega
          have hc : (w2.setResidualCostOnEdge k 0).ResidualCostOnEdge e
              = w2.ResidualCostOnEdge e := by
            show (w2.residualCosts.set k 0).getD e 0 = w2.residualCosts.getD e 0
            rw [getD_set_eq, if_neg (Ne.symm hek)]
          have hfl : (fl.set k true).getD e false = fl.getD e false := by
            rw [getD_set_eq, if_neg (Ne.symm hek)]
          show (_ → (w2.setResidualCostOnEdge k 0).ResidualCostOnEdge e = 0
              ∧ (fl.set k true).getD e false = true)
            ∧ (_ → (w2.setResidualCostOnEdge k 0).ResidualCostOnEdge e = _
              ∧ (fl.set k true).getD e false = false)
          rw [hc, hfl]
          exact h4 e he'
      · intro e he
        have hek : k ≠ e := by omega
        show (w2.residualCosts.set k 0).getD e 0 = _ ∧ (fl.set k true).getD e false = _
        rw [getD_set_eq, if_neg hek, getD_set_eq, if_neg hek]
        exact h5 e (by omega)
    · have hstep : markSaturated (w2, fl) k = (w2, fl.set k false) := by
        unfold markSaturated
        rw [if_neg]
        show ¬(w2.FlowOnEdge k ≠ 0 ∧ w2.ResidualCostOnEdge k > 0 ∧ w2.ResidualCostOnEdge k < ⊤)
        rw [hflow, hcost]
        exact hsat
      rw [hstep]
      refine ⟨h1, h2, ?_, ?_, ?_⟩
      · show (fl.set k false).length = _
        rw [List.length_set]
        exact h3
      · intro e he
        by_cases hek : e = k
        · subst hek
          constructor
          · intro hyes
            exact absurd hyes hsat
          · intro _
            constructor
            · exact hcost
            · show (fl.set e false).getD e false = false
              rw [getD_set_eq, if_pos rfl, if_pos hk3]
        · have he' : e < k := by omega
          have hfl : (fl.set k false).getD e false = fl.getD e false := by
            rw [getD_set_eq, if_neg (Ne.symm hek)]
          show (_ → w2.ResidualCostOnEdge e = 0 ∧ (fl.set k false).getD e false = true)
            ∧ (_ → w2.ResidualCostOnEdge e = _ ∧ (fl.set k false).getD e false = false)
          rw [hfl]
          exact h4 e he'
      · intro e he
        have hek : k ≠ e := by omega
        show w2.ResidualCostOnEdge e = _ ∧ (fl.set k false).getD e false = _
        rw [getD_set_eq, if_neg hek]
        exact h5 e (by omega)

end ResidualCostComputerFreeSatisfiedEdges

/-- C36: let the vectors of the residual costs and of the marks have one entry for every
edge, and let the edges of the original range, `0 ≤ e < 2 * NumberOfOriginalEdges()`, be
edges of the graph.  After `ResidualCostComputerFreeSatisfiedEdges::ComputeResidualCosts(Δ)`
an edge `e` of the original range is marked as saturated and has the residual cost `0` if
and only if `flow(e) ≠ 0` and its standard residual cost for `Δ` is positive and finite,
and an edge of the original range for which this is not so has its standard residual cost
and is not marked; an edge outside the original range has its standard residual cost and
keeps its mark, which is `false` after the constructor; and the flow is as before. -/
theorem free_satisfied_edges_are_free (w : WindfarmResidual) (isSaturatedEdge : List Bool)
    (changeOfFlow : Int) (hr : w.residualCosts.length = w.NumberOfEdges)
    (hf : isSaturatedEdge.length = w.NumberOfEdges)
    (hn : 2 * w.NumberOfOriginalEdges ≤ w.NumberOfEdges) :
    (∀ e, e < 2 * w.NumberOfOriginalEdges →
        ((((ResidualCostComputerFreeSatisfiedEdges.ComputeResidualCosts w isSaturatedEdge
                changeOfFlow).2.getD e false = true
            ∧ (ResidualCostComputerFreeSatisfiedEdges.ComputeResidualCosts w isSaturatedEdge
                changeOfFlow).1.ResidualCostOnEdge e = 0)
          ↔ ResidualCostComputerFreeSatisfiedEdges.IsSaturated w changeOfFlow e)
        ∧ (¬ResidualCostComputerFreeSatisfiedEdges.IsSaturated w changeOfFlow e →
            (ResidualCostComputerFreeSatisfiedEdges.ComputeResidualCosts w isSaturatedEdge
                changeOfFlow).1.ResidualCostOnEdge e
              = StandardResidualCostComputer.ResidualCosts w e changeOfFlow
            ∧ (ResidualCostComputerFreeSatisfiedEdges.ComputeResidualCosts w isSaturatedEdge
                changeOfFlow).2.getD e false = false)))
      ∧ (∀ e, 2 * w.NumberOfOriginalEdges ≤ e → e < w.NumberOfEdges →
          (ResidualCostComputerFreeSatisfiedEdges.ComputeResidualCosts w isSaturatedEdge
              changeOfFlow).1.ResidualCostOnEdge e
            = StandardResidualCostComputer.ResidualCosts w e changeOfFlow
          ∧ (ResidualCostComputerFreeSatisfiedEdges.ComputeResidualCosts w isSaturatedEdge
              changeOfFlow).2.getD e false = isSaturatedEdge.getD e false)
      ∧ (∀ e, (ResidualCostComputerFreeSatisfiedEdges.create w).getD e false = false)
      ∧ (ResidualCostComputerFreeSatisfiedEdges.ComputeResidualCosts w isSaturatedEdge
          changeOfFlow).1.flowValues = w.flowValues := by
  obtain ⟨s1, s2, s3⟩ :=
    StandardResidualCostComputer.ComputeStandardResidualCosts_spec w changeOfFlow
  have hNE : (StandardResidualCostComputer.ComputeStandardResidualCosts w changeOfFlow).NumberOfEdges
      = w.NumberOfEdges := by
    rw [s1]
    rfl
  have hNOE : (StandardResidualCostComputer.ComputeStandardResidualCosts w
      changeOfFlow).NumberOfOriginalEdges = w.NumberOfOriginalEdges := by
    rw [s1]
    rfl
  have hflow : ∀ e, (StandardResidualCostComputer.ComputeStandardResidualCosts w
      changeOfFlow).FlowOnEdge e = w.FlowOnEdge e := by
    intro e
    rw [s1]
    rfl
  have hstd : ∀ e, e < w.NumberOfEdges →
      (StandardResidualCostComputer.ComputeStandardResidualCosts w
        changeOfFlow).ResidualCostOnEdge e
        = StandardResidualCostComputer.ResidualCosts w e changeOfFlow :=
    fun e he => s3 e he (by omega)
  obtain ⟨k1, _, _, k4, k5⟩ :=
    ResidualCostComputerFreeSatisfiedEdges.markSaturated_inv
      (StandardResidualCostComputer.ComputeStandardResidualCosts w changeOfFlow) isSaturatedEdge
      (by rw [s2, hNE]; exact hr) (by rw [hNE]; exact hf) (2 * w.NumberOfOriginalEdges)
      (by rw [hNE]; exact hn) (2 * w.NumberOfOriginalEdges) le_rfl
  have hsat : ∀ e, e < w.NumberOfEdges →
      (((StandardResidualCostComputer.ComputeStandardResidualCosts w changeOfFlow).FlowOnEdge e
            ≠ 0
          ∧ 0 < (StandardResidualCostComputer.ComputeStandardResidualCosts w
              changeOfFlow).ResidualCostOnEdge e
          ∧ (StandardResidualCostComputer.ComputeStandardResidualCosts w
              changeOfFlow).ResidualCostOnEdge e < ⊤)
        ↔ ResidualCostComputerFreeSatisfiedEdges.IsSaturated w changeOfFlow e) := by
    intro e he
    unfold ResidualCostComputerFreeSatisfiedEdges.IsSaturated
    rw [hflow, hstd e he]
  unfold ResidualCostComputerFreeSatisfiedEdges.ComputeResidualCosts
  refine ⟨?_, ?_, ?_, ?_⟩
  · intro e he
    have heN : e < w.NumberOfEdges := by omega
    obtain ⟨a1, a2⟩ := k4 e he
    by_cases hs : ResidualCostComputerFreeSatisfiedEdges.IsSaturated w changeOfFlow e
    · obtain ⟨b1, b2⟩ := a1 ((hsat e heN).2 hs)
      exact ⟨⟨fun _ => hs, fun _ => ⟨b2, b1⟩⟩, fun hno => absurd hs hno⟩
    · obtain ⟨b1, b2⟩ := a2 (fun h => hs ((hsat e heN).1 h))
      refine ⟨⟨fun h => ?_, fun h => absurd h hs⟩, fun _ => ⟨?_, b2⟩⟩
      · rw [b2] at h
        exact absurd h.1 (by simp)
      · rw [b1, hstd e heN]
  · intro e he heN
    obtain ⟨b1, b2⟩ := k5 e he
    exact ⟨by rw [b1, hstd e heN], b2⟩
  · intro e
    unfold ResidualCostComputerFreeSatisfiedEdges.create
    rw [getD_replicate_eq]
    split_ifs <;> rfl
  · rw [k1]
    show (StandardResidualCostComputer.ComputeStandardResidualCosts w changeOfFlow).flowValues = _
    exact StandardResidualCostComputer.ComputeStandardResidualCosts_flowValues w changeOfFlow

/-- Witness of C36: the triangle with the flow `[1, 1, 0, 2]` and `Δ = 5`.  The edges
`0` and `1` carry one unit and five more units need the next cable type, at the standard
residual cost `50`: they are marked and get the cost `0`; the edge `2` without flow keeps
its standard residual cost `20`. -/
theorem free_satisfied_edges_are_free_witness :
    (ResidualCostComputerFreeSatisfiedEdges.ComputeResidualCosts
        (triangleGraph [1, 1, 0, 2] [0, 0, 0, 0, 0, 0, 0, 0])
        (ResidualCostComputerFreeSatisfiedEdges.create
          (triangleGraph [1, 1, 0, 2] [0, 0, 0, 0, 0, 0, 0, 0])) 5).2
        = [true, true, false, false, false, false, false, false]
      ∧ (ResidualCostComputerFreeSatisfiedEdges.ComputeResidualCosts
          (triangleGraph [1, 1, 0, 2] [0, 0, 0, 0, 0, 0, 0, 0])
          (ResidualCostComputerFreeSatisfiedEdges.create
            (triangleGraph [1, 1, 0, 2] [0, 0, 0, 0, 0, 0, 0, 0])) 5).1.residualCosts
        = [0, 0, 20, ⊤, ⊤, 20, ⊤, ⊤]
      ∧ (StandardResidualCostComputer.ComputeStandardResidualCosts
          (triangleGraph [1, 1, 0, 2] [0, 0, 0, 0, 0, 0, 0, 0]) 5).residualCosts
        = [50, 50, 20, ⊤, ⊤, 20, ⊤, ⊤]
      ∧ ResidualCostComputerFreeSatisfiedEdges.IsSaturated
          (triangleGraph [1, 1, 0, 2] [0, 0, 0, 0, 0, 0, 0, 0]) 5 0
      ∧ ¬ResidualCostComputerFreeSatisfiedEdges.IsSaturated
          (triangleGraph [1, 1, 0, 2] [0, 0, 0, 0, 0, 0, 0, 0]) 5 2 :=
  have k := free_satisfied_edges_are_free (triangleGraph [1, 1, 0, 2] [0, 0, 0, 0, 0, 0, 0, 0])
    (ResidualCostComputerFreeSatisfiedEdges.create
      (triangleGraph [1, 1, 0, 2] [0, 0, 0, 0, 0, 0, 0, 0])) 5 rfl rfl (by decide)
  ⟨by with_unfolding_all decide, by with_unfolding_all rfl, by with_unfolding_all rfl,
    ((k.1 0 (by decide)).1).1 ⟨by with_unfolding_all decide, by with_unfolding_all rfl⟩,
    fun h => absurd (((k.1 2 (by decide)).1).2 h).1 (by with_unfolding_all decide)⟩

end wcp

/-! # The residual costs of `ResidualCostComputerWithAdaptedEdges` -/

namespace wcp

namespace ResidualCostComputerWithAdaptedEdges

open StandardResidualCostComputer

theorem residualCostForNonSupersubstationEdge_congr (w w' : WindfarmResidual) (e v : Nat)
    (delta : Int) (c : Cabletypes) (h : w' = { w with residualCosts := w'.residualCosts }) :
    ResidualCostForNonSupersubstationEdge w' e v delta c
      = ResidualCostForNonSupersubstationEdge w e v delta c := by
  rw [h]
  rfl

/-- The loop of `ApplyContentOfSpecialResidualCostCollection` over the entries `coll`, from
a state `w'` of the residual costs of `w`: the cost of an edge is the one of its last entry,
and the cost before the loop when it has no entry. -/
theorem apply_spec (w : WindfarmResidual) (delta : Int) :
    ∀ (coll : List SpecialResidualCost) (w' : WindfarmResidual),
      w' = { w with residualCosts := w'.residualCosts } →
      (ApplyContentOfSpecialResidualCostCollection w' coll delta)
          = { w with
              residualCosts :=
                (ApplyContentOfSpecialResidualCostCollection w' coll delta).residualCosts }
        ∧ (ApplyContentOfSpecialResidualCostCollection w' coll delta).residualCosts.length
            = w'.residualCosts.length
        ∧ ∀ e, e < w'.residualCosts.length →
            ((coll.filter fun t => decide (t.edgeWithSpecialCosts = e)).getLast? = none →
              (ApplyContentOfSpecialResidualCostCollection w' coll delta).ResidualCostOnEdge e
                = w'.ResidualCostOnEdge e)
            ∧ ∀ t, (coll.filter fun t => decide (t.edgeWithSpecialCosts = e)).getLast? = some t →
              (ApplyContentOfSpecialResidualCostCollection w' coll delta).ResidualCostOnEdge e
                = ResidualCostForNonSupersubstationEdge w e (w.StartVertex e) delta t.cables := by
  intro coll
  induction coll with
  | nil =>
    intro w' hw'
    refine ⟨hw', rfl, fun e _ => ⟨fun _ => rfl, fun t ht => ?_⟩⟩
    simp at ht
  | cons t coll ih =>
    intro w' hw'
    have hstep : w'.setResidualCostOnEdge t.edgeWithSpecialCosts
        (ResidualCostForNonSupersubstationEdge w' t.edgeWithSpecialCosts
          (w'.StartVertex t.edgeWithSpecialCosts) delta t.cables)
        = { w with
            residualCosts :=
              (w'.setResidualCostOnEdge t.edgeWithSpecialCosts
                (ResidualCostForNonSupersubstationEdge w' t.edgeWithSpecialCosts
                  (w'.StartVertex t.edgeWithSpecialCosts) delta t.cables)).residualCosts } := by
      unfold WindfarmResidual.setResidualCostOnEdge
      rw [hw']
    have hval : ResidualCostForNonSupersubstationEdge w' t.edgeWithSpecialCosts
        (w'.StartVertex t.edgeWithSpecialCosts) delta t.cables
        = ResidualCostForNonSupersubstationEdge w t.edgeWithSpecialCosts
          (w.StartVertex t.edgeWithSpecialCosts) delta t.cables := by
      rw [residualCostForNonSupersubstationEdge_congr w w' _ _ _ _ hw']
      congr 1
      rw [hw']
      rfl
    obtain ⟨i1, i2, i3⟩ := ih _ hstep
    have hlen : (w'.setResidualCostOnEdge t.edgeWithSpecialCosts
        (ResidualCostForNonSupersubstationEdge w' t.edgeWithSpecialCosts
          (w'.StartVertex t.edgeWithSpecialCosts) delta t.cables)).residualCosts.length
        = w'.residualCosts.length := by
      show (w'.residualCosts.set _ _).length = _
      rw [List.length_set]
    have hunf : ApplyContentOfSpecialResidualCostCollection w' (t :: coll) delta
        = ApplyContentOfSpecialResidualCostCollection
            (w'.setResidualCostOnEdge t.edgeWithSpecialCosts
              (ResidualCostForNonSupersubstationEdge w' t.edgeWithSpecialCosts
                (w'.StartVertex t.edgeWithSpecialCosts) delta t.cables)) coll delta := rfl
    rw [hunf]
    refine ⟨i1, by rw [i2, hlen], ?_⟩
    intro e he
    obtain ⟨j1, j2⟩ := i3 e (by rw [hlen]; exact he)
    have hget : (w'.setResidualCostOnEdge t.edgeWithSpecialCosts
        (ResidualCostForNonSupersubstationEdge w' t.edgeWithSpecialCosts
          (w'.StartVertex t.edgeWithSpecialCosts) delta t.cables)).ResidualCostOnEdge e
        = if t.edgeWithSpecialCosts = e then
            ResidualCostForNonSupersubstationEdge w e (w.StartVertex e) delta t.cables
          else w'.ResidualCostOnEdge e := by
      show (w'.residualCosts.set _ _).getD e 0 = _
      rw [getD_set_eq]
      by_cases hte : t.edgeWithSpecialCosts = e
      · rw [if_pos hte, if_pos hte, if_pos (by rw [hte]; exact he), hval, hte]
      · rw [if_neg hte, if_neg hte]
        rfl
    by_cases hte : t.edgeWithSpecialCosts = e
    · have hfil : ((t :: coll).filter fun t => decide (t.edgeWithSpecialCosts = e))
          = t :: coll.filter fun t => decide (t.edgeWithSpecialCosts = e) := by
        rw [List.filter_cons_of_pos (by simpa using hte)]
      rw [hfil]
      constructor
      · intro hnone
        simp at hnone
      · intro t' ht'
        cases hl : (coll.filter fun t => decide (t.edgeWithSpecialCosts = e)).getLast? with
        | none =>
          have hnil : (coll.filter fun t => decide (t.edgeWithSpecialCosts = e)) = [] :=
            List.getLast?_eq_none_iff.mp hl
          rw [hnil] at ht'
          have htt : t = t' := by simpa using ht'
          rw [j1 hl, hget, if_pos hte, htt]
        | some t'' =>
          have hne : (coll.filter fun t => decide (t.edgeWithSpecialCosts = e)) ≠ [] := by
            intro hnil
            rw [hnil] at hl
            simp at hl
          have hlast : (t :: coll.filter fun t => decide (t.edgeWithSpecialCosts = e)).getLast?
              = (coll.filter fun t => decide (t.edgeWithSpecialCosts = e)).getLast? := by
            obtain ⟨y, ys, hy⟩ := List.exists_cons_of_ne_nil hne
            rw [hy, List.getLast?_cons_cons]
          rw [hlast] at ht'
          exact j2 t' ht'
    · have hfil : ((t :: coll).filter fun t => decide (t.edgeWithSpecialCosts = e))
          = coll.filter fun t => decide (t.edgeWithSpecialCosts = e) := by
        rw [List.filter_cons_of_neg (by simpa using hte)]
      rw [hfil]
      constructor
      · intro hnone
        rw [j1 hnone, hget, if_neg hte]
      · exact j2

end ResidualCostComputerWithAdaptedEdges

/-- C37: let the vector of the residual costs have one entry for every edge.  After
`ResidualCostComputerWithAdaptedEdges::ComputeResidualCosts(Δ)` an edge `e` of the graph
that no entry of the collection names has its standard residual cost, and an edge that an
entry names has the value of `ResidualCostForNonSupersubstationEdge` for `Δ` with the cable
types of the last entry that names it; the flow is as before. -/
theorem adapted_edges_take_last_entry (w : WindfarmResidual)
    (desiredResidualCosts : List SpecialResidualCost) (changeOfFlow : Int)
    (hr : w.residualCosts.length = w.NumberOfEdges) :
    (∀ e, e < w.NumberOfEdges →
        ((∀ t ∈ desiredResidualCosts, t.edgeWithSpecialCosts ≠ e) →
          (ResidualCostComputerWithAdaptedEdges.ComputeResidualCosts w desiredResidualCosts
              changeOfFlow).ResidualCostOnEdge e
            = StandardResidualCostComputer.ResidualCosts w e changeOfFlow)
        ∧ ∀ t, (desiredResidualCosts.filter fun t =>
              decide (t.edgeWithSpecialCosts = e)).getLast? = some t →
            (ResidualCostComputerWithAdaptedEdges.ComputeResidualCosts w desiredResidualCosts
                changeOfFlow).ResidualCostOnEdge e
              = StandardResidualCostComputer.ResidualCostForNonSupersubstationEdge w e
                  (w.StartVertex e) changeOfFlow t.cables)
      ∧ (ResidualCostComputerWithAdaptedEdges.ComputeResidualCosts w desiredResidualCosts
          changeOfFlow).flowValues = w.flowValues := by
  obtain ⟨s1, s2, s3⟩ :=
    StandardResidualCostComputer.ComputeStandardResidualCosts_spec w changeOfFlow
  obtain ⟨a1, _, a3⟩ :=
    ResidualCostComputerWithAdaptedEdges.apply_spec w changeOfFlow desiredResidualCosts
      (StandardResidualCostComputer.ComputeStandardResidualCosts w changeOfFlow) s1
  unfold ResidualCostComputerWithAdaptedEdges.ComputeResidualCosts
  refine ⟨fun e he => ?_, by rw [a1]⟩
  obtain ⟨b1, b2⟩ := a3 e (by rw [s2, hr]; exact he)
  refine ⟨fun hno => ?_, b2⟩
  rw [b1, s3 e he (by rw [hr]; exact he)]
  rw [List.getLast?_eq_none_iff, List.filter_eq_nil_iff]
  intro t ht
  simpa using hno t ht

/-- Witness of C37: the triangle with the flow `[1, 1, 0, 2]`, `Δ = 5` and two entries for
the edge `0`, the first with the cable types of the instance and the second with cable
types that are free.  The edge `0` gets the cost `0` of the second entry, and the edge `1`,
which no entry names, its standard residual cost `50`. -/
theorem adapted_edges_take_last_entry_witness :
    Cabletypes.ofExpanded (List.replicate 31 0) = some freeCabletypes
      ∧ (ResidualCostComputerWithAdaptedEdges.ComputeResidualCosts
          (triangleGraph [1, 1, 0, 2] [0, 0, 0, 0, 0, 0, 0, 0])
          [⟨0, defaultCabletypes⟩, ⟨0, freeCabletypes⟩] 5).residualCosts
        = [0, 50, 20, ⊤, ⊤, 20, ⊤, ⊤]
      ∧ (ResidualCostComputerWithAdaptedEdges.ComputeResidualCosts
          (triangleGraph [1, 1, 0, 2] [0, 0, 0, 0, 0, 0, 0, 0])
          [⟨0, defaultCabletypes⟩, ⟨0, freeCabletypes⟩] 5).ResidualCostOnEdge 0
        = StandardResidualCostComputer.ResidualCostForNonSupersubstationEdge
            (triangleGraph [1, 1, 0, 2] [0, 0, 0, 0, 0, 0, 0, 0]) 0
            ((triangleGraph [1, 1, 0, 2] [0, 0, 0, 0, 0, 0, 0, 0]).StartVertex 0) 5 freeCabletypes
      ∧ (ResidualCostComputerWithAdaptedEdges.ComputeResidualCosts
          (triangleGraph [1, 1, 0, 2] [0, 0, 0, 0, 0, 0, 0, 0])
          [⟨0, defaultCabletypes⟩, ⟨0, freeCabletypes⟩] 5).ResidualCostOnEdge 1
        = StandardResidualCostComputer.ResidualCosts
            (triangleGraph [1, 1, 0, 2] [0, 0, 0, 0, 0, 0, 0, 0]) 1 5 :=
  have k := adapted_edges_take_last_entry (triangleGraph [1, 1, 0, 2] [0, 0, 0, 0, 0, 0, 0, 0])
    [⟨0, defaultCabletypes⟩, ⟨0, freeCabletypes⟩] 5 rfl
  ⟨by decide, by with_unfolding_all rfl, (k.1 0 (by decide)).2 ⟨0, freeCabletypes⟩ rfl,
    (k.1 1 (by decide)).1 (by
      intro t ht
      simp only [List.mem_cons, List.mem_singleton, List.not_mem_nil, or_false] at ht
      rcases ht with h | h <;> rw [h] <;> decide)⟩

end wcp

/-! # The shorter edge of a leaf turbine (`EscapingLeaves::FindShortestOutgoingEdgeWithoutFlow`) -/

namespace wcp

/-- A loop that overwrites its result with every element that passes a test ends with the
last element that passes the test. -/
theorem foldl_overwrite {α : Type} (p : α → Bool) : ∀ (l : List α) (init : Option α),
    l.foldl (fun acc x => if p x = true then some x else acc) init
      = ((l.filter p).getLast?).or init := by
  intro l
  induction l with
  | nil =>
    intro init
    rfl
  | cons x l ih =>
    intro init
    rw [List.foldl_cons, ih]
    by_cases hp : p x = true
    · rw [if_pos hp, List.filter_cons_of_pos hp]
      cases hl : l.filter p with
      | nil => rfl
      | cons y ys =>
        rw [List.getLast?_cons_cons]
        cases hg : (y :: ys).getLast? with
        | none => exact absurd (List.getLast?_eq_none_iff.mp hg) (List.cons_ne_nil _ _)
        | some z => rfl
    · rw [if_neg hp, List.filter_cons_of_neg hp]

theorem fork_ofInstance :
    WindfarmResidual.ofInstance forkInstance
      = some (forkGraph [0, 0, 0, 0, 0, 0] [0, 0, 0, 0, 0, 0, 0, 0, 0, 0, 0, 0]) := by
  rfl

namespace EscapingLeaves

/-- The value of `FindShortestOutgoingEdgeWithoutFlow`: the last outgoing edge, in the order
of the adjacency list, that is not `edgeWithFlow` and is strictly shorter than it. -/
theorem findShortest_eq (w : WindfarmResidual) (vertex edgeWithFlow : Nat) :
    FindShortestOutgoingEdgeWithoutFlow w vertex edgeWithFlow
      = ((w.OutgoingEdges vertex).filter fun e =>
          decide (e ≠ edgeWithFlow ∧ w.Length e < w.Length edgeWithFlow)).getLast? := by
  unfold FindShortestOutgoingEdgeWithoutFlow
  have h := foldl_overwrite
    (fun e => decide (e ≠ edgeWithFlow ∧ w.Length e < w.Length edgeWithFlow))
    (w.OutgoingEdges vertex) none
  simp only [decide_eq_true_eq, Option.or_none] at h
  exact h

end EscapingLeaves

/-- C40 fails in the code: the turbine `0` of `forkInstance` sends its unit along the edge
`0` of length 10, which is its only edge with flow, the flow is feasible and the assertions
of the function hold.  `FindShortestOutgoingEdgeWithoutFlow` compares every outgoing edge
with the length of `edgeWithFlow` and never updates `shortestEdgeLength`, so it returns the
edge `2` of length 5, although the edge `1`, another outgoing edge of the turbine, has the
length 1: the edge returned is not of minimum length among the other outgoing edges. -/
theorem shorter_edge_is_not_the_shortest :
    AssertFeasibleFlow (forkGraph [1, 0, 0, 1, 0, 0] [0, 0, 0, 0, 0, 0, 0, 0, 0, 0, 0, 0]) = true
      ∧ EscapingLeaves.FindUniqueOutgoingEdgeWithFlowFromVertex
          (forkGraph [1, 0, 0, 1, 0, 0] [0, 0, 0, 0, 0, 0, 0, 0, 0, 0, 0, 0]) 0 = some 0
      ∧ EscapingLeaves.FindShortestOutgoingEdgeWithoutFlowAsserts
          (forkGraph [1, 0, 0, 1, 0, 0] [0, 0, 0, 0, 0, 0, 0, 0, 0, 0, 0, 0]) 0 0 = true
      ∧ EscapingLeaves.FindShortestOutgoingEdgeWithoutFlow
          (forkGraph [1, 0, 0, 1, 0, 0] [0, 0, 0, 0, 0, 0, 0, 0, 0, 0, 0, 0]) 0 0 = some 2
      ∧ (forkGraph [1, 0, 0, 1, 0, 0] [0, 0, 0, 0, 0, 0, 0, 0, 0, 0, 0, 0]).Length 2 = 5
      ∧ 1 ∈ (forkGraph [1, 0, 0, 1, 0, 0] [0, 0, 0, 0, 0, 0, 0, 0, 0, 0, 0, 0]).OutgoingEdges 0
      ∧ (forkGraph [1, 0, 0, 1, 0, 0] [0, 0, 0, 0, 0, 0, 0, 0, 0, 0, 0, 0]).Length 1 = 1
      ∧ ¬∀ e ∈ (forkGraph [1, 0, 0, 1, 0, 0] [0, 0, 0, 0, 0, 0, 0, 0, 0, 0, 0, 0]).OutgoingEdges 0,
          e ≠ 0 →
          (forkGraph [1, 0, 0, 1, 0, 0] [0, 0, 0, 0, 0, 0, 0, 0, 0, 0, 0, 0]).Length 2
            ≤ (forkGraph [1, 0, 0, 1, 0, 0] [0, 0, 0, 0, 0, 0, 0, 0, 0, 0, 0, 0]).Length e := by
  refine ⟨by decide, by decide, by with_unfolding_all decide, by with_unfolding_all decide,
    rfl, by decide, rfl, ?_⟩
  intro h
  have h1 := h 1 (by decide) (by decide)
  have h2 : (forkGraph [1, 0, 0, 1, 0, 0] [0, 0, 0, 0, 0, 0, 0, 0, 0, 0, 0, 0]).Length 2 = 5 := rfl
  have h3 : (forkGraph [1, 0, 0, 1, 0, 0] [0, 0, 0, 0, 0, 0, 0, 0, 0, 0, 0, 0]).Length 1 = 1 := rfl
  rw [h2, h3] at h1
  norm_num at h1

/-- What the loop of `FindShortestOutgoingEdgeWithoutFlow` computes while
`shortestEdgeLength` keeps the length of `edgeWithFlow`: the last outgoing edge of `vertex`,
in the order of its adjacency list, that is not `edgeWithFlow` and is strictly shorter than
`edgeWithFlow`.  So the function returns `INVALID_EDGE` if and only if no other outgoing
edge is strictly shorter than `edgeWithFlow`, and an edge that it returns is another
outgoing edge that is strictly shorter than `edgeWithFlow` and is followed in the adjacency
list by no other edge of this kind.  When `edgeWithFlow` starts at `vertex` and carries one
unit and no other outgoing edge carries flow, the assertions of the function hold. -/
theorem findShortest_last_shorter_edge (w : WindfarmResidual)
    (vertex edgeWithFlow : Nat) :
    EscapingLeaves.FindShortestOutgoingEdgeWithoutFlow w vertex edgeWithFlow
        = ((w.OutgoingEdges vertex).filter fun e =>
            decide (e ≠ edgeWithFlow ∧ w.Length e < w.Length edgeWithFlow)).getLast?
      ∧ (EscapingLeaves.FindShortestOutgoingEdgeWithoutFlow w vertex edgeWithFlow = none
          ↔ ∀ e ∈ w.OutgoingEdges vertex, e ≠ edgeWithFlow →
              ¬w.Length e < w.Length edgeWithFlow)
      ∧ (∀ shorter, EscapingLeaves.FindShortestOutgoingEdgeWithoutFlow w vertex edgeWithFlow
            = some shorter →
          shorter ≠ edgeWithFlow ∧ w.Length shorter < w.Length edgeWithFlow
            ∧ ∃ before after, w.OutgoingEdges vertex = before ++ shorter :: after
              ∧ ∀ e ∈ after, e ≠ edgeWithFlow → ¬w.Length e < w.Length edgeWithFlow)
      ∧ (w.StartVertex edgeWithFlow = vertex → w.FlowOnEdge edgeWithFlow = 1 →
          (∀ e ∈ w.OutgoingEdges vertex, e ≠ edgeWithFlow → w.FlowOnEdge e = 0) →
          EscapingLeaves.FindShortestOutgoingEdgeWithoutFlowAsserts w vertex edgeWithFlow
              = true
            ∧ ∀ shorter, EscapingLeaves.FindShortestOutgoingEdgeWithoutFlow w vertex
                edgeWithFlow = some shorter → w.FlowOnEdge shorter = 0) := by
  have heq := EscapingLeaves.findShortest_eq w vertex edgeWithFlow
  have hsome : ∀ shorter,
      EscapingLeaves.FindShortestOutgoingEdgeWithoutFlow w vertex edgeWithFlow = some shorter →
      shorter ∈ w.OutgoingEdges vertex ∧ shorter ≠ edgeWithFlow
        ∧ w.Length shorter < w.Length edgeWithFlow := by
    intro shorter hs
    rw [heq] at hs
    have hmem := List.mem_of_getLast?_eq_some hs
    rw [List.mem_filter] at hmem
    obtain ⟨m1, m2⟩ := hmem
    simp only [decide_eq_true_eq] at m2
    exact ⟨m1, m2.1, m2.2⟩
  refine ⟨heq, ?_, ?_, ?_⟩
  · rw [heq, List.getLast?_eq_none_iff, List.filter_eq_nil_iff]
    constructor
    · intro h e he hne hlt
      have := h e he
      simp only [decide_eq_true_eq] at this
      exact this ⟨hne, hlt⟩
    · intro h e he
      simp only [decide_eq_true_eq]
      intro hh
      exact h e he hh.1 hh.2
  · intro shorter hs
    obtain ⟨_, m2, m3⟩ := hsome shorter hs
    refine ⟨m2, m3, ?_⟩
    rw [heq] at hs
    -- split the adjacency list at the last edge that passes the test
    have key : ∀ (l : List Nat) (p : Nat → Bool) (x : Nat), (l.filter p).getLast? = some x →
        ∃ before after, l = before ++ x :: after ∧ ∀ e ∈ after, p e = false := by
      intro l p
      induction l with
      | nil =>
        intro x hx
        simp at hx
      | cons y l ih =>
        intro x hx
        by_cases hp : p y = true
        · rw [List.filter_cons_of_pos hp] at hx
          cases hl : l.filter p with
          | nil =>
            rw [hl] at hx
            have hyx : y = x := by simpa using hx
            refine ⟨[], l, by rw [hyx]; rfl, ?_⟩
            intro e he
            have := List.filter_eq_nil_iff.mp hl e he
            simpa using this
          | cons z zs =>
            rw [hl, List.getLast?_cons_cons, ← hl] at hx
            obtain ⟨before, after, h1, h2⟩ := ih x hx
            exact ⟨y :: before, after, by rw [h1]; rfl, h2⟩
        · rw [List.filter_cons_of_neg hp] at hx
          obtain ⟨before, after, h1, h2⟩ := ih x hx
          exact ⟨y :: before, after, by rw [h1]; rfl, h2⟩
    obtain ⟨before, after, h1, h2⟩ := key _ _ _ hs
    refine ⟨before, after, h1, ?_⟩
    intro e he hne hlt
    have := h2 e he
    simp only [decide_eq_false_iff_not] at this
    exact this ⟨hne, hlt⟩
  · intro hstart hflow hzero
    have hz : ∀ shorter,
        EscapingLeaves.FindShortestOutgoingEdgeWithoutFlow w vertex edgeWithFlow = some shorter →
        w.FlowOnEdge shorter = 0 := by
      intro shorter hs
      obtain ⟨m1, m2, _⟩ := hsome shorter hs
      exact hzero shorter m1 m2
    refine ⟨?_, hz⟩
    unfold EscapingLeaves.FindShortestOutgoingEdgeWithoutFlowAsserts
    rw [Bool.and_eq_true, Bool.and_eq_true]
    refine ⟨⟨by simpa using hstart, by simpa using hflow⟩, ?_⟩
    cases hs : EscapingLeaves.FindShortestOutgoingEdgeWithoutFlow w vertex edgeWithFlow with
    | none => rfl
    | some shorter =>
      show decide (w.FlowOnEdge shorter = 0) = true
      simpa using hz shorter hs

/-- The turbine `0` of `forkInstance` with its unit on the edge `0` of length 10: the
function returns the edge `2` of length 5, the last of the two shorter edges `1` and `2` in
the adjacency list `0, 1, 2`. -/
theorem findShortest_on_fork :
    (forkGraph [1, 0, 0, 1, 0, 0] [0, 0, 0, 0, 0, 0, 0, 0, 0, 0, 0, 0]).StartVertex 0 = 0
      ∧ (forkGraph [1, 0, 0, 1, 0, 0] [0, 0, 0, 0, 0, 0, 0, 0, 0, 0, 0, 0]).FlowOnEdge 0 = 1
      ∧ (forkGraph [1, 0, 0, 1, 0, 0] [0, 0, 0, 0, 0, 0, 0, 0, 0, 0, 0, 0]).OutgoingEdges 0
        = [0, 1, 2]
      ∧ EscapingLeaves.FindShortestOutgoingEdgeWithoutFlow
          (forkGraph [1, 0, 0, 1, 0, 0] [0, 0, 0, 0, 0, 0, 0, 0, 0, 0, 0, 0]) 0 0 = some 2
      ∧ (forkGraph [1, 0, 0, 1, 0, 0] [0, 0, 0, 0, 0, 0, 0, 0, 0, 0, 0, 0]).FlowOnEdge 2 = 0 :=
  ⟨rfl, by decide, rfl, by with_unfolding_all decide,
    ((findShortest_last_shorter_edge
        (forkGraph [1, 0, 0, 1, 0, 0] [0, 0, 0, 0, 0, 0, 0, 0, 0, 0, 0, 0]) 0 0).2.2.2 rfl
      (by decide) (by
        intro e he hne
        have he' : e ∈ [0, 1, 2] := he
        simp only [List.mem_cons, List.mem_singleton, List.not_mem_nil, or_false] at he'
        rcases he' with h | h | h
        · exact absurd h hne
        · rw [h]; decide
        · rw [h]; decide)).2 2 (by with_unfolding_all decide)⟩

end wcp

/-! # The strategy `IncreasingDecreasingStrategy` -/

namespace wcp

namespace IncreasingDecreasingStrategy

theorem nextDelta_increasing (s : IncreasingDecreasingStrategy) (delta : Int)
    (h : s.increasing = true) : s.NextDelta delta false = (delta + 1, s) := by
  unfold NextDelta
  simp [h]

theorem nextDelta_canceled (s : IncreasingDecreasingStrategy) (delta : Int) (h : delta ≠ 1) :
    s.NextDelta delta true
      = (delta - 1, { s with lastDeltaWithChange := delta, increasing := false }) := by
  unfold NextDelta
  simp [h]

theorem nextDelta_decreasing (s : IncreasingDecreasingStrategy) (delta : Int)
    (h : s.increasing = false) (hd : delta ≠ 1) : s.NextDelta delta false = (delta - 1, s) := by
  unfold NextDelta
  simp [h, hd]

theorem nextDelta_jump (s : IncreasingDecreasingStrategy) (h : s.increasing = false) :
    s.NextDelta 1 false = (s.lastDeltaWithChange, { s with increasing := true }) := by
  unfold NextDelta
  simp [h]

theorem nextDelta_canceled_one (s : IncreasingDecreasingStrategy) :
    s.NextDelta 1 true = (1, { s with lastDeltaWithChange := 1, increasing := true }) := by
  unfold NextDelta
  simp

/-- Neither the value of `changeOfFlow` nor the last value with a cancellation falls below
`1`. -/
theorem nextDelta_ge_one (s : IncreasingDecreasingStrategy) (delta : Int) (canceled : Bool)
    (hd : 1 ≤ delta) (hl : 1 ≤ s.lastDeltaWithChange) :
    1 ≤ (s.NextDelta delta canceled).1
      ∧ 1 ≤ (s.NextDelta delta canceled).2.lastDeltaWithChange := by
  by_cases h1 : delta = 1
  · subst h1
    cases canceled with
    | true =>
      rw [nextDelta_canceled_one]
      exact ⟨le_rfl, le_rfl⟩
    | false =>
      cases hi : s.increasing with
      | true =>
        rw [nextDelta_increasing s 1 hi]
        exact ⟨by omega, hl⟩
      | false =>
        rw [nextDelta_jump s hi]
        exact ⟨hl, hl⟩
  · cases canceled with
    | true =>
      rw [nextDelta_canceled s delta h1]
      exact ⟨by omega, hd⟩
    | false =>
      cases hi : s.increasing with
      | true =>
        rw [nextDelta_increasing s delta hi]
        exact ⟨by omega, hl⟩
      | false =>
        rw [nextDelta_decreasing s delta hi h1]
        exact ⟨by omega, hl⟩

theorem deltas_ge_one : ∀ (outcomes : List Bool) (s : IncreasingDecreasingStrategy) (delta : Int),
    1 ≤ delta → 1 ≤ s.lastDeltaWithChange → ∀ d ∈ deltas s delta outcomes, 1 ≤ d := by
  intro outcomes
  induction outcomes with
  | nil =>
    intro s delta hd _ d hmem
    have : d = delta := by simpa [deltas] using hmem
    rw [this]
    exact hd
  | cons b outcomes ih =>
    intro s delta hd hl d hmem
    rw [deltas, List.mem_cons] at hmem
    rcases hmem with h | h
    · rw [h]
      exact hd
    · obtain ⟨g1, g2⟩ := nextDelta_ge_one s delta b hd hl
      exact ih _ _ g1 g2 d h

/-- While the strategy increases and no cycle is canceled, the values climb by `1`. -/
theorem deltas_increasing : ∀ (m : Nat) (s : IncreasingDecreasingStrategy) (delta : Int),
    s.increasing = true →
    deltas s delta (List.replicate m false)
      = (List.range (m + 1)).map fun (i : Nat) => delta + (i : Int) := by
  intro m
  induction m with
  | zero =>
    intro s delta _
    simp [deltas, List.range_succ]
  | succ m ih =>
    intro s delta hi
    rw [List.replicate_succ, deltas, nextDelta_increasing s delta hi, ih s (delta + 1) hi,
      List.range_succ_eq_map (m + 1), List.map_cons, List.map_map]
    congr 1
    · simp
    · apply List.map_congr_left
      intro i _
      simp only [Function.comp_apply, Nat.succ_eq_add_one, Nat.cast_add, Nat.cast_one]
      ring

/-- While the strategy decreases and no cycle is canceled, the values fall by `1` down to
`1`, then the strategy jumps to the last value with a cancellation and climbs by `1`. -/
theorem deltas_decreasing : ∀ (j m : Nat) (s : IncreasingDecreasingStrategy),
    s.increasing = false →
    deltas s ((j : Int) + 1) (List.replicate (j + 1 + m) false)
      = ((List.range (j + 1)).reverse.map fun (i : Nat) => (i : Int) + 1)
        ++ (List.range (m + 1)).map fun (i : Nat) => s.lastDeltaWithChange + (i : Int) := by
  intro j
  induction j with
  | zero =>
    intro m s hd
    have e : 0 + 1 + m = m + 1 := by omega
    rw [e, List.replicate_succ, deltas]
    simp only [Nat.cast_zero, zero_add]
    rw [nextDelta_jump s hd, deltas_increasing m _ _ rfl]
    rfl
  | succ j ih =>
    intro m s hd
    have e : j + 1 + 1 + m = (j + 1 + m) + 1 := by omega
    have hne : ((j + 1 : Nat) : Int) + 1 ≠ 1 := by omega
    rw [e, List.replicate_succ, deltas, nextDelta_decreasing s _ hd hne]
    have e2 : ((j + 1 : Nat) : Int) + 1 - 1 = (j : Int) + 1 := by push_cast; ring
    rw [e2, ih m s hd, List.range_succ (j + 1), List.reverse_append, List.reverse_singleton,
      List.singleton_append, List.map_cons, List.cons_append]

/-- The values after a pass with the value `k + 1` that canceled a cycle, when the further
passes cancel none: `k, ..., 1`, then `k + 1, k + 2, ...`. -/
theorem deltas_after_cancellation (s : IncreasingDecreasingStrategy) (k m : Nat) :
    deltas (s.NextDelta ((k : Int) + 1) true).2 (s.NextDelta ((k : Int) + 1) true).1
        (List.replicate (k + m) false)
      = ((List.range k).reverse.map fun (i : Nat) => (i : Int) + 1)
        ++ (List.range (m + 1)).map fun (i : Nat) => (k : Int) + 1 + (i : Int) := by
  cases k with
  | zero =>
    simp only [Nat.cast_zero, zero_add, List.range_zero, List.reverse_nil, List.map_nil,
      List.nil_append]
    rw [nextDelta_canceled_one, deltas_increasing m _ _ rfl]
  | succ j =>
    have hne : ((j + 1 : Nat) : Int) + 1 ≠ 1 := by omega
    rw [nextDelta_canceled s _ hne]
    have e2 : ((j + 1 : Nat) : Int) + 1 - 1 = (j : Int) + 1 := by push_cast; ring
    simp only
    rw [e2, deltas_decreasing j m _ rfl]

end IncreasingDecreasingStrategy

/-- C31: the steps of `IncreasingDecreasingStrategy::NextDelta`: while the strategy
increases, a pass without a cancellation raises `Δ` by 1; a cancellation at `Δ ≠ 1` records
`Δ`, switches to decreasing and lowers `Δ` by 1, and while the strategy decreases every pass
at `Δ ≠ 1` lowers `Δ` by 1; a pass without a cancellation at `Δ = 1` while decreasing jumps
to the last `Δ` with a cancellation and switches to increasing, and so does a pass with a
cancellation at `Δ = 1`, which returns `1`.  Driven from `FirstDelta() = 1` by any outcomes,
the strategy never yields a `Δ` below 1.  After a cancellation at `Δ = k + 1`, when the
further passes cancel nothing, the values are `k, ..., 1` and then `k + 1, k + 2, ...`,
and from `FirstDelta()` without any cancellation they are `1, 2, ...`: so every value from
1 to `max` is tried between the last cancellation and the first value above `max`. -/
theorem increasing_decreasing_strategy_steps :
    (∀ (s : IncreasingDecreasingStrategy) (delta : Int),
        (s.increasing = true → s.NextDelta delta false = (delta + 1, s))
          ∧ (delta ≠ 1 → s.NextDelta delta true
              = (delta - 1, { s with lastDeltaWithChange := delta, increasing := false }))
          ∧ (s.increasing = false → delta ≠ 1 → s.NextDelta delta false = (delta - 1, s))
          ∧ (s.increasing = false →
              s.NextDelta 1 false = (s.lastDeltaWithChange, { s with increasing := true }))
          ∧ s.NextDelta 1 true = (1, { s with lastDeltaWithChange := 1, increasing := true }))
      ∧ (∀ (max : Int) (outcomes : List Bool),
          (IncreasingDecreasingStrategy.create max).FirstDelta
              = (1, IncreasingDecreasingStrategy.create max)
            ∧ ∀ d ∈ IncreasingDecreasingStrategy.deltas (IncreasingDecreasingStrategy.create max)
                1 outcomes, 1 ≤ d)
      ∧ (∀ (s : IncreasingDecreasingStrategy) (k m : Nat),
          IncreasingDecreasingStrategy.deltas (s.NextDelta ((k : Int) + 1) true).2
              (s.NextDelta ((k : Int) + 1) true).1 (List.replicate (k + m) false)
            = ((List.range k).reverse.map fun (i : Nat) => (i : Int) + 1)
              ++ (List.range (m + 1)).map fun (i : Nat) => (k : Int) + 1 + (i : Int))
      ∧ (∀ (max : Int) (m : Nat),
          IncreasingDecreasingStrategy.deltas (IncreasingDecreasingStrategy.create max) 1
              (List.replicate m false)
            = (List.range (m + 1)).map fun (i : Nat) => 1 + (i : Int))
      ∧ (∀ (s : IncreasingDecreasingStrategy) (k m : Nat) (d : Int), 1 ≤ d → d ≤ (k + m : Nat) →
          d ∈ (IncreasingDecreasingStrategy.deltas (s.NextDelta ((k : Int) + 1) true).2
              (s.NextDelta ((k : Int) + 1) true).1 (List.replicate (k + m) false)).dropLast
            ∧ (IncreasingDecreasingStrategy.deltas (s.NextDelta ((k : Int) + 1) true).2
              (s.NextDelta ((k : Int) + 1) true).1 (List.replicate (k + m) false)).getLast?
                = some (((k + m : Nat) : Int) + 1)) := by
  refine ⟨fun s delta => ⟨IncreasingDecreasingStrategy.nextDelta_increasing s delta,
      IncreasingDecreasingStrategy.nextDelta_canceled s delta,
      IncreasingDecreasingStrategy.nextDelta_decreasing s delta,
      IncreasingDecreasingStrategy.nextDelta_jump s,
      IncreasingDecreasingStrategy.nextDelta_canceled_one s⟩,
    fun max outcomes => ⟨rfl, IncreasingDecreasingStrategy.deltas_ge_one outcomes _ 1 le_rfl
      le_rfl⟩,
    IncreasingDecreasingStrategy.deltas_after_cancellation,
    fun max m => IncreasingDecreasingStrategy.deltas_increasing m _ 1 rfl, ?_⟩
  intro s k m d hd1 hd2
  rw [IncreasingDecreasingStrategy.deltas_after_cancellation, List.range_succ, List.map_append,
    ← List.append_assoc]
  simp only [List.map_cons, List.map_nil]
  rw [List.dropLast_concat, List.getLast?_concat]
  refine ⟨?_, by push_cast; ring_nf⟩
  rw [List.mem_append]
  by_cases hk : d ≤ (k : Int)
  · left
    rw [List.mem_map]
    refine ⟨(d - 1).toNat, ?_, by omega⟩
    rw [List.mem_reverse, List.mem_range]
    omega
  · right
    rw [List.mem_map]
    refine ⟨(d - (k : Int) - 1).toNat, ?_, by omega⟩
    rw [List.mem_range]
    omega

/-- Witness of C31: with the maximum 3, the outcomes "no cancellation, no cancellation,
cancellation" and then four passes without a cancellation, the values are `1, 2, 3`, then
`2, 1`, then `3`, and then `4`, which is above the maximum. -/
theorem increasing_decreasing_strategy_steps_witness :
    IncreasingDecreasingStrategy.deltas (IncreasingDecreasingStrategy.create 3) 1
        [false, false, true, false, false, false]
      = [1, 2, 3, 2, 1, 3, 4]
      ∧ (∀ d ∈ IncreasingDecreasingStrategy.deltas (IncreasingDecreasingStrategy.create 3) 1
          [false, false, true, false, false, false], (1 : Int) ≤ d)
      ∧ (2 : Int) ∈ (IncreasingDecreasingStrategy.deltas
          ((IncreasingDecreasingStrategy.create 3).NextDelta ((2 : Nat) + 1 : Int) true).2
          ((IncreasingDecreasingStrategy.create 3).NextDelta ((2 : Nat) + 1 : Int) true).1
          (List.replicate (2 + 1) false)).dropLast :=
  ⟨by decide,
    (increasing_decreasing_strategy_steps.2.1 3 [false, false, true, false, false, false]).2,
    (increasing_decreasing_strategy_steps.2.2.2.2 (IncreasingDecreasingStrategy.create 3) 2 1 2
      (by decide) (by decide)).1⟩

end wcp

/-! # The strategy `SameNextDeltaStrategy` -/

namespace wcp

/-- C33: `SameNextDeltaStrategy::NextDelta(Δ, true)` returns `Δ` and records it.  On a pass
without a cancellation the inner strategy is advanced with the value of `lastCanceled_`
(as if a cycle had been canceled on the first such pass after a cancellation, and as if
none had otherwise), and when the value that it returns equals `lastCanceledDelta_` the
inner strategy is advanced once more, as if no cycle had been canceled.  Before the first
cancellation `lastCanceledDelta_` holds the indeterminate value that the constructor left
there, and the value returned depends on it: around `IncreasingDeltaStrategy` with the
maximum 3, the first call `NextDelta(1, false)` returns 2 when the member happens to hold
0, and 3 when it happens to hold 2. -/
theorem same_next_delta_reads_indeterminate_member :
    (∀ (S : Type) (ops : DeltaStrategyOps S) (s : SameNextDeltaStrategy S) (delta : Int),
        SameNextDeltaStrategy.NextDelta ops s delta true
          = some (delta, { s with lastCanceled := true, lastCanceledDelta := delta }))
      ∧ (∀ (S : Type) (ops : DeltaStrategyOps S) (s : SameNextDeltaStrategy S)
          (delta d : Int) (inner : S),
          ops.NextDelta s.deltaStrategy delta s.lastCanceled = some (d, inner) →
          SameNextDeltaStrategy.NextDelta ops s delta false
            = if d = s.lastCanceledDelta then
                (ops.NextDelta inner d false).map fun r =>
                  (r.1, { s with lastCanceled := false, deltaStrategy := r.2 })
              else some (d, { s with lastCanceled := false, deltaStrategy := inner }))
      ∧ (∀ (S : Type) (inner : S) (indeterminate : Int),
          (SameNextDeltaStrategy.create inner indeterminate).lastCanceled = false
            ∧ (SameNextDeltaStrategy.create inner indeterminate).lastCanceledDelta
              = indeterminate)
      ∧ (SameNextDeltaStrategy.NextDelta (DeltaStrategy.ops IncreasingDeltaStrategy)
            (SameNextDeltaStrategy.create 3 0) 1 false).map Prod.fst = some 2
      ∧ (SameNextDeltaStrategy.NextDelta (DeltaStrategy.ops IncreasingDeltaStrategy)
            (SameNextDeltaStrategy.create 3 2) 1 false).map Prod.fst = some 3 := by
  refine ⟨fun S ops s delta => rfl, ?_, fun S inner indeterminate => ⟨rfl, rfl⟩, by decide,
    by decide⟩
  intro S ops s delta d inner h
  unfold SameNextDeltaStrategy.NextDelta
  simp only [Bool.false_eq_true, if_false, h]
  by_cases hd : d = s.lastCanceledDelta
  · rw [if_pos hd, if_pos hd]
    cases ops.NextDelta inner d false with
    | none => rfl
    | some r => rfl
  · rw [if_neg hd, if_neg hd]

/-- Witness of C33: around `IncreasingDeltaStrategy` with the maximum 3, when the member
`lastCanceledDelta_` happens to hold 2 before the first cancellation, the call
`NextDelta(1, false)` advances the inner strategy to 2, finds it equal to the member, and
advances once more. -/
theorem same_next_delta_reads_indeterminate_member_witness :
    (DeltaStrategy.ops IncreasingDeltaStrategy).NextDelta
        (SameNextDeltaStrategy.create (3 : Int) 2).deltaStrategy 1
        (SameNextDeltaStrategy.create (3 : Int) 2).lastCanceled = some (2, 3)
      ∧ SameNextDeltaStrategy.NextDelta (DeltaStrategy.ops IncreasingDeltaStrategy)
          (SameNextDeltaStrategy.create (3 : Int) 2) 1 false
        = if (2 : Int) = (SameNextDeltaStrategy.create (3 : Int) 2).lastCanceledDelta then
            ((DeltaStrategy.ops IncreasingDeltaStrategy).NextDelta 3 2 false).map fun r =>
              (r.1, { SameNextDeltaStrategy.create (3 : Int) 2 with
                lastCanceled := false, deltaStrategy := r.2 })
          else some (2, { SameNextDeltaStrategy.create (3 : Int) 2 with
            lastCanceled := false, deltaStrategy := 3 }) :=
  ⟨rfl, same_next_delta_reads_indeterminate_member.2.1 Int
    (DeltaStrategy.ops IncreasingDeltaStrategy) (SameNextDeltaStrategy.create (3 : Int) 2) 1 2 3
    rfl⟩

end wcp

/-! # The strategy `RandomDeltaStrategy` -/

namespace wcp

namespace RandomDeltaStrategy

variable {R : Type}

/-- A call of `NextDelta` after a pass without a cancellation, while the counter is below
the size of the vector: the entry at the position of the counter. -/
theorem nextDelta_in_range (shuffle : R → List Int → List Int × R) (s : RandomDeltaStrategy R)
    (delta : Int) (h : s.numberOfDeltasSinceUpdate < s.allDeltasRandomized.length) :
    NextDelta shuffle s delta false
      = some (s.allDeltasRandomized.getD s.numberOfDeltasSinceUpdate 0,
          { s with numberOfDeltasSinceUpdate := s.numberOfDeltasSinceUpdate + 1 }) := by
  unfold NextDelta ContinuePrivate
  simp only [Bool.false_eq_true, if_false]
  rw [if_pos (by simpa using le_of_lt h), List.getElem?_eq_getElem h]
  simp only
  rw [getD_eq_getElem_of_lt _ _ _ h]

/-- A call of `NextDelta` after a pass without a cancellation, when the counter equals the
size of the vector: `Continue()` holds and the read is outside the vector. -/
theorem nextDelta_past_the_end (shuffle : R → List Int → List Int × R)
    (s : RandomDeltaStrategy R) (delta : Int)
    (h : s.numberOfDeltasSinceUpdate = s.allDeltasRandomized.length) :
    ContinuePrivate s = true ∧ NextDelta shuffle s delta false = none := by
  have hc : ContinuePrivate s = true := by
    unfold ContinuePrivate
    simpa using le_of_eq h
  refine ⟨hc, ?_⟩
  unfold NextDelta
  simp only [Bool.false_eq_true, if_false]
  rw [if_pos hc, List.getElem?_eq_none (by omega)]

/-- The value `-1` is returned only when the counter is above the size of the vector. -/
theorem nextDelta_minus_one (shuffle : R → List Int → List Int × R) (s s' : RandomDeltaStrategy R)
    (delta : Int) (hpos : ∀ d ∈ s.allDeltasRandomized, 1 ≤ d)
    (h : NextDelta shuffle s delta false = some (-1, s')) :
    s.allDeltasRandomized.length < s.numberOfDeltasSinceUpdate := by
  by_contra hle
  have hle' : s.numberOfDeltasSinceUpdate ≤ s.allDeltasRandomized.length := by omega
  rcases Nat.lt_or_eq_of_le hle' with hlt | heq
  · rw [nextDelta_in_range shuffle s delta hlt] at h
    simp only [Option.some.injEq, Prod.mk.injEq] at h
    have hmem : s.allDeltasRandomized.getD s.numberOfDeltasSinceUpdate 0
        ∈ s.allDeltasRandomized := by
      rw [getD_eq_getElem_of_lt _ _ _ hlt]
      exact List.getElem_mem _
    have := hpos _ hmem
    omega
  · rw [(nextDelta_past_the_end shuffle s delta heq).2] at h
    exact absurd h (by simp)

/-- The calls of `NextDelta` for `n` passes without a cancellation, while the counter stays
within the vector, return the next `n` entries. -/
theorem nextDeltas_spec (shuffle : R → List Int → List Int × R) :
    ∀ (n : Nat) (s : RandomDeltaStrategy R) (delta : Int),
      s.numberOfDeltasSinceUpdate + n ≤ s.allDeltasRandomized.length →
      nextDeltas shuffle n s delta
        = some ((s.allDeltasRandomized.drop s.numberOfDeltasSinceUpdate).take n,
            { s with numberOfDeltasSinceUpdate := s.numberOfDeltasSinceUpdate + n }) := by
  intro n
  induction n with
  | zero =>
    intro s delta _
    rfl
  | succ n ih =>
    intro s delta h
    have hlt : s.numberOfDeltasSinceUpdate < s.allDeltasRandomized.length := by omega
    rw [nextDeltas, nextDelta_in_range shuffle s delta hlt]
    simp only
    rw [ih _ _ (by
      show s.numberOfDeltasSinceUpdate + 1 + n ≤ s.allDeltasRandomized.length
      omega)]
    simp only [Option.some.injEq, Prod.mk.injEq]
    constructor
    · rw [List.drop_eq_getElem_cons hlt, List.take_succ_cons,
        getD_eq_getElem_of_lt _ _ _ hlt]
    · show ({ s with numberOfDeltasSinceUpdate := s.numberOfDeltasSinceUpdate + 1 + n }
          : RandomDeltaStrategy R) = _
      rw [Nat.add_assoc, Nat.add_comm 1 n]

/-- A sweep from an object whose counter is `1` and whose vector begins with `first`: the
values until the vector is used up are its entries in their order, and the call of
`NextDelta` after that reads outside the vector. -/
theorem sweep_spec (shuffle : R → List Int → List Int × R) (s1 : RandomDeltaStrategy R)
    (first : Int) (hc : s1.numberOfDeltasSinceUpdate = 1)
    (hf : s1.allDeltasRandomized.head? = some first) :
    ∃ rest s2,
      nextDeltas shuffle (s1.allDeltasRandomized.length - 1) s1 first = some (rest, s2)
        ∧ first :: rest = s1.allDeltasRandomized
        ∧ s2.allDeltasRandomized = s1.allDeltasRandomized
        ∧ s2.numberOfDeltasSinceUpdate = s1.allDeltasRandomized.length
        ∧ (∀ d, s2.Continue d = true)
        ∧ ∀ d, NextDelta shuffle s2 d false = none := by
  cases hv : s1.allDeltasRandomized with
  | nil =>
    rw [hv] at hf
    simp at hf
  | cons x xs =>
    rw [hv] at hf
    have hx : x = first := by simpa using hf
    subst hx
    have hlen : s1.allDeltasRandomized.length = xs.length + 1 := by rw [hv]; rfl
    have hspec := nextDeltas_spec shuffle (s1.allDeltasRandomized.length - 1) s1 x
      (by rw [hc]; omega)
    rw [hv] at hspec
    simp only [List.length_cons, Nat.add_sub_cancel, hc, List.drop_succ_cons, List.drop_zero,
      List.take_length] at hspec
    simp only [List.length_cons, Nat.add_sub_cancel]
    refine ⟨xs, _, hspec, rfl, rfl, by show 1 + xs.length = xs.length + 1; omega, ?_, ?_⟩
    · intro d
      exact (nextDelta_past_the_end shuffle _ d
        (by show 1 + xs.length = (x :: xs).length; simp; omega)).1
    · intro d
      exact (nextDelta_past_the_end shuffle _ d
        (by show 1 + xs.length = (x :: xs).length; simp; omega)).2

theorem create_vector (maximumFlowChange : Nat) (rng : R) :
    (create (maximumFlowChange : Int) rng).allDeltasRandomized
      = (List.range maximumFlowChange).map fun (i : Nat) => (i : Int) + 1 := by
  unfold create
  simp

end RandomDeltaStrategy

/-- C32: let `std::shuffle` permute the vector, and let the vector of the object be a
permutation of `1, ..., max` with `max ≥ 1`, as it is after the constructor.  After
`FirstDelta()` and after a call of `NextDelta` for a cancellation, the value returned and
the values that the next `max - 1` calls of `NextDelta` for passes without a cancellation
return are the entries of the current permutation in their order, read from the positions
`0, ..., max - 1`: pairwise distinct elements of `[1, max]`.  Then all `max` entries have
been returned and `Continue` still holds, and the next call of `NextDelta` for a pass
without a cancellation does not return `-1`: it reads the vector at the position `max`,
outside the vector.  The value `-1` is returned only when the counter is above `max`. -/
theorem random_strategy_reads_past_the_end {R : Type} (shuffle : R → List Int → List Int × R)
    (hshuffle : ∀ rng vector, (shuffle rng vector).1.Perm vector) (max : Nat) (hmax : 1 ≤ max)
    (s : RandomDeltaStrategy R)
    (hs : s.allDeltasRandomized.Perm ((List.range max).map fun (i : Nat) => (i : Int) + 1)) :
    (∀ rng : R, (RandomDeltaStrategy.create (max : Int) rng).allDeltasRandomized.Perm
        ((List.range max).map fun (i : Nat) => (i : Int) + 1)
      ∧ (RandomDeltaStrategy.create (max : Int) rng).numberOfDeltasSinceUpdate = 0)
      ∧ (∀ ( ndebug : Bool), (ndebug = true ∨ s.numberOfDeltasSinceUpdate = 0) →
          ∃ first s1 rest s2,
            RandomDeltaStrategy.FirstDelta shuffle ndebug s = some (first, s1)
              ∧ s1.allDeltasRandomized.Perm ((List.range max).map fun (i : Nat) => (i : Int) + 1)
              ∧ (s.numberOfDeltasSinceUpdate = 0 →
                RandomDeltaStrategy.nextDeltas shuffle (max - 1) s1 first = some (rest, s2)
                  ∧ first :: rest = s1.allDeltasRandomized
                  ∧ (first :: rest).Nodup
                  ∧ (∀ d ∈ first :: rest, 1 ≤ d ∧ d ≤ (max : Int))
                  ∧ s2.numberOfDeltasSinceUpdate = max
                  ∧ s2.allDeltasRandomized.length = max
                  ∧ (∀ d, s2.Continue d = true)
                  ∧ ∀ d, RandomDeltaStrategy.NextDelta shuffle s2 d false = none))
      ∧ (∀ delta : Int, ∃ first s1 rest s2,
          RandomDeltaStrategy.NextDelta shuffle s delta true = some (first, s1)
            ∧ s1.allDeltasRandomized.Perm ((List.range max).map fun (i : Nat) => (i : Int) + 1)
            ∧ RandomDeltaStrategy.nextDeltas shuffle (max - 1) s1 first = some (rest, s2)
            ∧ first :: rest = s1.allDeltasRandomized
            ∧ (first :: rest).Nodup
            ∧ (∀ d ∈ first :: rest, 1 ≤ d ∧ d ≤ (max : Int))
            ∧ s2.numberOfDeltasSinceUpdate = max
            ∧ s2.allDeltasRandomized.length = max
            ∧ (∀ d, s2.Continue d = true)
            ∧ ∀ d, RandomDeltaStrategy.NextDelta shuffle s2 d false = none)
      ∧ (∀ (delta : Int) (s' : RandomDeltaStrategy R),
          RandomDeltaStrategy.NextDelta shuffle s delta false = some (-1, s') →
          max < s.numberOfDeltasSinceUpdate) := by
  have hnd : ((List.range max).map fun (i : Nat) => (i : Int) + 1).Nodup :=
    (List.nodup_range max).map (fun a b h => by simpa using h)
  have hrange : ∀ d ∈ (List.range max).map fun (i : Nat) => (i : Int) + 1,
      1 ≤ d ∧ d ≤ (max : Int) := by
    intro d hd
    obtain ⟨i, hi, rfl⟩ := List.mem_map.mp hd
    rw [List.mem_range] at hi
    omega
  have hlen0 : ((List.range max).map fun (i : Nat) => (i : Int) + 1).length = max := by
    rw [List.length_map, List.length_range]
  -- the permutation after the shuffle
  have hsh : (RandomDeltaStrategy.ShuffleVector shuffle s).allDeltasRandomized.Perm
      ((List.range max).map fun (i : Nat) => (i : Int) + 1) :=
    (hshuffle _ _).trans hs
  have hshlen : (RandomDeltaStrategy.ShuffleVector shuffle s).allDeltasRandomized.length = max := by
    rw [hsh.length_eq, hlen0]
  obtain ⟨first, hfirst⟩ : ∃ first,
      (RandomDeltaStrategy.ShuffleVector shuffle s).allDeltasRandomized.head? = some first := by
    cases hv : (RandomDeltaStrategy.ShuffleVector shuffle s).allDeltasRandomized with
    | nil =>
      rw [hv] at hshlen
      simp at hshlen
      omega
    | cons x xs => exact ⟨x, rfl⟩
  -- a sweep from the shuffled vector with the counter 1
  have hsweep : ∀ s1 : RandomDeltaStrategy R,
      s1.allDeltasRandomized = (RandomDeltaStrategy.ShuffleVector shuffle s).allDeltasRandomized →
      s1.numberOfDeltasSinceUpdate = 1 →
      ∃ rest s2, RandomDeltaStrategy.nextDeltas shuffle (max - 1) s1 first = some (rest, s2)
        ∧ first :: rest = s1.allDeltasRandomized
        ∧ (first :: rest).Nodup
        ∧ (∀ d ∈ first :: rest, 1 ≤ d ∧ d ≤ (max : Int))
        ∧ s2.numberOfDeltasSinceUpdate = max
        ∧ s2.allDeltasRandomized.length = max
        ∧ (∀ d, s2.Continue d = true)
        ∧ ∀ d, RandomDeltaStrategy.NextDelta shuffle s2 d false = none := by
    intro s1 hv hc
    obtain ⟨rest, s2, k1, k2, k3, k4, k5, k6⟩ :=
      RandomDeltaStrategy.sweep_spec shuffle s1 first hc (by rw [hv]; exact hfirst)
    rw [hv, hshlen] at k1 k4
    refine ⟨rest, s2, k1, k2, ?_, ?_, k4, by rw [k3, hv, hshlen], k5, k6⟩
    · rw [k2, hv]
      exact hsh.nodup_iff.mpr hnd
    · intro d hd
      rw [k2, hv] at hd
      exact hrange d (hsh.mem_iff.mp hd)
  refine ⟨fun rng => ⟨by rw [RandomDeltaStrategy.create_vector], rfl⟩, ?_, ?_, ?_⟩
  · intro ndebug hn
    have hF : RandomDeltaStrategy.FirstDelta shuffle ndebug s
        = some (first, { RandomDeltaStrategy.ShuffleVector shuffle s with
            numberOfDeltasSinceUpdate := s.numberOfDeltasSinceUpdate + 1 }) := by
      unfold RandomDeltaStrategy.FirstDelta
      rw [if_neg (by
        rintro ⟨h1, h2⟩
        rcases hn with h | h
        · rw [h] at h1
          exact absurd h1 (by simp)
        · exact h2 h), hfirst]
    refine ⟨first, { RandomDeltaStrategy.ShuffleVector shuffle s with
      numberOfDeltasSinceUpdate := s.numberOfDeltasSinceUpdate + 1 }, ?_⟩
    by_cases h0 : s.numberOfDeltasSinceUpdate = 0
    · obtain ⟨rest, s2, k⟩ := hsweep
        { RandomDeltaStrategy.ShuffleVector shuffle s with
          numberOfDeltasSinceUpdate := s.numberOfDeltasSinceUpdate + 1 } rfl
        (by show s.numberOfDeltasSinceUpdate + 1 = 1; omega)
      exact ⟨rest, s2, hF, hsh, fun _ => k⟩
    · exact ⟨[], s, hF, hsh, fun h => absurd h h0⟩
  · intro delta
    have hN : RandomDeltaStrategy.NextDelta shuffle s delta true
        = some (first, { RandomDeltaStrategy.ShuffleVector shuffle s with
            numberOfDeltasSinceUpdate := 1 }) := by
      unfold RandomDeltaStrategy.NextDelta
      rw [if_pos rfl, hfirst]
    obtain ⟨rest, s2, k⟩ := hsweep
      { RandomDeltaStrategy.ShuffleVector shuffle s with numberOfDeltasSinceUpdate := 1 } rfl rfl
    exact ⟨first, _, rest, s2, hN, hsh, k⟩
  · intro delta s' h
    have := RandomDeltaStrategy.nextDelta_minus_one shuffle s s' delta
      (fun d hd => (hrange d (hs.mem_iff.mp hd)).1) h
    rw [hs.length_eq, hlen0] at this
    exact this

/-- Witness of C32: the maximum 2 and a generator whose shuffle reverses the vector.
`FirstDelta()` returns 2, the call of `NextDelta` after a pass without a cancellation
returns 1, `Continue` holds, and the next call of `NextDelta` reads the position 2 of a
vector of size 2. -/
theorem random_strategy_reads_past_the_end_witness :
    (RandomDeltaStrategy.FirstDelta reversingShuffle false
        (RandomDeltaStrategy.create 2 ())).map Prod.fst = some 2
      ∧ ((RandomDeltaStrategy.FirstDelta reversingShuffle false
          (RandomDeltaStrategy.create 2 ())).bind fun r =>
            (RandomDeltaStrategy.NextDelta reversingShuffle r.2 r.1 false).map Prod.fst) = some 1
      ∧ ((RandomDeltaStrategy.FirstDelta reversingShuffle false
          (RandomDeltaStrategy.create 2 ())).bind fun r =>
            (RandomDeltaStrategy.NextDelta reversingShuffle r.2 r.1 false).map fun r' =>
              r'.2.Continue r'.1) = some true
      ∧ ((RandomDeltaStrategy.FirstDelta reversingShuffle false
          (RandomDeltaStrategy.create 2 ())).bind fun r =>
            (RandomDeltaStrategy.NextDelta reversingShuffle r.2 r.1 false).bind fun r' =>
              (RandomDeltaStrategy.NextDelta reversingShuffle r'.2 r'.1 false).map Prod.fst)
        = none
      ∧ ∃ first s1 rest s2,
          RandomDeltaStrategy.FirstDelta reversingShuffle false
              (RandomDeltaStrategy.create ((2 : Nat) : Int) ()) = some (first, s1)
            ∧ RandomDeltaStrategy.nextDeltas reversingShuffle (2 - 1) s1 first = some (rest, s2)
            ∧ ∀ d, RandomDeltaStrategy.NextDelta reversingShuffle s2 d false = none :=
  ⟨by decide, by decide, by decide, by decide, by
    obtain ⟨first, s1, rest, s2, k1, _, k3⟩ :=
      (random_strategy_reads_past_the_end reversingShuffle
        (fun _ vector => List.reverse_perm vector) 2 (by decide)
        (RandomDeltaStrategy.create ((2 : Nat) : Int) ())
        (by rw [RandomDeltaStrategy.create_vector])).2.1 false (Or.inr rfl)
    obtain ⟨a1, _, _, _, _, _, _, a8⟩ := k3 rfl
    exact ⟨first, s1, rest, s2, k1, a1, a8⟩⟩

end wcp

/-! # The first delta of a further sweep -/

namespace wcp

namespace NegativeCycleCanceling

/-- When the clock is never over the limit and `Continue` holds for `FirstDelta()`, a call
of `RunNCCforAllDeltas` that returns has made a detection pass. -/
theorem runNCCforAllDeltas_makes_a_pass (strategy : DeltaStrategy)
    (detection : WindfarmResidual → DetectionResult) (fuel : Nat) (st st' : NCCState)
    (atCompletion : Bool) (code : ReturnCode) (passes : List DeltaPass)
    (hc : strategy.Continue strategy.FirstDelta = true)
    (h : RunNCCforAllDeltas strategy detection fuel st [] atCompletion
      = some (code, st', passes)) : passes ≠ [] := by
  unfold RunNCCforAllDeltas at h
  cases hl : RunNCCforAllDeltasLoop strategy detection fuel strategy.FirstDelta st [] [] with
  | none =>
    rw [hl] at h
    exact absurd h (by simp)
  | some r =>
    obtain ⟨st1, passes1⟩ := r
    rw [hl] at h
    simp only [Option.some.injEq, Prod.mk.injEq] at h
    obtain ⟨delta', k1, k2⟩ := runNCCforAllDeltasLoop_rule strategy detection
      (fun delta _ passes => passes = [] → delta = strategy.FirstDelta)
      (fun delta st passes code st' _ _ _ hnil => absurd hnil (by simp))
      fuel _ _ _ _ _ hl (fun _ => rfl)
    intro hnil
    rw [← h.2.2] at hnil
    rw [k1 hnil, hc] at k2
    exact absurd k2 (by simp)

end NegativeCycleCanceling

namespace RandomDeltaStrategy

variable {R : Type}

theorem firstDelta_counter (shuffle : R → List Int → List Int × R) ( ndebug : Bool)
    (s s1 : RandomDeltaStrategy R) (d : Int) (h : FirstDelta shuffle ndebug s = some (d, s1)) :
    s1.numberOfDeltasSinceUpdate = s.numberOfDeltasSinceUpdate + 1
      ∧ s1.allDeltasRandomized = (shuffle s.rng s.allDeltasRandomized).1 := by
  unfold FirstDelta at h
  split_ifs at h
  cases hh : (ShuffleVector shuffle s).allDeltasRandomized.head? with
  | none =>
    rw [hh] at h
    exact absurd h (by simp)
  | some front =>
    rw [hh] at h
    simp only [Option.some.injEq, Prod.mk.injEq] at h
    rw [← h.2]
    exact ⟨rfl, rfl⟩

theorem nextDelta_counter (shuffle : R → List Int → List Int × R)
    (s s1 : RandomDeltaStrategy R) (delta d : Int) (canceled : Bool)
    (h : NextDelta shuffle s delta canceled = some (d, s1))
    (hs : 1 ≤ s.numberOfDeltasSinceUpdate) : 1 ≤ s1.numberOfDeltasSinceUpdate := by
  unfold NextDelta at h
  cases canceled with
  | true =>
    simp only [if_true] at h
    cases hh : (ShuffleVector shuffle s).allDeltasRandomized.head? with
    | none =>
      rw [hh] at h
      exact absurd h (by simp)
    | some front =>
      rw [hh] at h
      simp only [Option.some.injEq, Prod.mk.injEq] at h
      rw [← h.2]
  | false =>
    simp only [Bool.false_eq_true, if_false] at h
    split_ifs at h
    · cases hh : s.allDeltasRandomized[s.numberOfDeltasSinceUpdate]? with
      | none =>
        rw [hh] at h
        exact absurd h (by simp)
      | some x =>
        rw [hh] at h
        simp only [Option.some.injEq, Prod.mk.injEq] at h
        rw [← h.2]
        show 1 ≤ s.numberOfDeltasSinceUpdate + 1
        omega
    · simp only [Option.some.injEq, Prod.mk.injEq] at h
      rw [← h.2]
      exact hs

/-- The counter of an object that a sweep has left behind is not `0`. -/
theorem reaches_counter (shuffle : R → List Int → List Int × R) ( ndebug : Bool)
    (s s' : RandomDeltaStrategy R)
    (h : (RandomDeltaStrategy.ops shuffle ndebug).Reaches s s') :
    s' = s ∨ 1 ≤ s'.numberOfDeltasSinceUpdate := by
  induction h with
  | refl => exact Or.inl rfl
  | first s1 s2 delta _ hf _ =>
    right
    have := (firstDelta_counter shuffle ndebug s1 s2 delta hf).1
    omega
  | next s1 s2 currentDelta delta canceled _ hn ih =>
    rcases ih with ih | ih
    · by_cases h0 : 1 ≤ s.numberOfDeltasSinceUpdate
      · right
        exact nextDelta_counter shuffle s1 s2 currentDelta delta canceled hn (by rw [ih]; exact h0)
      · -- a call of `NextDelta` on an object whose counter is `0`
        right
        have hn' : NextDelta shuffle s1 currentDelta canceled = some (delta, s2) := hn
        unfold NextDelta at hn'
        cases canceled with
        | true =>
          simp only [if_true] at hn'
          cases hh : (ShuffleVector shuffle s1).allDeltasRandomized.head? with
          | none =>
            rw [hh] at hn'
            exact absurd hn' (by simp)
          | some front =>
            rw [hh] at hn'
            simp only [Option.some.injEq, Prod.mk.injEq] at hn'
            rw [← hn'.2]
        | false =>
          simp only [Bool.false_eq_true, if_false] at hn'
          have hc : ContinuePrivate s1 = true := by
            unfold ContinuePrivate
            rw [ih]
            simp
            omega
          rw [if_pos hc] at hn'
          cases hh : s1.allDeltasRandomized[s1.numberOfDeltasSinceUpdate]? with
          | none =>
            rw [hh] at hn'
            exact absurd hn' (by simp)
          | some x =>
            rw [hh] at hn'
            simp only [Option.some.injEq, Prod.mk.injEq] at hn'
            rw [← hn'.2]
            show 1 ≤ s1.numberOfDeltasSinceUpdate + 1
            omega
    · right
      exact nextDelta_counter shuffle s1 s2 currentDelta delta canceled hn ih

end RandomDeltaStrategy

/-- C39: for `IncreasingDeltaStrategy` and `DecreasingDeltaStrategy` with `max ≥ 1`,
`FirstDelta()` is in `[1, max]`, `Continue` holds for it, and a call of
`RunNCCforAllDeltas` that returns, without a reading of the clock over the limit, has made
a detection pass; `IncreasingDecreasingStrategy` returns `1` in every state, for which
`Continue` holds when `max ≥ 1`; and `SameNextDeltaStrategy` hands `FirstDelta()` and
`Continue` on to the inner strategy.  For `RandomDeltaStrategy` the counter of the deltas
is at least 1 after `FirstDelta()` and stays so in every call of `NextDelta`: in every
state that a sweep leaves behind, the assertion `numberOfDeltasSinceUpdate_ == 0` of
`FirstDelta()` fails; and in a program compiled with `NDEBUG`, `Continue` does not hold
after `FirstDelta()` when the sweep before has used up the vector, so the next call of
`RunNCCforAllDeltas` makes no detection pass. -/
theorem random_strategy_cannot_begin_second_sweep :
    (∀ max : Int, 1 ≤ max →
        (1 ≤ (IncreasingDeltaStrategy max).FirstDelta
          ∧ (IncreasingDeltaStrategy max).FirstDelta ≤ max
          ∧ (IncreasingDeltaStrategy max).Continue (IncreasingDeltaStrategy max).FirstDelta = true)
        ∧ (1 ≤ (DecreasingDeltaStrategy max).FirstDelta
          ∧ (DecreasingDeltaStrategy max).FirstDelta ≤ max
          ∧ (DecreasingDeltaStrategy max).Continue (DecreasingDeltaStrategy max).FirstDelta = true)
        ∧ ∀ (detection : WindfarmResidual → DetectionResult) (fuel : Nat) (st st' : NCCState)
            (atCompletion : Bool) (code : ReturnCode) (passes : List DeltaPass),
            (NegativeCycleCanceling.RunNCCforAllDeltas (IncreasingDeltaStrategy max) detection
                fuel st [] atCompletion = some (code, st', passes)
              ∨ NegativeCycleCanceling.RunNCCforAllDeltas (DecreasingDeltaStrategy max) detection
                fuel st [] atCompletion = some (code, st', passes)) →
            passes ≠ [])
      ∧ (∀ s : IncreasingDecreasingStrategy, s.FirstDelta = (1, s)
          ∧ (1 ≤ s.maximumFlowChange → s.Continue 1 = true))
      ∧ (∀ (S : Type) (ops : DeltaStrategyOps S) (s : SameNextDeltaStrategy S),
          (SameNextDeltaStrategy.FirstDelta ops s).map Prod.fst
              = (ops.FirstDelta s.deltaStrategy).map Prod.fst
            ∧ ∀ d s1, SameNextDeltaStrategy.FirstDelta ops s = some (d, s1) →
              ∃ inner, ops.FirstDelta s.deltaStrategy = some (d, inner)
                ∧ SameNextDeltaStrategy.Continue ops s1 d = ops.Continue inner d)
      ∧ (∀ (R : Type) (shuffle : R → List Int → List Int × R) ( ndebug : Bool)
          (s0 s : RandomDeltaStrategy R) (d : Int) (s1 : RandomDeltaStrategy R),
          (RandomDeltaStrategy.ops shuffle ndebug).Reaches s0 s →
          RandomDeltaStrategy.FirstDelta shuffle ndebug s = some (d, s1) →
          ∀ s2, (RandomDeltaStrategy.ops shuffle ndebug).Reaches s1 s2 →
            1 ≤ s2.numberOfDeltasSinceUpdate
              ∧ RandomDeltaStrategy.FirstDelta shuffle false s2 = none)
      ∧ (∀ (R : Type) (shuffle : R → List Int → List Int × R) (s : RandomDeltaStrategy R)
          (d : Int) (s1 : RandomDeltaStrategy R),
          (∀ rng vector, (shuffle rng vector).1.length = vector.length) →
          s.allDeltasRandomized.length ≤ s.numberOfDeltasSinceUpdate →
          RandomDeltaStrategy.FirstDelta shuffle true s = some (d, s1) →
          s1.Continue d = false)
      ∧ ((RandomDeltaStrategy.FirstDelta reversingShuffle false
            (RandomDeltaStrategy.create 2 ())).map Prod.fst = some 2
        ∧ ((RandomDeltaStrategy.FirstDelta reversingShuffle false
            (RandomDeltaStrategy.create 2 ())).bind fun r =>
              (RandomDeltaStrategy.FirstDelta reversingShuffle false r.2).map Prod.fst)
          = none) := by
  refine ⟨?_, ?_, ?_, ?_, ?_, by decide⟩
  · intro max hmax
    refine ⟨⟨le_rfl, hmax, by simpa [IncreasingDeltaStrategy] using hmax⟩,
      ⟨hmax, le_rfl, by
        show decide (max > 0) = true
        simp only [decide_eq_true_eq]
        omega⟩, ?_⟩
    intro detection fuel st st' atCompletion code passes h
    rcases h with h | h
    · exact NegativeCycleCanceling.runNCCforAllDeltas_makes_a_pass _ detection fuel st st'
        atCompletion code passes (by simpa [IncreasingDeltaStrategy] using hmax) h
    · exact NegativeCycleCanceling.runNCCforAllDeltas_makes_a_pass _ detection fuel st st'
        atCompletion code passes (by
          show decide (max > 0) = true
          simp only [decide_eq_true_eq]
          omega) h
  · intro s
    refine ⟨rfl, fun h => ?_⟩
    unfold IncreasingDecreasingStrategy.Continue
    simpa using h
  · intro S ops s
    constructor
    · unfold SameNextDeltaStrategy.FirstDelta
      cases ops.FirstDelta s.deltaStrategy with
      | none => rfl
      | some r => rfl
    · intro d s1 h
      unfold SameNextDeltaStrategy.FirstDelta at h
      cases hf : ops.FirstDelta s.deltaStrategy with
      | none =>
        rw [hf] at h
        exact absurd h (by simp)
      | some r =>
        obtain ⟨d', inner⟩ := r
        rw [hf] at h
        simp only [Option.some.injEq, Prod.mk.injEq] at h
        obtain ⟨h1, h2⟩ := h
        subst h1
        rw [← h2]
        exact ⟨inner, rfl, rfl⟩
  · intro R shuffle ndebug s0 s d s1 _ hf s2 hr
    have h1 : 1 ≤ s1.numberOfDeltasSinceUpdate := by
      have := (RandomDeltaStrategy.firstDelta_counter shuffle ndebug s s1 d hf).1
      omega
    have h2 : 1 ≤ s2.numberOfDeltasSinceUpdate := by
      rcases RandomDeltaStrategy.reaches_counter shuffle ndebug s1 s2 hr with h | h
      · rw [h]
        exact h1
      · exact h
    refine ⟨h2, ?_⟩
    unfold RandomDeltaStrategy.FirstDelta
    rw [if_pos ⟨rfl, by omega⟩]
  · intro R shuffle s d s1 hlen hs hf
    obtain ⟨k1, k2⟩ := RandomDeltaStrategy.firstDelta_counter shuffle true s s1 d hf
    unfold RandomDeltaStrategy.Continue RandomDeltaStrategy.ContinuePrivate
    rw [k1, k2, hlen]
    simp only [decide_eq_false_iff_not, not_le]
    omega

/-- Witness of C39: the maximum 2 and a generator whose shuffle reverses the vector.  The
object that `FirstDelta()` leaves behind has the counter 1, and a second call of
`FirstDelta()` fails its assertion. -/
theorem random_strategy_cannot_begin_second_sweep_witness :
    ∃ s1, RandomDeltaStrategy.FirstDelta reversingShuffle false (RandomDeltaStrategy.create 2 ())
        = some (2, s1)
      ∧ 1 ≤ s1.numberOfDeltasSinceUpdate
      ∧ RandomDeltaStrategy.FirstDelta reversingShuffle false s1 = none :=
  ⟨_, rfl,
    random_strategy_cannot_begin_second_sweep.2.2.2.1 Unit reversingShuffle false
      (RandomDeltaStrategy.create 2 ()) (RandomDeltaStrategy.create 2 ()) 2 _
      (DeltaStrategyOps.Reaches.refl _) rfl _ (DeltaStrategyOps.Reaches.refl _)⟩

end wcp

/-! # The bonbon record of `EscapingNCC` -/

namespace wcp

namespace NegativeCycleCanceling

open WindfarmResidual

theorem foldl_cancel_isStateOf (w0 : WindfarmResidual) (d : Int) (L : List (List Nat)) :
    ∀ w : WindfarmResidual,
      (L.foldl (fun w C => if CycleWillBeCanceled w0 C = true then
          w.AddFlowOnMultipleEdges C d else w) w).IsStateOf w := by
  induction L with
  | nil => intro w; exact IsStateOf_refl w
  | cons C L ih =>
    intro w
    rw [List.foldl_cons]
    refine IsStateOf_trans (ih _) ?_
    by_cases h : CycleWillBeCanceled w0 C = true
    · rw [if_pos h]
      exact (addFlowOnMultipleEdges_state C d w).1
    · rw [if_neg h]
      exact IsStateOf_refl w

/-- On a closed walk and with all visited flags reset, `CancelNegativeWalk` returns; the
residual graph afterwards is a state of the one before, all visited flags are reset again,
and the value returned is `true` iff one of the slices handed to `CancelCycle` was
cancelled. -/
theorem cancelNegativeWalk_closed {inst : Instance} (d : Int) (st : NCCState)
    (hb : Built inst st.windfarm)
    (hvis : st.visitedVertex = List.replicate st.windfarm.NumberOfVertices false)
    (walk : List Nat) (hwalk : IsClosedWalk st.windfarm walk) (isRegularNCCrun : Bool) :
    ∃ st' b, CancelNegativeWalk st walk d isRegularNCCrun = some (st', b)
      ∧ st'.windfarm.IsStateOf st.windfarm
      ∧ st'.visitedVertex = List.replicate st.windfarm.NumberOfVertices false
      ∧ (b = true ↔
          ∃ C ∈ CancelNegativeWalkSlices walk.length
            { st := st, walk := walk, currentIndex := 0, canceledAnyCycle := false } d,
            CycleWillBeCanceled st.windfarm C = true) := by
  have hne : walk ≠ [] := hwalk.1
  have hpos : 0 < walk.length := List.length_pos.2 hne
  have hinv : WalkInv st.windfarm walk 0 st.visitedVertex := by
    refine ⟨?_, ?_, fun _ => rfl, ?_⟩
    · rw [hvis, List.length_replicate]
    · rw [hvis]
      exact marks_nil_replicate _
    · intro _
      refine ⟨hwalk, hpos, ?_⟩
      cases walk with
      | nil => exact List.nodup_nil
      | cons x xs => exact List.nodup_singleton _
  obtain ⟨s, i1, _, _, _, i5, i6, i7, _⟩ :=
    cancelNegativeWalkLoop_slices d walk.length
      { st := st, walk := walk, currentIndex := 0, canceledAnyCycle := false } hb hinv le_rfl
  refine ⟨{ s.st with
      walkID := if isRegularNCCrun then s.st.walkID + 1 else s.st.walkID },
    s.canceledAnyCycle, ?_, ?_, i7, ?_⟩
  · unfold CancelNegativeWalk
    rw [i1]
  · show s.st.windfarm.IsStateOf st.windfarm
    rw [i5]
    exact foldl_cancel_isStateOf _ _ _ _
  · rw [i6]
    simp only [Bool.false_or, List.any_eq_true]

end NegativeCycleCanceling

namespace EscapingNCC

/-- The outer loop with the reset of the bonbon before every run of `RunNCCforAllDeltas`
does not read the bonbon that the members hold when it starts. -/
theorem alternate_resets_bonbon {E : Type} (calls : EscapingCalls (BonbonInformation × E))
    (fuel' fuel : Nat) (s : EscapingNCC (BonbonInformation × E)) (bonbon : BonbonInformation) :
    AlternateNCCandEscaping (resetBonbon calls) fuel' fuel
        { s with members := { s.members with rest := (bonbon, s.members.rest.2) } }
      = AlternateNCCandEscaping (resetBonbon calls) fuel' fuel s := by
  have h : runNCC (resetBonbon calls)
      { s with members := { s.members with rest := (bonbon, s.members.rest.2) } }
      = runNCC (resetBonbon calls) s := rfl
  cases fuel with
  | zero => rfl
  | succ fuel =>
    unfold AlternateNCCandEscaping
    rw [h]

end EscapingNCC

/-- C34: let the residual graph of the driver be a state of the graph that the constructor
builds for an instance and let all visited flags be reset.  For every closed walk of edges
of the graph, `CancelNegativeWalk(walk, Δ)` of `EscapingNCC` returns what the function of
the base class returns, and the bonbon record afterwards is `(Δ, first edge of the walk)`
if the value returned is `false` and `(-1, INVALID_EDGE)` if it is `true`, whatever the
record was before; the value returned is `true` iff one of the slices of the walk handed
to `CancelCycle` was cancelled.  `Reset` sets the record to `(-1, INVALID_EDGE)`, every
iteration of the outer loop runs `RunNCCforAllDeltas` on the record after `Reset`, and the
outer loop does not depend on the record at its start. -/
theorem bonbon_records_unhelpful_walk (inst : Instance) (w0 : WindfarmResidual)
    (h0 : WindfarmResidual.ofInstance inst = some w0) (st : NCCState)
    (hw : st.windfarm.IsStateOf w0)
    (hvis : st.visitedVertex = List.replicate st.windfarm.NumberOfVertices false)
    (walk : List Nat) (hwalk : IsClosedWalk st.windfarm walk) (delta : Int)
    (isRegularNCCrun : Bool) (bonbon : BonbonInformation) :
    (∃ st' canceledAnyCycle firstEdge,
        walk.head? = some firstEdge
        ∧ NegativeCycleCanceling.CancelNegativeWalk st walk delta isRegularNCCrun
          = some (st', canceledAnyCycle)
        ∧ EscapingNCC.CancelNegativeWalk st bonbon walk delta isRegularNCCrun
          = some (st',
              (if canceledAnyCycle = true then
                ({ changeOfFlow := -1, edgeOnBonbon := none } : BonbonInformation)
              else { changeOfFlow := delta, edgeOnBonbon := some firstEdge }),
              canceledAnyCycle)
        ∧ (canceledAnyCycle = true ↔
            ∃ C ∈ NegativeCycleCanceling.CancelNegativeWalkSlices walk.length
              { st := st, walk := walk, currentIndex := 0, canceledAnyCycle := false } delta,
              NegativeCycleCanceling.CycleWillBeCanceled st.windfarm C = true))
      ∧ bonbon.Reset = { changeOfFlow := -1, edgeOnBonbon := none }
      ∧ (∀ (E : Type) (calls : EscapingCalls (BonbonInformation × E))
          (members : NCCMembers (BonbonInformation × E)),
          (EscapingNCC.resetBonbon calls).RunNCCforAllDeltas members
            = calls.RunNCCforAllDeltas
                { members with
                  rest := ({ changeOfFlow := -1, edgeOnBonbon := none }, members.rest.2) })
      ∧ (∀ (E : Type) (calls : EscapingCalls (BonbonInformation × E)) (fuel' fuel : Nat)
          (s : EscapingNCC (BonbonInformation × E)),
          EscapingNCC.AlternateNCCandEscaping (EscapingNCC.resetBonbon calls) fuel' fuel
              { s with members := { s.members with rest := (bonbon, s.members.rest.2) } }
            = EscapingNCC.AlternateNCCandEscaping (EscapingNCC.resetBonbon calls) fuel' fuel
                s) := by
  have hb : Built inst st.windfarm := built_of_state inst w0 _ h0 hw
  obtain ⟨st', c, h1, _, _, h4⟩ :=
    NegativeCycleCanceling.cancelNegativeWalk_closed delta st hb hvis walk hwalk isRegularNCCrun
  refine ⟨?_, rfl, fun _ _ _ => rfl,
    fun E calls fuel' fuel s => EscapingNCC.alternate_resets_bonbon calls fuel' fuel s bonbon⟩
  cases hwk : walk with
  | nil => exact absurd hwk hwalk.1
  | cons e rest =>
    rw [← hwk]
    refine ⟨st', c, e, by rw [hwk]; rfl, h1, ?_, h4⟩
    unfold EscapingNCC.CancelNegativeWalk EscapingNCC.dealWithBonbons
    rw [h1, hwk]
    rfl

/-- Witness of C34: the closed walk `2, 1, 3, 0, 4, 5` on the triangle with the flow
`[1, 1, 0, 2]` and the residual costs for `Δ = 1`, with a record left from before. -/
theorem bonbon_records_unhelpful_walk_witness :
    IsClosedWalk (triangleGraph [1, 1, 0, 2] [0, 0, 20, -200, -200, 20, 0, 0])
        [2, 1, 3, 0, 4, 5]
      ∧ ((∃ st' canceledAnyCycle firstEdge,
          [2, 1, 3, 0, 4, 5].head? = some firstEdge
          ∧ NegativeCycleCanceling.CancelNegativeWalk
              { windfarm := triangleGraph [1, 1, 0, 2] [0, 0, 20, -200, -200, 20, 0, 0]
                visitedVertex := [false, false, false, false]
                walkID := 0
                solutionCosts := 400 } [2, 1, 3, 0, 4, 5] 1 true
            = some (st', canceledAnyCycle)
          ∧ EscapingNCC.CancelNegativeWalk
              { windfarm := triangleGraph [1, 1, 0, 2] [0, 0, 20, -200, -200, 20, 0, 0]
                visitedVertex := [false, false, false, false]
                walkID := 0
                solutionCosts := 400 } { changeOfFlow := 7, edgeOnBonbon := some 3 }
              [2, 1, 3, 0, 4, 5] 1 true
            = some (st',
                (if canceledAnyCycle = true then
                  ({ changeOfFlow := -1, edgeOnBonbon := none } : BonbonInformation)
                else { changeOfFlow := 1, edgeOnBonbon := some firstEdge }),
                canceledAnyCycle)
          ∧ (canceledAnyCycle = true ↔
              ∃ C ∈ NegativeCycleCanceling.CancelNegativeWalkSlices [2, 1, 3, 0, 4, 5].length
                { st := { windfarm :=
                            triangleGraph [1, 1, 0, 2] [0, 0, 20, -200, -200, 20, 0, 0]
                          visitedVertex := [false, false, false, false]
                          walkID := 0
                          solutionCosts := 400 }
                  walk := [2, 1, 3, 0, 4, 5]
                  currentIndex := 0
                  canceledAnyCycle := false } 1,
                NegativeCycleCanceling.CycleWillBeCanceled
                  (triangleGraph [1, 1, 0, 2] [0, 0, 20, -200, -200, 20, 0, 0]) C = true))
        ∧ BonbonInformation.Reset { changeOfFlow := 7, edgeOnBonbon := some 3 }
            = { changeOfFlow := -1, edgeOnBonbon := none }
        ∧ (∀ (E : Type) (calls : EscapingCalls (BonbonInformation × E))
            (members : NCCMembers (BonbonInformation × E)),
            (EscapingNCC.resetBonbon calls).RunNCCforAllDeltas members
              = calls.RunNCCforAllDeltas
                  { members with
                    rest := ({ changeOfFlow := -1, edgeOnBonbon := none }, members.rest.2) })
        ∧ (∀ (E : Type) (calls : EscapingCalls (BonbonInformation × E)) (fuel' fuel : Nat)
            (s : EscapingNCC (BonbonInformation × E)),
            EscapingNCC.AlternateNCCandEscaping (EscapingNCC.resetBonbon calls) fuel' fuel
                { s with
                  members :=
                    { s.members with
                      rest := ({ changeOfFlow := 7, edgeOnBonbon := some 3 },
                        s.members.rest.2) } }
              = EscapingNCC.AlternateNCCandEscaping (EscapingNCC.resetBonbon calls) fuel' fuel
                  s)) :=
  ⟨triangle_closed_walk _ _,
    bonbon_records_unhelpful_walk triangleInstance _ triangle_ofInstance
      { windfarm := triangleGraph [1, 1, 0, 2] [0, 0, 20, -200, -200, 20, 0, 0]
        visitedVertex := [false, false, false, false]
        walkID := 0
        solutionCosts := 400 }
      (triangle_isStateOf _ _ rfl rfl) rfl [2, 1, 3, 0, 4, 5] (triangle_closed_walk _ _) 1 true
      { changeOfFlow := 7, edgeOnBonbon := some 3 }⟩

end wcp

/-! # The visited flags are reset when `CancelNegativeWalk` returns -/

namespace wcp

open WindfarmResidual

theorem isClosedWalk_congr {w' w : WindfarmResidual} (h : w'.IsStateOf w) (W : List Nat)
    (hc : IsClosedWalk w W) : IsClosedWalk w' W := by
  obtain ⟨t1, t2, _, _, _, _, _, _, _, _, t11, _, _⟩ := IsStateOf_topology h
  have f1 : w'.StartVertex = w.StartVertex := funext t1
  have f2 : w'.EndVertex = w.EndVertex := funext t2
  unfold IsClosedWalk at hc ⊢
  rw [f1, f2, t11]
  exact hc

theorem numberOfVertices_congr {w' w : WindfarmResidual} (h : w'.IsStateOf w) :
    w'.NumberOfVertices = w.NumberOfVertices :=
  (IsStateOf_topology h).2.2.2.2.2.2.2.2.2.2.2.1

namespace NegativeCycleCanceling

/-- The assertion holds iff every flag is `false`. -/
theorem assertNoVertexVisited_iff (st : NCCState) :
    AssertNoVertexVisited st = true
      ↔ st.visitedVertex = List.replicate st.visitedVertex.length false := by
  unfold AssertNoVertexVisited
  generalize st.visitedVertex = V
  induction V with
  | nil => simp
  | cons v V ih =>
    rw [List.all_cons, Bool.and_eq_true, ih, List.length_cons, List.replicate_succ,
      List.cons.injEq]
    cases v <;> simp

/-- The flags are those of the vertices of the graph and all of them are `false`. -/
theorem flags_reset_iff (st : NCCState) :
    (st.visitedVertex.length = st.windfarm.NumberOfVertices ∧ AssertNoVertexVisited st = true)
      ↔ st.visitedVertex = List.replicate st.windfarm.NumberOfVertices false := by
  rw [assertNoVertexVisited_iff]
  constructor
  · rintro ⟨h1, h2⟩
    rw [← h1]
    exact h2
  · intro h
    have hl : st.visitedVertex.length = st.windfarm.NumberOfVertices := by
      rw [h, List.length_replicate]
    exact ⟨hl, by rw [hl]; exact h⟩

/-- A call of `CancelNegativeWalk` on a closed walk that starts with the flags reset returns
with the flags reset. -/
theorem cancelNegativeWalk_flags (inst : Instance) (w0 : WindfarmResidual)
    (h0 : WindfarmResidual.ofInstance inst = some w0) (d : Int) (st : NCCState)
    (hw : st.windfarm.IsStateOf w0)
    (hvis : st.visitedVertex = List.replicate st.windfarm.NumberOfVertices false)
    (walk : List Nat) (hwalk : IsClosedWalk st.windfarm walk) (isRegularNCCrun : Bool) :
    ∃ st' b, CancelNegativeWalk st walk d isRegularNCCrun = some (st', b)
      ∧ st'.windfarm.IsStateOf w0
      ∧ st'.visitedVertex = List.replicate st'.windfarm.NumberOfVertices false := by
  obtain ⟨st', b, h1, h2, h3, _⟩ := cancelNegativeWalk_closed d st
    (built_of_state inst w0 _ h0 hw) hvis walk hwalk isRegularNCCrun
  refine ⟨st', b, h1, IsStateOf_trans h2 hw, ?_⟩
  rw [h3, numberOfVertices_congr h2]

/-- The loop over the walks: every call of `CancelNegativeWalk` starts with the flags reset,
and the loop ends with the flags reset. -/
theorem extractWalkAndCancelCycle_flags (inst : Instance) (w0 : WindfarmResidual)
    (h0 : WindfarmResidual.ofInstance inst = some w0) (d : Int) (isRegularNCCrun : Bool) :
    ∀ (walks : List (List Nat)) (st : NCCState) (clock : List Bool),
      st.windfarm.IsStateOf w0 →
      st.visitedVertex = List.replicate st.windfarm.NumberOfVertices false →
      (∀ walk ∈ walks, walk ≠ [] → IsClosedWalk w0 walk) →
      (∀ c ∈ ExtractWalkAndCancelCycleCalls d isRegularNCCrun walks st clock,
          c.windfarm.IsStateOf w0
            ∧ c.visitedVertex = List.replicate c.windfarm.NumberOfVertices false)
        ∧ ∃ st' b, ExtractWalkAndCancelCycle d isRegularNCCrun walks st clock = some (st', b)
          ∧ st'.windfarm.IsStateOf w0
          ∧ st'.visitedVertex = List.replicate st'.windfarm.NumberOfVertices false := by
  intro walks
  induction walks with
  | nil =>
    intro st clock hw hvis _
    refine ⟨?_, st, false, rfl, hw, hvis⟩
    intro c hc
    unfold ExtractWalkAndCancelCycleCalls at hc
    exact absurd hc (List.not_mem_nil _)
  | cons walk rest ih =>
    intro st clock hw hvis hwalks
    unfold ExtractWalkAndCancelCycleCalls ExtractWalkAndCancelCycle
    by_cases h1 : walk.isEmpty = true
    · rw [if_pos h1, if_pos h1]
      exact ⟨fun c hc => absurd hc (List.not_mem_nil _), st, false, rfl, hw, hvis⟩
    · rw [if_neg h1, if_neg h1]
      by_cases h2 : (IsTimeLimitExceeded clock).1 = true
      · rw [if_pos h2, if_pos h2]
        exact ⟨fun c hc => absurd hc (List.not_mem_nil _), st, false, rfl, hw, hvis⟩
      · rw [if_neg h2, if_neg h2]
        have hne : walk ≠ [] := by
          intro h
          apply h1
          rw [h]
          rfl
        obtain ⟨st1, b, c1, c2, c3⟩ := cancelNegativeWalk_flags inst w0 h0 d st hw hvis walk
          (isClosedWalk_congr hw walk (hwalks walk (List.mem_cons_self _ _) hne))
          isRegularNCCrun
        rw [c1]
        cases b with
        | true =>
          refine ⟨?_, st1, true, rfl, c2, c3⟩
          intro c hc
          rw [List.mem_cons] at hc
          rcases hc with hc | hc
          · rw [hc]
            exact ⟨hw, hvis⟩
          · exact absurd hc (List.not_mem_nil _)
        | false =>
          obtain ⟨i1, i2⟩ := ih st1 (IsTimeLimitExceeded clock).2 c2 c3
            (fun w hwm => hwalks w (List.mem_cons_of_mem _ hwm))
          refine ⟨?_, i2⟩
          intro c hc
          rw [List.mem_cons] at hc
          rcases hc with hc | hc
          · rw [hc]
            exact ⟨hw, hvis⟩
          · exact i1 c hc

/-- A call of `PerformNegativeCycleCancelingForSingleDelta`: every call of
`CancelNegativeWalk` starts with the flags reset, and the call returns with the flags
reset. -/
theorem pass_flags (inst : Instance) (w0 : WindfarmResidual)
    (h0 : WindfarmResidual.ofInstance inst = some w0)
    (detection : WindfarmResidual → DetectionResult)
    (hdet : ∀ w : WindfarmResidual, w.IsStateOf w0 →
      ∀ walk ∈ (detection w).walks, walk ≠ [] → IsClosedWalk w walk)
    (st : NCCState) (hw : st.windfarm.IsStateOf w0)
    (hvis : st.visitedVertex = List.replicate st.windfarm.NumberOfVertices false)
    (delta : Int) (isRegularNCCrun : Bool) (clock : List Bool) :
    (∀ c ∈ PerformNegativeCycleCancelingForSingleDeltaCalls detection st delta
          isRegularNCCrun clock,
        c.windfarm.IsStateOf w0
          ∧ c.visitedVertex = List.replicate c.windfarm.NumberOfVertices false)
      ∧ ∃ code st', PerformNegativeCycleCancelingForSingleDelta detection st delta
            isRegularNCCrun clock = some (code, st')
          ∧ st'.windfarm.IsStateOf w0
          ∧ st'.visitedVertex = List.replicate st'.windfarm.NumberOfVertices false := by
  have hst : (StandardResidualCostComputer.ComputeResidualCosts st.windfarm delta).IsStateOf
      st.windfarm := StandardResidualCostComputer.ComputeStandardResidualCosts_isStateOf _ _
  have hw1 := IsStateOf_trans hst hw
  have hvis1 : st.visitedVertex = List.replicate
      (StandardResidualCostComputer.ComputeResidualCosts st.windfarm delta).NumberOfVertices
      false := by
    rw [numberOfVertices_congr hst]
    exact hvis
  unfold PerformNegativeCycleCancelingForSingleDeltaCalls
    PerformNegativeCycleCancelingForSingleDelta
  simp only
  by_cases c1 : (IsTimeLimitExceeded clock).1 = true
  · rw [if_pos c1, if_pos c1]
    exact ⟨fun c hc => absurd hc (List.not_mem_nil _), _, _, rfl, hw1, hvis1⟩
  · rw [if_neg c1, if_neg c1]
    by_cases c2 : (detection
        (StandardResidualCostComputer.ComputeResidualCosts st.windfarm delta)).code
          = ReturnCode.SUCCESS
    · rw [if_pos c2, if_pos c2]
      obtain ⟨i1, st', b, i2, i3, i4⟩ := extractWalkAndCancelCycle_flags inst w0 h0 delta
        isRegularNCCrun
        (detection (StandardResidualCostComputer.ComputeResidualCosts st.windfarm delta)).walks
        { st with windfarm :=
            StandardResidualCostComputer.ComputeResidualCosts st.windfarm delta }
        (IsTimeLimitExceeded clock).2 hw1 hvis1
        (fun walk hwalk hne =>
          isClosedWalk_congr (IsStateOf_symm hw1) walk (hdet _ hw1 walk hwalk hne))
      rw [i2]
      exact ⟨i1, _, st', rfl, i3, i4⟩
    · rw [if_neg c2, if_neg c2]
      exact ⟨fun c hc => absurd hc (List.not_mem_nil _), _, _, rfl, hw1, hvis1⟩

/-- The loop of `RunNCCforAllDeltas`: every call of `CancelNegativeWalk` starts with the
flags reset, and when the loop ends the flags are reset. -/
theorem run_flags (inst : Instance) (w0 : WindfarmResidual)
    (h0 : WindfarmResidual.ofInstance inst = some w0) (strategy : DeltaStrategy)
    (detection : WindfarmResidual → DetectionResult)
    (hdet : ∀ w : WindfarmResidual, w.IsStateOf w0 →
      ∀ walk ∈ (detection w).walks, walk ≠ [] → IsClosedWalk w walk) :
    ∀ (fuel : Nat) (delta : Int) (st : NCCState) (clocks : List (Bool × List Bool)),
      st.windfarm.IsStateOf w0 →
      st.visitedVertex = List.replicate st.windfarm.NumberOfVertices false →
      (∀ c ∈ RunNCCforAllDeltasLoopCalls strategy detection fuel delta st clocks,
          c.windfarm.IsStateOf w0
            ∧ c.visitedVertex = List.replicate c.windfarm.NumberOfVertices false)
        ∧ ∀ passes st' passes',
          RunNCCforAllDeltasLoop strategy detection fuel delta st clocks passes
              = some (st', passes') →
            st'.windfarm.IsStateOf w0
              ∧ st'.visitedVertex = List.replicate st'.windfarm.NumberOfVertices false := by
  intro fuel
  induction fuel with
  | zero =>
    intro delta st clocks hw hvis
    refine ⟨fun c hc => absurd hc (List.not_mem_nil _), ?_⟩
    intro passes st' passes' h
    unfold RunNCCforAllDeltasLoop at h
    split_ifs at h
    simp only [Option.some.injEq, Prod.mk.injEq] at h
    rw [← h.1]
    exact ⟨hw, hvis⟩
  | succ fuel ih =>
    intro delta st clocks hw hvis
    obtain ⟨p1, code, st1, p2, p3, p4⟩ := pass_flags inst w0 h0 detection hdet st hw hvis
      delta true (clocks.headD (false, [])).2
    unfold RunNCCforAllDeltasLoopCalls RunNCCforAllDeltasLoop
    by_cases c1 : ((clocks.headD (false, [])).1 || !strategy.Continue delta) = true
    · rw [if_pos c1]
      refine ⟨fun c hc => absurd hc (List.not_mem_nil _), ?_⟩
      intro passes st' passes' h
      rw [if_pos c1] at h
      simp only [Option.some.injEq, Prod.mk.injEq] at h
      rw [← h.1]
      exact ⟨hw, hvis⟩
    · rw [if_neg c1, p2]
      simp only
      by_cases c2 : code = ReturnCode.TIME_LIMIT
      · rw [if_pos c2]
        refine ⟨?_, ?_⟩
        · intro c hc
          rw [List.append_nil] at hc
          exact p1 c hc
        · intro passes st' passes' h
          rw [if_neg c1, if_pos c2] at h
          simp only [Option.some.injEq, Prod.mk.injEq] at h
          rw [← h.1]
          exact ⟨p3, p4⟩
      · rw [if_neg c2]
        obtain ⟨i1, i2⟩ := ih (strategy.NextDelta delta (decide (code = ReturnCode.SUCCESS)))
          st1 clocks.tail p3 p4
        refine ⟨?_, ?_⟩
        · intro c hc
          rw [List.mem_append] at hc
          rcases hc with hc | hc
          · exact p1 c hc
          · exact i1 c hc
        · intro passes st' passes' h
          rw [if_neg c1, if_neg c2] at h
          exact i2 _ _ _ h

end NegativeCycleCanceling

/-- C38: let the residual graph of the driver be a state of the graph that the constructor
builds for an instance, let `visitedVertex_` have one entry for every vertex, and let every
entry be `false`.  Then for every closed walk of edges of the graph `CancelNegativeWalk`
returns, and when it returns `visitedVertex_` has the same length and every entry is
`false` again.  So when the walks that the detection strategy returns are closed walks, a
call of `PerformNegativeCycleCancelingForSingleDelta` returns with every entry `false`, and
the entry assertion holds at every call of `CancelNegativeWalk` made during the loop of
`RunNCCforAllDeltas`, and for the members with which the loop ends. -/
theorem visited_flags_reset_after_cancel_walk (inst : Instance) (w0 : WindfarmResidual)
    (h0 : WindfarmResidual.ofInstance inst = some w0) (st : NCCState)
    (hw : st.windfarm.IsStateOf w0)
    (hlen : st.visitedVertex.length = st.windfarm.NumberOfVertices)
    (hvis : NegativeCycleCanceling.AssertNoVertexVisited st = true) :
    (∀ (walk : List Nat), IsClosedWalk st.windfarm walk →
        ∀ (delta : Int) (isRegularNCCrun : Bool),
          ∃ st' canceledAnyCycle,
            NegativeCycleCanceling.CancelNegativeWalk st walk delta isRegularNCCrun
                = some (st', canceledAnyCycle)
              ∧ st'.visitedVertex.length = st.visitedVertex.length
              ∧ NegativeCycleCanceling.AssertNoVertexVisited st' = true)
      ∧ ∀ (detection : WindfarmResidual → DetectionResult),
          (∀ w : WindfarmResidual, w.IsStateOf w0 →
            ∀ walk ∈ (detection w).walks, walk ≠ [] → IsClosedWalk w walk) →
          (∀ (delta : Int) (isRegularNCCrun : Bool) (clock : List Bool),
              (∀ c ∈ NegativeCycleCanceling.PerformNegativeCycleCancelingForSingleDeltaCalls
                    detection st delta isRegularNCCrun clock,
                  NegativeCycleCanceling.AssertNoVertexVisited c = true)
                ∧ ∃ code st',
                  NegativeCycleCanceling.PerformNegativeCycleCancelingForSingleDelta detection
                      st delta isRegularNCCrun clock = some (code, st')
                    ∧ NegativeCycleCanceling.AssertNoVertexVisited st' = true)
            ∧ ∀ (strategy : DeltaStrategy) (fuel : Nat) (delta : Int)
                (clocks : List (Bool × List Bool)),
                (∀ c ∈ NegativeCycleCanceling.RunNCCforAllDeltasLoopCalls strategy detection
                      fuel delta st clocks,
                    NegativeCycleCanceling.AssertNoVertexVisited c = true)
                  ∧ ∀ passes st' passes',
                    NegativeCycleCanceling.RunNCCforAllDeltasLoop strategy detection fuel delta
                        st clocks passes = some (st', passes') →
                      NegativeCycleCanceling.AssertNoVertexVisited st' = true := by
  have hv := (NegativeCycleCanceling.flags_reset_iff st).1 ⟨hlen, hvis⟩
  refine ⟨?_, ?_⟩
  · intro walk hwalk delta isRegularNCCrun
    obtain ⟨st', b, h1, h2, h3⟩ := NegativeCycleCanceling.cancelNegativeWalk_flags inst w0 h0
      delta st hw hv walk hwalk isRegularNCCrun
    have h4 := (NegativeCycleCanceling.flags_reset_iff st').2 h3
    refine ⟨st', b, h1, ?_, h4.2⟩
    rw [h4.1, hlen, numberOfVertices_congr h2, numberOfVertices_congr hw]
  · intro detection hdet
    refine ⟨?_, ?_⟩
    · intro delta isRegularNCCrun clock
      obtain ⟨p1, code, st', p2, _, p4⟩ := NegativeCycleCanceling.pass_flags inst w0 h0
        detection hdet st hw hv delta isRegularNCCrun clock
      exact ⟨fun c hc => ((NegativeCycleCanceling.flags_reset_iff c).2 (p1 c hc).2).2,
        code, st', p2, ((NegativeCycleCanceling.flags_reset_iff st').2 p4).2⟩
    · intro strategy fuel delta clocks
      obtain ⟨r1, r2⟩ := NegativeCycleCanceling.run_flags inst w0 h0 strategy detection hdet
        fuel delta st clocks hw hv
      exact ⟨fun c hc => ((NegativeCycleCanceling.flags_reset_iff c).2 (r1 c hc).2).2,
        fun passes st' passes' h =>
          ((NegativeCycleCanceling.flags_reset_iff st').2 (r2 passes st' passes' h).2).2⟩

/-- Witness of C38: the triangle with the flow `[1, 1, 0, 2]`, the residual costs for
`Δ = 1` and four flags `false`; the closed walk `2, 1, 3, 0, 4, 5`, and a detection strategy
that returns this walk. -/
theorem visited_flags_reset_after_cancel_walk_witness :
    NegativeCycleCanceling.AssertNoVertexVisited
        { windfarm := triangleGraph [1, 1, 0, 2] [0, 0, 20, -200, -200, 20, 0, 0]
          visitedVertex := [false, false, false, false]
          walkID := 0
          solutionCosts := 400 } = true
      ∧ (∃ st' canceledAnyCycle,
          NegativeCycleCanceling.CancelNegativeWalk
              { windfarm := triangleGraph [1, 1, 0, 2] [0, 0, 20, -200, -200, 20, 0, 0]
                visitedVertex := [false, false, false, false]
                walkID := 0
                solutionCosts := 400 } [2, 1, 3, 0, 4, 5] 1 true
              = some (st', canceledAnyCycle)
            ∧ st'.visitedVertex.length = [false, false, false, false].length
            ∧ NegativeCycleCanceling.AssertNoVertexVisited st' = true)
      ∧ ∀ (strategy : DeltaStrategy) (fuel : Nat) (delta : Int)
          (clocks : List (Bool × List Bool)),
          (∀ c ∈ NegativeCycleCanceling.RunNCCforAllDeltasLoopCalls strategy
                (fun _ => { code := ReturnCode.SUCCESS, walks := [[2, 1, 3, 0, 4, 5]] })
                fuel delta
                { windfarm := triangleGraph [1, 1, 0, 2] [0, 0, 20, -200, -200, 20, 0, 0]
                  visitedVertex := [false, false, false, false]
                  walkID := 0
                  solutionCosts := 400 } clocks,
              NegativeCycleCanceling.AssertNoVertexVisited c = true)
            ∧ ∀ passes st' passes',
              NegativeCycleCanceling.RunNCCforAllDeltasLoop strategy
                  (fun _ => { code := ReturnCode.SUCCESS, walks := [[2, 1, 3, 0, 4, 5]] })
                  fuel delta
                  { windfarm := triangleGraph [1, 1, 0, 2] [0, 0, 20, -200, -200, 20, 0, 0]
                    visitedVertex := [false, false, false, false]
                    walkID := 0
                    solutionCosts := 400 } clocks passes = some (st', passes') →
                NegativeCycleCanceling.AssertNoVertexVisited st' = true :=
  ⟨rfl,
    (visited_flags_reset_after_cancel_walk triangleInstance _ triangle_ofInstance
      { windfarm := triangleGraph [1, 1, 0, 2] [0, 0, 20, -200, -200, 20, 0, 0]
        visitedVertex := [false, false, false, false]
        walkID := 0
        solutionCosts := 400 }
      (triangle_isStateOf _ _ rfl rfl) rfl rfl).1 [2, 1, 3, 0, 4, 5]
        (triangle_closed_walk _ _) 1 true,
    ((visited_flags_reset_after_cancel_walk triangleInstance _ triangle_ofInstance
      { windfarm := triangleGraph [1, 1, 0, 2] [0, 0, 20, -200, -200, 20, 0, 0]
        visitedVertex := [false, false, false, false]
        walkID := 0
        solutionCosts := 400 }
      (triangle_isStateOf _ _ rfl rfl) rfl rfl).2
        (fun _ => { code := ReturnCode.SUCCESS, walks := [[2, 1, 3, 0, 4, 5]] })
        (by
          intro w hw walk hwalk _
          have hwk : walk = [2, 1, 3, 0, 4, 5] := by simpa using hwalk
          rw [hwk]
          exact isClosedWalk_congr hw _ (triangle_closed_walk _ _))).2⟩

end wcp

/-! # The search for the previous substation of a leaf on a cycle of positive flow -/

namespace wcp

theorem cycle_ofInstance :
    WindfarmResidual.ofInstance cycleInstance
      = some (cycleGraph [0, 0, 0, 0, 0, 0, 0] [0, 0, 0, 0, 0, 0, 0, 0, 0, 0, 0, 0, 0, 0]) := by
  rfl

namespace EscapingLeaves

/-- On the cycle `1, 2, 3` of positive flow the search goes from every edge to the next one,
so it does not return within any depth. -/
theorem explore_on_cycle (costs : List (WithTop ℚ)) (first : Nat) :
    ∀ (depth : Nat) (path : List (Option Nat)),
      ExploreEdgeWhenFindingPreviousSubstation (List.replicate 14 false) first depth
          (cycleGraph [1, 1, 2, 3, 4, 0, 4] costs) path 1 = none
        ∧ ExploreEdgeWhenFindingPreviousSubstation (List.replicate 14 false) first depth
          (cycleGraph [1, 1, 2, 3, 4, 0, 4] costs) path 2 = none
        ∧ ExploreEdgeWhenFindingPreviousSubstation (List.replicate 14 false) first depth
          (cycleGraph [1, 1, 2, 3, 4, 0, 4] costs) path 3 = none := by
  intro depth
  induction depth with
  | zero => intro path; exact ⟨rfl, rfl, rfl⟩
  | succ depth ih =>
    intro path
    obtain ⟨h1, h2, h3⟩ := ih path
    have e1 : ExploreEdgeWhenFindingPreviousSubstation (List.replicate 14 false) first
        (depth + 1) (cycleGraph [1, 1, 2, 3, 4, 0, 4] costs) path 1
        = match ExploreEdgeWhenFindingPreviousSubstation (List.replicate 14 false) first depth
            (cycleGraph [1, 1, 2, 3, 4, 0, 4] costs) path 2 with
          | none => none
          | some (windfarm', path, none) => some (windfarm', path, none)
          | some (windfarm', path, some _) => some (windfarm', path ++ [some 1], some 1) := rfl
    have e2 : ExploreEdgeWhenFindingPreviousSubstation (List.replicate 14 false) first
        (depth + 1) (cycleGraph [1, 1, 2, 3, 4, 0, 4] costs) path 2
        = match ExploreEdgeWhenFindingPreviousSubstation (List.replicate 14 false) first depth
            (cycleGraph [1, 1, 2, 3, 4, 0, 4] costs) path 3 with
          | none => none
          | some (windfarm', path, none) => some (windfarm', path, none)
          | some (windfarm', path, some _) => some (windfarm', path ++ [some 2], some 2) := rfl
    have e3 : ExploreEdgeWhenFindingPreviousSubstation (List.replicate 14 false) first
        (depth + 1) (cycleGraph [1, 1, 2, 3, 4, 0, 4] costs) path 3
        = match ExploreEdgeWhenFindingPreviousSubstation (List.replicate 14 false) first depth
            (cycleGraph [1, 1, 2, 3, 4, 0, 4] costs) path 1 with
          | none => none
          | some (windfarm', path, none) =>
            explorePreviousLoop
              (fun windfarm path outgoingEdge =>
                ExploreEdgeWhenFindingPreviousSubstation (List.replicate 14 false) first depth
                  windfarm path outgoingEdge)
              3 [9, 4] windfarm' path
          | some (windfarm', path, some _) => some (windfarm', path ++ [some 3], some 3) := rfl
    rw [e1, e2, e3, h1, h2, h3]
    exact ⟨rfl, rfl, rfl⟩

/-- The search from the edge `0` of the leaf `0` enters the cycle. -/
theorem explore_from_leaf (costs : List (WithTop ℚ)) (first depth : Nat)
    (path : List (Option Nat)) :
    ExploreEdgeWhenFindingPreviousSubstation (List.replicate 14 false) first depth
      (cycleGraph [1, 1, 2, 3, 4, 0, 4] costs) path 0 = none := by
  cases depth with
  | zero => rfl
  | succ depth =>
    have e0 : ExploreEdgeWhenFindingPreviousSubstation (List.replicate 14 false) first
        (depth + 1) (cycleGraph [1, 1, 2, 3, 4, 0, 4] costs) path 0
        = match ExploreEdgeWhenFindingPreviousSubstation (List.replicate 14 false) first depth
            (cycleGraph [1, 1, 2, 3, 4, 0, 4] costs) path 1 with
          | none => none
          | some (windfarm', path, none) =>
            explorePreviousLoop
              (fun windfarm path outgoingEdge =>
                ExploreEdgeWhenFindingPreviousSubstation (List.replicate 14 false) first depth
                  windfarm path outgoingEdge)
              0 [9, 4] windfarm' path
          | some (windfarm', path, some _) => some (windfarm', path ++ [some 0], some 0) := rfl
    rw [e0, (explore_on_cycle costs first depth path).1]

end EscapingLeaves

/-- C35 fails in the code: in `cycleInstance` let the flow be one unit on `0 → 1`, one on
`1 → 2`, two on `2 → 3`, three on `3 → 1` and four on `1 → 4` and from the substation `4`
on.  The flow is feasible, and the turbine `0` is a leaf turbine with the current edge `0`
and the shorter edge `5`.  `ExploreEdgeWhenFindingPreviousSubstation` never writes
`hasEdgeAlreadyBeenExplored`, so the search goes `0, 1, 2, 3, 1, 2, 3, ...` and within no
depth of recursion returns, and `IdentifyInvertedPathToPreviousSubstation` returns within
no depth and no number of iterations.  `CancelCycleWithAllPositiveFlow`, had it been called
for the edge `1`, would have taken the unit off the cycle `1, 2, 3`; on the flow without
the cycle the function returns the path `4, 0`. -/
theorem previous_substation_search_does_not_return :
    (cycleGraph [1, 1, 2, 3, 4, 0, 4] [0, 0, 0, 0, 0, 0, 0, 0, 0, 0, 0, 0, 0, 0]).IsStateOf
        (cycleGraph [0, 0, 0, 0, 0, 0, 0] [0, 0, 0, 0, 0, 0, 0, 0, 0, 0, 0, 0, 0, 0])
      ∧ AssertFeasibleFlow
          (cycleGraph [1, 1, 2, 3, 4, 0, 4] [0, 0, 0, 0, 0, 0, 0, 0, 0, 0, 0, 0, 0, 0]) = true
      ∧ EscapingLeaves.FindUniqueOutgoingEdgeWithFlowFromVertex
          (cycleGraph [1, 1, 2, 3, 4, 0, 4] [0, 0, 0, 0, 0, 0, 0, 0, 0, 0, 0, 0, 0, 0]) 0
          = some 0
      ∧ EscapingLeaves.FindShortestOutgoingEdgeWithoutFlowAsserts
          (cycleGraph [1, 1, 2, 3, 4, 0, 4] [0, 0, 0, 0, 0, 0, 0, 0, 0, 0, 0, 0, 0, 0]) 0 0
          = true
      ∧ EscapingLeaves.FindShortestOutgoingEdgeWithoutFlow
          (cycleGraph [1, 1, 2, 3, 4, 0, 4] [0, 0, 0, 0, 0, 0, 0, 0, 0, 0, 0, 0, 0, 0]) 0 0
          = some 5
      ∧ (∀ depth : Nat,
          EscapingLeaves.ExploreEdgeWhenFindingPreviousSubstation (List.replicate 14 false) 0
            depth
            (cycleGraph [1, 1, 2, 3, 4, 0, 4] [0, 0, 0, 0, 0, 0, 0, 0, 0, 0, 0, 0, 0, 0]) [] 0
            = none)
      ∧ (∀ depth fuel : Nat,
          EscapingLeaves.IdentifyInvertedPathToPreviousSubstation depth
            { turbine := 0, currentEdge := 0, shorterEdge := 5 } fuel
            (cycleGraph [1, 1, 2, 3, 4, 0, 4] [0, 0, 0, 0, 0, 0, 0, 0, 0, 0, 0, 0, 0, 0])
            = none)
      ∧ (EscapingLeaves.CancelCycleWithAllPositiveFlow
            (cycleGraph [1, 1, 2, 3, 4, 0, 4] [0, 0, 0, 0, 0, 0, 0, 0, 0, 0, 0, 0, 0, 0]) 5 1
            0).map (fun windfarm => windfarm.flowValues) = some [1, 0, 1, 2, 4, 0, 4]
      ∧ AssertFeasibleFlow
          (cycleGraph [1, -1, 0, 1, 4, 0, 4] [0, 0, 0, 0, 0, 0, 0, 0, 0, 0, 0, 0, 0, 0]) = true
      ∧ (EscapingLeaves.IdentifyInvertedPathToPreviousSubstation 2
            { turbine := 0, currentEdge := 0, shorterEdge := 5 } 1
            (cycleGraph [1, -1, 0, 1, 4, 0, 4] [0, 0, 0, 0, 0, 0, 0, 0, 0, 0, 0, 0, 0, 0])).map
          (fun r => (r.1.flowValues, r.2)) = some ([1, -1, 0, 1, 4, 0, 4], [some 4, some 0]) := by
  refine ⟨⟨rfl, rfl, rfl, rfl, rfl, rfl, rfl, rfl, rfl, rfl, rfl⟩, by decide, by decide,
    by with_unfolding_all decide, by with_unfolding_all decide, ?_, ?_, by rfl, by decide,
    by rfl⟩
  · intro depth
    exact EscapingLeaves.explore_from_leaf _ 0 depth []
  · intro depth fuel
    cases fuel with
    | zero => rfl
    | succ fuel =>
      unfold EscapingLeaves.IdentifyInvertedPathToPreviousSubstation
      have hn : (cycleGraph [1, 1, 2, 3, 4, 0, 4]
          [0, 0, 0, 0, 0, 0, 0, 0, 0, 0, 0, 0, 0, 0]).NumberOfEdges = 14 := rfl
      rw [hn]
      show (match EscapingLeaves.ExploreEdgeWhenFindingPreviousSubstation
          (List.replicate 14 false) 0 depth
          (cycleGraph [1, 1, 2, 3, 4, 0, 4] [0, 0, 0, 0, 0, 0, 0, 0, 0, 0, 0, 0, 0, 0]) [] 0 with
        | none => none
        | some (windfarm', invertedPathToPreviousSubstation, _) => _) = none
      rw [EscapingLeaves.explore_from_leaf _ 0 depth []]

end wcp

/-! # Early termination of `BellmanFord::Run`: a run with updates, and a run without -/

namespace wcp

/-- C13 (amended) on a run with updates: the residual graph of scenario S1 with the
residual costs `-5, 10, 1, 1`.  `Run` with `OneDistanceLabel` updates two labels in the first round and
returns `EARLY_TERMINATION` in the second one, and afterwards the edge `3` out of the super
substation, the last vertex, cannot be relaxed. -/
theorem early_termination_settles_edges_witness :
    ProperOutgoingEdges (pairGraph [0, 0] [-5, 10, 1, 1])
      ∧ (BellmanFord.create oneDistanceLabel (pairGraph [0, 0] [-5, 10, 1, 1])).SizedFor
          (pairGraph [0, 0] [-5, 10, 1, 1])
      ∧ (BellmanFord.Run oneDistanceLabel (pairGraph [0, 0] [-5, 10, 1, 1])
          (BellmanFord.create oneDistanceLabel (pairGraph [0, 0] [-5, 10, 1, 1]))).1
        = ReturnCode.EARLY_TERMINATION
      ∧ (BellmanFord.Run oneDistanceLabel (pairGraph [0, 0] [-5, 10, 1, 1])
          (BellmanFord.create oneDistanceLabel
            (pairGraph [0, 0] [-5, 10, 1, 1]))).2.numberOfRelaxedEdgesInLastRun = 2
      ∧ BellmanFord.IsRelaxable oneDistanceLabel (pairGraph [0, 0] [-5, 10, 1, 1])
          (BellmanFord.Run oneDistanceLabel (pairGraph [0, 0] [-5, 10, 1, 1])
            (BellmanFord.create oneDistanceLabel (pairGraph [0, 0] [-5, 10, 1, 1]))).2 2 3
          = false :=
  ⟨pairGraph_proper _ _, ⟨rfl, rfl, rfl⟩, by with_unfolding_all decide,
    by with_unfolding_all decide,
    (early_termination_settles_edges (pairGraph [0, 0] [-5, 10, 1, 1])
      (pairGraph_proper _ _)).1
      (BellmanFord.create oneDistanceLabel (pairGraph [0, 0] [-5, 10, 1, 1])) ⟨rfl, rfl, rfl⟩
      (by with_unfolding_all decide) (by with_unfolding_all decide) 2 (by decide) 3
      (by decide)⟩

/-- The run that updates no label: `vertexOfLastUpdate_` starts at the last vertex, so the
first round ends when it reaches the last vertex, whose outgoing edges have not been
relaxed.  On the residual graph of scenario S1 with the residual costs `10, 0, -20, 10`
the closed walk `2, 3` through the super substation costs `-10`, `Run` with
`OneDistanceLabel` returns `EARLY_TERMINATION` without an update, and the edge `3` out of the
super substation can still be relaxed. -/
theorem early_termination_without_update :
    IsClosedWalk (pairGraph [0, 0] [10, 0, -20, 10]) [2, 3]
      ∧ NegativeCycleCanceling.CostOfWalk (pairGraph [0, 0] [10, 0, -20, 10]) [2, 3] = -10
      ∧ (BellmanFord.Run oneDistanceLabel (pairGraph [0, 0] [10, 0, -20, 10])
          (BellmanFord.create oneDistanceLabel (pairGraph [0, 0] [10, 0, -20, 10]))).1
        = ReturnCode.EARLY_TERMINATION
      ∧ (BellmanFord.Run oneDistanceLabel (pairGraph [0, 0] [10, 0, -20, 10])
          (BellmanFord.create oneDistanceLabel
            (pairGraph [0, 0] [10, 0, -20, 10]))).2.numberOfRelaxedEdgesInLastRun = 0
      ∧ BellmanFord.IsRelaxable oneDistanceLabel (pairGraph [0, 0] [10, 0, -20, 10])
          (BellmanFord.Run oneDistanceLabel (pairGraph [0, 0] [10, 0, -20, 10])
            (BellmanFord.create oneDistanceLabel (pairGraph [0, 0] [10, 0, -20, 10]))).2 2 3
          = true := by
  refine ⟨?_, by with_unfolding_all decide, by with_unfolding_all decide,
    by with_unfolding_all decide, by with_unfolding_all decide⟩
  unfold IsClosedWalk
  refine ⟨by decide, ?_, ?_, by rfl⟩
  · intro e he
    have : e = 2 ∨ e = 3 := by simpa using he
    show e < 4
    omega
  · unfold List.Chain'
    exact List.Chain.cons (by rfl) List.Chain.nil

end wcp

/-! # The detection strategy with rounded sums of doubles -/

namespace wcp

namespace Doubles

/-! ## With the exact sum for `add`, the definitions are those used elsewhere -/

theorem costOfWalk_exact (w : WindfarmResidual) (walk : List Nat) :
    CostOfWalk (fun a b => a + b) w walk = NegativeCycleCanceling.CostOfWalk w walk :=
  rfl

namespace BellmanFord

variable {L : Type}

theorem relaxEdgeStep_exact (ops : LabelType L) (w : WindfarmResidual) (vertex : Nat) :
    RelaxEdgeStep (fun a b => a + b) ops w vertex = wcp.BellmanFord.RelaxEdgeStep ops w vertex :=
  rfl

theorem runStep_exact (ops : LabelType L) (w : WindfarmResidual) (s : wcp.BellmanFord L)
    (vertex : Nat) :
    RunStep (fun a b => a + b) ops w s vertex = wcp.BellmanFord.RunStep ops w s vertex :=
  rfl

theorem runLoop_exact (ops : LabelType L) (w : WindfarmResidual) :
    ∀ (vertices : List Nat) (s : wcp.BellmanFord L),
      RunLoop (fun a b => a + b) ops w vertices s = wcp.BellmanFord.RunLoop ops w vertices s := by
  intro vertices
  induction vertices with
  | nil => intro s; rfl
  | cons vertex rest ih =>
    intro s
    unfold RunLoop wcp.BellmanFord.RunLoop
    rw [ih, runStep_exact]

/-- With the exact sum for `add`, `Run` is the function `BellmanFord.Run`. -/
theorem run_exact (ops : LabelType L) (w : WindfarmResidual) (s : wcp.BellmanFord L) :
    Run (fun a b => a + b) ops w s = wcp.BellmanFord.Run ops w s := by
  unfold Run wcp.BellmanFord.Run
  exact runLoop_exact ops w _ _

theorem findRelaxableOutgoingEdge_exact (ops : LabelType L) (w : WindfarmResidual)
    (s : wcp.BellmanFord L) (vertex : Nat) :
    FindRelaxableOutgoingEdge (fun a b => a + b) ops w s vertex
      = wcp.BellmanFord.FindRelaxableOutgoingEdge ops w s vertex :=
  rfl

theorem extractNegativeClosedWalkLoop_exact (ops : LabelType L) (w : WindfarmResidual) :
    ∀ (vertices : List Nat) (s : wcp.BellmanFord L),
      ExtractNegativeClosedWalkLoop (fun a b => a + b) ops w vertices s
        = wcp.BellmanFord.ExtractNegativeClosedWalkLoop ops w vertices s := by
  intro vertices
  induction vertices with
  | nil => intro s; rfl
  | cons vertex rest ih =>
    intro s
    unfold ExtractNegativeClosedWalkLoop wcp.BellmanFord.ExtractNegativeClosedWalkLoop
    rw [findRelaxableOutgoingEdge_exact]
    cases wcp.BellmanFord.FindRelaxableOutgoingEdge ops w s vertex with
    | none => exact ih s
    | some relaxableEdge =>
      simp only
      cases wcp.BellmanFord.ExtractWalk ops w s relaxableEdge with
      | none => rfl
      | some r =>
        simp only
        rw [ih]

/-- With the exact sum for `add`, `ExtractNegativeClosedWalk` is the function
`BellmanFord.ExtractNegativeClosedWalk`. -/
theorem extractNegativeClosedWalk_exact (ops : LabelType L) (w : WindfarmResidual)
    (s : wcp.BellmanFord L) :
    ExtractNegativeClosedWalk (fun a b => a + b) ops w s
      = wcp.BellmanFord.ExtractNegativeClosedWalk ops w s := by
  unfold ExtractNegativeClosedWalk wcp.BellmanFord.ExtractNegativeClosedWalk
  rw [extractNegativeClosedWalkLoop_exact]

end BellmanFord

end Doubles

/-! ## A run on which the rounding of the sums decides -/

theorem rounding_closed_walk :
    IsClosedWalk (roundingGraph [3, 1, 1, 0, 3] roundingCosts) [3, 2, 5] := by
  unfold IsClosedWalk
  refine ⟨by decide, ?_, ?_, by rfl⟩
  · intro e he
    have : e = 3 ∨ e = 2 ∨ e = 5 := by simpa using he
    show e < 10
    omega
  · unfold List.Chain'
    exact List.Chain.cons (by rfl) (List.Chain.cons (by rfl) List.Chain.nil)

/-- C15 fails in the code: a sum of doubles is rounded.  For `roundingInstance` the
constructor of the residual graph and the initial construction (`NonCollecting`, Euclidean
lengths) give the feasible flow `3, 1, 1, 0`, and `ComputeResidualCosts(1)` gives the
residual costs `roundingCosts`, in which every closed walk of finite cost has a cost of zero
or more.  The label of the turbine `0` starts at `-3 * 2 ^ 51`, the cost of the edge `4`,
where neighbouring doubles are 1 apart: the sum with `-9/16` is rounded down to the next
integer, and the sum of an integer of this size with `15/32` is rounded down to the integer
itself.  So every round of `Run` lowers the labels around the cycle `3, 2, 5` by 1, `Run`
returns `SUCCESS` (for `OneDistanceLabel` after `|V| - 1` rounds and for `TwoDistancesLabel`
after `2 |V| - 1` rounds), and `ExtractNegativeClosedWalk` returns the closed walk
`3, 2, 5`, whose residual costs `15/32 + 15/32 - 9/16` add up to `3/8`, with or without
rounding: the assertion `CostOfWalk(walk) < 0` of `CancelNegativeWalk` fails.  With exact
sums `Run` returns `EARLY_TERMINATION` on the same residual costs. -/
theorem rounded_sums_yield_walk_of_positive_cost :
    Cabletypes.ofBreakpoints [1, 2, 3] [1, 2, 3] = some linearCabletypes
      ∧ WindfarmResidual.ofInstance roundingInstance
        = some (roundingGraph [0, 0, 0, 0, 0] [0, 0, 0, 0, 0, 0, 0, 0, 0, 0])
      ∧ (NonCollecting.InitializeFlow Dijkstra.popMinimum EuclideanLength
          Dijkstra.ANY_FREE_SUBSTATION
          (roundingGraph [0, 0, 0, 0, 0] [0, 0, 0, 0, 0, 0, 0, 0, 0, 0])
          (Dijkstra.create (roundingGraph [0, 0, 0, 0, 0] [0, 0, 0, 0, 0, 0, 0, 0, 0, 0]))).map
          (fun r => (r.1, r.2.1))
        = some (ReturnCode.SUCCESS,
            roundingGraph [3, 1, 1, 0, 3] [0, 0, 0, 0, 0, 0, 0, 0, 0, 0])
      ∧ AssertFeasibleFlow (roundingGraph [3, 1, 1, 0, 3] [0, 0, 0, 0, 0, 0, 0, 0, 0, 0]) = true
      ∧ StandardResidualCostComputer.ComputeResidualCosts
          (roundingGraph [3, 1, 1, 0, 3] [0, 0, 0, 0, 0, 0, 0, 0, 0, 0]) 1
        = roundingGraph [3, 1, 1, 0, 3] roundingCosts
      ∧ Binary64.add ((-6755399441055744 : ℚ) : WithTop ℚ) ((-9 / 16 : ℚ) : WithTop ℚ)
        = ((-6755399441055745 : ℚ) : WithTop ℚ)
      ∧ Binary64.add ((-6755399441055745 : ℚ) : WithTop ℚ) ((15 / 32 : ℚ) : WithTop ℚ)
        = ((-6755399441055745 : ℚ) : WithTop ℚ)
      ∧ (Doubles.BellmanFord.Run Binary64.add oneDistanceLabel
          (roundingGraph [3, 1, 1, 0, 3] roundingCosts)
          (BellmanFord.create oneDistanceLabel
            (roundingGraph [3, 1, 1, 0, 3] roundingCosts))).1
        = ReturnCode.SUCCESS
      ∧ (Doubles.BellmanFord.Run Binary64.add oneDistanceLabel
          (roundingGraph [3, 1, 1, 0, 3] roundingCosts)
          (BellmanFord.create oneDistanceLabel
            (roundingGraph [3, 1, 1, 0, 3] roundingCosts))).2.labels.map
          (fun label => label.dist)
        = [((-6755399441055748 : ℚ) : WithTop ℚ), ((-6755399441055748 : ℚ) : WithTop ℚ),
            ((-6755399441055748 : ℚ) : WithTop ℚ), 0, 0]
      ∧ (Doubles.BellmanFord.ExtractNegativeClosedWalk Binary64.add oneDistanceLabel
          (roundingGraph [3, 1, 1, 0, 3] roundingCosts)
          (Doubles.BellmanFord.Run Binary64.add oneDistanceLabel
            (roundingGraph [3, 1, 1, 0, 3] roundingCosts)
            (BellmanFord.create oneDistanceLabel
              (roundingGraph [3, 1, 1, 0, 3] roundingCosts))).2).map
          (fun r => r.2) = some [3, 2, 5]
      ∧ (Doubles.BellmanFord.Run Binary64.add twoDistancesLabel
          (roundingGraph [3, 1, 1, 0, 3] roundingCosts)
          (BellmanFord.create twoDistancesLabel
            (roundingGraph [3, 1, 1, 0, 3] roundingCosts))).1
        = ReturnCode.SUCCESS
      ∧ (Doubles.BellmanFord.ExtractNegativeClosedWalk Binary64.add twoDistancesLabel
          (roundingGraph [3, 1, 1, 0, 3] roundingCosts)
          (Doubles.BellmanFord.Run Binary64.add twoDistancesLabel
            (roundingGraph [3, 1, 1, 0, 3] roundingCosts)
            (BellmanFord.create twoDistancesLabel
              (roundingGraph [3, 1, 1, 0, 3] roundingCosts))).2).map
          (fun r => r.2) = some [3, 2, 5]
      ∧ IsClosedWalk (roundingGraph [3, 1, 1, 0, 3] roundingCosts) [3, 2, 5]
      ∧ Doubles.CostOfWalk Binary64.add (roundingGraph [3, 1, 1, 0, 3] roundingCosts) [3, 2, 5]
        = ((3 / 8 : ℚ) : WithTop ℚ)
      ∧ ¬Doubles.CostOfWalk Binary64.add (roundingGraph [3, 1, 1, 0, 3] roundingCosts) [3, 2, 5]
          < 0
      ∧ NegativeCycleCanceling.CostOfWalk (roundingGraph [3, 1, 1, 0, 3] roundingCosts) [3, 2, 5]
        = ((3 / 8 : ℚ) : WithTop ℚ)
      ∧ (BellmanFord.Run oneDistanceLabel (roundingGraph [3, 1, 1, 0, 3] roundingCosts)
          (BellmanFord.create oneDistanceLabel
            (roundingGraph [3, 1, 1, 0, 3] roundingCosts))).1
        = ReturnCode.EARLY_TERMINATION
      ∧ (BellmanFord.Run twoDistancesLabel (roundingGraph [3, 1, 1, 0, 3] roundingCosts)
          (BellmanFord.create twoDistancesLabel
            (roundingGraph [3, 1, 1, 0, 3] roundingCosts))).1
        = ReturnCode.EARLY_TERMINATION := by
  refine ⟨by decide, by rfl, by with_unfolding_all rfl, by decide!,
    by with_unfolding_all rfl, by decide!, by decide!, by decide!, by decide!, by decide!,
    by decide!, by decide!, rounding_closed_walk, by decide!, by decide!, by decide!,
    by decide!, by decide!⟩

end wcp

/-! # The initialization does not read the residual costs -/

namespace wcp

namespace WindfarmResidual

end WindfarmResidual

namespace Dijkstra

end Dijkstra

namespace Collecting

end Collecting

end wcp

/-! # A run of `Dijkstra` does not read what an earlier run left in `parent_` -/

namespace wcp

namespace Dijkstra

end Dijkstra

end wcp

/-! # `EscapingNewInitialization` from the third call on -/

namespace wcp

namespace InitializationStrategy

variable {σ : Type}

end InitializationStrategy

/-! ## Writing one value to entries of a vector -/

namespace WindfarmResidual

end WindfarmResidual

end wcp

/-! # `EscapingNewInitialization` on scenario S1 -/

namespace wcp

end wcp
